import Mathlib


/-!
# LB+-Tree: a shallow embedding of `lbtree.cc` / `lbtree.h` / `tree.h`

Non-leaf nodes (`bnode`) live in DRAM, leaf nodes (`bleaf`) in NVM.  Both
memories are modelled as total maps from addresses to typed node images.
Machine integers are `Int`/`Nat`; the places where the 64-bit width is
visible (the subtraction `key - p->k(m)` of the inner-node search) wrap
explicitly.
-/

namespace LBTree

/-! ## Constants and small helpers (`tree.h`, `lbtree.h`) -/

/-- `NON_LEAF_KEY_NUM = NONLEAF_SIZE/(KEY_SIZE+POINTER_SIZE) - 1 = 256/16 - 1`. -/
def NON_LEAF_KEY_NUM : Int := 15

/-- `LEAF_KEY_NUM`. -/
def LEAF_KEY_NUM : Nat := 14

/-- `MAX_KEY = 0x7fffffffffffffff`. -/
def MAX_KEY : Int := 2 ^ 63 - 1

/-- `MIN_KEY = 0x8000000000000000` read as a signed 64-bit integer. -/
def MIN_KEY : Int := -(2 ^ 63)

/-- A value of `key_type` (`long long`). -/
def isKey (x : Int) : Prop := MIN_KEY ≤ x ∧ x ≤ MAX_KEY

instance (x : Int) : Decidable (isKey x) := by unfold isKey; infer_instance

/-- Two's-complement wrap-around of a mathematical integer to 64 bits. -/
def wrap64 (x : Int) : Int := (x + 2 ^ 63) % 2 ^ 64 - 2 ^ 63

/-- Complement of a value promoted to a 32-bit `int`, read as a bit pattern. -/
def bnot32 (x : Nat) : Nat := 2 ^ 32 - 1 - x % 2 ^ 32

/-- Index of the lowest set bit among bits `i .. i+fuel-1`, plus one; `0` if none. -/
def ffsFrom (x : Nat) : Nat → Nat → Nat
  | 0, _ => 0
  | fuel + 1, i => if x.testBit i then i + 1 else ffsFrom x fuel (i + 1)

/-- `bitScan(x) = __builtin_ffs(x)` on a 32-bit argument. -/
def bitScan (x : Nat) : Nat := ffsFrom x 32 0

/-- Number of set bits among the lowest `n` bits. -/
def popLow (x : Nat) : Nat → Nat
  | 0 => 0
  | n + 1 => popLow x n + (if x.testBit n then 1 else 0)

/-- `countBit(x) = __builtin_popcount(x)` on a 32-bit argument. -/
def countBit (x : Nat) : Nat := popLow x 32

/-- `hashcode1B`: xor-fold of a signed 64-bit key (the shifts are arithmetic). -/
def hashcode1B (x : Int) : Nat :=
  let x1 := Int.xor x (x >>> 32)
  let x2 := Int.xor x1 (x1 >>> 16)
  let x3 := Int.xor x2 (x2 >>> 8)
  (x3 % 256).toNat

/-! ## Node images -/

/-- `IdxEntry`: a key and an 8-byte pointer. -/
structure IdxEntry where
  k : Int
  ch : Nat
deriving DecidableEq, Inhabited

/-- `bnode`: sixteen `IdxEntry`; `ent[0].k` holds the 8-byte `bnodeMeta`
(`lock` in the low 4 bytes, `num` in the high 4 bytes). -/
structure bnode where
  ent : List IdxEntry
deriving DecidableEq, Inhabited

namespace bnode

/-- The entry `ent[idx]`. -/
def entAt (p : bnode) (idx : Int) : IdxEntry := p.ent.getD idx.toNat default

/-- `k(idx)`. -/
def k (p : bnode) (idx : Int) : Int := (p.entAt idx).k

/-- `ch(idx)`. -/
def ch (p : bnode) (idx : Int) : Nat := (p.entAt idx).ch

/-- `num()`: the high 32 bits of `ent[0].k`, as a signed `int`. -/
def num (p : bnode) : Int := (p.k 0) / 2 ^ 32

/-- `lock()`: the low 32 bits of `ent[0].k`, as a signed `int`. -/
def lock (p : bnode) : Int := ((p.k 0) % 2 ^ 32 + 2 ^ 31) % 2 ^ 32 - 2 ^ 31

/-- `ent[idx] = e`. -/
def setEnt (p : bnode) (idx : Int) (e : IdxEntry) : bnode := ⟨p.ent.set idx.toNat e⟩

/-- `k(idx) = v`. -/
def setK (p : bnode) (idx : Int) (v : Int) : bnode := p.setEnt idx ⟨v, p.ch idx⟩

/-- `ch(idx) = c`. -/
def setCh (p : bnode) (idx : Int) (c : Nat) : bnode := p.setEnt idx ⟨p.k idx, c⟩

/-- `num() = n`: rewrites the high 32 bits of `ent[0].k`. -/
def setNum (p : bnode) (n : Int) : bnode := p.setK 0 (n * 2 ^ 32 + (p.k 0) % 2 ^ 32)

/-- `lock() = l`: rewrites the low 32 bits of `ent[0].k`. -/
def setLock (p : bnode) (l : Int) : bnode := p.setK 0 ((p.k 0) / 2 ^ 32 * 2 ^ 32 + l % 2 ^ 32)

end bnode

/-- `bleafMeta`: the first 16 bytes of a leaf (two 8-byte words). Word 0 holds
`bitmap:14`, `lock:1`, `alt:1` and `fgpt[0..5]`; word 1 holds `fgpt[6..13]`. -/
structure bleafMeta where
  bitmap : Nat
  lock : Nat
  alt : Nat
  fgpt : List Nat
deriving DecidableEq, Inhabited

/-- `bleaf`: 16-byte header, fourteen entries, two sibling pointers. -/
structure bleaf where
  bitmap : Nat
  lock : Nat
  alt : Nat
  fgpt : List Nat
  ent : List IdxEntry
  next : List Nat
deriving DecidableEq, Inhabited

namespace bleaf

/-- The entry `ent[idx]`. -/
def entAt (p : bleaf) (idx : Nat) : IdxEntry := p.ent.getD idx default

/-- `k(idx)`. -/
def k (p : bleaf) (idx : Nat) : Int := (p.entAt idx).k

/-- `ch(idx)`. -/
def ch (p : bleaf) (idx : Nat) : Nat := (p.entAt idx).ch

/-- `fgpt[idx]`. -/
def fg (p : bleaf) (idx : Nat) : Nat := p.fgpt.getD idx 0

/-- `num()`: `countBit(bitmap)`. -/
def num (p : bleaf) : Nat := countBit p.bitmap

/-- `nextSibling()`: `next[alt]`. -/
def nextSibling (p : bleaf) : Nat := p.next.getD p.alt 0

/-- `isFull()`. -/
def isFull (p : bleaf) : Bool := p.bitmap == 0x3fff

/-- The temporary copy `bleafMeta meta = *((bleafMeta *)lp)`. -/
def getMeta (p : bleaf) : bleafMeta := ⟨p.bitmap, p.lock, p.alt, p.fgpt⟩

/-- `setBothWords(m)`: copies both header words. -/
def setBothWords (p : bleaf) (m : bleafMeta) : bleaf :=
  { p with bitmap := m.bitmap, lock := m.lock, alt := m.alt, fgpt := m.fgpt }

/-- `setWord0(m)`: copies header word 0 only, i.e. the bit fields and `fgpt[0..5]`. -/
def setWord0 (p : bleaf) (m : bleafMeta) : bleaf :=
  { p with bitmap := m.bitmap, lock := m.lock, alt := m.alt,
           fgpt := m.fgpt.take 6 ++ p.fgpt.drop 6 }

/-- `ent[idx] = e`. -/
def setEnt (p : bleaf) (idx : Nat) (e : IdxEntry) : bleaf := { p with ent := p.ent.set idx e }

end bleaf

/-! ## The search step inside one inner node -/

/-- The loop `while (b+7<=t) { m=(b+t)>>1; r= key - p->k(m); ... }` of
`lookup`/`insert`/`del`.  `r` is a `key_type`, so the difference wraps to 64
bits.  The result is `Sum.inl m` when the loop leaves through
`goto inner_done` (child `m` chosen) and `Sum.inr (b, t)` when it falls
through to the sequential scan. -/
def binSearch (p : bnode) (key : Int) : Nat → Int → Int → Sum Int (Int × Int)
  | 0, b, t => Sum.inr (b, t)
  | fuel + 1, b, t =>
    if b + 7 ≤ t then
      let m := (b + t) / 2
      let r := wrap64 (key - p.k m)
      if r > 0 then binSearch p key fuel (m + 1) t
      else if r < 0 then binSearch p key fuel b (m - 1)
      else Sum.inl m
    else Sum.inr (b, t)

/-- The loop `for (; b<=t; b++) if (key < p->k(b)) break;`, returning the final `b`. -/
def seqSearch (p : bnode) (key : Int) : Nat → Int → Int → Int
  | 0, b, _ => b
  | fuel + 1, b, t =>
    if b ≤ t then
      if key < p.k b then b else seqSearch p key fuel (b + 1) t
    else b

/-- The child index selected in node `p` for `key`: `m` on an exact hit of the
binary search, `b-1` after the sequential scan (this is the value stored in
`ppos[i]`).  The fuel of either loop is its own range length, which bounds the
number of iterations. -/
def searchNode (p : bnode) (key : Int) : Int :=
  match binSearch p key (p.num.toNat + 1) 1 p.num with
  | Sum.inl m => m
  | Sum.inr (b, t) => seqSearch p key ((t - b + 1).toNat) b t - 1

/-! ## Memory pools (`mempool.h`) and the tree state -/

/-- `mempool`: bump cursor, end of the segment and the head of the list of freed nodes. -/
structure mempool where
  cur : Nat
  limit : Nat
  free_node : Nat
deriving DecidableEq, Inhabited

/-- `mempool::alloc(size)` for a request whose pointer sum `mempool_cur + size`
stays inside the 64-bit address space, as it does for every request of the
tree on a pool that lies in memory: `none` stands for the fail-stop `exit(1)`.
`mempool.alloc64` is the code for every `unsigned long long size`, with the
sum taken modulo `2^64`; the two agree when the sum does not wrap
(`alloc64_eq_alloc`). -/
def mempool.alloc (m : mempool) (size : Nat) : Option (Nat × mempool) :=
  if m.cur + size ≤ m.limit then some (m.cur, { m with cur := m.cur + size }) else none

/-- `mempool::alloc(size)` for every `unsigned long long size`: the pointer sum
`mempool_cur + size` is computed in 64 bits, that is modulo `2^64`, both in
the test `mempool_cur + size <= mempool_end` and in `mempool_cur += size`.
`none` stands for the fail-stop `exit(1)`. -/
def mempool.alloc64 (m : mempool) (size : Nat) : Option (Nat × mempool) :=
  if (m.cur + size) % 2 ^ 64 ≤ m.limit then
    some (m.cur, { m with cur := (m.cur + size) % 2 ^ 64 })
  else none

/-- The whole memory seen by the tree operations: the NVM leaves, the DRAM
inner nodes, `treeMeta` (`root_level`, `tree_root`, `*first_leaf`) and the two
per-thread pools. -/
structure State where
  leaf : Nat → bleaf
  node : Nat → bnode
  root_level : Int
  tree_root : Nat
  first_leaf : Nat
  nvmpool : mempool
  dpool : mempool

/-- Store a leaf image at address `a`. -/
def State.setLeaf (s : State) (a : Nat) (l : bleaf) : State :=
  { s with leaf := fun x => if x = a then l else s.leaf x }

/-- Store an inner-node image at address `a`. -/
def State.setNode (s : State) (a : Nat) (n : bnode) : State :=
  { s with node := fun x => if x = a then n else s.node x }

/-- Header word 0 of a leaf read as an 8-byte little-endian value. -/
def bleaf.word0 (p : bleaf) : Nat :=
  p.bitmap % 2 ^ 14 + (p.lock % 2) * 2 ^ 14 + (p.alt % 2) * 2 ^ 15
    + (p.fg 0) * 2 ^ 16 + (p.fg 1) * 2 ^ 24 + (p.fg 2) * 2 ^ 32
    + (p.fg 3) * 2 ^ 40 + (p.fg 4) * 2 ^ 48 + (p.fg 5) * 2 ^ 56

/-- Overwrite header word 0 of a leaf with an 8-byte value. -/
def bleaf.putWord0 (p : bleaf) (v : Nat) : bleaf :=
  { p with bitmap := v % 2 ^ 14, lock := v / 2 ^ 14 % 2, alt := v / 2 ^ 15 % 2,
           fgpt := [v / 2 ^ 16 % 256, v / 2 ^ 24 % 256, v / 2 ^ 32 % 256,
                    v / 2 ^ 40 % 256, v / 2 ^ 48 % 256, v / 2 ^ 56 % 256] ++ p.fgpt.drop 6 }

/-- `nvmpool_alloc_node(LEAF_SIZE)`: pops the free list (the link is stored in
the first 8 bytes of the freed leaf) or bumps the cursor. -/
def nvmpool_alloc_node (s : State) : Option (Nat × State) :=
  if s.nvmpool.free_node ≠ 0 then
    some (s.nvmpool.free_node,
      { s with nvmpool := { s.nvmpool with free_node := (s.leaf s.nvmpool.free_node).word0 } })
  else
    match s.nvmpool.alloc 256 with
    | some (p, m) => some (p, { s with nvmpool := m })
    | none => none

/-- `nvmpool_free_node(p)`: links the leaf into the free list through its first 8 bytes. -/
def nvmpool_free_node (s : State) (p : Nat) : State :=
  { s.setLeaf p ((s.leaf p).putWord0 s.nvmpool.free_node) with
    nvmpool := { s.nvmpool with free_node := p } }

/-- `mempool_alloc_node(NONLEAF_SIZE)`. -/
def mempool_alloc_node (s : State) : Option (Nat × State) :=
  if s.dpool.free_node ≠ 0 then
    some (s.dpool.free_node,
      { s with dpool := { s.dpool with free_node := ((s.node s.dpool.free_node).k 0 % 2 ^ 64).toNat } })
  else
    match s.dpool.alloc 256 with
    | some (p, m) => some (p, { s with dpool := m })
    | none => none

/-- `mempool_free_node(p)`: the link overwrites `ent[0].k` of the freed node. -/
def mempool_free_node (s : State) (p : Nat) : State :=
  { s.setNode p ((s.node p).setK 0 (wrap64 s.dpool.free_node)) with
    dpool := { s.dpool with free_node := p } }

/-! ## Outcomes -/

/-- How an operation ends.  `retry` is the `goto Again` taken after `_xabort`
on a set lock bit: single-threaded, nothing can clear the bit, so the
operation never returns.  `nomem` is the allocator's `exit(1)`.  `unrecorded`
is a read of a `parray`/`ppos` entry the descent never wrote. -/
inductive Res (α : Type) where
  | ok : α → Res α
  | retry : Res α
  | nomem : Res α
  | unrecorded : Res α

/-- The final state of an operation that returned. -/
def Res.toOption {α : Type} : Res α → Option α
  | Res.ok a => some a
  | _ => none

/-! ## Root-to-leaf descent and the leaf probe -/

/-- The path recorded by the descent of `insert`/`del`: `parray[i]`, `ppos[i]`
and `isfull[i]`, each unwritten (`none`) until the descent stores it. -/
structure Path where
  parray : Nat → Option Nat
  ppos : Nat → Option Int
  isfull : Nat → Option Bool

/-- The local arrays before the descent. -/
def Path.empty : Path := ⟨fun _ => none, fun _ => none, fun _ => none⟩

/-- `parray[i] = p`. -/
def Path.setParray (pt : Path) (i : Nat) (p : Nat) : Path :=
  { pt with parray := fun x => if x = i then some p else pt.parray x }

/-- `ppos[i] = c`. -/
def Path.setPpos (pt : Path) (i : Nat) (c : Int) : Path :=
  { pt with ppos := fun x => if x = i then some c else pt.ppos x }

/-- `isfull[i] = f`. -/
def Path.setIsfull (pt : Path) (i : Nat) (f : Bool) : Path :=
  { pt with isfull := fun x => if x = i then some f else pt.isfull x }

/-- The loop `for (i=root_level; i>0; i--)` of `lookup`: from node `p` at level
`i` down to the leaf.  `none` is the abort on a set lock bit. -/
def descend (s : State) (key : Int) : Nat → Nat → Option Nat
  | 0, p => some p
  | i + 1, p =>
    let nd := s.node p
    if nd.lock ≠ 0 then none
    else descend s key i (nd.ch (searchNode nd key))

/-- The same loop in `insert` and `del`, which also records the path.
(`del` does not use `isfull`.) -/
def descendPath (s : State) (key : Int) : Nat → Nat → Path → Option (Nat × Path)
  | 0, p, pt => some (p, pt)
  | i + 1, p, pt =>
    let nd := s.node p
    if nd.lock ≠ 0 then none
    else
      let c := searchNode nd key
      descendPath s key i (nd.ch c)
        (((pt.setParray (i + 1) p).setIsfull (i + 1) (nd.num == NON_LEAF_KEY_NUM)).setPpos (i + 1) c)

/-- The sixteen header bytes loaded by `_mm_load_si128((const __m128i*)lp)`. -/
def bleaf.headerBytes (lp : bleaf) : List Nat :=
  let w := lp.bitmap % 2 ^ 14 + (lp.lock % 2) * 2 ^ 14 + (lp.alt % 2) * 2 ^ 15
  [w % 256, w / 256] ++ (List.range 14).map lp.fg

/-- `_mm_movemask_epi8(_mm_cmpeq_epi8(key_16B, fgpt_16B))`: bit `i` of the
result is set iff byte `i` equals the key hash (the first byte gives bit 0). -/
def movemask (key_hash : Nat) : List Nat → Nat
  | [] => 0
  | b :: rest => Nat.bit (decide (b = key_hash)) (movemask key_hash rest)

/-- `mask = (mask >> 2) & bitmap`: the candidate slots. -/
def candidateMask (lp : bleaf) (key_hash : Nat) : Nat :=
  (movemask key_hash lp.headerBytes >>> 2) &&& lp.bitmap

/-- The loop `while (mask) { jj = bitScan(mask)-1; ... mask &= ~(0x1<<jj); }`:
the slot found, or `-1`. -/
def probe (lp : bleaf) (key : Int) : Nat → Nat → Int
  | 0, _ => -1
  | fuel + 1, mask =>
    if mask = 0 then -1
    else
      let jj := bitScan mask - 1
      if lp.k jj = key then (jj : Int)
      else probe lp key fuel (mask &&& bnot32 (1 <<< jj))

/-- Steps 3 of `lookup`/`insert`/`del` after the lock test: the slot of `key`
in leaf `lp`, or `-1`.  A mask has at most 32 bits, one is cleared per round. -/
def searchLeaf (lp : bleaf) (key : Int) : Int :=
  probe lp key 32 (candidateMask lp (hashcode1B key))

/-- `lbtree::lookup(key, &pos)`: the leaf pointer and `*pos`; `none` when the
operation aborts on a lock bit (and would retry forever). -/
def lookup (s : State) (key : Int) : Option (Nat × Int) :=
  match descend s key s.root_level.toNat s.tree_root with
  | none => none
  | some lp =>
    if (s.leaf lp).lock ≠ 0 then none
    else some (lp, searchLeaf (s.leaf lp) key)

/-- `get_recptr(p, pos)`. -/
def get_recptr (s : State) (p : Nat) (pos : Int) : Nat := (s.leaf p).ch pos.toNat

end LBTree


namespace LBTree

/-! ## `qsortBleaf` -/

/-- `pos[i]` of the local array of slot numbers. -/
def posAt (pos : List Nat) (i : Int) : Nat := pos.getD i.toNat 0

/-- `while ((l<r) && (p->k(pos[r])>key)) r--;` -/
def scanDown (p : bleaf) (pos : List Nat) (key : Int) (l : Int) : Nat → Int → Int
  | 0, r => r
  | fuel + 1, r => if l < r ∧ p.k (posAt pos r) > key then scanDown p pos key l fuel (r - 1) else r

/-- `while ((l<r) && (p->k(pos[l])<=key)) l++;` -/
def scanUp (p : bleaf) (pos : List Nat) (key : Int) (r : Int) : Nat → Int → Int
  | 0, l => l
  | fuel + 1, l => if l < r ∧ p.k (posAt pos l) ≤ key then scanUp p pos key r fuel (l + 1) else l

/-- The partition loop `while (l<r) { ... }` of `qsortBleaf`; returns the final `l` and `pos`. -/
def partitionLoop (p : bleaf) (key : Int) : Nat → Int → Int → List Nat → Int × List Nat
  | 0, l, _, pos => (l, pos)
  | fuel + 1, l, r, pos =>
    if l < r then
      let r1 := scanDown p pos key l (r - l).toNat r
      let (l1, pos1) := if l < r1 then (l + 1, pos.set l.toNat (posAt pos r1)) else (l, pos)
      let l2 := scanUp p pos1 key r1 (r1 - l1).toNat l1
      let (r2, pos2) := if l2 < r1 then (r1 - 1, pos1.set r1.toNat (posAt pos1 l2)) else (r1, pos1)
      partitionLoop p key fuel l2 r2 pos2
    else (l, pos)

/-- `qsortBleaf(p, start, end, pos)`: sorts `pos[start..end]` by the keys of the
slots it names.  The fuel bounds the recursion depth by the length of the range. -/
def qsortBleaf (p : bleaf) : Nat → Int → Int → List Nat → List Nat
  | 0, _, _, pos => pos
  | fuel + 1, start, end_, pos =>
    if start ≥ end_ then pos
    else
      let pos_start := posAt pos start
      let key := p.k pos_start
      let (l, pos1) := partitionLoop p key (end_ - start).toNat start end_ pos
      let pos2 := pos1.set l.toNat pos_start
      let pos3 := qsortBleaf p fuel start (l - 1) pos2
      qsortBleaf p fuel (l + 1) end_ pos3

/-! ## Insertion into a leaf -/

/-- `last_slot_in_line[]` as filled by `initUseful`. -/
def last_slot_in_line (slot : Nat) : Nat :=
  [2, 2, 2, 6, 6, 6, 6, 10, 10, 10, 10, 13, 13, 13].getD slot 0

/-- The loop `for (int to=slot+1; to<=last_slot; to++)` that fills the empty
slots of the target line with entries of line 0.  Returns the leaf, the
temporary meta, the local `bitmap` and `from`. -/
def moveLoop (last_slot : Nat) : Nat → Nat → Nat → Nat → bleaf → bleafMeta →
    bleaf × bleafMeta × Nat × Nat
  | 0, _, from_, bitmap, lp, m => (lp, m, bitmap, from_)
  | fuel + 1, to_, from_, bitmap, lp, m =>
    if to_ ≤ last_slot then
      if bitmap &&& (1 <<< to_) = 0 then
        moveLoop last_slot fuel (to_ + 1) (from_ + 1)
          ((((bitmap ||| (1 <<< to_)) % 2 ^ 16) &&& bnot32 (1 <<< from_)) % 2 ^ 16)
          (lp.setEnt to_ (lp.entAt from_))
          { m with fgpt := m.fgpt.set to_ (m.fgpt.getD from_ 0) }
      else moveLoop last_slot fuel (to_ + 1) from_ bitmap lp m
    else (lp, m, bitmap, from_)

/-- The block "get first empty slot; set `leaf.entry[slot]`; publish", which
`insert` contains twice (non-full leaf, and step 2.8 after a split).  `m` is
the temporary `meta` with its lock bit already adjusted by the caller. -/
def leafPut (lp : bleaf) (m : bleafMeta) (key : Int) (ptr : Nat) (key_hash : Nat) : bleaf :=
  let bitmap := m.bitmap
  let slot := bitScan (bnot32 bitmap) - 1
  let lp1 := lp.setEnt slot ⟨key, ptr⟩
  let m1 : bleafMeta := { m with fgpt := m.fgpt.set slot key_hash }
  let bitmap1 := (bitmap ||| (1 <<< slot)) % 2 ^ 16
  if slot < 3 then
    lp1.setWord0 { m1 with bitmap := bitmap1 % 2 ^ 14 }
  else
    let last_slot := last_slot_in_line slot
    let (lp2, m2, bitmap2, _) := moveLoop last_slot (last_slot - slot) (slot + 1) 0 bitmap1 lp1 m1
    lp2.setBothWords { m2 with bitmap := bitmap2 % 2 ^ 14 }

/-- Step 2.4 of the split: `for (int i=split; i<LEAF_KEY_NUM; i++)` moving the
entries `sorted_pos[i]` into slot `i` of the new leaf and collecting `freed_slots`. -/
def moveToNew (lp : bleaf) (sorted_pos : List Nat) : Nat → Nat → bleaf → Nat → bleaf × Nat
  | 0, _, newp, freed => (newp, freed)
  | fuel + 1, i, newp, freed =>
    if i < LEAF_KEY_NUM then
      let sp := sorted_pos.getD i 0
      moveToNew lp sorted_pos fuel (i + 1)
        { newp with ent := newp.ent.set i (lp.entAt sp), fgpt := newp.fgpt.set i (lp.fg sp) }
        ((freed ||| (1 <<< sp)) % 2 ^ 16)
    else (newp, freed)

/-- What the leaf part of a split hands over: the two leaf images and the
entry `(split_key, newp)` for the parent. -/
structure SplitOut where
  lp : bleaf
  newp : bleaf
  split_key : Int

/-- Part 2, case "leaf is full, split", on the images of the old leaf `lp`
(lock bit set) and of the freshly allocated leaf at address `newa`. -/
def leafSplit (lp : bleaf) (new0 : bleaf) (newa : Nat) (root_level : Int)
    (key : Int) (ptr : Nat) (key_hash : Nat) : SplitOut :=
  let m := lp.getMeta
  let sorted_pos := qsortBleaf lp LEAF_KEY_NUM 0 (LEAF_KEY_NUM - 1) (List.range LEAF_KEY_NUM)
  let split := LEAF_KEY_NUM / 2
  let split_key := lp.k (sorted_pos.getD split 0)
  let (new1, freed_slots) := moveToNew lp sorted_pos (LEAF_KEY_NUM - split) split new0 0
  let new2 : bleaf := { new1 with bitmap := (((1 <<< (LEAF_KEY_NUM - split)) - 1) <<< split) % 2 ^ 14,
                                  lock := 0, alt := 0 }
  let m1 : bleafMeta := { m with bitmap := m.bitmap &&& bnot32 freed_slots }
  let new3 : bleaf := { new2 with next := new2.next.set 0 (lp.next.getD lp.alt 0) }
  let lp1 : bleaf := { lp with next := lp.next.set (1 - lp.alt) newa }
  let m2 : bleafMeta := { m1 with alt := 1 - lp.alt }
  let (new4, m3) :=
    if key > split_key then
      (({ new3 with ent := new3.ent.set (split - 1) ⟨key, ptr⟩,
                    fgpt := new3.fgpt.set (split - 1) key_hash,
                    bitmap := (new3.bitmap ||| (1 <<< (split - 1))) % 2 ^ 14 } : bleaf),
       (if root_level > 0 then { m2 with lock := 0 } else m2))
    else (new3, m2)
  let lp2 := lp1.setBothWords m3
  let lp3 :=
    if key ≤ split_key then
      leafPut lp2 (if root_level > 0 then { m3 with lock := 0 } else m3) key ptr key_hash
    else lp2
  ⟨lp3, new4, split_key⟩

end LBTree


namespace LBTree

/-! ## Entry-moving loops on inner nodes -/

/-- `for (i=hi; i>=lo; i--) p->ent[i+1]= p->ent[i];` (in place). -/
def shiftUp (lo : Int) : Nat → Int → bnode → bnode
  | 0, _, p => p
  | fuel + 1, i, p => if i ≥ lo then shiftUp lo fuel (i - 1) (p.setEnt (i + 1) (p.entAt i)) else p

/-- `for (i=lo; i<n; i++) p->ent[i]= p->ent[i+1];` (in place). -/
def shiftDown (n : Int) : Nat → Int → bnode → bnode
  | 0, _, p => p
  | fuel + 1, i, p => if i < n then shiftDown n fuel (i + 1) (p.setEnt i (p.entAt (i + 1))) else p

/-- `for (...; r>=0; r--, i--) newp->ent[r]= p->ent[i];` -/
def copyWhileR (p : bnode) : Nat → Int → Int → bnode → bnode
  | 0, _, _, newp => newp
  | fuel + 1, r, i, newp =>
    if r ≥ 0 then copyWhileR p fuel (r - 1) (i - 1) (newp.setEnt r (p.entAt i)) else newp

/-- `for (...; i>=pos; i--, r--) newp->ent[r]= p->ent[i];`, returning also the final `r` and `i`. -/
def copyWhileI (p : bnode) (pos : Int) : Nat → Int → Int → bnode → bnode × Int × Int
  | 0, r, i, newp => (newp, r, i)
  | fuel + 1, r, i, newp =>
    if i ≥ pos then copyWhileI p pos fuel (r - 1) (i - 1) (newp.setEnt r (p.entAt i))
    else (newp, r, i)

/-- `LEFT_KEY_NUM = NON_LEAF_KEY_NUM/2`. -/
def LEFT_KEY_NUM : Int := NON_LEAF_KEY_NUM / 2

/-- `RIGHT_KEY_NUM = NON_LEAF_KEY_NUM - LEFT_KEY_NUM`. -/
def RIGHT_KEY_NUM : Int := NON_LEAF_KEY_NUM - LEFT_KEY_NUM

/-- Part 3 of `insert`, non-full node: shift, store `(key, ptr)` at `pos`,
`num = n+1`, unlock. -/
def nodeInsert (p : bnode) (pos : Int) (key : Int) (ptr : Nat) : bnode :=
  let n := p.num
  let p1 := shiftUp pos (n - pos + 1).toNat n p
  let p2 := (p1.setK pos key).setCh pos ptr
  (p2.setNum (n + 1)).setLock 0

/-- Part 3 of `insert`, full node: redistribute between `p` and the new node
`newp`.  Returns both images (before the `num`/`lock` stores) and nothing else;
the key pushed up is `newp->k(0)` of the returned right image. -/
def nodeSplitMove (p newp : bnode) (pos : Int) (key : Int) (ptr : Nat) : bnode × bnode :=
  if pos ≤ LEFT_KEY_NUM then
    let new1 := copyWhileR p (RIGHT_KEY_NUM + 1).toNat RIGHT_KEY_NUM NON_LEAF_KEY_NUM newp
    let p1 := shiftUp pos (LEFT_KEY_NUM - pos).toNat (LEFT_KEY_NUM - 1) p
    ((p1.setK pos key).setCh pos ptr, new1)
  else
    let (new1, r, i) := copyWhileI p pos (NON_LEAF_KEY_NUM - pos + 1).toNat
                          RIGHT_KEY_NUM NON_LEAF_KEY_NUM newp
    let new2 := (new1.setK r key).setCh r ptr
    let new3 := copyWhileR p (r - 1 + 1).toNat (r - 1) i new2
    (p, new3)

/-- One round of the `while (lev <= total_level)` loop on a full node: the
images of `p` and `newp` after the round and the key to push up. -/
def nodeSplit (p newp : bnode) (pos : Int) (key : Int) (ptr : Nat) (unlock : Bool) :
    bnode × bnode × Int :=
  let (p1, new1) := nodeSplitMove p newp pos key ptr
  let upkey := new1.k 0
  let p2 := p1.setNum LEFT_KEY_NUM
  let p3 := if unlock then p2.setLock 0 else p2
  (p3, (new1.setNum RIGHT_KEY_NUM).setLock 0, upkey)

/-! ## `lbtree::insert` -/

/-- Part 1, step 4: `for (i=1; i<=root_level; i++) { p= parray[i]; p->lock()= 1;
if (! isfull[i]) break; }`. -/
def lockFullAncestors (pt : Path) (root_level : Int) : Nat → Nat → State → Res State
  | 0, _, s => Res.ok s
  | fuel + 1, i, s =>
    if (i : Int) ≤ root_level then
      match pt.parray i, pt.isfull i with
      | some p, some f =>
        let s1 := s.setNode p ((s.node p).setLock 1)
        if ! f then Res.ok s1 else lockFullAncestors pt root_level fuel (i + 1) s1
      | _, _ => Res.unrecorded
    else Res.ok s

/-- The root was split: add another level (end of Part 3). -/
def newRoot (s : State) (total_level : Int) (lev : Int) (key : Int) (ptr : Nat) : Res State :=
  match mempool_alloc_node s with
  | none => Res.nomem
  | some (newa, s1) =>
    let newp := (((((s1.node newa).setNum 1).setLock 1).setCh 0 s1.tree_root).setCh 1 ptr).setK 1 key
    let s2 := s1.setNode newa newp
    let old_root := s2.tree_root
    let s3 : State := { s2 with root_level := lev, tree_root := newa }
    let s4 :=
      if total_level > 0 then s3.setNode old_root ((s3.node old_root).setLock 0)
      else s3.setLeaf old_root { s3.leaf old_root with lock := 0 }
    Res.ok (s4.setNode newa ((s4.node newa).setLock 0))

/-- Part 3 of `insert`: the loop `while (lev <= total_level)` followed by the
root replacement.  `(key, ptr)` is the entry to add at level `lev`. -/
def insertNonleaf (pt : Path) (total_level : Int) : Nat → Int → Int → Nat → State → Res State
  | 0, _, _, _, _ => Res.unrecorded
  | fuel + 1, lev, key, ptr, s =>
    if lev ≤ total_level then
      match pt.parray lev.toNat, pt.ppos lev.toNat with
      | some pa, some pp =>
        let p := s.node pa
        let n := p.num
        let pos := pp + 1
        if n < NON_LEAF_KEY_NUM then Res.ok (s.setNode pa (nodeInsert p pos key ptr))
        else
          match mempool_alloc_node s with
          | none => Res.nomem
          | some (newa, s1) =>
            let (p1, new1, upkey) :=
              nodeSplit (s1.node pa) (s1.node newa) pos key ptr (decide (lev < total_level))
            insertNonleaf pt total_level fuel (lev + 1) upkey newa
              ((s1.setNode pa p1).setNode newa new1)
      | _, _ => Res.unrecorded
    else newRoot s total_level lev key ptr

/-- `lbtree::insert(key, ptr)`. -/
def insert (s : State) (key : Int) (ptr : Nat) : Res State :=
  let key_hash := hashcode1B key
  match descendPath s key s.root_level.toNat s.tree_root Path.empty with
  | none => Res.retry
  | some (lpa, pt0) =>
    if (s.leaf lpa).lock ≠ 0 then Res.retry
    else
      let pt1 := pt0.setParray 0 lpa
      if searchLeaf (s.leaf lpa) key ≥ 0 then Res.ok s
      else
        let s1 := s.setLeaf lpa { s.leaf lpa with lock := 1 }
        let full := (s1.leaf lpa).isFull
        let pt := pt1.setIsfull 0 full
        match (if full then lockFullAncestors pt s1.root_level s1.root_level.toNat 1 s1
               else Res.ok s1) with
        | Res.ok s2 =>
          let lp := s2.leaf lpa
          if ! full then
            Res.ok (s2.setLeaf lpa (leafPut lp { lp.getMeta with lock := 0 } key ptr key_hash))
          else
            match nvmpool_alloc_node s2 with
            | none => Res.nomem
            | some (newa, s3) =>
              let out := leafSplit (s3.leaf lpa) (s3.leaf newa) newa s3.root_level key ptr key_hash
              let s4 := (s3.setLeaf newa out.newp).setLeaf lpa out.lp
              insertNonleaf pt s4.root_level (s4.root_level.toNat + 1) 1 out.split_key newa s4
        | Res.retry => Res.retry
        | Res.nomem => Res.nomem
        | Res.unrecorded => Res.unrecorded

/-! ## `lbtree::del` -/

/-- `for (i=1; i<=root_level; i++) if (ppos[i]>=1) break;`, returning the final `i`. -/
def findSibLevel (pt : Path) (root_level : Int) : Nat → Nat → Option Nat
  | 0, i => some i
  | fuel + 1, i =>
    if (i : Int) ≤ root_level then
      match pt.ppos i with
      | some pp => if pp ≥ 1 then some i else findSibLevel pt root_level fuel (i + 1)
      | none => none
    else some i

/-- `for (; i>=1; i--) p= p->ch(p->num());` -/
def rightmost (s : State) : Nat → Nat → Nat
  | 0, p => p
  | i + 1, p => rightmost s i ((s.node p).ch (s.node p).num)

/-- `for (i=1; i<=root_level; i++) { p= parray[i]; p->lock()= 1; if (p->num() >= 1) break; }`. -/
def lockAffectedAncestors (pt : Path) (root_level : Int) : Nat → Nat → State → Res State
  | 0, _, s => Res.ok s
  | fuel + 1, i, s =>
    if (i : Int) ≤ root_level then
      match pt.parray i with
      | some p =>
        let s1 := s.setNode p ((s.node p).setLock 1)
        if (s1.node p).num ≥ 1 then Res.ok s1
        else lockAffectedAncestors pt root_level fuel (i + 1) s1
      | none => Res.unrecorded
    else Res.ok s

/-- Part 3 of `del`: the loop `while (1)` over the recorded path and, after
`break`, the removal of a root left with one child. -/
def delNonleaf (pt : Path) : Nat → Int → State → Res State
  | 0, _, _ => Res.unrecorded
  | fuel + 1, lev, s =>
    match pt.parray lev.toNat, pt.ppos lev.toNat with
    | some pa, some pp =>
      let p := s.node pa
      let n := p.num
      if n > 0 then
        let (p1, pos) := if pp = 0 then (p.setCh 0 (p.ch 1), (1 : Int)) else (p, pp)
        let p2 := shiftDown n (n - pos).toNat pos p1
        let p3 := p2.setNum (n - 1)
        let s1 := s.setNode pa p3
        if p3.num = 0 ∧ lev ≥ s1.root_level then
          let s2 : State := { s1 with root_level := s1.root_level - 1, tree_root := p3.ch 0 }
          Res.ok (mempool_free_node s2 pa)
        else Res.ok (s1.setNode pa (p3.setLock 0))
      else delNonleaf pt fuel (lev + 1) (mempool_free_node s pa)
    | _, _ => Res.unrecorded

/-- `lbtree::del(key)`. -/
def del (s : State) (key : Int) : Res State :=
  match descendPath s key s.root_level.toNat s.tree_root Path.empty with
  | none => Res.retry
  | some (lpa, pt0) =>
    if (s.leaf lpa).lock ≠ 0 then Res.retry
    else
      let pt1 := pt0.setParray 0 lpa
      let i := searchLeaf (s.leaf lpa) key
      if i < 0 then Res.ok s
      else
        let pt := pt1.setPpos 0 i
        let s1 := s.setLeaf lpa { s.leaf lpa with lock := 1 }
        -- Part 1, step 4: the left sibling and the ancestors to lock
        let locked : Res (State × Nat) :=
          if (s1.leaf lpa).num = 1 then
            match findSibLevel pt s1.root_level s1.root_level.toNat 1 with
            | none => Res.unrecorded
            | some lvl =>
              let sib : Res (State × Nat) :=
                if (lvl : Int) ≤ s1.root_level then
                  match pt.parray lvl, pt.ppos lvl with
                  | some pa, some pp =>
                    let sibp := rightmost s1 (lvl - 1) ((s1.node pa).ch (pp - 1))
                    if (s1.leaf sibp).lock ≠ 0 then Res.retry
                    else Res.ok (s1.setLeaf sibp { s1.leaf sibp with lock := 1 }, sibp)
                  | _, _ => Res.unrecorded
                else Res.ok (s1, 0)
              match sib with
              | Res.ok (s2, sibp) =>
                match lockAffectedAncestors pt s2.root_level s2.root_level.toNat 1 s2 with
                | Res.ok s3 => Res.ok (s3, sibp)
                | Res.retry => Res.retry
                | Res.nomem => Res.nomem
                | Res.unrecorded => Res.unrecorded
              | Res.retry => Res.retry
              | Res.nomem => Res.nomem
              | Res.unrecorded => Res.unrecorded
          else Res.ok (s1, 0)
        match locked with
        | Res.ok (s2, leaf_sibp) =>
          let lp := s2.leaf lpa
          -- Part 2
          if lp.num > 1 ∨ s2.root_level = 0 then
            let m := lp.getMeta
            Res.ok (s2.setLeaf lpa (lp.setWord0
              { m with lock := 0, bitmap := m.bitmap &&& bnot32 (1 <<< i.toNat) }))
          else
            let nxt := lp.next.getD lp.alt 0
            let s3 :=
              if leaf_sibp ≠ 0 then
                let sb := s2.leaf leaf_sibp
                s2.setLeaf leaf_sibp { sb with next := sb.next.set sb.alt nxt, lock := 0 }
              else { s2 with first_leaf := nxt }
            let s4 := nvmpool_free_node s3 lpa
            delNonleaf pt (s4.root_level.toNat + 2) 1 s4
        | Res.retry => Res.retry
        | Res.nomem => Res.nomem
        | Res.unrecorded => Res.unrecorded

end LBTree


namespace LBTree

/-! ## Bulk load (`bulkloadSubtree`, single worker) -/

/-- `ceiling(x, y) = ((x) + (y) - 1) / (y)` for `int` operands `x >= 0`,
`y >= 1` whose sum `x + y - 1` is inside `int` (at most `2^31 - 1`); there the
`int` evaluation is this quotient (`ceilingInt_eq_ceiling`).  The model of
`bulkloadSubtree` gives no result when a sum is outside; in `bulkloadToptree`
the first operand is the number of top nodes, at most three per worker. -/
def ceiling (x y : Nat) : Nat := (x + y - 1) / y

/-- An `int` result brought back into `[-2^31, 2^31)` by two's-complement
wrap-around. -/
def wrap32 (x : Int) : Int := (x + 2 ^ 31) % 2 ^ 32 - 2 ^ 31

/-- `ceiling(x, y) = ((x) + (y) - 1) / (y)` as a two's-complement machine
evaluates it on `int` operands: the sum and the difference wrap, the division
truncates toward zero. -/
def ceilingInt (x y : Int) : Int := Int.tdiv (wrap32 (wrap32 (x + y) - 1)) y

/-- Step 2: `for (int i=1; n_nodes[i-1]>1 && i<=target_level; i++)`, filling
`n_nodes[i]` and returning `top_level`. -/
def countLevels (nonleaf_fill_num target_level : Nat) :
    Nat → Nat → (Nat → Nat) → Nat → (Nat → Nat) × Nat
  | 0, _, n_nodes, top_level => (n_nodes, top_level)
  | fuel + 1, i, n_nodes, top_level =>
    if n_nodes (i - 1) > 1 ∧ i ≤ target_level then
      countLevels nonleaf_fill_num target_level fuel (i + 1)
        (fun x => if x = i then ceiling (n_nodes (i - 1)) (nonleaf_fill_num + 1) else n_nodes x) i
    else (n_nodes, top_level)

/-- Step 3, inner nodes: `for (int i=1; i<=top_level; i++) pfirst[i]= mempool_alloc(...)`. -/
def allocLevels (n_nodes : Nat → Nat) (top_level : Nat) :
    Nat → Nat → (Nat → Nat) → mempool → Option ((Nat → Nat) × mempool)
  | 0, _, pfirst, m => some (pfirst, m)
  | fuel + 1, i, pfirst, m =>
    if i ≤ top_level then
      match m.alloc (256 * n_nodes i) with
      | some (a, m1) =>
        allocLevels n_nodes top_level fuel (i + 1) (fun x => if x = i then a else pfirst x) m1
      | none => none
    else some (pfirst, m)

/-- Step 4, first loop: `np->lock()= 0; np->num()= -1;` on the first node of every level. -/
def initLevels (pfirst : Nat → Nat) (top_level : Nat) : Nat → Nat → State → State
  | 0, _, s => s
  | fuel + 1, ll, s =>
    if ll ≤ top_level then
      initLevels pfirst top_level fuel (ll + 1)
        (s.setNode (pfirst ll) (((s.node (pfirst ll)).setLock 0).setNum (-1)))
    else s

/-- The loop over the slots of one leaf: `for (int j=LEAF_KEY_NUM-fillnum; j<LEAF_KEY_NUM; j++)`. -/
def fillLeaf (input : Nat → Int) : Nat → Nat → Nat → bleaf → bleafMeta → bleaf × bleafMeta × Nat
  | 0, _, key_id, lp, m => (lp, m, key_id)
  | fuel + 1, j, key_id, lp, m =>
    if j < LEAF_KEY_NUM then
      let mykey := input key_id
      fillLeaf input fuel (j + 1) (key_id + 1)
        (lp.setEnt j ⟨mykey, (mykey % 2 ^ 64).toNat⟩)
        { m with fgpt := m.fgpt.set j (hashcode1B mykey) }
    else (lp, m, key_id)

/-- The loop `for (int ll=1; ll<=top_level; ll++)` that appends `(left_key, child)`
to the current node of level `ll`, creating nodes upwards while the current
node is new. -/
def appendUp (nonleaf_fill_num top_level : Nat) (pfirst n_nodes : Nat → Nat) :
    Nat → Nat → Nat → Int → (Nat → Nat) → State → (Nat → Nat) × State
  | 0, _, _, _, ncur, s => (ncur, s)
  | fuel + 1, ll, child, left_key, ncur, s =>
    if ll ≤ top_level then
      let npa := pfirst ll + 256 * ncur ll
      let np := s.node npa
      if np.num ≥ 0 then
        let kk := np.num + 1
        let s1 := s.setNode npa (((np.setCh kk child).setK kk left_key).setNum kk)
        if kk = (nonleaf_fill_num : Int) ∧ ncur ll < n_nodes ll - 1 then
          ((fun x => if x = ll then ncur ll + 1 else ncur x),
           s1.setNode (npa + 256) (((s1.node (npa + 256)).setLock 0).setNum (-1)))
        else (ncur, s1)
      else
        appendUp nonleaf_fill_num top_level pfirst n_nodes fuel (ll + 1) npa left_key ncur
          (s.setNode npa ((np.setCh 0 child).setNum 0))
    else (ncur, s)

/-- The bitmap `((1<<n)-1) << (LEAF_KEY_NUM-n)` stored into the 14-bit field. -/
def fillBitmap (n : Nat) : Nat := (((1 <<< n) - 1) <<< (LEAF_KEY_NUM - n)) % 2 ^ 14

/-- Step 4, main loop: `for (int i=0; i<nodenum; i++)` over the leaves. -/
def buildLeaves (input : Nat → Int) (num_key leaf_fill_num nonleaf_fill_num top_level : Nat)
    (pfirst n_nodes : Nat → Nat) :
    Nat → Nat → Nat → bleafMeta → (Nat → Nat) → State → State
  | 0, _, _, _, _, s => s
  | fuel + 1, i, key_id, leaf_meta, ncur, s =>
    let nodenum := n_nodes 0
    if i < nodenum then
      let lpa := pfirst 0 + 256 * i
      let fillnum := if i = nodenum - 1 then num_key - (nodenum - 1) * leaf_fill_num else leaf_fill_num
      let leaf_meta1 : bleafMeta :=
        if i = nodenum - 1 then { leaf_meta with bitmap := fillBitmap fillnum } else leaf_meta
      let (lp1, leaf_meta2, key_id1) :=
        fillLeaf input fillnum (LEAF_KEY_NUM - fillnum) key_id (s.leaf lpa) leaf_meta1
      let lp2 : bleaf :=
        { lp1 with next := (lp1.next.set 0 (if i < nodenum - 1 then lpa + 256 else 0)).set 1 0 }
      let lp3 := lp2.setBothWords leaf_meta2
      let s1 := s.setLeaf lpa lp3
      let (ncur1, s2) := appendUp nonleaf_fill_num top_level pfirst n_nodes top_level 1 lpa
                           (lp3.k (LEAF_KEY_NUM - fillnum)) ncur s1
      buildLeaves input num_key leaf_fill_num nonleaf_fill_num top_level pfirst n_nodes
        fuel (i + 1) key_id1 leaf_meta2 ncur1 s2
    else s

/-- The outputs of `bulkloadSubtree`: the memory, `pfirst[]`, `n_nodes[]` and the returned top level. -/
structure BldOut where
  s : State
  pfirst : Nat → Nat
  n_nodes : Nat → Nat
  top_level : Nat

/-- `lbtree::bulkloadSubtree(input, start_key, num_key, bfill, target_level, pfirst, n_nodes)`.
The two fill numbers computed from the float `bfill` are taken as arguments
(`leaf_fill_num = max((int)(14*bfill),1)`, `nonleaf_fill_num = max((int)(15*bfill),1)`);
`garbage` is the initial content of the local `leaf_meta`.  `none` is the
allocator's `exit(1)`, and also a run in which one of the two `ceiling`
evaluations of step 2 leaves the range of `int`: the sum
`num_key + leaf_fill_num - 1` of `n_nodes[0]`, or the sum
`n_nodes[0] + (nonleaf_fill_num+1) - 1` of `n_nodes[1]` when the loop runs
(the counts of the higher levels are smaller).  C gives such a run no defined
result.  On a two's-complement machine the count becomes negative
(`ceilingInt`) and the size `sizeof(..) * n_nodes[..]` of its allocation
wraps to almost `2^64`: the allocator exits, or, when the wrapped pointer sum
passes its test (`mempool.alloc64`), moves the cursor back.  In that case,
with `n_nodes[0] < 0` no leaf is written and `assert(n_nodes[top_level] == 1)`
of `bulkload` fails; with `n_nodes[1] < 0` the test
`ncur[ll] < n_nodes[ll]-1` never holds and the appends run past the sixteen
entries of the first inner node. -/
def bulkloadSubtree (s : State) (input : Nat → Int) (start_key num_key : Nat)
    (leaf_fill_num nonleaf_fill_num : Nat) (target_level : Nat) (garbage : bleafMeta) :
    Option BldOut :=
  if 2 ^ 31 ≤ num_key + leaf_fill_num - 1 ∨
      (1 < ceiling num_key leaf_fill_num ∧ 1 ≤ target_level ∧
        2 ^ 31 ≤ ceiling num_key leaf_fill_num + (nonleaf_fill_num + 1) - 1) then none
  else
  let n0 : Nat → Nat := fun x => if x = 0 then ceiling num_key leaf_fill_num else 0
  let (n_nodes, top_level) := countLevels nonleaf_fill_num target_level target_level 1 n0 0
  match s.nvmpool.alloc (256 * n_nodes 0) with
  | none => none
  | some (a0, nv) =>
    match allocLevels n_nodes top_level top_level 1 (fun x => if x = 0 then a0 else 0) s.dpool with
    | none => none
    | some (pfirst, dp) =>
      let s1 : State := { s with nvmpool := nv, dpool := dp }
      let s2 := initLevels pfirst top_level top_level 1 s1
      let leaf_meta : bleafMeta := { garbage with bitmap := fillBitmap leaf_fill_num, lock := 0, alt := 0 }
      let s3 := buildLeaves input num_key leaf_fill_num nonleaf_fill_num top_level pfirst n_nodes
                  (n_nodes 0) 0 start_key leaf_meta (fun _ => 0) s2
      some ⟨s3, pfirst, n_nodes, top_level⟩

/-- `lbtree::bulkload(keynum, input, bfill)` on the one-worker path
(`num_threads == 1`): build the subtree, then set `root_level`, `tree_root`
and `*first_leaf`.  `none` also covers the failed
`assert(n_nodes[top_level] == 1)`. -/
def bulkload (s : State) (keynum : Nat) (input : Nat → Int)
    (leaf_fill_num nonleaf_fill_num : Nat) (garbage : bleafMeta) : Option State :=
  match bulkloadSubtree s input 0 keynum leaf_fill_num nonleaf_fill_num 31 garbage with
  | none => none
  | some out =>
    if out.n_nodes out.top_level = 1 then
      some { out.s with root_level := out.top_level, tree_root := out.pfirst out.top_level,
                        first_leaf := out.pfirst 0 }
    else none

/-! ## `lbtree::check` -/

/-- `getMinMaxKey(p, min_key, max_key)`: the loop over the fourteen slots. -/
def getMinMaxKey (p : bleaf) : Nat → Nat → Int → Int → Int × Int
  | 0, _, min_key, max_key => (min_key, max_key)
  | fuel + 1, i, min_key, max_key =>
    if p.bitmap &&& (1 <<< i) ≠ 0 then
      let max1 := if p.k i > max_key then p.k i else max_key
      let min1 := if p.k i < min_key then p.k i else min_key
      getMinMaxKey p fuel (i + 1) min1 max1
    else getMinMaxKey p fuel (i + 1) min_key max_key

/-- The fingerprint loop of `check`: `true` iff no live slot has a wrong hash code. -/
def checkFgpt (p : bleaf) : Nat → Nat → Bool
  | 0, _ => true
  | fuel + 1, i =>
    if p.bitmap &&& (1 <<< i) ≠ 0 ∧ hashcode1B (p.k i) ≠ p.fg i then false
    else checkFgpt p fuel (i + 1)

/-- The leaf case of `check`: `none` is `exit(1)`, otherwise `(start, end, ptr)`. -/
def checkLeaf (s : State) (pnode : Nat) (ptr : Nat) : Option (Int × Int × Nat) :=
  let lp := s.leaf pnode
  if pnode % 256 ≠ 0 then none
  else if lp.num < 1 then none
  else
    let (start, end_) := getMinMaxKey lp LEAF_KEY_NUM 0 MAX_KEY MIN_KEY
    if ! checkFgpt lp LEAF_KEY_NUM 0 then none
    else if lp.lock ≠ 0 then none
    else if ptr ≠ 0 ∧ (s.leaf ptr).nextSibling ≠ pnode then none
    else some (start, end_, pnode)

/-- The loop `for (i=1; i<p->num(); i++)` of `check` over the middle children;
`chk` is the recursive call one level down.  Returns the last `curend` and `curptr`. -/
def checkMiddle (chk : Nat → Nat → Option (Int × Int × Nat)) (p : bnode) :
    Nat → Int → Int → Nat → Option (Int × Nat)
  | 0, _, curend, curptr => some (curend, curptr)
  | fuel + 1, i, curend, curptr =>
    if i < p.num then
      match chk (p.ch i) curptr with
      | none => none
      | some (curstart, curend1, curptr1) =>
        if ! (decide (p.k i ≤ curstart) && decide (curend1 < p.k (i + 1))) then none
        else checkMiddle chk p fuel (i + 1) curend1 curptr1
    else some (curend, curptr)

/-- `check(pnode, level, start, end, ptr)`: `none` is `exit(1)` after an error
message, otherwise the returned `(start, end, ptr)`. -/
def check (s : State) : Nat → Nat → Nat → Option (Int × Int × Nat)
  | 0, pnode, ptr => if pnode = 0 then none else checkLeaf s pnode ptr
  | level + 1, pnode, ptr =>
    if pnode = 0 then none
    else
      let p := s.node pnode
      if pnode % 64 ≠ 0 then none
      else if p.num < 0 then none
      else
        match check s level (p.ch 0) ptr with
        | none => none
        | some (start, curend0, curptr0) =>
          if p.num ≥ 1 ∧ curend0 ≥ p.k 1 then none
          else
            match checkMiddle (check s level) p (p.num - 1).toNat 1 curend0 curptr0 with
            | none => none
            | some (curend1, curptr1) =>
              -- after the loop `i == max(1, num)`
              let last : Option (Int × Nat) :=
                if p.num ≥ 1 then
                  match check s level (p.ch p.num) curptr1 with
                  | none => none
                  | some (curstart, curend2, curptr2) =>
                    if curstart < p.k p.num then none else some (curend2, curptr2)
                else some (curend1, curptr1)
              match last with
              | none => none
              | some (end_, curptr) => if p.lock ≠ 0 then none else some (start, end_, curptr)

/-- The leftmost leaf: `for (int i= root_level; i>0; i--) p= p->ch(0);`. -/
def leftmost (s : State) : Nat → Nat → Nat
  | 0, p => p
  | i + 1, p => leftmost s i ((s.node p).ch 0)

/-- `lbtree::check(&start, &end)`: the recursive check followed by
`checkFirstLeaf`; `none` is `exit(1)`. -/
def checkTree (s : State) : Option (Int × Int) :=
  match check s s.root_level.toNat s.tree_root 0 with
  | none => none
  | some (start, end_, _) =>
    if leftmost s s.root_level.toNat s.tree_root ≠ s.first_leaf then none else some (start, end_)

end LBTree


namespace LBTree

/-! ## Invariants and specification vocabulary -/

/-- A leaf image as the operations expect it: a 14-bit bitmap, fourteen
fingerprints and entries, two sibling pointers. -/
def bleaf.shape (lp : bleaf) : Prop :=
  lp.bitmap < 2 ^ 14 ∧ lp.lock < 2 ∧ lp.alt < 2 ∧ lp.fgpt.length = 14 ∧ lp.ent.length = 14 ∧
  lp.next.length = 2

/-- Fingerprint consistency of one leaf: `fgpt[i] = hashcode1B(k(i))` on every live slot. -/
def bleaf.fgptOK (lp : bleaf) : Prop :=
  ∀ i, i < 14 → lp.bitmap.testBit i = true → lp.fg i = hashcode1B (lp.k i)

/-- Slot `j` of the leaf is live and holds `key`. -/
def bleaf.holds (lp : bleaf) (key : Int) (j : Nat) : Prop :=
  j < 14 ∧ lp.bitmap.testBit j = true ∧ lp.k j = key

/-- Entry `e` is stored in a slot of `lp` that is live according to the bitmap `bm`. -/
def bleaf.liveWith (lp : bleaf) (bm : Nat) (e : IdxEntry) : Prop :=
  ∃ i, i < 14 ∧ bm.testBit i = true ∧ lp.entAt i = e

/-- Entry `e` is one of the live `(key, ptr)` pairs of the leaf. -/
def bleaf.live (lp : bleaf) (e : IdxEntry) : Prop := lp.liveWith lp.bitmap e

/-- Invariant of the partition loop of `qsortBleaf` on `pos[a..b]` at the loop
head.  The pivot slot `v` has been taken out of `pos[a]`, the "hole" is at
index `l`: everything left of `l` has a key `<= key`, everything right of `r`
a key `> key`, nothing outside `a..b` has changed, and the slots in `a..b`
other than the hole, together with `v`, are those of the original `pos0[a..b]`. -/
def PartInv (p : bleaf) (key : Int) (v : Nat) (a b : Int) (pos0 pos : List Nat) (l r : Int) : Prop :=
  a ≤ l ∧ l ≤ r ∧ r ≤ b ∧ pos.length = pos0.length ∧
  (∀ i, a ≤ i → i < l → p.k (posAt pos i) ≤ key) ∧
  (∀ i, r < i → i ≤ b → p.k (posAt pos i) > key) ∧
  (∀ i, 0 ≤ i → (i < a ∨ b < i) → posAt pos i = posAt pos0 i) ∧
  (∀ i, a ≤ i → i ≤ b → i ≠ l → ∃ j, a ≤ j ∧ j ≤ b ∧ posAt pos i = posAt pos0 j) ∧
  (∀ j, a ≤ j → j ≤ b → posAt pos0 j = v ∨ ∃ i, a ≤ i ∧ i ≤ b ∧ i ≠ l ∧ posAt pos i = posAt pos0 j)

/-- What `qsortBleaf` on `pos[a..b]` achieves, from `pos0` to `pos`: the slots
outside the range are untouched, the range holds the same slots as before,
and their keys ascend. -/
def SortedRange (p : bleaf) (a b : Int) (pos0 pos : List Nat) : Prop :=
  pos.length = pos0.length ∧
  (∀ i, 0 ≤ i → (i < a ∨ b < i) → posAt pos i = posAt pos0 i) ∧
  (∀ i, a ≤ i → i ≤ b → ∃ j, a ≤ j ∧ j ≤ b ∧ posAt pos i = posAt pos0 j) ∧
  (∀ j, a ≤ j → j ≤ b → ∃ i, a ≤ i ∧ i ≤ b ∧ posAt pos i = posAt pos0 j) ∧
  (∀ i j, a ≤ i → i ≤ j → j ≤ b → p.k (posAt pos i) ≤ p.k (posAt pos j))

/-- Step 2.1 of the leaf split: the slot numbers sorted by key. -/
def sortedPos (lp : bleaf) : List Nat :=
  qsortBleaf lp LEAF_KEY_NUM 0 (LEAF_KEY_NUM - 1) (List.range LEAF_KEY_NUM)

/-- Step 2.2 of the leaf split: `split_key = lp->k(sorted_pos[split])`. -/
def splitKey (lp : bleaf) : Int := lp.k ((sortedPos lp).getD (LEAF_KEY_NUM / 2) 0)

/-- Step 2.4 of the leaf split: the new leaf after the moves and `freed_slots`. -/
def splitMove (lp new0 : bleaf) : bleaf × Nat :=
  moveToNew lp (sortedPos lp) (LEAF_KEY_NUM - LEAF_KEY_NUM / 2) (LEAF_KEY_NUM / 2) new0 0

/-- Number of separators `k(1..num)` of an inner node that are `<= key`: the
index of the child whose key range contains `key`. -/
def countLE (p : bnode) (key : Int) : Int :=
  (((List.range p.num.toNat).filter (fun (i : Nat) => decide (p.k ((i : Int) + 1) ≤ key))).length : Int)

/-- The first `n` separators `k(1) .. k(n)` of an inner node. -/
def bnode.keysN (p : bnode) (n : Nat) : List Int :=
  (List.range n).map (fun (i : Nat) => p.k ((i : Int) + 1))

/-- The first `n` children `ch(0) .. ch(n-1)` of an inner node. -/
def bnode.childrenN (p : bnode) (n : Nat) : List Nat :=
  (List.range n).map (fun (i : Nat) => p.ch (i : Int))

/-- The separators `k(1) .. k(num)` of an inner node. -/
def bnode.keys (p : bnode) : List Int := p.keysN p.num.toNat

/-- The children `ch(0) .. ch(num)` of an inner node. -/
def bnode.children (p : bnode) : List Nat := p.childrenN (p.num.toNat + 1)

/-- A list with `x` put in front of its element number `i` (counting from 0). -/
def insertAt {α : Type} (l : List α) (i : Nat) (x : α) : List α := l.take i ++ x :: l.drop i

/-- Leaf `l` is reachable from the node `p` of level `i` through child pointers `ch(0..num)`. -/
def reach (s : State) : Nat → Nat → Nat → Prop
  | 0, p, l => l = p
  | i + 1, p, l => ∃ c : Int, 0 ≤ c ∧ c ≤ (s.node p).num ∧ reach s i ((s.node p).ch c) l

/-- The subtree below `p` (level `i`) is quiescent and fingerprint-consistent:
every lock bit is 0, every inner node has `num >= 0`, and every live slot of
every leaf carries the hash of its key. -/
def SubtreeOK (s : State) : Nat → Nat → Prop
  | 0, p => (s.leaf p).lock = 0 ∧ (s.leaf p).fgptOK
  | i + 1, p => (s.node p).lock = 0 ∧ 0 ≤ (s.node p).num ∧
      ∀ c : Int, 0 ≤ c → c ≤ (s.node p).num → SubtreeOK s i ((s.node p).ch c)

/-- The lock and fingerprint invariants of the whole tree. -/
def TreeOK (s : State) : Prop := 0 ≤ s.root_level ∧ SubtreeOK s s.root_level.toNat s.tree_root

/-- `key` is stored in the tree: some live slot of a reachable leaf holds it. -/
def inTree (s : State) (key : Int) : Prop :=
  ∃ l j, reach s s.root_level.toNat s.tree_root l ∧ (s.leaf l).holds key j

/-- The live keys of the leaves below `p` (level `i`), left to right. -/
def subtreeKeys (s : State) : Nat → Nat → List Int
  | 0, p => ((List.range 14).filter (fun j => (s.leaf p).bitmap.testBit j)).map (s.leaf p).k
  | i + 1, p =>
    ((List.range ((s.node p).num.toNat + 1)).map
      (fun (c : Nat) => subtreeKeys s i ((s.node p).ch (c : Int)))).flatten

/-- The live keys of the whole tree. -/
def treeKeys (s : State) : List Int := subtreeKeys s s.root_level.toNat s.tree_root

/-- Ordering invariant below `p` (level `i`): for every separator `k(c)`,
`1 <= c <= num`, all keys under `ch(c-1)` are `< k(c)` and all keys under
`ch(c)` are `>= k(c)`; recursively for every child. -/
def Ordered (s : State) : Nat → Nat → Prop
  | 0, _ => True
  | i + 1, p =>
    (∀ c : Nat, c ∈ List.range (s.node p).num.toNat →
      (∀ x ∈ subtreeKeys s i ((s.node p).ch (c : Int)), x < (s.node p).k ((c : Int) + 1)) ∧
      (∀ x ∈ subtreeKeys s i ((s.node p).ch ((c : Int) + 1)), (s.node p).k ((c : Int) + 1) ≤ x)) ∧
    (∀ c : Nat, c ∈ List.range ((s.node p).num.toNat + 1) → Ordered s i ((s.node p).ch (c : Int)))

/-- The ordering invariant of the whole tree. -/
def TreeOrdered (s : State) : Prop := Ordered s s.root_level.toNat s.tree_root

instance decOrdered (s : State) : ∀ (i p : Nat), Decidable (Ordered s i p)
  | 0, _ => isTrue trivial
  | i + 1, p =>
    have : ∀ q, Decidable (Ordered s i q) := decOrdered s i
    by unfold Ordered; infer_instance

instance (s : State) : Decidable (TreeOrdered s) := by unfold TreeOrdered; infer_instance

instance (lp : bleaf) : Decidable lp.fgptOK := by unfold bleaf.fgptOK; infer_instance

instance (lp : bleaf) (key : Int) (j : Nat) : Decidable (lp.holds key j) := by
  unfold bleaf.holds; infer_instance

instance decSubtreeOK (s : State) : ∀ (i p : Nat), Decidable (SubtreeOK s i p)
  | 0, _ => by unfold SubtreeOK; infer_instance
  | i + 1, p =>
    have : ∀ q, Decidable (SubtreeOK s i q) := decSubtreeOK s i
    by unfold SubtreeOK; infer_instance

instance (s : State) : Decidable (TreeOK s) := by unfold TreeOK; infer_instance

end LBTree


namespace LBTree

/-! ## Concrete inputs -/

/-- A blank memory: zeroed leaves and inner nodes, an NVM pool of 1000 leaf
frames starting at address 4096 and a DRAM pool of 100 node frames starting at 65536. -/
def exMem : State :=
  { leaf := fun _ => ⟨0, 0, 0, List.replicate 14 0, List.replicate 14 ⟨0, 0⟩, [0, 0]⟩
    node := fun _ => ⟨List.replicate 16 ⟨0, 0⟩⟩
    root_level := 0
    tree_root := 0
    first_leaf := 0
    nvmpool := ⟨4096, 4096 + 256 * 1000, 0⟩
    dpool := ⟨65536, 65536 + 256 * 100, 0⟩ }

/-- Initial content of the local `leaf_meta` for the examples. -/
def exGarbage : bleafMeta := ⟨0, 0, 0, List.replicate 14 0⟩

/-- The tree bulk-loaded (fill 1.0) from the 126 keys `1000 .. 1125`: nine full
leaves under one root with eight separators. -/
def exTree126 : Option State := bulkload exMem 126 (fun i => 1000 + (i : Int)) 14 15 exGarbage

/-- The same shape with `MIN_KEY+1` as the smallest key. -/
def exTreeNeg : Option State :=
  bulkload exMem 126 (fun i => if i = 0 then MIN_KEY + 1 else 1000 + (i : Int)) 14 15 exGarbage

/-- The tree bulk-loaded at fill 0.6 (`leaf_fill_num = 8`, `nonleaf_fill_num = 9`)
from the 72 keys `1000 .. 1071`: nine leaves of eight keys under one root. -/
def exTree72 : Option State := bulkload exMem 72 (fun i => 1000 + (i : Int)) 8 9 exGarbage

/-- The tree bulk-loaded (fill 1.0) from the ten keys `1 .. 10`: a single root leaf. -/
def exTree10 : Option State := bulkload exMem 10 (fun i => 1 + (i : Int)) 14 15 exGarbage

/-- The state of `exTree126` (the blank memory if the bulk load had failed). -/
def exState126 : State := exTree126.getD exMem

/-- The state of `exTree10` (the blank memory if the bulk load had failed). -/
def exState10 : State := exTree10.getD exMem

/-- A full inner node: separators `10, 20, .., 150`, children `100 .. 115`. -/
def exNode15 : bnode :=
  ⟨[⟨15 * 2 ^ 32, 100⟩, ⟨10, 101⟩, ⟨20, 102⟩, ⟨30, 103⟩, ⟨40, 104⟩, ⟨50, 105⟩, ⟨60, 106⟩,
    ⟨70, 107⟩, ⟨80, 108⟩, ⟨90, 109⟩, ⟨100, 110⟩, ⟨110, 111⟩, ⟨120, 112⟩, ⟨130, 113⟩,
    ⟨140, 114⟩, ⟨150, 115⟩]⟩

/-- A zeroed inner-node frame. -/
def exNodeBlank : bnode := ⟨List.replicate 16 ⟨0, 0⟩⟩

/-- A full, locked leaf with the keys `1, 3, .., 27` in shuffled slots. -/
def exLeafFull : bleaf :=
  { bitmap := 0x3fff, lock := 1, alt := 0
    fgpt := [27, 3, 19, 7, 1, 25, 13, 9, 21, 5, 17, 11, 23, 15]
    ent := [⟨27, 27⟩, ⟨3, 3⟩, ⟨19, 19⟩, ⟨7, 7⟩, ⟨1, 1⟩, ⟨25, 25⟩, ⟨13, 13⟩, ⟨9, 9⟩, ⟨21, 21⟩,
            ⟨5, 5⟩, ⟨17, 17⟩, ⟨11, 11⟩, ⟨23, 23⟩, ⟨15, 15⟩]
    next := [0, 0] }

/-- A zeroed leaf frame. -/
def exLeafBlank : bleaf := ⟨0, 0, 0, List.replicate 14 0, List.replicate 14 ⟨0, 0⟩, [0, 0]⟩

/-- An inner node with the eight separators `10, 20, .., 80`. -/
def exNode8 : bnode :=
  ⟨[⟨8 * 2 ^ 32, 100⟩, ⟨10, 101⟩, ⟨20, 102⟩, ⟨30, 103⟩, ⟨40, 104⟩, ⟨50, 105⟩, ⟨60, 106⟩,
    ⟨70, 107⟩, ⟨80, 108⟩, ⟨0, 0⟩, ⟨0, 0⟩, ⟨0, 0⟩, ⟨0, 0⟩, ⟨0, 0⟩, ⟨0, 0⟩, ⟨0, 0⟩]⟩

end LBTree


namespace LBTree

/-! ## The leaf header as sixteen bytes -/

/-- The sixteen bytes of the union `bleafMeta`: the 16-bit field word
(`bitmap:14`, `lock:1`, `alt:1`, little-endian) followed by `fgpt[0..13]`. -/
def bleafMeta.bytes (m : bleafMeta) : List Nat :=
  let w := m.bitmap % 2 ^ 14 + (m.lock % 2) * 2 ^ 14 + (m.alt % 2) * 2 ^ 15
  [w % 256, w / 256] ++ (List.range 14).map (fun i => m.fgpt.getD i 0)

/-- The bytes of `word8B[i]` of the union `bleafMeta`. -/
def bleafMeta.word8B (m : bleafMeta) (i : Nat) : List Nat := (m.bytes.drop (8 * i)).take 8

/-- A meta word whose fingerprints are `1 .. 14`. -/
def exMeta : bleafMeta := ⟨5, 1, 1, [1, 2, 3, 4, 5, 6, 7, 8, 9, 10, 11, 12, 13, 14]⟩

/-- The fingerprints of the temporary meta `m` match the keys of `lp` on the
slots that are live according to `bm`. -/
def FgOK (lp : bleaf) (m : bleafMeta) (bm : Nat) : Prop :=
  ∀ i, i < 14 → bm.testBit i = true → m.fgpt.getD i 0 = hashcode1B (lp.k i)

/-- Two leaf images that differ at most in the lock bit. -/
def bleaf.sameButLock (l l' : bleaf) : Prop :=
  l'.bitmap = l.bitmap ∧ l'.alt = l.alt ∧ l'.fgpt = l.fgpt ∧ l'.ent = l.ent ∧ l'.next = l.next

/-- What the bulk load writes into leaf number `i` of a subtree built from
`input[start_key ..]` with `num_key` keys, `f` keys per leaf and first leaf at
`a0`: the right-aligned bitmap, the consecutive input keys in ascending slot
order with the key as payload and its hash as fingerprint, `next[0]` pointing
to the following leaf (NULL for the last), `next[1] = NULL`, `alt = lock = 0`;
the frame keeps its two sibling pointers. -/
def BulkLeaf (input : Nat → Int) (start_key num_key f a0 : Nat) (lp : bleaf) (i : Nat) : Prop :=
  lp.bitmap = fillBitmap (if i = ceiling num_key f - 1 then num_key - (ceiling num_key f - 1) * f else f) ∧
  lp.lock = 0 ∧ lp.alt = 0 ∧
  (∀ j, 14 - (if i = ceiling num_key f - 1 then num_key - (ceiling num_key f - 1) * f else f) ≤ j →
    j < 14 →
    lp.entAt j =
      ⟨input (start_key + i * f +
          (j - (14 - (if i = ceiling num_key f - 1 then num_key - (ceiling num_key f - 1) * f else f)))),
       (input (start_key + i * f +
          (j - (14 - (if i = ceiling num_key f - 1 then num_key - (ceiling num_key f - 1) * f else f))))
          % 2 ^ 64).toNat⟩ ∧
    lp.fg j = hashcode1B (input (start_key + i * f +
          (j - (14 - (if i = ceiling num_key f - 1 then num_key - (ceiling num_key f - 1) * f else f)))))) ∧
  lp.next.getD 0 0 = (if i < ceiling num_key f - 1 then a0 + 256 * (i + 1) else 0) ∧
  lp.next.getD 1 0 = 0 ∧ lp.next.length = 2

/-! ## Sequences of operations and further concrete inputs -/

/-- Whether an operation ended by reading a path entry the descent never wrote. -/
def Res.isUnrecorded {α : Type} : Res α → Bool
  | Res.unrecorded => true
  | _ => false

/-- The calls `del(k)` for the keys of the list, one after the other; stops at
the first call that does not return. -/
def delAll : State → List Int → Res State
  | s, [] => Res.ok s
  | s, k :: ks =>
    match del s k with
    | Res.ok s1 => delAll s1 ks
    | r => r

/-- The keys `1, 2, .., n`. -/
def keysUpTo (n : Nat) : List Int := (List.range n).map (fun i => 1 + (i : Int))

/-- The tree bulk-loaded (fill 1.0) from the fourteen keys `1, 3, .., 27`. -/
def exTree14 : Option State := bulkload exMem 14 (fun i => 1 + 2 * (i : Int)) 14 15 exGarbage

/-- The state of `exTree14` (the blank memory if the bulk load had failed). -/
def exState14 : State := exTree14.getD exMem

/-- The tree bulk-loaded (fill 1.0) from the 238 keys `1 .. 238`: seventeen
leaves, two inner nodes at level 1 (sixteen children and one child), a root. -/
def exTree238 : Option State := bulkload exMem 238 (fun i => 1 + (i : Int)) 14 15 exGarbage

/-- The tree bulk-loaded at the smallest fill (`leaf_fill_num = 1`,
`nonleaf_fill_num = 1`) from the keys `1, 2, 3`: three leaves, two inner nodes at
level 1 (two children and one child), a root. -/
def exTree3 : Option State := bulkload exMem 3 (fun i => 1 + (i : Int)) 1 1 exGarbage

/-! ## The sibling chain -/

/-- The leaves below `p` (level `i`), left to right. -/
def subtreeLeaves (s : State) : Nat → Nat → List Nat
  | 0, p => [p]
  | i + 1, p =>
    ((List.range ((s.node p).num.toNat + 1)).map
      (fun (c : Nat) => subtreeLeaves s i ((s.node p).ch (c : Int)))).flatten

/-- The walk `for (p = a; p != NULL; p = p->nextSibling())` over at most `fuel`
leaves: the leaves visited, or `none` if NULL is not reached. -/
def chainFrom (s : State) : Nat → Nat → Option (List Nat)
  | 0, a => if a = 0 then some [] else none
  | fuel + 1, a =>
    if a = 0 then some []
    else (chainFrom s fuel (s.leaf a).nextSibling).map (fun l => a :: l)

/-- Along a list of leaves the live keys ascend: every key of a leaf is below
every key of its successor. -/
def ChainAscending (s : State) : List Nat → Prop
  | [] => True
  | [_] => True
  | a :: b :: rest =>
    (∀ x ∈ subtreeKeys s 0 a, ∀ y ∈ subtreeKeys s 0 b, x < y) ∧ ChainAscending s (b :: rest)

instance decChainAscending (s : State) : ∀ (l : List Nat), Decidable (ChainAscending s l)
  | [] => isTrue trivial
  | [_] => isTrue trivial
  | a :: b :: rest =>
    have : Decidable (ChainAscending s (b :: rest)) := decChainAscending s (b :: rest)
    by unfold ChainAscending; infer_instance

/-- The sibling-chain invariant: walking `nextSibling()` from `*first_leaf`
visits exactly the leaves of the tree, left to right, and reaches NULL; the
keys ascend along the walk; `*first_leaf` is the leaf reached through `ch(0)`. -/
def ChainOK (s : State) : Prop :=
  (∃ fuel, chainFrom s fuel s.first_leaf = some (subtreeLeaves s s.root_level.toNat s.tree_root)) ∧
  ChainAscending s (subtreeLeaves s s.root_level.toNat s.tree_root) ∧
  s.first_leaf = leftmost s s.root_level.toNat s.tree_root

/-- The state of `exTree72` (the blank memory if the bulk load had failed). -/
def exState72 : State := exTree72.getD exMem

/-- The state after `insert(MIN_KEY+1, 7)` on `exState72` (the blank memory if
the insert had not returned). -/
def exState72ins : State := ((insert exState72 (MIN_KEY + 1) 7).toOption).getD exMem

end LBTree


namespace LBTree

/-! ## Bulk load with several workers (`lbtree::bulkload`, `num_threads > 1`) -/

/-- The loop `for (int i=1; i<=p->num(); i++) getKeyPtrLevel(p->ch(i), ..., p->k(i), ...)`
inside `getKeyPtrLevel`; `rec` is the call one level down. -/
def gkLoop (rec : State → Nat → Int → List (Nat × Int) → State × List (Nat × Int)) (pnode : Nat) :
    Nat → Int → State → List (Nat × Int) → State × List (Nat × Int)
  | 0, _, s, acc => (s, acc)
  | fuel + 1, i, s, acc =>
    if i ≤ (s.node pnode).num then
      let (s1, acc1) := rec s ((s.node pnode).ch i) ((s.node pnode).k i) acc
      gkLoop rec pnode fuel (i + 1) s1 acc1
    else (s, acc)

/-- `lbtree::getKeyPtrLevel(pnode, pnode_level, left_key, target_level, ptrs, keys,
num_nodes, free_above_level_nodes)`: `acc` is the content of `ptrs[]`/`keys[]`
up to `num_nodes`; `max_iter` bounds the number of rounds of the loop over the
children (an `int` counter running up to `p->num()` makes at most `2^31`). -/
def getKeyPtrLevel (target_level : Nat) (free_above : Bool) (max_iter : Nat) :
    Nat → State → Nat → Int → List (Nat × Int) → State × List (Nat × Int)
  | 0, s, pnode, left_key, acc =>
    if 0 = target_level then (s, acc ++ [(pnode, left_key)]) else (s, acc)
  | l + 1, s, pnode, left_key, acc =>
    if l + 1 = target_level then (s, acc ++ [(pnode, left_key)])
    else if l + 1 > target_level then
      let (s1, acc1) :=
        getKeyPtrLevel target_level free_above max_iter l s ((s.node pnode).ch 0) left_key acc
      let (s2, acc2) :=
        gkLoop (getKeyPtrLevel target_level free_above max_iter l) pnode max_iter 1 s1 acc1
      (if free_above then mempool_free_node s2 pnode else s2, acc2)
    else (s, acc)

/-- The loop `for (int i=0; i<num_key; i++)` of `bulkloadToptree` over `ptrs[]`/`keys[]`. -/
def buildTop (nonleaf_fill_num cur_level top_level : Nat) (pfirst n_nodes : Nat → Nat) :
    List (Nat × Int) → (Nat → Nat) → State → State
  | [], _, s => s
  | (child, left_key) :: rest, ncur, s =>
    let (ncur1, s1) := appendUp nonleaf_fill_num top_level pfirst n_nodes (top_level - cur_level)
                         (cur_level + 1) child left_key ncur s
    buildTop nonleaf_fill_num cur_level top_level pfirst n_nodes rest ncur1 s1

/-- `lbtree::bulkloadToptree(ptrs, keys, num_key, bfill, cur_level, target_level, pfirst,
n_nodes)`; `top` holds `ptrs[i]`, `keys[i]` for `i < num_key`.  `none` is a failed
`assert` or the allocator's `exit(1)`. -/
def bulkloadToptree (s : State) (top : List (Nat × Int)) (nonleaf_fill_num : Nat)
    (cur_level target_level : Nat) (pfirst0 n_nodes0 : Nat → Nat) : Option BldOut :=
  if top.length ≥ 2 ∧ target_level > cur_level then
    let n0 : Nat → Nat := fun x => if x = cur_level then top.length else n_nodes0 x
    let (n_nodes, top_level) :=
      countLevels nonleaf_fill_num target_level (target_level - cur_level) (cur_level + 1) n0 cur_level
    match allocLevels n_nodes top_level (top_level - cur_level) (cur_level + 1) pfirst0 s.dpool with
    | none => none
    | some (pfirst, dp) =>
      let s1 : State := { s with dpool := dp }
      let s2 := initLevels pfirst top_level (top_level - cur_level) (cur_level + 1) s1
      let s3 := buildTop nonleaf_fill_num cur_level top_level pfirst n_nodes top (fun _ => 0) s2
      some ⟨s3, pfirst, n_nodes, top_level⟩
  else none

/-- The memory as a worker thread sees it: `the_nvmpool`/`the_mempool` are the pools `p`. -/
def State.withPools (s : State) (p : mempool × mempool) : State :=
  { s with nvmpool := p.1, dpool := p.2 }

/-- The state of a bulk load with several workers: the memory (whose pools are
those of the calling thread, worker 0), the pools of the workers `1, 2, ..`
and the `BldThArgs` filled so far. -/
structure ParState where
  s : State
  pools : Nat → mempool × mempool
  bta : Nat → BldOut

/-- Steps 3 and 4: the subtree of worker `i` for `i < num_threads`, one worker after the other. -/
def runWorkers (input : Nat → Int) (keynum num_threads leaf_fill_num nonleaf_fill_num : Nat)
    (garbage : bleafMeta) : Nat → Nat → ParState → Option ParState
  | 0, _, ps => some ps
  | fuel + 1, i, ps =>
    if i < num_threads then
      let kn_per_thread := keynum / num_threads
      let kn_max := keynum - (num_threads - 1) * kn_per_thread
      let start_key := i * kn_per_thread
      let num_key := if i < num_threads - 1 then kn_per_thread else kn_max
      let mine := if i = 0 then (ps.s.nvmpool, ps.s.dpool) else ps.pools i
      match bulkloadSubtree (ps.s.withPools mine) input start_key num_key leaf_fill_num
              nonleaf_fill_num 31 garbage with
      | none => none
      | some out =>
        let s1 := if i = 0 then out.s else out.s.withPools (ps.s.nvmpool, ps.s.dpool)
        runWorkers input keynum num_threads leaf_fill_num nonleaf_fill_num garbage fuel (i + 1)
          ⟨s1, (fun x => if x = i then (out.s.nvmpool, out.s.dpool) else ps.pools x),
            (fun x => if x = i then out else ps.bta x)⟩
    else some ps

/-- The loop "connect the sibling pointers": `for (int i=1; i<num_threads; i++)`. -/
def connectSiblings (bta : Nat → BldOut) (num_threads : Nat) : Nat → Nat → State → State
  | 0, _, s => s
  | fuel + 1, i, s =>
    if i < num_threads then
      let lpa := (bta (i - 1)).pfirst 0 + 256 * ((bta (i - 1)).n_nodes 0 - 1)
      let lp := s.leaf lpa
      connectSiblings bta num_threads fuel (i + 1)
        (s.setLeaf lpa { lp with next := lp.next.set 0 ((bta i).pfirst 0) })
    else s

/-- Step 5: the loop `for (int i=0; i<num_threads; i++)` calling `getKeyPtrLevel`. -/
def collectTop (bta : Nat → BldOut) (num_threads level : Nat) :
    Nat → Nat → State → List (Nat × Int) → State × List (Nat × Int)
  | 0, _, s, acc => (s, acc)
  | fuel + 1, i, s, acc =>
    if i < num_threads then
      let lp := s.leaf ((bta i).pfirst 0)
      let left_key := lp.k (LEAF_KEY_NUM - lp.num)
      let (s1, acc1) := getKeyPtrLevel level true (2 ^ 31) (bta i).top_level s
                          ((bta i).pfirst (bta i).top_level) left_key acc
      collectTop bta num_threads level fuel (i + 1) s1 acc1
    else (s, acc)

/-- `lbtree::bulkload(keynum, input, bfill)` with `worker_thread_num` workers.
The workers write disjoint memory through their own pools, so their subtrees
are built one after the other.  `none` is a failed `assert` or `exit(1)`. -/
def bulkloadPar (ps : ParState) (worker_thread_num keynum : Nat) (input : Nat → Int)
    (leaf_fill_num nonleaf_fill_num : Nat) (garbage : bleafMeta) : Option ParState :=
  let num_threads := if keynum > worker_thread_num * 10 then worker_thread_num else 1
  if num_threads = 1 then
    (bulkload ps.s keynum input leaf_fill_num nonleaf_fill_num garbage).map
      (fun s => { ps with s := s })
  else
    match runWorkers input keynum num_threads leaf_fill_num nonleaf_fill_num garbage
            num_threads 0 ps with
    | none => none
    | some ps1 =>
      let s2 := connectSiblings ps1.bta num_threads num_threads 1 ps1.s
      let level := (ps1.bta 0).top_level
      let (s3, top) := collectTop ps1.bta num_threads level num_threads 0 s2 []
      if top.length ≤ num_threads * 3 then
        match bulkloadToptree s3 top nonleaf_fill_num level 31 (ps1.bta 0).pfirst
                (ps1.bta 0).n_nodes with
        | none => none
        | some out =>
          if out.n_nodes out.top_level = 1 then
            some { ps1 with
              s := { out.s with root_level := out.top_level,
                                tree_root := out.pfirst out.top_level,
                                first_leaf := out.pfirst 0 } }
          else none
      else none

/-- The pools of worker `i` before the bulk load: those of the calling thread for worker 0. -/
def ParState.poolOf (ps : ParState) (i : Nat) : mempool × mempool :=
  if i = 0 then (ps.s.nvmpool, ps.s.dpool) else ps.pools i

/-- The number of keys given to worker `i` (step 3 of `bulkload`). -/
def workerKeys (keynum num_threads i : Nat) : Nat :=
  if i < num_threads - 1 then keynum / num_threads
  else keynum - (num_threads - 1) * (keynum / num_threads)

/-! ## Concrete inputs for the bulk load with several workers -/

/-- Worker `i >= 1` owns the NVM segment starting at `4096 + 262144*i` and the
DRAM segment starting at `65536 + 262144*i` (worker 0 owns those of `exMem`). -/
def exPools : Nat → mempool × mempool := fun i =>
  (⟨4096 + 262144 * i, 4096 + 262144 * i + 256 * 1000, 0⟩,
   ⟨65536 + 262144 * i, 65536 + 262144 * i + 256 * 100, 0⟩)

/-- The blank memory with the pools of the workers. -/
def exPar : ParState := ⟨exMem, exPools, fun _ => ⟨exMem, fun _ => 0, fun _ => 0, 0⟩⟩

/-- The bulk load (fill 1.0) of the 22 keys `1 .. 22` with two workers. -/
def exPar22 : Option ParState := bulkloadPar exPar 2 22 (fun i => 1 + (i : Int)) 14 15 exGarbage

/-- The memory after `exPar22` (the blank memory if the bulk load had failed). -/
def exState22 : State := (exPar22.map (fun ps => ps.s)).getD exMem

end LBTree


namespace LBTree

/-! ## The shape of the tree in memory -/

/-- Inner node `q` of level `j` is reachable from the node `p` of level `i`
through child pointers `ch(0..num)` (`p` itself included). -/
def reachN (s : State) : Nat → Nat → Nat → Nat → Prop
  | 0, _, _, _ => False
  | i + 1, p, j, q => (j = i + 1 ∧ q = p) ∨
      ∃ c : Int, 0 ≤ c ∧ c ≤ (s.node p).num ∧ reachN s i ((s.node p).ch c) j q

/-- The inner nodes of the tree form a tree of node frames: every reachable
node frame has sixteen entries and at most fifteen keys, no frame is reachable at two levels, and no
two child pointers of reachable nodes of one level are equal (every node and
every leaf has one parent and one place in it), and no leaf is at NULL. -/
def TreeShape (s : State) : Prop :=
  (∀ j q, reachN s s.root_level.toNat s.tree_root j q →
    (s.node q).ent.length = 16 ∧ (s.node q).num ≤ NON_LEAF_KEY_NUM) ∧
  (∀ j j' q, reachN s s.root_level.toNat s.tree_root j q →
    reachN s s.root_level.toNat s.tree_root j' q → j = j') ∧
  (∀ j p p' (c c' : Int), reachN s s.root_level.toNat s.tree_root (j + 1) p →
    reachN s s.root_level.toNat s.tree_root (j + 1) p' →
    0 ≤ c → c ≤ (s.node p).num → 0 ≤ c' → c' ≤ (s.node p').num →
    (s.node p).ch c = (s.node p').ch c' → p = p' ∧ c = c') ∧
  (∀ l, reach s s.root_level.toNat s.tree_root l → l ≠ 0)

/-- The removal of child `pp` from an inner node in Part 3 of `del`
(`if (pos == 0) ...; for (i=pos; i<n; i++) p->ent[i]= p->ent[i+1]; p->num()= n - 1`). -/
def nodeRemove (p : bnode) (pp : Int) : bnode :=
  let n := p.num
  let (p1, pos) := if pp = 0 then (p.setCh 0 (p.ch 1), (1 : Int)) else (p, pp)
  (shiftDown n (n - pos).toNat pos p1).setNum (n - 1)

/-- The local arrays `pt` hold the root-to-leaf path `pa`, `pp` of a descent in
`s`: for every level `k` in `1..root_level`, `parray[k] = pa k` is a reachable
node of level `k`, `ppos[k] = pp k` is a child index of it, that child is
`pa (k-1)` (the leaf for `k = 1`), and `isfull[k]` tells whether `pa k` is
full; nothing is recorded above the root level. -/
def PathRec (s : State) (pt : Path) (pa : Nat → Nat) (pp : Nat → Int) : Prop :=
  (∀ k, s.root_level.toNat < k → pt.parray k = none) ∧
  (∀ k, 1 ≤ k → k ≤ s.root_level.toNat →
    pt.parray k = some (pa k) ∧ pt.ppos k = some (pp k) ∧
    pt.isfull k = some ((s.node (pa k)).num == NON_LEAF_KEY_NUM) ∧
    0 ≤ pp k ∧ pp k ≤ (s.node (pa k)).num ∧
    reachN s s.root_level.toNat s.tree_root k (pa k) ∧
    (s.node (pa k)).ch (pp k) = pa (k - 1))

/-! ## The phases of `del` on a leaf with a single key -/

/-- Part 1, step 4 of `del`, "look for its left sibling", once the level `lvl`
of the first ancestor with `ppos >= 1` is known: the sibling leaf is locked. -/
def delSibling (pt : Path) (s1 : State) (lvl : Nat) : Res (State × Nat) :=
  if (lvl : Int) ≤ s1.root_level then
    match pt.parray lvl, pt.ppos lvl with
    | some pa, some pp =>
      let sibp := rightmost s1 (lvl - 1) ((s1.node pa).ch (pp - 1))
      if (s1.leaf sibp).lock ≠ 0 then Res.retry
      else Res.ok (s1.setLeaf sibp { s1.leaf sibp with lock := 1 }, sibp)
    | _, _ => Res.unrecorded
  else Res.ok (s1, 0)

/-- Part 1, step 4 of `del`, "lock affected ancestors", after the sibling search. -/
def delAncestors (pt : Path) (sib : Res (State × Nat)) : Res (State × Nat) :=
  match sib with
  | Res.ok (s2, sibp) =>
    match lockAffectedAncestors pt s2.root_level s2.root_level.toNat 1 s2 with
    | Res.ok s3 => Res.ok (s3, sibp)
    | Res.retry => Res.retry
    | Res.nomem => Res.nomem
    | Res.unrecorded => Res.unrecorded
  | Res.retry => Res.retry
  | Res.nomem => Res.nomem
  | Res.unrecorded => Res.unrecorded

/-- Part 2, case "leaf has only one key: remove the leaf node", and Part 3 of `del`. -/
def delRemove (pt : Path) (lpa : Nat) (s2 : State) (leaf_sibp : Nat) : Res State :=
  let lp := s2.leaf lpa
  let nxt := lp.next.getD lp.alt 0
  let s3 :=
    if leaf_sibp ≠ 0 then
      let sb := s2.leaf leaf_sibp
      s2.setLeaf leaf_sibp { sb with next := sb.next.set sb.alt nxt, lock := 0 }
    else { s2 with first_leaf := nxt }
  let s4 := nvmpool_free_node s3 lpa
  delNonleaf pt (s4.root_level.toNat + 2) 1 s4

/-- Every lock bit of the tree is 0: on every leaf and on every inner node
reachable from the root. -/
def LocksClear (s : State) : Prop :=
  (∀ l, reach s s.root_level.toNat s.tree_root l → (s.leaf l).lock = 0) ∧
  (∀ j q, reachN s s.root_level.toNat s.tree_root j q → (s.node q).lock = 0)

/-- Every leaf reachable from the root holds at least one key. -/
def LeavesNonEmpty (s : State) : Prop :=
  ∀ l, reach s s.root_level.toNat s.tree_root l → (s.leaf l).bitmap ≠ 0

/-! ## The frames the DRAM pool hands out -/

/-- The addresses returned by the next `n` calls of `mempool_alloc_node`
(free list first, then fresh memory), as long as the link words of the frames
on the free list are not overwritten in between; the list ends early when the
pool is exhausted. -/
def dpoolSeq : Nat → State → List Nat
  | 0, _ => []
  | n + 1, s =>
    match mempool_alloc_node s with
    | none => []
    | some (a, s1) => a :: dpoolSeq n s1

/-- The inner-node frames the DRAM pool hands out next (one per level and one
for a new root) are pairwise distinct frames of sixteen entries that are not
nodes of the tree. -/
def NodePoolFresh (s : State) : Prop :=
  (dpoolSeq (s.root_level.toNat + 1) s).Nodup ∧
  ∀ a ∈ dpoolSeq (s.root_level.toNat + 1) s, (s.node a).ent.length = 16 ∧
    ∀ j, ¬ reachN s s.root_level.toNat s.tree_root j a

/-- Frame `x` belongs to level `i` of the tree: an inner node reachable from
the root for `i >= 1`, a reachable leaf for `i = 0`. -/
def atLevel (s : State) (i x : Nat) : Prop :=
  (1 ≤ i ∧ reachN s s.root_level.toNat s.tree_root i x) ∨
  (i = 0 ∧ reach s s.root_level.toNat s.tree_root x)

/-! ## Further concrete trees -/

/-- The tree bulk-loaded (fill 1.0) from the single key `1`: a root leaf with one key. -/
def exTree1 : Option State := bulkload exMem 1 (fun i => 1 + (i : Int)) 14 15 exGarbage

/-- The state of `exTree1` (the blank memory if the bulk load had failed). -/
def exState1 : State := exTree1.getD exMem

/-- The tree bulk-loaded (fill 1.0) from the fifteen keys `1 .. 15`: a full
leaf and a leaf with one key under a root with one separator. -/
def exTree15 : Option State := bulkload exMem 15 (fun i => 1 + (i : Int)) 14 15 exGarbage

/-- The state of `exTree15` (the blank memory if the bulk load had failed). -/
def exState15 : State := exTree15.getD exMem

end LBTree


namespace LBTree

/-! ## The log buffer (`nvm-common.h`, class `NvmLog_Log`)

Memory is byte addressed: `mem a` is the byte at address `a` as the thread
sees it, `durable a` the byte of the NVM image, which changes only when the
line holding `a` is written back by `clwb`.  The ring is the address range
`[nl_log_area_, nl_log_area_end_)` of that memory. -/

/-- `CACHE_LINE_SIZE`. -/
def CACHE_LINE_SIZE : Nat := 64

/-- `getline(addr)`: `addr & ~(CACHE_LINE_SIZE-1)`. -/
def getline (addr : Nat) : Nat := addr / CACHE_LINE_SIZE * CACHE_LINE_SIZE

def NL_INVALID : Nat := 0x0
def NL_NEW1B : Nat := 0x1
def NL_NEW2B : Nat := 0x2
def NL_NEW4B : Nat := 0x3
def NL_NEW8B : Nat := 0x4
def NL_NEWVCHAR : Nat := 0x5
def NL_WRITE1B : Nat := 0x6
def NL_WRITE2B : Nat := 0x7
def NL_WRITE4B : Nat := 0x8
def NL_WRITE8B : Nat := 0x9
def NL_WRITEVCHAR : Nat := 0xa
def NL_REDO1B : Nat := 0xb
def NL_REDO2B : Nat := 0xc
def NL_REDO4B : Nat := 0xd
def NL_REDO8B : Nat := 0xe
def NL_REDOVCHAR : Nat := 0xf
def NL_ALLOCNODE : Nat := 0x10
def NL_DELNODE : Nat := 0x11
def NL_NEXT_CHUNK : Nat := 0x20
def NL_COMMIT : Nat := 0x80
def NL_ABORT : Nat := 0x81
def NL_ONGOING : Nat := 0x82

/-- The `w` bytes of the value `v`, least significant first (a typed store of
`w` bytes on x86). -/
def bytesLE : Nat → Nat → List Nat
  | 0, _ => []
  | w + 1, v => v % 256 :: bytesLE w (v / 256)

/-- The value of a little-endian byte string (a typed load); every cell of
memory is one byte. -/
def leValue : List Nat → Nat
  | [] => 0
  | b :: bs => b % 256 + 256 * leValue bs

/-- `memcpy(dst, src, len)` into memory: `src` lists the `len` bytes copied. -/
def memcpyTo (m : Nat → Nat) (dst : Nat) (src : List Nat) : Nat → Nat :=
  fun a => if dst ≤ a ∧ a < dst + src.length then src.getD (a - dst) 0 else m a

/-- The `len` bytes of memory starting at `src`. -/
def memcpyFrom (m : Nat → Nat) (src : Nat) : Nat → List Nat
  | 0 => []
  | len + 1 => m src :: memcpyFrom m (src + 1) len

/-- A typed load of `w` bytes at `a`. -/
def loadLE (m : Nat → Nat) (a w : Nat) : Nat := leValue (memcpyFrom m a w)

/-- `nl_log_pointer_t`. -/
structure nl_log_pointer_t where
  version_ : Nat
  offset_ : Nat
  nextline_ptr_ : Nat
  next_ptr_ : Nat
deriving DecidableEq

/-- `NvmLog_Log` together with the memory it works on. -/
structure NvmLog_Log where
  mem : Nat → Nat
  durable : Nat → Nat
  nl_log_area_ : Nat
  nl_log_area_end_ : Nat
  nl_log_wr_ : nl_log_pointer_t

/-- `clwb(addr)`: the line holding `addr` is written back. -/
def clwb (lg : NvmLog_Log) (addr : Nat) : NvmLog_Log :=
  { lg with durable := fun a => if getline a = getline addr then lg.mem a else lg.durable a }

/-- `clwb2(start, end)`. -/
def clwb2 (lg : NvmLog_Log) (start endp : Nat) : NvmLog_Log :=
  let lg1 := clwb lg start
  if getline start ≠ getline endp then clwb lg1 endp else lg1

/-- The loop of `clwbmore`: a `do ... while (start_line <= end_line)`. -/
def clwbLoop (end_line : Nat) : Nat → Nat → NvmLog_Log → NvmLog_Log
  | 0, _, lg => lg
  | fuel + 1, start_line, lg =>
    let lg1 := clwb lg start_line
    if start_line + CACHE_LINE_SIZE ≤ end_line then
      clwbLoop end_line fuel (start_line + CACHE_LINE_SIZE) lg1
    else lg1

/-- `clwbmore(start, end)`. -/
def clwbmore (lg : NvmLog_Log) (start endp : Nat) : NvmLog_Log :=
  clwbLoop (getline endp) (getline endp / CACHE_LINE_SIZE + 1) (getline start) lg

/-- `initLog()` for a ring of `NVM_LOG_SIZE` bytes taken from the NVM pool;
`none` is one of the two `exit(1)` (pool exhausted, area not line aligned). -/
def initLog (NVM_LOG_SIZE : Nat) (mem durable : Nat → Nat) (pool : mempool) :
    Option (NvmLog_Log × mempool) :=
  match pool.alloc NVM_LOG_SIZE with
  | none => none
  | some (area, pool1) =>
    if area % CACHE_LINE_SIZE ≠ 0 then none
    else
      let area_end := area + NVM_LOG_SIZE
      let lg : NvmLog_Log :=
        { mem := memcpyTo mem area (List.replicate NVM_LOG_SIZE 0), durable := durable,
          nl_log_area_ := area, nl_log_area_end_ := area_end,
          nl_log_wr_ := ⟨0, 0, area_end, area_end⟩ }
      some (clwbmore lg area (area_end - 1), pool1)

/-- `prepareLogforWriting()`. -/
def prepareLogforWriting (lg : NvmLog_Log) : NvmLog_Log :=
  { lg with nl_log_wr_ :=
      ⟨lg.nl_log_wr_.version_ ^^^ 0x80, 0, lg.nl_log_area_ + CACHE_LINE_SIZE, lg.nl_log_area_ + 2⟩ }

/-- `getLogOffset(p)`. -/
def getLogOffset (lg : NvmLog_Log) (p : Nat) : Nat := p - lg.nl_log_area_

/-- `computeCheckSum(line)`: the sum of the eight 8-byte words of the line,
byte 0 masked out, folded to one byte; all arithmetic is `unsigned long long`. -/
def computeCheckSum (m : Nat → Nat) (line : Nat) : Nat :=
  let p := fun i => loadLE m (line + 8 * i) 8
  let v := ((p 0 &&& 0xffffffffffffff00) + p 1 + p 2 + p 3 + p 4 + p 5 + p 6 + p 7) % 2 ^ 64
  let v1 := (v + (v >>> 32)) % 2 ^ 64
  let v2 := (v1 + (v1 >>> 16)) % 2 ^ 64
  let v3 := (v2 + (v2 >>> 8)) % 2 ^ 64
  v3 % 256

/-- `setByteOne(line, version)`: `line[0] = (checksum & 0x7f) | version`. -/
def setByteOne (m : Nat → Nat) (line version : Nat) : Nat → Nat :=
  memcpyTo m line [((computeCheckSum m line &&& 0x7f) ||| version) % 256]

/-- `checkByteOne(line, version)`: `line[0] == ((checksum & 0x7f) | version)`.
Both sides are `char` values promoted to `int`; the promotion is one to one,
so they are compared as bytes. -/
def checkByteOne (m : Nat → Nat) (line version : Nat) : Bool :=
  m line == ((computeCheckSum m line &&& 0x7f) ||| version) % 256

/-- `completeLine2Log()`. -/
def completeLine2Log (lg : NvmLog_Log) : NvmLog_Log :=
  let line := lg.nl_log_wr_.nextline_ptr_ - CACHE_LINE_SIZE
  let m1 := memcpyTo lg.mem (line + 1) [lg.nl_log_wr_.offset_]
  let m2 := setByteOne m1 line lg.nl_log_wr_.version_
  let lg1 := clwb { lg with mem := m2 } line
  if lg1.nl_log_wr_.nextline_ptr_ < lg1.nl_log_area_end_ then
    { lg1 with nl_log_wr_ :=
        ⟨lg1.nl_log_wr_.version_, 0, lg1.nl_log_wr_.nextline_ptr_ + CACHE_LINE_SIZE,
         lg1.nl_log_wr_.nextline_ptr_ + 2⟩ }
  else prepareLogforWriting lg1

/-- The `while (len >= l)` loop of `writeLog`; `rec` are the bytes still to be
written and `l` the room left in the current line. -/
def writeLoop : Nat → NvmLog_Log → List Nat → Nat → NvmLog_Log × List Nat
  | 0, lg, rec, _ => (lg, rec)
  | fuel + 1, lg, rec, l =>
    if rec.length ≥ l then
      writeLoop fuel
        (completeLine2Log { lg with mem := memcpyTo lg.mem lg.nl_log_wr_.next_ptr_ (rec.take l) })
        (rec.drop l) (CACHE_LINE_SIZE - 2)
    else (lg, rec)

/-- `writeLog(rec, len)`: `rec` lists the `len` bytes of the record. -/
def writeLog (lg : NvmLog_Log) (rec : List Nat) : NvmLog_Log :=
  let l := lg.nl_log_wr_.nextline_ptr_ - lg.nl_log_wr_.next_ptr_
  let lg0 : NvmLog_Log :=
    if lg.nl_log_wr_.offset_ = 0 then
      { lg with nl_log_wr_ := { lg.nl_log_wr_ with offset_ := (CACHE_LINE_SIZE - l) % 256 } }
    else lg
  let (lg1, rest) := writeLoop (rec.length + 1) lg0 rec l
  if rest.length > 0 then
    { lg1 with mem := memcpyTo lg1.mem lg1.nl_log_wr_.next_ptr_ rest,
               nl_log_wr_ := { lg1.nl_log_wr_ with
                 next_ptr_ := lg1.nl_log_wr_.next_ptr_ + rest.length } }
  else lg1

/-- `flushLog()`; `sfence` has no effect on the state. -/
def flushLog (lg : NvmLog_Log) : NvmLog_Log :=
  let line := lg.nl_log_wr_.nextline_ptr_ - CACHE_LINE_SIZE
  if lg.nl_log_wr_.next_ptr_ - line > 2 then
    let m1 := memcpyTo lg.mem lg.nl_log_wr_.next_ptr_ [NL_INVALID]
    let m2 := memcpyTo m1 (line + 1) [lg.nl_log_wr_.offset_]
    let m3 := setByteOne m2 line lg.nl_log_wr_.version_
    clwb { lg with mem := m3 } line
  else lg

/-- `getLogCurPos(pos)`. -/
def getLogCurPos (lg : NvmLog_Log) : nl_log_pointer_t :=
  ⟨lg.nl_log_wr_.version_, lg.nl_log_wr_.offset_, lg.nl_log_wr_.nextline_ptr_,
   lg.nl_log_wr_.next_ptr_⟩

/-- `isSameAsCurPos(pos)`. -/
def isSameAsCurPos (lg : NvmLog_Log) (pos : nl_log_pointer_t) : Bool :=
  pos.next_ptr_ == lg.nl_log_wr_.next_ptr_

/-- `prepareForRead(pos)`. -/
def prepareForRead (lg : NvmLog_Log) : NvmLog_Log := flushLog lg

/-- `getLogWriteEndPtr()`. -/
def getLogWriteEndPtr (lg : NvmLog_Log) : Nat := lg.nl_log_wr_.next_ptr_

/-- The line change at the end of an iteration of `readLog` and `readLogSkip`. -/
def readNextLine (lg : NvmLog_Log) (pos : nl_log_pointer_t) : nl_log_pointer_t :=
  let pos1 : nl_log_pointer_t :=
    if pos.nextline_ptr_ < lg.nl_log_area_end_ then
      { pos with next_ptr_ := pos.next_ptr_ + 2,
                 nextline_ptr_ := pos.nextline_ptr_ + CACHE_LINE_SIZE }
    else
      { pos with version_ := pos.version_ ^^^ 0x80, next_ptr_ := lg.nl_log_area_ + 2,
                 nextline_ptr_ := lg.nl_log_area_ + CACHE_LINE_SIZE }
  { pos1 with offset_ := lg.mem (pos1.next_ptr_ - 1) }

/-- The loop of `readLog`: `buf` are the bytes read so far. -/
def readLoop (lg : NvmLog_Log) :
    Nat → nl_log_pointer_t → Nat → Nat → List Nat → nl_log_pointer_t × List Nat
  | 0, pos, _, _, buf => (pos, buf)
  | fuel + 1, pos, len, l, buf =>
    if len > 0 ∧ checkByteOne lg.mem (pos.nextline_ptr_ - CACHE_LINE_SIZE) pos.version_ = true then
      let l1 := if len < l then len else l
      let buf1 := buf ++ memcpyFrom lg.mem pos.next_ptr_ l1
      let pos1 := { pos with next_ptr_ := pos.next_ptr_ + l1 }
      if pos1.next_ptr_ = pos1.nextline_ptr_ then
        readLoop lg fuel (readNextLine lg pos1) (len - l1) (CACHE_LINE_SIZE - 2) buf1
      else readLoop lg fuel pos1 (len - l1) l1 buf1
    else (pos, buf)

/-- `readLog(pos, buf, len)`: the new position and the bytes put into `buf`
(the return value is their number).  The source starts with
`int l = pos->nextline_ptr_ - pos->next_ptr_`; this is the code for a reader
inside its line (`next_ptr_ <= nextline_ptr_`, so `l >= 0`), which is what
`getLogCurPos` hands out and what `readLog` and `readLogSkip` leave behind.
For a position outside its line `l` is negative in the source and `memcpy` is
called with a negative length, which has no defined result. -/
def readLog (lg : NvmLog_Log) (pos : nl_log_pointer_t) (len : Nat) :
    nl_log_pointer_t × List Nat :=
  readLoop lg (len + 1) pos len (pos.nextline_ptr_ - pos.next_ptr_) []

/-- The loop of `readLogSkip`: `num` counts the bytes skipped so far. -/
def skipLoop (lg : NvmLog_Log) :
    Nat → nl_log_pointer_t → Nat → Nat → Nat → nl_log_pointer_t × Nat
  | 0, pos, _, _, num => (pos, num)
  | fuel + 1, pos, len, l, num =>
    if len > 0 ∧ checkByteOne lg.mem (pos.nextline_ptr_ - CACHE_LINE_SIZE) pos.version_ = true then
      let l1 := if len < l then len else l
      let num1 := num + l1
      let pos1 := { pos with next_ptr_ := pos.next_ptr_ + l1 }
      if pos1.next_ptr_ = pos1.nextline_ptr_ then
        skipLoop lg fuel (readNextLine lg pos1) (len - l1) (CACHE_LINE_SIZE - 2) num1
      else skipLoop lg fuel pos1 (len - l1) l1 num1
    else (pos, num)

/-- `readLogSkip(pos, len)`: the new position and the number of bytes skipped,
for a reader inside its line (`next_ptr_ <= nextline_ptr_`, so that the
`int l = pos->nextline_ptr_ - pos->next_ptr_` of the source is not negative). -/
def readLogSkip (lg : NvmLog_Log) (pos : nl_log_pointer_t) (len : Nat) :
    nl_log_pointer_t × Nat :=
  skipLoop lg (len + 1) pos len (pos.nextline_ptr_ - pos.next_ptr_) 0

/-- `prepareForReverseRead(pos)`. -/
def prepareForReverseRead (lg : NvmLog_Log) (pos : nl_log_pointer_t) :
    NvmLog_Log × nl_log_pointer_t :=
  let lg1 := flushLog lg
  let nextline := getline pos.next_ptr_
  (lg1, { pos with nextline_ptr_ := nextline, version_ := lg1.mem nextline &&& 0x80 })

/-- The line change at the end of an iteration of `readLogReverse`. -/
def readPrevLine (lg : NvmLog_Log) (pos : nl_log_pointer_t) : nl_log_pointer_t :=
  let pos1 : nl_log_pointer_t :=
    if pos.nextline_ptr_ > lg.nl_log_area_ then
      { pos with next_ptr_ := pos.nextline_ptr_,
                 nextline_ptr_ := pos.nextline_ptr_ - CACHE_LINE_SIZE }
    else
      { pos with version_ := pos.version_ ^^^ 0x80, next_ptr_ := lg.nl_log_area_end_,
                 nextline_ptr_ := lg.nl_log_area_end_ - CACHE_LINE_SIZE }
  { pos1 with offset_ := lg.mem (pos1.nextline_ptr_ + 1) }

/-- The loop of `readLogReverse`: `buf` are the bytes read so far, which fill
the end of the caller's buffer. -/
def readRevLoop (lg : NvmLog_Log) :
    Nat → nl_log_pointer_t → Nat → Nat → List Nat → nl_log_pointer_t × List Nat
  | 0, pos, _, _, buf => (pos, buf)
  | fuel + 1, pos, len, l, buf =>
    if len > 0 ∧ checkByteOne lg.mem pos.nextline_ptr_ pos.version_ = true then
      let l1 := if len < l then len else l
      let pos1 := { pos with next_ptr_ := pos.next_ptr_ - l1 }
      let buf1 := memcpyFrom lg.mem pos1.next_ptr_ l1 ++ buf
      if pos1.next_ptr_ - 2 = pos1.nextline_ptr_ then
        readRevLoop lg fuel (readPrevLine lg pos1) (len - l1) (CACHE_LINE_SIZE - 2) buf1
      else readRevLoop lg fuel pos1 (len - l1) l1 buf1
    else (pos, buf)

/-- `readLogReverse(pos, buf, len)`: the new position and the bytes read, which
are `buf[len-num .. len-1]`.  The source starts with
`int l = (pos->next_ptr_ - pos->nextline_ptr_) - 2`; this is the code for a
backward reader inside its line (`nextline_ptr_ + 2 <= next_ptr_`, so
`l >= 0`), which is what `prepareForReverseRead` after `reverseAdjustPtr`
hands out and what the backward readers leave behind.  For a position outside
its line `l` is negative in the source and `memcpy` is called with a negative
length, which has no defined result. -/
def readLogReverse (lg : NvmLog_Log) (pos : nl_log_pointer_t) (len : Nat) :
    nl_log_pointer_t × List Nat :=
  readRevLoop lg (len + 1) pos len (pos.next_ptr_ - pos.nextline_ptr_ - 2) []

/-- The loop of `readLogReverseSkip`: `num` counts the bytes skipped so far. -/
def skipRevLoop (lg : NvmLog_Log) :
    Nat → nl_log_pointer_t → Nat → Nat → Nat → nl_log_pointer_t × Nat
  | 0, pos, _, _, num => (pos, num)
  | fuel + 1, pos, len, l, num =>
    if len > 0 ∧ checkByteOne lg.mem pos.nextline_ptr_ pos.version_ = true then
      let l1 := if len < l then len else l
      let num1 := num + l1
      let pos1 := { pos with next_ptr_ := pos.next_ptr_ - l1 }
      if pos1.next_ptr_ - 2 = pos1.nextline_ptr_ then
        skipRevLoop lg fuel (readPrevLine lg pos1) (len - l1) (CACHE_LINE_SIZE - 2) num1
      else skipRevLoop lg fuel pos1 (len - l1) l1 num1
    else (pos, num)

/-- `readLogReverseSkip(pos, len)`: the new position and the number of bytes
skipped, for a backward reader inside its line (`nextline_ptr_ + 2 <=
next_ptr_`, so that the `int l = (pos->next_ptr_ - pos->nextline_ptr_) - 2` of
the source is not negative). -/
def readLogReverseSkip (lg : NvmLog_Log) (pos : nl_log_pointer_t) (len : Nat) :
    nl_log_pointer_t × Nat :=
  skipRevLoop lg (len + 1) pos len (pos.next_ptr_ - pos.nextline_ptr_ - 2) 0

/-- `reverseAdjustPtr(ptr)`. -/
def reverseAdjustPtr (lg : NvmLog_Log) (ptr : Nat) : Nat :=
  if ptr % CACHE_LINE_SIZE ≤ 2 then
    if ptr - 2 = lg.nl_log_area_ then lg.nl_log_area_end_ else ptr - 2
  else ptr

/-! ## The mini-transaction log (class `NvmLog`) -/

/-- `NlVolatileRedoRec`; `vchar` are the bytes that `value_` points to in the
buffer of variable-length values (only for `NL_REDOVCHAR`). -/
structure NlVolatileRedoRec where
  tag_ : Nat
  len_ : Nat
  addr_ : Nat
  value_ : Nat
  vchar : List Nat
deriving DecidableEq

/-- `NvmLog`, with the NVM pool of the thread.  The arrays hold their first
`nl_num_node_to_del_` and `nl_num_redo_rec_` entries. -/
structure NvmLog where
  nl_logbuf_ : NvmLog_Log
  nl_log_tx_pos_ : nl_log_pointer_t
  nl_node_to_del_ : List Nat
  nl_redo_rec_ : List NlVolatileRedoRec
  pool : mempool

/-- How a method of `NvmLog` ends: it returns, it calls `exit(1)` (the state
is the one at the call), it uses bytes of a local buffer that the read before
did not fill, or, in the model, its loop is cut off. -/
inductive LogRes (α : Type) where
  | ok : α → LogRes α
  | exited : α → LogRes α
  | unrecorded : LogRes α
  | cut : LogRes α

/-- A store to data memory. -/
def NvmLog.store (s : NvmLog) (addr : Nat) (bytes : List Nat) : NvmLog :=
  { s with nl_logbuf_ := { s.nl_logbuf_ with mem := memcpyTo s.nl_logbuf_.mem addr bytes } }

/-- `nvmpool_free_node(p)`: the link is stored in the first 8 bytes of the node. -/
def NvmLog.free_node (s : NvmLog) (p : Nat) : NvmLog :=
  { s.store p (bytesLE 8 s.pool.free_node) with pool := { s.pool with free_node := p } }

/-- `nvmpool_alloc_node(size)`; `none` is the `exit(1)` of an exhausted pool. -/
def NvmLog.alloc_node (s : NvmLog) (size : Nat) : Option (Nat × NvmLog) :=
  if s.pool.free_node ≠ 0 then
    some (s.pool.free_node,
      { s with pool := { s.pool with free_node := loadLE s.nl_logbuf_.mem s.pool.free_node 8 } })
  else
    match s.pool.alloc size with
    | some (p, m) => some (p, { s with pool := m })
    | none => none

/-- `NvmLog::init()` for a ring of `NVM_LOG_SIZE` bytes. -/
def NvmLog.init (NVM_LOG_SIZE : Nat) (mem durable : Nat → Nat) (pool : mempool) : Option NvmLog :=
  match initLog NVM_LOG_SIZE mem durable pool with
  | none => none
  | some (lg, pool1) =>
    let lg1 := prepareLogforWriting lg
    some ⟨lg1, getLogCurPos lg1, [], [], pool1⟩

/-- `startMiniTransaction()`. -/
def startMiniTransaction (s : NvmLog) : NvmLog :=
  { s with nl_log_tx_pos_ := getLogCurPos s.nl_logbuf_, nl_node_to_del_ := [], nl_redo_rec_ := [] }

/-- The log record written for one volatile redo record at commit. -/
def commitRedoLog (lg : NvmLog_Log) (np : NlVolatileRedoRec) : NvmLog_Log :=
  if np.tag_ = NL_REDO1B then
    writeLog lg ([NL_REDO1B] ++ bytesLE 8 np.addr_ ++ bytesLE 1 np.value_ ++ [NL_REDO1B])
  else if np.tag_ = NL_REDO2B then
    writeLog lg ([NL_REDO2B] ++ bytesLE 8 np.addr_ ++ bytesLE 2 np.value_ ++ [NL_REDO2B])
  else if np.tag_ = NL_REDO4B then
    writeLog lg ([NL_REDO4B] ++ bytesLE 8 np.addr_ ++ bytesLE 4 np.value_ ++ [NL_REDO4B])
  else if np.tag_ = NL_REDO8B then
    writeLog lg ([NL_REDO8B] ++ bytesLE 8 np.addr_ ++ bytesLE 8 np.value_ ++ [NL_REDO8B])
  else if np.tag_ = NL_REDOVCHAR then
    writeLog
      (writeLog (writeLog lg ([NL_REDOVCHAR] ++ bytesLE 8 np.addr_ ++ bytesLE 4 np.len_))
        (np.vchar.take np.len_))
      (bytesLE 4 np.len_ ++ [NL_REDOVCHAR])
  else lg

/-- The store done for one volatile redo record at commit. -/
def commitRedoStore (s : NvmLog) (np : NlVolatileRedoRec) : NvmLog :=
  if np.tag_ = NL_REDO1B then s.store np.addr_ (bytesLE 1 np.value_)
  else if np.tag_ = NL_REDO2B then s.store np.addr_ (bytesLE 2 np.value_)
  else if np.tag_ = NL_REDO4B then s.store np.addr_ (bytesLE 4 np.value_)
  else if np.tag_ = NL_REDO8B then s.store np.addr_ (bytesLE 8 np.value_)
  else if np.tag_ = NL_REDOVCHAR then s.store np.addr_ (np.vchar.take np.len_)
  else s

/-- The first half of `commitMiniTransaction()`: the redo records, the record
of the nodes to delete and the commit record are written to the log. -/
def commitLog (s : NvmLog) : NvmLog :=
  let lg1 := s.nl_redo_rec_.foldl commitRedoLog s.nl_logbuf_
  let lg2 :=
    if s.nl_node_to_del_.length > 0 then
      writeLog
        (writeLog (writeLog lg1 ([NL_DELNODE] ++ bytesLE 4 s.nl_node_to_del_.length))
          ((s.nl_node_to_del_.map (bytesLE 8)).flatten))
        (bytesLE 4 s.nl_node_to_del_.length ++ [NL_DELNODE])
    else lg1
  let lg3 :=
    if isSameAsCurPos lg2 s.nl_log_tx_pos_ = false then flushLog (writeLog lg2 [NL_COMMIT])
    else lg2
  { s with nl_logbuf_ := lg3 }

/-- The second half of `commitMiniTransaction()`: the stores of the redo
records, then the deletions. -/
def commitApply (s : NvmLog) : NvmLog :=
  let s1 := s.nl_redo_rec_.foldl commitRedoStore s
  s1.nl_node_to_del_.foldl NvmLog.free_node s1

/-- `commitMiniTransaction()`. -/
def commitMiniTransaction (s : NvmLog) : NvmLog := commitApply (commitLog s)

/-- The 4-byte length read by `*((int *)p)`. -/
def readInt (p : List Nat) : Int :=
  let v := leValue (p.take 4)
  if v < 2 ^ 31 then (v : Int) else (v : Int) - 2 ^ 32

/-- One iteration of the undo loop of `abortMiniTransaction()`, at the record
that ends before `backward.next_ptr_`. -/
def abortStep (s : NvmLog) (backward : nl_log_pointer_t) : LogRes (NvmLog × nl_log_pointer_t) :=
  let lg := s.nl_logbuf_
  let tag := lg.mem (backward.next_ptr_ - 1)
  let undo := fun (w : Nat) =>
    let r := readLogReverse lg backward (1 + 8 + w + w + 1)
    if r.2.length = 1 + 8 + w + w + 1 then
      let addr := leValue ((r.2.drop 1).take 8)
      let lg1 := { lg with mem := memcpyTo lg.mem addr ((r.2.drop (1 + 8)).take w) }
      let lg2 := if w = 1 then clwb lg1 addr else clwb2 lg1 addr (addr + w - 1)
      LogRes.ok ({ s with nl_logbuf_ := lg2 }, r.1)
    else LogRes.unrecorded
  if tag = NL_NEW1B then LogRes.ok (s, (readLogReverseSkip lg backward (1 + 8 + 1 + 1)).1)
  else if tag = NL_NEW2B then LogRes.ok (s, (readLogReverseSkip lg backward (1 + 8 + 2 + 1)).1)
  else if tag = NL_NEW4B then LogRes.ok (s, (readLogReverseSkip lg backward (1 + 8 + 4 + 1)).1)
  else if tag = NL_NEW8B then LogRes.ok (s, (readLogReverseSkip lg backward (1 + 8 + 8 + 1)).1)
  else if tag = NL_NEWVCHAR then
    let r := readLogReverse lg backward (4 + 1)
    if r.2.length = 4 + 1 then
      LogRes.ok (s, (readLogReverseSkip lg r.1 ((1 + 8 + 4 : Int) + readInt r.2).toNat).1)
    else LogRes.unrecorded
  else if tag = NL_WRITE1B then undo 1
  else if tag = NL_WRITE2B then undo 2
  else if tag = NL_WRITE4B then undo 4
  else if tag = NL_WRITE8B then undo 8
  else if tag = NL_WRITEVCHAR then
    let r := readLogReverse lg backward (4 + 1)
    if r.2.length = 4 + 1 then
      let len := readInt r.2
      if 1 + 8 + 4 + len + len < 0 then LogRes.exited (s, r.1)
      else if len < 0 then LogRes.unrecorded
      else
        let r2 := readLogReverse lg r.1 (1 + 8 + 4 + len.toNat + len.toNat)
        if r2.2.length = 1 + 8 + 4 + len.toNat + len.toNat then
          let addr := leValue ((r2.2.drop 1).take 8)
          let lg1 := { lg with mem := memcpyTo lg.mem addr ((r2.2.drop (1 + 8 + 4)).take len.toNat) }
          LogRes.ok ({ s with nl_logbuf_ := clwbmore lg1 addr (addr + len.toNat - 1) }, r2.1)
        else LogRes.unrecorded
    else LogRes.unrecorded
  else if tag = NL_ALLOCNODE then
    let r := readLogReverse lg backward (1 + 8 + 1)
    if r.2.length = 1 + 8 + 1 then
      LogRes.ok (s.free_node (leValue ((r.2.drop 1).take 8)), r.1)
    else LogRes.unrecorded
  else if tag = NL_NEXT_CHUNK then LogRes.ok (s, (readLogReverseSkip lg backward 1).1)
  else LogRes.exited (s, backward)

/-- The loop `while (backward.next_ptr_ != p_end)` of `abortMiniTransaction()`. -/
def abortLoop (p_end : Nat) : Nat → NvmLog → nl_log_pointer_t → LogRes NvmLog
  | 0, _, _ => LogRes.cut
  | fuel + 1, s, backward =>
    if backward.next_ptr_ ≠ p_end then
      match abortStep s backward with
      | LogRes.ok (s1, b1) => abortLoop p_end fuel s1 b1
      | LogRes.exited (s1, _) => LogRes.exited s1
      | LogRes.unrecorded => LogRes.unrecorded
      | LogRes.cut => LogRes.cut
    else LogRes.ok s

/-- `abortMiniTransaction()`; `fuel` bounds the number of records undone. -/
def abortMiniTransaction (fuel : Nat) (s : NvmLog) : LogRes NvmLog :=
  let r := prepareForReverseRead s.nl_logbuf_ (getLogCurPos s.nl_logbuf_)
  let s0 := { s with nl_logbuf_ := r.1 }
  let p_end := reverseAdjustPtr s0.nl_logbuf_ s0.nl_log_tx_pos_.next_ptr_
  match abortLoop p_end fuel s0 r.2 with
  | LogRes.ok s1 =>
    LogRes.ok { s1 with nl_logbuf_ := flushLog (writeLog s1.nl_logbuf_ [NL_ABORT]) }
  | LogRes.exited s1 => LogRes.exited s1
  | LogRes.unrecorded => LogRes.unrecorded
  | LogRes.cut => LogRes.cut

/-- The body shared by `write8B`, `write4B`, `write2B` and `write1B`: the
record is written and flushed, then the store is done. -/
def writeNB (tag w : Nat) (s : NvmLog) (addr value : Nat) : NvmLog :=
  let p := [tag] ++ bytesLE 8 addr ++ memcpyFrom s.nl_logbuf_.mem addr w ++ bytesLE w value ++ [tag]
  { s with nl_logbuf_ := flushLog (writeLog s.nl_logbuf_ p) }.store addr (bytesLE w value)

/-- `write8B(addr, value)`. -/
def write8B (s : NvmLog) (addr value : Nat) : NvmLog := writeNB NL_WRITE8B 8 s addr value

/-- `write4B(addr, value)`. -/
def write4B (s : NvmLog) (addr value : Nat) : NvmLog := writeNB NL_WRITE4B 4 s addr value

/-- `write2B(addr, value)`. -/
def write2B (s : NvmLog) (addr value : Nat) : NvmLog := writeNB NL_WRITE2B 2 s addr value

/-- `write1B(addr, value)`. -/
def write1B (s : NvmLog) (addr value : Nat) : NvmLog := writeNB NL_WRITE1B 1 s addr value

/-- `writeVchar(addr, len, value)`: `value` lists the `len` bytes. -/
def writeVchar (s : NvmLog) (addr : Nat) (value : List Nat) : NvmLog :=
  let len := value.length
  let lg1 := writeLog s.nl_logbuf_ ([NL_WRITEVCHAR] ++ bytesLE 8 addr ++ bytesLE 4 len)
  let lg2 := writeLog lg1 (memcpyFrom lg1.mem addr len)
  let lg3 := writeLog lg2 value
  let lg4 := flushLog (writeLog lg3 (bytesLE 4 len ++ [NL_WRITEVCHAR]))
  { s with nl_logbuf_ := lg4 }.store addr value

/-- The body shared by `new8B`, `new4B`, `new2B` and `new1B`: the record is
written without a flush, then the store is done. -/
def newNB (tag w : Nat) (s : NvmLog) (addr value : Nat) : NvmLog :=
  let p := [tag] ++ bytesLE 8 addr ++ bytesLE w value ++ [tag]
  { s with nl_logbuf_ := writeLog s.nl_logbuf_ p }.store addr (bytesLE w value)

/-- `new8B(addr, value)`. -/
def new8B (s : NvmLog) (addr value : Nat) : NvmLog := newNB NL_NEW8B 8 s addr value

/-- `new4B(addr, value)`. -/
def new4B (s : NvmLog) (addr value : Nat) : NvmLog := newNB NL_NEW4B 4 s addr value

/-- `new2B(addr, value)`. -/
def new2B (s : NvmLog) (addr value : Nat) : NvmLog := newNB NL_NEW2B 2 s addr value

/-- `new1B(addr, value)`. -/
def new1B (s : NvmLog) (addr value : Nat) : NvmLog := newNB NL_NEW1B 1 s addr value

/-- `newVchar(addr, len, value)`. -/
def newVchar (s : NvmLog) (addr : Nat) (value : List Nat) : NvmLog :=
  let len := value.length
  let lg1 := writeLog s.nl_logbuf_ ([NL_NEWVCHAR] ++ bytesLE 8 addr ++ bytesLE 4 len)
  let lg2 := writeLog lg1 value
  let lg3 := writeLog lg2 (bytesLE 4 len ++ [NL_NEWVCHAR])
  { s with nl_logbuf_ := lg3 }.store addr value

/-- The body shared by `redoWrite8B` .. `redoWrite1B`: `getRedoRec()` hands
out the next entry of the array; `len_` is neither written here nor read at
commit for these tags. -/
def redoWriteNB (tag w : Nat) (s : NvmLog) (addr value : Nat) : NvmLog :=
  { s with nl_redo_rec_ := s.nl_redo_rec_ ++ [⟨tag, 0, addr, value % 2 ^ (8 * w), []⟩] }

/-- `redoWrite8B(addr, value)`. -/
def redoWrite8B (s : NvmLog) (addr value : Nat) : NvmLog := redoWriteNB NL_REDO8B 8 s addr value

/-- `redoWrite4B(addr, value)`. -/
def redoWrite4B (s : NvmLog) (addr value : Nat) : NvmLog := redoWriteNB NL_REDO4B 4 s addr value

/-- `redoWrite2B(addr, value)`. -/
def redoWrite2B (s : NvmLog) (addr value : Nat) : NvmLog := redoWriteNB NL_REDO2B 2 s addr value

/-- `redoWrite1B(addr, value)`. -/
def redoWrite1B (s : NvmLog) (addr value : Nat) : NvmLog := redoWriteNB NL_REDO1B 1 s addr value

/-- `redoWriteVchar(addr, len, value)`: the bytes are copied to the buffer of
variable-length values, where `value_` points to them; that buffer is taken
to keep what was copied into it until the transaction ends. -/
def redoWriteVchar (s : NvmLog) (addr : Nat) (value : List Nat) : NvmLog :=
  if value.length > 0 then
    { s with nl_redo_rec_ := s.nl_redo_rec_ ++ [⟨NL_REDOVCHAR, value.length, addr, 0, value⟩] }
  else s

/-- `allocNode(size)`. -/
def allocNode (s : NvmLog) (size : Nat) : Option (Nat × NvmLog) :=
  match s.alloc_node size with
  | none => none
  | some (ptr, s1) =>
    let p := [NL_ALLOCNODE] ++ bytesLE 8 ptr ++ [NL_ALLOCNODE]
    some (ptr, { s1 with nl_logbuf_ := flushLog (writeLog s1.nl_logbuf_ p) })

/-- `delNode(p)`. -/
def delNode (s : NvmLog) (p : Nat) : NvmLog :=
  { s with nl_node_to_del_ := s.nl_node_to_del_ ++ [p] }

end LBTree


namespace LBTree

/-! ## The payload of the ring

Bytes 0 and 1 of every line are the flag and the offset byte; the other 62
bytes of the lines, taken in address order, are the payload positions
`0, 1, ..` of the ring. -/

/-- Address of payload position `q` of the ring that starts at `A`. -/
def physAddr (A q : Nat) : Nat := A + 64 * (q / 62) + 2 + q % 62

/-- Position `x` taken around a ring of `C` payload bytes (for `x < 2 * C`). -/
def wrapC (C x : Nat) : Nat := if x < C then x else x - C

/-- The `n` payload bytes found from position `P` on. -/
def payload (m : Nat → Nat) (A C P n : Nat) : List Nat :=
  (List.range n).map (fun j => m (physAddr A (wrapC C (P + j))))

/-- The writer of the ring of `L` lines at `A` stands at payload position `P`
with version `v`, and every byte of the ring outside the part of the current
line written since the last flush is written back. -/
def LogAt (lg : NvmLog_Log) (A L P v : Nat) : Prop :=
  A % 64 = 0 ∧ 1 ≤ L ∧ P < 62 * L ∧ (v = 0 ∨ v = 0x80) ∧
  lg.nl_log_area_ = A ∧ lg.nl_log_area_end_ = A + 64 * L ∧
  lg.nl_log_wr_.nextline_ptr_ = A + 64 * (P / 62 + 1) ∧
  lg.nl_log_wr_.next_ptr_ = physAddr A P ∧
  lg.nl_log_wr_.version_ = v ∧
  (∀ a, A ≤ a → a < A + 64 * L → (a < A + 64 * (P / 62) + 2 ∨ physAddr A P ≤ a) →
    lg.durable a = lg.mem a)

/-- The ring holds `bytes` from payload position `P0` on, written under the
version `v0` (flipped where the writer went around), the writer stands right
behind them, and the lines filled on the way are sealed. -/
def Holds (lg : NvmLog_Log) (A L P0 v0 : Nat) (bytes : List Nat) : Prop :=
  P0 < 62 * L ∧ bytes.length ≤ 62 * L ∧
  LogAt lg A L (wrapC (62 * L) (P0 + bytes.length))
    (if P0 + bytes.length < 62 * L then v0 else v0 ^^^ 0x80) ∧
  payload lg.mem A (62 * L) P0 bytes.length = bytes ∧
  (∀ t, t < L → P0 ≤ 62 * t → 62 * (t + 1) ≤ P0 + bytes.length →
    checkByteOne lg.mem (A + 64 * t) v0 = true)

/-- A ring of four lines at address 4096, made by `initLog` and
`prepareLogforWriting` in a memory full of `0xff`. -/
def exRing : NvmLog_Log :=
  match initLog (64 * 4) (fun _ => 0xff) (fun _ => 0xff) ⟨4096, 2 ^ 20, 0⟩ with
  | some r => prepareLogforWriting r.1
  | none => ⟨fun _ => 0, fun _ => 0, 0, 0, ⟨0, 0, 0, 0⟩⟩

/-- A log with a ring of sixteen lines at address 4096, made by `NvmLog::init`
in a memory full of zeros. -/
def exLog : NvmLog :=
  match NvmLog.init (64 * 16) (fun _ => 0) (fun _ => 0) ⟨4096, 2 ^ 20, 0⟩ with
  | some s => s
  | none => ⟨⟨fun _ => 0, fun _ => 0, 0, 0, ⟨0, 0, 0, 0⟩⟩, ⟨0, 0, 0, 0⟩, [], [], ⟨0, 0, 0⟩⟩

/-- A log with a ring of four lines at address 4096. -/
def exLog4 : NvmLog :=
  match NvmLog.init (64 * 4) (fun _ => 0) (fun _ => 0) ⟨4096, 2 ^ 20, 0⟩ with
  | some s => s
  | none => ⟨⟨fun _ => 0, fun _ => 0, 0, 0, ⟨0, 0, 0, 0⟩⟩, ⟨0, 0, 0, 0⟩, [], [], ⟨0, 0, 0⟩⟩

/-- The calls `write8B(16384 + 8 * i, 5 + i)` for `i = 0, .., n - 1`. -/
def write8Bs : Nat → NvmLog → NvmLog
  | 0, s => s
  | n + 1, s => write8B (write8Bs n s) (16384 + 8 * n) (5 + n)

/-- Runs `allocNode(256)` `n` times: the state and the nodes handed out,
the last one first. -/
def allocNodes : Nat → NvmLog → Option (NvmLog × List Nat)
  | 0, s => some (s, [])
  | n + 1, s =>
    match allocNodes n s with
    | none => none
    | some (s1, l) =>
      match allocNode s1 256 with
      | none => none
      | some (p, s2) => some (s2, p :: l)

/-- The state after `allocNodes`. -/
def allocNodesSt (n : Nat) (s : NvmLog) : NvmLog :=
  match allocNodes n s with
  | some r => r.1
  | none => s

/-- Two committed transactions, each one `newVchar`, of 56 bytes at 16384 and
of 216 bytes at 20480. -/
def exTwoTx (s : NvmLog) : NvmLog :=
  commitMiniTransaction (newVchar (startMiniTransaction
    (commitMiniTransaction (newVchar (startMiniTransaction s) 16384 (List.replicate 56 1))))
    20480 (List.replicate 216 2))

/-- The outcome without the read position. -/
def LogRes.dropPos : LogRes (NvmLog × nl_log_pointer_t) → LogRes NvmLog
  | LogRes.ok r => LogRes.ok r.1
  | LogRes.exited r => LogRes.exited r.1
  | LogRes.unrecorded => LogRes.unrecorded
  | LogRes.cut => LogRes.cut

/-- Whether the method used bytes of a buffer that were not filled. -/
def LogRes.isUnrecorded {α : Type} : LogRes α → Bool
  | LogRes.unrecorded => true
  | _ => false

/-- Whether the method exited. -/
def LogRes.isExited {α : Type} : LogRes α → Bool
  | LogRes.exited _ => true
  | _ => false

/-- Whether the method returned. -/
def LogRes.isOk {α : Type} : LogRes α → Bool
  | LogRes.ok _ => true
  | _ => false

/-- The byte at address `a` when the method returned or exited. -/
def LogRes.memOf : LogRes NvmLog → Nat → Nat
  | LogRes.ok s, a => s.nl_logbuf_.mem a
  | LogRes.exited s, a => s.nl_logbuf_.mem a
  | _, _ => 0

/-- The head of the list of freed nodes when the method returned or exited. -/
def LogRes.freeOf : LogRes NvmLog → Nat
  | LogRes.ok s => s.pool.free_node
  | LogRes.exited s => s.pool.free_node
  | _ => 0

end LBTree


namespace LBTree

/-! ## The memory pool (`mempool.h`) on its own -/

/-- `mempool::init(start, size, align, name)`: the cursor is at the start, the
list of freed nodes is empty (`align` and `name` are not used afterwards). -/
def mempool.init (start size : Nat) : mempool := ⟨start, start + size, 0⟩

/-- `mempool::free(p)`: the empty body. -/
def mempool.free (m : mempool) (_p : Nat) : mempool := m

/-- `mempool::alloc_node(size)`: the head of the list of freed nodes, whose
first 8 bytes hold the next one, or else `alloc(size)`. -/
def mempool.alloc_node (m : mempool) (mem : Nat → Nat) (size : Nat) : Option (Nat × mempool) :=
  if m.free_node ≠ 0 then some (m.free_node, { m with free_node := loadLE mem m.free_node 8 })
  else m.alloc size

/-- `mempool::free_node(p)`: `*((char **)p) = mempool_free_node; mempool_free_node = p`. -/
def mempool.freeNode (m : mempool) (mem : Nat → Nat) (p : Nat) : mempool × (Nat → Nat) :=
  ({ m with free_node := p }, memcpyTo mem p (bytesLE 8 m.free_node))

/-- The calls `free_node(p)` for the nodes of the list, first to last. -/
def mempool.freeAll : mempool × (Nat → Nat) → List Nat → mempool × (Nat → Nat)
  | r, [] => r
  | r, p :: ps => mempool.freeAll (r.1.freeNode r.2 p) ps

/-- The results of `n` calls `alloc_node(size)`, first to last, and the pool afterwards. -/
def mempool.allocMany (mem : Nat → Nat) (size : Nat) : Nat → mempool → Option (List Nat × mempool)
  | 0, m => some ([], m)
  | n + 1, m =>
    match m.alloc_node mem size with
    | none => none
    | some (p, m1) =>
      match mempool.allocMany mem size n m1 with
      | none => none
      | some (l, m2) => some (p :: l, m2)

/-- The results of the calls `alloc(size)` for the sizes of the list, first to
last, and the pool afterwards. -/
def mempool.allocSeq : mempool → List Nat → Option (List Nat × mempool)
  | m, [] => some ([], m)
  | m, sz :: rest =>
    match m.alloc sz with
    | none => none
    | some (p, m1) =>
      match mempool.allocSeq m1 rest with
      | none => none
      | some (l, m2) => some (p :: l, m2)

/-- The stream positions at which the records of the list begin, when the first
one begins at position `Q` (positions count payload bytes, 62 to a line). -/
def recStarts : Nat → List (List Nat) → List Nat
  | _, [] => []
  | Q, r :: rs => Q :: recStarts (Q + r.length) rs

/-- The offset byte the documentation of the log asks for in line `T` of the
stream: the byte index in the line (2..63) of the first record that begins in
that line, 0 when no record begins there. -/
def offsetByteSpec (starts : List Nat) (T : Nat) : Nat :=
  match starts.find? (fun s => decide (s / 62 = T)) with
  | some s => 2 + s % 62
  | none => 0

end LBTree


namespace LBTree

/-! ## The leaf part of a non-full insert as a sequence of stores -/

/-- One store into leaf memory made by the block "leaf is not full" of `insert`. -/
inductive LeafStore where
  /-- The store `lp->k(slot)= key`. -/
  | storeK (slot : Nat) (key : Int)
  /-- The store `lp->ch(slot)= ptr`. -/
  | storeCh (slot : Nat) (ptr : Nat)
  /-- The copy `lp->ent[to]= lp->ent[from]`. -/
  | copyEnt (to_ from_ : Nat)
  /-- The store `my_meta->word8B[1]= m->word8B[1]`. -/
  | word1 (m : bleafMeta)
  /-- The store `my_meta->word8B[0]= m->word8B[0]`. -/
  | word0 (m : bleafMeta)
deriving DecidableEq

/-- The leaf after one store. -/
def LeafStore.apply (lp : bleaf) : LeafStore → bleaf
  | LeafStore.storeK slot key => lp.setEnt slot ⟨key, lp.ch slot⟩
  | LeafStore.storeCh slot ptr => lp.setEnt slot ⟨lp.k slot, ptr⟩
  | LeafStore.copyEnt to_ from_ => lp.setEnt to_ (lp.entAt from_)
  | LeafStore.word1 m => { lp with fgpt := lp.fgpt.take 6 ++ m.fgpt.drop 6 }
  | LeafStore.word0 m => lp.setWord0 m

/-- The stores of the loop `for (int to=slot+1; to<=last_slot; to++)`, with the
temporary meta and the local `bitmap` after it. -/
def moveStores (last_slot : Nat) : Nat → Nat → Nat → Nat → bleafMeta →
    List LeafStore × bleafMeta × Nat
  | 0, _, _, bitmap, m => ([], m, bitmap)
  | fuel + 1, to_, from_, bitmap, m =>
    if to_ ≤ last_slot then
      if bitmap &&& (1 <<< to_) = 0 then
        let r := moveStores last_slot fuel (to_ + 1) (from_ + 1)
          ((((bitmap ||| (1 <<< to_)) % 2 ^ 16) &&& bnot32 (1 <<< from_)) % 2 ^ 16)
          { m with fgpt := m.fgpt.set to_ (m.fgpt.getD from_ 0) }
        (LeafStore.copyEnt to_ from_ :: r.1, r.2.1, r.2.2)
      else moveStores last_slot fuel (to_ + 1) from_ bitmap m
    else ([], m, bitmap)

/-- The stores into the leaf made by the block "leaf is not full" of `insert`,
in program order; `m` is the temporary `meta` with its lock bit cleared.
`setBothWords` stores word 1, then word 0. -/
def leafStores (m : bleafMeta) (key : Int) (ptr : Nat) (key_hash : Nat) : List LeafStore :=
  let bitmap := m.bitmap
  let slot := bitScan (bnot32 bitmap) - 1
  let m1 : bleafMeta := { m with fgpt := m.fgpt.set slot key_hash }
  let bitmap1 := (bitmap ||| (1 <<< slot)) % 2 ^ 16
  if slot < 3 then
    [LeafStore.storeK slot key, LeafStore.storeCh slot ptr,
     LeafStore.word0 { m1 with bitmap := bitmap1 % 2 ^ 14 }]
  else
    let last_slot := last_slot_in_line slot
    let r := moveStores last_slot (last_slot - slot) (slot + 1) 0 bitmap1 m1
    [LeafStore.storeK slot key, LeafStore.storeCh slot ptr] ++ r.1 ++
      [LeafStore.word1 { r.2.1 with bitmap := r.2.2 % 2 ^ 14 },
       LeafStore.word0 { r.2.1 with bitmap := r.2.2 % 2 ^ 14 }]

/-- A store into the entry array whose target slot is empty according to `bm`. -/
def LeafStore.entryTo (bm : Nat) : LeafStore → Prop
  | LeafStore.storeK s _ => s < 14 ∧ bm.testBit s = false
  | LeafStore.storeCh s _ => s < 14 ∧ bm.testBit s = false
  | LeafStore.copyEnt t _ => t < 14 ∧ bm.testBit t = false
  | LeafStore.word1 _ => False
  | LeafStore.word0 _ => False

/-- A leaf with the keys 1..4 in the slots 0..3 (payload ten times the key). -/
def exLeaf4 : bleaf :=
  { bitmap := 0xf, lock := 1, alt := 0,
    fgpt := [hashcode1B 1, hashcode1B 2, hashcode1B 3, hashcode1B 4, 0, 0, 0, 0, 0, 0, 0, 0, 0, 0],
    ent := [⟨1, 10⟩, ⟨2, 20⟩, ⟨3, 30⟩, ⟨4, 40⟩] ++ List.replicate 10 ⟨0, 0⟩,
    next := [0, 0] }

/-- The leaf image after the first `n` stores of the block "leaf is not full"
of `insert(key, ptr)`; the temporary meta is the copy of the header with the
lock bit cleared, the fingerprint is `hashcode1B(key)`. -/
def leafAfter (lp : bleaf) (key : Int) (ptr : Nat) (n : Nat) : bleaf :=
  ((leafStores { lp.getMeta with lock := 0 } key ptr (hashcode1B key)).take n).foldl
    LeafStore.apply lp

/-! ## The frames of the tree after an insert that splits a leaf -/

/-- Frame `x` is at level `j` of the tree `s0` or is one of the frames made by
the insert: the new leaf `newleaf` at level 0, or, for `1 <= j <= R`, the
inner node the DRAM pool handed out for level `j` (allocation number `j - 1`). -/
def InsM (s0 : State) (newleaf R j x : Nat) : Prop :=
  atLevel s0 j x ∨
  (1 ≤ j ∧ j ≤ R ∧ (dpoolSeq (s0.root_level.toNat + 1) s0)[j - 1]? = some x) ∨
  (j = 0 ∧ x = newleaf)

/-- The setting of Part 3 of an insert that splits a leaf of the tree `s0`:
`pt` records the path `pa`, `pp` of the descent, and `sL` is the memory after
Part 1 has locked the ancestors `1..m`, the levels below `m` being full. -/
def InsCtx (s0 : State) (pt : Path) (pa : Nat → Nat) (pp : Nat → Int) (sL : State) (m : Nat) :
    Prop :=
  TreeOK s0 ∧ TreeShape s0 ∧ NodePoolFresh s0 ∧ PathRec s0 pt pa pp ∧
  (1 ≤ s0.root_level.toNat → pa s0.root_level.toNat = s0.tree_root) ∧
  m ≤ s0.root_level.toNat ∧
  (∀ k, 1 ≤ k → k < m → (s0.node (pa k)).num = NON_LEAF_KEY_NUM) ∧
  (∀ q, (∀ k, 1 ≤ k → k ≤ m → q ≠ pa k) → sL.node q = s0.node q) ∧
  (∀ k, 1 ≤ k → k ≤ m → sL.node (pa k) = (s0.node (pa k)).setLock 1)

/-- The memory `s` at the head of the loop of Part 3 when the levels `1..u`
have been split and `ptr` is the new frame of level `u`: the nodes of the
path and the new nodes of these levels are unlocked (the old root stays
locked) and their children are frames of the level below; every other node is
as Part 1 left it; the pool hands out the rest of its look-ahead. -/
def InsInv (s0 : State) (pa : Nat → Nat) (sL : State) (newleaf u ptr : Nat) (s : State) : Prop :=
  u ≤ s0.root_level.toNat ∧ s.root_level = s0.root_level ∧ s.tree_root = s0.tree_root ∧
  (∀ q, (∀ j, 1 ≤ j → j ≤ u →
      q ≠ pa j ∧ (dpoolSeq (s0.root_level.toNat + 1) s0)[j - 1]? ≠ some q) →
    s.node q = sL.node q) ∧
  (∀ j, 1 ≤ j → j ≤ u → ∀ q,
    (q = pa j ∨ (dpoolSeq (s0.root_level.toNat + 1) s0)[j - 1]? = some q) →
    ((j < s0.root_level.toNat ∨ q ≠ pa j) → (s.node q).lock = 0) ∧
    ∀ c : Int, 0 ≤ c → c ≤ (s.node q).num → InsM s0 newleaf u (j - 1) ((s.node q).ch c)) ∧
  dpoolSeq (s0.root_level.toNat + 1 - u) s = (dpoolSeq (s0.root_level.toNat + 1) s0).drop u ∧
  ((u = 0 ∧ ptr = newleaf) ∨
   (1 ≤ u ∧ (dpoolSeq (s0.root_level.toNat + 1) s0)[u - 1]? = some ptr))

/-- The inner nodes after the insert: the root is a frame of the tree or a new
frame, and every inner node among these frames is unlocked and has its
children among the frames of the level below. -/
def InsPost (s0 : State) (newleaf : Nat) (s' : State) : Prop :=
  ∃ R, 0 ≤ s'.root_level ∧ InsM s0 newleaf R s'.root_level.toNat s'.tree_root ∧
    ∀ j, 1 ≤ j → ∀ q, InsM s0 newleaf R j q →
      (s'.node q).lock = 0 ∧
      ∀ c : Int, 0 ≤ c → c ≤ (s'.node q).num → InsM s0 newleaf R (j - 1) ((s'.node q).ch c)

end LBTree


namespace LBTree

/-! ## The inner nodes written by a bulk load -/

/-- The left key of node `j` of level `ll` when every node takes `G` children
and `lk t` is the first key of leaf `t`: the first key of its leftmost leaf. -/
def leftKey (lk : Nat → Int) (G : Nat) : Nat → Nat → Int
  | 0, t => lk t
  | ll + 1, j => leftKey lk G ll (j * G)

/-- Node `j` of level `ll` (at `pfirst ll + 256 * j`) holds `cnt` children:
`num = cnt - 1` (`-1` for a node that was only initialised), the lock bit is
0, child `c` is node `j * (g+1) + c` of the level below and, for `c >= 1`,
`k(c)` is the left key of that child. -/
def NodeHas (s : State) (g : Nat) (pfirst : Nat → Nat) (lk : Nat → Int) (ll j cnt : Nat) : Prop :=
  (s.node (pfirst ll + 256 * j)).ent.length = 16 ∧
  (s.node (pfirst ll + 256 * j)).num = (cnt : Int) - 1 ∧
  (s.node (pfirst ll + 256 * j)).lock = 0 ∧
  ∀ c : Nat, c < cnt →
    (s.node (pfirst ll + 256 * j)).ch c = pfirst (ll - 1) + 256 * (j * (g + 1) + c) ∧
    (1 ≤ c → (s.node (pfirst ll + 256 * j)).k c = leftKey lk (g + 1) (ll - 1) (j * (g + 1) + c))

/-- Level `ll` while the leaves are being built: `a ll` children have been
appended to the level, the nodes before `ncur ll` are full, node `ncur ll`
holds the rest, and the number of nodes started is the number of children
appended to the level above. -/
def LvlInv (s : State) (g top : Nat) (pfirst N : Nat → Nat) (lk : Nat → Int) (a ncur : Nat → Nat)
    (ll : Nat) : Prop :=
  ncur ll * (g + 1) ≤ a ll ∧ a ll ≤ ncur ll * (g + 1) + (g + 1) ∧ a ll ≤ N (ll - 1) ∧
  ncur ll + 1 ≤ N ll ∧
  (a ll = ncur ll * (g + 1) + (g + 1) → ncur ll + 1 = N ll) ∧
  (ll < top → a (ll + 1) = ncur ll + (if a ll = ncur ll * (g + 1) then 0 else 1)) ∧
  ∀ j, j ≤ ncur ll →
    NodeHas s g pfirst lk ll j (if j < ncur ll then g + 1 else a ll - ncur ll * (g + 1))

/-- The layout of the levels of a subtree: level 0 are leaves; the frames of
the inner levels `1..top` lie one range after the other in DRAM, each level
has the ceiling of the count below divided by `g + 1`, and all frames have
sixteen entries. -/
def LevelsOK (s : State) (g top : Nat) (pfirst N : Nat → Nat) : Prop :=
  1 ≤ N 0 ∧
  (∀ ll, 1 ≤ ll → ll ≤ top → N ll = ceiling (N (ll - 1)) (g + 1)) ∧
  (∀ ll, 1 ≤ ll → ll < top → pfirst (ll + 1) = pfirst ll + 256 * N ll) ∧
  (∀ a, (s.node a).ent.length = 16)

/-- The number of children of node `j` of level `ll` in the finished subtree. -/
def chCount (g : Nat) (N : Nat → Nat) (ll j : Nat) : Nat :=
  if j + 1 < N ll then g + 1 else N (ll - 1) - j * (g + 1)

/-- The index, at level `level`, of the leftmost node below node `j` of level
`level + d`; the number of nodes of level `level` when `j` is past the last
node of its level. -/
def spanLo (G : Nat) (N : Nat → Nat) (level d j : Nat) : Nat :=
  if j < N (level + d) then j * G ^ d else N level

/-- The nodes of the levels `level+1 .. level+d` that are not to the left of
the leftmost path below node `j` of level `level + d` are as the bulk load
wrote them. -/
def Intact (s : State) (g : Nat) (pf N : Nat → Nat) (lk : Nat → Int) (level d j : Nat) : Prop :=
  ∀ d2 j2, 1 ≤ d2 → d2 ≤ d → j * (g + 1) ^ (d - d2) ≤ j2 → j2 < N (level + d2) →
    NodeHas s g pf lk (level + d2) j2 (chCount g N (level + d2) j2)

/-- The address `x` is a node of one of the levels `level+1 .. level+d` to the
left of the leftmost path below node `j` of level `level + d`. -/
def LeftOf (g : Nat) (pf N : Nat → Nat) (level d j x : Nat) : Prop :=
  ∃ d2 j2, 1 ≤ d2 ∧ d2 ≤ d ∧ j2 < N (level + d2) ∧ j2 < j * (g + 1) ^ (d - d2) ∧
    x = pf (level + d2) + 256 * j2

/-- The number of keys of leaf `t` of a bulk load of `num_key` keys at `f` keys a leaf. -/
def fillOf (num_key f t : Nat) : Nat :=
  if t = ceiling num_key f - 1 then num_key - (ceiling num_key f - 1) * f else f

/-- The first key of leaf `t` of a bulk load. -/
def firstKeyOf (input : Nat → Int) (start_key f t : Nat) : Int := input (start_key + t * f)

/-- The last key of leaf `t` of a bulk load. -/
def lastKeyOf (input : Nat → Int) (start_key num_key f t : Nat) : Int :=
  input (start_key + t * f + (fillOf num_key f t - 1))

/-- The index of the leftmost leaf below node `j` of level `ll`; the number of
leaves when `j` is past the last node of its level. -/
def leafLo (G : Nat) (N : Nat → Nat) (ll j : Nat) : Nat :=
  if j < N ll then j * G ^ ll else N 0

/-- The memory holds the subtree built by one bulk load of the keys
`input[start_key .. start_key + num_key)`: the leaves as `BulkLeaf` describes
them, the inner nodes of the levels `1..top` as `NodeHas` describes them, all
frames aligned and not NULL, and the keys are strictly ascending values of
`key_type`. -/
def BulkTree (s : State) (input : Nat → Int) (start_key num_key f g top : Nat)
    (pf N : Nat → Nat) : Prop :=
  1 ≤ f ∧ f ≤ 14 ∧ 1 ≤ num_key ∧ N 0 = ceiling num_key f ∧
  (∀ ll, 1 ≤ ll → ll ≤ top → N ll = ceiling (N (ll - 1)) (g + 1)) ∧
  (∀ t, t < N 0 → BulkLeaf input start_key num_key f (pf 0) (s.leaf (pf 0 + 256 * t)) t) ∧
  (∀ ll j, 1 ≤ ll → ll ≤ top → j < N ll →
    NodeHas s g pf (fun t => input (start_key + t * f)) ll j (chCount g N ll j)) ∧
  pf 0 % 256 = 0 ∧ 0 < pf 0 ∧ (∀ ll, 1 ≤ ll → ll ≤ top → pf ll % 64 = 0 ∧ 0 < pf ll) ∧
  (∀ i j, i < j → j < num_key → input (start_key + i) < input (start_key + j)) ∧
  (∀ i, i < num_key → isKey (input (start_key + i)))

end LBTree


namespace LBTree

/-! ## Bit-level facts -/

theorem ffsFrom_spec (x : Nat) : ∀ (fuel i : Nat),
    (ffsFrom x fuel i = 0 ∧ ∀ j, i ≤ j → j < i + fuel → x.testBit j = false) ∨
    (∃ j, ffsFrom x fuel i = j + 1 ∧ i ≤ j ∧ j < i + fuel ∧ x.testBit j = true ∧
      ∀ j', i ≤ j' → j' < j → x.testBit j' = false) := by
  intro fuel
  induction fuel with
  | zero => intro i; left; exact ⟨rfl, fun j h1 h2 => by omega⟩
  | succ n ih =>
    intro i
    by_cases hb : x.testBit i = true
    · right
      refine ⟨i, by simp [ffsFrom, hb], le_refl _, by omega, hb, fun j' h1 h2 => by omega⟩
    · have hb' : x.testBit i = false := by simpa using hb
      rcases ih (i + 1) with ⟨h0, hall⟩ | ⟨j, hj, hij, hjf, hbit, hlow⟩
      · left
        refine ⟨by simp [ffsFrom, hb', h0], fun j h1 h2 => ?_⟩
        rcases Nat.eq_or_lt_of_le h1 with h | h
        · subst h; exact hb'
        · exact hall j h (by omega)
      · right
        refine ⟨j, by simp [ffsFrom, hb', hj], by omega, by omega, hbit, fun j' h1 h2 => ?_⟩
        rcases Nat.eq_or_lt_of_le h1 with h | h
        · subst h; exact hb'
        · exact hlow j' h h2

/-- On a non-zero 32-bit value `bitScan` returns one plus the index of the lowest set bit. -/
theorem bitScan_spec (x : Nat) (hx : x < 2 ^ 32) (h0 : x ≠ 0) :
    ∃ j, bitScan x = j + 1 ∧ j < 32 ∧ x.testBit j = true ∧ ∀ i, i < j → x.testBit i = false := by
  rcases ffsFrom_spec x 32 0 with ⟨_, hall⟩ | ⟨j, hj, _, hjf, hbit, hlow⟩
  · exfalso
    obtain ⟨i, hi⟩ := Nat.ne_zero_implies_bit_true h0
    by_cases h : i < 32
    · have := hall i (Nat.zero_le _) (by omega); simp [hi] at this
    · have : x.testBit i = false :=
        Nat.testBit_lt_two_pow (lt_of_lt_of_le hx (Nat.pow_le_pow_right (by norm_num) (by omega)))
      simp [hi] at this
  · exact ⟨j, hj, by omega, hbit, fun i hi => hlow i (Nat.zero_le _) hi⟩

theorem testBit_bnot32_shift (jj i : Nat) (hj : jj < 32) :
    (bnot32 (1 <<< jj)).testBit i = (decide (i < 32) && decide (i ≠ jj)) := by
  have h1 : (2 : Nat) ^ jj < 2 ^ 32 := Nat.pow_lt_pow_right (by norm_num) hj
  have : bnot32 (1 <<< jj) = 2 ^ 32 - (2 ^ jj + 1) := by
    unfold bnot32
    rw [Nat.one_shiftLeft, Nat.mod_eq_of_lt h1]; omega
  rw [this, Nat.testBit_two_pow_sub_succ h1, Nat.testBit_two_pow]
  by_cases h : jj = i <;> simp [h, eq_comm]

theorem testBit_movemask (h : Nat) : ∀ (bytes : List Nat) (i : Nat),
    (movemask h bytes).testBit i = decide (i < bytes.length ∧ bytes.getD i 0 = h) := by
  intro bytes
  induction bytes with
  | nil => intro i; simp [movemask]
  | cons b rest ih =>
    intro i
    cases i with
    | zero => simp [movemask, Nat.testBit_bit_zero]
    | succ n => simp [movemask, Nat.testBit_bit_succ, ih]

/-- Bit `j` of the candidate mask: slot `j` is live and its fingerprint equals the hash. -/
theorem testBit_candidateMask (lp : bleaf) (h j : Nat) :
    (candidateMask lp h).testBit j = (decide (j < 14 ∧ lp.fg j = h) && lp.bitmap.testBit j) := by
  unfold candidateMask
  rw [Nat.testBit_and, Nat.testBit_shiftRight, testBit_movemask]
  congr 1
  by_cases hj : j < 14
  · have h1 : 2 + j < (bleaf.headerBytes lp).length := by simp [bleaf.headerBytes]; omega
    have h2 : (bleaf.headerBytes lp).getD (2 + j) 0 = lp.fg j := by
      simp only [bleaf.headerBytes]
      rw [List.getD_eq_getElem?_getD, List.getElem?_append_right (by simp)]
      simp [hj]
    rw [h2]; simp [h1, hj]
  · have h1 : ¬ (2 + j < (bleaf.headerBytes lp).length) := by simp [bleaf.headerBytes]; omega
    simp [h1, hj]

theorem candidateMask_lt (lp : bleaf) (h : Nat) : candidateMask lp h < 2 ^ 14 := by
  apply Nat.lt_pow_two_of_testBit
  intro i hi
  rw [testBit_candidateMask]
  have : ¬ i < 14 := by omega
  simp [this]

/-- The probe loop returns the lowest set bit of `mask` whose slot holds `key`, or `-1`. -/
theorem probe_spec (lp : bleaf) (key : Int) : ∀ (fuel mask : Nat),
    (∀ i, mask.testBit i = true → 32 - fuel ≤ i ∧ i < 32) →
    (probe lp key fuel mask = -1 ∧ ∀ i, mask.testBit i = true → lp.k i ≠ key) ∨
    (∃ j : Nat, probe lp key fuel mask = (j : Int) ∧ mask.testBit j = true ∧ lp.k j = key ∧
      ∀ i, i < j → mask.testBit i = true → lp.k i ≠ key) := by
  intro fuel
  induction fuel with
  | zero =>
    intro mask hm
    left
    refine ⟨rfl, fun i hi => ?_⟩
    have := hm i hi; omega
  | succ n ih =>
    intro mask hm
    by_cases h0 : mask = 0
    · left
      subst h0
      exact ⟨by simp [probe], fun i hi => by simp at hi⟩
    · have hlt : mask < 2 ^ 32 := by
        apply Nat.lt_pow_two_of_testBit
        intro i hi
        by_contra hc
        have := hm i (by simpa using hc); omega
      obtain ⟨j, hj, hj32, hbit, hlow⟩ := bitScan_spec mask hlt h0
      by_cases hk : lp.k j = key
      · right
        refine ⟨j, by simp [probe, h0, hj, hk], hbit, hk, fun i hi hb => ?_⟩
        rw [hlow i hi] at hb; simp at hb
      · have hstep : probe lp key (n + 1) mask = probe lp key n (mask &&& bnot32 (1 <<< j)) := by
          simp [probe, h0, hj, hk]
        have hbits : ∀ i, (mask &&& bnot32 (1 <<< j)).testBit i = true ↔
            (mask.testBit i = true ∧ i ≠ j) := by
          intro i
          rw [Nat.testBit_and, testBit_bnot32_shift j i hj32]
          constructor
          · intro h; simp at h; exact ⟨h.1, h.2.2⟩
          · intro ⟨h1, h2⟩; simp [h1, h2, (hm i h1).2]
        have hm' : ∀ i, (mask &&& bnot32 (1 <<< j)).testBit i = true → 32 - n ≤ i ∧ i < 32 := by
          intro i hi
          have ⟨h1, h2⟩ := (hbits i).1 hi
          have h3 := hm i h1
          have h4 := hm j hbit
          have : ¬ i < j := fun hlt' => by rw [hlow i hlt'] at h1; simp at h1
          omega
        rw [hstep]
        rcases ih _ hm' with ⟨hr, hall⟩ | ⟨j', hr, hb', hk', hlow'⟩
        · left
          refine ⟨hr, fun i hi => ?_⟩
          by_cases hij : i = j
          · subst hij; exact hk
          · exact hall i ((hbits i).2 ⟨hi, hij⟩)
        · right
          refine ⟨j', hr, ((hbits j').1 hb').1, hk', fun i hi hb => ?_⟩
          by_cases hij : i = j
          · subst hij; exact hk
          · exact hlow' i hi ((hbits i).2 ⟨hb, hij⟩)

/-- The leaf probe of `lookup`/`insert`/`del`: on a fingerprint-consistent leaf
it returns a live slot holding `key` (the lowest one) if there is one, and `-1` otherwise. -/
theorem searchLeaf_spec (lp : bleaf) (key : Int) (hfg : lp.fgptOK) :
    (searchLeaf lp key = -1 ∧ ∀ j, ¬ lp.holds key j) ∨
    (∃ j : Nat, searchLeaf lp key = (j : Int) ∧ lp.holds key j ∧ ∀ i, i < j → ¬ lp.holds key i) := by
  have hm : ∀ i, (candidateMask lp (hashcode1B key)).testBit i = true → 32 - 32 ≤ i ∧ i < 32 := by
    intro i hi
    rw [testBit_candidateMask] at hi
    simp at hi
    omega
  have hcand : ∀ i, lp.holds key i → (candidateMask lp (hashcode1B key)).testBit i = true := by
    intro i ⟨h1, h2, h3⟩
    rw [testBit_candidateMask]
    have := hfg i h1 h2
    simp [h1, h2, this, h3]
  unfold searchLeaf
  rcases probe_spec lp key 32 _ hm with ⟨hr, hall⟩ | ⟨j, hr, hb, hk, hlow⟩
  · left
    exact ⟨hr, fun j hh => hall j (hcand j hh) hh.2.2⟩
  · right
    rw [testBit_candidateMask] at hb
    simp at hb
    exact ⟨j, hr, ⟨hb.1.1, hb.2, hk⟩, fun i hi hh => hlow i hi (hcand i hh) hh.2.2⟩

/-- Without any assumption on the fingerprints, a slot returned by the probe is live and holds the key. -/
theorem searchLeaf_sound (lp : bleaf) (key : Int) :
    searchLeaf lp key = -1 ∨ ∃ j : Nat, searchLeaf lp key = (j : Int) ∧ lp.holds key j := by
  have hm : ∀ i, (candidateMask lp (hashcode1B key)).testBit i = true → 32 - 32 ≤ i ∧ i < 32 := by
    intro i hi
    rw [testBit_candidateMask] at hi
    simp at hi
    omega
  unfold searchLeaf
  rcases probe_spec lp key 32 _ hm with ⟨hr, _⟩ | ⟨j, hr, hb, hk, _⟩
  · left; exact hr
  · right
    rw [testBit_candidateMask] at hb
    simp at hb
    exact ⟨j, hr, hb.1.1, hb.2, hk⟩

end LBTree


namespace LBTree

/-! ## The inner-node search stays inside `0..num` -/

theorem binSearch_range (p : bnode) (key : Int) (n : Int) : ∀ (fuel : Nat) (b t : Int),
    1 ≤ b → t ≤ n → b ≤ t + 1 →
    (∃ m, binSearch p key fuel b t = Sum.inl m ∧ 1 ≤ m ∧ m ≤ n) ∨
    (∃ b' t', binSearch p key fuel b t = Sum.inr (b', t') ∧ 1 ≤ b' ∧ t' ≤ n ∧ b' ≤ t' + 1) := by
  intro fuel
  induction fuel with
  | zero => intro b t h1 h2 h3; right; exact ⟨b, t, rfl, h1, h2, h3⟩
  | succ k ih =>
    intro b t h1 h2 h3
    unfold binSearch
    by_cases hc : b + 7 ≤ t
    · simp only [hc, if_true]
      by_cases hr : wrap64 (key - p.k ((b + t) / 2)) > 0
      · simp only [hr, if_true]
        exact ih _ _ (by omega) h2 (by omega)
      · simp only [hr, if_false]
        by_cases hr2 : wrap64 (key - p.k ((b + t) / 2)) < 0
        · simp only [hr2, if_true]
          exact ih _ _ h1 (by omega) (by omega)
        · simp only [hr2, if_false]
          left; exact ⟨_, rfl, by omega, by omega⟩
    · simp only [hc, if_false]
      right; exact ⟨b, t, rfl, h1, h2, h3⟩

theorem seqSearch_range (p : bnode) (key : Int) : ∀ (fuel : Nat) (b t : Int),
    b ≤ t + 1 → b ≤ seqSearch p key fuel b t ∧ seqSearch p key fuel b t ≤ t + 1 := by
  intro fuel
  induction fuel with
  | zero => intro b t h; exact ⟨le_refl _, h⟩
  | succ k ih =>
    intro b t h
    unfold seqSearch
    by_cases hc : b ≤ t
    · simp only [hc, if_true]
      by_cases hk : key < p.k b
      · simp only [hk, if_true]; exact ⟨le_refl _, h⟩
      · simp only [hk, if_false]
        have := ih (b + 1) t (by omega)
        omega
    · simp only [hc, if_false]; exact ⟨le_refl _, h⟩

/-- The child index chosen by the descent step is one of `0..num`. -/
theorem searchNode_range (p : bnode) (key : Int) (hn : 0 ≤ p.num) :
    0 ≤ searchNode p key ∧ searchNode p key ≤ p.num := by
  unfold searchNode
  rcases binSearch_range p key p.num (p.num.toNat + 1) 1 p.num (le_refl _) (le_refl _) (by omega)
    with ⟨m, hm, h1, h2⟩ | ⟨b, t, hbt, h1, h2, h3⟩
  · rw [hm]; simp only; omega
  · rw [hbt]; simp only
    have := seqSearch_range p key (t - b + 1).toNat b t h3
    omega

/-! ## The descent reaches a leaf of the tree -/

theorem descend_reach (s : State) (key : Int) : ∀ (i p : Nat), SubtreeOK s i p →
    ∃ lp, descend s key i p = some lp ∧ reach s i p lp ∧ SubtreeOK s 0 lp := by
  intro i
  induction i with
  | zero => intro p h; exact ⟨p, rfl, rfl, h⟩
  | succ n ih =>
    intro p h
    obtain ⟨hl, hn, hc⟩ := h
    have hr := searchNode_range (s.node p) key hn
    obtain ⟨lp, h1, h2, h3⟩ := ih _ (hc _ hr.1 hr.2)
    refine ⟨lp, ?_, ⟨_, hr.1, hr.2, h2⟩, h3⟩
    simp only [descend, hl, ne_eq, not_true_eq_false, if_false]
    exact h1

theorem descendPath_reach (s : State) (key : Int) : ∀ (i p : Nat) (pt : Path), SubtreeOK s i p →
    ∃ lp pt', descendPath s key i p pt = some (lp, pt') ∧ descend s key i p = some lp := by
  intro i
  induction i with
  | zero => intro p pt _; exact ⟨p, pt, rfl, rfl⟩
  | succ n ih =>
    intro p pt h
    obtain ⟨hl, hn, hc⟩ := h
    have hr := searchNode_range (s.node p) key hn
    obtain ⟨lp, pt', h1, h2⟩ := ih _
      (((pt.setParray (n + 1) p).setIsfull (n + 1) ((s.node p).num == NON_LEAF_KEY_NUM)).setPpos
        (n + 1) (searchNode (s.node p) key)) (hc _ hr.1 hr.2)
    refine ⟨lp, pt', ?_, ?_⟩
    · simp only [descendPath, hl, ne_eq, not_true_eq_false, if_false]
      exact h1
    · simp only [descend, hl, ne_eq, not_true_eq_false, if_false]
      exact h2

/-! ## C2: `lookup` -/

/-- C2. On a tree whose lock bits are clear and whose leaves are
fingerprint-consistent, `lookup(key, &pos)` returns (it does not abort), the
leaf it returns is the one reached by the root-to-leaf descent, and `pos` is a
live slot of that leaf holding `key` when such a slot exists and `-1`
otherwise; a returned slot always has its bitmap bit set.  `lookup` is a
function of the state only: it has no store to model, so the tree is unchanged. -/
theorem C2_lookup_spec (s : State) (key : Int) (h : TreeOK s) :
    ∃ lp pos, lookup s key = some (lp, pos) ∧
      descend s key s.root_level.toNat s.tree_root = some lp ∧
      reach s s.root_level.toNat s.tree_root lp ∧
      ((pos = -1 ∧ ∀ j, ¬ (s.leaf lp).holds key j) ∨
       (∃ j : Nat, pos = (j : Int) ∧ j < 14 ∧ (s.leaf lp).bitmap.testBit j = true ∧
          (s.leaf lp).k j = key)) := by
  obtain ⟨lp, h1, h2, h3, h4⟩ := descend_reach s key _ _ h.2
  refine ⟨lp, searchLeaf (s.leaf lp) key, ?_, h1, h2, ?_⟩
  · simp [lookup, h1, h3]
  · rcases searchLeaf_spec (s.leaf lp) key h4 with ⟨hr, hall⟩ | ⟨j, hr, hh, _⟩
    · left; exact ⟨hr, hall⟩
    · right; exact ⟨j, hr, hh⟩

/-! ## C5: `del` of an absent key -/

/-- C5. On a tree whose lock bits are clear, `del(K)` of a key held by no
reachable leaf returns with the whole state (leaves, inner nodes, root, root
level, `first_leaf`, pools) unchanged; hence a second `del(K)` is again a no-op. -/
theorem C5_del_absent_noop (s : State) (key : Int) (h : TreeOK s) (habs : ¬ inTree s key) :
    del s key = Res.ok s := by
  obtain ⟨lp, h1, h2, h3, _⟩ := descend_reach s key _ _ h.2
  obtain ⟨lp', pt', h5, h6⟩ := descendPath_reach s key _ _ Path.empty h.2
  rw [h1] at h6
  cases h6
  have hneg : searchLeaf (s.leaf lp) key < 0 := by
    rcases searchLeaf_sound (s.leaf lp) key with hr | ⟨j, _, hh⟩
    · rw [hr]; decide
    · exact absurd ⟨lp, j, h2, hh⟩ habs
  simp [del, h5, h3, hneg]

end LBTree


namespace LBTree

set_option maxRecDepth 100000

/-! ## C3: the descent step on keys far from the separators -/

/-- C3 (evaluation at the failing input). In a node with the sorted separators
`10, 20, .., 80` the descent step for `key = MIN_KEY+1` selects child 4,
although no separator is `<= key` (child 0 contains the key's range): the
64-bit difference `key - k(4)` wraps to a positive value. -/
theorem C3_descent_step_wraps :
    exNode8.num = 8 ∧ exNode8.keys = [10, 20, 30, 40, 50, 60, 70, 80] ∧
    isKey (MIN_KEY + 1) ∧
    countLE exNode8 (MIN_KEY + 1) = 0 ∧
    wrap64 ((MIN_KEY + 1) - exNode8.k 4) = 2 ^ 63 - 39 ∧
    searchNode exNode8 (MIN_KEY + 1) = 4 := by
  decide

/-! ## C1: insert / lookup round trip -/

/-- C1 (evaluation at the failing input). The tree bulk-loaded from the keys
`1000..1125` passes `check` and does not hold `K = MIN_KEY+1`.  `insert(K, K)`
returns, but the following `lookup(K)` ends in the leaf at 6400 with slot `-1`:
the wrapped comparison sent the insert to the full fifth leaf, whose split left
`K` in the old leaf while the lookup now descends to the new one. -/
theorem C1_roundtrip_lost_key :
    exTree126.bind checkTree = some (1000, 1125) ∧
    exTree126.map (fun s => decide (MIN_KEY + 1 ∈ treeKeys s)) = some false ∧
    (exTree126.bind (fun s => (insert s (MIN_KEY + 1) (2 ^ 63 + 1)).toOption)).map
        (fun s => decide (MIN_KEY + 1 ∈ treeKeys s)) = some true ∧
    (exTree126.bind (fun s => (insert s (MIN_KEY + 1) (2 ^ 63 + 1)).toOption)).map
        (fun s => lookup s (MIN_KEY + 1)) = some (some (6400, -1)) := by
  decide

/-! ## C4: insert of a key already present -/

/-- C4 (evaluation at the failing input). In the tree bulk-loaded from
`MIN_KEY+1, 1001, .., 1125` the key `K = MIN_KEY+1` is present once (slot 0 of
the first leaf).  `insert(K, 7)` does not find it: it splits the fifth leaf,
allocates a leaf, adds a separator to the root and leaves `K` stored twice. -/
theorem C4_duplicate_insert_changes_tree :
    exTreeNeg.bind checkTree = some (MIN_KEY + 1, 1125) ∧
    exTreeNeg.map (fun s => (treeKeys s).count (MIN_KEY + 1)) = some 1 ∧
    exTreeNeg.map (fun s => ((s.node s.tree_root).num, s.nvmpool.cur)) = some (8, 6400) ∧
    (exTreeNeg.bind (fun s => (insert s (MIN_KEY + 1) 7).toOption)).map
        (fun s => ((s.node s.tree_root).num, s.nvmpool.cur)) = some (9, 6656) ∧
    (exTreeNeg.bind (fun s => (insert s (MIN_KEY + 1) 7).toOption)).map
        (fun s => (treeKeys s).count (MIN_KEY + 1)) = some 2 := by
  decide

/-! ## C7: the ordering invariant across an insert -/

/-- C7 (evaluation at the failing input). The tree bulk-loaded at fill 0.6 from
`1000..1071` satisfies the ordering invariant; after `insert(MIN_KEY+1, 7)`,
which needs no split, it does not: the key sits under child 4 of the root,
below the separator `k(4) = 1032`. -/
theorem C7_insert_breaks_ordering :
    exTree72.map (fun s => decide (TreeOrdered s)) = some true ∧
    (exTree72.bind (fun s => (insert s (MIN_KEY + 1) 7).toOption)).map
        (fun s => decide (TreeOrdered s)) = some false ∧
    (exTree72.bind (fun s => (insert s (MIN_KEY + 1) 7).toOption)).map
        (fun s => ((s.node s.tree_root).k 4,
                   decide (MIN_KEY + 1 ∈ subtreeKeys s 0 ((s.node s.tree_root).ch 4))))
      = some (1032, true) := by
  decide

end LBTree


namespace LBTree

set_option maxRecDepth 100000

/-! ## Reachable leaves and the key list -/

theorem mem_subtreeKeys_of_reach (s : State) (key : Int) : ∀ (i p l j : Nat),
    SubtreeOK s i p → reach s i p l → (s.leaf l).holds key j → key ∈ subtreeKeys s i p := by
  intro i
  induction i with
  | zero =>
    intro p l j _ hr hh
    cases hr
    obtain ⟨h1, h2, h3⟩ := hh
    simp only [subtreeKeys, List.mem_map, List.mem_filter, List.mem_range]
    exact ⟨j, ⟨h1, h2⟩, h3⟩
  | succ n ih =>
    intro p l j hok hr hh
    obtain ⟨c, h0, h1, h2⟩ := hr
    obtain ⟨_, hn, hch⟩ := hok
    have hlt : c.toNat < (s.node p).num.toNat + 1 := by
      have := Int.toNat_of_nonneg h0
      have := Int.toNat_of_nonneg hn
      omega
    have hc : ((c.toNat : Nat) : Int) = c := Int.toNat_of_nonneg h0
    unfold subtreeKeys
    apply List.mem_flatten.2
    refine ⟨subtreeKeys s n ((s.node p).ch c), List.mem_map.2 ⟨c.toNat, List.mem_range.2 hlt, ?_⟩, ?_⟩
    · rw [hc]
    · exact ih _ l j (hch c h0 h1) h2 hh

/-- A key that is not in the key list of the tree is held by no reachable leaf. -/
theorem not_inTree_of_not_mem (s : State) (key : Int) (h : TreeOK s) (hk : key ∉ treeKeys s) :
    ¬ inTree s key := by
  intro ⟨l, j, hr, hh⟩
  exact hk (mem_subtreeKeys_of_reach s key _ _ l j h.2 hr hh)

/-! ## Instances of C2 and C5 on the bulk-loaded tree -/

/-- C2 at a concrete input: `lookup(1056)` on the tree of `1000..1125`. -/
theorem C2_lookup_spec_witness :
    TreeOK exState126 ∧
    ∃ lp pos, lookup exState126 1056 = some (lp, pos) ∧
      descend exState126 1056 exState126.root_level.toNat exState126.tree_root = some lp ∧
      reach exState126 exState126.root_level.toNat exState126.tree_root lp ∧
      ((pos = -1 ∧ ∀ j, ¬ (exState126.leaf lp).holds 1056 j) ∨
       (∃ j : Nat, pos = (j : Int) ∧ j < 14 ∧ (exState126.leaf lp).bitmap.testBit j = true ∧
          (exState126.leaf lp).k j = 1056)) :=
  ⟨by decide, C2_lookup_spec exState126 1056 (by decide)⟩

/-- C5 at a concrete input: `del(5)` on the tree of `1000..1125`. -/
theorem C5_del_absent_noop_witness :
    TreeOK exState126 ∧ ¬ inTree exState126 5 ∧ del exState126 5 = Res.ok exState126 :=
  ⟨by decide, not_inTree_of_not_mem exState126 5 (by decide) (by decide),
   C5_del_absent_noop exState126 5 (by decide)
     (not_inTree_of_not_mem exState126 5 (by decide) (by decide))⟩

end LBTree


namespace LBTree

/-! ## The meta word of an inner node -/

theorem list16 {α : Type} (l : List α) (h : l.length = 16) :
    ∃ a0 a1 a2 a3 a4 a5 a6 a7 a8 a9 a10 a11 a12 a13 a14 a15,
      l = [a0, a1, a2, a3, a4, a5, a6, a7, a8, a9, a10, a11, a12, a13, a14, a15] := by
  match l, h with
  | [a0, a1, a2, a3, a4, a5, a6, a7, a8, a9, a10, a11, a12, a13, a14, a15], _ =>
    exact ⟨a0, a1, a2, a3, a4, a5, a6, a7, a8, a9, a10, a11, a12, a13, a14, a15, rfl⟩

theorem bnode.k0_setK0 (p : bnode) (v : Int) (h : 0 < p.ent.length) : (p.setK 0 v).k 0 = v := by
  cases p with
  | mk ent =>
    cases ent with
    | nil => simp at h
    | cons a rest => rfl

theorem bnode.num_setNum (p : bnode) (n : Int) (h : 0 < p.ent.length) : (p.setNum n).num = n := by
  unfold bnode.setNum bnode.num
  rw [bnode.k0_setK0 _ _ h]
  have h1 := Int.emod_nonneg (p.k 0) (show (2 : Int) ^ 32 ≠ 0 by norm_num)
  have h2 := Int.emod_lt_of_pos (p.k 0) (show (0 : Int) < 2 ^ 32 by norm_num)
  norm_num at h1 h2 ⊢
  omega

theorem bnode.num_setLock (p : bnode) (l : Int) (h : 0 < p.ent.length) :
    (p.setLock l).num = p.num := by
  unfold bnode.setLock bnode.num
  rw [bnode.k0_setK0 _ _ h]
  norm_num
  omega

theorem bnode.lock_setLock (p : bnode) (l : Int) (h : 0 < p.ent.length)
    (hl : -(2 ^ 31) ≤ l ∧ l < 2 ^ 31) : (p.setLock l).lock = l := by
  unfold bnode.setLock bnode.lock
  rw [bnode.k0_setK0 _ _ h]
  norm_num at hl ⊢
  omega

theorem bnode.lock_setNum (p : bnode) (n : Int) (h : 0 < p.ent.length) :
    (p.setNum n).lock = p.lock := by
  unfold bnode.setNum bnode.lock
  rw [bnode.k0_setK0 _ _ h]
  norm_num
  omega

theorem bnode.length_setEnt (p : bnode) (i : Int) (e : IdxEntry) :
    (p.setEnt i e).ent.length = p.ent.length := by
  simp [bnode.setEnt]

theorem bnode.length_setK (p : bnode) (i : Int) (v : Int) :
    (p.setK i v).ent.length = p.ent.length := by
  simp [bnode.setK, bnode.setEnt]

theorem bnode.length_setNum (p : bnode) (n : Int) : (p.setNum n).ent.length = p.ent.length := by
  simp [bnode.setNum, bnode.length_setK]

theorem bnode.length_setLock (p : bnode) (n : Int) : (p.setLock n).ent.length = p.ent.length := by
  simp [bnode.setLock, bnode.length_setK]

/-- Writing `k(0)` (the meta word) changes no separator `k(i)`, `i >= 1`, and no child pointer. -/
theorem bnode.keysN_setK0 (p : bnode) (v : Int) (n : Nat) : (p.setK 0 v).keysN n = p.keysN n := by
  unfold bnode.keysN
  apply List.map_congr_left
  intro i _
  cases p with
  | mk ent =>
    cases ent with
    | nil => simp [bnode.setK, bnode.setEnt, bnode.k, bnode.entAt]
    | cons a rest =>
      have : ((i : Int) + 1).toNat = i + 1 := by omega
      simp [bnode.setK, bnode.setEnt, bnode.k, bnode.entAt, this]

theorem bnode.childrenN_setK0 (p : bnode) (v : Int) (n : Nat) :
    (p.setK 0 v).childrenN n = p.childrenN n := by
  unfold bnode.childrenN
  apply List.map_congr_left
  intro i _
  cases p with
  | mk ent =>
    cases ent with
    | nil => simp [bnode.setK, bnode.setEnt, bnode.ch, bnode.entAt]
    | cons a rest =>
      cases i with
      | zero => simp [bnode.setK, bnode.setEnt, bnode.ch, bnode.entAt]
      | succ j =>
        have : (((j + 1 : Nat) : Int)).toNat = j + 1 := by omega
        simp only [bnode.setK, bnode.setEnt, bnode.ch, bnode.entAt, this]
        simp

end LBTree


namespace LBTree

/-! ## C9: split of a full inner node -/

theorem nodeSplit_fst (p newp : bnode) (pos key : Int) (ptr : Nat) (unlock : Bool) :
    (nodeSplit p newp pos key ptr unlock).1 =
      (if unlock then (((nodeSplitMove p newp pos key ptr).1.setNum LEFT_KEY_NUM).setLock 0)
       else ((nodeSplitMove p newp pos key ptr).1.setNum LEFT_KEY_NUM)) := rfl

theorem nodeSplit_snd (p newp : bnode) (pos key : Int) (ptr : Nat) (unlock : Bool) :
    (nodeSplit p newp pos key ptr unlock).2.1 =
      ((nodeSplitMove p newp pos key ptr).2.setNum RIGHT_KEY_NUM).setLock 0 := rfl

theorem nodeSplit_key (p newp : bnode) (pos key : Int) (ptr : Nat) (unlock : Bool) :
    (nodeSplit p newp pos key ptr unlock).2.2 = (nodeSplitMove p newp pos key ptr).2.k 0 := rfl

set_option maxHeartbeats 4000000 in
/-- Closed form of the entry moves of the split: with `merged` the 17 entries
`e0 .. e(pos-1), (key, ptr), e(pos) .. e15`, the left image holds
`merged[0..7]` (followed by the stale old entries 8..15) and the right image
holds `merged[8..16]` in `ent[0..8]`. -/
theorem nodeSplitMove_closed (p newp : bnode) (pos key : Int) (ptr : Nat)
    (hp : p.ent.length = 16) (hnew : newp.ent.length = 16) (h1 : 1 ≤ pos) (h2 : pos ≤ 16) :
    nodeSplitMove p newp pos key ptr =
      (⟨(insertAt p.ent pos.toNat ⟨key, ptr⟩).take 8 ++ p.ent.drop 8⟩,
       ⟨(insertAt p.ent pos.toNat ⟨key, ptr⟩).drop 8 ++ newp.ent.drop 9⟩) := by
  obtain ⟨e0, e1, e2, e3, e4, e5, e6, e7, e8, e9, e10, e11, e12, e13, e14, e15, he⟩ := list16 _ hp
  obtain ⟨n0, n1, n2, n3, n4, n5, n6, n7, n8, n9, n10, n11, n12, n13, n14, n15, hn⟩ := list16 _ hnew
  have hpe : p = ⟨[e0, e1, e2, e3, e4, e5, e6, e7, e8, e9, e10, e11, e12, e13, e14, e15]⟩ := by
    cases p; simp_all
  have hne : newp = ⟨[n0, n1, n2, n3, n4, n5, n6, n7, n8, n9, n10, n11, n12, n13, n14, n15]⟩ := by
    cases newp; simp_all
  subst hpe hne
  interval_cases pos <;> rfl

set_option maxHeartbeats 4000000 in
/-- The entry moves of the split, for every insertion position `1..16`: the
left image keeps the 7 smallest of the 16 keys, the right image gets the 8
largest, `k(0)` of the right image is the 8th key, and the 17 children are the
old 16 with `ptr` put right after child `pos-1`. -/
theorem nodeSplitMove_spec (p newp : bnode) (pos key : Int) (ptr : Nat)
    (hp : p.ent.length = 16) (hnew : newp.ent.length = 16) (h1 : 1 ≤ pos) (h2 : pos ≤ 16) :
    (nodeSplitMove p newp pos key ptr).1.ent.length = 16 ∧
    (nodeSplitMove p newp pos key ptr).2.ent.length = 16 ∧
    (nodeSplitMove p newp pos key ptr).1.keysN 7 = (insertAt (p.keysN 15) (pos - 1).toNat key).take 7 ∧
    (nodeSplitMove p newp pos key ptr).2.k 0 = (insertAt (p.keysN 15) (pos - 1).toNat key).getD 7 0 ∧
    (nodeSplitMove p newp pos key ptr).2.keysN 8 = (insertAt (p.keysN 15) (pos - 1).toNat key).drop 8 ∧
    (nodeSplitMove p newp pos key ptr).1.childrenN 8 ++ (nodeSplitMove p newp pos key ptr).2.childrenN 9
      = insertAt (p.childrenN 16) pos.toNat ptr := by
  rw [nodeSplitMove_closed p newp pos key ptr hp hnew h1 h2]
  obtain ⟨e0, e1, e2, e3, e4, e5, e6, e7, e8, e9, e10, e11, e12, e13, e14, e15, he⟩ := list16 _ hp
  obtain ⟨n0, n1, n2, n3, n4, n5, n6, n7, n8, n9, n10, n11, n12, n13, n14, n15, hn⟩ := list16 _ hnew
  have hpe : p = ⟨[e0, e1, e2, e3, e4, e5, e6, e7, e8, e9, e10, e11, e12, e13, e14, e15]⟩ := by
    cases p; simp_all
  have hne : newp = ⟨[n0, n1, n2, n3, n4, n5, n6, n7, n8, n9, n10, n11, n12, n13, n14, n15]⟩ := by
    cases newp; simp_all
  subst hpe hne
  interval_cases pos <;> exact ⟨rfl, rfl, rfl, rfl, rfl, rfl⟩

/-- C9. Split of a full inner node (`num = 15`) on insertion of `(key, ptr)` at
position `pos`, for every `pos` in `1..16`: the left node ends with `num = 7`
and the 7 first keys of the merged key sequence, the new right node with
`num = 8` and its 8 last keys, the key pushed up is the 8th key of the merged
sequence, and left children followed by right children are the old 16
children with `ptr` inserted right after child `pos-1`.  When the merged
sequence is strictly ascending (the node was sorted and `pos` is the place of
`key`), exactly 7 of the 16 keys are below the pushed key (it is the 8th
smallest), every left key is below it and every right key is at or above it. -/
theorem C9_inner_split (p newp : bnode) (pos key : Int) (ptr : Nat) (unlock : Bool)
    (hp : p.ent.length = 16) (hnew : newp.ent.length = 16) (hnum : p.num = 15)
    (h1 : 1 ≤ pos) (h2 : pos ≤ 16) :
    (nodeSplit p newp pos key ptr unlock).1.num = 7 ∧
    (nodeSplit p newp pos key ptr unlock).2.1.num = 8 ∧
    (nodeSplit p newp pos key ptr unlock).1.keys = (insertAt p.keys (pos - 1).toNat key).take 7 ∧
    (nodeSplit p newp pos key ptr unlock).2.2 = (insertAt p.keys (pos - 1).toNat key).getD 7 0 ∧
    (nodeSplit p newp pos key ptr unlock).2.1.keys = (insertAt p.keys (pos - 1).toNat key).drop 8 ∧
    (nodeSplit p newp pos key ptr unlock).1.children ++ (nodeSplit p newp pos key ptr unlock).2.1.children
      = insertAt p.children pos.toNat ptr ∧
    ((insertAt p.keys (pos - 1).toNat key).Pairwise (· < ·) →
      ((insertAt p.keys (pos - 1).toNat key).filter
          (fun x => decide (x < (nodeSplit p newp pos key ptr unlock).2.2))).length = 7 ∧
      (∀ x ∈ (nodeSplit p newp pos key ptr unlock).1.keys,
          x < (nodeSplit p newp pos key ptr unlock).2.2) ∧
      (∀ x ∈ (nodeSplit p newp pos key ptr unlock).2.1.keys,
          (nodeSplit p newp pos key ptr unlock).2.2 ≤ x)) := by
  obtain ⟨hl1, hl2, hk1, hk0, hk2, hch⟩ := nodeSplitMove_spec p newp pos key ptr hp hnew h1 h2
  have hnum1 : (nodeSplit p newp pos key ptr unlock).1.num = 7 := by
    rw [nodeSplit_fst]
    cases unlock
    · simp only [Bool.false_eq_true, if_false]
      rw [bnode.num_setNum _ _ (by omega)]; rfl
    · simp only [if_true]
      rw [bnode.num_setLock _ _ (by rw [bnode.length_setNum]; omega),
        bnode.num_setNum _ _ (by omega)]; rfl
  have hnum2 : (nodeSplit p newp pos key ptr unlock).2.1.num = 8 := by
    rw [nodeSplit_snd, bnode.num_setLock _ _ (by rw [bnode.length_setNum]; omega),
      bnode.num_setNum _ _ (by omega)]; rfl
  have hkeys1 : (nodeSplit p newp pos key ptr unlock).1.keys
      = (insertAt p.keys (pos - 1).toNat key).take 7 := by
    unfold bnode.keys
    rw [hnum1, hnum]
    rw [nodeSplit_fst]
    cases unlock
    · simp only [Bool.false_eq_true, if_false]
      rw [bnode.setNum, bnode.keysN_setK0]; exact hk1
    · simp only [if_true]
      rw [bnode.setLock, bnode.keysN_setK0, bnode.setNum, bnode.keysN_setK0]; exact hk1
  have hkeys2 : (nodeSplit p newp pos key ptr unlock).2.1.keys
      = (insertAt p.keys (pos - 1).toNat key).drop 8 := by
    unfold bnode.keys
    rw [hnum2, hnum, nodeSplit_snd, bnode.setLock, bnode.keysN_setK0, bnode.setNum,
      bnode.keysN_setK0]
    exact hk2
  have hup : (nodeSplit p newp pos key ptr unlock).2.2
      = (insertAt p.keys (pos - 1).toNat key).getD 7 0 := by
    rw [nodeSplit_key, hk0]; unfold bnode.keys; rw [hnum]; rfl
  have hchildren : (nodeSplit p newp pos key ptr unlock).1.children
      ++ (nodeSplit p newp pos key ptr unlock).2.1.children = insertAt p.children pos.toNat ptr := by
    unfold bnode.children
    rw [hnum1, hnum2, hnum, nodeSplit_snd, bnode.setLock, bnode.childrenN_setK0, bnode.setNum,
      bnode.childrenN_setK0, nodeSplit_fst]
    cases unlock
    · simp only [Bool.false_eq_true, if_false]
      rw [bnode.setNum, bnode.childrenN_setK0]; exact hch
    · simp only [if_true]
      rw [bnode.setLock, bnode.childrenN_setK0, bnode.setNum, bnode.childrenN_setK0]; exact hch
  refine ⟨hnum1, hnum2, hkeys1, hup, hkeys2, hchildren, ?_⟩
  intro hs
  rw [hkeys1, hkeys2, hup]
  -- the merged sequence has 16 elements
  have hlen : (insertAt p.keys (pos - 1).toNat key).length = 16 := by
    unfold insertAt bnode.keys bnode.keysN
    rw [hnum]
    simp
    omega
  generalize insertAt p.keys (pos - 1).toNat key = m at hs hlen
  obtain ⟨a0, a1, a2, a3, a4, a5, a6, a7, a8, a9, a10, a11, a12, a13, a14, a15, hm⟩ := list16 _ hlen
  subst hm
  simp only [List.pairwise_cons, List.mem_cons, forall_eq_or_imp] at hs
  simp only [List.getD_cons_succ, List.getD_cons_zero, List.take, List.drop, List.mem_cons,
    forall_eq_or_imp, List.not_mem_nil, false_implies, implies_true, and_true,
    List.find?, List.filter]
  obtain ⟨⟨_, _, _, _, _, _, h07, _⟩, ⟨_, _, _, _, _, h17, _⟩, ⟨_, _, _, _, h27, _⟩,
    ⟨_, _, _, h37, _⟩, ⟨_, _, h47, _⟩, ⟨_, h57, _⟩, ⟨h67, _⟩,
    ⟨h78, h79, h710, h711, h712, h713, h714, h715, _⟩, _⟩ := hs
  refine ⟨?_, ⟨h07, h17, h27, h37, h47, h57, h67⟩,
    ⟨le_of_lt h78, le_of_lt h79, le_of_lt h710, le_of_lt h711, le_of_lt h712, le_of_lt h713,
     le_of_lt h714, le_of_lt h715⟩⟩
  have n77 : ¬ a7 < a7 := lt_irrefl _
  have n8 : ¬ a8 < a7 := not_lt.2 (le_of_lt h78)
  have n9 : ¬ a9 < a7 := not_lt.2 (le_of_lt h79)
  have n10 : ¬ a10 < a7 := not_lt.2 (le_of_lt h710)
  have n11 : ¬ a11 < a7 := not_lt.2 (le_of_lt h711)
  have n12 : ¬ a12 < a7 := not_lt.2 (le_of_lt h712)
  have n13 : ¬ a13 < a7 := not_lt.2 (le_of_lt h713)
  have n14 : ¬ a14 < a7 := not_lt.2 (le_of_lt h714)
  have n15 : ¬ a15 < a7 := not_lt.2 (le_of_lt h715)
  simp [h07, h17, h27, h37, h47, h57, h67, n77, n8, n9, n10, n11, n12, n13, n14, n15]

end LBTree


namespace LBTree

/-! ## Setting and clearing one bit of a leaf bitmap -/

theorem testBit_bnot32 (x i : Nat) (hx : x < 2 ^ 32) :
    (bnot32 x).testBit i = (decide (i < 32) && !x.testBit i) := by
  have : bnot32 x = 2 ^ 32 - (x + 1) := by
    unfold bnot32; rw [Nat.mod_eq_of_lt hx]; omega
  rw [this, Nat.testBit_two_pow_sub_succ hx]

theorem testBit_lt14 (x i : Nat) (hx : x < 2 ^ 14) (hi : 14 ≤ i) : x.testBit i = false :=
  Nat.testBit_lt_two_pow (lt_of_lt_of_le hx (Nat.pow_le_pow_right (by norm_num) hi))

/-- `bitmap |= (1<<t)` on a `uint16_t` holding a 14-bit value. -/
theorem testBit_setBit (x t i : Nat) (hx : x < 2 ^ 14) (ht : t < 14) :
    ((x ||| (1 <<< t)) % 2 ^ 16).testBit i = (x.testBit i || decide (i = t)) := by
  rw [Nat.testBit_mod_two_pow, Nat.testBit_or, Nat.one_shiftLeft, Nat.testBit_two_pow]
  by_cases hi : i < 16
  · simp [hi, eq_comm]
  · have h1 : x.testBit i = false := testBit_lt14 x i hx (by omega)
    have h2 : ¬ t = i := by omega
    have h3 : ¬ i = t := by omega
    simp [hi, h1, h2, h3]

theorem setBit_lt (x t : Nat) (hx : x < 2 ^ 14) (ht : t < 14) :
    (x ||| (1 <<< t)) % 2 ^ 16 < 2 ^ 14 := by
  apply Nat.lt_pow_two_of_testBit
  intro i hi
  rw [testBit_setBit x t i hx ht, testBit_lt14 x i hx hi]
  have : ¬ i = t := by omega
  simp [this]

/-- `bitmap &= ~(1<<f)` on a `uint16_t` holding a 14-bit value. -/
theorem testBit_clrBit (x f i : Nat) (hx : x < 2 ^ 14) (hf : f < 32) :
    ((x &&& bnot32 (1 <<< f)) % 2 ^ 16).testBit i = (x.testBit i && decide (i ≠ f)) := by
  rw [Nat.testBit_mod_two_pow, Nat.testBit_and, testBit_bnot32_shift f i hf]
  by_cases hi : i < 14
  · have h1 : i < 16 := by omega
    have h2 : i < 32 := by omega
    simp [h1, h2]
  · have h1 : x.testBit i = false := testBit_lt14 x i hx (by omega)
    simp [h1]

theorem clrBit_lt (x f : Nat) (hx : x < 2 ^ 14) (hf : f < 32) :
    (x &&& bnot32 (1 <<< f)) % 2 ^ 16 < 2 ^ 14 := by
  apply Nat.lt_pow_two_of_testBit
  intro i hi
  rw [testBit_clrBit x f i hx hf, testBit_lt14 x i hx hi]
  simp

/-- The test `(bitmap&(1<<t))==0`. -/
theorem and_shift_eq_zero (x t : Nat) : x &&& (1 <<< t) = 0 ↔ x.testBit t = false := by
  rw [Nat.one_shiftLeft]
  constructor
  · intro h
    have := congrArg (fun y => Nat.testBit y t) h
    simpa [Nat.testBit_and, Nat.testBit_two_pow] using this
  · intro h
    apply Nat.eq_of_testBit_eq
    intro i
    rw [Nat.testBit_and, Nat.testBit_two_pow, Nat.zero_testBit]
    by_cases hi : t = i
    · subst hi; simp [h]
    · simp [hi]

/-! ## Counting bits -/

theorem popLow_congr (x y : Nat) : ∀ n, (∀ i, i < n → x.testBit i = y.testBit i) →
    popLow x n = popLow y n := by
  intro n
  induction n with
  | zero => intro _; rfl
  | succ k ih =>
    intro h
    simp only [popLow]
    rw [ih (fun i hi => h i (by omega)), h k (by omega)]

theorem popLow_set (x y a : Nat) (hy : ∀ i, y.testBit i = (x.testBit i || decide (i = a)))
    (ha : x.testBit a = false) : ∀ n, popLow y n = popLow x n + (if a < n then 1 else 0) := by
  intro n
  induction n with
  | zero => simp [popLow]
  | succ k ih =>
    simp only [popLow, ih, hy k]
    by_cases hk : k = a
    · subst hk; simp [ha]
    · by_cases hlt : a < k
      · have : a < k + 1 := by omega
        simp [hk, hlt, this]; omega
      · have : ¬ a < k + 1 := by omega
        simp [hk, hlt, this]

theorem popLow_clear (x y a : Nat) (hy : ∀ i, y.testBit i = (x.testBit i && decide (i ≠ a)))
    (ha : x.testBit a = true) : ∀ n, popLow y n + (if a < n then 1 else 0) = popLow x n := by
  intro n
  induction n with
  | zero => simp [popLow]
  | succ k ih =>
    have := ih
    simp only [popLow, hy k]
    by_cases hk : k = a
    · subst hk; simp [ha]; simpa using ih
    · by_cases hlt : a < k
      · have h1 : a < k + 1 := by omega
        simp [hk, hlt, h1] at this ⊢; omega
      · have h1 : ¬ a < k + 1 := by omega
        simp [hk, hlt, h1] at this ⊢; omega

/-! ## Leaf entries -/

theorem bleaf.entAt_setEnt (lp : bleaf) (t i : Nat) (e : IdxEntry) (ht : t < lp.ent.length) :
    (lp.setEnt t e).entAt i = if i = t then e else lp.entAt i := by
  unfold bleaf.setEnt bleaf.entAt
  by_cases h : i = t
  · subst h; simp [List.getD_eq_getElem?_getD, ht]
  · have h' : ¬ t = i := fun hh => h hh.symm
    simp [List.getD_eq_getElem?_getD, List.getElem?_set, h, h']

/-! ## The line-filling loop of a leaf insert -/

theorem moveLoop_spec (last : Nat) (hlast : last ≤ 13) :
    ∀ (fuel to_ from_ bm : Nat) (lp : bleaf) (m : bleafMeta),
    bm < 2 ^ 14 → lp.ent.length = 14 → 3 ≤ to_ → to_ + fuel = last + 1 → from_ + fuel ≤ 3 →
    (∀ f, from_ ≤ f → f < 3 → bm.testBit f = true) →
    (moveLoop last fuel to_ from_ bm lp m).1.ent.length = 14 ∧
    (moveLoop last fuel to_ from_ bm lp m).2.2.1 < 2 ^ 14 ∧
    from_ ≤ (moveLoop last fuel to_ from_ bm lp m).2.2.2 ∧
    (moveLoop last fuel to_ from_ bm lp m).2.2.2 ≤ from_ + fuel ∧
    (∀ i, 3 ≤ i → bm.testBit i = true →
        (moveLoop last fuel to_ from_ bm lp m).2.2.1.testBit i = true) ∧
    (∀ i, i < to_ → (moveLoop last fuel to_ from_ bm lp m).1.entAt i = lp.entAt i) ∧
    (∀ e, (moveLoop last fuel to_ from_ bm lp m).1.liveWith
            (moveLoop last fuel to_ from_ bm lp m).2.2.1 e ↔ lp.liveWith bm e) ∧
    popLow (moveLoop last fuel to_ from_ bm lp m).2.2.1 32 = popLow bm 32 ∧
    (moveLoop last fuel to_ from_ bm lp m).1.next = lp.next ∧
    (moveLoop last fuel to_ from_ bm lp m).2.1.lock = m.lock ∧
    (moveLoop last fuel to_ from_ bm lp m).2.1.alt = m.alt := by
  intro fuel
  induction fuel with
  | zero =>
    intro to_ from_ bm lp m hbm hlen _ _ _ _
    exact ⟨hlen, hbm, le_refl _, le_refl _, fun i _ h => h, fun i _ => rfl, fun e => Iff.rfl, rfl, rfl, rfl, rfl⟩
  | succ n ih =>
    intro to_ from_ bm lp m hbm hlen hto hfuel hfrom hsrc
    have hto_le : to_ ≤ last := by omega
    have hto14 : to_ < 14 := by omega
    by_cases hbit : bm &&& (1 <<< to_) = 0
    · -- the slot `to_` is empty: move entry `from_` into it
      have hclr : bm.testBit to_ = false := (and_shift_eq_zero bm to_).1 hbit
      have hf2 : from_ < 3 := by omega
      have hlive : bm.testBit from_ = true := hsrc from_ (le_refl _) hf2
      have hz : (bm ||| (1 <<< to_)) % 2 ^ 16 < 2 ^ 14 := setBit_lt bm to_ hbm hto14
      have hb1 : ∀ i, ((((bm ||| (1 <<< to_)) % 2 ^ 16) &&& bnot32 (1 <<< from_)) % 2 ^ 16).testBit i
          = ((bm.testBit i || decide (i = to_)) && decide (i ≠ from_)) := by
        intro i
        rw [testBit_clrBit _ from_ i hz (by omega), testBit_setBit bm to_ i hbm hto14]
      have hb1lt := clrBit_lt ((bm ||| (1 <<< to_)) % 2 ^ 16) from_ hz (by omega)
      have hlen1 : (lp.setEnt to_ (lp.entAt from_)).ent.length = 14 := by
        simp [bleaf.setEnt, hlen]
      have hent1 : ∀ i, (lp.setEnt to_ (lp.entAt from_)).entAt i
          = if i = to_ then lp.entAt from_ else lp.entAt i :=
        fun i => bleaf.entAt_setEnt lp to_ i _ (by omega)
      have hstep : moveLoop last (n + 1) to_ from_ bm lp m =
          moveLoop last n (to_ + 1) (from_ + 1)
            ((((bm ||| (1 <<< to_)) % 2 ^ 16) &&& bnot32 (1 <<< from_)) % 2 ^ 16)
            (lp.setEnt to_ (lp.entAt from_))
            { m with fgpt := m.fgpt.set to_ (m.fgpt.getD from_ 0) } := by
        simp [moveLoop, hto_le, hbit]
      rw [hstep]
      obtain ⟨c1, c2, c3, c4, c5, c6, c7, c8, c9, c10, c11⟩ :=
        ih (to_ + 1) (from_ + 1) _ (lp.setEnt to_ (lp.entAt from_))
          { m with fgpt := m.fgpt.set to_ (m.fgpt.getD from_ 0) }
          hb1lt hlen1 (by omega) (by omega) (by omega)
          (by
            intro f h1 h2
            rw [hb1, hsrc f (by omega) h2]
            have : ¬ f = from_ := by omega
            simp [this])
      refine ⟨c1, c2, by omega, by omega, ?_, ?_, ?_, ?_, ?_, c10, c11⟩
      · intro i hi hb
        apply c5 i hi
        rw [hb1, hb]
        have : ¬ i = from_ := by omega
        simp [this]
      · intro i hi
        rw [c6 i (by omega), hent1]
        have : ¬ i = to_ := by omega
        simp [this]
      · intro e
        rw [c7 e]
        constructor
        · rintro ⟨i, hi, hb, he⟩
          rw [hb1] at hb
          rw [hent1] at he
          by_cases hit : i = to_
          · rw [if_pos hit] at he
            exact ⟨from_, by omega, hlive, he⟩
          · rw [if_neg hit] at he
            simp [hit] at hb
            exact ⟨i, hi, hb.1, he⟩
        · rintro ⟨i, hi, hb, he⟩
          by_cases hif : i = from_
          · subst hif
            refine ⟨to_, hto14, ?_, ?_⟩
            · rw [hb1]
              have : ¬ to_ = i := by omega
              simp [this]
            · rw [hent1, if_pos rfl]; exact he
          · have hit : ¬ i = to_ := by
              intro h; subst h; rw [hclr] at hb; simp at hb
            refine ⟨i, hi, ?_, ?_⟩
            · rw [hb1, hb]; simp [hif]
            · rw [hent1, if_neg hit]; exact he
      · rw [c8]
        have h1 := popLow_set bm ((bm ||| (1 <<< to_)) % 2 ^ 16) to_
          (fun i => testBit_setBit bm to_ i hbm hto14) hclr 32
        have h2 := popLow_clear ((bm ||| (1 <<< to_)) % 2 ^ 16)
          ((((bm ||| (1 <<< to_)) % 2 ^ 16) &&& bnot32 (1 <<< from_)) % 2 ^ 16) from_
          (fun i => testBit_clrBit _ from_ i hz (by omega))
          (by rw [testBit_setBit bm to_ from_ hbm hto14, hlive]; simp) 32
        have h3 : to_ < 32 := by omega
        have h4 : from_ < 32 := by omega
        simp only [h3, h4, if_true] at h1 h2
        omega
      · rw [c9]; rfl
    · -- the slot `to_` is occupied
      have hstep : moveLoop last (n + 1) to_ from_ bm lp m =
          moveLoop last n (to_ + 1) from_ bm lp m := by
        simp [moveLoop, hto_le, hbit]
      rw [hstep]
      obtain ⟨c1, c2, c3, c4, c5, c6, c7, c8, c9, c10, c11⟩ :=
        ih (to_ + 1) from_ bm lp m hbm hlen (by omega) (by omega) (by omega) hsrc
      exact ⟨c1, c2, c3, by omega, c5, fun i hi => c6 i (by omega), c7, c8, c9, c10, c11⟩

end LBTree


namespace LBTree

/-! ## C10: insert into a non-full leaf -/

/-- The slot chosen by `bitScan(~bitmap)-1` is the lowest empty slot. -/
theorem lowest_clear (bm : Nat) (hbm : bm < 2 ^ 14) (hfull : bm ≠ 0x3fff) :
    bitScan (bnot32 bm) - 1 < 14 ∧ bm.testBit (bitScan (bnot32 bm) - 1) = false ∧
    ∀ i, i < bitScan (bnot32 bm) - 1 → bm.testBit i = true := by
  have hbm32 : bm < 2 ^ 32 := lt_of_lt_of_le hbm (Nat.pow_le_pow_right (by norm_num) (by norm_num))
  have hne : bnot32 bm ≠ 0 := by
    intro h
    have := testBit_bnot32 bm 14 hbm32
    rw [h, testBit_lt14 bm 14 hbm (le_refl _)] at this
    simp at this
  have hlt : bnot32 bm < 2 ^ 32 := by unfold bnot32; omega
  obtain ⟨j, hj, hj32, hbit, hlow⟩ := bitScan_spec (bnot32 bm) hlt hne
  rw [hj, Nat.add_sub_cancel]
  rw [testBit_bnot32 bm j hbm32] at hbit
  have hjc : bm.testBit j = false := by
    simp at hbit; exact hbit.2
  have hall : ∀ i, i < j → bm.testBit i = true := by
    intro i hi
    have := hlow i hi
    rw [testBit_bnot32 bm i hbm32] at this
    have hi32 : i < 32 := by omega
    simpa [hi32] using this
  refine ⟨?_, hjc, hall⟩
  by_contra hge
  apply hfull
  apply Nat.eq_of_testBit_eq
  intro i
  have h14 : (0x3fff : Nat) = 2 ^ 14 - 1 := by norm_num
  rw [h14, Nat.testBit_two_pow_sub_one]
  by_cases hi : i < 14
  · rw [hall i (by omega)]; simp [hi]
  · rw [testBit_lt14 bm i hbm (by omega)]; simp [hi]

theorem last_slot_in_line_bounds (slot : Nat) (h3 : 3 ≤ slot) (h14 : slot < 14) :
    slot ≤ last_slot_in_line slot ∧ last_slot_in_line slot ≤ 13 ∧
    last_slot_in_line slot - slot ≤ 3 := by
  interval_cases slot <;> decide

theorem leafPut_live1 (lp : bleaf) (bm : Nat) (key : Int) (ptr : Nat) (slot : Nat)
    (hbm : bm < 2 ^ 14) (hlen : lp.ent.length = 14) (hs14 : slot < 14)
    (hsclr : bm.testBit slot = false) :
    ∀ e, (lp.setEnt slot ⟨key, ptr⟩).liveWith ((bm ||| (1 <<< slot)) % 2 ^ 16) e
      ↔ (lp.liveWith bm e ∨ e = ⟨key, ptr⟩) := by
  have hb1 : ∀ i, ((bm ||| (1 <<< slot)) % 2 ^ 16).testBit i
      = (bm.testBit i || decide (i = slot)) := fun i => testBit_setBit _ slot i hbm hs14
  have hent1 : ∀ i, (lp.setEnt slot ⟨key, ptr⟩).entAt i
      = if i = slot then ⟨key, ptr⟩ else lp.entAt i :=
    fun i => bleaf.entAt_setEnt lp slot i _ (by omega)
  intro e
  constructor
  · rintro ⟨i, hi, hb, he⟩
    rw [hb1] at hb
    rw [hent1] at he
    by_cases his : i = slot
    · rw [if_pos his] at he; right; exact he.symm
    · rw [if_neg his] at he
      simp [his] at hb
      left; exact ⟨i, hi, hb, he⟩
  · rintro (⟨i, hi, hb, he⟩ | he)
    · have his : ¬ i = slot := by
        intro h; subst h; rw [hsclr] at hb; simp at hb
      exact ⟨i, hi, by rw [hb1, hb]; simp, by rw [hent1, if_neg his]; exact he⟩
    · exact ⟨slot, hs14, by rw [hb1]; simp, by rw [hent1, if_pos rfl]; exact he.symm⟩

theorem leafPut_pop1 (bm slot : Nat) (hbm : bm < 2 ^ 14) (hs14 : slot < 14)
    (hsclr : bm.testBit slot = false) :
    popLow ((bm ||| (1 <<< slot)) % 2 ^ 16) 32 = popLow bm 32 + 1 := by
  have := popLow_set bm _ slot (fun i => testBit_setBit _ slot i hbm hs14) hsclr 32
  have h32 : slot < 32 := by omega
  simpa [h32] using this

theorem leafPut_low (lp : bleaf) (m : bleafMeta) (key : Int) (ptr : Nat) (key_hash : Nat)
    (h : bitScan (bnot32 m.bitmap) - 1 < 3) :
    leafPut lp m key ptr key_hash =
      (lp.setEnt (bitScan (bnot32 m.bitmap) - 1) ⟨key, ptr⟩).setWord0
        { m with fgpt := m.fgpt.set (bitScan (bnot32 m.bitmap) - 1) key_hash,
                 bitmap := ((m.bitmap ||| (1 <<< (bitScan (bnot32 m.bitmap) - 1))) % 2 ^ 16) % 2 ^ 14 } := by
  unfold leafPut
  simp only [h, if_true]

theorem leafPut_high (lp : bleaf) (m : bleafMeta) (key : Int) (ptr : Nat) (key_hash : Nat)
    (h : ¬ bitScan (bnot32 m.bitmap) - 1 < 3) :
    leafPut lp m key ptr key_hash =
      (moveLoop (last_slot_in_line (bitScan (bnot32 m.bitmap) - 1))
          (last_slot_in_line (bitScan (bnot32 m.bitmap) - 1) - (bitScan (bnot32 m.bitmap) - 1))
          (bitScan (bnot32 m.bitmap) - 1 + 1) 0
          ((m.bitmap ||| (1 <<< (bitScan (bnot32 m.bitmap) - 1))) % 2 ^ 16)
          (lp.setEnt (bitScan (bnot32 m.bitmap) - 1) ⟨key, ptr⟩)
          { m with fgpt := m.fgpt.set (bitScan (bnot32 m.bitmap) - 1) key_hash }).1.setBothWords
        { (moveLoop (last_slot_in_line (bitScan (bnot32 m.bitmap) - 1))
          (last_slot_in_line (bitScan (bnot32 m.bitmap) - 1) - (bitScan (bnot32 m.bitmap) - 1))
          (bitScan (bnot32 m.bitmap) - 1 + 1) 0
          ((m.bitmap ||| (1 <<< (bitScan (bnot32 m.bitmap) - 1))) % 2 ^ 16)
          (lp.setEnt (bitScan (bnot32 m.bitmap) - 1) ⟨key, ptr⟩)
          { m with fgpt := m.fgpt.set (bitScan (bnot32 m.bitmap) - 1) key_hash }).2.1 with
          bitmap := (moveLoop (last_slot_in_line (bitScan (bnot32 m.bitmap) - 1))
          (last_slot_in_line (bitScan (bnot32 m.bitmap) - 1) - (bitScan (bnot32 m.bitmap) - 1))
          (bitScan (bnot32 m.bitmap) - 1 + 1) 0
          ((m.bitmap ||| (1 <<< (bitScan (bnot32 m.bitmap) - 1))) % 2 ^ 16)
          (lp.setEnt (bitScan (bnot32 m.bitmap) - 1) ⟨key, ptr⟩)
          { m with fgpt := m.fgpt.set (bitScan (bnot32 m.bitmap) - 1) key_hash }).2.2.1 % 2 ^ 14 } := by
  unfold leafPut
  simp only [h, if_false]

theorem leafPut_spec_aux (lp : bleaf) (m : bleafMeta) (key : Int) (ptr : Nat) (key_hash : Nat)
    (hbm : m.bitmap < 2 ^ 14) (hlen : lp.ent.length = 14) (hfull : m.bitmap ≠ 0x3fff) :
    (leafPut lp m key ptr key_hash).entAt (bitScan (bnot32 m.bitmap) - 1) = ⟨key, ptr⟩ ∧
    (leafPut lp m key ptr key_hash).bitmap.testBit (bitScan (bnot32 m.bitmap) - 1) = true ∧
    (∀ e, (leafPut lp m key ptr key_hash).live e ↔ (lp.liveWith m.bitmap e ∨ e = ⟨key, ptr⟩)) ∧
    popLow (leafPut lp m key ptr key_hash).bitmap 32 = popLow m.bitmap 32 + 1 ∧
    (leafPut lp m key ptr key_hash).bitmap < 2 ^ 14 ∧
    (leafPut lp m key ptr key_hash).ent.length = 14 ∧
    (leafPut lp m key ptr key_hash).next = lp.next ∧
    (leafPut lp m key ptr key_hash).lock = m.lock ∧
    (leafPut lp m key ptr key_hash).alt = m.alt := by
  obtain ⟨hs14, hsclr, hsall⟩ := lowest_clear m.bitmap hbm hfull
  by_cases h3 : bitScan (bnot32 m.bitmap) - 1 < 3
  · rw [leafPut_low lp m key ptr key_hash h3]
    generalize bitScan (bnot32 m.bitmap) - 1 = slot at hs14 hsclr hsall h3
    have hb1 : ∀ i, ((m.bitmap ||| (1 <<< slot)) % 2 ^ 16).testBit i
        = (m.bitmap.testBit i || decide (i = slot)) := fun i => testBit_setBit _ slot i hbm hs14
    have hb1lt : (m.bitmap ||| (1 <<< slot)) % 2 ^ 16 < 2 ^ 14 := setBit_lt _ slot hbm hs14
    have hent1 : ∀ i, (lp.setEnt slot ⟨key, ptr⟩).entAt i
        = if i = slot then ⟨key, ptr⟩ else lp.entAt i :=
      fun i => bleaf.entAt_setEnt lp slot i _ (by omega)
    have hlen1 : (lp.setEnt slot ⟨key, ptr⟩).ent.length = 14 := by simp [bleaf.setEnt, hlen]
    have hlive1 := leafPut_live1 lp m.bitmap key ptr slot hbm hlen hs14 hsclr
    have hpop1 := leafPut_pop1 m.bitmap slot hbm hs14 hsclr
    have hmod : ((m.bitmap ||| (1 <<< slot)) % 2 ^ 16) % 2 ^ 14
        = (m.bitmap ||| (1 <<< slot)) % 2 ^ 16 := Nat.mod_eq_of_lt hb1lt
    refine ⟨?_, ?_, ?_, ?_, ?_, hlen1, rfl, rfl, rfl⟩
    · show (lp.setEnt slot ⟨key, ptr⟩).entAt slot = _
      rw [hent1, if_pos rfl]
    · show (((m.bitmap ||| (1 <<< slot)) % 2 ^ 16) % 2 ^ 14).testBit slot = true
      rw [hmod, hb1]; simp
    · intro e
      show (lp.setEnt slot ⟨key, ptr⟩).liveWith (((m.bitmap ||| (1 <<< slot)) % 2 ^ 16) % 2 ^ 14) e ↔ _
      rw [hmod]; exact hlive1 e
    · show popLow (((m.bitmap ||| (1 <<< slot)) % 2 ^ 16) % 2 ^ 14) 32 = _
      rw [hmod]; exact hpop1
    · show ((m.bitmap ||| (1 <<< slot)) % 2 ^ 16) % 2 ^ 14 < _
      rw [hmod]; exact hb1lt
  · rw [leafPut_high lp m key ptr key_hash h3]
    generalize bitScan (bnot32 m.bitmap) - 1 = slot at hs14 hsclr hsall h3
    have hb1 : ∀ i, ((m.bitmap ||| (1 <<< slot)) % 2 ^ 16).testBit i
        = (m.bitmap.testBit i || decide (i = slot)) := fun i => testBit_setBit _ slot i hbm hs14
    have hb1lt : (m.bitmap ||| (1 <<< slot)) % 2 ^ 16 < 2 ^ 14 := setBit_lt _ slot hbm hs14
    have hent1 : ∀ i, (lp.setEnt slot ⟨key, ptr⟩).entAt i
        = if i = slot then ⟨key, ptr⟩ else lp.entAt i :=
      fun i => bleaf.entAt_setEnt lp slot i _ (by omega)
    have hlen1 : (lp.setEnt slot ⟨key, ptr⟩).ent.length = 14 := by simp [bleaf.setEnt, hlen]
    have hlive1 := leafPut_live1 lp m.bitmap key ptr slot hbm hlen hs14 hsclr
    have hpop1 := leafPut_pop1 m.bitmap slot hbm hs14 hsclr
    obtain ⟨hl1, hl2, hl3⟩ := last_slot_in_line_bounds slot (by omega) hs14
    obtain ⟨c1, c2, _, _, c5, c6, c7, c8, c9, c10, c11⟩ :=
      moveLoop_spec (last_slot_in_line slot) hl2 (last_slot_in_line slot - slot) (slot + 1) 0
        ((m.bitmap ||| (1 <<< slot)) % 2 ^ 16) (lp.setEnt slot ⟨key, ptr⟩)
        { m with fgpt := m.fgpt.set slot key_hash }
        hb1lt hlen1 (by omega) (by omega) (by omega)
        (by
          intro f _ hf
          rw [hb1, hsall f (by omega)]; simp)
    generalize moveLoop (last_slot_in_line slot) (last_slot_in_line slot - slot) (slot + 1) 0
        ((m.bitmap ||| (1 <<< slot)) % 2 ^ 16) (lp.setEnt slot ⟨key, ptr⟩)
        { m with fgpt := m.fgpt.set slot key_hash } = r at c1 c2 c5 c6 c7 c8 c9 c10 c11
    have hmod : r.2.2.1 % 2 ^ 14 = r.2.2.1 := Nat.mod_eq_of_lt c2
    refine ⟨?_, ?_, ?_, ?_, ?_, c1, c9, c10, c11⟩
    · show r.1.entAt slot = _
      rw [c6 slot (by omega), hent1, if_pos rfl]
    · show (r.2.2.1 % 2 ^ 14).testBit slot = true
      rw [hmod]
      exact c5 slot (by omega) (by rw [hb1]; simp)
    · intro e
      show r.1.liveWith (r.2.2.1 % 2 ^ 14) e ↔ _
      rw [hmod, c7 e]; exact hlive1 e
    · show popLow (r.2.2.1 % 2 ^ 14) 32 = _
      rw [hmod, c8]; exact hpop1
    · show r.2.2.1 % 2 ^ 14 < _
      rw [hmod]; exact c2

/-- The publishing block of a leaf insert, on a leaf with an empty slot: the
entry lands in the lowest empty slot, the live pairs become the old ones plus
`(key, ptr)`, and one more bitmap bit is set. -/
theorem leafPut_spec (lp : bleaf) (m : bleafMeta) (key : Int) (ptr : Nat) (key_hash : Nat)
    (hm : m.bitmap = lp.bitmap) (hbm : lp.bitmap < 2 ^ 14) (hlen : lp.ent.length = 14)
    (hfull : lp.bitmap ≠ 0x3fff) :
    (leafPut lp m key ptr key_hash).entAt (bitScan (bnot32 lp.bitmap) - 1) = ⟨key, ptr⟩ ∧
    (leafPut lp m key ptr key_hash).bitmap.testBit (bitScan (bnot32 lp.bitmap) - 1) = true ∧
    (∀ e, (leafPut lp m key ptr key_hash).live e ↔ (lp.live e ∨ e = ⟨key, ptr⟩)) ∧
    countBit (leafPut lp m key ptr key_hash).bitmap = countBit lp.bitmap + 1 ∧
    (leafPut lp m key ptr key_hash).bitmap < 2 ^ 14 ∧
    (leafPut lp m key ptr key_hash).ent.length = 14 ∧
    (leafPut lp m key ptr key_hash).next = lp.next ∧
    (leafPut lp m key ptr key_hash).lock = m.lock ∧
    (leafPut lp m key ptr key_hash).alt = m.alt := by
  have h := leafPut_spec_aux lp m key ptr key_hash (hm ▸ hbm) hlen (hm ▸ hfull)
  rw [hm] at h
  exact h

end LBTree


namespace LBTree

theorem State.leaf_setLeaf_same (s : State) (a : Nat) (l : bleaf) : (s.setLeaf a l).leaf a = l := by
  simp [State.setLeaf]

theorem State.leaf_setLeaf_other (s : State) (a b : Nat) (l : bleaf) (h : b ≠ a) :
    (s.setLeaf a l).leaf b = s.leaf b := by
  simp [State.setLeaf, h]

/-- `insert` on a key that the probed leaf does not hold and whose leaf has an
empty slot: the only store is the publishing block on that leaf. -/
theorem insert_nonfull (s : State) (key : Int) (ptr : Nat) (lpa : Nat)
    (h : TreeOK s) (hd : descend s key s.root_level.toNat s.tree_root = some lpa)
    (hnf : (s.leaf lpa).bitmap ≠ 0x3fff) (hk : ∀ j, ¬ (s.leaf lpa).holds key j) :
    insert s key ptr = Res.ok
      ((s.setLeaf lpa { s.leaf lpa with lock := 1 }).setLeaf lpa
        (leafPut { s.leaf lpa with lock := 1 }
          { ({ s.leaf lpa with lock := 1 } : bleaf).getMeta with lock := 0 } key ptr (hashcode1B key))) := by
  obtain ⟨lp, h1, _, h3, _⟩ := descend_reach s key _ _ h.2
  obtain ⟨lp', pt', h5, h6⟩ := descendPath_reach s key _ _ Path.empty h.2
  rw [h1] at h6 hd
  cases h6
  cases hd
  have hneg : ¬ searchLeaf (s.leaf lpa) key ≥ 0 := by
    rcases searchLeaf_sound (s.leaf lpa) key with hr | ⟨j, _, hh⟩
    · rw [hr]; decide
    · exact absurd hh (hk j)
  have hfull : ({ s.leaf lpa with lock := 1 } : bleaf).isFull = false := by
    simp [bleaf.isFull, hnf]
  simp only [insert, h5, h3, ne_eq, not_true_eq_false, if_false, hneg, State.leaf_setLeaf_same,
    hfull, Bool.false_eq_true, Bool.not_false, if_true]

/-- C10. Insert into a non-full leaf.  On a quiescent tree, if the descent for
`key` ends in a leaf that has an empty slot and does not hold `key`, then
`insert(key, ptr)` returns and changes that leaf only; the new entry is in the
lowest slot whose bitmap bit was clear and that bit is now set; the live
`(key, ptr)` pairs of the leaf are the old ones plus the new pair; the number
of set bitmap bits grows by exactly 1; the lock bit is clear again.  In the
line-filling loop (run when the slot is not in line 0) the source index ends
at most at 3, so the sources are among slots 0..2, and each of them was live. -/
theorem C10_insert_nonfull_leaf (s : State) (key : Int) (ptr : Nat) (lpa : Nat)
    (h : TreeOK s) (hd : descend s key s.root_level.toNat s.tree_root = some lpa)
    (hbm : (s.leaf lpa).bitmap < 2 ^ 14) (hlen : (s.leaf lpa).ent.length = 14)
    (hnf : (s.leaf lpa).bitmap ≠ 0x3fff) (hk : ∀ j, ¬ (s.leaf lpa).holds key j) :
    ∃ s', insert s key ptr = Res.ok s' ∧
      s'.node = s.node ∧ s'.root_level = s.root_level ∧ s'.tree_root = s.tree_root ∧
      s'.first_leaf = s.first_leaf ∧ (∀ a, a ≠ lpa → s'.leaf a = s.leaf a) ∧
      bitScan (bnot32 (s.leaf lpa).bitmap) - 1 < 14 ∧
      (s.leaf lpa).bitmap.testBit (bitScan (bnot32 (s.leaf lpa).bitmap) - 1) = false ∧
      (∀ i, i < bitScan (bnot32 (s.leaf lpa).bitmap) - 1 → (s.leaf lpa).bitmap.testBit i = true) ∧
      (s'.leaf lpa).entAt (bitScan (bnot32 (s.leaf lpa).bitmap) - 1) = ⟨key, ptr⟩ ∧
      (s'.leaf lpa).bitmap.testBit (bitScan (bnot32 (s.leaf lpa).bitmap) - 1) = true ∧
      (∀ e, (s'.leaf lpa).live e ↔ ((s.leaf lpa).live e ∨ e = ⟨key, ptr⟩)) ∧
      countBit (s'.leaf lpa).bitmap = countBit (s.leaf lpa).bitmap + 1 ∧
      (s'.leaf lpa).lock = 0 ∧
      (3 ≤ bitScan (bnot32 (s.leaf lpa).bitmap) - 1 →
        ∀ (lp1 : bleaf) (m1 : bleafMeta), lp1.ent.length = 14 →
          (moveLoop (last_slot_in_line (bitScan (bnot32 (s.leaf lpa).bitmap) - 1))
            (last_slot_in_line (bitScan (bnot32 (s.leaf lpa).bitmap) - 1)
              - (bitScan (bnot32 (s.leaf lpa).bitmap) - 1))
            (bitScan (bnot32 (s.leaf lpa).bitmap) - 1 + 1) 0
            (((s.leaf lpa).bitmap ||| (1 <<< (bitScan (bnot32 (s.leaf lpa).bitmap) - 1))) % 2 ^ 16)
            lp1 m1).2.2.2 ≤ 3 ∧
          ∀ f, f < 3 → (s.leaf lpa).bitmap.testBit f = true) := by
  refine ⟨_, insert_nonfull s key ptr lpa h hd hnf hk, rfl, rfl, rfl, rfl, ?_, ?_⟩
  · intro a ha
    rw [State.leaf_setLeaf_other _ _ _ _ ha, State.leaf_setLeaf_other _ _ _ _ ha]
  · obtain ⟨hs14, hsclr, hsall⟩ := lowest_clear _ hbm hnf
    obtain ⟨c1, c2, c3, c4, _, _, _, c8, _⟩ :=
      leafPut_spec { s.leaf lpa with lock := 1 }
        { ({ s.leaf lpa with lock := 1 } : bleaf).getMeta with lock := 0 } key ptr (hashcode1B key)
        rfl hbm hlen hnf
    rw [State.leaf_setLeaf_same]
    refine ⟨hs14, hsclr, hsall, c1, c2, c3, c4, c8, ?_⟩
    intro h3 lp1 m1 hl1
    obtain ⟨hl, hl2, hl3⟩ := last_slot_in_line_bounds _ h3 hs14
    have hsrc : ∀ f, f < 3 → (s.leaf lpa).bitmap.testBit f = true := fun f hf => hsall f (by omega)
    refine ⟨?_, hsrc⟩
    have := moveLoop_spec _ hl2 (last_slot_in_line (bitScan (bnot32 (s.leaf lpa).bitmap) - 1)
              - (bitScan (bnot32 (s.leaf lpa).bitmap) - 1))
            (bitScan (bnot32 (s.leaf lpa).bitmap) - 1 + 1) 0
            (((s.leaf lpa).bitmap ||| (1 <<< (bitScan (bnot32 (s.leaf lpa).bitmap) - 1))) % 2 ^ 16)
            lp1 m1 (setBit_lt _ _ hbm hs14) hl1 (by omega) (by omega) (by omega)
            (by
              intro f _ hf
              rw [testBit_setBit _ _ f hbm hs14, hsrc f hf]; simp)
    omega

end LBTree


namespace LBTree

/-! ## `qsortBleaf` sorts -/

theorem posAt_set (pos : List Nat) (l i : Int) (x : Nat) (hl0 : 0 ≤ l)
    (hl : l.toNat < pos.length) (hi0 : 0 ≤ i) :
    posAt (pos.set l.toNat x) i = if i = l then x else posAt pos i := by
  unfold posAt
  by_cases h : i = l
  · subst h; simp [List.getD_eq_getElem?_getD, hl]
  · have h' : ¬ l.toNat = i.toNat := by omega
    simp [List.getD_eq_getElem?_getD, List.getElem?_set, h, h']

theorem scanDown_spec (p : bleaf) (pos : List Nat) (key : Int) (l : Int) :
    ∀ (fuel : Nat) (r : Int), l ≤ r → (r - l).toNat ≤ fuel →
    l ≤ scanDown p pos key l fuel r ∧ scanDown p pos key l fuel r ≤ r ∧
    (∀ i, scanDown p pos key l fuel r < i → i ≤ r → p.k (posAt pos i) > key) ∧
    (l < scanDown p pos key l fuel r → p.k (posAt pos (scanDown p pos key l fuel r)) ≤ key) := by
  intro fuel
  induction fuel with
  | zero =>
    intro r h1 h2
    have : r = l := by omega
    subst this
    exact ⟨le_refl _, le_refl _, fun i h3 h4 => by simp only [scanDown] at h3; omega,
      fun h => by simp only [scanDown] at h; omega⟩
  | succ n ih =>
    intro r h1 h2
    by_cases hc : l < r ∧ p.k (posAt pos r) > key
    · have hstep : scanDown p pos key l (n + 1) r = scanDown p pos key l n (r - 1) := by
        simp only [scanDown, hc, and_self, if_true]
      rw [hstep]
      obtain ⟨c1, c2, c3, c4⟩ := ih (r - 1) (by omega) (by omega)
      refine ⟨c1, by omega, fun i h3 h4 => ?_, c4⟩
      by_cases hir : i = r
      · subst hir; exact hc.2
      · exact c3 i h3 (by omega)
    · have hstep : scanDown p pos key l (n + 1) r = r := by
        simp only [scanDown, hc, if_false]
      rw [hstep]
      refine ⟨h1, le_refl _, fun i h3 h4 => by omega, fun h => ?_⟩
      by_contra hk
      exact hc ⟨h, not_le.1 hk⟩

theorem scanUp_spec (p : bleaf) (pos : List Nat) (key : Int) (r : Int) :
    ∀ (fuel : Nat) (l : Int), l ≤ r → (r - l).toNat ≤ fuel →
    l ≤ scanUp p pos key r fuel l ∧ scanUp p pos key r fuel l ≤ r ∧
    (∀ i, l ≤ i → i < scanUp p pos key r fuel l → p.k (posAt pos i) ≤ key) ∧
    (scanUp p pos key r fuel l < r → p.k (posAt pos (scanUp p pos key r fuel l)) > key) := by
  intro fuel
  induction fuel with
  | zero =>
    intro l h1 h2
    have : r = l := by omega
    subst this
    exact ⟨le_refl _, le_refl _, fun i h3 h4 => by simp only [scanUp] at h4; omega,
      fun h => by simp only [scanUp] at h; omega⟩
  | succ n ih =>
    intro l h1 h2
    by_cases hc : l < r ∧ p.k (posAt pos l) ≤ key
    · have hstep : scanUp p pos key r (n + 1) l = scanUp p pos key r n (l + 1) := by
        simp only [scanUp, hc, and_self, if_true]
      rw [hstep]
      obtain ⟨c1, c2, c3, c4⟩ := ih (l + 1) (by omega) (by omega)
      refine ⟨by omega, c2, fun i h3 h4 => ?_, c4⟩
      by_cases hil : i = l
      · subst hil; exact hc.2
      · exact c3 i (by omega) h4
    · have hstep : scanUp p pos key r (n + 1) l = l := by
        simp only [scanUp, hc, if_false]
      rw [hstep]
      refine ⟨le_refl _, h1, fun i h3 h4 => by omega, fun h => ?_⟩
      by_contra hk
      exact hc ⟨h, not_lt.1 hk⟩

end LBTree


namespace LBTree

/-- One round of the partition loop keeps the invariant and shrinks the gap `r - l`. -/
theorem partition_round (p : bleaf) (key : Int) (v : Nat) (a b : Int) (pos0 pos : List Nat)
    (l r : Int) (ha : 0 ≤ a) (hb : b.toNat < pos0.length) (hlr : l < r)
    (inv : PartInv p key v a b pos0 pos l r) :
    ∃ l2 r2 pos2,
      (let r1 := scanDown p pos key l (r - l).toNat r
       let lp1 : Int × List Nat := if l < r1 then (l + 1, pos.set l.toNat (posAt pos r1)) else (l, pos)
       let l2 := scanUp p lp1.2 key r1 (r1 - lp1.1).toNat lp1.1
       let rp2 : Int × List Nat :=
         if l2 < r1 then (r1 - 1, lp1.2.set r1.toNat (posAt lp1.2 l2)) else (r1, lp1.2)
       (l2, rp2.1, rp2.2)) = (l2, r2, pos2) ∧
      PartInv p key v a b pos0 pos2 l2 r2 ∧ r2 - l2 < r - l := by
  obtain ⟨i1, i2, i3, ilen, ileft, iright, iout, i3h, i4h⟩ := inv
  obtain ⟨d1, d2, d3, d4⟩ := scanDown_spec p pos key l (r - l).toNat r (le_of_lt hlr) (le_refl _)
  generalize scanDown p pos key l (r - l).toNat r = r1 at d1 d2 d3 d4
  have hlenb : b.toNat < pos.length := by rw [ilen]; exact hb
  by_cases hm1 : l < r1
  · -- first move: pos[l] = pos[r1], the hole goes to r1
    simp only [hm1, if_true]
    have hk1 := d4 hm1
    have hset1 : ∀ i, 0 ≤ i → posAt (pos.set l.toNat (posAt pos r1)) i
        = if i = l then posAt pos r1 else posAt pos i :=
      fun i hi => posAt_set pos l i _ (by omega) (by omega) hi
    have hlen1 : (pos.set l.toNat (posAt pos r1)).length = pos.length := by simp
    obtain ⟨u1, u2, u3, u4⟩ :=
      scanUp_spec p (pos.set l.toNat (posAt pos r1)) key r1 (r1 - (l + 1)).toNat (l + 1)
        (by omega) (le_refl _)
    generalize scanUp p (pos.set l.toNat (posAt pos r1)) key r1 (r1 - (l + 1)).toNat (l + 1) = l2
      at u1 u2 u3 u4
    -- facts about pos1 with the hole at r1
    have left1 : ∀ i, a ≤ i → i < l2 → p.k (posAt (pos.set l.toNat (posAt pos r1)) i) ≤ key := by
      intro i h1 h2
      by_cases hil : i < l + 1
      · rw [hset1 i (by omega)]
        by_cases hie : i = l
        · rw [if_pos hie]; exact hk1
        · rw [if_neg hie]; exact ileft i h1 (by omega)
      · exact u3 i (by omega) h2
    have right1 : ∀ i, r1 < i → i ≤ b → p.k (posAt (pos.set l.toNat (posAt pos r1)) i) > key := by
      intro i h1 h2
      rw [hset1 i (by omega), if_neg (by omega)]
      by_cases hir : i ≤ r
      · exact d3 i h1 hir
      · exact iright i (by omega) h2
    have out1 : ∀ i, 0 ≤ i → (i < a ∨ b < i) →
        posAt (pos.set l.toNat (posAt pos r1)) i = posAt pos0 i := by
      intro i h0 h
      rw [hset1 i h0, if_neg (by omega)]
      exact iout i h0 h
    have h3h1 : ∀ i, a ≤ i → i ≤ b → i ≠ r1 →
        ∃ j, a ≤ j ∧ j ≤ b ∧ posAt (pos.set l.toNat (posAt pos r1)) i = posAt pos0 j := by
      intro i h1 h2 h3
      rw [hset1 i (by omega)]
      by_cases hie : i = l
      · rw [if_pos hie]; exact i3h r1 (by omega) (by omega) (by omega)
      · rw [if_neg hie]; exact i3h i h1 h2 hie
    have h4h1 : ∀ j, a ≤ j → j ≤ b → posAt pos0 j = v ∨
        ∃ i, a ≤ i ∧ i ≤ b ∧ i ≠ r1 ∧ posAt (pos.set l.toNat (posAt pos r1)) i = posAt pos0 j := by
      intro j h1 h2
      rcases i4h j h1 h2 with h | ⟨i, g1, g2, g3, g4⟩
      · left; exact h
      · right
        by_cases hir : i = r1
        · subst hir
          exact ⟨l, by omega, by omega, by omega, by rw [hset1 l (by omega), if_pos rfl]; exact g4⟩
        · exact ⟨i, g1, g2, hir, by rw [hset1 i (by omega), if_neg g3]; exact g4⟩
    by_cases hm2 : l2 < r1
    · -- second move: pos[r1] = pos[l2], the hole goes to l2
      simp only [hm2, if_true]
      have hk2 := u4 hm2
      have hset2 : ∀ i, 0 ≤ i →
          posAt ((pos.set l.toNat (posAt pos r1)).set r1.toNat
            (posAt (pos.set l.toNat (posAt pos r1)) l2)) i
          = if i = r1 then posAt (pos.set l.toNat (posAt pos r1)) l2
            else posAt (pos.set l.toNat (posAt pos r1)) i :=
        fun i hi => posAt_set _ r1 i _ (by omega) (by rw [hlen1]; omega) hi
      refine ⟨l2, r1 - 1, _, rfl, ⟨by omega, by omega, by omega, by simp [ilen], ?_, ?_, ?_, ?_, ?_⟩,
        by omega⟩
      · intro i h1 h2
        rw [hset2 i (by omega), if_neg (by omega)]
        exact left1 i h1 h2
      · intro i h1 h2
        rw [hset2 i (by omega)]
        by_cases hie : i = r1
        · rw [if_pos hie]; exact hk2
        · rw [if_neg hie]; exact right1 i (by omega) h2
      · intro i h0 h
        rw [hset2 i h0, if_neg (by omega)]
        exact out1 i h0 h
      · intro i h1 h2 h3
        rw [hset2 i (by omega)]
        by_cases hie : i = r1
        · rw [if_pos hie]; exact h3h1 l2 (by omega) (by omega) (by omega)
        · rw [if_neg hie]; exact h3h1 i h1 h2 hie
      · intro j h1 h2
        rcases h4h1 j h1 h2 with h | ⟨i, g1, g2, g3, g4⟩
        · left; exact h
        · right
          by_cases hil : i = l2
          · subst hil
            exact ⟨r1, by omega, by omega, by omega, by rw [hset2 r1 (by omega), if_pos rfl]; exact g4⟩
          · exact ⟨i, g1, g2, hil, by rw [hset2 i (by omega), if_neg g3]; exact g4⟩
    · -- no second move: l2 = r1, the hole stays at r1
      simp only [hm2, if_false]
      have hl2 : l2 = r1 := by omega
      subst hl2
      refine ⟨l2, l2, _, rfl, ⟨by omega, le_refl _, by omega, by simp [ilen], left1, right1, out1,
        h3h1, h4h1⟩, by omega⟩
  · -- no first move: r1 = l, the hole stays at l
    simp only [hm1, if_false]
    have hr1 : r1 = l := by omega
    subst hr1
    have hup : scanUp p pos key r1 (r1 - r1).toNat r1 = r1 := by
      simp [scanUp]
    rw [hup]
    simp only [lt_irrefl, if_false]
    refine ⟨r1, r1, pos, rfl, ⟨i1, le_refl _, by omega, ilen, ileft, ?_, iout, i3h, i4h⟩, by omega⟩
    intro i h1 h2
    by_cases hir : i ≤ r
    · exact d3 i h1 hir
    · exact iright i (by omega) h2

theorem partitionLoop_succ (p : bleaf) (key : Int) (fuel : Nat) (l r : Int) (pos : List Nat)
    (hlr : l < r) :
    partitionLoop p key (fuel + 1) l r pos =
      (let r1 := scanDown p pos key l (r - l).toNat r
       let lp1 : Int × List Nat := if l < r1 then (l + 1, pos.set l.toNat (posAt pos r1)) else (l, pos)
       let l2 := scanUp p lp1.2 key r1 (r1 - lp1.1).toNat lp1.1
       let rp2 : Int × List Nat :=
         if l2 < r1 then (r1 - 1, lp1.2.set r1.toNat (posAt lp1.2 l2)) else (r1, lp1.2)
       partitionLoop p key fuel l2 rp2.1 rp2.2) := by
  simp only [partitionLoop, hlr, if_true]

/-- The partition loop ends with `l = r` and the invariant. -/
theorem partitionLoop_spec (p : bleaf) (key : Int) (v : Nat) (a b : Int) (pos0 : List Nat)
    (ha : 0 ≤ a) (hb : b.toNat < pos0.length) :
    ∀ (fuel : Nat) (l r : Int) (pos : List Nat), (r - l).toNat ≤ fuel →
    PartInv p key v a b pos0 pos l r →
    PartInv p key v a b pos0 (partitionLoop p key fuel l r pos).2
      (partitionLoop p key fuel l r pos).1 (partitionLoop p key fuel l r pos).1 := by
  intro fuel
  induction fuel with
  | zero =>
    intro l r pos hf inv
    have hlr : l = r := by have := inv.2.1; omega
    subst hlr
    exact inv
  | succ n ih =>
    intro l r pos hf inv
    by_cases hlr : l < r
    · obtain ⟨l2, r2, pos2, heq, inv2, hlt⟩ := partition_round p key v a b pos0 pos l r ha hb hlr inv
      rw [partitionLoop_succ p key n l r pos hlr]
      simp only [Prod.mk.injEq] at heq
      obtain ⟨e1, e2, e3⟩ := heq
      subst e1 e2 e3
      exact ih _ _ _ (by omega) inv2
    · have hlr' : l = r := by have := inv.2.1; omega
      subst hlr'
      have : partitionLoop p key (n + 1) l l pos = (l, pos) := by
        simp [partitionLoop]
      rw [this]
      exact inv

end LBTree


namespace LBTree

theorem partInv_init (p : bleaf) (key : Int) (a b : Int) (pos0 : List Nat) (hab : a ≤ b) :
    PartInv p key (posAt pos0 a) a b pos0 pos0 a b := by
  refine ⟨le_refl _, hab, le_refl _, rfl, fun i h1 h2 => by omega, fun i h1 h2 => by omega,
    fun i _ _ => rfl, fun i h1 h2 _ => ⟨i, h1, h2, rfl⟩, fun j h1 h2 => ?_⟩
  by_cases hj : j = a
  · left; rw [hj]
  · right; exact ⟨j, h1, h2, hj, rfl⟩

theorem qsortBleaf_succ (p : bleaf) (fuel : Nat) (a b : Int) (pos : List Nat) (hab : ¬ a ≥ b) :
    qsortBleaf p (fuel + 1) a b pos =
      qsortBleaf p fuel ((partitionLoop p (p.k (posAt pos a)) (b - a).toNat a b pos).1 + 1) b
        (qsortBleaf p fuel a ((partitionLoop p (p.k (posAt pos a)) (b - a).toNat a b pos).1 - 1)
          ((partitionLoop p (p.k (posAt pos a)) (b - a).toNat a b pos).2.set
            (partitionLoop p (p.k (posAt pos a)) (b - a).toNat a b pos).1.toNat (posAt pos a))) := by
  simp only [qsortBleaf, hab, if_false]

theorem sortedRange_trivial (p : bleaf) (a b : Int) (pos : List Nat) (hab : a ≥ b) :
    SortedRange p a b pos pos := by
  refine ⟨rfl, fun _ _ _ => rfl, fun i h1 h2 => ⟨i, h1, h2, rfl⟩, fun j h1 h2 => ⟨j, h1, h2, rfl⟩,
    fun i j h1 h2 h3 => ?_⟩
  have : i = j := by omega
  rw [this]

/-- `qsortBleaf(p, a, b, pos)` sorts `pos[a..b]` by key and touches nothing else. -/
theorem qsortBleaf_spec (p : bleaf) : ∀ (fuel : Nat) (a b : Int) (pos0 : List Nat),
    0 ≤ a → b.toNat < pos0.length → (b - a + 1).toNat ≤ fuel →
    SortedRange p a b pos0 (qsortBleaf p fuel a b pos0) := by
  intro fuel
  induction fuel with
  | zero =>
    intro a b pos0 _ _ hf
    exact sortedRange_trivial p a b pos0 (by omega)
  | succ n ih =>
    intro a b pos0 ha hb hf
    by_cases hab : a ≥ b
    · have : qsortBleaf p (n + 1) a b pos0 = pos0 := by simp [qsortBleaf, hab]
      rw [this]
      exact sortedRange_trivial p a b pos0 hab
    · rw [qsortBleaf_succ p n a b pos0 hab]
      have inv := partitionLoop_spec p (p.k (posAt pos0 a)) (posAt pos0 a) a b pos0 ha hb
        (b - a).toNat a b pos0 (le_refl _) (partInv_init p _ a b pos0 (by omega))
      generalize partitionLoop p (p.k (posAt pos0 a)) (b - a).toNat a b pos0 = res at inv
      obtain ⟨l, pos1⟩ := res
      simp only at inv ⊢
      obtain ⟨i1, _, i3, ilen, ileft, iright, iout, i3h, i4h⟩ := inv
      have hl1 : l.toNat < pos1.length := by rw [ilen]; omega
      have hset : ∀ i, 0 ≤ i → posAt (pos1.set l.toNat (posAt pos0 a)) i
          = if i = l then posAt pos0 a else posAt pos1 i :=
        fun i hi => posAt_set pos1 l i _ (by omega) hl1 hi
      have hlen2 : (pos1.set l.toNat (posAt pos0 a)).length = pos0.length := by simp [ilen]
      -- the two recursive calls
      have L := ih a (l - 1) (pos1.set l.toNat (posAt pos0 a)) ha (by rw [hlen2]; omega) (by omega)
      generalize qsortBleaf p n a (l - 1) (pos1.set l.toNat (posAt pos0 a)) = pos3 at L
      obtain ⟨Llen, Lout, L3, L4, Lsort⟩ := L
      have R := ih (l + 1) b pos3 (by omega) (by rw [Llen, hlen2]; exact hb) (by omega)
      generalize qsortBleaf p n (l + 1) b pos3 = pos4 at R
      obtain ⟨Rlen, Rout, R3, R4, Rsort⟩ := R
      -- facts about the partitioned array
      have A1 : ∀ i, a ≤ i → i < l → p.k (posAt (pos1.set l.toNat (posAt pos0 a)) i)
          ≤ p.k (posAt pos0 a) := by
        intro i h1 h2
        rw [hset i (by omega), if_neg (by omega)]; exact ileft i h1 h2
      have A2 : ∀ i, l < i → i ≤ b → p.k (posAt (pos1.set l.toNat (posAt pos0 a)) i)
          > p.k (posAt pos0 a) := by
        intro i h1 h2
        rw [hset i (by omega), if_neg (by omega)]; exact iright i h1 h2
      have A3 : posAt (pos1.set l.toNat (posAt pos0 a)) l = posAt pos0 a := by
        rw [hset l (by omega), if_pos rfl]
      have A4 : ∀ i, 0 ≤ i → (i < a ∨ b < i) →
          posAt (pos1.set l.toNat (posAt pos0 a)) i = posAt pos0 i := by
        intro i h0 h
        rw [hset i h0, if_neg (by omega)]; exact iout i h0 h
      have A5 : ∀ i, a ≤ i → i ≤ b →
          ∃ j, a ≤ j ∧ j ≤ b ∧ posAt (pos1.set l.toNat (posAt pos0 a)) i = posAt pos0 j := by
        intro i h1 h2
        by_cases hil : i = l
        · rw [hil, A3]; exact ⟨a, le_refl _, by omega, rfl⟩
        · rw [hset i (by omega), if_neg hil]; exact i3h i h1 h2 hil
      have A6 : ∀ j, a ≤ j → j ≤ b →
          ∃ i, a ≤ i ∧ i ≤ b ∧ posAt (pos1.set l.toNat (posAt pos0 a)) i = posAt pos0 j := by
        intro j h1 h2
        rcases i4h j h1 h2 with h | ⟨i, g1, g2, g3, g4⟩
        · exact ⟨l, i1, i3, by rw [A3, h]⟩
        · exact ⟨i, g1, g2, by rw [hset i (by omega), if_neg g3]; exact g4⟩
      -- positions of the final array
      have F_left : ∀ i, a ≤ i → i ≤ l - 1 → posAt pos4 i = posAt pos3 i :=
        fun i h1 h2 => Rout i (by omega) (Or.inl (by omega))
      have F_mid : posAt pos4 l = posAt pos0 a := by
        rw [Rout l (by omega) (Or.inl (by omega)), Lout l (by omega) (Or.inr (by omega)), A3]
      have F_right : ∀ j, l + 1 ≤ j → posAt pos3 j = posAt (pos1.set l.toNat (posAt pos0 a)) j :=
        fun j h1 => Lout j (by omega) (Or.inr (by omega))
      have KL : ∀ i, a ≤ i → i ≤ l - 1 → p.k (posAt pos4 i) ≤ p.k (posAt pos0 a) := by
        intro i h1 h2
        obtain ⟨j, g1, g2, g3⟩ := L3 i h1 h2
        rw [F_left i h1 h2, g3]; exact A1 j g1 (by omega)
      have KR : ∀ i, l + 1 ≤ i → i ≤ b → p.k (posAt pos4 i) > p.k (posAt pos0 a) := by
        intro i h1 h2
        obtain ⟨j, g1, g2, g3⟩ := R3 i h1 h2
        rw [g3, F_right j g1]; exact A2 j (by omega) g2
      refine ⟨by rw [Rlen, Llen, hlen2], ?_, ?_, ?_, ?_⟩
      · intro i h0 h
        rw [Rout i h0 (by omega), Lout i h0 (by omega)]; exact A4 i h0 h
      · intro i h1 h2
        by_cases c1 : i ≤ l - 1
        · obtain ⟨j, g1, g2, g3⟩ := L3 i h1 c1
          obtain ⟨j', g1', g2', g3'⟩ := A5 j g1 (by omega)
          exact ⟨j', g1', g2', by rw [F_left i h1 c1, g3, g3']⟩
        · by_cases c2 : i = l
          · rw [c2, F_mid]; exact ⟨a, le_refl _, by omega, rfl⟩
          · obtain ⟨j, g1, g2, g3⟩ := R3 i (by omega) h2
            obtain ⟨j', g1', g2', g3'⟩ := A5 j (by omega) g2
            exact ⟨j', g1', g2', by rw [g3, F_right j g1, g3']⟩
      · intro j h1 h2
        obtain ⟨i, g1, g2, g3⟩ := A6 j h1 h2
        by_cases c1 : i ≤ l - 1
        · obtain ⟨i', e1, e2, e3⟩ := L4 i g1 c1
          exact ⟨i', e1, by omega, by rw [F_left i' e1 e2, e3, g3]⟩
        · by_cases c2 : i = l
          · subst c2
            exact ⟨i, g1, g2, by rw [F_mid, ← A3]; exact g3⟩
          · obtain ⟨i', e1, e2, e3⟩ := R4 i (by omega) g2
            exact ⟨i', by omega, e2, by rw [e3, F_right i (by omega), g3]⟩
      · intro i j h1 h2 h3
        by_cases ci : i ≤ l - 1
        · by_cases cj : j ≤ l - 1
          · rw [F_left i h1 ci, F_left j (by omega) cj]; exact Lsort i j h1 h2 cj
          · by_cases cj2 : j = l
            · rw [cj2, F_mid]; exact KL i h1 ci
            · exact le_of_lt (lt_of_le_of_lt (KL i h1 ci) (KR j (by omega) h3))
        · by_cases ci2 : i = l
          · by_cases cj2 : j = l
            · rw [ci2, cj2]
            · rw [ci2, F_mid]; exact le_of_lt (KR j (by omega) h3)
          · exact Rsort i j (by omega) h2 h3

end LBTree


namespace LBTree

/-! ## The sorted slot order used by the leaf split -/

theorem posAt_range (n : Nat) (i : Int) (_h0 : 0 ≤ i) (h1 : i.toNat < n) :
    posAt (List.range n) i = i.toNat := by
  unfold posAt
  rw [List.getD_eq_getElem?_getD, List.getElem?_range h1]
  rfl

/-- The result of `qsortBleaf(lp, 0, 13, sorted_pos)` on the identity array:
a bijection of the slots `0..13` along which the keys ascend. -/
theorem sorted_pos_spec (lp : bleaf) :
    (∀ i : Int, 0 ≤ i → i ≤ 13 →
        posAt (qsortBleaf lp 14 0 13 (List.range 14)) i < 14) ∧
    (∀ j : Nat, j < 14 → ∃ i : Int, 0 ≤ i ∧ i ≤ 13 ∧
        posAt (qsortBleaf lp 14 0 13 (List.range 14)) i = j) ∧
    (∀ i j : Int, 0 ≤ i → i ≤ j → j ≤ 13 →
        lp.k (posAt (qsortBleaf lp 14 0 13 (List.range 14)) i)
          ≤ lp.k (posAt (qsortBleaf lp 14 0 13 (List.range 14)) j)) ∧
    (∀ i j : Int, 0 ≤ i → i ≤ 13 → 0 ≤ j → j ≤ 13 →
        posAt (qsortBleaf lp 14 0 13 (List.range 14)) i
          = posAt (qsortBleaf lp 14 0 13 (List.range 14)) j → i = j) := by
  obtain ⟨_, _, h3, h4, h5⟩ :=
    qsortBleaf_spec lp 14 0 13 (List.range 14) (le_refl _) (by simp) (by decide)
  generalize qsortBleaf lp 14 0 13 (List.range 14) = sp at h3 h4 h5
  have hlt : ∀ i : Int, 0 ≤ i → i ≤ 13 → posAt sp i < 14 := by
    intro i h0 h1
    obtain ⟨j, g1, g2, g3⟩ := h3 i h0 h1
    rw [g3, posAt_range 14 j g1 (by omega)]; omega
  have hsurj : ∀ j : Nat, j < 14 → ∃ i : Int, 0 ≤ i ∧ i ≤ 13 ∧ posAt sp i = j := by
    intro j hj
    obtain ⟨i, g1, g2, g3⟩ := h4 (j : Int) (by omega) (by omega)
    refine ⟨i, g1, g2, ?_⟩
    rw [g3, posAt_range 14 _ (by omega) (by omega)]; simp
  refine ⟨hlt, hsurj, h5, ?_⟩
  -- a surjection of a 14-element set onto itself is injective
  let f : Fin 14 → Fin 14 := fun x => ⟨posAt sp (x.val : Int), hlt _ (by omega) (by omega)⟩
  have fsurj : Function.Surjective f := by
    intro y
    obtain ⟨i, g1, g2, g3⟩ := hsurj y.val y.isLt
    refine ⟨⟨i.toNat, by omega⟩, ?_⟩
    apply Fin.ext
    show posAt sp ((i.toNat : Nat) : Int) = y.val
    rw [Int.toNat_of_nonneg g1]; exact g3
  have finj : Function.Injective f := Finite.injective_iff_surjective.2 fsurj
  intro i j hi0 hi1 hj0 hj1 heq
  have := @finj ⟨i.toNat, by omega⟩ ⟨j.toNat, by omega⟩ (by
    apply Fin.ext
    show posAt sp ((i.toNat : Nat) : Int) = posAt sp ((j.toNat : Nat) : Int)
    rw [Int.toNat_of_nonneg hi0, Int.toNat_of_nonneg hj0]; exact heq)
  have := congrArg Fin.val this
  simp only at this
  omega

/-! ## Moving the upper half into the new leaf -/

theorem bleaf.entAt_set (ent : List IdxEntry) (t i : Nat) (e : IdxEntry) (ht : t < ent.length) :
    (ent.set t e).getD i default = if i = t then e else ent.getD i default := by
  by_cases h : i = t
  · subst h; simp [List.getD_eq_getElem?_getD, ht]
  · have h' : ¬ t = i := fun hh => h hh.symm
    simp [List.getD_eq_getElem?_getD, List.getElem?_set, h, h']

theorem natList_getD_set (l : List Nat) (t i : Nat) (x : Nat) (ht : t < l.length) :
    (l.set t x).getD i 0 = if i = t then x else l.getD i 0 := by
  by_cases h : i = t
  · subst h; simp [List.getD_eq_getElem?_getD, ht]
  · have h' : ¬ t = i := fun hh => h hh.symm
    simp [List.getD_eq_getElem?_getD, List.getElem?_set, h, h']

theorem moveToNew_spec (lp : bleaf) (sp : List Nat) (hsp : ∀ i, i < 14 → sp.getD i 0 < 14) :
    ∀ (fuel i : Nat) (newp : bleaf) (freed : Nat),
    i + fuel = 14 → newp.ent.length = 14 → newp.fgpt.length = 14 → freed < 2 ^ 14 →
    (moveToNew lp sp fuel i newp freed).1.ent.length = 14 ∧
    (moveToNew lp sp fuel i newp freed).1.fgpt.length = 14 ∧
    (moveToNew lp sp fuel i newp freed).1.next = newp.next ∧
    (moveToNew lp sp fuel i newp freed).2 < 2 ^ 14 ∧
    (∀ j, (moveToNew lp sp fuel i newp freed).1.entAt j
        = if i ≤ j ∧ j < 14 then lp.entAt (sp.getD j 0) else newp.entAt j) ∧
    (∀ j, (moveToNew lp sp fuel i newp freed).1.fg j
        = if i ≤ j ∧ j < 14 then lp.fg (sp.getD j 0) else newp.fg j) ∧
    (∀ b, (moveToNew lp sp fuel i newp freed).2.testBit b = true ↔
        (freed.testBit b = true ∨ ∃ j, i ≤ j ∧ j < 14 ∧ sp.getD j 0 = b)) := by
  intro fuel
  induction fuel with
  | zero =>
    intro i newp freed hi hl1 hl2 hf
    have : i = 14 := by omega
    subst this
    refine ⟨hl1, hl2, rfl, hf, fun j => ?_, fun j => ?_, fun b => ?_⟩
    · have : ¬ (14 ≤ j ∧ j < 14) := by omega
      simp only [moveToNew, this, if_false]
    · have : ¬ (14 ≤ j ∧ j < 14) := by omega
      simp only [moveToNew, this, if_false]
    · simp only [moveToNew]
      constructor
      · intro h; left; exact h
      · rintro (h | ⟨j, h1, h2, _⟩)
        · exact h
        · omega
  | succ n ih =>
    intro i newp freed hi hl1 hl2 hf
    have hi14 : i < 14 := by omega
    have hstep : moveToNew lp sp (n + 1) i newp freed =
        moveToNew lp sp n (i + 1)
          { newp with ent := newp.ent.set i (lp.entAt (sp.getD i 0)),
                      fgpt := newp.fgpt.set i (lp.fg (sp.getD i 0)) }
          ((freed ||| (1 <<< sp.getD i 0)) % 2 ^ 16) := by
      simp [moveToNew, LEAF_KEY_NUM, hi14]
    rw [hstep]
    obtain ⟨c1, c2, c3, c4, c5, c6, c7⟩ :=
      ih (i + 1)
        { newp with ent := newp.ent.set i (lp.entAt (sp.getD i 0)),
                    fgpt := newp.fgpt.set i (lp.fg (sp.getD i 0)) }
        ((freed ||| (1 <<< sp.getD i 0)) % 2 ^ 16) (by omega) (by simp [hl1]) (by simp [hl2])
        (setBit_lt freed _ hf (hsp i hi14))
    refine ⟨c1, c2, c3, c4, fun j => ?_, fun j => ?_, fun b => ?_⟩
    · rw [c5 j]
      by_cases hj : i + 1 ≤ j ∧ j < 14
      · have : i ≤ j ∧ j < 14 := by omega
        simp only [hj, this, and_self, if_true]
      · simp only [hj, if_false]
        show (newp.ent.set i (lp.entAt (sp.getD i 0))).getD j default = _
        rw [bleaf.entAt_set _ _ _ _ (by omega)]
        by_cases hji : j = i
        · subst hji
          have : j ≤ j ∧ j < 14 := by omega
          simp only [this, and_self, if_true]
        · have : ¬ (i ≤ j ∧ j < 14) := by omega
          simp only [hji, this, if_false]; rfl
    · rw [c6 j]
      by_cases hj : i + 1 ≤ j ∧ j < 14
      · have : i ≤ j ∧ j < 14 := by omega
        simp only [hj, this, and_self, if_true]
      · simp only [hj, if_false]
        show (newp.fgpt.set i (lp.fg (sp.getD i 0))).getD j 0 = _
        rw [natList_getD_set _ _ _ _ (by omega)]
        by_cases hji : j = i
        · subst hji
          have : j ≤ j ∧ j < 14 := by omega
          simp only [this, and_self, if_true]
        · have : ¬ (i ≤ j ∧ j < 14) := by omega
          simp only [hji, this, if_false]; rfl
    · rw [c7 b, testBit_setBit freed _ b hf (hsp i hi14)]
      simp only [Bool.or_eq_true, decide_eq_true_eq]
      constructor
      · rintro ((h | h) | ⟨j, h1, h2, h3⟩)
        · left; exact h
        · right; exact ⟨i, le_refl _, hi14, h.symm⟩
        · right; exact ⟨j, by omega, h2, h3⟩
      · rintro (h | ⟨j, h1, h2, h3⟩)
        · left; left; exact h
        · by_cases hji : j = i
          · subst hji; left; right; exact h3.symm
          · right; exact ⟨j, by omega, h2, h3⟩

end LBTree


namespace LBTree

/-! ## C8: the leaf split -/

theorem leafSplit_key (lp new0 : bleaf) (newa : Nat) (root_level key : Int) (ptr hash : Nat) :
    (leafSplit lp new0 newa root_level key ptr hash).split_key = splitKey lp := rfl

theorem leafSplit_gt (lp new0 : bleaf) (newa : Nat) (root_level key : Int) (ptr hash : Nat)
    (hgt : key > splitKey lp) :
    (leafSplit lp new0 newa root_level key ptr hash).lp =
      { lp with next := lp.next.set (1 - lp.alt) newa,
                bitmap := lp.bitmap &&& bnot32 (splitMove lp new0).2,
                lock := if root_level > 0 then 0 else lp.lock,
                alt := 1 - lp.alt } ∧
    (leafSplit lp new0 newa root_level key ptr hash).newp =
      { bitmap := ((((1 <<< (LEAF_KEY_NUM - LEAF_KEY_NUM / 2)) - 1) <<< (LEAF_KEY_NUM / 2)) % 2 ^ 14
                    ||| (1 <<< (LEAF_KEY_NUM / 2 - 1))) % 2 ^ 14,
        lock := 0, alt := 0,
        fgpt := (splitMove lp new0).1.fgpt.set (LEAF_KEY_NUM / 2 - 1) hash,
        ent := (splitMove lp new0).1.ent.set (LEAF_KEY_NUM / 2 - 1) ⟨key, ptr⟩,
        next := (splitMove lp new0).1.next.set 0 (lp.next.getD lp.alt 0) } := by
  have h1 : key > lp.k ((qsortBleaf lp LEAF_KEY_NUM 0 (LEAF_KEY_NUM - 1) (List.range LEAF_KEY_NUM)).getD
      (LEAF_KEY_NUM / 2) 0) := hgt
  have h2 : ¬ key ≤ lp.k ((qsortBleaf lp LEAF_KEY_NUM 0 (LEAF_KEY_NUM - 1) (List.range LEAF_KEY_NUM)).getD
      (LEAF_KEY_NUM / 2) 0) := not_le.2 hgt
  unfold leafSplit
  simp only [h1, h2, if_true, if_false]
  by_cases hr : root_level > 0
  · simp only [hr, if_true]; exact ⟨rfl, rfl⟩
  · simp only [hr, if_false]; exact ⟨rfl, rfl⟩

theorem leafSplit_le (lp new0 : bleaf) (newa : Nat) (root_level key : Int) (ptr hash : Nat)
    (hle : key ≤ splitKey lp) :
    (leafSplit lp new0 newa root_level key ptr hash).lp =
      leafPut ({ lp with next := lp.next.set (1 - lp.alt) newa,
                         bitmap := lp.bitmap &&& bnot32 (splitMove lp new0).2,
                         alt := 1 - lp.alt } : bleaf)
        { bitmap := lp.bitmap &&& bnot32 (splitMove lp new0).2,
          lock := if root_level > 0 then 0 else lp.lock, alt := 1 - lp.alt, fgpt := lp.fgpt }
        key ptr hash ∧
    (leafSplit lp new0 newa root_level key ptr hash).newp =
      { bitmap := (((1 <<< (LEAF_KEY_NUM - LEAF_KEY_NUM / 2)) - 1) <<< (LEAF_KEY_NUM / 2)) % 2 ^ 14,
        lock := 0, alt := 0,
        fgpt := (splitMove lp new0).1.fgpt,
        ent := (splitMove lp new0).1.ent,
        next := (splitMove lp new0).1.next.set 0 (lp.next.getD lp.alt 0) } := by
  have h1 : key ≤ lp.k ((qsortBleaf lp LEAF_KEY_NUM 0 (LEAF_KEY_NUM - 1) (List.range LEAF_KEY_NUM)).getD
      (LEAF_KEY_NUM / 2) 0) := hle
  have h2 : ¬ key > lp.k ((qsortBleaf lp LEAF_KEY_NUM 0 (LEAF_KEY_NUM - 1) (List.range LEAF_KEY_NUM)).getD
      (LEAF_KEY_NUM / 2) 0) := not_lt.2 hle
  unfold leafSplit
  simp only [h1, h2, if_true, if_false]
  by_cases hr : root_level > 0
  · simp only [hr, if_true]; exact ⟨rfl, rfl⟩
  · simp only [hr, if_false]; exact ⟨rfl, rfl⟩

theorem sortedPos_eq (lp : bleaf) : sortedPos lp = qsortBleaf lp 14 0 13 (List.range 14) := rfl

theorem sortedPos_getD (lp : bleaf) (j : Nat) :
    (sortedPos lp).getD j 0 = posAt (sortedPos lp) (j : Int) := by
  simp [posAt]

theorem testBit_3f80 (b : Nat) :
    (((((1 : Nat) <<< (LEAF_KEY_NUM - LEAF_KEY_NUM / 2)) - 1) <<< (LEAF_KEY_NUM / 2)) % 2 ^ 14).testBit b
      = decide (7 ≤ b ∧ b < 14) := by
  have h : ((((1 : Nat) <<< (LEAF_KEY_NUM - LEAF_KEY_NUM / 2)) - 1) <<< (LEAF_KEY_NUM / 2)) % 2 ^ 14
      = 0x3f80 := by decide
  rw [h]
  by_cases hb : b < 14
  · interval_cases b <;> decide
  · rw [testBit_lt14 _ b (by norm_num) (by omega)]
    have : ¬ (7 ≤ b ∧ b < 14) := by omega
    simp [this]

theorem testBit_3fc0 (b : Nat) :
    ((((((1 : Nat) <<< (LEAF_KEY_NUM - LEAF_KEY_NUM / 2)) - 1) <<< (LEAF_KEY_NUM / 2)) % 2 ^ 14
        ||| (1 <<< (LEAF_KEY_NUM / 2 - 1))) % 2 ^ 14).testBit b
      = decide (6 ≤ b ∧ b < 14) := by
  have h : (((((1 : Nat) <<< (LEAF_KEY_NUM - LEAF_KEY_NUM / 2)) - 1) <<< (LEAF_KEY_NUM / 2)) % 2 ^ 14
        ||| (1 <<< (LEAF_KEY_NUM / 2 - 1))) % 2 ^ 14 = 0x3fc0 := by decide
  rw [h]
  by_cases hb : b < 14
  · interval_cases b <;> decide
  · rw [testBit_lt14 _ b (by norm_num) (by omega)]
    have : ¬ (6 ≤ b ∧ b < 14) := by omega
    simp [this]

/-- Where the keys of a full leaf with pairwise distinct keys sit in the sorted
slot order: slot `j` has a key below the split key iff it is one of the first
seven sorted positions, and exactly seven slots have. -/
theorem split_order (lp : bleaf)
    (hdist : ∀ i j, i < 14 → j < 14 → lp.k i = lp.k j → i = j) :
    (∀ i : Int, 0 ≤ i → i ≤ 13 → posAt (sortedPos lp) i < 14) ∧
    (∀ i j : Int, 0 ≤ i → i < j → j ≤ 13 →
        lp.k (posAt (sortedPos lp) i) < lp.k (posAt (sortedPos lp) j)) ∧
    (∀ j, j < 14 → (lp.k j < splitKey lp ↔
        ∃ i : Int, 0 ≤ i ∧ i ≤ 6 ∧ posAt (sortedPos lp) i = j)) ∧
    (∀ j, j < 14 → (splitKey lp ≤ lp.k j ↔
        ∃ i : Nat, 7 ≤ i ∧ i < 14 ∧ (sortedPos lp).getD i 0 = j)) ∧
    ((List.range 14).filter (fun j => decide (lp.k j < splitKey lp))).length = 7 := by
  obtain ⟨hlt, hsurj, hsorted, hinj⟩ := sorted_pos_spec lp
  rw [← sortedPos_eq] at hlt hsurj hsorted hinj
  have hstrict : ∀ i j : Int, 0 ≤ i → i < j → j ≤ 13 →
      lp.k (posAt (sortedPos lp) i) < lp.k (posAt (sortedPos lp) j) := by
    intro i j h0 h1 h2
    rcases lt_or_eq_of_le (hsorted i j h0 (le_of_lt h1) h2) with h | h
    · exact h
    · have := hinj i j h0 (by omega) (by omega) h2
        (hdist _ _ (hlt i h0 (by omega)) (hlt j (by omega) h2) h)
      omega
  have hsk : splitKey lp = lp.k (posAt (sortedPos lp) 7) := by
    unfold splitKey
    rw [sortedPos_getD]; rfl
  have hlow : ∀ j, j < 14 → (lp.k j < splitKey lp ↔
      ∃ i : Int, 0 ≤ i ∧ i ≤ 6 ∧ posAt (sortedPos lp) i = j) := by
    intro j hj
    rw [hsk]
    constructor
    · intro h
      obtain ⟨i, g1, g2, g3⟩ := hsurj j hj
      refine ⟨i, g1, ?_, g3⟩
      by_contra hc
      have : lp.k (posAt (sortedPos lp) 7) ≤ lp.k (posAt (sortedPos lp) i) :=
        hsorted 7 i (by norm_num) (by omega) g2
      rw [g3] at this
      omega
    · rintro ⟨i, g1, g2, g3⟩
      rw [← g3]
      exact hstrict i 7 g1 (by omega) (by norm_num)
  have hhigh : ∀ j, j < 14 → (splitKey lp ≤ lp.k j ↔
      ∃ i : Nat, 7 ≤ i ∧ i < 14 ∧ (sortedPos lp).getD i 0 = j) := by
    intro j hj
    constructor
    · intro h
      obtain ⟨i, g1, g2, g3⟩ := hsurj j hj
      refine ⟨i.toNat, ?_, by omega, ?_⟩
      · by_contra hc
        have := (hlow j hj).2 ⟨i, g1, by omega, g3⟩
        omega
      · rw [sortedPos_getD, Int.toNat_of_nonneg g1]; exact g3
    · rintro ⟨i, g1, g2, g3⟩
      rw [sortedPos_getD] at g3
      rw [hsk, ← g3]
      exact hsorted 7 i (by norm_num) (by omega) (by omega)
  refine ⟨hlt, hstrict, hlow, hhigh, ?_⟩
  -- the slots below the split key are the images of the sorted positions 0..6
  have hperm : ((List.range 14).filter (fun j => decide (lp.k j < splitKey lp))).Perm
      ((List.range 7).map (fun (i : Nat) => posAt (sortedPos lp) (i : Int))) := by
    rw [List.perm_ext_iff_of_nodup ((List.nodup_range 14).filter _)]
    · intro j
      simp only [List.mem_filter, List.mem_range, decide_eq_true_eq, List.mem_map]
      constructor
      · rintro ⟨h1, h2⟩
        obtain ⟨i, g1, g2, g3⟩ := (hlow j h1).1 h2
        exact ⟨i.toNat, by omega, by rw [Int.toNat_of_nonneg g1]; exact g3⟩
      · rintro ⟨i, h1, h2⟩
        have hj : j < 14 := by rw [← h2]; exact hlt _ (by omega) (by omega)
        exact ⟨hj, (hlow j hj).2 ⟨(i : Int), by omega, by omega, h2⟩⟩
    · apply List.Nodup.map_on _ (List.nodup_range 7)
      intro x hx y hy hxy
      rw [List.mem_range] at hx hy
      have := hinj (x : Int) (y : Int) (by omega) (by omega) (by omega) (by omega) hxy
      omega
  rw [hperm.length_eq]
  simp

end LBTree


namespace LBTree

theorem splitMove_eq (lp new0 : bleaf) :
    splitMove lp new0 = moveToNew lp (sortedPos lp) 7 7 new0 0 := rfl

/-- Step 2.4 and the bitmap update of the split on a full leaf with distinct
keys: the slots left in the old leaf are those with a key below the split key,
and slot `i` of the new leaf, `7 <= i < 14`, holds the entry of `sorted_pos[i]`. -/
theorem splitMove_spec (lp new0 : bleaf) (hfull : lp.bitmap = 0x3fff)
    (hnew : new0.ent.length = 14) (hnewf : new0.fgpt.length = 14)
    (hdist : ∀ i j, i < 14 → j < 14 → lp.k i = lp.k j → i = j) :
    (splitMove lp new0).1.ent.length = 14 ∧
    (∀ i, 7 ≤ i → i < 14 → (splitMove lp new0).1.entAt i = lp.entAt ((sortedPos lp).getD i 0)) ∧
    lp.bitmap &&& bnot32 (splitMove lp new0).2 < 2 ^ 14 ∧
    (∀ b, b < 14 → ((lp.bitmap &&& bnot32 (splitMove lp new0).2).testBit b = true
        ↔ lp.k b < splitKey lp)) := by
  obtain ⟨hlt, _, _, hhigh, _⟩ := split_order lp hdist
  have hsp : ∀ i, i < 14 → (sortedPos lp).getD i 0 < 14 := by
    intro i hi
    rw [sortedPos_getD]; exact hlt _ (by omega) (by omega)
  obtain ⟨c1, _, _, c4, c5, _, c7⟩ :=
    moveToNew_spec lp (sortedPos lp) hsp 7 7 new0 0 rfl hnew hnewf (by norm_num)
  rw [← splitMove_eq] at c1 c4 c5 c7
  have hf32 : (splitMove lp new0).2 < 2 ^ 32 :=
    lt_of_lt_of_le c4 (Nat.pow_le_pow_right (by norm_num) (by norm_num))
  have hbit : ∀ b, (lp.bitmap &&& bnot32 (splitMove lp new0).2).testBit b
      = (decide (b < 14) && !(splitMove lp new0).2.testBit b) := by
    intro b
    rw [Nat.testBit_and, testBit_bnot32 _ b hf32, hfull]
    have h14 : (0x3fff : Nat) = 2 ^ 14 - 1 := by norm_num
    rw [h14, Nat.testBit_two_pow_sub_one]
    by_cases hb : b < 14
    · have : b < 32 := by omega
      simp [hb, this]
    · simp [hb]
  refine ⟨c1, ?_, ?_, ?_⟩
  · intro i h1 h2
    rw [c5 i, if_pos ⟨h1, h2⟩]
  · apply Nat.lt_pow_two_of_testBit
    intro i hi
    rw [hbit]
    have : ¬ i < 14 := by omega
    simp [this]
  · intro b hb
    rw [hbit]
    simp only [hb, decide_True, Bool.true_and, Bool.not_eq_true', ← Bool.not_eq_true]
    rw [c7 b]
    simp only [Nat.zero_testBit, Bool.false_eq_true, false_or]
    rw [← hhigh b hb]
    omega

/-- The leaf part of a split.  `lp` is the image of a full leaf (`bitmap = 0x3fff`) with
14 pairwise distinct keys, `key` is none of them, `new0` is the memory of the
new leaf.  After the split: the split key is the key of an old slot and exactly
7 old keys are below it (it is the 8th smallest); the live entries of the old
leaf are exactly the old entries with a key below the split key, plus
`(key, ptr)` when `key <= split_key`; slots 7..13 of the new leaf are live and
hold exactly the old entries with a key at or above the split key, in
ascending key order; slot 6 of the new leaf is live iff `key > split_key` and
then holds `(key, ptr)`; slots 0..5 of the new leaf are empty; every live key
of the old leaf is below the split key and every live key of the new leaf is
at or above it.  The entry handed to the parent level by `insert` is
`(split_key, newp)`. -/
theorem leafSplit_spec (lp new0 : bleaf) (newa : Nat) (root_level key : Int) (ptr key_hash : Nat)
    (hfull : lp.bitmap = 0x3fff) (hlen : lp.ent.length = 14)
    (hnew : new0.ent.length = 14) (hnewf : new0.fgpt.length = 14)
    (hdist : ∀ i j, i < 14 → j < 14 → lp.k i = lp.k j → i = j)
    (hkey : ∀ j, j < 14 → lp.k j ≠ key) :
    (leafSplit lp new0 newa root_level key ptr key_hash).split_key = splitKey lp ∧
    (∃ j, j < 14 ∧ lp.k j = splitKey lp) ∧
    ((List.range 14).filter (fun j => decide (lp.k j < splitKey lp))).length = 7 ∧
    (∀ e, (leafSplit lp new0 newa root_level key ptr key_hash).lp.live e ↔
      ((∃ j, j < 14 ∧ lp.k j < splitKey lp ∧ lp.entAt j = e) ∨
       (key ≤ splitKey lp ∧ e = ⟨key, ptr⟩))) ∧
    (∀ i, 7 ≤ i → i < 14 →
      (leafSplit lp new0 newa root_level key ptr key_hash).newp.bitmap.testBit i = true ∧
      ∃ j, j < 14 ∧ splitKey lp ≤ lp.k j ∧
        (leafSplit lp new0 newa root_level key ptr key_hash).newp.entAt i = lp.entAt j) ∧
    (∀ j, j < 14 → splitKey lp ≤ lp.k j → ∃ i, 7 ≤ i ∧ i < 14 ∧
        (leafSplit lp new0 newa root_level key ptr key_hash).newp.entAt i = lp.entAt j) ∧
    (∀ i i', 7 ≤ i → i < i' → i' < 14 →
        (leafSplit lp new0 newa root_level key ptr key_hash).newp.k i
          < (leafSplit lp new0 newa root_level key ptr key_hash).newp.k i') ∧
    ((leafSplit lp new0 newa root_level key ptr key_hash).newp.bitmap.testBit 6 = true
        ↔ key > splitKey lp) ∧
    (key > splitKey lp →
        (leafSplit lp new0 newa root_level key ptr key_hash).newp.entAt 6 = ⟨key, ptr⟩) ∧
    (∀ i, i < 6 →
        (leafSplit lp new0 newa root_level key ptr key_hash).newp.bitmap.testBit i = false) ∧
    (∀ e, (leafSplit lp new0 newa root_level key ptr key_hash).lp.live e → e.k < splitKey lp) ∧
    (∀ e, (leafSplit lp new0 newa root_level key ptr key_hash).newp.live e → splitKey lp ≤ e.k) := by
  obtain ⟨hlt, hstrict, hlow, hhigh, hcount⟩ := split_order lp hdist
  obtain ⟨m1, m2, m3, m4⟩ := splitMove_spec lp new0 hfull hnew hnewf hdist
  have hsp : ∀ i, i < 14 → (sortedPos lp).getD i 0 < 14 := by
    intro i hi
    rw [sortedPos_getD]; exact hlt _ (by omega) (by omega)
  have hskmem : ∃ j, j < 14 ∧ lp.k j = splitKey lp := ⟨(sortedPos lp).getD 7 0, hsp 7 (by norm_num), rfl⟩
  have hkne : key ≠ splitKey lp := by
    obtain ⟨j, h1, h2⟩ := hskmem
    rw [← h2]; exact fun h => hkey j h1 h.symm
  -- the entries of slots 7..13 of the moved image
  have hupper : ∀ i, 7 ≤ i → i < 14 → ∃ j, j < 14 ∧ splitKey lp ≤ lp.k j ∧
      (splitMove lp new0).1.entAt i = lp.entAt j := by
    intro i h1 h2
    exact ⟨_, hsp i h2, (hhigh _ (hsp i h2)).2 ⟨i, h1, h2, rfl⟩, m2 i h1 h2⟩
  have hupper' : ∀ j, j < 14 → splitKey lp ≤ lp.k j → ∃ i, 7 ≤ i ∧ i < 14 ∧
      (splitMove lp new0).1.entAt i = lp.entAt j := by
    intro j h1 h2
    obtain ⟨i, g1, g2, g3⟩ := (hhigh j h1).1 h2
    exact ⟨i, g1, g2, by rw [m2 i g1 g2, g3]⟩
  have hasc : ∀ i i', 7 ≤ i → i < i' → i' < 14 →
      ((splitMove lp new0).1.entAt i).k < ((splitMove lp new0).1.entAt i').k := by
    intro i i' h1 h2 h3
    rw [m2 i h1 (by omega), m2 i' (by omega) h3, sortedPos_getD, sortedPos_getD]
    exact hstrict i i' (by omega) (by omega) (by omega)
  -- the old leaf before `key` is added
  have hold : ∀ (l : bleaf), l.ent = lp.ent → ∀ e,
      l.liveWith (lp.bitmap &&& bnot32 (splitMove lp new0).2) e ↔
        ∃ j, j < 14 ∧ lp.k j < splitKey lp ∧ lp.entAt j = e := by
    intro l hl e
    constructor
    · rintro ⟨i, h1, h2, h3⟩
      refine ⟨i, h1, (m4 i h1).1 h2, ?_⟩
      rw [← h3]; unfold bleaf.entAt; rw [hl]
    · rintro ⟨j, h1, h2, h3⟩
      refine ⟨j, h1, (m4 j h1).2 h2, ?_⟩
      rw [← h3]; unfold bleaf.entAt; rw [hl]
  refine ⟨leafSplit_key _ _ _ _ _ _ _, hskmem, hcount, ?_⟩
  by_cases hgt : key > splitKey lp
  · -- `key` goes to slot 6 of the new leaf
    obtain ⟨e1, e2⟩ := leafSplit_gt lp new0 newa root_level key ptr key_hash hgt
    rw [e1, e2]
    have hnle : ¬ key ≤ splitKey lp := not_le.2 hgt
    have hent : ∀ i, (((splitMove lp new0).1.ent.set (LEAF_KEY_NUM / 2 - 1) ⟨key, ptr⟩).getD i default)
        = if i = 6 then ⟨key, ptr⟩ else (splitMove lp new0).1.entAt i := by
      intro i
      rw [bleaf.entAt_set _ _ _ _ (by rw [m1]; decide)]; rfl
    have hliveOld : ∀ e, bleaf.liveWith lp (lp.bitmap &&& bnot32 (splitMove lp new0).2) e ↔
        ((∃ j, j < 14 ∧ lp.k j < splitKey lp ∧ lp.entAt j = e) ∨
         (key ≤ splitKey lp ∧ e = ⟨key, ptr⟩)) := by
      intro e
      rw [hold lp rfl e]
      constructor
      · intro h; left; exact h
      · rintro (h | ⟨h, _⟩)
        · exact h
        · exact absurd h hnle
    refine ⟨hliveOld, ?_, ?_, ?_, ?_, ?_, ?_, ?_, ?_⟩
    · intro i h1 h2
      refine ⟨by show Nat.testBit _ i = true; rw [testBit_3fc0]; simp; omega, ?_⟩
      obtain ⟨j, g1, g2, g3⟩ := hupper i h1 h2
      refine ⟨j, g1, g2, ?_⟩
      show (((splitMove lp new0).1.ent.set (LEAF_KEY_NUM / 2 - 1) ⟨key, ptr⟩).getD i default) = _
      rw [hent, if_neg (by omega)]; exact g3
    · intro j h1 h2
      obtain ⟨i, g1, g2, g3⟩ := hupper' j h1 h2
      refine ⟨i, g1, g2, ?_⟩
      show (((splitMove lp new0).1.ent.set (LEAF_KEY_NUM / 2 - 1) ⟨key, ptr⟩).getD i default) = _
      rw [hent, if_neg (by omega)]; exact g3
    · intro i i' h1 h2 h3
      show ((((splitMove lp new0).1.ent.set (LEAF_KEY_NUM / 2 - 1) ⟨key, ptr⟩).getD i default)).k
        < ((((splitMove lp new0).1.ent.set (LEAF_KEY_NUM / 2 - 1) ⟨key, ptr⟩).getD i' default)).k
      rw [hent, hent, if_neg (by omega), if_neg (by omega)]
      exact hasc i i' h1 h2 h3
    · constructor
      · intro _; exact hgt
      · intro _; show Nat.testBit _ 6 = true; rw [testBit_3fc0]; decide
    · intro _
      show (((splitMove lp new0).1.ent.set (LEAF_KEY_NUM / 2 - 1) ⟨key, ptr⟩).getD 6 default) = _
      rw [hent, if_pos rfl]
    · intro i hi
      show Nat.testBit _ i = false
      rw [testBit_3fc0]; simp; omega
    · intro e he
      rcases (hliveOld e).1 he with ⟨j, g1, g2, g3⟩ | ⟨h, _⟩
      · rw [← g3]; exact g2
      · exact absurd h hnle
    · rintro e ⟨i, h1, h2, h3⟩
      have h2' : Nat.testBit _ i = true := h2
      rw [testBit_3fc0] at h2'
      simp only [decide_eq_true_eq] at h2'
      have h3' : (((splitMove lp new0).1.ent.set (LEAF_KEY_NUM / 2 - 1) ⟨key, ptr⟩).getD i default) = e := h3
      rw [hent] at h3'
      by_cases hi6 : i = 6
      · rw [if_pos hi6] at h3'
        rw [← h3']; exact le_of_lt hgt
      · rw [if_neg hi6] at h3'
        obtain ⟨j, g1, g2, g3⟩ := hupper i (by omega) h1
        rw [← h3', g3]; exact g2
  · -- `key` goes to the old leaf
    have hle : key ≤ splitKey lp := not_lt.1 hgt
    obtain ⟨e1, e2⟩ := leafSplit_le lp new0 newa root_level key ptr key_hash hle
    rw [e1, e2]
    have hnotfull : lp.bitmap &&& bnot32 (splitMove lp new0).2 ≠ 0x3fff := by
      intro h
      have h7 := (m4 _ (hsp 7 (by norm_num))).1 (by
        rw [h]
        have := hsp 7 (by norm_num)
        have h14 : (0x3fff : Nat) = 2 ^ 14 - 1 := by norm_num
        rw [h14, Nat.testBit_two_pow_sub_one]; simpa using this)
      exact lt_irrefl _ h7
    obtain ⟨_, _, p3, _⟩ := leafPut_spec_aux
      ({ lp with next := lp.next.set (1 - lp.alt) newa,
                 bitmap := lp.bitmap &&& bnot32 (splitMove lp new0).2,
                 alt := 1 - lp.alt } : bleaf)
      { bitmap := lp.bitmap &&& bnot32 (splitMove lp new0).2,
        lock := if root_level > 0 then 0 else lp.lock, alt := 1 - lp.alt, fgpt := lp.fgpt }
      key ptr key_hash m3 hlen hnotfull
    have hliveOld : ∀ e, (leafPut
        ({ lp with next := lp.next.set (1 - lp.alt) newa,
                   bitmap := lp.bitmap &&& bnot32 (splitMove lp new0).2,
                   alt := 1 - lp.alt } : bleaf)
        { bitmap := lp.bitmap &&& bnot32 (splitMove lp new0).2,
          lock := if root_level > 0 then 0 else lp.lock, alt := 1 - lp.alt, fgpt := lp.fgpt }
        key ptr key_hash).live e ↔
        ((∃ j, j < 14 ∧ lp.k j < splitKey lp ∧ lp.entAt j = e) ∨
         (key ≤ splitKey lp ∧ e = ⟨key, ptr⟩)) := by
      intro e
      refine (p3 e).trans ?_
      have hh := hold
        ({ lp with next := lp.next.set (1 - lp.alt) newa,
                   bitmap := lp.bitmap &&& bnot32 (splitMove lp new0).2,
                   alt := 1 - lp.alt } : bleaf) rfl e
      constructor
      · rintro (h | h)
        · left; exact hh.1 h
        · right; exact ⟨hle, h⟩
      · rintro (h | ⟨_, h⟩)
        · left; exact hh.2 h
        · right; exact h
    refine ⟨hliveOld, ?_, ?_, ?_, ?_, ?_, ?_, ?_, ?_⟩
    · intro i h1 h2
      refine ⟨by show Nat.testBit _ i = true; rw [testBit_3f80]; simp; omega, ?_⟩
      exact hupper i h1 h2
    · exact hupper'
    · exact hasc
    · constructor
      · intro h
        have h' : Nat.testBit _ 6 = true := h
        rw [testBit_3f80] at h'
        simp at h'
      · intro h; exact absurd h hgt
    · intro h; exact absurd h hgt
    · intro i hi
      show Nat.testBit _ i = false
      rw [testBit_3f80]; simp; omega
    · intro e he
      rcases (hliveOld e).1 he with ⟨j, g1, g2, g3⟩ | ⟨_, h⟩
      · rw [← g3]; exact g2
      · rw [h]; exact lt_of_le_of_ne hle hkne
    · rintro e ⟨i, h1, h2, h3⟩
      have h2' : Nat.testBit _ i = true := h2
      rw [testBit_3f80] at h2'
      simp only [decide_eq_true_eq] at h2'
      obtain ⟨j, g1, g2, g3⟩ := hupper i h2'.1 h1
      have h3' : (splitMove lp new0).1.entAt i = e := h3
      rw [← h3', g3]; exact g2

end LBTree


namespace LBTree

/-- `insert` on a key that the probed leaf does not hold and whose leaf is
full: after locking the ancestors and allocating the new leaf, Part 3
(`insertNonleaf`) starts at level 1 with the entry `(split_key, newp)` produced
by the leaf split. -/
theorem insert_full (s : State) (key : Int) (ptr : Nat) (lpa : Nat)
    (h : TreeOK s) (hd : descend s key s.root_level.toNat s.tree_root = some lpa)
    (hfull : (s.leaf lpa).bitmap = 0x3fff) (hk : ∀ j, ¬ (s.leaf lpa).holds key j) :
    ∃ pt0, descendPath s key s.root_level.toNat s.tree_root Path.empty = some (lpa, pt0) ∧
    insert s key ptr =
      match lockFullAncestors (((pt0.setParray 0 lpa).setIsfull 0 true)) s.root_level
              s.root_level.toNat 1 (s.setLeaf lpa { s.leaf lpa with lock := 1 }) with
      | Res.ok s2 =>
        match nvmpool_alloc_node s2 with
        | none => Res.nomem
        | some (newa, s3) =>
          insertNonleaf ((pt0.setParray 0 lpa).setIsfull 0 true) s3.root_level
            (s3.root_level.toNat + 1) 1
            (leafSplit (s3.leaf lpa) (s3.leaf newa) newa s3.root_level key ptr (hashcode1B key)).split_key
            newa
            ((s3.setLeaf newa
                (leafSplit (s3.leaf lpa) (s3.leaf newa) newa s3.root_level key ptr (hashcode1B key)).newp).setLeaf
              lpa (leafSplit (s3.leaf lpa) (s3.leaf newa) newa s3.root_level key ptr (hashcode1B key)).lp)
      | Res.retry => Res.retry
      | Res.nomem => Res.nomem
      | Res.unrecorded => Res.unrecorded := by
  obtain ⟨lp, h1, _, h3, _⟩ := descend_reach s key _ _ h.2
  obtain ⟨lp', pt', h5, h6⟩ := descendPath_reach s key _ _ Path.empty h.2
  rw [h1] at h6 hd
  cases h6
  cases hd
  have hneg : ¬ searchLeaf (s.leaf lpa) key ≥ 0 := by
    rcases searchLeaf_sound (s.leaf lpa) key with hr | ⟨j, _, hh⟩
    · rw [hr]; decide
    · exact absurd hh (hk j)
  have hfull' : ({ s.leaf lpa with lock := 1 } : bleaf).isFull = true := by
    simp [bleaf.isFull, hfull]
  refine ⟨pt', h5, ?_⟩
  simp only [insert, h5, h3, ne_eq, not_true_eq_false, if_false, hneg, State.leaf_setLeaf_same,
    hfull', Bool.not_true, if_true, Bool.false_eq_true]
  rfl

end LBTree


namespace LBTree

set_option maxRecDepth 100000

/-! ## Instances of the leaf split, C9 and C10 -/

theorem exLeafFull_distinct :
    ∀ i j, i < 14 → j < 14 → exLeafFull.k i = exLeafFull.k j → i = j := by
  have h : ∀ i, i < 14 → ∀ j, j < 14 → exLeafFull.k i = exLeafFull.k j → i = j := by decide
  exact fun i j hi hj => h i hi j hj

/-- The leaf part of a split at a concrete input: the full leaf with keys
`1, 3, .., 27` and `key = 8`. -/
theorem leafSplit_spec_instance :
    exLeafFull.bitmap = 0x3fff ∧ exLeafFull.ent.length = 14 ∧
    (∀ i j, i < 14 → j < 14 → exLeafFull.k i = exLeafFull.k j → i = j) ∧
    (∀ j, j < 14 → exLeafFull.k j ≠ 8) ∧
    (leafSplit exLeafFull exLeafBlank 6400 0 8 8 (hashcode1B 8)).split_key = splitKey exLeafFull ∧
    ((List.range 14).filter (fun j => decide (exLeafFull.k j < splitKey exLeafFull))).length = 7 ∧
    splitKey exLeafFull = 15 :=
  ⟨by decide, by decide, exLeafFull_distinct, by decide,
   (leafSplit_spec exLeafFull exLeafBlank 6400 0 8 8 (hashcode1B 8) (by decide) (by decide)
      (by decide) (by decide) exLeafFull_distinct (by decide)).1,
   (leafSplit_spec exLeafFull exLeafBlank 6400 0 8 8 (hashcode1B 8) (by decide) (by decide)
      (by decide) (by decide) exLeafFull_distinct (by decide)).2.2.1,
   by decide⟩

/-- C9 at a concrete input: `(75, 999)` inserted at position 8 of a full node. -/
theorem C9_inner_split_witness :
    exNode15.ent.length = 16 ∧ exNodeBlank.ent.length = 16 ∧ exNode15.num = 15 ∧
    (nodeSplit exNode15 exNodeBlank 8 75 999 true).1.num = 7 ∧
    (nodeSplit exNode15 exNodeBlank 8 75 999 true).2.1.num = 8 ∧
    (nodeSplit exNode15 exNodeBlank 8 75 999 true).2.2 = 75 :=
  ⟨by decide, by decide, by decide,
   (C9_inner_split exNode15 exNodeBlank 8 75 999 true (by decide) (by decide) (by decide)
      (by decide) (by decide)).1,
   (C9_inner_split exNode15 exNodeBlank 8 75 999 true (by decide) (by decide) (by decide)
      (by decide) (by decide)).2.1,
   (C9_inner_split exNode15 exNodeBlank 8 75 999 true (by decide) (by decide) (by decide)
      (by decide) (by decide)).2.2.2.1.trans (by decide)⟩

theorem exState10_no11 : ∀ j, ¬ (exState10.leaf 4096).holds 11 j := by
  intro j hj
  have h14 : j < 14 := hj.1
  interval_cases j <;> revert hj <;> decide

/-- C10 at a concrete input: `insert(11, 11)` into the root leaf holding `1..10`. -/
theorem C10_insert_nonfull_leaf_witness :
    TreeOK exState10 ∧
    descend exState10 11 exState10.root_level.toNat exState10.tree_root = some 4096 ∧
    (exState10.leaf 4096).bitmap ≠ 0x3fff ∧
    ∃ s', insert exState10 11 11 = Res.ok s' ∧
      (s'.leaf 4096).entAt (bitScan (bnot32 (exState10.leaf 4096).bitmap) - 1) = ⟨11, 11⟩ ∧
      countBit (s'.leaf 4096).bitmap = countBit (exState10.leaf 4096).bitmap + 1 :=
  ⟨by decide, by decide, by decide,
   let ⟨s', h1, _, _, _, _, _, _, _, _, h10, _, _, h13, _⟩ :=
     C10_insert_nonfull_leaf exState10 11 11 4096 (by decide) (by decide) (by decide)
       (by decide) (by decide) exState10_no11
   ⟨s', h1, h10, h13⟩⟩

end LBTree


namespace LBTree

/-! ## The two header stores -/

theorem getD_take_append_drop (a b : List Nat) (ha : 6 ≤ a.length) (i : Nat) :
    (a.take 6 ++ b.drop 6).getD i 0 = if i < 6 then a.getD i 0 else b.getD i 0 := by
  simp only [List.getD_eq_getElem?_getD]
  by_cases h : i < 6
  · rw [if_pos h, List.getElem?_append_left (by simp; omega), List.getElem?_take_of_lt h]
  · rw [if_neg h, List.getElem?_append_right (by simp; omega)]
    have : (List.take 6 a).length = 6 := by simp; omega
    rw [this, List.getElem?_drop]
    congr 2; omega

/-- C20, the counterexample: `setWord0` replaces fingerprint 5 of the leaf
by that of the meta word (here 0 becomes 6), so fingerprint 5 is not left
unchanged. -/
theorem C20_setWord0_replaces_fgpt5 :
    (exLeafBlank.setWord0 exMeta).fg 5 = 6 ∧ exLeafBlank.fg 5 = 0 ∧ exMeta.fgpt.getD 5 0 = 6 := by
  decide

/-- C20, amended: with a meta word of fourteen fingerprints,
`setWord0(m)` replaces exactly bitmap, lock, alt and the fingerprints `0..5`
by those of `m` (the first eight header bytes become `word8B[0]` of `m`) and
leaves the fingerprints `6..13`, the entries and the sibling pointers
unchanged; `setBothWords(m)` replaces bitmap, lock, alt and all fourteen
fingerprints and leaves entries and sibling pointers unchanged; `word8B[1]`
carries the fingerprints `6..13`. -/
theorem C20_header_stores (lp : bleaf) (m : bleafMeta)
    (hm : m.fgpt.length = 14) :
    ((lp.setWord0 m).bitmap = m.bitmap ∧ (lp.setWord0 m).lock = m.lock ∧
      (lp.setWord0 m).alt = m.alt ∧
      (∀ i, i < 6 → (lp.setWord0 m).fg i = m.fgpt.getD i 0) ∧
      (∀ i, 6 ≤ i → (lp.setWord0 m).fg i = lp.fg i) ∧
      (lp.setWord0 m).ent = lp.ent ∧ (lp.setWord0 m).next = lp.next ∧
      (lp.setWord0 m).headerBytes.take 8 = m.word8B 0 ∧
      (lp.setWord0 m).headerBytes.drop 8 = lp.headerBytes.drop 8) ∧
    ((lp.setBothWords m).bitmap = m.bitmap ∧ (lp.setBothWords m).lock = m.lock ∧
      (lp.setBothWords m).alt = m.alt ∧
      (∀ i, (lp.setBothWords m).fg i = m.fgpt.getD i 0) ∧
      (lp.setBothWords m).ent = lp.ent ∧ (lp.setBothWords m).next = lp.next ∧
      (lp.setBothWords m).headerBytes = m.bytes) ∧
    m.word8B 1 = (List.range 8).map (fun i => m.fgpt.getD (6 + i) 0) := by
  have hfg : ∀ i, (lp.setWord0 m).fg i = if i < 6 then m.fgpt.getD i 0 else lp.fg i := by
    intro i
    exact getD_take_append_drop m.fgpt lp.fgpt (by omega) i
  refine ⟨⟨rfl, rfl, rfl, ?_, ?_, rfl, rfl, ?_, ?_⟩, ⟨rfl, rfl, rfl, fun _ => rfl, rfl, rfl, rfl⟩, ?_⟩
  · intro i hi; rw [hfg, if_pos hi]
  · intro i hi; rw [hfg, if_neg (by omega)]
  · simp only [bleaf.headerBytes, bleafMeta.word8B, bleafMeta.bytes]
    simp [List.range_succ, hfg]
    exact ⟨rfl, rfl⟩
  · simp only [bleaf.headerBytes]
    simp [List.range_succ, hfg]
  · simp [bleafMeta.word8B, bleafMeta.bytes, List.range_succ]

/-- The header stores of C20 on the blank leaf and the meta word `exMeta`. -/
theorem C20_header_stores_witness :
    exMeta.fgpt.length = 14 ∧
    (exLeafBlank.setWord0 exMeta).fgpt = [1, 2, 3, 4, 5, 6, 0, 0, 0, 0, 0, 0, 0, 0] ∧
    (∀ i, 6 ≤ i → (exLeafBlank.setWord0 exMeta).fg i = exLeafBlank.fg i) :=
  ⟨by decide, by decide, (C20_header_stores exLeafBlank exMeta (by decide)).1.2.2.2.2.1⟩

end LBTree


namespace LBTree

set_option maxRecDepth 100000

/-! ## C19: bulk load of fourteen keys, then `insert(2)` -/

/-- C19, the counterexample: after the bulk load (fill 1.0) of `1, 3, .., 27`
the single leaf is full, and `insert(2)` splits it: the root level becomes 1
and a new leaf is allocated (the NVM pool cursor moves from 4352 to 4608). -/
theorem C19_insert2_splits :
    exTree14.map (fun s => (s.root_level, s.nvmpool.cur)) = some (0, 4352) ∧
    (exTree14.bind (fun s => (insert s 2 2).toOption)).map
        (fun s => (s.root_level, s.nvmpool.cur)) = some (1, 4608) := by
  decide

/-- C19, amended: after the bulk load (fill 1.0) of `1, 3, .., 27` the tree is
one full leaf at root level 0 (bitmap `0x3fff`), and the following `insert(2)`
splits that leaf: it returns with a new root at level 1 with the single
separator 15, the old leaf holding `1, 2, 3, 5, .., 13`, the new leaf holding
`15, .., 27`, and `lookup(2)` finds the key. -/
theorem C19_bulkload14_then_insert2 :
    exTree14.map (fun s => (s.root_level, s.tree_root, (s.leaf s.tree_root).bitmap)) =
      some (0, 4096, 0x3fff) ∧
    exTree14.map treeKeys = some [1, 3, 5, 7, 9, 11, 13, 15, 17, 19, 21, 23, 25, 27] ∧
    (exTree14.bind (fun s => (insert s 2 2).toOption)).map
        (fun s => (s.root_level, (s.node s.tree_root).keys, (s.node s.tree_root).children)) =
      some (1, [15], [4096, 4352]) ∧
    (exTree14.bind (fun s => (insert s 2 2).toOption)).map
        (fun s => (subtreeKeys s 0 4096, subtreeKeys s 0 4352)) =
      some ([7, 9, 11, 13, 2, 1, 3, 5], [15, 17, 19, 21, 23, 25, 27]) ∧
    (exTree14.bind (fun s => (insert s 2 2).toOption)).map
        (fun s => (lookup s 2).map (fun r => get_recptr s r.1 r.2)) = some (some 2) := by
  decide

/-! ## C15: deleting every key of a bulk-loaded tree -/

/-- C15 (evaluation at the failing input). The tree bulk-loaded from `1, 2, 3`
at the smallest fill passes `check`; deleting 1 and 2 returns and leaves as
root the inner node that the bulk load created with a single child (`num = 0`)
at root level 1; `del(3)` then frees that node and reads `parray[2]`, which
the descent never wrote.  The same happens with 238 keys at fill 1.0. -/
theorem C15_delete_all_reads_unrecorded :
    exTree3.bind checkTree = some (1, 3) ∧
    (exTree3.bind (fun s => (delAll s [1, 2]).toOption)).map
        (fun s => (s.root_level, (s.node s.tree_root).num)) = some (1, 0) ∧
    exTree3.map (fun s => (delAll s [1, 2, 3]).isUnrecorded) = some true ∧
    exTree238.bind checkTree = some (1, 238) ∧
    (exTree238.bind (fun s => (delAll s (keysUpTo 237)).toOption)).map
        (fun s => (s.root_level, (s.node s.tree_root).num)) = some (1, 0) ∧
    exTree238.map (fun s => (delAll s (keysUpTo 238)).isUnrecorded) = some true := by
  decide

/-! ## C12: the sibling chain across an insert -/

/-- C12 (evaluation at the failing input). The tree bulk-loaded at fill 0.6
from `1000..1071` has a valid sibling chain.  `insert(MIN_KEY+1, 7)` returns,
and the walk from `*first_leaf` still visits the nine leaves of the tree and
ends at NULL, but no longer in ascending key order: the wrapped comparison of
the descent put `MIN_KEY+1` into the fifth leaf (at 5120), behind the fourth
leaf (at 4864) whose keys are `1024..1031`. -/
theorem C12_insert_breaks_chain_order :
    exTree72.isSome = true ∧ ChainOK exState72 ∧
    (insert exState72 (MIN_KEY + 1) 7).toOption.isSome = true ∧
    chainFrom exState72ins 9 exState72ins.first_leaf
      = some (subtreeLeaves exState72ins exState72ins.root_level.toNat exState72ins.tree_root) ∧
    chainFrom exState72ins 9 exState72ins.first_leaf
      = some [4096, 4352, 4608, 4864, 5120, 5376, 5632, 5888, 6144] ∧
    subtreeKeys exState72ins 0 4864 = [1024, 1025, 1026, 1027, 1028, 1029, 1030, 1031] ∧
    subtreeKeys exState72ins 0 5120 =
      [MIN_KEY + 1, 1032, 1033, 1034, 1035, 1036, 1037, 1038, 1039] ∧
    ¬ ChainOK exState72ins :=
  ⟨by decide, ⟨⟨9, by decide⟩, by decide, by decide⟩, by decide, by decide, by decide, by decide,
    by decide, fun h => absurd h.2.1 (by decide)⟩

/-! ## C17: leaf fill after a bulk load with several workers -/

/-- C17, the counterexample: the bulk load (fill 1.0, `leaf_fill_num = 14`) of
the 22 keys `1..22` with two workers gives each worker 11 keys; the sibling
chain is the leaf of worker 0 followed by the leaf of worker 1, and the first
leaf, which is not the last of the chain, holds 11 keys, fewer than 14. -/
theorem C17_worker_last_leaf_underfilled :
    exPar22.isSome = true ∧ checkTree exState22 = some (1, 22) ∧
    chainFrom exState22 2 exState22.first_leaf = some [4096, 266240] ∧
    (exState22.leaf 4096).num = 11 ∧ (exState22.leaf 4096).nextSibling = 266240 := by
  decide

end LBTree


namespace LBTree

/-! ## C16: delete from a leaf that keeps a key, or from the root leaf -/

theorem testBit_clr (x f i : Nat) (hx : x < 2 ^ 14) (hf : f < 32) :
    (x &&& bnot32 (1 <<< f)).testBit i = (x.testBit i && decide (i ≠ f)) := by
  rw [Nat.testBit_and, testBit_bnot32_shift f i hf]
  by_cases hi : i < 14
  · have h2 : i < 32 := by omega
    simp [h2]
  · have h1 : x.testBit i = false := testBit_lt14 x i hx (by omega)
    simp [h1]

/-- `del` on a key found in a leaf that keeps a key or is the root leaf: the
only store that remains visible is the header word 0 of that leaf. -/
theorem del_keep (s : State) (key : Int) (lpa slot : Nat)
    (h : TreeOK s) (hl : lookup s key = some (lpa, (slot : Int)))
    (hkeep : (s.leaf lpa).num > 1 ∨ s.root_level = 0) :
    del s key = Res.ok (s.setLeaf lpa
      { s.leaf lpa with bitmap := (s.leaf lpa).bitmap &&& bnot32 (1 <<< slot), lock := 0 }) := by
  obtain ⟨lp, h1, _, h3, _⟩ := descend_reach s key _ _ h.2
  obtain ⟨lp', pt', h5, h6⟩ := descendPath_reach s key _ _ Path.empty h.2
  rw [h1] at h6
  cases h6
  have h3' : (s.leaf lp).lock = 0 := h3
  simp only [lookup, h1, h3', ne_eq, not_true_eq_false, if_false, Option.some.injEq,
    Prod.mk.injEq] at hl
  obtain ⟨e1, e2⟩ := hl
  subst e1
  have hnn : ¬ ((slot : Int) < 0) := by omega
  have hnum : ({ s.leaf lp with lock := 1 } : bleaf).num = (s.leaf lp).num := rfl
  rcases hkeep with hk | hk
  · have hne1 : ¬ (s.leaf lp).num = 1 := by omega
    simp [del, h5, h3', e2, hnn, State.leaf_setLeaf_same, hnum, hne1, hk, bleaf.setWord0,
      bleaf.getMeta, State.setLeaf]
    funext x
    split <;> rfl
  · have h5' : descendPath s key 0 s.tree_root Path.empty = some (lp, pt') := by
      have := h5
      rw [hk] at this
      exact this
    by_cases hn1 : (s.leaf lp).num = 1
    · simp [del, h5', h3', e2, hnn, State.leaf_setLeaf_same, hnum, hn1, hk, bleaf.setWord0,
        bleaf.getMeta, State.setLeaf, findSibLevel, lockAffectedAncestors]
      funext x
      split <;> rfl
    · simp [del, h5', h3', e2, hnn, State.leaf_setLeaf_same, hnum, hn1, hk, bleaf.setWord0,
        bleaf.getMeta, State.setLeaf]
      funext x
      split <;> rfl

/-- C16. Delete from a leaf that keeps at least one key, or from the root
leaf.  On a quiescent tree, if `lookup(K)` finds `K` at slot `s` of leaf `lpa`
and that leaf holds more than one key or is the root leaf, then `del(K)`
returns; the slot was live and held `K`; afterwards bitmap bit `s` of that
leaf is clear and every other bitmap bit, the lock bit (0 before and after),
`alt`, the fingerprints, all entries and both sibling pointers are as before;
every other leaf, every inner node, the root, the root level, `first_leaf` and
the two pools are unchanged. -/
theorem C16_del_keeps_leaf (s : State) (key : Int) (lpa slot : Nat)
    (h : TreeOK s) (hl : lookup s key = some (lpa, (slot : Int)))
    (hbm : (s.leaf lpa).bitmap < 2 ^ 14)
    (hkeep : (s.leaf lpa).num > 1 ∨ s.root_level = 0) :
    ∃ s', del s key = Res.ok s' ∧
      s'.node = s.node ∧ s'.root_level = s.root_level ∧ s'.tree_root = s.tree_root ∧
      s'.first_leaf = s.first_leaf ∧ s'.nvmpool = s.nvmpool ∧ s'.dpool = s.dpool ∧
      (∀ a, a ≠ lpa → s'.leaf a = s.leaf a) ∧
      (s.leaf lpa).holds key slot ∧
      (∀ j, (s'.leaf lpa).bitmap.testBit j = ((s.leaf lpa).bitmap.testBit j && decide (j ≠ slot))) ∧
      (s.leaf lpa).lock = 0 ∧ (s'.leaf lpa).lock = 0 ∧
      (s'.leaf lpa).alt = (s.leaf lpa).alt ∧ (s'.leaf lpa).fgpt = (s.leaf lpa).fgpt ∧
      (s'.leaf lpa).ent = (s.leaf lpa).ent ∧ (s'.leaf lpa).next = (s.leaf lpa).next := by
  have hholds : (s.leaf lpa).holds key slot ∧ (s.leaf lpa).lock = 0 := by
    obtain ⟨lp, h1, _, h3, _⟩ := descend_reach s key _ _ h.2
    have h3' : (s.leaf lp).lock = 0 := h3
    simp only [lookup, h1, h3', ne_eq, not_true_eq_false, if_false, Option.some.injEq,
      Prod.mk.injEq] at hl
    obtain ⟨e1, e2⟩ := hl
    subst e1
    refine ⟨?_, h3'⟩
    rcases searchLeaf_sound (s.leaf lp) key with hr | ⟨j, hj, hh⟩
    · rw [hr] at e2; omega
    · rw [hj] at e2
      have : j = slot := by omega
      subst this
      exact hh
  refine ⟨_, del_keep s key lpa slot h hl hkeep, rfl, rfl, rfl, rfl, rfl, rfl, ?_, hholds.1, ?_,
    hholds.2, ?_⟩
  · intro a ha
    rw [State.leaf_setLeaf_other _ _ _ _ ha]
  · intro j
    rw [State.leaf_setLeaf_same]
    exact testBit_clr _ _ _ hbm (by have := hholds.1.1; omega)
  · rw [State.leaf_setLeaf_same]
    exact ⟨rfl, rfl, rfl, rfl, rfl⟩

set_option maxRecDepth 100000 in
/-- C16 at a concrete input: `del(5)` on the root leaf holding `1..10`. -/
theorem C16_del_keeps_leaf_witness :
    TreeOK exState10 ∧ lookup exState10 5 = some (4096, ((8 : Nat) : Int)) ∧
    ∃ s', del exState10 5 = Res.ok s' ∧ s'.node = exState10.node ∧
      (∀ j, (s'.leaf 4096).bitmap.testBit j =
        ((exState10.leaf 4096).bitmap.testBit j && decide (j ≠ 8))) :=
  ⟨by decide, by decide,
   let ⟨s', h1, h2, _, _, _, _, _, _, _, h10, _⟩ :=
     C16_del_keeps_leaf exState10 5 4096 8 (by decide) (by decide) (by decide) (by decide)
   ⟨s', h1, h2, h10⟩⟩

end LBTree


namespace LBTree

/-! ## Fingerprints across the publishing block of a leaf insert -/

theorem bleaf.k_setEnt (lp : bleaf) (t i : Nat) (e : IdxEntry) (ht : t < lp.ent.length) :
    (lp.setEnt t e).k i = if i = t then e.k else lp.k i := by
  unfold bleaf.k
  rw [bleaf.entAt_setEnt lp t i e ht]
  split <;> rfl

theorem moveLoop_fg (last : Nat) (hlast : last ≤ 13) :
    ∀ (fuel to_ from_ bm : Nat) (lp : bleaf) (m : bleafMeta),
    bm < 2 ^ 14 → lp.ent.length = 14 → m.fgpt.length = 14 → 3 ≤ to_ → to_ + fuel = last + 1 →
    from_ + fuel ≤ 3 →
    (∀ f, from_ ≤ f → f < 3 → bm.testBit f = true) →
    FgOK lp m bm →
    FgOK (moveLoop last fuel to_ from_ bm lp m).1 (moveLoop last fuel to_ from_ bm lp m).2.1
      (moveLoop last fuel to_ from_ bm lp m).2.2.1 := by
  intro fuel
  induction fuel with
  | zero =>
    intro to_ from_ bm lp m _ _ _ _ _ _ _ h
    exact h
  | succ n ih =>
    intro to_ from_ bm lp m hbm hlen hfl hto hfuel hfrom hsrc hfg
    have hto_le : to_ ≤ last := by omega
    have hto14 : to_ < 14 := by omega
    by_cases hbit : bm &&& (1 <<< to_) = 0
    · have hf2 : from_ < 3 := by omega
      have hlive : bm.testBit from_ = true := hsrc from_ (le_refl _) hf2
      have hz : (bm ||| (1 <<< to_)) % 2 ^ 16 < 2 ^ 14 := setBit_lt bm to_ hbm hto14
      have hb1 : ∀ i, ((((bm ||| (1 <<< to_)) % 2 ^ 16) &&& bnot32 (1 <<< from_)) % 2 ^ 16).testBit i
          = ((bm.testBit i || decide (i = to_)) && decide (i ≠ from_)) := by
        intro i
        rw [testBit_clrBit _ from_ i hz (by omega), testBit_setBit bm to_ i hbm hto14]
      have hb1lt := clrBit_lt ((bm ||| (1 <<< to_)) % 2 ^ 16) from_ hz (by omega)
      have hlen1 : (lp.setEnt to_ (lp.entAt from_)).ent.length = 14 := by
        simp [bleaf.setEnt, hlen]
      have hstep : moveLoop last (n + 1) to_ from_ bm lp m =
          moveLoop last n (to_ + 1) (from_ + 1)
            ((((bm ||| (1 <<< to_)) % 2 ^ 16) &&& bnot32 (1 <<< from_)) % 2 ^ 16)
            (lp.setEnt to_ (lp.entAt from_))
            { m with fgpt := m.fgpt.set to_ (m.fgpt.getD from_ 0) } := by
        simp [moveLoop, hto_le, hbit]
      rw [hstep]
      apply ih (to_ + 1) (from_ + 1) _ _ _ hb1lt hlen1 (by simp [hfl]) (by omega) (by omega)
        (by omega)
      · intro f h1 h2
        rw [hb1, hsrc f (by omega) h2]
        have : ¬ f = from_ := by omega
        simp [this]
      · intro i hi hb
        rw [hb1] at hb
        show (m.fgpt.set to_ (m.fgpt.getD from_ 0)).getD i 0 = _
        rw [natList_getD_set _ _ _ _ (by omega), bleaf.k_setEnt lp to_ i _ (by omega)]
        by_cases hit : i = to_
        · rw [if_pos hit, if_pos hit]
          exact hfg from_ (by omega) hlive
        · rw [if_neg hit, if_neg hit]
          simp [hit] at hb
          exact hfg i hi hb.1
    · have hstep : moveLoop last (n + 1) to_ from_ bm lp m =
          moveLoop last n (to_ + 1) from_ bm lp m := by
        simp [moveLoop, hto_le, hbit]
      rw [hstep]
      exact ih (to_ + 1) from_ bm lp m hbm hlen hfl (by omega) (by omega) (by omega) hsrc hfg

/-- The publishing block keeps the leaf fingerprint-consistent: if the
fingerprints of the meta copy and those of word 1 in memory match the keys on
the live slots, the leaf written back is fingerprint-consistent. -/
theorem leafPut_fg (lp : bleaf) (m : bleafMeta) (key : Int) (ptr : Nat)
    (hbm : m.bitmap < 2 ^ 14) (hlen : lp.ent.length = 14) (hfl : m.fgpt.length = 14)
    (hfull : m.bitmap ≠ 0x3fff) (hfg : FgOK lp m m.bitmap)
    (hmem : ∀ i, 6 ≤ i → i < 14 → m.bitmap.testBit i = true → lp.fg i = hashcode1B (lp.k i)) :
    (leafPut lp m key ptr (hashcode1B key)).fgptOK := by
  obtain ⟨hs14, hsclr, hsall⟩ := lowest_clear m.bitmap hbm hfull
  have hb1 : ∀ i, ((m.bitmap ||| (1 <<< (bitScan (bnot32 m.bitmap) - 1))) % 2 ^ 16).testBit i
      = (m.bitmap.testBit i || decide (i = bitScan (bnot32 m.bitmap) - 1)) :=
    fun i => testBit_setBit _ _ i hbm hs14
  have hz := setBit_lt m.bitmap _ hbm hs14
  have hfg1 : FgOK (lp.setEnt (bitScan (bnot32 m.bitmap) - 1) ⟨key, ptr⟩)
      { m with fgpt := m.fgpt.set (bitScan (bnot32 m.bitmap) - 1) (hashcode1B key) }
      ((m.bitmap ||| (1 <<< (bitScan (bnot32 m.bitmap) - 1))) % 2 ^ 16) := by
    intro i hi hb
    rw [hb1] at hb
    show (m.fgpt.set _ _).getD i 0 = _
    rw [natList_getD_set _ _ _ _ (by omega), bleaf.k_setEnt lp _ i _ (by omega)]
    by_cases his : i = bitScan (bnot32 m.bitmap) - 1
    · rw [if_pos his, if_pos his]
    · rw [if_neg his, if_neg his]
      simp [his] at hb
      exact hfg i hi hb
  by_cases h3 : bitScan (bnot32 m.bitmap) - 1 < 3
  · rw [leafPut_low lp m key ptr (hashcode1B key) h3]
    intro i hi hb
    have hb' : ((m.bitmap ||| (1 <<< (bitScan (bnot32 m.bitmap) - 1))) % 2 ^ 16).testBit i = true := by
      have : ((m.bitmap ||| (1 <<< (bitScan (bnot32 m.bitmap) - 1))) % 2 ^ 16) % 2 ^ 14
          = (m.bitmap ||| (1 <<< (bitScan (bnot32 m.bitmap) - 1))) % 2 ^ 16 := Nat.mod_eq_of_lt hz
      rw [← this]; exact hb
    have hfgi : ((lp.setEnt (bitScan (bnot32 m.bitmap) - 1) ⟨key, ptr⟩).setWord0
        { m with fgpt := m.fgpt.set (bitScan (bnot32 m.bitmap) - 1) (hashcode1B key),
                 bitmap := ((m.bitmap ||| (1 <<< (bitScan (bnot32 m.bitmap) - 1))) % 2 ^ 16) % 2 ^ 14 }).fg i
        = if i < 6 then (m.fgpt.set (bitScan (bnot32 m.bitmap) - 1) (hashcode1B key)).getD i 0
          else lp.fg i :=
      getD_take_append_drop _ lp.fgpt (by simp [hfl]) i
    have hk : ((lp.setEnt (bitScan (bnot32 m.bitmap) - 1) ⟨key, ptr⟩).setWord0
        { m with fgpt := m.fgpt.set (bitScan (bnot32 m.bitmap) - 1) (hashcode1B key),
                 bitmap := ((m.bitmap ||| (1 <<< (bitScan (bnot32 m.bitmap) - 1))) % 2 ^ 16) % 2 ^ 14 }).k i
        = (lp.setEnt (bitScan (bnot32 m.bitmap) - 1) ⟨key, ptr⟩).k i := rfl
    rw [hfgi, hk]
    by_cases h6 : i < 6
    · rw [if_pos h6]
      exact hfg1 i hi hb'
    · rw [if_neg h6, bleaf.k_setEnt lp _ i _ (by omega)]
      have his : ¬ i = bitScan (bnot32 m.bitmap) - 1 := by omega
      rw [if_neg his]
      rw [hb1] at hb'
      simp [his] at hb'
      exact hmem i (by omega) hi hb'
  · rw [leafPut_high lp m key ptr (hashcode1B key) h3]
    have h3' : 3 ≤ bitScan (bnot32 m.bitmap) - 1 := by omega
    obtain ⟨hl, hl2, hl3⟩ := last_slot_in_line_bounds _ h3' hs14
    have hlen1 : (lp.setEnt (bitScan (bnot32 m.bitmap) - 1) ⟨key, ptr⟩).ent.length = 14 := by
      simp [bleaf.setEnt, hlen]
    have hsrc : ∀ f, 0 ≤ f → f < 3 →
        ((m.bitmap ||| (1 <<< (bitScan (bnot32 m.bitmap) - 1))) % 2 ^ 16).testBit f = true := by
      intro f _ hf
      rw [hb1, hsall f (by omega)]; simp
    have hspec := moveLoop_spec _ hl2 (last_slot_in_line (bitScan (bnot32 m.bitmap) - 1)
        - (bitScan (bnot32 m.bitmap) - 1)) (bitScan (bnot32 m.bitmap) - 1 + 1) 0 _
        (lp.setEnt (bitScan (bnot32 m.bitmap) - 1) ⟨key, ptr⟩)
        { m with fgpt := m.fgpt.set (bitScan (bnot32 m.bitmap) - 1) (hashcode1B key) }
        hz hlen1 (by omega) (by omega) (by omega) hsrc
    have hfgm := moveLoop_fg _ hl2 (last_slot_in_line (bitScan (bnot32 m.bitmap) - 1)
        - (bitScan (bnot32 m.bitmap) - 1)) (bitScan (bnot32 m.bitmap) - 1 + 1) 0 _
        (lp.setEnt (bitScan (bnot32 m.bitmap) - 1) ⟨key, ptr⟩)
        { m with fgpt := m.fgpt.set (bitScan (bnot32 m.bitmap) - 1) (hashcode1B key) }
        hz hlen1 (by simp [hfl]) (by omega) (by omega) (by omega) hsrc hfg1
    intro i hi hb
    apply hfgm i hi
    have hmod := Nat.mod_eq_of_lt hspec.2.1
    rw [← hmod]
    exact hb

end LBTree


namespace LBTree

/-! ## Fingerprints across the leaf split -/

theorem sortedPos_lt (lp : bleaf) (i : Nat) (hi : i < 14) : (sortedPos lp).getD i 0 < 14 := by
  rw [sortedPos_getD]
  exact (sorted_pos_spec lp).1 _ (by omega) (by omega)

/-- Both leaves written by the split of a full, fingerprint-consistent leaf
are fingerprint-consistent. -/
theorem leafSplit_fg (lp new0 : bleaf) (newa : Nat) (root_level key : Int) (ptr : Nat)
    (hfull : lp.bitmap = 0x3fff) (hlen : lp.ent.length = 14) (hfl : lp.fgpt.length = 14)
    (hnew : new0.ent.length = 14) (hnewf : new0.fgpt.length = 14) (hfg : lp.fgptOK) :
    (leafSplit lp new0 newa root_level key ptr (hashcode1B key)).lp.fgptOK ∧
    (leafSplit lp new0 newa root_level key ptr (hashcode1B key)).newp.fgptOK := by
  have hall : ∀ i, i < 14 → lp.fg i = hashcode1B (lp.k i) := by
    intro i hi
    apply hfg i hi
    rw [hfull]
    interval_cases i <;> decide
  obtain ⟨c1, c2, _, c4, c5, c6, c7⟩ :=
    moveToNew_spec lp (sortedPos lp) (sortedPos_lt lp) 7 7 new0 0 rfl hnew hnewf (by norm_num)
  rw [← splitMove_eq] at c1 c2 c4 c5 c6 c7
  have hf32 : (splitMove lp new0).2 < 2 ^ 32 :=
    lt_of_lt_of_le c4 (Nat.pow_le_pow_right (by norm_num) (by norm_num))
  have hbit : ∀ b, (lp.bitmap &&& bnot32 (splitMove lp new0).2).testBit b
      = (decide (b < 14) && !(splitMove lp new0).2.testBit b) := by
    intro b
    rw [Nat.testBit_and, testBit_bnot32 _ b hf32, hfull]
    have h14 : (0x3fff : Nat) = 2 ^ 14 - 1 := by norm_num
    rw [h14, Nat.testBit_two_pow_sub_one]
    by_cases hb : b < 14
    · have : b < 32 := by omega
      simp [hb, this]
    · simp [hb]
  have hk7 : ∀ i, 7 ≤ i → i < 14 →
      (splitMove lp new0).1.fg i = hashcode1B ((splitMove lp new0).1.k i) := by
    intro i h1 h2
    have e1 := c5 i
    have e2 := c6 i
    rw [if_pos ⟨h1, h2⟩] at e1 e2
    unfold bleaf.k
    rw [e1, e2]
    exact hall _ (sortedPos_lt lp i h2)
  by_cases hgt : key > splitKey lp
  · obtain ⟨e1, e2⟩ := leafSplit_gt lp new0 newa root_level key ptr (hashcode1B key) hgt
    rw [e1, e2]
    constructor
    · intro i hi _
      exact hall i hi
    · intro i hi hb
      rw [testBit_3fc0] at hb
      simp at hb
      show ((splitMove lp new0).1.fgpt.set (LEAF_KEY_NUM / 2 - 1) (hashcode1B key)).getD i 0 =
        hashcode1B (((splitMove lp new0).1.ent.set (LEAF_KEY_NUM / 2 - 1) ⟨key, ptr⟩).getD i default).k
      rw [natList_getD_set _ _ _ _ (by rw [c2]; decide),
        bleaf.entAt_set _ _ _ _ (by rw [c1]; decide)]
      by_cases h6 : i = LEAF_KEY_NUM / 2 - 1
      · rw [if_pos h6, if_pos h6]
      · rw [if_neg h6, if_neg h6]
        have h6' : i ≠ 6 := h6
        exact hk7 i (by omega) hi
  · obtain ⟨e1, e2⟩ := leafSplit_le lp new0 newa root_level key ptr (hashcode1B key) (not_lt.1 hgt)
    rw [e1, e2]
    constructor
    · apply leafPut_fg
      · show lp.bitmap &&& bnot32 (splitMove lp new0).2 < 2 ^ 14
        apply Nat.lt_pow_two_of_testBit
        intro i hi
        rw [hbit]
        have : ¬ i < 14 := by omega
        simp [this]
      · exact hlen
      · exact hfl
      · show lp.bitmap &&& bnot32 (splitMove lp new0).2 ≠ 0x3fff
        intro hcon
        have h7 := sortedPos_lt lp 7 (by norm_num)
        have hb := hbit ((sortedPos lp).getD 7 0)
        rw [hcon] at hb
        have hfr : (splitMove lp new0).2.testBit ((sortedPos lp).getD 7 0) = true :=
          (c7 _).2 (Or.inr ⟨7, le_refl _, by norm_num, rfl⟩)
        rw [hfr] at hb
        have h14 : (0x3fff : Nat) = 2 ^ 14 - 1 := by norm_num
        rw [h14, Nat.testBit_two_pow_sub_one] at hb
        simp at hb
        rw [← List.getD_eq_getElem?_getD] at hb
        omega
      · intro i hi _
        exact hall i hi
      · intro i _ hi _
        exact hall i hi
    · intro i hi hb
      rw [testBit_3f80] at hb
      simp at hb
      exact hk7 i hb.1 hi

end LBTree


namespace LBTree

/-! ## What the inner-node parts of `insert` do to the leaves -/

theorem bleaf.sameButLock_refl (l : bleaf) : l.sameButLock l := ⟨rfl, rfl, rfl, rfl, rfl⟩

theorem bleaf.sameButLock_trans {a b c : bleaf} (h1 : a.sameButLock b) (h2 : b.sameButLock c) :
    a.sameButLock c :=
  ⟨h2.1.trans h1.1, h2.2.1.trans h1.2.1, h2.2.2.1.trans h1.2.2.1, h2.2.2.2.1.trans h1.2.2.2.1,
    h2.2.2.2.2.trans h1.2.2.2.2⟩

theorem bleaf.fgptOK_of_same {l l' : bleaf} (h : l.sameButLock l') (hfg : l.fgptOK) : l'.fgptOK := by
  intro i hi hb
  have := hfg i hi (by rw [← h.1]; exact hb)
  unfold bleaf.fg bleaf.k bleaf.entAt at *
  rw [h.2.2.1, h.2.2.2.1]
  exact this

theorem lockFullAncestors_frame (pt : Path) (rl : Int) :
    ∀ (fuel i : Nat) (s s2 : State), lockFullAncestors pt rl fuel i s = Res.ok s2 →
    s2.leaf = s.leaf ∧ s2.nvmpool = s.nvmpool ∧ s2.dpool = s.dpool ∧
    s2.root_level = s.root_level ∧ s2.tree_root = s.tree_root ∧ s2.first_leaf = s.first_leaf := by
  intro fuel
  induction fuel with
  | zero =>
    intro i s s2 h
    simp only [lockFullAncestors, Res.ok.injEq] at h
    subst h
    exact ⟨rfl, rfl, rfl, rfl, rfl, rfl⟩
  | succ n ih =>
    intro i s s2 h
    unfold lockFullAncestors at h
    by_cases hi : (i : Int) ≤ rl
    · simp only [hi, if_true] at h
      rcases hpa : pt.parray i with _ | pa
      · simp [hpa] at h
      · rcases hf : pt.isfull i with _ | f
        · simp [hpa, hf] at h
        · simp only [hpa, hf] at h
          cases f
          · simp only [Bool.not_false, if_true, Res.ok.injEq] at h
            subst h
            exact ⟨rfl, rfl, rfl, rfl, rfl, rfl⟩
          · simp only [Bool.not_true, Bool.false_eq_true, if_false] at h
            exact ih _ (s.setNode pa ((s.node pa).setLock 1)) _ h
    · simp only [hi, if_false, Res.ok.injEq] at h
      subst h
      exact ⟨rfl, rfl, rfl, rfl, rfl, rfl⟩

theorem nvmpool_alloc_node_frame (s s3 : State) (a : Nat) (h : nvmpool_alloc_node s = some (a, s3)) :
    s3.leaf = s.leaf ∧ s3.node = s.node ∧ s3.dpool = s.dpool ∧
    s3.root_level = s.root_level ∧ s3.tree_root = s.tree_root ∧ s3.first_leaf = s.first_leaf := by
  unfold nvmpool_alloc_node at h
  split at h
  · simp only [Option.some.injEq, Prod.mk.injEq] at h
    obtain ⟨_, h⟩ := h
    subst h
    exact ⟨rfl, rfl, rfl, rfl, rfl, rfl⟩
  · split at h
    · simp only [Option.some.injEq, Prod.mk.injEq] at h
      obtain ⟨_, h⟩ := h
      subst h
      exact ⟨rfl, rfl, rfl, rfl, rfl, rfl⟩
    · exact absurd h (by simp)

theorem nvmpool_alloc_node_addr (s s2 s3 : State) (a : Nat) (hp : s2.nvmpool = s.nvmpool)
    (h : nvmpool_alloc_node s2 = some (a, s3)) : ∃ s3', nvmpool_alloc_node s = some (a, s3') := by
  unfold nvmpool_alloc_node at h ⊢
  rw [hp] at h
  by_cases hf : s.nvmpool.free_node ≠ 0
  · rw [if_pos hf] at h ⊢
    simp only [Option.some.injEq, Prod.mk.injEq] at h
    obtain ⟨ha, _⟩ := h
    exact ⟨_, by rw [← ha]⟩
  · rw [if_neg hf] at h ⊢
    rcases hal : s.nvmpool.alloc 256 with _ | ⟨p, m⟩
    · simp [hal] at h
    · simp only [hal, Option.some.injEq, Prod.mk.injEq] at h
      obtain ⟨ha, _⟩ := h
      exact ⟨_, by rw [← ha]⟩

theorem mempool_alloc_node_frame (s s3 : State) (a : Nat) (h : mempool_alloc_node s = some (a, s3)) :
    s3.leaf = s.leaf ∧ s3.node = s.node ∧ s3.nvmpool = s.nvmpool ∧
    s3.root_level = s.root_level ∧ s3.tree_root = s.tree_root ∧ s3.first_leaf = s.first_leaf := by
  unfold mempool_alloc_node at h
  split at h
  · simp only [Option.some.injEq, Prod.mk.injEq] at h
    obtain ⟨_, h⟩ := h
    subst h
    exact ⟨rfl, rfl, rfl, rfl, rfl, rfl⟩
  · split at h
    · simp only [Option.some.injEq, Prod.mk.injEq] at h
      obtain ⟨_, h⟩ := h
      subst h
      exact ⟨rfl, rfl, rfl, rfl, rfl, rfl⟩
    · exact absurd h (by simp)

theorem newRoot_leaf (s s' : State) (tl lev key : Int) (ptr : Nat)
    (h : newRoot s tl lev key ptr = Res.ok s') :
    (∀ a, (s.leaf a).sameButLock (s'.leaf a)) ∧ s'.nvmpool = s.nvmpool ∧
    s'.first_leaf = s.first_leaf := by
  unfold newRoot at h
  split at h
  · exact absurd h (by simp)
  · rename_i newa s1 hal
    obtain ⟨e1, _, e3, _, _, e6⟩ := mempool_alloc_node_frame s s1 newa hal
    simp only [Res.ok.injEq] at h
    subst h
    by_cases htl : tl > 0
    · simp only [htl, if_true]
      refine ⟨fun a => ?_, e3, e6⟩
      show (s.leaf a).sameButLock (s1.leaf a)
      rw [e1]; exact bleaf.sameButLock_refl _
    · simp only [htl, if_false]
      refine ⟨fun a => ?_, e3, e6⟩
      show (s.leaf a).sameButLock (if a = s1.tree_root then _ else s1.leaf a)
      split
      · rename_i ha
        subst ha
        rw [← e1]
        exact ⟨rfl, rfl, rfl, rfl, rfl⟩
      · rw [e1]; exact bleaf.sameButLock_refl _

theorem insertNonleaf_leaf (pt : Path) (tl : Int) :
    ∀ (fuel : Nat) (lev key : Int) (ptr : Nat) (s s' : State),
    insertNonleaf pt tl fuel lev key ptr s = Res.ok s' →
    (∀ a, (s.leaf a).sameButLock (s'.leaf a)) ∧ s'.nvmpool = s.nvmpool ∧
    s'.first_leaf = s.first_leaf := by
  intro fuel
  induction fuel with
  | zero =>
    intro lev key ptr s s' h
    exact absurd h (by simp [insertNonleaf])
  | succ n ih =>
    intro lev key ptr s s' h
    unfold insertNonleaf at h
    by_cases hl : lev ≤ tl
    · simp only [hl, if_true] at h
      rcases hpa : pt.parray lev.toNat with _ | pa
      · simp [hpa] at h
      · rcases hpp : pt.ppos lev.toNat with _ | pp
        · simp [hpa, hpp] at h
        · simp only [hpa, hpp] at h
          by_cases hn : (s.node pa).num < NON_LEAF_KEY_NUM
          · simp only [hn, if_true, Res.ok.injEq] at h
            subst h
            exact ⟨fun a => bleaf.sameButLock_refl _, rfl, rfl⟩
          · simp only [hn, if_false] at h
            rcases hal : mempool_alloc_node s with _ | ⟨newa, s1⟩
            · simp [hal] at h
            · simp only [hal] at h
              obtain ⟨e1, _, e3, _, _, e6⟩ := mempool_alloc_node_frame s s1 newa hal
              obtain ⟨c1, c2, c3⟩ := ih _ _ _ _ _ h
              refine ⟨fun a => ?_, c2.trans e3, c3.trans e6⟩
              have := c1 a
              simp only [State.setNode] at this
              rw [e1] at this
              exact this
    · simp only [hl, if_false] at h
      exact newRoot_leaf s s' tl lev key ptr h

end LBTree


namespace LBTree

set_option maxRecDepth 100000

/-! ## C11: fingerprints across `insert` -/

/-- C11. Fingerprint consistency is preserved by `insert`.  On a quiescent
tree in which the leaf reached by the descent and the frame the NVM pool
hands out next have fourteen entries and fourteen fingerprints (and the
former a 14-bit bitmap), after a completed `insert(key, ptr)` every leaf frame is
fingerprint-consistent (`fgpt[i] = hashcode1B(k(i))` on every live slot) unless
the insert left its bitmap, fingerprints and entries untouched; so every leaf
that was consistent before is consistent after, and every leaf written by the
insert (the leaf published in line 0, the leaf published with line
rebalancing, the old and the new leaf of a split) is consistent. -/
theorem C11_insert_keeps_fingerprints (s : State) (key : Int) (ptr : Nat) (s' : State)
    (h : TreeOK s)
    (hlp : ∀ lpa, descend s key s.root_level.toNat s.tree_root = some lpa →
      (s.leaf lpa).bitmap < 2 ^ 14 ∧ (s.leaf lpa).ent.length = 14 ∧ (s.leaf lpa).fgpt.length = 14)
    (hnew : ∀ newa s3, nvmpool_alloc_node s = some (newa, s3) →
      (s.leaf newa).ent.length = 14 ∧ (s.leaf newa).fgpt.length = 14)
    (hins : insert s key ptr = Res.ok s') :
    (∀ a, (s'.leaf a).fgptOK ∨ (s.leaf a).sameButLock (s'.leaf a)) ∧
    (∀ a, (s.leaf a).fgptOK → (s'.leaf a).fgptOK) ∧
    ((∀ a, (s.leaf a).fgptOK) → ∀ a, (s'.leaf a).fgptOK) := by
  have key1 : ∀ a, (s'.leaf a).fgptOK ∨ (s.leaf a).sameButLock (s'.leaf a) := by
    obtain ⟨lpa, h1, _, h3, hfgl⟩ := descend_reach s key _ _ h.2
    have h3' : (s.leaf lpa).lock = 0 := h3
    obtain ⟨hbm, hlen, hfl⟩ := hlp lpa h1
    rcases searchLeaf_spec (s.leaf lpa) key hfgl with ⟨hr, hk⟩ | ⟨j, hr, _, _⟩
    · by_cases hfull : (s.leaf lpa).bitmap = 0x3fff
      · -- the leaf is full: split
        obtain ⟨pt0, _, heq⟩ := insert_full s key ptr lpa h h1 hfull hk
        rw [heq] at hins
        rcases hlk : lockFullAncestors ((pt0.setParray 0 lpa).setIsfull 0 true) s.root_level
            s.root_level.toNat 1 (s.setLeaf lpa { s.leaf lpa with lock := 1 }) with s2 | _ | _ | _
        · simp only [hlk] at hins
          obtain ⟨l1, p1, _, _, _, _⟩ := lockFullAncestors_frame _ _ _ _ _ _ hlk
          rcases hal : nvmpool_alloc_node s2 with _ | ⟨newa, s3⟩
          · simp [hal] at hins
          · simp only [hal] at hins
            obtain ⟨l2, _, _, _, _, _⟩ := nvmpool_alloc_node_frame s2 s3 newa hal
            obtain ⟨c1, _, _⟩ := insertNonleaf_leaf _ _ _ _ _ _ _ _ hins
            have hleaf3 : ∀ a, s3.leaf a = (s.setLeaf lpa { s.leaf lpa with lock := 1 }).leaf a := by
              intro a; rw [l2, l1]
            have hlp3 : s3.leaf lpa = { s.leaf lpa with lock := 1 } := by
              rw [hleaf3, State.leaf_setLeaf_same]
            have hnew3 : (s3.leaf newa).ent.length = 14 ∧ (s3.leaf newa).fgpt.length = 14 := by
              rw [hleaf3]
              by_cases hn : newa = lpa
              · subst hn
                rw [State.leaf_setLeaf_same]
                exact ⟨hlen, hfl⟩
              · rw [State.leaf_setLeaf_other _ _ _ _ hn]
                obtain ⟨s3', hal'⟩ := nvmpool_alloc_node_addr s s2 s3 newa p1 hal
                exact hnew newa s3' hal'
            have hsp := leafSplit_fg (s3.leaf lpa) (s3.leaf newa) newa s3.root_level key ptr
              (by rw [hlp3]; exact hfull) (by rw [hlp3]; exact hlen) (by rw [hlp3]; exact hfl)
              hnew3.1 hnew3.2 (by rw [hlp3]; exact hfgl)
            intro a
            have ca := c1 a
            by_cases ha : a = lpa
            · left
              subst ha
              rw [State.leaf_setLeaf_same] at ca
              exact bleaf.fgptOK_of_same ca hsp.1
            · rw [State.leaf_setLeaf_other _ _ _ _ ha] at ca
              by_cases hn : a = newa
              · left
                subst hn
                rw [State.leaf_setLeaf_same] at ca
                exact bleaf.fgptOK_of_same ca hsp.2
              · right
                rw [State.leaf_setLeaf_other _ _ _ _ hn, hleaf3,
                  State.leaf_setLeaf_other _ _ _ _ ha] at ca
                exact ca
        · simp [hlk] at hins
        · simp [hlk] at hins
        · simp [hlk] at hins
      · -- the leaf has an empty slot
        have heq := insert_nonfull s key ptr lpa h h1 hfull hk
        rw [heq] at hins
        simp only [Res.ok.injEq] at hins
        subst hins
        intro a
        by_cases ha : a = lpa
        · left
          subst ha
          rw [State.leaf_setLeaf_same]
          exact leafPut_fg ({ s.leaf a with lock := 1 } : bleaf)
            { ({ s.leaf a with lock := 1 } : bleaf).getMeta with lock := 0 } key ptr
            hbm hlen hfl hfull (fun i hi hb => hfgl i hi hb) (fun i _ hi hb => hfgl i hi hb)
        · right
          rw [State.leaf_setLeaf_other _ _ _ _ ha, State.leaf_setLeaf_other _ _ _ _ ha]
          exact bleaf.sameButLock_refl _
    · -- the key is present: nothing is written
      obtain ⟨lp', pt', h5, h6⟩ := descendPath_reach s key _ _ Path.empty h.2
      rw [h1] at h6
      cases h6
      have hge : searchLeaf (s.leaf lpa) key ≥ 0 := by rw [hr]; omega
      simp only [insert, h5, h3', ne_eq, not_true_eq_false, if_false, hge, if_true,
        Res.ok.injEq] at hins
      subst hins
      exact fun a => Or.inr (bleaf.sameButLock_refl _)
  have key2 : ∀ a, (s.leaf a).fgptOK → (s'.leaf a).fgptOK := by
    intro a ha
    rcases key1 a with h1 | h1
    · exact h1
    · exact bleaf.fgptOK_of_same h1 ha
  exact ⟨key1, key2, fun hall a => key2 a (hall a)⟩

/-! ## C8: the leaf split inside `insert` -/

/-- `scanDown` reads the leaf only through its keys. -/
theorem scanDown_congr (p q : bleaf) (hk : ∀ i, p.k i = q.k i) (pos : List Nat) (key l : Int) :
    ∀ (fuel : Nat) (r : Int), scanDown p pos key l fuel r = scanDown q pos key l fuel r := by
  intro fuel
  induction fuel with
  | zero => intro r; rfl
  | succ n ih => intro r; simp only [scanDown, hk, ih]

/-- `scanUp` reads the leaf only through its keys. -/
theorem scanUp_congr (p q : bleaf) (hk : ∀ i, p.k i = q.k i) (pos : List Nat) (key r : Int) :
    ∀ (fuel : Nat) (l : Int), scanUp p pos key r fuel l = scanUp q pos key r fuel l := by
  intro fuel
  induction fuel with
  | zero => intro l; rfl
  | succ n ih => intro l; simp only [scanUp, hk, ih]

/-- The partition loop reads the leaf only through its keys. -/
theorem partitionLoop_congr (p q : bleaf) (hk : ∀ i, p.k i = q.k i) (key : Int) :
    ∀ (fuel : Nat) (l r : Int) (pos : List Nat),
    partitionLoop p key fuel l r pos = partitionLoop q key fuel l r pos := by
  intro fuel
  induction fuel with
  | zero => intro l r pos; rfl
  | succ n ih =>
    intro l r pos
    simp only [partitionLoop, scanDown_congr p q hk, scanUp_congr p q hk, ih]

/-- `qsortBleaf` reads the leaf only through its keys. -/
theorem qsortBleaf_congr (p q : bleaf) (hk : ∀ i, p.k i = q.k i) :
    ∀ (fuel : Nat) (a b : Int) (pos : List Nat),
    qsortBleaf p fuel a b pos = qsortBleaf q fuel a b pos := by
  intro fuel
  induction fuel with
  | zero => intro a b pos; rfl
  | succ n ih =>
    intro a b pos
    simp only [qsortBleaf, hk, partitionLoop_congr p q hk, ih]

/-- The lock bit that `insert` sets before the split does not change the
split key. -/
theorem splitKey_lock (lp : bleaf) (v : Nat) :
    splitKey ({ lp with lock := v } : bleaf) = splitKey lp := by
  unfold splitKey sortedPos
  rw [qsortBleaf_congr ({ lp with lock := v } : bleaf) lp (fun _ => rfl)]
  rfl

/-- Two leaf images that differ at most in the lock bit have the same live
entries, slots and bitmap. -/
theorem bleaf.sameButLock_view {l l' : bleaf} (h : l.sameButLock l') :
    (∀ e, l'.live e ↔ l.live e) ∧ (∀ i, l'.entAt i = l.entAt i) ∧ (∀ i, l'.k i = l.k i) ∧
    l'.bitmap = l.bitmap := by
  obtain ⟨hb, _, _, he, _⟩ := h
  refine ⟨fun e => ?_, fun i => ?_, fun i => ?_, hb⟩
  · unfold bleaf.live bleaf.liveWith bleaf.entAt
    rw [hb, he]
  · unfold bleaf.entAt
    rw [he]
  · unfold bleaf.k bleaf.entAt
    rw [he]

/-- C8. Leaf split.  On a quiescent tree, `insert(key, ptr)` reaches the leaf
`lpa`, which is full (`bitmap = 0x3fff`) with 14 pairwise distinct keys, none
of them `key`; the frame `newa` that the NVM pool hands out next is another
frame with fourteen entries and fingerprints.  If the insert returns the
state `s'`, then with `split_key` the split key of the old leaf image:
`split_key` is the key of an old slot and exactly 7 old keys are below it (it
is the 8th smallest); Part 3 of the insert is entered at level 1 with the
entry `(split_key, newa)`, on a state whose leaves are those of `s'` up to
lock bits; in `s'` the live entries of the old leaf are exactly the old
entries with a key below the split key, plus `(key, ptr)` when
`key <= split_key`; slots 7..13 of the new leaf are live and hold exactly the
old entries with a key at or above the split key, in ascending key order;
slot 6 of the new leaf is live iff `key > split_key` and then holds
`(key, ptr)`; slots 0..5 of the new leaf are empty; every live key of the old
leaf is below the split key and every live key of the new leaf is at or above
it. -/
theorem C8_leaf_split (s : State) (key : Int) (ptr : Nat) (lpa : Nat) (s' : State)
    (hok : TreeOK s) (hd : descend s key s.root_level.toNat s.tree_root = some lpa)
    (hfull : (s.leaf lpa).bitmap = 0x3fff) (hlen : (s.leaf lpa).ent.length = 14)
    (hdist : ∀ i j, i < 14 → j < 14 → (s.leaf lpa).k i = (s.leaf lpa).k j → i = j)
    (hkey : ∀ j, j < 14 → (s.leaf lpa).k j ≠ key)
    (hnew : ∀ newa s3, nvmpool_alloc_node s = some (newa, s3) →
      newa ≠ lpa ∧ (s.leaf newa).ent.length = 14 ∧ (s.leaf newa).fgpt.length = 14)
    (hins : insert s key ptr = Res.ok s') :
    ∃ newa, (∃ s3, nvmpool_alloc_node s = some (newa, s3)) ∧ newa ≠ lpa ∧
    (∃ pt s4, insert s key ptr
        = insertNonleaf pt s.root_level (s.root_level.toNat + 1) 1
            (splitKey (s.leaf lpa)) newa s4 ∧
      ∀ a, (s4.leaf a).sameButLock (s'.leaf a)) ∧
    (∃ j, j < 14 ∧ (s.leaf lpa).k j = splitKey (s.leaf lpa)) ∧
    ((List.range 14).filter
      (fun j => decide ((s.leaf lpa).k j < splitKey (s.leaf lpa)))).length = 7 ∧
    (∀ e, (s'.leaf lpa).live e ↔
      ((∃ j, j < 14 ∧ (s.leaf lpa).k j < splitKey (s.leaf lpa) ∧ (s.leaf lpa).entAt j = e) ∨
       (key ≤ splitKey (s.leaf lpa) ∧ e = ⟨key, ptr⟩))) ∧
    (∀ i, 7 ≤ i → i < 14 →
      (s'.leaf newa).bitmap.testBit i = true ∧
      ∃ j, j < 14 ∧ splitKey (s.leaf lpa) ≤ (s.leaf lpa).k j ∧
        (s'.leaf newa).entAt i = (s.leaf lpa).entAt j) ∧
    (∀ j, j < 14 → splitKey (s.leaf lpa) ≤ (s.leaf lpa).k j → ∃ i, 7 ≤ i ∧ i < 14 ∧
        (s'.leaf newa).entAt i = (s.leaf lpa).entAt j) ∧
    (∀ i i', 7 ≤ i → i < i' → i' < 14 → (s'.leaf newa).k i < (s'.leaf newa).k i') ∧
    ((s'.leaf newa).bitmap.testBit 6 = true ↔ key > splitKey (s.leaf lpa)) ∧
    (key > splitKey (s.leaf lpa) → (s'.leaf newa).entAt 6 = ⟨key, ptr⟩) ∧
    (∀ i, i < 6 → (s'.leaf newa).bitmap.testBit i = false) ∧
    (∀ e, (s'.leaf lpa).live e → e.k < splitKey (s.leaf lpa)) ∧
    (∀ e, (s'.leaf newa).live e → splitKey (s.leaf lpa) ≤ e.k) := by
  have hk : ∀ j, ¬ (s.leaf lpa).holds key j := fun j hj => hkey j hj.1 hj.2.2
  obtain ⟨pt0, _, heq⟩ := insert_full s key ptr lpa hok hd hfull hk
  rw [heq] at hins
  rcases hlk : lockFullAncestors ((pt0.setParray 0 lpa).setIsfull 0 true) s.root_level
      s.root_level.toNat 1 (s.setLeaf lpa { s.leaf lpa with lock := 1 }) with s2 | _ | _ | _
  · simp only [hlk] at hins heq
    obtain ⟨l1, p1, _, r1, _, _⟩ := lockFullAncestors_frame _ _ _ _ _ _ hlk
    rcases hal : nvmpool_alloc_node s2 with _ | ⟨newa, s3⟩
    · simp [hal] at hins
    · simp only [hal] at hins heq
      obtain ⟨l2, _, _, r2, _, _⟩ := nvmpool_alloc_node_frame s2 s3 newa hal
      obtain ⟨s3', hal'⟩ := nvmpool_alloc_node_addr s s2 s3 newa p1 hal
      obtain ⟨hne, hnl, hnf⟩ := hnew newa s3' hal'
      obtain ⟨c1, _, _⟩ := insertNonleaf_leaf _ _ _ _ _ _ _ _ hins
      have hleaf3 : ∀ a, s3.leaf a = (s.setLeaf lpa { s.leaf lpa with lock := 1 }).leaf a := by
        intro a; rw [l2, l1]
      have hlp3 : s3.leaf lpa = { s.leaf lpa with lock := 1 } := by
        rw [hleaf3, State.leaf_setLeaf_same]
      have hnew3 : s3.leaf newa = s.leaf newa := by
        rw [hleaf3, State.leaf_setLeaf_other _ _ _ _ hne]
      have hrl3 : s3.root_level = s.root_level := by
        rw [r2, r1]; rfl
      have hsk : splitKey (s3.leaf lpa) = splitKey (s.leaf lpa) := by
        rw [hlp3]; exact splitKey_lock _ _
      have hk3 : ∀ j, (s3.leaf lpa).k j = (s.leaf lpa).k j := by
        intro j; rw [hlp3]; rfl
      have he3 : ∀ j, (s3.leaf lpa).entAt j = (s.leaf lpa).entAt j := by
        intro j; rw [hlp3]; rfl
      have hsp := leafSplit_spec (s3.leaf lpa) (s3.leaf newa) newa s3.root_level key ptr
        (hashcode1B key) (by rw [hlp3]; exact hfull) (by rw [hlp3]; exact hlen)
        (by rw [hnew3]; exact hnl) (by rw [hnew3]; exact hnf)
        (by intro i j hi hj; rw [hk3, hk3]; exact hdist i j hi hj)
        (by intro j hj; rw [hk3]; exact hkey j hj)
      simp only [hsk, hk3, he3] at hsp
      obtain ⟨q1, q2, q3, q4, q5, q6, q7, q8, q9, q10, q11, q12⟩ := hsp
      have cl := c1 lpa
      rw [State.leaf_setLeaf_same] at cl
      have cn := c1 newa
      rw [State.leaf_setLeaf_other _ _ _ _ hne, State.leaf_setLeaf_same] at cn
      obtain ⟨vl1, _, _, _⟩ := bleaf.sameButLock_view cl
      obtain ⟨vn1, vn2, vn3, vn4⟩ := bleaf.sameButLock_view cn
      refine ⟨newa, ⟨s3', hal'⟩, hne, ⟨(pt0.setParray 0 lpa).setIsfull 0 true, _, ?_, c1⟩, q2, q3, ?_, ?_, ?_, ?_, ?_, ?_, ?_, ?_, ?_⟩
      · rw [heq, q1, hrl3]
      · intro e; rw [vl1]; exact q4 e
      · intro i h1 h2; rw [vn4, vn2]; exact q5 i h1 h2
      · intro j h1 h2
        obtain ⟨i, g1, g2, g3⟩ := q6 j h1 h2
        exact ⟨i, g1, g2, by rw [vn2]; exact g3⟩
      · intro i i' h1 h2 h3; rw [vn3, vn3]; exact q7 i i' h1 h2 h3
      · rw [vn4]; exact q8
      · intro h; rw [vn2]; exact q9 h
      · intro i hi; rw [vn4]; exact q10 i hi
      · intro e he; exact q11 e ((vl1 e).1 he)
      · intro e he; exact q12 e ((vn1 e).1 he)
  · simp [hlk] at hins
  · simp [hlk] at hins
  · simp [hlk] at hins

/-- C8 at a concrete input: the tree bulk-loaded (fill 1.0) from
`1, 3, .., 27` is one full root leaf at 4096; `insert(2, 2)` splits it with
split key 15, the new leaf is the frame 4352 that the NVM pool hands out, and
the key 2 goes to the old leaf. -/
theorem C8_leaf_split_witness :
    TreeOK exState14 ∧
    descend exState14 2 exState14.root_level.toNat exState14.tree_root = some 4096 ∧
    (exState14.leaf 4096).bitmap = 0x3fff ∧ (exState14.leaf 4096).ent.length = 14 ∧
    (∀ i j, i < 14 → j < 14 → (exState14.leaf 4096).k i = (exState14.leaf 4096).k j → i = j) ∧
    (∀ j, j < 14 → (exState14.leaf 4096).k j ≠ 2) ∧
    (∀ newa s3, nvmpool_alloc_node exState14 = some (newa, s3) →
      newa ≠ 4096 ∧ (exState14.leaf newa).ent.length = 14 ∧
      (exState14.leaf newa).fgpt.length = 14) ∧
    splitKey (exState14.leaf 4096) = 15 ∧
    ∃ s' newa, insert exState14 2 2 = Res.ok s' ∧ newa = 4352 ∧
      (∀ e, (s'.leaf 4096).live e ↔
        ((∃ j, j < 14 ∧ (exState14.leaf 4096).k j < splitKey (exState14.leaf 4096) ∧
            (exState14.leaf 4096).entAt j = e) ∨
         (2 ≤ splitKey (exState14.leaf 4096) ∧ e = ⟨2, 2⟩))) ∧
      (∀ e, (s'.leaf 4096).live e → e.k < splitKey (exState14.leaf 4096)) ∧
      (∀ e, (s'.leaf newa).live e → splitKey (exState14.leaf 4096) ≤ e.k) := by
  have hdist : ∀ i j, i < 14 → j < 14 →
      (exState14.leaf 4096).k i = (exState14.leaf 4096).k j → i = j := by
    have h : ∀ i, i < 14 → ∀ j, j < 14 →
        (exState14.leaf 4096).k i = (exState14.leaf 4096).k j → i = j := by decide
    exact fun i j hi hj => h i hi j hj
  have hv : (nvmpool_alloc_node exState14).map Prod.fst = some 4352 := by decide
  have hnew : ∀ newa s3, nvmpool_alloc_node exState14 = some (newa, s3) →
      newa ≠ 4096 ∧ (exState14.leaf newa).ent.length = 14 ∧
      (exState14.leaf newa).fgpt.length = 14 := by
    intro newa s3 h
    rw [h] at hv
    simp only [Option.map_some', Option.some.injEq] at hv
    subst hv
    decide
  have hsome : (insert exState14 2 2).toOption.map (fun s => s.root_level) = some 1 := by decide
  refine ⟨by decide, by decide, by decide, by decide, hdist, by decide, hnew, by decide, ?_⟩
  rcases hd : insert exState14 2 2 with s' | _ | _ | _
  · obtain ⟨newa, ⟨s3, ha⟩, _, _, _, _, q4, _, _, _, _, _, _, q11, q12⟩ :=
      C8_leaf_split exState14 2 2 4096 s' (by decide) (by decide) (by decide) (by decide)
        hdist (by decide) hnew hd
    have hn : newa = 4352 := by
      rw [ha] at hv
      simp only [Option.map_some', Option.some.injEq] at hv
      exact hv
    exact ⟨s', newa, rfl, hn, q4, q11, q12⟩
  · rw [hd] at hsome; simp [Res.toOption] at hsome
  · rw [hd] at hsome; simp [Res.toOption] at hsome
  · rw [hd] at hsome; simp [Res.toOption] at hsome

end LBTree


namespace LBTree

set_option maxRecDepth 100000

/-- C11 at a concrete input: `insert(2, 2)` splits the full root leaf holding
`1, 3, .., 27`; the old leaf (4096) and the new leaf (4352) are
fingerprint-consistent afterwards. -/
theorem C11_insert_keeps_fingerprints_witness :
    TreeOK exState14 ∧ (exState14.leaf 4096).bitmap = 0x3fff ∧
    ∃ s', insert exState14 2 2 = Res.ok s' ∧ s'.root_level = 1 ∧
      (s'.leaf 4096).fgptOK ∧ (s'.leaf 4352).fgptOK := by
  refine ⟨by decide, by decide, ?_⟩
  have hlp : ∀ lpa, descend exState14 2 exState14.root_level.toNat exState14.tree_root = some lpa →
      (exState14.leaf lpa).bitmap < 2 ^ 14 ∧ (exState14.leaf lpa).ent.length = 14 ∧
      (exState14.leaf lpa).fgpt.length = 14 := by
    intro lpa hd
    have h0 : descend exState14 2 exState14.root_level.toNat exState14.tree_root = some 4096 := by
      decide
    rw [h0] at hd
    cases hd
    decide
  have hnew : ∀ newa s3, nvmpool_alloc_node exState14 = some (newa, s3) →
      (exState14.leaf newa).ent.length = 14 ∧ (exState14.leaf newa).fgpt.length = 14 := by
    intro newa s3 hal
    have h0 : (nvmpool_alloc_node exState14).map Prod.fst = some 4352 := by decide
    rw [hal] at h0
    simp only [Option.map_some', Option.some.injEq] at h0
    subst h0
    decide
  have hsome : (insert exState14 2 2).toOption.map (fun s => s.root_level) = some 1 := by decide
  rcases hi : insert exState14 2 2 with s' | _ | _ | _
  · rw [hi] at hsome
    simp only [Res.toOption, Option.map_some', Option.some.injEq] at hsome
    have hc := C11_insert_keeps_fingerprints exState14 2 2 s' (by decide) hlp hnew hi
    exact ⟨s', rfl, hsome, hc.2.1 4096 (by decide), hc.2.1 4352 (by decide)⟩
  · rw [hi] at hsome; simp [Res.toOption] at hsome
  · rw [hi] at hsome; simp [Res.toOption] at hsome
  · rw [hi] at hsome; simp [Res.toOption] at hsome

end LBTree


namespace LBTree

/-! ## The leaf layer written by `bulkloadSubtree` -/

theorem testBit_fillBitmap (r j : Nat) (hr : r ≤ 14) :
    (fillBitmap r).testBit j = decide (14 - r ≤ j ∧ j < 14) := by
  unfold fillBitmap LEAF_KEY_NUM
  rw [Nat.testBit_mod_two_pow, Nat.testBit_shiftLeft, Nat.one_shiftLeft, Nat.testBit_two_pow_sub_one]
  by_cases h1 : j < 14 <;> by_cases h2 : 14 - r ≤ j <;> simp [h1, h2]
  all_goals omega

theorem fillLeaf_spec (input : Nat → Int) :
    ∀ (fuel j key_id : Nat) (lp : bleaf) (m : bleafMeta),
    j + fuel = 14 → lp.ent.length = 14 → m.fgpt.length = 14 →
    (fillLeaf input fuel j key_id lp m).1.ent.length = 14 ∧
    (fillLeaf input fuel j key_id lp m).2.1.fgpt.length = 14 ∧
    (fillLeaf input fuel j key_id lp m).1.next = lp.next ∧
    (fillLeaf input fuel j key_id lp m).2.1.bitmap = m.bitmap ∧
    (fillLeaf input fuel j key_id lp m).2.1.lock = m.lock ∧
    (fillLeaf input fuel j key_id lp m).2.1.alt = m.alt ∧
    (fillLeaf input fuel j key_id lp m).2.2 = key_id + fuel ∧
    (∀ t, (fillLeaf input fuel j key_id lp m).1.entAt t =
      if j ≤ t ∧ t < 14 then
        ⟨input (key_id + (t - j)), (input (key_id + (t - j)) % 2 ^ 64).toNat⟩
      else lp.entAt t) ∧
    (∀ t, (fillLeaf input fuel j key_id lp m).2.1.fgpt.getD t 0 =
      if j ≤ t ∧ t < 14 then hashcode1B (input (key_id + (t - j))) else m.fgpt.getD t 0) := by
  intro fuel
  induction fuel with
  | zero =>
    intro j key_id lp m hj hl hf
    have : ∀ t, ¬ (j ≤ t ∧ t < 14) := fun t => by omega
    refine ⟨hl, hf, rfl, rfl, rfl, rfl, rfl, fun t => ?_, fun t => ?_⟩
    · rw [if_neg (this t)]; rfl
    · rw [if_neg (this t)]; rfl
  | succ n ih =>
    intro j key_id lp m hj hl hf
    have hj14 : j < LEAF_KEY_NUM := by unfold LEAF_KEY_NUM; omega
    have hstep : fillLeaf input (n + 1) j key_id lp m =
        fillLeaf input n (j + 1) (key_id + 1)
          (lp.setEnt j ⟨input key_id, (input key_id % 2 ^ 64).toNat⟩)
          { m with fgpt := m.fgpt.set j (hashcode1B (input key_id)) } := by
      simp only [fillLeaf, hj14, if_true]
    rw [hstep]
    obtain ⟨c1, c2, c3, c4, c5, c6, c7, c8, c9⟩ :=
      ih (j + 1) (key_id + 1) (lp.setEnt j ⟨input key_id, (input key_id % 2 ^ 64).toNat⟩)
        { m with fgpt := m.fgpt.set j (hashcode1B (input key_id)) } (by omega)
        (by simp [bleaf.setEnt, hl]) (by simp [hf])
    refine ⟨c1, c2, c3, c4, c5, c6, by omega, ?_, ?_⟩
    · intro t
      rw [c8 t]
      by_cases h1 : j + 1 ≤ t ∧ t < 14
      · have h2 : j ≤ t ∧ t < 14 := by omega
        rw [if_pos h1, if_pos h2]
        have : key_id + 1 + (t - (j + 1)) = key_id + (t - j) := by omega
        rw [this]
      · rw [if_neg h1, bleaf.entAt_setEnt lp j t _ (by omega)]
        by_cases h3 : t = j
        · have h2 : j ≤ t ∧ t < 14 := by omega
          rw [if_pos h3, if_pos h2]
          have : key_id + (t - j) = key_id := by omega
          rw [this]
        · have h2 : ¬ (j ≤ t ∧ t < 14) := by omega
          rw [if_neg h3, if_neg h2]
    · intro t
      rw [c9 t]
      by_cases h1 : j + 1 ≤ t ∧ t < 14
      · have h2 : j ≤ t ∧ t < 14 := by omega
        rw [if_pos h1, if_pos h2]
        have : key_id + 1 + (t - (j + 1)) = key_id + (t - j) := by omega
        rw [this]
      · rw [if_neg h1]
        show (m.fgpt.set j (hashcode1B (input key_id))).getD t 0 = _
        rw [natList_getD_set _ _ _ _ (by omega)]
        by_cases h3 : t = j
        · have h2 : j ≤ t ∧ t < 14 := by omega
          rw [if_pos h3, if_pos h2]
          have : key_id + (t - j) = key_id := by omega
          rw [this]
        · have h2 : ¬ (j ≤ t ∧ t < 14) := by omega
          rw [if_neg h3, if_neg h2]

theorem appendUp_leaf (nf top : Nat) (pfirst n_nodes : Nat → Nat) :
    ∀ (fuel ll child : Nat) (left_key : Int) (ncur : Nat → Nat) (s : State),
    (appendUp nf top pfirst n_nodes fuel ll child left_key ncur s).2.leaf = s.leaf := by
  intro fuel
  induction fuel with
  | zero => intro ll child left_key ncur s; rfl
  | succ n ih =>
    intro ll child left_key ncur s
    unfold appendUp
    by_cases h1 : ll ≤ top
    · simp only [h1, if_true]
      by_cases h2 : (s.node (pfirst ll + 256 * ncur ll)).num ≥ 0
      · simp only [h2, if_true]
        split <;> rfl
      · simp only [h2, if_false]
        rw [ih]
        rfl
    · simp only [h1, if_false]

end LBTree


namespace LBTree

theorem ceiling_bounds (n f : Nat) (hf : 1 ≤ f) (hn : 1 ≤ n) :
    1 ≤ ceiling n f ∧ (ceiling n f - 1) * f < n ∧ n ≤ ceiling n f * f ∧
    (ceiling n f - 1) * f + f = ceiling n f * f := by
  unfold ceiling
  have h1 : (n + f - 1) / f * f ≤ n + f - 1 := Nat.div_mul_le_self _ _
  have h2 : n + f - 1 < ((n + f - 1) / f + 1) * f := by
    have := Nat.lt_mul_div_succ (n + f - 1) (show 0 < f by omega)
    rw [Nat.mul_comm]; exact this
  have h3 : 1 ≤ (n + f - 1) / f := by
    apply (Nat.one_le_div_iff (by omega)).2; omega
  have h4 : ((n + f - 1) / f - 1) * f = (n + f - 1) / f * f - f := by
    rw [Nat.sub_mul, Nat.one_mul]
  have h5 : f ≤ (n + f - 1) / f * f := by
    calc f = 1 * f := (Nat.one_mul f).symm
      _ ≤ (n + f - 1) / f * f := Nat.mul_le_mul_right f h3
  refine ⟨h3, ?_, ?_, ?_⟩
  · omega
  · rw [Nat.add_mul, Nat.one_mul] at h2
    omega
  · omega

theorem buildLeaves_spec (input : Nat → Int) (start_key num_key f nf top : Nat)
    (pfirst n_nodes : Nat → Nat) (hf1 : 1 ≤ f) (hf14 : f ≤ 14) (hn : 1 ≤ num_key)
    (hL : n_nodes 0 = ceiling num_key f) :
    ∀ (fuel i key_id : Nat) (leaf_meta : bleafMeta) (ncur : Nat → Nat) (s : State),
    i + fuel = n_nodes 0 →
    (i < n_nodes 0 → key_id = start_key + i * f ∧ leaf_meta.bitmap = fillBitmap f) →
    leaf_meta.lock = 0 → leaf_meta.alt = 0 → leaf_meta.fgpt.length = 14 →
    (∀ t, i ≤ t → t < n_nodes 0 → (s.leaf (pfirst 0 + 256 * t)).ent.length = 14 ∧
      (s.leaf (pfirst 0 + 256 * t)).next.length = 2) →
    (∀ a, (∀ t, i ≤ t → t < n_nodes 0 → a ≠ pfirst 0 + 256 * t) →
      (buildLeaves input num_key f nf top pfirst n_nodes fuel i key_id leaf_meta ncur s).leaf a
        = s.leaf a) ∧
    (∀ t, i ≤ t → t < n_nodes 0 →
      BulkLeaf input start_key num_key f (pfirst 0)
        ((buildLeaves input num_key f nf top pfirst n_nodes fuel i key_id leaf_meta ncur s).leaf
          (pfirst 0 + 256 * t)) t) := by
  obtain ⟨hc1, hc2, hc3, hc4⟩ := ceiling_bounds num_key f hf1 hn
  intro fuel
  induction fuel with
  | zero =>
    intro i key_id leaf_meta ncur s hi _ _ _ _ _
    exact ⟨fun a _ => rfl, fun t h1 h2 => by omega⟩
  | succ n ih =>
    intro i key_id leaf_meta ncur s hi hinv hlock halt hfl hshape
    have hil : i < n_nodes 0 := by omega
    obtain ⟨hkid, hbm⟩ := hinv hil
    obtain ⟨hent, hnext⟩ := hshape i (le_refl _) hil
    unfold buildLeaves
    simp only [hil, if_true]
    -- the number of keys of this leaf
    generalize hfn : (if i = n_nodes 0 - 1 then num_key - (n_nodes 0 - 1) * f else f) = fillnum
    have hfn14 : 1 ≤ fillnum ∧ fillnum ≤ f := by
      rw [← hfn]
      split
      · rw [hL]; omega
      · omega
    have hm1 : (if i = n_nodes 0 - 1 then
          ({ leaf_meta with bitmap := fillBitmap fillnum } : bleafMeta) else leaf_meta)
        = { leaf_meta with bitmap := fillBitmap fillnum } := by
      split
      · rfl
      · rename_i hne
        rw [if_neg hne] at hfn
        subst hfn
        rw [← hbm]
    rw [hm1]
    obtain ⟨c1, c2, c3, c4, c5, c6, c7, c8, c9⟩ :=
      fillLeaf_spec input fillnum (LEAF_KEY_NUM - fillnum) key_id (s.leaf (pfirst 0 + 256 * i))
        { leaf_meta with bitmap := fillBitmap fillnum } (by unfold LEAF_KEY_NUM; omega) hent hfl
    rcases hfl' : fillLeaf input fillnum (LEAF_KEY_NUM - fillnum) key_id (s.leaf (pfirst 0 + 256 * i))
        { leaf_meta with bitmap := fillBitmap fillnum } with ⟨lp1, m2, k1⟩
    rw [hfl'] at c1 c2 c3 c4 c5 c6 c7 c8 c9
    simp only at c1 c2 c3 c4 c5 c6 c7 c8 c9 ⊢
    rcases hau : appendUp nf top pfirst n_nodes top 1 (pfirst 0 + 256 * i)
        ((({ lp1 with next := (lp1.next.set 0
            (if i < n_nodes 0 - 1 then pfirst 0 + 256 * i + 256 else 0)).set 1 0 } : bleaf).setBothWords
            m2).k (LEAF_KEY_NUM - fillnum)) ncur
        (s.setLeaf (pfirst 0 + 256 * i)
          (({ lp1 with next := (lp1.next.set 0
            (if i < n_nodes 0 - 1 then pfirst 0 + 256 * i + 256 else 0)).set 1 0 } : bleaf).setBothWords
            m2)) with ⟨ncur1, s2⟩
    simp only
    have hs2 : s2.leaf = (s.setLeaf (pfirst 0 + 256 * i)
          (({ lp1 with next := (lp1.next.set 0
            (if i < n_nodes 0 - 1 then pfirst 0 + 256 * i + 256 else 0)).set 1 0 } : bleaf).setBothWords
            m2)).leaf := by
      have := appendUp_leaf nf top pfirst n_nodes top 1 (pfirst 0 + 256 * i)
        ((({ lp1 with next := (lp1.next.set 0
            (if i < n_nodes 0 - 1 then pfirst 0 + 256 * i + 256 else 0)).set 1 0 } : bleaf).setBothWords
            m2).k (LEAF_KEY_NUM - fillnum)) ncur
        (s.setLeaf (pfirst 0 + 256 * i)
          (({ lp1 with next := (lp1.next.set 0
            (if i < n_nodes 0 - 1 then pfirst 0 + 256 * i + 256 else 0)).set 1 0 } : bleaf).setBothWords
            m2))
      rw [hau] at this
      exact this
    obtain ⟨r1, r2⟩ := ih (i + 1) k1 m2 ncur1 s2 (by omega)
      (by
        intro hlt
        have hne : ¬ i = n_nodes 0 - 1 := by omega
        rw [if_neg hne] at hfn
        subst hfn
        refine ⟨?_, ?_⟩
        · rw [c7, hkid, Nat.add_mul]; omega
        · rw [c4]) (by rw [c5]; exact hlock) (by rw [c6]; exact halt) c2
      (by
        intro t h1 h2
        have : pfirst 0 + 256 * t ≠ pfirst 0 + 256 * i := by omega
        rw [hs2, State.leaf_setLeaf_other _ _ _ _ this]
        exact hshape t (by omega) h2)
    refine ⟨?_, ?_⟩
    · intro a ha
      rw [r1 a (fun t h1 h2 => ha t (by omega) h2), hs2,
        State.leaf_setLeaf_other _ _ _ _ (ha i (le_refl _) hil)]
    · intro t h1 h2
      by_cases hti : t = i
      · subst hti
        rw [r1 _ (fun t' h1' h2' => by omega), hs2, State.leaf_setLeaf_same]
        have hfn' : (if t = ceiling num_key f - 1 then num_key - (ceiling num_key f - 1) * f else f)
            = fillnum := by rw [← hL]; exact hfn
        unfold BulkLeaf
        rw [hfn']
        refine ⟨c4, by show m2.lock = 0; rw [c5]; exact hlock,
          by show m2.alt = 0; rw [c6]; exact halt, ?_, ?_, ?_, ?_⟩
        · intro j hj1 hj2
          have e1 := c8 j
          have e2 := c9 j
          rw [if_pos ⟨by unfold LEAF_KEY_NUM; exact hj1, hj2⟩] at e1 e2
          unfold LEAF_KEY_NUM at e1 e2
          rw [hkid] at e1 e2
          exact ⟨e1, e2⟩
        · show ((lp1.next.set 0 _).set 1 0).getD 0 0 = _
          rw [c3]
          rw [← hL]
          have hl2 : (s.leaf (pfirst 0 + 256 * t)).next.length = 2 := hnext
          simp only [List.getD_eq_getElem?_getD, List.getElem?_set, List.length_set, hl2]
          simp
          split <;> omega
        · show ((lp1.next.set 0 _).set 1 0).getD 1 0 = _
          rw [c3]
          have hl2 : (s.leaf (pfirst 0 + 256 * t)).next.length = 2 := hnext
          simp [List.getD_eq_getElem?_getD, List.getElem?_set, hl2]
        · show ((lp1.next.set 0 _).set 1 0).length = 2
          rw [c3]
          simp only [List.length_set]
          exact hnext
      · exact r2 t (by omega) h2

end LBTree


namespace LBTree

/-- The evaluation of `ceiling` on `int` is the quotient when the sum is
inside `int`. -/
theorem ceilingInt_eq_ceiling (x y : Nat) (hy : 1 ≤ y) (h : x + y - 1 < 2 ^ 31) :
    ceilingInt (x : Int) (y : Int) = ((ceiling x y : Nat) : Int) := by
  have hw : wrap32 (wrap32 ((x : Int) + (y : Int)) - 1) = ((x + y - 1 : Nat) : Int) := by
    unfold wrap32
    have e : ((x + y - 1 : Nat) : Int) = (x : Int) + (y : Int) - 1 := by omega
    rw [e]
    norm_num at h ⊢
    omega
  unfold ceilingInt ceiling
  rw [hw, Int.ofNat_tdiv]

/-- The evaluation of `ceiling` on `int` is negative when the sum is outside
`int`, for a count `x` and a fill `y` in `1 .. 16`. -/
theorem ceilingInt_neg (x y : Nat) (hx : x < 2 ^ 31) (hy : 1 ≤ y) (hy16 : y ≤ 16)
    (h : 2 ^ 31 ≤ x + y - 1) : ceilingInt (x : Int) (y : Int) < 0 := by
  have hw : wrap32 (wrap32 ((x : Int) + (y : Int)) - 1) = (x : Int) + (y : Int) - 1 - 2 ^ 32 := by
    unfold wrap32
    norm_num at h hx ⊢
    omega
  unfold ceilingInt
  rw [hw]
  have e : (x : Int) + (y : Int) - 1 - 2 ^ 32 = -(((2 ^ 32 + 1 - x - y : Nat)) : Int) := by
    norm_num at h hx ⊢
    omega
  rw [e, Int.neg_tdiv, ← Int.ofNat_tdiv]
  have hpos : 0 < (2 ^ 32 + 1 - x - y) / y := by
    apply Nat.div_pos
    · norm_num at h hx ⊢
      omega
    · omega
  omega

/-- A call of `bulkloadSubtree` that returns has both `ceiling` sums inside
`int`. -/
theorem bulkloadSubtree_fits (s : State) (input : Nat → Int) (start_key n f nf tl : Nat)
    (garbage : bleafMeta) (out : BldOut)
    (hb : bulkloadSubtree s input start_key n f nf tl garbage = some out) :
    ¬ (2 ^ 31 ≤ n + f - 1 ∨
      (1 < ceiling n f ∧ 1 ≤ tl ∧ 2 ^ 31 ≤ ceiling n f + (nf + 1) - 1)) := by
  intro hg
  unfold bulkloadSubtree at hb
  rw [if_pos hg] at hb
  exact absurd hb (by simp)

theorem countLevels_zero (nf tl : Nat) :
    ∀ (fuel i : Nat) (n_nodes : Nat → Nat) (top : Nat), 1 ≤ i →
    (countLevels nf tl fuel i n_nodes top).1 0 = n_nodes 0 := by
  intro fuel
  induction fuel with
  | zero => intro i n_nodes top _; rfl
  | succ n ih =>
    intro i n_nodes top hi
    unfold countLevels
    split
    · rw [ih (i + 1) _ _ (by omega)]
      have : ¬ 0 = i := by omega
      simp only [this, if_false]
    · rfl

theorem allocLevels_zero (n_nodes : Nat → Nat) (top : Nat) :
    ∀ (fuel i : Nat) (pfirst : Nat → Nat) (m : mempool) (pf : Nat → Nat) (m' : mempool), 1 ≤ i →
    allocLevels n_nodes top fuel i pfirst m = some (pf, m') → pf 0 = pfirst 0 := by
  intro fuel
  induction fuel with
  | zero =>
    intro i pfirst m pf m' _ h
    simp only [allocLevels, Option.some.injEq, Prod.mk.injEq] at h
    rw [← h.1]
  | succ n ih =>
    intro i pfirst m pf m' hi h
    unfold allocLevels at h
    by_cases h1 : i ≤ top
    · simp only [h1, if_true] at h
      rcases hal : m.alloc (256 * n_nodes i) with _ | ⟨a, m1⟩
      · simp [hal] at h
      · simp only [hal] at h
        rw [ih (i + 1) _ _ _ _ (by omega) h]
        have : ¬ 0 = i := by omega
        simp only [this, if_false]
    · simp only [h1, if_false, Option.some.injEq, Prod.mk.injEq] at h
      rw [← h.1]

theorem initLevels_leaf (pfirst : Nat → Nat) (top : Nat) :
    ∀ (fuel ll : Nat) (s : State), (initLevels pfirst top fuel ll s).leaf = s.leaf := by
  intro fuel
  induction fuel with
  | zero => intro ll s; rfl
  | succ n ih =>
    intro ll s
    unfold initLevels
    split
    · rw [ih]; rfl
    · rfl

/-- The leaves written by `bulkloadSubtree`, in terms of `BulkLeaf`. -/
theorem bulkloadSubtree_leaves (s : State) (input : Nat → Int) (start_key n f nf tl : Nat)
    (garbage : bleafMeta) (out : BldOut)
    (hf1 : 1 ≤ f) (hf14 : f ≤ 14) (hn : 1 ≤ n) (hg : garbage.fgpt.length = 14)
    (hshape : ∀ a, (s.leaf a).ent.length = 14 ∧ (s.leaf a).next.length = 2)
    (hb : bulkloadSubtree s input start_key n f nf tl garbage = some out) :
    out.n_nodes 0 = ceiling n f ∧ out.pfirst 0 = s.nvmpool.cur ∧
    (∀ a, (∀ t, t < ceiling n f → a ≠ out.pfirst 0 + 256 * t) → out.s.leaf a = s.leaf a) ∧
    (∀ t, t < ceiling n f →
      BulkLeaf input start_key n f (out.pfirst 0) (out.s.leaf (out.pfirst 0 + 256 * t)) t) := by
  have hfit := bulkloadSubtree_fits s input start_key n f nf tl garbage out hb
  unfold bulkloadSubtree at hb
  rw [if_neg hfit] at hb
  simp only at hb
  rcases hcl : countLevels nf tl tl 1 (fun x => if x = 0 then ceiling n f else 0) 0
    with ⟨n_nodes, top⟩
  have hn0 : n_nodes 0 = ceiling n f := by
    have := countLevels_zero nf tl tl 1 (fun x => if x = 0 then ceiling n f else 0) 0 (le_refl _)
    rw [hcl] at this
    simpa using this
  rw [hcl] at hb
  simp only at hb
  rcases hal : s.nvmpool.alloc (256 * n_nodes 0) with _ | ⟨a0, nv⟩
  · simp [hal] at hb
  · simp only [hal] at hb
    have ha0 : a0 = s.nvmpool.cur := by
      unfold mempool.alloc at hal
      split at hal
      · simp only [Option.some.injEq, Prod.mk.injEq] at hal
        exact hal.1.symm
      · exact absurd hal (by simp)
    rcases hall : allocLevels n_nodes top top 1 (fun x => if x = 0 then a0 else 0) s.dpool
      with _ | ⟨pfirst, dp⟩
    · simp [hall] at hb
    · simp only [hall, Option.some.injEq] at hb
      have hp0 : pfirst 0 = a0 := by
        have := allocLevels_zero n_nodes top top 1 _ _ _ _ (le_refl _) hall
        simpa using this
      subst hb
      simp only
      obtain ⟨r1, r2⟩ := buildLeaves_spec input start_key n f nf top pfirst n_nodes hf1 hf14 hn hn0
        (n_nodes 0) 0 start_key
        { garbage with bitmap := fillBitmap f, lock := 0, alt := 0 } (fun _ => 0)
        (initLevels pfirst top top 1 { s with nvmpool := nv, dpool := dp })
        (by omega) (fun _ => ⟨by omega, rfl⟩) rfl rfl hg
        (by
          intro t _ _
          rw [initLevels_leaf]
          exact hshape _)
      refine ⟨hn0, by rw [hp0, ha0], ?_, ?_⟩
      · intro a ha
        rw [r1 a (fun t _ h2 => ha t (by rw [← hn0]; exact h2)), initLevels_leaf]
      · intro t ht
        exact r2 t (Nat.zero_le _) (by rw [hn0]; exact ht)

end LBTree


namespace LBTree

/-! ## C18: bulk-loaded leaves are right-aligned -/

theorem fillBitmap_eq (r : Nat) (hr : r ≤ 14) : fillBitmap r = ((1 <<< r) - 1) <<< (14 - r) := by
  unfold fillBitmap LEAF_KEY_NUM
  apply Nat.mod_eq_of_lt
  interval_cases r <;> decide

/-- Bulk-loaded leaves are right-aligned.  When `bulkloadSubtree` on
`num_key = n >= 1` keys with `leaf_fill_num = f` in `1..14` returns (the
`ceiling` sums are inside `int` and the allocations succeed) on a memory of
well-formed leaf frames, it has built
`ceil(n/f)` leaves at `pfirst[0] + 256*i`.  Leaf `i` holds `r` keys, `r = f`
for every leaf but the last and `r = n - (ceil(n/f)-1)*f`, in `1..f`, for the
last; its bitmap is `((1<<r)-1) << (14-r)`, i.e. exactly the slots
`14-r .. 13` are live; slot `j` of these holds the input key number
`start_key + i*f + (j - (14-r))` with the key (as a 64-bit pattern) as payload
and the key's hash as fingerprint; `next[0]` is the following leaf (NULL for
the last), `next[1]` is NULL, and `alt = lock = 0`. -/
theorem bulkloadSubtree_right_aligned (s : State) (input : Nat → Int)
    (start_key n f nf tl : Nat) (garbage : bleafMeta) (out : BldOut)
    (hf1 : 1 ≤ f) (hf14 : f ≤ 14) (hn : 1 ≤ n) (hg : garbage.fgpt.length = 14)
    (hshape : ∀ a, (s.leaf a).ent.length = 14 ∧ (s.leaf a).next.length = 2)
    (hb : bulkloadSubtree s input start_key n f nf tl garbage = some out) :
    out.n_nodes 0 = ceiling n f ∧
    ∀ i r, i < ceiling n f →
      r = (if i = ceiling n f - 1 then n - (ceiling n f - 1) * f else f) →
      1 ≤ r ∧ r ≤ f ∧
      (out.s.leaf (out.pfirst 0 + 256 * i)).bitmap = ((1 <<< r) - 1) <<< (14 - r) ∧
      (∀ j, (out.s.leaf (out.pfirst 0 + 256 * i)).bitmap.testBit j = decide (14 - r ≤ j ∧ j < 14)) ∧
      (∀ j, 14 - r ≤ j → j < 14 →
        (out.s.leaf (out.pfirst 0 + 256 * i)).entAt j =
          ⟨input (start_key + i * f + (j - (14 - r))),
           (input (start_key + i * f + (j - (14 - r))) % 2 ^ 64).toNat⟩ ∧
        (out.s.leaf (out.pfirst 0 + 256 * i)).fg j =
          hashcode1B (input (start_key + i * f + (j - (14 - r))))) ∧
      (out.s.leaf (out.pfirst 0 + 256 * i)).next.getD 0 0 =
        (if i < ceiling n f - 1 then out.pfirst 0 + 256 * (i + 1) else 0) ∧
      (out.s.leaf (out.pfirst 0 + 256 * i)).next.getD 1 0 = 0 ∧
      (out.s.leaf (out.pfirst 0 + 256 * i)).alt = 0 ∧
      (out.s.leaf (out.pfirst 0 + 256 * i)).lock = 0 := by
  obtain ⟨h1, _, _, h4⟩ :=
    bulkloadSubtree_leaves s input start_key n f nf tl garbage out hf1 hf14 hn hg hshape hb
  obtain ⟨hc1, hc2, hc3, hc4⟩ := ceiling_bounds n f hf1 hn
  refine ⟨h1, ?_⟩
  intro i r hi hr
  obtain ⟨b1, b2, b3, b4, b5, b6, _⟩ := h4 i hi
  rw [← hr] at b1 b4
  have hr1 : 1 ≤ r ∧ r ≤ f := by
    rw [hr]
    split
    · omega
    · omega
  refine ⟨hr1.1, hr1.2, ?_, ?_, b4, b5, b6, b3, b2⟩
  · rw [b1, fillBitmap_eq r (by omega)]
  · intro j
    rw [b1, testBit_fillBitmap r j (by omega)]

/-- Right-aligned leaves at a concrete input: ten keys `1000..1009` with four
keys per leaf give three leaves; the last one holds two keys in slots 12 and
13. -/
theorem bulkloadSubtree_right_aligned_instance :
    ∃ out, bulkloadSubtree exMem (fun i => 1000 + (i : Int)) 0 10 4 4 31 exGarbage = some out ∧
      out.n_nodes 0 = 3 ∧
      (out.s.leaf (out.pfirst 0 + 256 * 2)).bitmap = ((1 <<< 2) - 1) <<< (14 - 2) ∧
      (out.s.leaf (out.pfirst 0 + 256 * 2)).entAt 13 = ⟨1009, 1009⟩ := by
  have hsome : (bulkloadSubtree exMem (fun i => 1000 + (i : Int)) 0 10 4 4 31 exGarbage).isSome
      = true := by decide
  rcases hb : bulkloadSubtree exMem (fun i => 1000 + (i : Int)) 0 10 4 4 31 exGarbage with _ | out
  · rw [hb] at hsome; exact absurd hsome (by decide)
  · have hc := bulkloadSubtree_right_aligned exMem (fun i => 1000 + (i : Int)) 0 10 4 4 31
      exGarbage out (by decide) (by decide) (by decide) (by decide) (fun _ => ⟨rfl, rfl⟩) hb
    obtain ⟨h1, h2⟩ := hc
    obtain ⟨_, _, h3, _, h5, _⟩ := h2 2 2 (by decide) (by decide)
    exact ⟨out, rfl, h1.trans (by decide), h3, (h5 13 (by decide) (by decide)).1⟩

end LBTree


namespace LBTree

/-! ## The leaves of a bulk load with several workers -/

/-- The leaves written by `bulkloadSubtree`; the frames used need to be
well-formed only where the allocation succeeds. -/
theorem bulkloadSubtree_leaves_local (s : State) (input : Nat → Int) (start_key n f nf tl : Nat)
    (garbage : bleafMeta) (out : BldOut)
    (hf1 : 1 ≤ f) (hf14 : f ≤ 14) (hn : 1 ≤ n) (hg : garbage.fgpt.length = 14)
    (hshape : s.nvmpool.cur + 256 * ceiling n f ≤ s.nvmpool.limit → ∀ t, t < ceiling n f →
      (s.leaf (s.nvmpool.cur + 256 * t)).ent.length = 14 ∧
      (s.leaf (s.nvmpool.cur + 256 * t)).next.length = 2)
    (hb : bulkloadSubtree s input start_key n f nf tl garbage = some out) :
    out.n_nodes 0 = ceiling n f ∧ out.pfirst 0 = s.nvmpool.cur ∧
    s.nvmpool.cur + 256 * ceiling n f ≤ s.nvmpool.limit ∧
    (∀ a, (∀ t, t < ceiling n f → a ≠ out.pfirst 0 + 256 * t) → out.s.leaf a = s.leaf a) ∧
    (∀ t, t < ceiling n f →
      BulkLeaf input start_key n f (out.pfirst 0) (out.s.leaf (out.pfirst 0 + 256 * t)) t) := by
  have hfit := bulkloadSubtree_fits s input start_key n f nf tl garbage out hb
  unfold bulkloadSubtree at hb
  rw [if_neg hfit] at hb
  simp only at hb
  rcases hcl : countLevels nf tl tl 1 (fun x => if x = 0 then ceiling n f else 0) 0
    with ⟨n_nodes, top⟩
  have hn0 : n_nodes 0 = ceiling n f := by
    have := countLevels_zero nf tl tl 1 (fun x => if x = 0 then ceiling n f else 0) 0 (le_refl _)
    rw [hcl] at this
    simpa using this
  rw [hcl] at hb
  simp only at hb
  rcases hal : s.nvmpool.alloc (256 * n_nodes 0) with _ | ⟨a0, nv⟩
  · simp [hal] at hb
  · simp only [hal] at hb
    have ha0 : a0 = s.nvmpool.cur ∧ s.nvmpool.cur + 256 * ceiling n f ≤ s.nvmpool.limit := by
      unfold mempool.alloc at hal
      split at hal
      · rename_i hle
        simp only [Option.some.injEq, Prod.mk.injEq] at hal
        rw [hn0] at hle
        exact ⟨hal.1.symm, hle⟩
      · exact absurd hal (by simp)
    rcases hall : allocLevels n_nodes top top 1 (fun x => if x = 0 then a0 else 0) s.dpool
      with _ | ⟨pfirst, dp⟩
    · simp [hall] at hb
    · simp only [hall, Option.some.injEq] at hb
      have hp0 : pfirst 0 = a0 := by
        have := allocLevels_zero n_nodes top top 1 _ _ _ _ (le_refl _) hall
        simpa using this
      subst hb
      simp only
      obtain ⟨r1, r2⟩ := buildLeaves_spec input start_key n f nf top pfirst n_nodes hf1 hf14 hn hn0
        (n_nodes 0) 0 start_key
        { garbage with bitmap := fillBitmap f, lock := 0, alt := 0 } (fun _ => 0)
        (initLevels pfirst top top 1 { s with nvmpool := nv, dpool := dp })
        (by omega) (fun _ => ⟨by omega, rfl⟩) rfl rfl hg
        (by
          intro t _ ht
          rw [initLevels_leaf, hp0, ha0.1]
          exact hshape ha0.2 t (by rw [← hn0]; exact ht))
      refine ⟨hn0, by rw [hp0, ha0.1], ha0.2, ?_, ?_⟩
      · intro a ha
        rw [r1 a (fun t _ h2 => ha t (by rw [← hn0]; exact h2)), initLevels_leaf]
      · intro t ht
        exact r2 t (Nat.zero_le _) (by rw [hn0]; exact ht)

theorem connectSiblings_bitmap (bta : Nat → BldOut) (nt : Nat) :
    ∀ (fuel i : Nat) (s : State) (a : Nat),
    ((connectSiblings bta nt fuel i s).leaf a).bitmap = (s.leaf a).bitmap := by
  intro fuel
  induction fuel with
  | zero => intro i s a; rfl
  | succ n ih =>
    intro i s a
    unfold connectSiblings
    split
    · rw [ih]
      simp only [State.setLeaf]
      split
      · rename_i h; rw [h]
      · rfl
    · rfl

theorem mempool_free_node_leaf (s : State) (p : Nat) : (mempool_free_node s p).leaf = s.leaf := rfl

theorem gkLoop_leaf (rec : State → Nat → Int → List (Nat × Int) → State × List (Nat × Int))
    (hrec : ∀ s p k acc, (rec s p k acc).1.leaf = s.leaf) (pnode : Nat) :
    ∀ (fuel : Nat) (i : Int) (s : State) (acc : List (Nat × Int)),
    (gkLoop rec pnode fuel i s acc).1.leaf = s.leaf := by
  intro fuel
  induction fuel with
  | zero => intro i s acc; rfl
  | succ n ih =>
    intro i s acc
    unfold gkLoop
    split
    · simp only
      rw [ih, hrec]
    · rfl

theorem getKeyPtrLevel_leaf (target : Nat) (fr : Bool) (mi : Nat) :
    ∀ (l : Nat) (s : State) (p : Nat) (k : Int) (acc : List (Nat × Int)),
    (getKeyPtrLevel target fr mi l s p k acc).1.leaf = s.leaf := by
  intro l
  induction l with
  | zero =>
    intro s p k acc
    unfold getKeyPtrLevel
    split <;> rfl
  | succ n ih =>
    intro s p k acc
    unfold getKeyPtrLevel
    split
    · rfl
    · split
      · have h1 := ih s ((s.node p).ch 0) k acc
        have h2 := gkLoop_leaf (getKeyPtrLevel target fr mi n) ih p mi 1
          (getKeyPtrLevel target fr mi n s ((s.node p).ch 0) k acc).1
          (getKeyPtrLevel target fr mi n s ((s.node p).ch 0) k acc).2
        simp only
        split
        · rw [mempool_free_node_leaf, h2, h1]
        · rw [h2, h1]
      · rfl

theorem collectTop_leaf (bta : Nat → BldOut) (nt level : Nat) :
    ∀ (fuel i : Nat) (s : State) (acc : List (Nat × Int)),
    (collectTop bta nt level fuel i s acc).1.leaf = s.leaf := by
  intro fuel
  induction fuel with
  | zero => intro i s acc; rfl
  | succ n ih =>
    intro i s acc
    unfold collectTop
    split
    · simp only
      rw [ih, getKeyPtrLevel_leaf]
    · rfl

theorem buildTop_leaf (nf cur top : Nat) (pfirst n_nodes : Nat → Nat) :
    ∀ (l : List (Nat × Int)) (ncur : Nat → Nat) (s : State),
    (buildTop nf cur top pfirst n_nodes l ncur s).leaf = s.leaf := by
  intro l
  induction l with
  | nil => intro ncur s; rfl
  | cons x rest ih =>
    intro ncur s
    obtain ⟨child, left_key⟩ := x
    unfold buildTop
    simp only
    rw [ih, appendUp_leaf]

theorem bulkloadToptree_leaf (s : State) (top : List (Nat × Int)) (nf cur tl : Nat)
    (pfirst0 n_nodes0 : Nat → Nat) (out : BldOut)
    (h : bulkloadToptree s top nf cur tl pfirst0 n_nodes0 = some out) : out.s.leaf = s.leaf := by
  unfold bulkloadToptree at h
  split at h
  · simp only at h
    split at h
    · exact absurd h (by simp)
    · simp only [Option.some.injEq] at h
      subst h
      simp only
      rw [buildTop_leaf, initLevels_leaf]
  · exact absurd h (by simp)

end LBTree


namespace LBTree

theorem countBit_fillBitmap (r : Nat) (hr : r ≤ 14) : countBit (fillBitmap r) = r := by
  interval_cases r <;> decide

/-- After the workers `0 .. i-1` have run: their leaves are in place, the
pools of the later workers and the frames outside the leaves built so far are
untouched. -/
theorem runWorkers_spec (input : Nat → Int) (keynum nt f nf : Nat) (garbage : bleafMeta)
    (ps0 : ParState) (hf1 : 1 ≤ f) (hf14 : f ≤ 14) (hg : garbage.fgpt.length = 14)
    (hnk : ∀ w, w < nt → 1 ≤ workerKeys keynum nt w)
    (hshape : ∀ a, (ps0.s.leaf a).ent.length = 14 ∧ (ps0.s.leaf a).next.length = 2)
    (hdisj : ∀ i j, i < nt → j < nt → i ≠ j →
      (ps0.poolOf i).1.limit ≤ (ps0.poolOf j).1.cur ∨ (ps0.poolOf j).1.limit ≤ (ps0.poolOf i).1.cur) :
    ∀ (fuel i : Nat) (ps ps' : ParState), i + fuel = nt →
    (∀ w, i ≤ w → 1 ≤ w → ps.pools w = ps0.pools w) →
    (i = 0 → ps.s.nvmpool = ps0.s.nvmpool) →
    (∀ w, w < i →
      (ps.bta w).pfirst 0 = (ps0.poolOf w).1.cur ∧
      (ps.bta w).n_nodes 0 = ceiling (workerKeys keynum nt w) f ∧
      (ps0.poolOf w).1.cur + 256 * ceiling (workerKeys keynum nt w) f ≤ (ps0.poolOf w).1.limit ∧
      ∀ t, t < ceiling (workerKeys keynum nt w) f →
        BulkLeaf input (w * (keynum / nt)) (workerKeys keynum nt w) f (ps0.poolOf w).1.cur
          (ps.s.leaf ((ps0.poolOf w).1.cur + 256 * t)) t) →
    (∀ a, (∀ w, w < i → ∀ t, t < ceiling (workerKeys keynum nt w) f →
        a ≠ (ps0.poolOf w).1.cur + 256 * t) → ps.s.leaf a = ps0.s.leaf a) →
    runWorkers input keynum nt f nf garbage fuel i ps = some ps' →
    (∀ w, w < nt →
      (ps'.bta w).pfirst 0 = (ps0.poolOf w).1.cur ∧
      (ps'.bta w).n_nodes 0 = ceiling (workerKeys keynum nt w) f ∧
      (ps0.poolOf w).1.cur + 256 * ceiling (workerKeys keynum nt w) f ≤ (ps0.poolOf w).1.limit ∧
      ∀ t, t < ceiling (workerKeys keynum nt w) f →
        BulkLeaf input (w * (keynum / nt)) (workerKeys keynum nt w) f (ps0.poolOf w).1.cur
          (ps'.s.leaf ((ps0.poolOf w).1.cur + 256 * t)) t) := by
  intro fuel
  induction fuel with
  | zero =>
    intro i ps ps' hi _ _ hdone _ hr
    simp only [runWorkers, Option.some.injEq] at hr
    subst hr
    intro w hw
    exact hdone w (by omega)
  | succ n ih =>
    intro i ps ps' hi hpools hmain hdone hframe hr
    have hint : i < nt := by omega
    unfold runWorkers at hr
    simp only [hint, if_true] at hr
    have hnum : (if i < nt - 1 then keynum / nt else keynum - (nt - 1) * (keynum / nt))
        = workerKeys keynum nt i := rfl
    rw [hnum] at hr
    have hmine : (if i = 0 then (ps.s.nvmpool, ps.s.dpool) else ps.pools i).1
        = (ps0.poolOf i).1 := by
      unfold ParState.poolOf
      by_cases h0 : i = 0
      · rw [if_pos h0, if_pos h0]
        exact hmain h0
      · rw [if_neg h0, if_neg h0, hpools i (le_refl _) (by omega)]
    rcases hb : bulkloadSubtree
        (ps.s.withPools (if i = 0 then (ps.s.nvmpool, ps.s.dpool) else ps.pools i)) input
        (i * (keynum / nt)) (workerKeys keynum nt i) f nf 31 garbage with _ | out
    · simp [hb] at hr
    · simp only [hb] at hr
      have hcur : (ps.s.withPools (if i = 0 then (ps.s.nvmpool, ps.s.dpool) else ps.pools i)).nvmpool
          = (ps0.poolOf i).1 := hmine
      have hnotin : ∀ t, (ps0.poolOf i).1.cur + 256 * ceiling (workerKeys keynum nt i) f
            ≤ (ps0.poolOf i).1.limit → t < ceiling (workerKeys keynum nt i) f →
          ∀ w, w < i → ∀ t', t' < ceiling (workerKeys keynum nt w) f →
            (ps0.poolOf i).1.cur + 256 * t ≠ (ps0.poolOf w).1.cur + 256 * t' := by
        intro t hle ht w hw t' ht'
        obtain ⟨_, _, hlw, _⟩ := hdone w hw
        rcases hdisj i w hint (by omega) (by omega) with h | h <;> omega
      obtain ⟨b1, b2, b3, b4, b5⟩ := bulkloadSubtree_leaves_local _ input (i * (keynum / nt))
        (workerKeys keynum nt i) f nf 31 garbage out hf1 hf14 (hnk i hint) hg
        (by
          intro hle t ht
          rw [hcur] at hle ⊢
          show (ps.s.leaf _).ent.length = 14 ∧ (ps.s.leaf _).next.length = 2
          rw [hframe _ (hnotin t hle ht)]
          exact hshape _) hb
      rw [hcur] at b2 b3
      have hleaf : ∀ a, (if i = 0 then out.s
          else out.s.withPools (ps.s.nvmpool, ps.s.dpool)).leaf a = out.s.leaf a := by
        intro a; split <;> rfl
      apply ih (i + 1) _ ps' (by omega) _ _ _ _ hr
      · intro w hw1 hw2
        have : ¬ w = i := by omega
        simp only [this, if_false]
        exact hpools w (by omega) hw2
      · intro h; omega
      · intro w hw
        by_cases hwi : w = i
        · subst hwi
          simp only [if_true]
          refine ⟨b2, b1, b3, ?_⟩
          intro t ht
          rw [hleaf, ← b2]
          exact b5 t ht
        · simp only [hwi, if_false]
          obtain ⟨d1, d2, d3, d4⟩ := hdone w (by omega)
          refine ⟨d1, d2, d3, ?_⟩
          intro t ht
          rw [hleaf, b4]
          · exact d4 t ht
          · intro t' ht'
            rw [b2]
            exact (hnotin t' b3 ht' w (by omega) t ht).symm
      · intro a ha
        rw [hleaf, b4]
        · exact hframe a (fun w hw t ht => ha w (by omega) t ht)
        · intro t ht
          rw [b2]
          exact ha i (by omega) t ht

end LBTree


namespace LBTree

theorem connectSiblings_spec (bta : Nat → BldOut) (nt : Nat)
    (hdist : ∀ j j', j < nt → j' < nt → j ≠ j' →
      (bta j).pfirst 0 + 256 * ((bta j).n_nodes 0 - 1)
        ≠ (bta j').pfirst 0 + 256 * ((bta j').n_nodes 0 - 1)) :
    ∀ (fuel i : Nat) (s : State), nt ≤ i + fuel → 1 ≤ i →
    (∀ a, (∀ j, i ≤ j → j < nt →
        a ≠ (bta (j - 1)).pfirst 0 + 256 * ((bta (j - 1)).n_nodes 0 - 1)) →
      (connectSiblings bta nt fuel i s).leaf a = s.leaf a) ∧
    (∀ j, i ≤ j → j < nt →
      (connectSiblings bta nt fuel i s).leaf
          ((bta (j - 1)).pfirst 0 + 256 * ((bta (j - 1)).n_nodes 0 - 1)) =
        { s.leaf ((bta (j - 1)).pfirst 0 + 256 * ((bta (j - 1)).n_nodes 0 - 1)) with
          next := (s.leaf ((bta (j - 1)).pfirst 0 + 256 * ((bta (j - 1)).n_nodes 0 - 1))).next.set 0
            ((bta j).pfirst 0) }) := by
  intro fuel
  induction fuel with
  | zero =>
    intro i s hi _
    exact ⟨fun a _ => rfl, fun j h1 h2 => by omega⟩
  | succ n ih =>
    intro i s hi h1
    by_cases hint : i < nt
    · unfold connectSiblings
      simp only [hint, if_true]
      obtain ⟨r1, r2⟩ := ih (i + 1)
        (s.setLeaf ((bta (i - 1)).pfirst 0 + 256 * ((bta (i - 1)).n_nodes 0 - 1))
          { s.leaf ((bta (i - 1)).pfirst 0 + 256 * ((bta (i - 1)).n_nodes 0 - 1)) with
            next := (s.leaf ((bta (i - 1)).pfirst 0 + 256 * ((bta (i - 1)).n_nodes 0 - 1))).next.set 0
              ((bta i).pfirst 0) }) (by omega) (by omega)
      refine ⟨?_, ?_⟩
      · intro a ha
        rw [r1 a (fun j hj1 hj2 => ha j (by omega) hj2),
          State.leaf_setLeaf_other _ _ _ _ (ha i (le_refl _) hint)]
      · intro j hj1 hj2
        by_cases hji : j = i
        · subst hji
          rw [r1 _ (fun j' hj1' hj2' => hdist (j - 1) (j' - 1) (by omega) (by omega) (by omega)),
            State.leaf_setLeaf_same]
        · have hne := hdist (j - 1) (i - 1) (by omega) (by omega) (by omega)
          rw [r2 j (by omega) hj2, State.leaf_setLeaf_other _ _ _ _ hne]
    · refine ⟨fun a _ => ?_, fun j h1 h2 => by omega⟩
      unfold connectSiblings
      simp only [hint, if_false]

theorem allocLevels_low (n_nodes : Nat → Nat) (top : Nat) :
    ∀ (fuel i : Nat) (pfirst : Nat → Nat) (m : mempool) (pf : Nat → Nat) (m' : mempool) (x : Nat),
    x < i → allocLevels n_nodes top fuel i pfirst m = some (pf, m') → pf x = pfirst x := by
  intro fuel
  induction fuel with
  | zero =>
    intro i pfirst m pf m' x _ h
    simp only [allocLevels, Option.some.injEq, Prod.mk.injEq] at h
    rw [← h.1]
  | succ n ih =>
    intro i pfirst m pf m' x hx h
    unfold allocLevels at h
    by_cases h1 : i ≤ top
    · simp only [h1, if_true] at h
      rcases hal : m.alloc (256 * n_nodes i) with _ | ⟨a, m1⟩
      · simp [hal] at h
      · simp only [hal] at h
        rw [ih (i + 1) _ _ _ _ x (by omega) h]
        have : ¬ x = i := by omega
        simp only [this, if_false]
    · simp only [h1, if_false, Option.some.injEq, Prod.mk.injEq] at h
      rw [← h.1]

theorem bulkloadToptree_pfirst0 (s : State) (top : List (Nat × Int)) (nf cur tl : Nat)
    (pfirst0 n_nodes0 : Nat → Nat) (out : BldOut)
    (h : bulkloadToptree s top nf cur tl pfirst0 n_nodes0 = some out) :
    out.pfirst 0 = pfirst0 0 := by
  unfold bulkloadToptree at h
  split at h
  · simp only at h
    split at h
    · exact absurd h (by simp)
    · rename_i pf dp hal
      simp only [Option.some.injEq] at h
      subst h
      exact allocLevels_low _ _ _ _ _ _ _ _ 0 (by omega) hal
  · exact absurd h (by simp)

theorem workerKeys_pos (keynum nt w : Nat) (hnt : 1 ≤ nt) (hk : keynum > nt * 10) :
    1 ≤ workerKeys keynum nt w := by
  have h1 : 10 ≤ keynum / nt := (Nat.le_div_iff_mul_le (by omega)).2 (by rw [Nat.mul_comm]; omega)
  have h2 : nt * (keynum / nt) ≤ keynum := Nat.mul_div_le keynum nt
  have h3 : (nt - 1) * (keynum / nt) + keynum / nt = nt * (keynum / nt) := by
    have : (nt - 1 + 1) * (keynum / nt) = nt * (keynum / nt) := by
      congr 1; omega
    rw [← this, Nat.add_mul, Nat.one_mul]
  unfold workerKeys
  split <;> omega

end LBTree


namespace LBTree

/-! ## C17: leaf fill after a bulk load with several workers -/

/-- C17, amended: after a bulk load that uses several workers
(`keynum > 10 * worker_thread_num`, `worker_thread_num >= 2`, `leaf_fill_num = f`
in `1..14`, well-formed leaf frames, pairwise disjoint NVM pools) every worker
`w` has built `ceil(n_w / f)` leaves from its `n_w >= 1` keys, at
`cur_w + 256*t`; every leaf other than the last leaf of a worker holds exactly
`f` keys, and the last leaf of a worker holds `n_w - (ceil(n_w/f)-1)*f` keys,
between 1 and `f`.  The leaves form the sibling chain from `*first_leaf`: each
leaf of a worker is followed by the next leaf of that worker, the last leaf of
a worker by the first leaf of the next worker, and the last leaf of the last
worker by NULL. -/
theorem C17_worker_leaves_fill (ps ps' : ParState) (wtn keynum : Nat) (input : Nat → Int)
    (f nf : Nat) (garbage : bleafMeta)
    (hw : 2 ≤ wtn) (hk : keynum > wtn * 10) (hf1 : 1 ≤ f) (hf14 : f ≤ 14)
    (hg : garbage.fgpt.length = 14)
    (hshape : ∀ a, (ps.s.leaf a).ent.length = 14 ∧ (ps.s.leaf a).next.length = 2)
    (hdisj : ∀ i j, i < wtn → j < wtn → i ≠ j →
      (ps.poolOf i).1.limit ≤ (ps.poolOf j).1.cur ∨ (ps.poolOf j).1.limit ≤ (ps.poolOf i).1.cur)
    (hb : bulkloadPar ps wtn keynum input f nf garbage = some ps') :
    ps'.s.first_leaf = (ps.poolOf 0).1.cur ∧
    ∀ w, w < wtn →
      1 ≤ workerKeys keynum wtn w ∧
      1 ≤ workerKeys keynum wtn w - (ceiling (workerKeys keynum wtn w) f - 1) * f ∧
      workerKeys keynum wtn w - (ceiling (workerKeys keynum wtn w) f - 1) * f ≤ f ∧
      ∀ t, t < ceiling (workerKeys keynum wtn w) f →
        (ps'.s.leaf ((ps.poolOf w).1.cur + 256 * t)).num =
          (if t = ceiling (workerKeys keynum wtn w) f - 1
            then workerKeys keynum wtn w - (ceiling (workerKeys keynum wtn w) f - 1) * f
            else f) ∧
        (ps'.s.leaf ((ps.poolOf w).1.cur + 256 * t)).nextSibling =
          (if t + 1 < ceiling (workerKeys keynum wtn w) f then (ps.poolOf w).1.cur + 256 * (t + 1)
           else if w + 1 < wtn then (ps.poolOf (w + 1)).1.cur else 0) := by
  have hnk : ∀ w, w < wtn → 1 ≤ workerKeys keynum wtn w :=
    fun w _ => workerKeys_pos keynum wtn w (by omega) hk
  unfold bulkloadPar at hb
  have hnt : (if keynum > wtn * 10 then wtn else 1) = wtn := by rw [if_pos hk]
  simp only [hnt] at hb
  have hne1 : ¬ wtn = 1 := by omega
  simp only [hne1, if_false] at hb
  rcases hrw : runWorkers input keynum wtn f nf garbage wtn 0 ps with _ | ps1
  · simp [hrw] at hb
  · simp only [hrw] at hb
    have hdone := runWorkers_spec input keynum wtn f nf garbage ps hf1 hf14 hg hnk hshape hdisj
      wtn 0 ps ps1 (by omega) (fun _ _ _ => rfl) (fun _ => rfl) (fun w hw0 => by omega)
      (fun a _ => rfl) hrw
    rcases hct : collectTop ps1.bta wtn (ps1.bta 0).top_level wtn 0
        (connectSiblings ps1.bta wtn wtn 1 ps1.s) [] with ⟨s3, top⟩
    simp only [hct] at hb
    have hs3 : s3.leaf = (connectSiblings ps1.bta wtn wtn 1 ps1.s).leaf := by
      have := collectTop_leaf ps1.bta wtn (ps1.bta 0).top_level wtn 0
        (connectSiblings ps1.bta wtn wtn 1 ps1.s) []
      rw [hct] at this
      exact this
    split at hb
    · rcases htt : bulkloadToptree s3 top nf (ps1.bta 0).top_level 31 (ps1.bta 0).pfirst
          (ps1.bta 0).n_nodes with _ | out
      · simp [htt] at hb
      · simp only [htt] at hb
        split at hb
        · simp only [Option.some.injEq] at hb
          subst hb
          have hleaf : ∀ a, out.s.leaf a = (connectSiblings ps1.bta wtn wtn 1 ps1.s).leaf a := by
            intro a
            rw [bulkloadToptree_leaf _ _ _ _ _ _ _ _ htt, hs3]
          -- addresses of the last leaves are pairwise distinct
          have hlast : ∀ j, j < wtn →
              (ps1.bta j).pfirst 0 + 256 * ((ps1.bta j).n_nodes 0 - 1) =
                (ps.poolOf j).1.cur + 256 * (ceiling (workerKeys keynum wtn j) f - 1) := by
            intro j hj
            obtain ⟨d1, d2, _, _⟩ := hdone j hj
            rw [d1, d2]
          have hcpos : ∀ j, j < wtn → 1 ≤ ceiling (workerKeys keynum wtn j) f :=
            fun j hj => (ceiling_bounds _ f hf1 (hnk j hj)).1
          have hsep : ∀ j j' t t', j < wtn → j' < wtn → j ≠ j' →
              t < ceiling (workerKeys keynum wtn j) f → t' < ceiling (workerKeys keynum wtn j') f →
              (ps.poolOf j).1.cur + 256 * t ≠ (ps.poolOf j').1.cur + 256 * t' := by
            intro j j' t t' hj hj' hjj ht ht'
            obtain ⟨_, _, d3, _⟩ := hdone j hj
            obtain ⟨_, _, d3', _⟩ := hdone j' hj'
            rcases hdisj j j' hj hj' hjj with h | h <;> omega
          have hdist : ∀ j j', j < wtn → j' < wtn → j ≠ j' →
              (ps1.bta j).pfirst 0 + 256 * ((ps1.bta j).n_nodes 0 - 1)
                ≠ (ps1.bta j').pfirst 0 + 256 * ((ps1.bta j').n_nodes 0 - 1) := by
            intro j j' hj hj' hjj
            rw [hlast j hj, hlast j' hj']
            have := hcpos j hj
            have := hcpos j' hj'
            exact hsep j j' _ _ hj hj' hjj (by omega) (by omega)
          obtain ⟨q1, q2⟩ := connectSiblings_spec ps1.bta wtn hdist wtn 1 ps1.s (by omega) (le_refl _)
          refine ⟨?_, ?_⟩
          · show out.pfirst 0 = _
            rw [bulkloadToptree_pfirst0 _ _ _ _ _ _ _ _ htt]
            exact (hdone 0 (by omega)).1
          · intro w hww
            obtain ⟨hc1, hc2, hc3, hc4⟩ := ceiling_bounds (workerKeys keynum wtn w) f hf1 (hnk w hww)
            refine ⟨hnk w hww, by omega, by omega, ?_⟩
            intro t ht
            obtain ⟨_, _, _, d4⟩ := hdone w hww
            obtain ⟨b1, _, b3, _, b5, _, b7⟩ := d4 t ht
            show (out.s.leaf _).num = _ ∧ (out.s.leaf _).nextSibling = _
            rw [hleaf]
            by_cases hlastw : t = ceiling (workerKeys keynum wtn w) f - 1 ∧ w + 1 < wtn
            · -- the last leaf of a worker that has a successor
              obtain ⟨ht1, hw1⟩ := hlastw
              have haddr : (ps.poolOf w).1.cur + 256 * t =
                  (ps1.bta (w + 1 - 1)).pfirst 0 + 256 * ((ps1.bta (w + 1 - 1)).n_nodes 0 - 1) := by
                rw [Nat.add_sub_cancel, hlast w hww, ht1]
              rw [haddr, q2 (w + 1) (by omega) hw1, ← haddr]
              refine ⟨?_, ?_⟩
              · show countBit (ps1.s.leaf _).bitmap = _
                rw [b1, countBit_fillBitmap _ (by split <;> omega)]
              · show ((ps1.s.leaf _).next.set 0 _).getD (ps1.s.leaf _).alt 0 = _
                rw [b3, natList_getD_set _ _ _ _ (by omega), if_pos rfl]
                have hnot : ¬ t + 1 < ceiling (workerKeys keynum wtn w) f := by omega
                rw [if_neg hnot, if_pos hw1]
                exact (hdone (w + 1) hw1).1
            · -- every other leaf is not touched by the stitching
              have hfree : ∀ j, 1 ≤ j → j < wtn → (ps.poolOf w).1.cur + 256 * t ≠
                  (ps1.bta (j - 1)).pfirst 0 + 256 * ((ps1.bta (j - 1)).n_nodes 0 - 1) := by
                intro j hj1 hj2
                rw [hlast (j - 1) (by omega)]
                have := hcpos (j - 1) (by omega)
                by_cases hwj : w = j - 1
                · subst hwj
                  have : ¬ t = ceiling (workerKeys keynum wtn (j - 1)) f - 1 := by
                    intro h; exact hlastw ⟨h, by omega⟩
                  omega
                · exact hsep w (j - 1) _ _ hww (by omega) hwj ht (by omega)
              rw [q1 _ hfree]
              refine ⟨?_, ?_⟩
              · show countBit (ps1.s.leaf _).bitmap = _
                rw [b1, countBit_fillBitmap _ (by split <;> omega)]
              · show (ps1.s.leaf _).next.getD (ps1.s.leaf _).alt 0 = _
                rw [b3, b5]
                by_cases ht1 : t + 1 < ceiling (workerKeys keynum wtn w) f
                · rw [if_pos ht1, if_pos (by omega)]
                · have hw1 : ¬ w + 1 < wtn := by
                    intro h; exact hlastw ⟨by omega, h⟩
                  rw [if_neg ht1, if_neg hw1, if_neg (by omega)]
        · exact absurd hb (by simp)
    · exact absurd hb (by simp)

end LBTree


namespace LBTree

set_option maxRecDepth 100000

/-- C17 (amended) at a concrete input: two workers, 22 keys, fill 1.0; the
single leaf of worker 0 holds 11 keys and is followed by the leaf of worker 1. -/
theorem C17_worker_leaves_fill_witness :
    ∃ ps', bulkloadPar exPar 2 22 (fun i => 1 + (i : Int)) 14 15 exGarbage = some ps' ∧
      ps'.s.first_leaf = 4096 ∧
      (ps'.s.leaf (4096 + 256 * 0)).num = 11 ∧
      (ps'.s.leaf (4096 + 256 * 0)).nextSibling = 266240 := by
  have hsome : exPar22.isSome = true := by decide
  have hdisj : ∀ i j, i < 2 → j < 2 → i ≠ j →
      (exPar.poolOf i).1.limit ≤ (exPar.poolOf j).1.cur ∨
      (exPar.poolOf j).1.limit ≤ (exPar.poolOf i).1.cur := by
    intro i j hi hj hij
    interval_cases i <;> interval_cases j
    · exact absurd rfl hij
    · left; decide
    · right; decide
    · exact absurd rfl hij
  rcases hb : bulkloadPar exPar 2 22 (fun i => 1 + (i : Int)) 14 15 exGarbage with _ | ps'
  · have : exPar22 = none := hb
    rw [this] at hsome
    exact absurd hsome (by decide)
  · obtain ⟨h1, h2⟩ := C17_worker_leaves_fill exPar ps' 2 22 (fun i => 1 + (i : Int)) 14 15
      exGarbage (by decide) (by decide) (by decide) (by decide) (by decide)
      (fun _ => ⟨rfl, rfl⟩) hdisj hb
    obtain ⟨_, _, _, h3⟩ := h2 0 (by decide)
    obtain ⟨h4, h5⟩ := h3 0 (by decide)
    exact ⟨ps', rfl, h1, h4.trans (by decide), h5.trans (by decide)⟩

end LBTree


namespace LBTree

/-! ## Reachability of inner nodes -/

theorem reachN_level (s : State) : ∀ (i p j q : Nat), reachN s i p j q → 1 ≤ j ∧ j ≤ i := by
  intro i
  induction i with
  | zero => intro p j q h; exact absurd h (by simp [reachN])
  | succ n ih =>
    intro p j q h
    rcases h with ⟨h1, _⟩ | ⟨c, _, _, h3⟩
    · omega
    · have := ih _ _ _ h3; omega

theorem reachN_top (s : State) (i p : Nat) : reachN s (i + 1) p (i + 1) p := Or.inl ⟨rfl, rfl⟩

theorem reachN_top_eq (s : State) (i p q : Nat) (h : reachN s (i + 1) p (i + 1) q) : q = p := by
  rcases h with ⟨_, h⟩ | ⟨c, _, _, h3⟩
  · exact h
  · have := reachN_level s _ _ _ _ h3; omega

/-- A child of a reachable inner node of level `k+2` is a reachable inner node of level `k+1`. -/
theorem reachN_step (s : State) : ∀ (i p k a : Nat) (c : Int), reachN s i p (k + 2) a →
    0 ≤ c → c ≤ (s.node a).num → reachN s i p (k + 1) ((s.node a).ch c) := by
  intro i
  induction i with
  | zero => intro p k a c h; exact absurd h (by simp [reachN])
  | succ n ih =>
    intro p k a c h h0 h1
    rcases h with ⟨e1, e2⟩ | ⟨c', hc0, hc1, h3⟩
    · subst e2
      have hn : n = k + 1 := by omega
      subst hn
      exact Or.inr ⟨c, h0, h1, reachN_top s k _⟩
    · exact Or.inr ⟨c', hc0, hc1, ih _ _ _ _ h3 h0 h1⟩

/-- A child of a reachable inner node of level 1 is a reachable leaf. -/
theorem reach_step (s : State) : ∀ (i p a : Nat) (c : Int), reachN s i p 1 a →
    0 ≤ c → c ≤ (s.node a).num → reach s i p ((s.node a).ch c) := by
  intro i
  induction i with
  | zero => intro p a c h; exact absurd h (by simp [reachN])
  | succ n ih =>
    intro p a c h h0 h1
    rcases h with ⟨e1, e2⟩ | ⟨c', hc0, hc1, h3⟩
    · subst e2
      have hn : n = 0 := by omega
      subst hn
      exact ⟨c, h0, h1, rfl⟩
    · exact ⟨c', hc0, hc1, ih _ _ _ h3 h0 h1⟩

/-- Reachability composes: what is reachable from a reachable node is reachable. -/
theorem reachN_trans (s : State) : ∀ (i p k a j q : Nat), reachN s i p k a → reachN s k a j q →
    reachN s i p j q := by
  intro i
  induction i with
  | zero => intro p k a j q h; exact absurd h (by simp [reachN])
  | succ n ih =>
    intro p k a j q h h2
    rcases h with ⟨e1, e2⟩ | ⟨c', hc0, hc1, h3⟩
    · subst e1; subst e2; exact h2
    · exact Or.inr ⟨c', hc0, hc1, ih _ _ _ _ _ h3 h2⟩

theorem reach_trans (s : State) : ∀ (i p k a l : Nat), reachN s i p k a → reach s k a l →
    reach s i p l := by
  intro i
  induction i with
  | zero => intro p k a l h; exact absurd h (by simp [reachN])
  | succ n ih =>
    intro p k a l h h2
    rcases h with ⟨e1, e2⟩ | ⟨c', hc0, hc1, h3⟩
    · subst e1; subst e2; exact h2
    · exact ⟨c', hc0, hc1, ih _ _ _ _ h3 h2⟩

/-- Inside a quiescent subtree every reachable inner node has `lock = 0` and `num >= 0`. -/
theorem subtreeOK_node (s : State) : ∀ (i p j q : Nat), SubtreeOK s i p → reachN s i p j q →
    (s.node q).lock = 0 ∧ 0 ≤ (s.node q).num ∧ SubtreeOK s j q := by
  intro i
  induction i with
  | zero => intro p j q _ h; exact absurd h (by simp [reachN])
  | succ n ih =>
    intro p j q hok h
    rcases h with ⟨e1, e2⟩ | ⟨c, hc0, hc1, h3⟩
    · subst e1; subst e2; exact ⟨hok.1, hok.2.1, hok⟩
    · exact ih _ _ _ (hok.2.2 c hc0 hc1) h3

theorem subtreeOK_leaf (s : State) : ∀ (i p l : Nat), SubtreeOK s i p → reach s i p l →
    (s.leaf l).lock = 0 ∧ (s.leaf l).fgptOK := by
  intro i
  induction i with
  | zero =>
    intro p l hok h
    have : l = p := h
    subst this
    exact hok
  | succ n ih =>
    intro p l hok h
    obtain ⟨c, hc0, hc1, h3⟩ := h
    exact ih _ _ (hok.2.2 c hc0 hc1) h3

end LBTree


namespace LBTree

/-! ## The path recorded by the descent of `insert` and `del` -/

theorem descendPath_path (s : State) (key : Int) :
    ∀ (i p : Nat) (pt : Path) (lp : Nat) (pt' : Path), SubtreeOK s i p →
    descendPath s key i p pt = some (lp, pt') →
    (∀ k, i < k → pt'.parray k = pt.parray k ∧ pt'.ppos k = pt.ppos k ∧
      pt'.isfull k = pt.isfull k) ∧
    (pt'.parray 0 = pt.parray 0 ∧ pt'.ppos 0 = pt.ppos 0 ∧ pt'.isfull 0 = pt.isfull 0) ∧
    (1 ≤ i → pt'.parray i = some p) ∧
    (i = 0 → lp = p) ∧
    (∀ k, 1 ≤ k → k ≤ i → ∃ (a : Nat) (c : Int), pt'.parray k = some a ∧ pt'.ppos k = some c ∧
      pt'.isfull k = some ((s.node a).num == NON_LEAF_KEY_NUM) ∧
      0 ≤ c ∧ c ≤ (s.node a).num ∧ reachN s i p k a ∧
      (k = 1 → (s.node a).ch c = lp) ∧
      (2 ≤ k → pt'.parray (k - 1) = some ((s.node a).ch c))) := by
  intro i
  induction i with
  | zero =>
    intro p pt lp pt' _ h
    simp only [descendPath, Option.some.injEq, Prod.mk.injEq] at h
    obtain ⟨h1, h2⟩ := h
    subst h1; subst h2
    exact ⟨fun k _ => ⟨rfl, rfl, rfl⟩, ⟨rfl, rfl, rfl⟩, fun h => by omega, fun _ => rfl,
      fun k h1 h2 => by omega⟩
  | succ n ih =>
    intro p pt lp pt' hok h
    obtain ⟨hl, hn, hc⟩ := hok
    have hr := searchNode_range (s.node p) key hn
    simp only [descendPath, hl, ne_eq, not_true_eq_false, if_false] at h
    obtain ⟨r1, r2, r3, r4, r5⟩ := ih _ _ _ _ (hc _ hr.1 hr.2) h
    refine ⟨?_, ?_, ?_, fun h0 => by omega, ?_⟩
    · intro k hk
      obtain ⟨e1, e2, e3⟩ := r1 k (by omega)
      have hne : ¬ k = n + 1 := by omega
      rw [e1, e2, e3]
      simp [Path.setParray, Path.setIsfull, Path.setPpos, hne]
    · obtain ⟨e1, e2, e3⟩ := r2
      rw [e1, e2, e3]
      simp [Path.setParray, Path.setIsfull, Path.setPpos]
    · intro _
      obtain ⟨e1, _, _⟩ := r1 (n + 1) (by omega)
      rw [e1]
      simp [Path.setParray, Path.setIsfull, Path.setPpos]
    · intro k hk1 hk2
      by_cases hkn : k = n + 1
      · subst hkn
        obtain ⟨e1, e2, e3⟩ := r1 (n + 1) (by omega)
        refine ⟨p, searchNode (s.node p) key, ?_, ?_, ?_, hr.1, hr.2, reachN_top s n p, ?_, ?_⟩
        · rw [e1]; simp [Path.setParray, Path.setIsfull, Path.setPpos]
        · rw [e2]; simp [Path.setParray, Path.setIsfull, Path.setPpos]
        · rw [e3]; simp [Path.setParray, Path.setIsfull, Path.setPpos]
        · intro h1
          have : n = 0 := by omega
          exact (r4 this).symm
        · intro h2
          rw [Nat.add_sub_cancel]
          exact r3 (by omega)
      · obtain ⟨a, c, q1, q2, q3, q4, q5, q6, q7, q8⟩ := r5 k hk1 (by omega)
        exact ⟨a, c, q1, q2, q3, q4, q5, Or.inr ⟨_, hr.1, hr.2, q6⟩, q7, q8⟩

end LBTree


namespace LBTree

/-! ## Entries of an inner node under the stores of `del` and `insert` -/

theorem bnode.nodeEntAt_setEnt (p : bnode) (i j : Int) (e : IdxEntry) (hi : 0 ≤ i) (hj : 0 ≤ j)
    (hlen : i.toNat < p.ent.length) :
    (p.setEnt i e).entAt j = if j = i then e else p.entAt j := by
  unfold bnode.setEnt bnode.entAt
  by_cases h : j = i
  · subst h; simp [List.getD_eq_getElem?_getD, hlen]
  · have h' : ¬ i.toNat = j.toNat := by omega
    simp [List.getD_eq_getElem?_getD, List.getElem?_set, h, h']

theorem bnode.ch_setK (p : bnode) (i j : Int) (v : Int) (hi : 0 ≤ i) (hj : 0 ≤ j) :
    (p.setK i v).ch j = p.ch j := by
  unfold bnode.setK bnode.ch
  by_cases hlen : i.toNat < p.ent.length
  · rw [bnode.nodeEntAt_setEnt p i j _ hi hj hlen]
    split
    · rename_i h; subst h; rfl
    · rfl
  · have : p.setEnt i ⟨v, (p.entAt i).ch⟩ = p := by
      unfold bnode.setEnt
      rw [List.set_eq_of_length_le (by omega)]
    rw [this]

theorem bnode.ch_setNum (p : bnode) (n j : Int) (hj : 0 ≤ j) : (p.setNum n).ch j = p.ch j :=
  bnode.ch_setK p 0 j _ (le_refl _) hj

theorem bnode.ch_setLock (p : bnode) (l j : Int) (hj : 0 ≤ j) : (p.setLock l).ch j = p.ch j :=
  bnode.ch_setK p 0 j _ (le_refl _) hj

theorem bnode.ch_setCh (p : bnode) (i j : Int) (c : Nat) (hi : 0 ≤ i) (hj : 0 ≤ j)
    (hlen : i.toNat < p.ent.length) :
    (p.setCh i c).ch j = if j = i then c else p.ch j := by
  unfold bnode.setCh bnode.ch
  rw [bnode.nodeEntAt_setEnt p i j _ hi hj hlen]
  split <;> rfl

theorem bnode.k_setCh (p : bnode) (i j : Int) (c : Nat) (hi : 0 ≤ i) (hj : 0 ≤ j) :
    (p.setCh i c).k j = p.k j := by
  unfold bnode.setCh bnode.k
  by_cases hlen : i.toNat < p.ent.length
  · rw [bnode.nodeEntAt_setEnt p i j _ hi hj hlen]
    split
    · rename_i h; subst h; rfl
    · rfl
  · have : p.setEnt i ⟨(p.entAt i).k, c⟩ = p := by
      unfold bnode.setEnt
      rw [List.set_eq_of_length_le (by omega)]
    rw [this]

theorem bnode.length_setCh (p : bnode) (i : Int) (c : Nat) :
    (p.setCh i c).ent.length = p.ent.length := by
  simp [bnode.setCh, bnode.setEnt]

/-- The loop `for (i=lo; i<n; i++) p->ent[i]= p->ent[i+1]`. -/
theorem shiftDown_spec (n : Int) (hn : n ≤ 15) :
    ∀ (fuel : Nat) (i : Int) (p : bnode), 1 ≤ i → i + fuel = n → p.ent.length = 16 →
    (shiftDown n fuel i p).ent.length = 16 ∧
    ∀ j : Int, 0 ≤ j → (shiftDown n fuel i p).entAt j =
      if i ≤ j ∧ j < n then p.entAt (j + 1) else p.entAt j := by
  intro fuel
  induction fuel with
  | zero =>
    intro i p _ hi hl
    refine ⟨hl, fun j _ => ?_⟩
    have : ¬ (i ≤ j ∧ j < n) := by omega
    rw [if_neg this]; rfl
  | succ m ih =>
    intro i p h1 hi hl
    have hin : i < n := by omega
    unfold shiftDown
    simp only [hin, if_true]
    obtain ⟨r1, r2⟩ := ih (i + 1) (p.setEnt i (p.entAt (i + 1))) (by omega) (by omega)
      (by rw [bnode.length_setEnt]; exact hl)
    refine ⟨r1, fun j hj => ?_⟩
    rw [r2 j hj]
    by_cases hc : i + 1 ≤ j ∧ j < n
    · rw [if_pos hc, if_pos (by omega),
        bnode.nodeEntAt_setEnt p i (j + 1) _ (by omega) (by omega) (by omega), if_neg (by omega)]
    · rw [if_neg hc, bnode.nodeEntAt_setEnt p i j _ (by omega) hj (by omega)]
      by_cases hji : j = i
      · rw [if_pos hji, if_pos (by omega), hji]
      · rw [if_neg hji, if_neg (by omega)]

theorem shiftDown_ch (n : Int) (hn : n ≤ 15) (fuel : Nat) (i : Int) (p : bnode) (h1 : 1 ≤ i)
    (hi : i + fuel = n) (hl : p.ent.length = 16) (j : Int) (hj : 0 ≤ j) :
    (shiftDown n fuel i p).ch j = if i ≤ j ∧ j < n then p.ch (j + 1) else p.ch j := by
  have := (shiftDown_spec n hn fuel i p h1 hi hl).2 j hj
  show ((shiftDown n fuel i p).entAt j).ch = _
  rw [this]
  split <;> rfl

theorem shiftDown_k0 (n : Int) (hn : n ≤ 15) (fuel : Nat) (i : Int) (p : bnode) (h1 : 1 ≤ i)
    (hi : i + fuel = n) (hl : p.ent.length = 16) : (shiftDown n fuel i p).k 0 = p.k 0 := by
  have := (shiftDown_spec n hn fuel i p h1 hi hl).2 0 (le_refl _)
  show ((shiftDown n fuel i p).entAt 0).k = _
  rw [this, if_neg (by omega)]
  rfl

/-- The removal of child `pp` from an inner node with `n >= 1` keys in Part 3 of
`del`: the node keeps `n-1` keys, its children are the old ones without child
`pp`, and the lock field is not touched. -/
theorem nodeRemove_spec (p : bnode) (pp : Int) (hl : p.ent.length = 16)
    (hn1 : 1 ≤ p.num) (hn15 : p.num ≤ 15) (hp0 : 0 ≤ pp) (hp1 : pp ≤ p.num) :
    (nodeRemove p pp).num = p.num - 1 ∧ (nodeRemove p pp).lock = p.lock ∧
    (nodeRemove p pp).ent.length = 16 ∧
    ∀ c : Int, 0 ≤ c → c ≤ p.num - 1 →
      (nodeRemove p pp).ch c = if c < pp then p.ch c else p.ch (c + 1) := by
  unfold nodeRemove
  by_cases h0 : pp = 0
  · subst h0
    simp only [if_true]
    have hl' : (p.setCh 0 (p.ch 1)).ent.length = 16 := by rw [bnode.length_setCh]; exact hl
    have r1 := (shiftDown_spec p.num hn15 (p.num - 1).toNat 1 (p.setCh 0 (p.ch 1))
      (le_refl _) (by omega) hl').1
    have hk0 : (shiftDown p.num (p.num - 1).toNat 1 (p.setCh 0 (p.ch 1))).k 0 = p.k 0 := by
      rw [shiftDown_k0 p.num hn15 _ 1 _ (le_refl _) (by omega) hl']
      exact bnode.k_setCh p 0 0 _ (le_refl _) (le_refl _)
    refine ⟨bnode.num_setNum _ _ (by omega), ?_, by rw [bnode.length_setNum]; exact r1, ?_⟩
    · rw [bnode.lock_setNum _ _ (by omega)]
      unfold bnode.lock
      rw [hk0]
    · intro c hc0 hc1
      rw [bnode.ch_setNum _ _ _ hc0,
        shiftDown_ch p.num hn15 _ 1 _ (le_refl _) (by omega) hl' c hc0]
      have hrhs : (if c < 0 then p.ch c else p.ch (c + 1)) = p.ch (c + 1) := if_neg (by omega)
      rw [hrhs]
      by_cases hc : 1 ≤ c ∧ c < p.num
      · rw [if_pos hc, bnode.ch_setCh p 0 (c + 1) (p.ch 1) (le_refl _) (by omega) (by simp; omega),
          if_neg (by omega)]
      · rw [if_neg hc]
        have hc0' : c = 0 := by omega
        subst hc0'
        rw [bnode.ch_setCh p 0 0 (p.ch 1) (le_refl _) (le_refl _) (by simp; omega), if_pos rfl]
        rfl
  · simp only [h0, if_false]
    have r1 := (shiftDown_spec p.num hn15 (p.num - pp).toNat pp p (by omega) (by omega) hl).1
    have hk0 : (shiftDown p.num (p.num - pp).toNat pp p).k 0 = p.k 0 :=
      shiftDown_k0 p.num hn15 _ pp _ (by omega) (by omega) hl
    refine ⟨bnode.num_setNum _ _ (by omega), ?_, by rw [bnode.length_setNum]; exact r1, ?_⟩
    · rw [bnode.lock_setNum _ _ (by omega)]
      unfold bnode.lock
      rw [hk0]
    · intro c hc0 hc1
      rw [bnode.ch_setNum _ _ _ hc0,
        shiftDown_ch p.num hn15 _ pp _ (by omega) (by omega) hl c hc0]
      by_cases hc : pp ≤ c ∧ c < p.num
      · rw [if_pos hc, if_neg (by omega)]
      · rw [if_neg hc, if_pos (by omega)]

end LBTree


namespace LBTree

/-! ## The recorded path and the lock phase of `del` -/

theorem pathRec_of_descendPath (s : State) (key : Int) (lp : Nat) (pt0 : Path)
    (hok : SubtreeOK s s.root_level.toNat s.tree_root)
    (hd : descendPath s key s.root_level.toNat s.tree_root Path.empty = some (lp, pt0)) :
    ∃ (pa : Nat → Nat) (pp : Nat → Int), pa 0 = lp ∧ PathRec s pt0 pa pp ∧
      (s.root_level.toNat = 0 → lp = s.tree_root) ∧
      (1 ≤ s.root_level.toNat → pa s.root_level.toNat = s.tree_root) := by
  obtain ⟨r1, _, r3, r4, r5⟩ := descendPath_path s key _ _ _ _ _ hok hd
  refine ⟨fun k => if k = 0 then lp else (pt0.parray k).getD 0, fun k => (pt0.ppos k).getD 0,
    by simp, ⟨?_, ?_⟩, r4, ?_⟩
  · intro k hk
    rw [(r1 k hk).1]; rfl
  · intro k hk1 hk2
    obtain ⟨a, c, q1, q2, q3, q4, q5, q6, q7, q8⟩ := r5 k hk1 hk2
    have hk0 : ¬ k = 0 := by omega
    simp only [hk0, if_false, q1, q2, Option.getD_some]
    refine ⟨trivial, trivial, q3, q4, q5, q6, ?_⟩
    by_cases h1 : k = 1
    · subst h1
      simp [q7 rfl]
    · have : ¬ k - 1 = 0 := by omega
      simp only [this, if_false, q8 (by omega), Option.getD_some]
  · intro h1
    have : ¬ s.root_level.toNat = 0 := by omega
    simp only [this, if_false, r3 h1, Option.getD_some]

theorem pathRec_set0 (s : State) (pt : Path) (pa : Nat → Nat) (pp : Nat → Int) (a : Nat) (c : Int)
    (f : Bool) (h : PathRec s pt pa pp) :
    PathRec s (pt.setParray 0 a) pa pp ∧ PathRec s (pt.setPpos 0 c) pa pp ∧
    PathRec s (pt.setIsfull 0 f) pa pp := by
  refine ⟨⟨?_, ?_⟩, ⟨?_, ?_⟩, ⟨?_, ?_⟩⟩
  · intro k hk
    have : ¬ k = 0 := by omega
    simp only [Path.setParray, this, if_false]
    exact h.1 k hk
  · intro k hk1 hk2
    have : ¬ k = 0 := by omega
    simp only [Path.setParray, this, if_false]
    exact h.2 k hk1 hk2
  · intro k hk
    exact h.1 k hk
  · intro k hk1 hk2
    have : ¬ k = 0 := by omega
    simp only [Path.setPpos, this, if_false]
    exact h.2 k hk1 hk2
  · intro k hk
    exact h.1 k hk
  · intro k hk1 hk2
    have : ¬ k = 0 := by omega
    simp only [Path.setIsfull, this, if_false]
    exact h.2 k hk1 hk2

/-- The nodes of a recorded path are pairwise distinct frames. -/
theorem pathRec_inj (s : State) (pt : Path) (pa : Nat → Nat) (pp : Nat → Int)
    (hsh : TreeShape s) (h : PathRec s pt pa pp) (k k' : Nat)
    (hk1 : 1 ≤ k) (hk2 : k ≤ s.root_level.toNat) (hk1' : 1 ≤ k') (hk2' : k' ≤ s.root_level.toNat)
    (he : pa k = pa k') : k = k' := by
  obtain ⟨_, _, _, _, _, q6, _⟩ := h.2 k hk1 hk2
  obtain ⟨_, _, _, _, _, q6', _⟩ := h.2 k' hk1' hk2'
  rw [he] at q6
  exact hsh.2.1 k k' _ q6 q6'

/-- The loop "lock affected ancestors" of `del`: it locks the path nodes of
the levels `i..m`, where `m` is the first level whose node has a key (or the
root level), and nothing else. -/
theorem lockAffectedAncestors_spec (s0 : State) (pt : Path) (pa : Nat → Nat) (pp : Nat → Int)
    (hsh : TreeShape s0) (hpath : PathRec s0 pt pa pp) :
    ∀ (fuel i : Nat) (s s3 : State), i + fuel = s0.root_level.toNat + 1 → 1 ≤ i →
    (∀ k, i ≤ k → k ≤ s0.root_level.toNat → s.node (pa k) = s0.node (pa k)) →
    lockAffectedAncestors pt s0.root_level fuel i s = Res.ok s3 →
    ∃ m, i ≤ m + 1 ∧ m ≤ s0.root_level.toNat ∧
      (∀ k, i ≤ k → k < m → (s0.node (pa k)).num < 1) ∧
      (m < s0.root_level.toNat → i ≤ m ∧ 1 ≤ (s0.node (pa m)).num) ∧
      (i ≤ s0.root_level.toNat → i ≤ m) ∧
      (∀ q, (∀ k, i ≤ k → k ≤ m → q ≠ pa k) → s3.node q = s.node q) ∧
      (∀ k, i ≤ k → k ≤ m → s3.node (pa k) = (s0.node (pa k)).setLock 1) ∧
      s3.leaf = s.leaf ∧ s3.root_level = s.root_level ∧ s3.tree_root = s.tree_root ∧
      s3.first_leaf = s.first_leaf ∧ s3.nvmpool = s.nvmpool ∧ s3.dpool = s.dpool := by
  intro fuel
  induction fuel with
  | zero =>
    intro i s s3 hi h1 _ h
    simp only [lockAffectedAncestors, Res.ok.injEq] at h
    subst h
    exact ⟨s0.root_level.toNat, by omega, le_refl _, fun k h1 h2 => by omega,
      fun h => by omega, fun h => by omega, fun q _ => rfl, fun k h1 h2 => by omega,
      rfl, rfl, rfl, rfl, rfl, rfl⟩
  | succ n ih =>
    intro i s s3 hi h1 hnode h
    have hiL : i ≤ s0.root_level.toNat := by omega
    have hiL' : (i : Int) ≤ s0.root_level := by omega
    obtain ⟨q1, _, _, _, _, q6, _⟩ := hpath.2 i h1 hiL
    have hlen : (s0.node (pa i)).ent.length = 16 := (hsh.1 i _ q6).1
    unfold lockAffectedAncestors at h
    simp only [hiL', if_true, q1] at h
    have hself : (s.setNode (pa i) ((s.node (pa i)).setLock 1)).node (pa i)
        = (s0.node (pa i)).setLock 1 := by
      simp only [State.setNode, if_true]
      rw [hnode i (le_refl _) hiL]
    rw [hself, bnode.num_setLock _ _ (by omega)] at h
    by_cases hnum : (s0.node (pa i)).num ≥ 1
    · simp only [hnum, if_true, Res.ok.injEq] at h
      subst h
      refine ⟨i, by omega, hiL, fun k h1 h2 => by omega, fun _ => ⟨le_refl _, hnum⟩,
        fun _ => le_refl _, ?_, ?_, rfl, rfl, rfl, rfl, rfl, rfl⟩
      · intro q hq
        have := hq i (le_refl _) (le_refl _)
        simp [State.setNode, this]
      · intro k hk1 hk2
        have : k = i := by omega
        subst this
        exact hself
    · simp only [hnum, if_false] at h
      obtain ⟨m, m1, m2, m3, m4, m5, m6, m7, m8, m9, m10, m11, m12, m13⟩ :=
        ih (i + 1) (s.setNode (pa i) ((s.node (pa i)).setLock 1)) s3 (by omega) (by omega)
          (by
            intro k hk1 hk2
            have hne : pa k ≠ pa i := by
              intro he
              have := pathRec_inj s0 pt pa pp hsh hpath k i (by omega) hk2 h1 hiL he
              omega
            simp only [State.setNode, hne, if_false]
            exact hnode k (by omega) hk2) h
      refine ⟨m, by omega, m2, ?_, ?_, fun _ => by omega, ?_, ?_, m8, m9, m10, m11, m12, m13⟩
      · intro k hk1 hk2
        by_cases hki : k = i
        · subst hki; omega
        · exact m3 k (by omega) hk2
      · intro hm
        obtain ⟨a1, a2⟩ := m4 hm
        exact ⟨by omega, a2⟩
      · intro q hq
        rw [m6 q (fun k hk1 hk2 => hq k (by omega) hk2)]
        have := hq i (le_refl _) (by omega)
        simp [State.setNode, this]
      · intro k hk1 hk2
        by_cases hki : k = i
        · subst hki
          have hne : ∀ k', k + 1 ≤ k' → k' ≤ m → pa k ≠ pa k' := by
            intro k' h1' h2' he
            have := pathRec_inj s0 pt pa pp hsh hpath k k' h1 hiL (by omega) (by omega) he
            omega
          rw [m6 (pa k) hne]
          exact hself
        · exact m7 k (by omega) hk2

end LBTree


namespace LBTree

/-! ## Part 3 of `del` -/

theorem delNonleaf_none (pt : Path) (fuel : Nat) (lev : Int) (s : State)
    (h : pt.parray lev.toNat = none) : delNonleaf pt fuel lev s = Res.unrecorded := by
  cases fuel with
  | zero => rfl
  | succ n =>
    unfold delNonleaf
    rw [h]

/-- Part 3 of `del` on a path whose nodes of the levels `lev..m` carry the
lock bit, those below `m` having a single child: it returns only if the node
of level `m` has a key; then the nodes of the levels `lev..m-1` are freed, the
node of level `m` loses child `pp m`, and the root is replaced by its
remaining child when it is left without a key. -/
theorem delNonleaf_spec (s0 : State) (pt : Path) (pa : Nat → Nat) (pp : Nat → Int)
    (hsh : TreeShape s0) (hpath : PathRec s0 pt pa pp) (m : Nat) (hm1 : 1 ≤ m)
    (hmL : m ≤ s0.root_level.toNat)
    (hstop : m < s0.root_level.toNat → 1 ≤ (s0.node (pa m)).num) :
    ∀ (d lev : Nat) (s s' : State) (fuel : Nat), lev + d = m → 1 ≤ lev → d + 2 ≤ fuel →
    (∀ k, lev ≤ k → k ≤ m → s.node (pa k) = (s0.node (pa k)).setLock 1) →
    (∀ k, lev ≤ k → k < m → (s0.node (pa k)).num < 1) →
    s.root_level = s0.root_level →
    delNonleaf pt fuel (lev : Int) s = Res.ok s' →
    1 ≤ (s0.node (pa m)).num ∧ s'.leaf = s.leaf ∧ s'.first_leaf = s.first_leaf ∧
    s'.nvmpool = s.nvmpool ∧
    (∀ q, (∀ k, lev ≤ k → k ≤ m → q ≠ pa k) → s'.node q = s.node q) ∧
    (((nodeRemove ((s0.node (pa m)).setLock 1) (pp m)).num = 0 ∧ (m : Int) ≥ s0.root_level) →
      s'.root_level = s0.root_level - 1 ∧
      s'.tree_root = (nodeRemove ((s0.node (pa m)).setLock 1) (pp m)).ch 0) ∧
    (¬ ((nodeRemove ((s0.node (pa m)).setLock 1) (pp m)).num = 0 ∧ (m : Int) ≥ s0.root_level) →
      s'.root_level = s0.root_level ∧ s'.tree_root = s.tree_root ∧
      s'.node (pa m) = (nodeRemove ((s0.node (pa m)).setLock 1) (pp m)).setLock 0) := by
  intro d
  induction d with
  | zero =>
    intro lev s s' fuel hlev h1 hfuel hnode _ hroot h
    have hlm : lev = m := by omega
    subst hlm
    obtain ⟨q1, q2, _, _, _, q6, _⟩ := hpath.2 lev h1 hmL
    have hlen : (s0.node (pa lev)).ent.length = 16 := (hsh.1 lev _ q6).1
    obtain ⟨f, hf⟩ : ∃ f, fuel = f + 1 := ⟨fuel - 1, by omega⟩
    subst hf
    unfold delNonleaf at h
    have hcast : ((lev : Nat) : Int).toNat = lev := Int.toNat_natCast lev
    simp only [hcast, q1, q2] at h
    have hn : (s.node (pa lev)).num = (s0.node (pa lev)).num := by
      rw [hnode lev (le_refl _) (le_refl _), bnode.num_setLock _ _ (by omega)]
    by_cases hpos : (s0.node (pa lev)).num > 0
    · have hpos' : (s.node (pa lev)).num > 0 := by rw [hn]; exact hpos
      simp only [hpos', if_true] at h
      have hrem : (shiftDown (s.node (pa lev)).num
            ((s.node (pa lev)).num -
              (if pp lev = 0 then ((s.node (pa lev)).setCh 0 ((s.node (pa lev)).ch 1), (1 : Int))
                else (s.node (pa lev), pp lev)).2).toNat
            (if pp lev = 0 then ((s.node (pa lev)).setCh 0 ((s.node (pa lev)).ch 1), (1 : Int))
                else (s.node (pa lev), pp lev)).2
            (if pp lev = 0 then ((s.node (pa lev)).setCh 0 ((s.node (pa lev)).ch 1), (1 : Int))
                else (s.node (pa lev), pp lev)).1).setNum ((s.node (pa lev)).num - 1)
          = nodeRemove ((s0.node (pa lev)).setLock 1) (pp lev) := by
        rw [hnode lev (le_refl _) (le_refl _)]
        rfl
      simp only [hrem] at h
      have hroot' : (s.setNode (pa lev) (nodeRemove ((s0.node (pa lev)).setLock 1) (pp lev))).root_level
          = s0.root_level := hroot
      rw [hroot'] at h
      by_cases hc : (nodeRemove ((s0.node (pa lev)).setLock 1) (pp lev)).num = 0 ∧
          (lev : Int) ≥ s0.root_level
      · simp only [hc, and_self, if_true, Res.ok.injEq] at h
        subst h
        refine ⟨by omega, rfl, rfl, rfl, ?_, fun _ => ⟨rfl, rfl⟩, fun hn => absurd hc hn⟩
        intro q hq
        have := hq lev (le_refl _) (le_refl _)
        simp [mempool_free_node, State.setNode, this]
      · simp only [hc, if_false, Res.ok.injEq] at h
        subst h
        refine ⟨by omega, rfl, rfl, rfl, ?_, fun hy => absurd hy hc, fun _ => ⟨hroot, rfl, ?_⟩⟩
        · intro q hq
          have := hq lev (le_refl _) (le_refl _)
          simp [State.setNode, this]
        · simp [State.setNode]
    · have hpos' : ¬ (s.node (pa lev)).num > 0 := by rw [hn]; exact hpos
      simp only [hpos', if_false] at h
      have hL : lev = s0.root_level.toNat := by
        by_contra hne
        have := hstop (by omega)
        omega
      have hnone : pt.parray ((lev : Int) + 1).toNat = none := by
        apply hpath.1
        omega
      rw [delNonleaf_none pt f _ _ hnone] at h
      exact absurd h (by simp)
  | succ n ih =>
    intro lev s s' fuel hlev h1 hfuel hnode hlow hroot h
    have hlm : lev < m := by omega
    obtain ⟨q1, q2, _, _, _, q6, _⟩ := hpath.2 lev h1 (by omega)
    have hlen : (s0.node (pa lev)).ent.length = 16 := (hsh.1 lev _ q6).1
    obtain ⟨f, hf⟩ : ∃ f, fuel = f + 1 := ⟨fuel - 1, by omega⟩
    subst hf
    unfold delNonleaf at h
    have hcast : ((lev : Nat) : Int).toNat = lev := Int.toNat_natCast lev
    simp only [hcast, q1, q2] at h
    have hn : (s.node (pa lev)).num = (s0.node (pa lev)).num := by
      rw [hnode lev (le_refl _) (by omega), bnode.num_setLock _ _ (by omega)]
    have hpos' : ¬ (s.node (pa lev)).num > 0 := by
      rw [hn]
      have := hlow lev (le_refl _) hlm
      omega
    simp only [hpos', if_false] at h
    have hcast2 : ((lev : Nat) : Int) + 1 = ((lev + 1 : Nat) : Int) := by push_cast; rfl
    rw [hcast2] at h
    have hdist : ∀ k, lev + 1 ≤ k → k ≤ m → pa k ≠ pa lev := by
      intro k hk1 hk2 he
      have := pathRec_inj s0 pt pa pp hsh hpath k lev (by omega) (by omega) h1 (by omega) he
      omega
    obtain ⟨r1, r2, r3, r4, r5, r6, r7⟩ := ih (lev + 1) (mempool_free_node s (pa lev)) s' f
      (by omega) (by omega) (by omega)
      (by
        intro k hk1 hk2
        have hne := hdist k hk1 hk2
        simp only [mempool_free_node, State.setNode, hne, if_false]
        exact hnode k (by omega) hk2)
      (fun k hk1 hk2 => hlow k (by omega) hk2) hroot h
    refine ⟨r1, r2, r3, r4, ?_, r6, ?_⟩
    · intro q hq
      rw [r5 q (fun k hk1 hk2 => hq k (by omega) hk2)]
      have := hq lev (le_refl _) (by omega)
      simp [mempool_free_node, State.setNode, this]
    · intro hc
      obtain ⟨a1, a2, a3⟩ := r7 hc
      exact ⟨a1, a2, a3⟩

end LBTree


namespace LBTree

/-! ## The sibling search of `del` -/

theorem findSibLevel_spec (s : State) (pt : Path) (pa : Nat → Nat) (pp : Nat → Int)
    (hpath : PathRec s pt pa pp) :
    ∀ (fuel i : Nat), i + fuel = s.root_level.toNat + 1 → 1 ≤ i →
    ∃ lvl, findSibLevel pt s.root_level fuel i = some lvl ∧ i ≤ lvl ∧
      lvl ≤ s.root_level.toNat + 1 ∧ (lvl ≤ s.root_level.toNat → 1 ≤ pp lvl) := by
  intro fuel
  induction fuel with
  | zero =>
    intro i hi h1
    exact ⟨i, rfl, le_refl _, by omega, fun h => by omega⟩
  | succ n ih =>
    intro i hi h1
    have hiL : i ≤ s.root_level.toNat := by omega
    have hiL' : (i : Int) ≤ s.root_level := by omega
    obtain ⟨_, q2, _⟩ := hpath.2 i h1 hiL
    unfold findSibLevel
    simp only [hiL', if_true, q2]
    by_cases hp : pp i ≥ 1
    · simp only [hp, if_true]
      exact ⟨i, rfl, le_refl _, by omega, fun _ => hp⟩
    · simp only [hp, if_false]
      obtain ⟨lvl, e1, e2, e3, e4⟩ := ih (i + 1) (by omega) (by omega)
      exact ⟨lvl, e1, by omega, e3, e4⟩

theorem rightmost_reach (s : State) : ∀ (i p : Nat), SubtreeOK s i p →
    reach s i p (rightmost s i p) := by
  intro i
  induction i with
  | zero => intro p _; rfl
  | succ n ih =>
    intro p hok
    exact ⟨(s.node p).num, hok.2.1, le_refl _, ih _ (hok.2.2 _ hok.2.1 (le_refl _))⟩

theorem countBit_clr (x a : Nat) (hx : x < 2 ^ 14) (ha : a < 14) (hb : x.testBit a = true) :
    countBit (x &&& bnot32 (1 <<< a)) + 1 = countBit x := by
  have := popLow_clear x (x &&& bnot32 (1 <<< a)) a
    (fun i => testBit_clr x a i hx (by omega)) hb 32
  have h32 : a < 32 := by omega
  simpa [countBit, h32] using this

theorem countBit_zero : countBit 0 = 0 := by decide

end LBTree


namespace LBTree

/-! ## `del` on a leaf that is removed -/

theorem rightmost_congr (s s1 : State) (h : s1.node = s.node) :
    ∀ (i p : Nat), rightmost s1 i p = rightmost s i p := by
  intro i
  induction i with
  | zero => intro p; rfl
  | succ n ih =>
    intro p
    simp only [rightmost, h, ih]

theorem del_leaf_lock (s : State) (key : Int) (lpa : Nat) (pt0 : Path) (hok : TreeOK s)
    (hd : descendPath s key s.root_level.toNat s.tree_root Path.empty = some (lpa, pt0)) :
    (s.leaf lpa).lock = 0 ∧ reach s s.root_level.toNat s.tree_root lpa ∧
    descend s key s.root_level.toNat s.tree_root = some lpa := by
  obtain ⟨lp, h1, h2, h3, _⟩ := descend_reach s key _ _ hok.2
  obtain ⟨lp', pt', h5, h6⟩ := descendPath_reach s key _ _ Path.empty hok.2
  rw [hd] at h5
  simp only [Option.some.injEq, Prod.mk.injEq] at h5
  obtain ⟨e1, _⟩ := h5
  subst e1
  rw [h1] at h6
  simp only [Option.some.injEq] at h6
  subst h6
  exact ⟨h3, h2, h1⟩

/-- `del` on a key found in a leaf with a single key below an inner root, in
terms of its phases. -/
theorem del_eq_remove (s : State) (key : Int) (lpa : Nat) (pt0 : Path)
    (hd : descendPath s key s.root_level.toNat s.tree_root Path.empty = some (lpa, pt0))
    (hlock : (s.leaf lpa).lock = 0)
    (hfound : ¬ searchLeaf (s.leaf lpa) key < 0)
    (hnum : (s.leaf lpa).num = 1) :
    del s key =
      match findSibLevel ((pt0.setParray 0 lpa).setPpos 0 (searchLeaf (s.leaf lpa) key))
          s.root_level s.root_level.toNat 1 with
      | none => Res.unrecorded
      | some lvl =>
        match delAncestors ((pt0.setParray 0 lpa).setPpos 0 (searchLeaf (s.leaf lpa) key))
            (delSibling ((pt0.setParray 0 lpa).setPpos 0 (searchLeaf (s.leaf lpa) key))
              (s.setLeaf lpa { s.leaf lpa with lock := 1 }) lvl) with
        | Res.ok (s2, leaf_sibp) =>
          if (s2.leaf lpa).num > 1 ∨ s2.root_level = 0 then
            Res.ok (s2.setLeaf lpa ((s2.leaf lpa).setWord0
              ⟨(s2.leaf lpa).bitmap &&& bnot32 (1 <<< (searchLeaf (s.leaf lpa) key).toNat), 0,
                (s2.leaf lpa).alt, (s2.leaf lpa).fgpt⟩))
          else delRemove ((pt0.setParray 0 lpa).setPpos 0 (searchLeaf (s.leaf lpa) key)) lpa s2
            leaf_sibp
        | Res.retry => Res.retry
        | Res.nomem => Res.nomem
        | Res.unrecorded => Res.unrecorded := by
  unfold del
  simp only [hd, hlock, ne_eq, not_true_eq_false, if_false, hfound]
  have hnum1 : ((s.setLeaf lpa { s.leaf lpa with lock := 1 }).leaf lpa).num = 1 := by
    rw [State.leaf_setLeaf_same]; exact hnum
  simp only [hnum1, if_true]
  have hr : (s.setLeaf lpa { s.leaf lpa with lock := 1 }).root_level = s.root_level := rfl
  rw [hr]
  rcases hfs : findSibLevel ((pt0.setParray 0 lpa).setPpos 0 (searchLeaf (s.leaf lpa) key))
      s.root_level s.root_level.toNat 1 with _ | lvl
  · rfl
  · simp only
    unfold delAncestors delSibling delRemove
    rfl

/-- The sibling search of `del`: either there is no left sibling, or the left
sibling is a leaf of the tree other than the leaf of the key, its lock bit was
0 and is now set. -/
theorem delSibling_spec (s : State) (pt : Path) (pa : Nat → Nat) (pp : Nat → Int) (lpa lvl : Nat)
    (s2 : State) (sibp : Nat) (hok : TreeOK s) (hsh : TreeShape s) (hpath : PathRec s pt pa pp)
    (hl1 : 1 ≤ lvl) (hl3 : lvl ≤ s.root_level.toNat → 1 ≤ pp lvl)
    (h : delSibling pt (s.setLeaf lpa { s.leaf lpa with lock := 1 }) lvl = Res.ok (s2, sibp)) :
    (sibp = 0 ∧ s2 = s.setLeaf lpa { s.leaf lpa with lock := 1 }) ∨
    (sibp ≠ 0 ∧ sibp ≠ lpa ∧ (s.leaf sibp).lock = 0 ∧
      s2 = (s.setLeaf lpa { s.leaf lpa with lock := 1 }).setLeaf sibp
        { s.leaf sibp with lock := 1 }) := by
  unfold delSibling at h
  have hr : (s.setLeaf lpa { s.leaf lpa with lock := 1 }).root_level = s.root_level := rfl
  rw [hr] at h
  by_cases hle : (lvl : Int) ≤ s.root_level
  · have hlL : lvl ≤ s.root_level.toNat := by omega
    obtain ⟨q1, q2, _, q4, q5, q6, _⟩ := hpath.2 lvl hl1 hlL
    have hpp := hl3 hlL
    simp only [hle, if_true, q1, q2] at h
    have hrm : rightmost (s.setLeaf lpa { s.leaf lpa with lock := 1 }) (lvl - 1)
        (((s.setLeaf lpa { s.leaf lpa with lock := 1 }).node (pa lvl)).ch (pp lvl - 1))
        = rightmost s (lvl - 1) ((s.node (pa lvl)).ch (pp lvl - 1)) :=
      rightmost_congr s (s.setLeaf lpa { s.leaf lpa with lock := 1 }) rfl _ _
    rw [hrm] at h
    -- the sibling is a leaf of the tree
    have hsub := (subtreeOK_node s _ _ _ _ hok.2 q6).2.2
    obtain ⟨n, hn⟩ : ∃ n, lvl = n + 1 := ⟨lvl - 1, by omega⟩
    subst hn
    have hchild : SubtreeOK s n ((s.node (pa (n + 1))).ch (pp (n + 1) - 1)) :=
      hsub.2.2 _ (by omega) (by omega)
    have hreach : reach s s.root_level.toNat s.tree_root
        (rightmost s n ((s.node (pa (n + 1))).ch (pp (n + 1) - 1))) :=
      reach_trans s _ _ _ _ _ q6
        ⟨pp (n + 1) - 1, by omega, by omega, rightmost_reach s n _ hchild⟩
    have hnz := hsh.2.2.2 _ hreach
    rw [Nat.add_sub_cancel] at h
    by_cases hlk : ((s.setLeaf lpa { s.leaf lpa with lock := 1 }).leaf
        (rightmost s n ((s.node (pa (n + 1))).ch (pp (n + 1) - 1)))).lock = 0
    · simp only [hlk, ne_eq, not_true_eq_false, if_false, Res.ok.injEq, Prod.mk.injEq] at h
      obtain ⟨e1, e2⟩ := h
      subst e2
      have hne : rightmost s n ((s.node (pa (n + 1))).ch (pp (n + 1) - 1)) ≠ lpa := by
        intro he
        rw [he, State.leaf_setLeaf_same] at hlk
        exact absurd hlk (by simp)
      rw [State.leaf_setLeaf_other _ _ _ _ hne] at hlk e1
      right
      exact ⟨hnz, hne, hlk, e1.symm⟩
    · simp only [ne_eq, hlk, not_false_eq_true, if_true] at h
      exact absurd h (by simp)
  · simp only [hle, if_false, Res.ok.injEq, Prod.mk.injEq] at h
    left
    exact ⟨h.2.symm, h.1.symm⟩

end LBTree


namespace LBTree

/-! ## `del` on a leaf that is removed: Part 2 and the whole call -/

/-- Part 2 of `del` on a leaf with a single key: the inner nodes and the root
are not touched, the leaf is unlinked and freed, the left sibling (if any) is
unlocked, and no other leaf changes; Part 3 runs on the resulting memory. -/
theorem delRemove_spec (pt : Path) (lpa : Nat) (s2 : State) (sibp : Nat) (s' : State)
    (h : delRemove pt lpa s2 sibp = Res.ok s') :
    ∃ s4 : State, s4.node = s2.node ∧ s4.root_level = s2.root_level ∧
      s4.tree_root = s2.tree_root ∧
      (∀ l, l ≠ lpa → (s4.leaf l).bitmap = (s2.leaf l).bitmap ∧
        ((sibp ≠ 0 ∧ l = sibp) → (s4.leaf l).lock = 0) ∧
        (¬ (sibp ≠ 0 ∧ l = sibp) → (s4.leaf l).lock = (s2.leaf l).lock)) ∧
      delNonleaf pt (s2.root_level.toNat + 2) 1 s4 = Res.ok s' := by
  unfold delRemove at h
  by_cases hs0 : sibp ≠ 0
  · simp only [hs0, ne_eq, not_false_eq_true, if_true] at h
    refine ⟨_, ?_, ?_, ?_, ?_, h⟩
    · rfl
    · rfl
    · rfl
    · intro l hl
      by_cases hls : l = sibp
      · subst hls
        refine ⟨?_, fun _ => ?_, fun hn => absurd ⟨hs0, rfl⟩ hn⟩
        · simp only [nvmpool_free_node, State.setLeaf, hl, if_false, if_true]
        · simp only [nvmpool_free_node, State.setLeaf, hl, if_false, if_true]
      · refine ⟨?_, fun hc => absurd hc.2 hls, fun _ => ?_⟩
        · simp only [nvmpool_free_node, State.setLeaf, hl, hls, if_false]
        · simp only [nvmpool_free_node, State.setLeaf, hl, hls, if_false]
  · simp only [hs0, if_false] at h
    refine ⟨_, ?_, ?_, ?_, ?_, h⟩
    · rfl
    · rfl
    · rfl
    · intro l hl
      refine ⟨?_, fun hc => absurd hc.1 hs0, fun _ => ?_⟩
      · simp only [nvmpool_free_node, State.setLeaf, hl, if_false]
      · simp only [nvmpool_free_node, State.setLeaf, hl, if_false]

end LBTree


namespace LBTree

/-- Part 1, step 4 of `del` on a leaf with a single key: what the memory looks
like once the sibling and the ancestors are locked. -/
theorem delLock_spec (s : State) (pt : Path) (pa : Nat → Nat) (pp : Nat → Int) (lpa lvl : Nat)
    (s3 : State) (sibp : Nat) (hok : TreeOK s) (hsh : TreeShape s) (hpath : PathRec s pt pa pp)
    (hL1 : 1 ≤ s.root_level.toNat)
    (hl1 : 1 ≤ lvl) (hl3 : lvl ≤ s.root_level.toNat → 1 ≤ pp lvl)
    (h : delAncestors pt (delSibling pt (s.setLeaf lpa { s.leaf lpa with lock := 1 }) lvl)
      = Res.ok (s3, sibp)) :
    ∃ m, 1 ≤ m ∧ m ≤ s.root_level.toNat ∧
      (∀ k, 1 ≤ k → k < m → (s.node (pa k)).num < 1) ∧
      (m < s.root_level.toNat → 1 ≤ (s.node (pa m)).num) ∧
      (∀ q, (∀ k, 1 ≤ k → k ≤ m → q ≠ pa k) → s3.node q = s.node q) ∧
      (∀ k, 1 ≤ k → k ≤ m → s3.node (pa k) = (s.node (pa k)).setLock 1) ∧
      s3.root_level = s.root_level ∧ s3.tree_root = s.tree_root ∧
      (s3.leaf lpa).num = (s.leaf lpa).num ∧
      (∀ l, l ≠ lpa → (s3.leaf l).bitmap = (s.leaf l).bitmap ∧
        ((sibp ≠ 0 ∧ l = sibp) → (s.leaf l).lock = 0) ∧
        (¬ (sibp ≠ 0 ∧ l = sibp) → (s3.leaf l).lock = (s.leaf l).lock)) := by
  rcases hsib : delSibling pt (s.setLeaf lpa { s.leaf lpa with lock := 1 }) lvl
    with ⟨s2, sibp2⟩ | _ | _ | _
  · have hs2 := delSibling_spec s pt pa pp lpa lvl s2 sibp2 hok hsh hpath hl1 hl3 hsib
    have hs2node : s2.node = s.node ∧ s2.root_level = s.root_level ∧ s2.tree_root = s.tree_root := by
      rcases hs2 with ⟨_, e⟩ | ⟨_, _, _, e⟩ <;> rw [e] <;> exact ⟨rfl, rfl, rfl⟩
    have hs2lpa : (s2.leaf lpa).num = (s.leaf lpa).num ∧ ∀ l, l ≠ lpa →
        (s2.leaf l).bitmap = (s.leaf l).bitmap ∧
        ((sibp2 ≠ 0 ∧ l = sibp2) → (s.leaf l).lock = 0) ∧
        (¬ (sibp2 ≠ 0 ∧ l = sibp2) → (s2.leaf l).lock = (s.leaf l).lock) := by
      rcases hs2 with ⟨e0, e⟩ | ⟨e0, e1, e2, e⟩
      · rw [e]
        refine ⟨by rw [State.leaf_setLeaf_same]; rfl, fun l hl => ?_⟩
        rw [State.leaf_setLeaf_other _ _ _ _ hl]
        exact ⟨rfl, fun hc => absurd e0 hc.1, fun _ => rfl⟩
      · rw [e]
        refine ⟨?_, fun l hl => ?_⟩
        · rw [State.leaf_setLeaf_other _ _ _ _ (Ne.symm e1), State.leaf_setLeaf_same]; rfl
        · by_cases hls : l = sibp2
          · subst hls
            rw [State.leaf_setLeaf_same]
            exact ⟨rfl, fun _ => e2, fun hn => absurd ⟨e0, rfl⟩ hn⟩
          · rw [State.leaf_setLeaf_other _ _ _ _ hls, State.leaf_setLeaf_other _ _ _ _ hl]
            exact ⟨rfl, fun hc => absurd hc.2 hls, fun _ => rfl⟩
    rw [hsib] at h
    simp only [delAncestors] at h
    rcases hla : lockAffectedAncestors pt s2.root_level s2.root_level.toNat 1 s2
      with s3a | _ | _ | _
    · simp only [hla, Res.ok.injEq, Prod.mk.injEq] at h
      obtain ⟨e3, e4⟩ := h
      subst e3
      subst e4
      rw [hs2node.2.1] at hla
      obtain ⟨m, m1, m2, m3, m4, m5, m6, m7, m8, m9, m10, m11, m12, m13⟩ :=
        lockAffectedAncestors_spec s pt pa pp hsh hpath s.root_level.toNat 1 s2 s3a (by omega)
          (le_refl _) (fun k _ _ => by rw [hs2node.1]) hla
      refine ⟨m, m5 hL1, m2, m3, fun hm => (m4 hm).2, ?_, m7, m9.trans hs2node.2.1,
        m10.trans hs2node.2.2, ?_, ?_⟩
      · intro q hq
        rw [m6 q hq, hs2node.1]
      · rw [m8]; exact hs2lpa.1
      · intro l hl
        rw [m8]; exact hs2lpa.2 l hl
    · simp [hla] at h
    · simp [hla] at h
    · simp [hla] at h
  · rw [hsib] at h; simp [delAncestors] at h
  · rw [hsib] at h; simp [delAncestors] at h
  · rw [hsib] at h; simp [delAncestors] at h

/-- A completed `del` of a key found in a leaf that holds only this key, below
an inner root.  The path nodes of the levels below `m` (those with a single
child) and the leaf are freed, the path node of level `m` loses the child on
the path, a root left without a key is replaced by its remaining child; every
other inner node is untouched, and every other leaf keeps its bitmap and its
lock bit. -/
theorem del_removal (s : State) (key : Int) (s' : State) (lpa : Nat) (pt0 : Path)
    (hok : TreeOK s) (hsh : TreeShape s)
    (hd : descendPath s key s.root_level.toNat s.tree_root Path.empty = some (lpa, pt0))
    (hfound : ¬ searchLeaf (s.leaf lpa) key < 0)
    (hnum : (s.leaf lpa).num = 1) (hrl : s.root_level ≠ 0)
    (h : del s key = Res.ok s') :
    ∃ (pa : Nat → Nat) (pp : Nat → Int) (m : Nat),
      pa 0 = lpa ∧ pa s.root_level.toNat = s.tree_root ∧ PathRec s pt0 pa pp ∧
      1 ≤ m ∧ m ≤ s.root_level.toNat ∧
      (∀ k, 1 ≤ k → k < m → (s.node (pa k)).num < 1) ∧ 1 ≤ (s.node (pa m)).num ∧
      (∀ l, l ≠ lpa → (s'.leaf l).bitmap = (s.leaf l).bitmap ∧ (s'.leaf l).lock = (s.leaf l).lock) ∧
      (∀ q, (∀ k, 1 ≤ k → k ≤ m → q ≠ pa k) → s'.node q = s.node q) ∧
      (((nodeRemove ((s.node (pa m)).setLock 1) (pp m)).num = 0 ∧ (m : Int) ≥ s.root_level) →
        s'.root_level = s.root_level - 1 ∧
        s'.tree_root = (nodeRemove ((s.node (pa m)).setLock 1) (pp m)).ch 0) ∧
      (¬ ((nodeRemove ((s.node (pa m)).setLock 1) (pp m)).num = 0 ∧ (m : Int) ≥ s.root_level) →
        s'.root_level = s.root_level ∧ s'.tree_root = s.tree_root ∧
        s'.node (pa m) = (nodeRemove ((s.node (pa m)).setLock 1) (pp m)).setLock 0) := by
  obtain ⟨hlock, hreach, _⟩ := del_leaf_lock s key lpa pt0 hok hd
  obtain ⟨pa, pp, hpa0, hpath0, _, hpaL⟩ := pathRec_of_descendPath s key lpa pt0 hok.2 hd
  have hL1 : 1 ≤ s.root_level.toNat := by have := hok.1; omega
  have hpath : PathRec s ((pt0.setParray 0 lpa).setPpos 0 (searchLeaf (s.leaf lpa) key)) pa pp :=
    (pathRec_set0 s _ pa pp 0 (searchLeaf (s.leaf lpa) key) false
      (pathRec_set0 s pt0 pa pp lpa 0 false hpath0).1).2.1
  rw [del_eq_remove s key lpa pt0 hd hlock hfound hnum] at h
  obtain ⟨lvl, hfs, hl1, hl2, hl3⟩ := findSibLevel_spec s _ pa pp hpath s.root_level.toNat 1
    (by omega) (le_refl _)
  simp only [hfs] at h
  rcases hlk : delAncestors ((pt0.setParray 0 lpa).setPpos 0 (searchLeaf (s.leaf lpa) key))
      (delSibling ((pt0.setParray 0 lpa).setPpos 0 (searchLeaf (s.leaf lpa) key))
        (s.setLeaf lpa { s.leaf lpa with lock := 1 }) lvl) with ⟨s3, sibp⟩ | _ | _ | _
  · obtain ⟨m, hm1, m2, m3, m4, m6, m7, m9, m10, mnum, mleaf⟩ :=
      delLock_spec s _ pa pp lpa lvl s3 sibp hok hsh hpath hL1 hl1 hl3 hlk
    rw [hlk] at h
    have hcond : ¬ ((s3.leaf lpa).num > 1 ∨ s3.root_level = 0) := by
      rw [m9, mnum, hnum]
      intro hc
      rcases hc with hc | hc
      · omega
      · exact hrl hc
    simp only [hcond, if_false] at h
    obtain ⟨s4, n1, n2, n3, n4, n5⟩ := delRemove_spec _ lpa s3 sibp s' h
    obtain ⟨r1, r2, r3, r4, r5, r6, r7⟩ := delNonleaf_spec s _ pa pp hsh hpath m hm1 m2 m4
      (m - 1) 1 s4 s' (s3.root_level.toNat + 2) (by omega) (le_refl _)
      (by rw [m9]; omega)
      (fun k hk1 hk2 => by rw [n1]; exact m7 k hk1 hk2)
      (fun k hk1 hk2 => m3 k hk1 hk2)
      (n2.trans m9)
      (by simpa using n5)
    refine ⟨pa, pp, m, hpa0, hpaL hL1, hpath0, hm1, m2, m3, r1, ?_, ?_, r6, ?_⟩
    · intro l hl
      rw [r2]
      obtain ⟨b1, b2, b3⟩ := n4 l hl
      obtain ⟨c1, c2, c3⟩ := mleaf l hl
      refine ⟨b1.trans c1, ?_⟩
      by_cases hc : sibp ≠ 0 ∧ l = sibp
      · rw [b2 hc, c2 hc]
      · rw [b3 hc, c3 hc]
    · intro q hq
      rw [r5 q hq, n1, m6 q hq]
    · intro hc
      obtain ⟨a1, a2, a3⟩ := r7 hc
      exact ⟨a1, a2.trans (n3.trans m10), a3⟩
  · rw [hlk] at h; simp at h
  · rw [hlk] at h; simp at h
  · rw [hlk] at h; simp at h

end LBTree


namespace LBTree

/-! ## Reachability after the removal of a leaf -/

/-- A node of the tree that is not the path node of its level is no path node at all. -/
theorem off_path (s : State) (pt : Path) (pa : Nat → Nat) (pp : Nat → Int)
    (hsh : TreeShape s) (hpath : PathRec s pt pa pp) (j q : Nat)
    (hq : reachN s s.root_level.toNat s.tree_root j q) (hne : q ≠ pa j) :
    ∀ k, 1 ≤ k → k ≤ s.root_level.toNat → q ≠ pa k := by
  intro k hk1 hk2 he
  obtain ⟨_, _, _, _, _, q6, _⟩ := hpath.2 k hk1 hk2
  rw [← he] at q6
  have := hsh.2.1 j k q hq q6
  subst this
  exact hne he

/-- A child of a node of the tree other than the child on the path is not a
path node (nor the leaf of the path). -/
theorem off_path_child (s : State) (pt : Path) (pa : Nat → Nat) (pp : Nat → Int)
    (hsh : TreeShape s) (hpath : PathRec s pt pa pp) (i P : Nat) (c : Int)
    (hP : reachN s s.root_level.toNat s.tree_root (i + 1) P)
    (hc0 : 0 ≤ c) (hc1 : c ≤ (s.node P).num) (hoff : ¬ (P = pa (i + 1) ∧ c = pp (i + 1))) :
    (s.node P).ch c ≠ pa i := by
  intro he
  have hlev := reachN_level s _ _ _ _ hP
  obtain ⟨_, _, _, q4, q5, q6, q7⟩ := hpath.2 (i + 1) (by omega) hlev.2
  rw [Nat.add_sub_cancel] at q7
  exact hoff (hsh.2.2.1 i P (pa (i + 1)) c (pp (i + 1)) hP q6 hc0 hc1 q4 q5 (he.trans q7.symm))

/-- The subtree below a child that is not on the path: if the operation
touched only path nodes, the subtree is what it was, and it holds no path
node and not the leaf of the path. -/
theorem off_path_subtree (s s' : State) (pt : Path) (pa : Nat → Nat) (pp : Nat → Int)
    (hsh : TreeShape s) (hpath : PathRec s pt pa pp)
    (hnode : ∀ q, (∀ k, 1 ≤ k → k ≤ s.root_level.toNat → q ≠ pa k) → s'.node q = s.node q) :
    ∀ (i P : Nat) (c : Int), reachN s s.root_level.toNat s.tree_root (i + 1) P →
    0 ≤ c → c ≤ (s.node P).num → ¬ (P = pa (i + 1) ∧ c = pp (i + 1)) →
    (∀ j q, reachN s' i ((s.node P).ch c) j q →
      reachN s i ((s.node P).ch c) j q ∧ ∀ k, 1 ≤ k → k ≤ s.root_level.toNat → q ≠ pa k) ∧
    (∀ l, reach s' i ((s.node P).ch c) l → reach s i ((s.node P).ch c) l ∧ l ≠ pa 0) := by
  intro i
  induction i with
  | zero =>
    intro P c hP hc0 hc1 hoff
    refine ⟨fun j q h => absurd h (by simp [reachN]), fun l h => ?_⟩
    have hl : l = (s.node P).ch c := h
    subst hl
    exact ⟨rfl, off_path_child s pt pa pp hsh hpath 0 P c hP hc0 hc1 hoff⟩
  | succ n ih =>
    intro P c hP hc0 hc1 hoff
    have hne := off_path_child s pt pa pp hsh hpath (n + 1) P c hP hc0 hc1 hoff
    have hp := reachN_step s _ _ _ _ c hP hc0 hc1
    have hall := off_path s pt pa pp hsh hpath (n + 1) _ hp hne
    have hsame : s'.node ((s.node P).ch c) = s.node ((s.node P).ch c) := hnode _ hall
    refine ⟨fun j q h => ?_, fun l h => ?_⟩
    · rcases h with ⟨e1, e2⟩ | ⟨c', hc0', hc1', h3⟩
      · subst e1; subst e2
        exact ⟨reachN_top s n _, hall⟩
      · rw [hsame] at hc1' h3
        obtain ⟨a1, a2⟩ := (ih _ c' hp hc0' hc1' (fun hx => hne hx.1)).1 j q h3
        exact ⟨Or.inr ⟨c', hc0', hc1', a1⟩, a2⟩
    · obtain ⟨c', hc0', hc1', h3⟩ := h
      rw [hsame] at hc1' h3
      obtain ⟨a1, a2⟩ := (ih _ c' hp hc0' hc1' (fun hx => hne hx.1)).2 l h3
      exact ⟨⟨c', hc0', hc1', a1⟩, a2⟩

end LBTree


namespace LBTree

/-- The path node that lost a child: its subtree afterwards lies inside its
old subtree, and holds no path node of a lower level and not the removed leaf. -/
theorem on_path_base (s s' : State) (pt : Path) (pa : Nat → Nat) (pp : Nat → Int)
    (hsh : TreeShape s) (hpath : PathRec s pt pa pp) (m : Nat) (hm1 : 1 ≤ m)
    (hmL : m ≤ s.root_level.toNat)
    (hnode : ∀ q, (∀ k, 1 ≤ k → k ≤ m → q ≠ pa k) → s'.node q = s.node q)
    (hX : ∀ c : Int, 0 ≤ c → c ≤ (s'.node (pa m)).num → ∃ c0 : Int, 0 ≤ c0 ∧
      c0 ≤ (s.node (pa m)).num ∧ c0 ≠ pp m ∧ (s'.node (pa m)).ch c = (s.node (pa m)).ch c0) :
    (∀ j q, reachN s' m (pa m) j q → reachN s m (pa m) j q ∧
      ((m ≤ j ∧ q = pa j) ∨ ∀ k, 1 ≤ k → k ≤ s.root_level.toNat → q ≠ pa k)) ∧
    (∀ l, reach s' m (pa m) l → reach s m (pa m) l ∧ l ≠ pa 0) := by
  obtain ⟨i, hi⟩ : ∃ i, m = i + 1 := ⟨m - 1, by omega⟩
  subst hi
  obtain ⟨_, _, _, _, _, q6, _⟩ := hpath.2 (i + 1) hm1 hmL
  have hnodeL : ∀ q, (∀ k, 1 ≤ k → k ≤ s.root_level.toNat → q ≠ pa k) → s'.node q = s.node q :=
    fun q hq => hnode q (fun k hk1 hk2 => hq k hk1 (by omega))
  refine ⟨fun j q h => ?_, fun l h => ?_⟩
  · rcases h with ⟨e1, e2⟩ | ⟨c, hc0, hc1, h3⟩
    · subst e1; subst e2
      exact ⟨reachN_top s i _, Or.inl ⟨le_refl _, rfl⟩⟩
    · obtain ⟨c0, b0, b1, b2, b3⟩ := hX c hc0 hc1
      rw [b3] at h3
      obtain ⟨a1, a2⟩ := (off_path_subtree s s' pt pa pp hsh hpath hnodeL i (pa (i + 1)) c0 q6 b0 b1
        (fun hx => b2 hx.2)).1 j q h3
      exact ⟨Or.inr ⟨c0, b0, b1, a1⟩, Or.inr a2⟩
  · obtain ⟨c, hc0, hc1, h3⟩ := h
    obtain ⟨c0, b0, b1, b2, b3⟩ := hX c hc0 hc1
    rw [b3] at h3
    obtain ⟨a1, a2⟩ := (off_path_subtree s s' pt pa pp hsh hpath hnodeL i (pa (i + 1)) c0 q6 b0 b1
      (fun hx => b2 hx.2)).2 l h3
    exact ⟨⟨c0, b0, b1, a1⟩, a2⟩

/-- The path nodes above the node that lost a child: their subtrees
afterwards lie inside their old subtrees. -/
theorem on_path_after (s s' : State) (pt : Path) (pa : Nat → Nat) (pp : Nat → Int)
    (hsh : TreeShape s) (hpath : PathRec s pt pa pp) (m : Nat) (hm1 : 1 ≤ m)
    (hmL : m ≤ s.root_level.toNat)
    (hnode : ∀ q, (∀ k, 1 ≤ k → k ≤ m → q ≠ pa k) → s'.node q = s.node q)
    (hX : ∀ c : Int, 0 ≤ c → c ≤ (s'.node (pa m)).num → ∃ c0 : Int, 0 ≤ c0 ∧
      c0 ≤ (s.node (pa m)).num ∧ c0 ≠ pp m ∧ (s'.node (pa m)).ch c = (s.node (pa m)).ch c0) :
    ∀ (d k : Nat), k = m + d → k ≤ s.root_level.toNat →
    (∀ j q, reachN s' k (pa k) j q → reachN s k (pa k) j q ∧
      ((m ≤ j ∧ q = pa j) ∨ ∀ k', 1 ≤ k' → k' ≤ s.root_level.toNat → q ≠ pa k')) ∧
    (∀ l, reach s' k (pa k) l → reach s k (pa k) l ∧ l ≠ pa 0) := by
  have hnodeL : ∀ q, (∀ k, 1 ≤ k → k ≤ s.root_level.toNat → q ≠ pa k) → s'.node q = s.node q :=
    fun q hq => hnode q (fun k hk1 hk2 => hq k hk1 (by omega))
  intro d
  induction d with
  | zero =>
    intro k hk hkL
    have : k = m := by omega
    subst this
    exact on_path_base s s' pt pa pp hsh hpath k hm1 hmL hnode hX
  | succ n ih =>
    intro k hk hkL
    obtain ⟨i, hi⟩ : ∃ i, k = i + 1 := ⟨k - 1, by omega⟩
    subst hi
    obtain ⟨_, _, _, q4, q5, q6, q7⟩ := hpath.2 (i + 1) (by omega) hkL
    rw [Nat.add_sub_cancel] at q7
    have hsame : s'.node (pa (i + 1)) = s.node (pa (i + 1)) := by
      apply hnode
      intro k' h1 h2 he
      have := pathRec_inj s pt pa pp hsh hpath (i + 1) k' (by omega) hkL h1 (by omega) he
      omega
    obtain ⟨ih1, ih2⟩ := ih i (by omega) (by omega)
    refine ⟨fun j q h => ?_, fun l h => ?_⟩
    · rcases h with ⟨e1, e2⟩ | ⟨c, hc0, hc1, h3⟩
      · subst e1; subst e2
        exact ⟨reachN_top s i _, Or.inl ⟨by omega, rfl⟩⟩
      · rw [hsame] at hc1 h3
        by_cases hc : c = pp (i + 1)
        · subst hc
          rw [q7] at h3
          obtain ⟨a1, a2⟩ := ih1 j q h3
          exact ⟨Or.inr ⟨pp (i + 1), hc0, hc1, by rw [q7]; exact a1⟩, a2⟩
        · obtain ⟨a1, a2⟩ := (off_path_subtree s s' pt pa pp hsh hpath hnodeL i (pa (i + 1)) c q6
            hc0 hc1 (fun hx => hc hx.2)).1 j q h3
          exact ⟨Or.inr ⟨c, hc0, hc1, a1⟩, Or.inr a2⟩
    · obtain ⟨c, hc0, hc1, h3⟩ := h
      rw [hsame] at hc1 h3
      by_cases hc : c = pp (i + 1)
      · subst hc
        rw [q7] at h3
        obtain ⟨a1, a2⟩ := ih2 l h3
        exact ⟨⟨pp (i + 1), hc0, hc1, by rw [q7]; exact a1⟩, a2⟩
      · obtain ⟨a1, a2⟩ := (off_path_subtree s s' pt pa pp hsh hpath hnodeL i (pa (i + 1)) c q6
          hc0 hc1 (fun hx => hc hx.2)).2 l h3
        exact ⟨⟨c, hc0, hc1, a1⟩, a2⟩

/-- The children of an inner node after the removal of child `pp` in Part 3
of `del` are old children other than child `pp`. -/
theorem nodeRemove_children (p : bnode) (pp : Int) (hl : p.ent.length = 16)
    (hn1 : 1 ≤ p.num) (hn15 : p.num ≤ 15) (hp0 : 0 ≤ pp) (hp1 : pp ≤ p.num) :
    (nodeRemove (p.setLock 1) pp).num = p.num - 1 ∧
    (nodeRemove (p.setLock 1) pp).ent.length = 16 ∧
    ∀ c : Int, 0 ≤ c → c ≤ p.num - 1 → ∃ c0 : Int, 0 ≤ c0 ∧ c0 ≤ p.num ∧ c0 ≠ pp ∧
      (nodeRemove (p.setLock 1) pp).ch c = p.ch c0 := by
  have hl1 : (p.setLock 1).ent.length = 16 := by rw [bnode.length_setLock]; exact hl
  have hnum : (p.setLock 1).num = p.num := bnode.num_setLock _ _ (by omega)
  obtain ⟨r1, _, r3, r4⟩ := nodeRemove_spec (p.setLock 1) pp hl1 (by omega) (by omega) hp0
    (by omega)
  rw [hnum] at r1 r4
  refine ⟨r1, r3, fun c hc0 hc1 => ?_⟩
  rw [r4 c hc0 hc1]
  by_cases hc : c < pp
  · rw [if_pos hc]
    exact ⟨c, hc0, by omega, by omega, bnode.ch_setLock _ _ _ hc0⟩
  · rw [if_neg hc]
    exact ⟨c + 1, by omega, by omega, by omega, bnode.ch_setLock _ _ _ (by omega)⟩

end LBTree


namespace LBTree

/-- The tree after the removal of a leaf, no root collapse: what is reachable
was reachable, the removed leaf is not, and every reachable inner node is
unlocked. -/
theorem removal_keep_root (s s' : State) (pt : Path) (pa : Nat → Nat) (pp : Nat → Int)
    (hok : TreeOK s) (hsh : TreeShape s) (hpath : PathRec s pt pa pp) (m : Nat) (hm1 : 1 ≤ m)
    (hmL : m ≤ s.root_level.toNat) (hroot : pa s.root_level.toNat = s.tree_root)
    (hnum : 1 ≤ (s.node (pa m)).num)
    (hnode : ∀ q, (∀ k, 1 ≤ k → k ≤ m → q ≠ pa k) → s'.node q = s.node q)
    (hrl : s'.root_level = s.root_level) (hrt : s'.tree_root = s.tree_root)
    (hpm : s'.node (pa m) = (nodeRemove ((s.node (pa m)).setLock 1) (pp m)).setLock 0) :
    (∀ l, reach s' s'.root_level.toNat s'.tree_root l →
      reach s s.root_level.toNat s.tree_root l ∧ l ≠ pa 0) ∧
    (∀ j q, reachN s' s'.root_level.toNat s'.tree_root j q → (s'.node q).lock = 0) := by
  obtain ⟨_, _, _, q4, q5, q6, _⟩ := hpath.2 m hm1 hmL
  obtain ⟨hlen, h15⟩ := hsh.1 m _ q6
  obtain ⟨c1, c2, c3⟩ := nodeRemove_children (s.node (pa m)) (pp m) hlen hnum h15 q4 q5
  have hX : ∀ c : Int, 0 ≤ c → c ≤ (s'.node (pa m)).num → ∃ c0 : Int, 0 ≤ c0 ∧
      c0 ≤ (s.node (pa m)).num ∧ c0 ≠ pp m ∧ (s'.node (pa m)).ch c = (s.node (pa m)).ch c0 := by
    intro c hc0 hc1
    rw [hpm, bnode.num_setLock _ _ (by omega), c1] at hc1
    obtain ⟨c0, b0, b1, b2, b3⟩ := c3 c hc0 hc1
    refine ⟨c0, b0, b1, b2, ?_⟩
    rw [hpm, bnode.ch_setLock _ _ _ hc0]
    exact b3
  obtain ⟨a1, a2⟩ := on_path_after s s' pt pa pp hsh hpath m hm1 hmL hnode hX
    (s.root_level.toNat - m) s.root_level.toNat (by omega) (le_refl _)
  rw [hrl, hrt, ← hroot]
  refine ⟨fun l h => a2 l h, fun j q h => ?_⟩
  obtain ⟨b1, b2⟩ := a1 j q h
  have hlev := reachN_level s _ _ _ _ b1
  rw [hroot] at b1
  rcases b2 with ⟨e1, e2⟩ | e
  · by_cases hj : j = m
    · subst hj; subst e2
      rw [hpm]
      exact bnode.lock_setLock _ 0 (by rw [c2]; decide) (by decide)
    · have : s'.node q = s.node q := by
        apply hnode
        intro k hk1 hk2 he
        subst e2
        have := pathRec_inj s pt pa pp hsh hpath j k (by omega) hlev.2 hk1 (by omega) he
        omega
      rw [this]
      exact (subtreeOK_node s _ _ _ _ hok.2 b1).1
  · have : s'.node q = s.node q := hnode q (fun k hk1 hk2 => e k hk1 (by omega))
    rw [this]
    exact (subtreeOK_node s _ _ _ _ hok.2 b1).1

end LBTree


namespace LBTree

/-- The tree after the removal of a leaf with root collapse: the new root is
the remaining child of the old root; what is reachable was reachable, the
removed leaf is not, and every reachable inner node is unlocked. -/
theorem removal_collapse (s s' : State) (pt : Path) (pa : Nat → Nat) (pp : Nat → Int)
    (hok : TreeOK s) (hsh : TreeShape s) (hpath : PathRec s pt pa pp) (hL1 : 1 ≤ s.root_level.toNat)
    (hroot : pa s.root_level.toNat = s.tree_root)
    (hnum : 1 ≤ (s.node (pa s.root_level.toNat)).num)
    (hnode : ∀ q, (∀ k, 1 ≤ k → k ≤ s.root_level.toNat → q ≠ pa k) → s'.node q = s.node q)
    (hrl : s'.root_level = s.root_level - 1)
    (hrt : s'.tree_root = (nodeRemove ((s.node (pa s.root_level.toNat)).setLock 1)
      (pp s.root_level.toNat)).ch 0) :
    (∀ l, reach s' s'.root_level.toNat s'.tree_root l →
      reach s s.root_level.toNat s.tree_root l ∧ l ≠ pa 0) ∧
    (∀ j q, reachN s' s'.root_level.toNat s'.tree_root j q → (s'.node q).lock = 0) := by
  obtain ⟨_, _, _, q4, q5, q6, _⟩ := hpath.2 s.root_level.toNat hL1 (le_refl _)
  obtain ⟨hlen, h15⟩ := hsh.1 _ _ q6
  obtain ⟨c1, c2, c3⟩ := nodeRemove_children (s.node (pa s.root_level.toNat))
    (pp s.root_level.toNat) hlen hnum h15 q4 q5
  obtain ⟨c0, b0, b1, b2, b3⟩ := c3 0 (le_refl _) (by omega)
  obtain ⟨i, hi⟩ : ∃ i, s.root_level.toNat = i + 1 := ⟨s.root_level.toNat - 1, by omega⟩
  have hi' : s'.root_level.toNat = i := by rw [hrl]; omega
  rw [hrt, b3, hi']
  rw [hi] at q6 b1 b2 hnode ⊢
  rw [hi] at hroot
  obtain ⟨a1, a2⟩ := off_path_subtree s s' pt pa pp hsh hpath (by rw [hi]; exact hnode) i
    (pa (i + 1)) c0 (by rw [hi]; exact q6) b0 b1 (fun hx => b2 hx.2)
  rw [← hroot]
  refine ⟨fun l h => ?_, fun j q h => ?_⟩
  · obtain ⟨e1, e2⟩ := a2 l h
    exact ⟨⟨c0, b0, b1, e1⟩, e2⟩
  · obtain ⟨e1, e2⟩ := a1 j q h
    have : s'.node q = s.node q := hnode q (fun k hk1 hk2 => e2 k hk1 (by omega))
    rw [this]
    have hr : reachN s (i + 1) (pa (i + 1)) j q := Or.inr ⟨c0, b0, b1, e1⟩
    rw [hroot] at hr
    have hok2 := hok.2
    rw [hi] at hok2
    exact (subtreeOK_node s _ _ _ _ hok2 hr).1

/-- The tree after a completed `del` that removed a leaf: every leaf
reachable afterwards was reachable before, is not the removed leaf and has
kept its bitmap and its lock bit; every inner node reachable afterwards is
unlocked. -/
theorem del_removal_after (s : State) (key : Int) (s' : State) (lpa : Nat) (pt0 : Path)
    (hok : TreeOK s) (hsh : TreeShape s)
    (hd : descendPath s key s.root_level.toNat s.tree_root Path.empty = some (lpa, pt0))
    (hfound : ¬ searchLeaf (s.leaf lpa) key < 0)
    (hnum : (s.leaf lpa).num = 1) (hrl : s.root_level ≠ 0)
    (h : del s key = Res.ok s') :
    (∀ l, reach s' s'.root_level.toNat s'.tree_root l →
      reach s s.root_level.toNat s.tree_root l ∧
      (s'.leaf l).bitmap = (s.leaf l).bitmap ∧ (s'.leaf l).lock = (s.leaf l).lock) ∧
    (∀ j q, reachN s' s'.root_level.toNat s'.tree_root j q → (s'.node q).lock = 0) := by
  obtain ⟨pa, pp, m, hpa0, hpaL, hpath, hm1, hmL, _, hn1, hleaf, hnode, hcol, hkeep⟩ :=
    del_removal s key s' lpa pt0 hok hsh hd hfound hnum hrl h
  have hL1 : 1 ≤ s.root_level.toNat := by omega
  have hmain : (∀ l, reach s' s'.root_level.toNat s'.tree_root l →
      reach s s.root_level.toNat s.tree_root l ∧ l ≠ pa 0) ∧
      (∀ j q, reachN s' s'.root_level.toNat s'.tree_root j q → (s'.node q).lock = 0) := by
    by_cases hc : (nodeRemove ((s.node (pa m)).setLock 1) (pp m)).num = 0 ∧ (m : Int) ≥ s.root_level
    · obtain ⟨e1, e2⟩ := hcol hc
      have hmeq : m = s.root_level.toNat := by omega
      subst hmeq
      exact removal_collapse s s' pt0 pa pp hok hsh hpath hL1 hpaL hn1 hnode e1 e2
    · obtain ⟨e1, e2, e3⟩ := hkeep hc
      exact removal_keep_root s s' pt0 pa pp hok hsh hpath m hm1 hmL hpaL hn1 hnode e1 e2 e3
  refine ⟨fun l hl => ?_, hmain.2⟩
  obtain ⟨a1, a2⟩ := hmain.1 l hl
  rw [hpa0] at a2
  exact ⟨a1, hleaf l a2⟩

end LBTree


namespace LBTree

set_option maxRecDepth 100000

/-! ## C14: leaves stay non-empty under `del` -/

/-- Reachability of leaves depends on the inner nodes only. -/
theorem reach_congr (s s1 : State) (h : s1.node = s.node) :
    ∀ (i p l : Nat), reach s1 i p l ↔ reach s i p l := by
  intro i
  induction i with
  | zero => intro p l; exact Iff.rfl
  | succ n ih =>
    intro p l
    simp only [reach, h, ih]

/-- Reachability of inner nodes depends on the inner nodes only. -/
theorem reachN_congr (s s1 : State) (h : s1.node = s.node) :
    ∀ (i p j q : Nat), reachN s1 i p j q ↔ reachN s i p j q := by
  intro i
  induction i with
  | zero => intro p j q; exact Iff.rfl
  | succ n ih =>
    intro p j q
    simp only [reachN, h, ih]

/-- A live slot makes `num() >= 1`, and clearing it takes one off `num()`. -/
theorem num_clear (lp : bleaf) (j : Nat) (hbm : lp.bitmap < 2 ^ 14) (hj : j < 14)
    (hb : lp.bitmap.testBit j = true) :
    countBit (lp.bitmap &&& bnot32 (1 <<< j)) + 1 = lp.num :=
  countBit_clr lp.bitmap j hbm hj hb

/-- C14 (as stated, at a root leaf). The root leaf is never removed: on the
tree bulk-loaded from the single key 1 (a root leaf with bitmap `0x2000`),
`del(1)` returns and leaves the root leaf, still the only reachable leaf, with
bitmap 0. -/
theorem C14_del_empties_root_leaf :
    TreeOK exState1 ∧ TreeShape exState1 ∧ LeavesNonEmpty exState1 ∧
    ∃ s', del exState1 1 = Res.ok s' ∧ ¬ LeavesNonEmpty s' := by
  have hL : exState1.root_level.toNat = 0 := by decide
  have hroot : exState1.tree_root = 4096 := by decide
  refine ⟨by decide, ⟨?_, ?_, ?_, ?_⟩, ?_, ?_⟩
  · intro j q h
    rw [hL] at h
    exact absurd h (by simp [reachN])
  · intro j j' q h
    rw [hL] at h
    exact absurd h (by simp [reachN])
  · intro j p p' c c' h
    rw [hL] at h
    exact absurd h (by simp [reachN])
  · intro l h
    rw [hL, hroot] at h
    have : l = 4096 := h
    omega
  · intro l h
    rw [hL, hroot] at h
    have : l = 4096 := h
    subst this
    decide
  · have hsome : (del exState1 1).toOption.map
        (fun s => (s.root_level, s.tree_root, (s.leaf s.tree_root).bitmap)) = some (0, 4096, 0) := by
      decide
    rcases hd : del exState1 1 with s' | _ | _ | _
    · rw [hd] at hsome
      simp only [Res.toOption, Option.map_some', Option.some.injEq, Prod.mk.injEq] at hsome
      obtain ⟨e1, e2, e3⟩ := hsome
      refine ⟨s', rfl, fun hne => ?_⟩
      have hr : reach s' s'.root_level.toNat s'.tree_root s'.tree_root := by
        rw [e1]; rfl
      exact hne _ hr e3
    · rw [hd] at hsome; simp [Res.toOption] at hsome
    · rw [hd] at hsome; simp [Res.toOption] at hsome
    · rw [hd] at hsome; simp [Res.toOption] at hsome

/-- C14 (amended). On a quiescent tree of node frames whose leaves have 14-bit
bitmaps and in which every reachable leaf has a non-zero bitmap, every `del`
that returns leaves every reachable leaf with a non-zero bitmap, unless the
tree is a single root leaf (`root_level == 0`) holding one key and `del`
finds that key: a key that is absent changes nothing, a leaf with several
keys and a root leaf with several keys lose one bit, and a non-root leaf with
a single key is taken out of the tree. -/
theorem C14_del_keeps_leaves_nonempty (s : State) (key : Int) (s' : State)
    (hok : TreeOK s) (hsh : TreeShape s)
    (hbm : ∀ l, reach s s.root_level.toNat s.tree_root l → (s.leaf l).bitmap < 2 ^ 14)
    (hne : LeavesNonEmpty s)
    (hlast : ¬ (s.root_level = 0 ∧ (s.leaf s.tree_root).num = 1 ∧
      0 ≤ searchLeaf (s.leaf s.tree_root) key))
    (h : del s key = Res.ok s') : LeavesNonEmpty s' := by
  obtain ⟨lpa, pt0, hd, hdesc⟩ := descendPath_reach s key _ _ Path.empty hok.2
  obtain ⟨hlock, hreach, _⟩ := del_leaf_lock s key lpa pt0 hok hd
  rcases searchLeaf_sound (s.leaf lpa) key with hr | ⟨j, hj, hh⟩
  · have hs : del s key = Res.ok s := by
      unfold del
      simp only [hd, hlock, ne_eq, not_true_eq_false, if_false, hr]
      rfl
    rw [hs] at h
    cases h
    exact hne
  · have hcount := num_clear (s.leaf lpa) j (hbm lpa hreach) hh.1 hh.2.1
    by_cases hnum : (s.leaf lpa).num = 1
    · have hrl : s.root_level ≠ 0 := by
        intro h0
        have hr0 : reach s 0 s.tree_root lpa := by
          have := hreach
          rw [h0] at this
          exact this
        have hl : lpa = s.tree_root := hr0
        apply hlast
        refine ⟨h0, ?_, ?_⟩
        · rw [← hl]; exact hnum
        · rw [← hl, hj]; omega
      have hfound : ¬ searchLeaf (s.leaf lpa) key < 0 := by rw [hj]; omega
      obtain ⟨a1, _⟩ := del_removal_after s key s' lpa pt0 hok hsh hd hfound hnum hrl h
      intro l hl
      obtain ⟨b1, b2, _⟩ := a1 l hl
      rw [b2]
      exact hne l b1
    · have hlook : lookup s key = some (lpa, (j : Int)) := by
        simp only [lookup, hdesc, hlock, ne_eq, not_true_eq_false, if_false, hj]
      have hk := del_keep s key lpa j hok hlook (Or.inl (by omega))
      rw [hk] at h
      cases h
      intro l hl
      have hl' : reach s s.root_level.toNat s.tree_root l :=
        (reach_congr s (s.setLeaf lpa { s.leaf lpa with
          bitmap := (s.leaf lpa).bitmap &&& bnot32 (1 <<< j), lock := 0 }) rfl _ _ _).1 hl
      by_cases hla : l = lpa
      · subst hla
        rw [State.leaf_setLeaf_same]
        intro hz
        have hz' : (s.leaf l).bitmap &&& bnot32 (1 <<< j) = 0 := hz
        rw [hz', countBit_zero] at hcount
        omega
      · rw [State.leaf_setLeaf_other _ _ _ _ hla]
        exact hne l hl'

/-- C14 at a concrete input: the tree bulk-loaded from `1 .. 10` is a single
root leaf with ten keys; `del(3)` returns and the root leaf is still
non-empty. -/
theorem C14_del_keeps_leaves_nonempty_witness :
    TreeOK exState10 ∧ TreeShape exState10 ∧ LeavesNonEmpty exState10 ∧
    exState10.root_level = 0 ∧ (exState10.leaf exState10.tree_root).num = 10 ∧
    ∃ s', del exState10 3 = Res.ok s' ∧ LeavesNonEmpty s' := by
  have hL : exState10.root_level.toNat = 0 := by decide
  have hroot : exState10.tree_root = 4096 := by decide
  have hsh : TreeShape exState10 := by
    refine ⟨?_, ?_, ?_, ?_⟩
    · intro j q h
      rw [hL] at h
      exact absurd h (by simp [reachN])
    · intro j j' q h
      rw [hL] at h
      exact absurd h (by simp [reachN])
    · intro j p p' c c' h
      rw [hL] at h
      exact absurd h (by simp [reachN])
    · intro l h
      rw [hL, hroot] at h
      have : l = 4096 := h
      omega
  have hne : LeavesNonEmpty exState10 := by
    intro l h
    rw [hL, hroot] at h
    have : l = 4096 := h
    subst this
    decide
  have hbm : ∀ l, reach exState10 exState10.root_level.toNat exState10.tree_root l →
      (exState10.leaf l).bitmap < 2 ^ 14 := by
    intro l h
    rw [hL, hroot] at h
    have : l = 4096 := h
    subst this
    decide
  have hsome : (del exState10 3).toOption.map (fun s => s.root_level) = some 0 := by decide
  refine ⟨by decide, hsh, hne, by decide, by decide, ?_⟩
  rcases hd : del exState10 3 with s' | _ | _ | _
  · exact ⟨s', rfl, C14_del_keeps_leaves_nonempty exState10 3 s' (by decide) hsh hbm hne
      (by decide) hd⟩
  · rw [hd] at hsome; simp [Res.toOption] at hsome
  · rw [hd] at hsome; simp [Res.toOption] at hsome
  · rw [hd] at hsome; simp [Res.toOption] at hsome

end LBTree


namespace LBTree

/-! ## Inner nodes under the stores of `insert` -/

/-- The loop `for (i=hi; i>=lo; i--) p->ent[i+1]= p->ent[i]`. -/
theorem shiftUp_spec (lo : Int) (hlo : 1 ≤ lo) :
    ∀ (fuel : Nat) (i : Int) (p : bnode), i + 1 = lo + fuel → i ≤ 14 → p.ent.length = 16 →
    (shiftUp lo fuel i p).ent.length = 16 ∧
    ∀ j : Int, 0 ≤ j → (shiftUp lo fuel i p).entAt j =
      if lo + 1 ≤ j ∧ j ≤ i + 1 then p.entAt (j - 1) else p.entAt j := by
  intro fuel
  induction fuel with
  | zero =>
    intro i p hi _ hl
    refine ⟨hl, fun j _ => ?_⟩
    have : ¬ (lo + 1 ≤ j ∧ j ≤ i + 1) := by omega
    rw [if_neg this]; rfl
  | succ m ih =>
    intro i p hi h14 hl
    have hin : i ≥ lo := by omega
    unfold shiftUp
    simp only [hin, if_true]
    obtain ⟨r1, r2⟩ := ih (i - 1) (p.setEnt (i + 1) (p.entAt i)) (by omega) (by omega)
      (by rw [bnode.length_setEnt]; exact hl)
    refine ⟨r1, fun j hj => ?_⟩
    rw [r2 j hj]
    by_cases hc : lo + 1 ≤ j ∧ j ≤ i - 1 + 1
    · rw [if_pos hc, if_pos (by omega),
        bnode.nodeEntAt_setEnt p (i + 1) (j - 1) _ (by omega) (by omega) (by omega),
        if_neg (by omega)]
    · rw [if_neg hc, bnode.nodeEntAt_setEnt p (i + 1) j _ (by omega) hj (by omega)]
      by_cases hji : j = i + 1
      · rw [if_pos hji, if_pos (by omega), hji]
        congr 1
        omega
      · rw [if_neg hji, if_neg (by omega)]

/-- Part 3 of `insert` on a node that is not full: the node gets one more key,
its lock bit is cleared, and its children are the old ones and `ptr`. -/
theorem nodeInsert_spec (p : bnode) (pos key : Int) (ptr : Nat) (hl : p.ent.length = 16)
    (hn0 : 0 ≤ p.num) (hn14 : p.num ≤ 14) (hp1 : 1 ≤ pos) (hp2 : pos ≤ p.num + 1) :
    (nodeInsert p pos key ptr).num = p.num + 1 ∧ (nodeInsert p pos key ptr).lock = 0 ∧
    (nodeInsert p pos key ptr).ent.length = 16 ∧
    ∀ c : Int, 0 ≤ c → c ≤ p.num + 1 →
      (nodeInsert p pos key ptr).ch c = ptr ∨
      ∃ c0 : Int, 0 ≤ c0 ∧ c0 ≤ p.num ∧ (nodeInsert p pos key ptr).ch c = p.ch c0 := by
  obtain ⟨r1, r2⟩ := shiftUp_spec pos hp1 (p.num - pos + 1).toNat p.num p (by omega) hn14 hl
  have hl2 : (((shiftUp pos (p.num - pos + 1).toNat p.num p).setK pos key).setCh pos ptr).ent.length
      = 16 := by
    rw [bnode.length_setCh, bnode.length_setK]; exact r1
  unfold nodeInsert
  refine ⟨?_, ?_, ?_, ?_⟩
  · rw [bnode.num_setLock _ _ (by rw [bnode.length_setNum, hl2]; omega),
      bnode.num_setNum _ _ (by rw [hl2]; omega)]
  · exact bnode.lock_setLock _ 0 (by rw [bnode.length_setNum, hl2]; omega) (by decide)
  · rw [bnode.length_setLock, bnode.length_setNum]; exact hl2
  · intro c hc0 hc1
    rw [bnode.ch_setLock _ _ _ hc0, bnode.ch_setNum _ _ _ hc0,
      bnode.ch_setCh _ pos c ptr (by omega) hc0 (by rw [bnode.length_setK, r1]; omega)]
    by_cases hcp : c = pos
    · left; rw [if_pos hcp]
    · right
      rw [if_neg hcp, bnode.ch_setK _ pos c key (by omega) hc0]
      have h2 := r2 c hc0
      have h3 : (shiftUp pos (p.num - pos + 1).toNat p.num p).ch c
          = ((shiftUp pos (p.num - pos + 1).toNat p.num p).entAt c).ch := rfl
      rw [h3, h2]
      by_cases hc : pos + 1 ≤ c ∧ c ≤ p.num + 1
      · rw [if_pos hc]
        exact ⟨c - 1, by omega, by omega, rfl⟩
      · rw [if_neg hc]
        exact ⟨c, hc0, by omega, rfl⟩

theorem mem_insertAt {α : Type} (l : List α) (i : Nat) (x y : α) (h : y ∈ insertAt l i x) :
    y = x ∨ y ∈ l := by
  unfold insertAt at h
  rcases List.mem_append.1 h with h1 | h1
  · exact Or.inr (List.mem_of_mem_take h1)
  · rcases List.mem_cons.1 h1 with h2 | h2
    · exact Or.inl h2
    · exact Or.inr (List.mem_of_mem_drop h2)

theorem mem_childrenN (p : bnode) (n : Nat) (x : Nat) :
    x ∈ p.childrenN n ↔ ∃ c : Int, 0 ≤ c ∧ c < n ∧ x = p.ch c := by
  unfold bnode.childrenN
  simp only [List.mem_map, List.mem_range]
  constructor
  · rintro ⟨i, hi, e⟩
    exact ⟨(i : Int), by omega, by omega, e.symm⟩
  · rintro ⟨c, h0, h1, e⟩
    refine ⟨c.toNat, by omega, ?_⟩
    rw [e]
    congr 1
    omega

/-- The counts and the children of the two halves of a split inner node. -/
theorem nodeSplit_shape (p newp : bnode) (pos key : Int) (ptr : Nat) (unlock : Bool)
    (hp : p.ent.length = 16) (hnew : newp.ent.length = 16) (hnum : p.num = 15)
    (h1 : 1 ≤ pos) (h2 : pos ≤ 16) :
    (nodeSplit p newp pos key ptr unlock).1.num = 7 ∧
    (nodeSplit p newp pos key ptr unlock).2.1.num = 8 ∧
    (nodeSplit p newp pos key ptr unlock).1.children ++ (nodeSplit p newp pos key ptr unlock).2.1.children
      = insertAt p.children pos.toNat ptr := by
  obtain ⟨hl1, hl2, _, _, _, hch⟩ := nodeSplitMove_spec p newp pos key ptr hp hnew h1 h2
  have hnum1 : (nodeSplit p newp pos key ptr unlock).1.num = 7 := by
    rw [nodeSplit_fst]
    cases unlock
    · simp only [Bool.false_eq_true, if_false]
      rw [bnode.num_setNum _ _ (by omega)]; rfl
    · simp only [if_true]
      rw [bnode.num_setLock _ _ (by rw [bnode.length_setNum]; omega),
        bnode.num_setNum _ _ (by omega)]; rfl
  have hnum2 : (nodeSplit p newp pos key ptr unlock).2.1.num = 8 := by
    rw [nodeSplit_snd, bnode.num_setLock _ _ (by rw [bnode.length_setNum]; omega),
      bnode.num_setNum _ _ (by omega)]; rfl
  refine ⟨hnum1, hnum2, ?_⟩
  unfold bnode.children
  rw [hnum1, hnum2, hnum, nodeSplit_snd, bnode.setLock, bnode.childrenN_setK0, bnode.setNum,
    bnode.childrenN_setK0, nodeSplit_fst]
  cases unlock
  · simp only [Bool.false_eq_true, if_false]
    rw [bnode.setNum, bnode.childrenN_setK0]; exact hch
  · simp only [if_true]
    rw [bnode.setLock, bnode.childrenN_setK0, bnode.setNum, bnode.childrenN_setK0]; exact hch

/-- Part 3 of `insert` on a full node: both halves have their `num`, the new
node is unlocked, the old one is unlocked unless it is the root, and the
children of both are old children and `ptr`. -/
theorem nodeSplit_children (p newp : bnode) (pos key : Int) (ptr : Nat) (unlock : Bool)
    (hp : p.ent.length = 16) (hnew : newp.ent.length = 16) (hnum : p.num = 15)
    (h1 : 1 ≤ pos) (h2 : pos ≤ 16) :
    (nodeSplit p newp pos key ptr unlock).1.ent.length = 16 ∧
    (nodeSplit p newp pos key ptr unlock).2.1.ent.length = 16 ∧
    (nodeSplit p newp pos key ptr unlock).2.1.lock = 0 ∧
    (unlock = true → (nodeSplit p newp pos key ptr unlock).1.lock = 0) ∧
    (∀ c : Int, 0 ≤ c → c ≤ (nodeSplit p newp pos key ptr unlock).1.num →
      (nodeSplit p newp pos key ptr unlock).1.ch c = ptr ∨
      ∃ c0 : Int, 0 ≤ c0 ∧ c0 ≤ p.num ∧ (nodeSplit p newp pos key ptr unlock).1.ch c = p.ch c0) ∧
    (∀ c : Int, 0 ≤ c → c ≤ (nodeSplit p newp pos key ptr unlock).2.1.num →
      (nodeSplit p newp pos key ptr unlock).2.1.ch c = ptr ∨
      ∃ c0 : Int, 0 ≤ c0 ∧ c0 ≤ p.num ∧
        (nodeSplit p newp pos key ptr unlock).2.1.ch c = p.ch c0) := by
  obtain ⟨hl1, hl2, _, _, _, _⟩ := nodeSplitMove_spec p newp pos key ptr hp hnew h1 h2
  obtain ⟨n1, n2, hch⟩ := nodeSplit_shape p newp pos key ptr unlock hp hnew hnum h1 h2
  have hmem : ∀ x, x ∈ (nodeSplit p newp pos key ptr unlock).1.children ++
      (nodeSplit p newp pos key ptr unlock).2.1.children →
      x = ptr ∨ ∃ c0 : Int, 0 ≤ c0 ∧ c0 ≤ p.num ∧ x = p.ch c0 := by
    intro x hx
    rw [hch] at hx
    rcases mem_insertAt _ _ _ _ hx with e | e
    · exact Or.inl e
    · right
      obtain ⟨c, c0, c1, c2⟩ := (mem_childrenN p _ x).1 e
      exact ⟨c, c0, by omega, c2⟩
  refine ⟨?_, ?_, ?_, ?_, ?_, ?_⟩
  · rw [nodeSplit_fst]
    cases unlock
    · simp only [Bool.false_eq_true, if_false]
      rw [bnode.length_setNum]; exact hl1
    · simp only [if_true]
      rw [bnode.length_setLock, bnode.length_setNum]; exact hl1
  · rw [nodeSplit_snd, bnode.length_setLock, bnode.length_setNum]; exact hl2
  · rw [nodeSplit_snd]
    exact bnode.lock_setLock _ 0 (by rw [bnode.length_setNum, hl2]; omega) (by decide)
  · intro hu
    rw [nodeSplit_fst, hu]
    simp only [if_true]
    exact bnode.lock_setLock _ 0 (by rw [bnode.length_setNum, hl1]; omega) (by decide)
  · intro c hc0 hc1
    apply hmem
    apply List.mem_append_left
    exact (mem_childrenN _ _ _).2 ⟨c, hc0, by omega, rfl⟩
  · intro c hc0 hc1
    apply hmem
    apply List.mem_append_right
    exact (mem_childrenN _ _ _).2 ⟨c, hc0, by omega, rfl⟩

end LBTree


namespace LBTree

/-! ## The DRAM pool during `insert` -/

/-- Whatever `mempool_alloc_node` returns is the head of `dpoolSeq`. -/
theorem dpoolSeq_succ (n : Nat) (s s1 : State) (a : Nat)
    (h : mempool_alloc_node s = some (a, s1)) : dpoolSeq (n + 1) s = a :: dpoolSeq n s1 := by
  simp only [dpoolSeq, h]

/-- The addresses handed out depend on the pool header and on the link words
of the frames handed out only. -/
theorem dpoolSeq_congr : ∀ (n : Nat) (s1 s2 : State), s2.dpool = s1.dpool →
    (∀ a ∈ dpoolSeq n s1, s2.node a = s1.node a) → dpoolSeq n s2 = dpoolSeq n s1 := by
  intro n
  induction n with
  | zero => intro s1 s2 _ _; rfl
  | succ n ih =>
    intro s1 s2 hd hn
    by_cases hf : s1.dpool.free_node ≠ 0
    · have h1 : mempool_alloc_node s1 = some (s1.dpool.free_node,
          { s1 with dpool := { s1.dpool with
              free_node := ((s1.node s1.dpool.free_node).k 0 % 2 ^ 64).toNat } }) := by
        unfold mempool_alloc_node
        rw [if_pos hf]
      have hmem : s1.dpool.free_node ∈ dpoolSeq (n + 1) s1 := by
        rw [dpoolSeq_succ n s1 _ _ h1]
        exact List.mem_cons_self _ _
      have h2 : mempool_alloc_node s2 = some (s1.dpool.free_node,
          { s2 with dpool := { s1.dpool with
              free_node := ((s1.node s1.dpool.free_node).k 0 % 2 ^ 64).toNat } }) := by
        unfold mempool_alloc_node
        rw [hd, if_pos hf, hn _ hmem]
      rw [dpoolSeq_succ n s1 _ _ h1, dpoolSeq_succ n s2 _ _ h2]
      congr 1
      apply ih
      · rfl
      · intro a ha
        apply hn
        rw [dpoolSeq_succ n s1 _ _ h1]
        exact List.mem_cons_of_mem _ ha
    · rcases hal : s1.dpool.alloc 256 with _ | ⟨p, m⟩
      · have h1 : mempool_alloc_node s1 = none := by
          unfold mempool_alloc_node
          rw [if_neg hf, hal]
        have h2 : mempool_alloc_node s2 = none := by
          unfold mempool_alloc_node
          rw [hd, if_neg hf, hal]
        simp only [dpoolSeq, h1, h2]
      · have h1 : mempool_alloc_node s1 = some (p, { s1 with dpool := m }) := by
          unfold mempool_alloc_node
          rw [if_neg hf, hal]
        have h2 : mempool_alloc_node s2 = some (p, { s2 with dpool := m }) := by
          unfold mempool_alloc_node
          rw [hd, if_neg hf, hal]
        rw [dpoolSeq_succ n s1 _ _ h1, dpoolSeq_succ n s2 _ _ h2]
        congr 1
        apply ih
        · rfl
        · intro a ha
          apply hn
          rw [dpoolSeq_succ n s1 _ _ h1]
          exact List.mem_cons_of_mem _ ha

/-- A shorter look-ahead is a prefix of a longer one. -/
theorem dpoolSeq_initial : ∀ (n k : Nat) (s : State), ∀ a ∈ dpoolSeq n s, a ∈ dpoolSeq (n + k) s := by
  intro n
  induction n with
  | zero => intro k s a ha; exact absurd ha (by simp [dpoolSeq])
  | succ n ih =>
    intro k s a ha
    rcases hal : mempool_alloc_node s with _ | ⟨b, s1⟩
    · simp only [dpoolSeq, hal] at ha
      exact absurd ha (by simp)
    · rw [dpoolSeq_succ n s s1 b hal] at ha
      have hk : n + 1 + k = (n + k) + 1 := by omega
      rw [hk, dpoolSeq_succ (n + k) s s1 b hal]
      rcases List.mem_cons.1 ha with e | e
      · rw [e]; exact List.mem_cons_self _ _
      · exact List.mem_cons_of_mem _ (ih k s1 a e)

theorem dpoolSeq_initial_nodup : ∀ (n k : Nat) (s : State), (dpoolSeq (n + k) s).Nodup →
    (dpoolSeq n s).Nodup := by
  intro n
  induction n with
  | zero => intro k s _; simp [dpoolSeq]
  | succ n ih =>
    intro k s h
    rcases hal : mempool_alloc_node s with _ | ⟨b, s1⟩
    · simp only [dpoolSeq, hal]
      exact List.nodup_nil
    · have hk : n + 1 + k = (n + k) + 1 := by omega
      rw [hk, dpoolSeq_succ (n + k) s s1 b hal] at h
      rw [dpoolSeq_succ n s s1 b hal]
      obtain ⟨h1, h2⟩ := List.nodup_cons.1 h
      exact List.nodup_cons.2 ⟨fun hb => h1 (dpoolSeq_initial n k s1 b hb), ih k s1 h2⟩

end LBTree


namespace LBTree

/-! ## The fingerprint hash -/

/-- The xor-fold of a natural number is the XOR of its low eight bytes. -/
theorem hashNat_spec (n : Nat) :
    (((n ^^^ (n >>> 32)) ^^^ ((n ^^^ (n >>> 32)) >>> 16)) ^^^
      (((n ^^^ (n >>> 32)) ^^^ ((n ^^^ (n >>> 32)) >>> 16)) >>> 8)) % 256
    = (bytesLE 8 (n % 2 ^ 64)).foldl (fun a b => a ^^^ b) 0 := by
  simp only [bytesLE, List.foldl]
  apply Nat.eq_of_testBit_eq
  intro i
  simp only [Nat.testBit_xor, Nat.testBit_shiftRight, show (256:Nat) = 2 ^ 8 from rfl,
    Nat.testBit_mod_two_pow, Nat.zero_xor, ← Nat.shiftRight_eq_div_pow, Nat.testBit_zero]
  by_cases h : i < 8
  · simp only [h, decide_True, Bool.true_and, ← Nat.add_assoc, Nat.reduceAdd]
    have d : ∀ k, k ≤ 56 → decide (k + i < 64) = true := by
      intro k hk; simp; omega
    rw [d 8 (by omega), d 16 (by omega), d 24 (by omega), d 32 (by omega), d 40 (by omega),
      d 48 (by omega), d 56 (by omega), show decide (i < 64) = true by simp; omega]
    generalize n.testBit i = b0
    generalize n.testBit (8 + i) = b1
    generalize n.testBit (16 + i) = b2
    generalize n.testBit (24 + i) = b3
    generalize n.testBit (32 + i) = b4
    generalize n.testBit (40 + i) = b5
    generalize n.testBit (48 + i) = b6
    generalize n.testBit (56 + i) = b7
    revert b0 b1 b2 b3 b4 b5 b6 b7
    decide
  · simp [h]

/-- Complementing all eight bytes does not change their XOR. -/
theorem xorBytes_compl (n : Nat) (h : n < 2 ^ 64) :
    (bytesLE 8 (2 ^ 64 - (n + 1))).foldl (fun a b => a ^^^ b) 0
      = (bytesLE 8 n).foldl (fun a b => a ^^^ b) 0 := by
  simp only [bytesLE, List.foldl]
  apply Nat.eq_of_testBit_eq
  intro i
  simp only [Nat.testBit_xor, Nat.testBit_shiftRight, show (256:Nat) = 2 ^ 8 from rfl,
    Nat.testBit_mod_two_pow, Nat.zero_xor, ← Nat.shiftRight_eq_div_pow, Nat.testBit_zero,
    Nat.testBit_two_pow_sub_succ h]
  by_cases h8 : i < 8
  · simp only [h8, decide_True, Bool.true_and, ← Nat.add_assoc, Nat.reduceAdd]
    have d : ∀ k, k ≤ 56 → decide (k + i < 64) = true := by
      intro k hk; simp; omega
    rw [d 8 (by omega), d 16 (by omega), d 24 (by omega), d 32 (by omega), d 40 (by omega),
      d 48 (by omega), d 56 (by omega), show decide (i < 64) = true by simp; omega]
    generalize n.testBit i = b0
    generalize n.testBit (8 + i) = b1
    generalize n.testBit (16 + i) = b2
    generalize n.testBit (24 + i) = b3
    generalize n.testBit (32 + i) = b4
    generalize n.testBit (40 + i) = b5
    generalize n.testBit (48 + i) = b6
    generalize n.testBit (56 + i) = b7
    revert b0 b1 b2 b3 b4 b5 b6 b7
    decide
  · simp [h8]

/-- C21: `hashcode1B(x)` is the XOR of the eight bytes of the 64-bit two's
complement image of the key `x`, for every `x`, negative ones included (where
the right shifts are arithmetic). -/
theorem C21_hashcode1B_xor_of_bytes (x : Int) :
    hashcode1B x = (bytesLE 8 (x % 2 ^ 64).toNat).foldl (fun a b => a ^^^ b) 0 := by
  rcases x with n | n
  · have h := hashNat_spec n
    have e : ((Int.ofNat n) % 2 ^ 64).toNat = n % 2 ^ 64 := by
      simp only [Int.ofNat_eq_coe]; norm_cast
    rw [e, ← h]
    have hs : ∀ (a : Nat) (k : Nat), ((a : Int) >>> k) = ((a >>> k : Nat) : Int) := by
      intro a k; rfl
    have hx : ∀ (a b : Nat), Int.xor (a : Int) (b : Int) = ((a ^^^ b : Nat) : Int) := by
      intro a b; rfl
    have ht : ∀ N : Nat, ((N : Int) % 256).toNat = N % 256 := by intro N; omega
    show ((((n ^^^ n >>> 32 ^^^ (n ^^^ n >>> 32) >>> 16 ^^^
      (n ^^^ n >>> 32 ^^^ (n ^^^ n >>> 32) >>> 16) >>> 8 : Nat) : Int)) % 256).toNat = _
    exact ht _
  · have h := hashNat_spec n
    have e : ((Int.negSucc n) % 2 ^ 64).toNat = 2 ^ 64 - (n % 2 ^ 64 + 1) := by
      have : ((2:Int) ^ 64) = ((2 ^ 64 : Nat) : Int) := by norm_num
      rw [this, Int.emod_negSucc]
      simp only [Int.natAbs_ofNat, Nat.succ_eq_add_one]
      rw [Int.subNatNat_of_le (by have := Nat.mod_lt n (show 2 ^ 64 > 0 by norm_num); omega)]
      simp
    rw [e, xorBytes_compl _ (Nat.mod_lt n (by norm_num)), ← h]
    have hs : ∀ (a : Nat) (k : Nat), ((Int.negSucc a) >>> k) = Int.negSucc (a >>> k) := by
      intro a k; rfl
    have hs2 : ∀ (a : Nat) (k : Nat), ((a : Int) >>> k) = ((a >>> k : Nat) : Int) := by
      intro a k; rfl
    have hx : ∀ (a b : Nat), Int.xor (Int.negSucc a) (Int.negSucc b) = ((a ^^^ b : Nat) : Int) := by
      intro a b; rfl
    have hx2 : ∀ (a b : Nat), Int.xor (a : Int) (b : Int) = ((a ^^^ b : Nat) : Int) := by
      intro a b; rfl
    have ht : ∀ N : Nat, ((N : Int) % 256).toNat = N % 256 := by intro N; omega
    show ((((n ^^^ n >>> 32 ^^^ (n ^^^ n >>> 32) >>> 16 ^^^
      (n ^^^ n >>> 32 ^^^ (n ^^^ n >>> 32) >>> 16) >>> 8 : Nat) : Int)) % 256).toNat = _
    exact ht _

end LBTree


namespace LBTree

/-! ## Memory copies and the checksum of a line -/

theorem memcpyTo_in (m : Nat → Nat) (dst : Nat) (src : List Nat) (a : Nat)
    (h1 : dst ≤ a) (h2 : a < dst + src.length) :
    memcpyTo m dst src a = src.getD (a - dst) 0 := by
  unfold memcpyTo
  rw [if_pos ⟨h1, h2⟩]

theorem memcpyTo_out (m : Nat → Nat) (dst : Nat) (src : List Nat) (a : Nat)
    (h : a < dst ∨ dst + src.length ≤ a) :
    memcpyTo m dst src a = m a := by
  unfold memcpyTo
  rw [if_neg (by omega)]

theorem memcpyTo_one_same (m : Nat → Nat) (dst b : Nat) : memcpyTo m dst [b] dst = b := by
  rw [memcpyTo_in _ _ _ _ (le_refl _) (by simp)]
  simp

theorem memcpyTo_one_other (m : Nat → Nat) (dst b a : Nat) (h : a ≠ dst) :
    memcpyTo m dst [b] a = m a := by
  apply memcpyTo_out
  simp only [List.length_singleton]
  omega

theorem memcpyFrom_length (m : Nat → Nat) (src len : Nat) :
    (memcpyFrom m src len).length = len := by
  induction len generalizing src with
  | zero => rfl
  | succ n ih => simp [memcpyFrom, ih]

theorem memcpyFrom_getD (m : Nat → Nat) (src len i : Nat) (h : i < len) :
    (memcpyFrom m src len).getD i 0 = m (src + i) := by
  induction len generalizing src i with
  | zero => omega
  | succ n ih =>
    cases i with
    | zero => simp [memcpyFrom]
    | succ j =>
      simp only [memcpyFrom, List.getD_cons_succ]
      rw [ih (src + 1) j (by omega)]
      congr 1
      omega

theorem memcpyFrom_congr (m m' : Nat → Nat) (src len : Nat)
    (h : ∀ i, i < len → m (src + i) = m' (src + i)) :
    memcpyFrom m src len = memcpyFrom m' src len := by
  induction len generalizing src with
  | zero => rfl
  | succ n ih =>
    simp only [memcpyFrom]
    rw [ih (src + 1) (fun i hi => by have := h (i + 1) (by omega); rwa [show src + 1 + i = src + (i + 1) by omega])]
    have := h 0 (by omega)
    rw [Nat.add_zero] at this
    rw [this]

theorem memcpyFrom_eq_map (m : Nat → Nat) (src len : Nat) :
    memcpyFrom m src len = (List.range len).map (fun i => m (src + i)) := by
  apply List.ext_getElem
  · simp [memcpyFrom_length]
  · intro i h1 h2
    have := memcpyFrom_getD m src len i (by simpa [memcpyFrom_length] using h1)
    rw [List.getD_eq_getElem _ _ h1] at this
    rw [this]
    simp

/-- Reading back the bytes that `memcpy` stored. -/
theorem memcpyFrom_memcpyTo (m : Nat → Nat) (dst : Nat) (src : List Nat) :
    memcpyFrom (memcpyTo m dst src) dst src.length = src := by
  apply List.ext_getElem
  · simp [memcpyFrom_length]
  · intro i h1 h2
    have := memcpyFrom_getD (memcpyTo m dst src) dst src.length i h2
    rw [List.getD_eq_getElem _ _ h1] at this
    rw [this, memcpyTo_in _ _ _ _ (by omega) (by omega)]
    rw [show dst + i - dst = i by omega, List.getD_eq_getElem _ _ h2]

theorem land_mask_byte0 (b r : Nat) :
    (b % 256 + 256 * r) &&& 0xffffffffffffff00 = (256 * r) &&& 0xffffffffffffff00 := by
  apply Nat.eq_of_testBit_eq
  intro i
  rw [Nat.testBit_and, Nat.testBit_and]
  have e1 : b % 256 + 256 * r = 2 ^ 8 * r + b % 256 := by norm_num; omega
  have e2 : 256 * r = 2 ^ 8 * r + 0 := by norm_num
  rw [e1, e2, Nat.testBit_mul_pow_two_add _ (by norm_num; exact Nat.mod_lt _ (by norm_num)),
    Nat.testBit_mul_pow_two_add _ (by norm_num)]
  by_cases h : i < 8
  · rw [if_pos h, if_pos h]
    have : Nat.testBit 0xffffffffffffff00 i = false := by
      interval_cases i <;> rfl
    rw [this]
    simp
  · rw [if_neg h, if_neg h]

/-- `computeCheckSum(line)` does not depend on byte 0 of the line. -/
theorem computeCheckSum_congr (m m' : Nat → Nat) (line : Nat)
    (h : ∀ i, 1 ≤ i → i < 64 → m (line + i) = m' (line + i)) :
    computeCheckSum m line = computeCheckSum m' line := by
  have hw : ∀ k, 1 ≤ k → k < 8 → loadLE m (line + 8 * k) 8 = loadLE m' (line + 8 * k) 8 := by
    intro k hk1 hk2
    unfold loadLE
    rw [memcpyFrom_congr m m' (line + 8 * k) 8 (fun i hi => by
      have := h (8 * k + i) (by omega) (by omega)
      rwa [show line + 8 * k + i = line + (8 * k + i) by omega])]
  have h0 : loadLE m line 8 &&& 0xffffffffffffff00 = loadLE m' line 8 &&& 0xffffffffffffff00 := by
    unfold loadLE
    simp only [memcpyFrom, leValue]
    rw [land_mask_byte0, land_mask_byte0]
    have e : ∀ i, 1 ≤ i → i < 8 → m (line + i) = m' (line + i) := fun i h1 h2 => h i h1 (by omega)
    have e1 := e 1 (by omega) (by omega)
    have e2 := e 2 (by omega) (by omega)
    have e3 := e 3 (by omega) (by omega)
    have e4 := e 4 (by omega) (by omega)
    have e5 := e 5 (by omega) (by omega)
    have e6 := e 6 (by omega) (by omega)
    have e7 := e 7 (by omega) (by omega)
    simp only [Nat.add_assoc, Nat.reduceAdd] at e1 e2 e3 e4 e5 e6 e7 ⊢
    rw [e1, e2, e3, e4, e5, e6, e7]
  unfold computeCheckSum
  simp only [Nat.mul_zero, Nat.add_zero]
  rw [h0, hw 1 (by omega) (by omega), hw 2 (by omega) (by omega), hw 3 (by omega) (by omega),
    hw 4 (by omega) (by omega), hw 5 (by omega) (by omega), hw 6 (by omega) (by omega),
    hw 7 (by omega) (by omega)]

theorem computeCheckSum_lt (m : Nat → Nat) (line : Nat) : computeCheckSum m line < 256 := by
  unfold computeCheckSum
  exact Nat.mod_lt _ (by norm_num)

theorem checkByteOne_congr (m m' : Nat → Nat) (line v : Nat)
    (h : ∀ i, i < 64 → m (line + i) = m' (line + i)) :
    checkByteOne m line v = checkByteOne m' line v := by
  unfold checkByteOne
  rw [computeCheckSum_congr m m' line (fun i _ h2 => h i h2)]
  have := h 0 (by omega)
  rw [Nat.add_zero] at this
  rw [this]

theorem computeCheckSum_setByteOne (m : Nat → Nat) (line v : Nat) :
    computeCheckSum (setByteOne m line v) line = computeCheckSum m line := by
  apply computeCheckSum_congr
  intro i h1 _
  unfold setByteOne
  rw [memcpyTo_one_other _ _ _ _ (by omega)]

set_option maxRecDepth 100000 in
theorem seal_bits : ∀ c, c < 256 →
    (((c &&& 0x7f) ||| 0) % 256 ≠ ((c &&& 0x7f) ||| 0x80) % 256) ∧
    (((c &&& 0x7f) ||| 0) % 256) &&& 0x80 = 0 ∧
    (((c &&& 0x7f) ||| 0x80) % 256) &&& 0x80 = 0x80 := by
  decide

theorem checkByteOne_setByteOne (m : Nat → Nat) (line v : Nat) :
    checkByteOne (setByteOne m line v) line v = true := by
  unfold checkByteOne
  rw [computeCheckSum_setByteOne]
  unfold setByteOne
  rw [memcpyTo_one_same]
  simp

theorem checkByteOne_setByteOne_flip (m : Nat → Nat) (line v : Nat) (hv : v = 0 ∨ v = 0x80) :
    checkByteOne (setByteOne m line v) line (v ^^^ 0x80) = false := by
  unfold checkByteOne
  rw [computeCheckSum_setByteOne]
  unfold setByteOne
  rw [memcpyTo_one_same]
  have := seal_bits _ (computeCheckSum_lt m line)
  rcases hv with rfl | rfl
  · simp only [show (0 : Nat) ^^^ 0x80 = 0x80 from rfl]
    exact beq_false_of_ne this.1
  · simp only [show (0x80 : Nat) ^^^ 0x80 = 0 from rfl]
    exact beq_false_of_ne (fun h => this.1 h.symm)

theorem checkByteOne_bit (m : Nat → Nat) (line v : Nat) (hv : v = 0 ∨ v = 0x80)
    (h : checkByteOne m line v = true) : m line &&& 0x80 = v := by
  unfold checkByteOne at h
  have hb : m line = ((computeCheckSum m line &&& 0x7f) ||| v) % 256 := by simpa using h
  have := seal_bits _ (computeCheckSum_lt m line)
  rw [hb]
  rcases hv with rfl | rfl
  · exact this.2.1
  · exact this.2.2

/-- C27: the seal of a log line.  `computeCheckSum(line)` does not depend on
byte 0 of the line (the line content `m` with any byte `b` stored at
`line[0]` has the same checksum), and for every line content and every
version `v` in `0, 0x80`, after `setByteOne(line, v)` the test
`checkByteOne(line, v)` is true and `checkByteOne(line, v xor 0x80)` is false. -/
theorem C27_line_seal_round_trip (m : Nat → Nat) (line b v : Nat) (hv : v = 0 ∨ v = 0x80) :
    computeCheckSum (memcpyTo m line [b]) line = computeCheckSum m line ∧
    checkByteOne (setByteOne m line v) line v = true ∧
    checkByteOne (setByteOne m line v) line (v ^^^ 0x80) = false := by
  refine ⟨?_, checkByteOne_setByteOne m line v, checkByteOne_setByteOne_flip m line v hv⟩
  apply computeCheckSum_congr
  intro i h1 _
  rw [memcpyTo_one_other _ _ _ _ (by omega)]

/-- C27 at a line of mixed bytes, sealed under version `0x80`. -/
theorem C27_line_seal_round_trip_witness :
    ((0x80 : Nat) = 0 ∨ (0x80 : Nat) = 0x80) ∧
    computeCheckSum (memcpyTo (fun a => (7 * a + 3) % 256) 4096 [0xff]) 4096
      = computeCheckSum (fun a => (7 * a + 3) % 256) 4096 ∧
    checkByteOne (setByteOne (fun a => (7 * a + 3) % 256) 4096 0x80) 4096 0x80 = true ∧
    checkByteOne (setByteOne (fun a => (7 * a + 3) % 256) 4096 0x80) 4096 (0x80 ^^^ 0x80) = false :=
  ⟨Or.inr rfl, C27_line_seal_round_trip (fun a => (7 * a + 3) % 256) 4096 0xff 0x80 (Or.inr rfl)⟩

end LBTree


namespace LBTree

/-! ## `initLog` and the empty transaction -/

theorem clwbLoop_spec (end_line : Nat) (fuel start_line : Nat) (lg : NvmLog_Log)
    (hs : start_line % 64 = 0) (he : end_line % 64 = 0) (hle : start_line ≤ end_line)
    (hf : (end_line - start_line) / 64 + 1 ≤ fuel) :
    (clwbLoop end_line fuel start_line lg).mem = lg.mem ∧
    (clwbLoop end_line fuel start_line lg).nl_log_area_ = lg.nl_log_area_ ∧
    (clwbLoop end_line fuel start_line lg).nl_log_area_end_ = lg.nl_log_area_end_ ∧
    (clwbLoop end_line fuel start_line lg).nl_log_wr_ = lg.nl_log_wr_ ∧
    (∀ a, (clwbLoop end_line fuel start_line lg).durable a =
      if start_line ≤ a ∧ a < end_line + 64 then lg.mem a else lg.durable a) := by
  induction fuel generalizing start_line lg with
  | zero => omega
  | succ n ih =>
    unfold clwbLoop
    simp only [CACHE_LINE_SIZE]
    by_cases hc : start_line + 64 ≤ end_line
    · rw [if_pos hc]
      obtain ⟨h1, h2, h3, h4, h5⟩ := ih (start_line + 64) (clwb lg start_line) (by omega) (by omega)
        (by omega)
      refine ⟨h1, h2, h3, h4, fun a => ?_⟩
      rw [h5]
      simp only [clwb, getline, CACHE_LINE_SIZE]
      by_cases ha : start_line + 64 ≤ a ∧ a < end_line + 64
      · rw [if_pos ha, if_pos (by omega)]
      · rw [if_neg ha]
        by_cases hb : a / 64 * 64 = start_line / 64 * 64
        · rw [if_pos hb, if_pos (by omega)]
        · rw [if_neg hb, if_neg (by omega)]
    · rw [if_neg hc]
      refine ⟨rfl, rfl, rfl, rfl, fun a => ?_⟩
      simp only [clwb, getline, CACHE_LINE_SIZE]
      by_cases hb : a / 64 * 64 = start_line / 64 * 64
      · rw [if_pos hb, if_pos (by omega)]
      · rw [if_neg hb, if_neg (by omega)]

/-- What `initLog` returns for a ring of `L` lines. -/
theorem initLog_spec (L : Nat) (mem durable : Nat → Nat) (pool : mempool)
    (hL : 1 ≤ L) (hfit : pool.cur + 64 * L ≤ pool.limit) (hal : pool.cur % 64 = 0) :
    ∃ lg, initLog (64 * L) mem durable pool = some (lg, { pool with cur := pool.cur + 64 * L }) ∧
      lg.nl_log_area_ = pool.cur ∧ lg.nl_log_area_end_ = pool.cur + 64 * L ∧
      lg.nl_log_wr_ = ⟨0, 0, pool.cur + 64 * L, pool.cur + 64 * L⟩ ∧
      (∀ a, pool.cur ≤ a → a < pool.cur + 64 * L → lg.mem a = 0 ∧ lg.durable a = 0) ∧
      (∀ a, (a < pool.cur ∨ pool.cur + 64 * L ≤ a) → lg.mem a = mem a ∧ lg.durable a = durable a) := by
  unfold initLog mempool.alloc
  rw [if_pos hfit]
  simp only [CACHE_LINE_SIZE, hal, ne_eq, not_true_eq_false, if_false]
  refine ⟨_, rfl, ?_⟩
  unfold clwbmore
  simp only [getline, CACHE_LINE_SIZE]
  have hz : ∀ a, pool.cur ≤ a → a < pool.cur + 64 * L →
      memcpyTo mem pool.cur (List.replicate (64 * L) 0) a = 0 := by
    intro a h1 h2
    rw [memcpyTo_in _ _ _ _ h1 (by simpa using h2)]
    rw [List.getD_eq_getElem _ _ (by simp; omega)]
    simp
  have ho : ∀ a, (a < pool.cur ∨ pool.cur + 64 * L ≤ a) →
      memcpyTo mem pool.cur (List.replicate (64 * L) 0) a = mem a := by
    intro a h
    exact memcpyTo_out _ _ _ _ (by simpa using h)
  obtain ⟨h1, h2, h3, h4, h5⟩ := clwbLoop_spec ((pool.cur + 64 * L - 1) / 64 * 64)
    ((pool.cur + 64 * L - 1) / 64 * 64 / 64 + 1) (pool.cur / 64 * 64)
    { mem := memcpyTo mem pool.cur (List.replicate (64 * L) 0), durable := durable,
      nl_log_area_ := pool.cur, nl_log_area_end_ := pool.cur + 64 * L,
      nl_log_wr_ := ⟨0, 0, pool.cur + 64 * L, pool.cur + 64 * L⟩ }
    (by omega) (by omega) (by omega) (by omega)
  refine ⟨h2, h3, h4, fun a ha1 ha2 => ?_, fun a ha => ?_⟩
  · rw [h1, h5, if_pos (by omega)]
    exact ⟨hz a ha1 ha2, hz a ha1 ha2⟩
  · rw [h1, h5, if_neg (by omega)]
    exact ⟨ho a ha, rfl⟩

/-- After `initLog` and `prepareLogforWriting` the writer stands at payload
position 0 with version `0x80`. -/
theorem logAt_init (L : Nat) (mem durable : Nat → Nat) (pool : mempool) (lg : NvmLog_Log)
    (pool1 : mempool) (hL : 1 ≤ L) (hal : pool.cur % 64 = 0)
    (h : initLog (64 * L) mem durable pool = some (lg, pool1)) :
    LogAt (prepareLogforWriting lg) pool.cur L 0 0x80 ∧
    (∀ a, (a < pool.cur ∨ pool.cur + 64 * L ≤ a) → lg.mem a = mem a) ∧
    (∀ a, pool.cur ≤ a → a < pool.cur + 64 * L → lg.mem a = 0) ∧
    pool1 = { pool with cur := pool.cur + 64 * L } := by
  have hfit : pool.cur + 64 * L ≤ pool.limit := by
    by_contra hc
    unfold initLog mempool.alloc at h
    rw [if_neg hc] at h
    simp at h
  obtain ⟨lg', h1, h2, h3, h4, h5, h6⟩ := initLog_spec L mem durable pool hL hfit hal
  rw [h] at h1
  obtain ⟨rfl, rfl⟩ : lg = lg' ∧ pool1 = { pool with cur := pool.cur + 64 * L } := by
    simpa using h1
  refine ⟨⟨hal, hL, by omega, Or.inr rfl, h2, h3, ?_, ?_, ?_, ?_⟩, fun a ha => (h6 a ha).1,
    fun a ha1 ha2 => (h5 a ha1 ha2).1, rfl⟩
  · simp [prepareLogforWriting, h2, CACHE_LINE_SIZE]
  · simp [prepareLogforWriting, h2, physAddr]
  · simp [prepareLogforWriting, h4]
  · intro a ha1 ha2 _
    show lg.durable a = lg.mem a
    rw [(h5 a ha1 ha2).1, (h5 a ha1 ha2).2]

/-- C29, as the code has it: after `initLog` the ring of four lines at 4096 is
zero and the version is 0, but both write pointers stand at the end of the
ring (4352), not at byte 2 of line 0 (4098). -/
theorem C29_initLog_cursor_at_end :
    (initLog 256 (fun _ => 0xff) (fun _ => 0xff) ⟨4096, 2 ^ 20, 0⟩).map
      (fun r => (r.1.nl_log_area_, r.1.nl_log_wr_.next_ptr_, r.1.nl_log_wr_.nextline_ptr_,
        r.1.nl_log_wr_.version_)) = some (4096, 4352, 4352, 0) := by
  decide

/-- C29, amended: `initLog` on a pool that has room for the ring at a line
boundary returns; the ring is all zero (and written back), the writer's
version is 0 and both write pointers are the end of the ring.  The
`prepareLogforWriting` that `NvmLog::init` calls next moves the cursor to
byte 2 of line 0 and flips the version to `0x80`; the ring stays zero. -/
theorem C29_initLog_then_prepare (L : Nat) (mem durable : Nat → Nat) (pool : mempool)
    (hL : 1 ≤ L) (hfit : pool.cur + 64 * L ≤ pool.limit) (hal : pool.cur % 64 = 0) :
    ∃ lg pool1, initLog (64 * L) mem durable pool = some (lg, pool1) ∧
      lg.nl_log_area_ = pool.cur ∧ lg.nl_log_area_end_ = pool.cur + 64 * L ∧
      (∀ a, lg.nl_log_area_ ≤ a → a < lg.nl_log_area_end_ → lg.mem a = 0 ∧ lg.durable a = 0) ∧
      lg.nl_log_wr_.version_ = 0 ∧
      lg.nl_log_wr_.next_ptr_ = lg.nl_log_area_end_ ∧
      lg.nl_log_wr_.nextline_ptr_ = lg.nl_log_area_end_ ∧
      (prepareLogforWriting lg).nl_log_wr_.next_ptr_ = lg.nl_log_area_ + 2 ∧
      (prepareLogforWriting lg).nl_log_wr_.nextline_ptr_ = lg.nl_log_area_ + 64 ∧
      (prepareLogforWriting lg).nl_log_wr_.version_ = 0x80 ∧
      (prepareLogforWriting lg).mem = lg.mem := by
  obtain ⟨lg, h1, h2, h3, h4, h5, _⟩ := initLog_spec L mem durable pool hL hfit hal
  refine ⟨lg, _, h1, h2, h3, ?_, ?_, ?_, ?_, ?_, ?_, ?_, rfl⟩
  · intro a ha1 ha2
    rw [h2] at ha1
    rw [h3] at ha2
    exact h5 a ha1 ha2
  · rw [h4]
  · rw [h4, h3]
  · rw [h4, h3]
  · simp [prepareLogforWriting]
  · simp [prepareLogforWriting, CACHE_LINE_SIZE]
  · simp [prepareLogforWriting, h4]

/-- C29, amended, for the ring of four lines at 4096. -/
theorem C29_initLog_then_prepare_witness :
    1 ≤ 4 ∧ (⟨4096, 2 ^ 20, 0⟩ : mempool).cur + 64 * 4 ≤ (⟨4096, 2 ^ 20, 0⟩ : mempool).limit ∧
    (⟨4096, 2 ^ 20, 0⟩ : mempool).cur % 64 = 0 ∧
    ∃ lg pool1, initLog (64 * 4) (fun _ => 0xff) (fun _ => 0xff) ⟨4096, 2 ^ 20, 0⟩ = some (lg, pool1) ∧
      lg.nl_log_area_ = 4096 ∧ lg.nl_log_area_end_ = 4096 + 64 * 4 ∧
      (∀ a, lg.nl_log_area_ ≤ a → a < lg.nl_log_area_end_ → lg.mem a = 0 ∧ lg.durable a = 0) ∧
      lg.nl_log_wr_.version_ = 0 ∧
      lg.nl_log_wr_.next_ptr_ = lg.nl_log_area_end_ ∧
      lg.nl_log_wr_.nextline_ptr_ = lg.nl_log_area_end_ ∧
      (prepareLogforWriting lg).nl_log_wr_.next_ptr_ = lg.nl_log_area_ + 2 ∧
      (prepareLogforWriting lg).nl_log_wr_.nextline_ptr_ = lg.nl_log_area_ + 64 ∧
      (prepareLogforWriting lg).nl_log_wr_.version_ = 0x80 ∧
      (prepareLogforWriting lg).mem = lg.mem :=
  ⟨by decide, by decide, by decide,
    C29_initLog_then_prepare 4 (fun _ => 0xff) (fun _ => 0xff) ⟨4096, 2 ^ 20, 0⟩
      (by decide) (by decide) (by decide)⟩

/-- C25: `startMiniTransaction` followed at once by `commitMiniTransaction`
leaves the log buffer (the bytes of the ring and of all other memory, the NVM
image, the write cursor and the version) and the allocator as they were. -/
theorem C25_empty_transaction_writes_nothing (s : NvmLog) :
    (commitMiniTransaction (startMiniTransaction s)).nl_logbuf_ = s.nl_logbuf_ ∧
    (commitMiniTransaction (startMiniTransaction s)).pool = s.pool := by
  simp [commitMiniTransaction, commitApply, commitLog, startMiniTransaction, isSameAsCurPos,
    getLogCurPos]

end LBTree


namespace LBTree

/-! ## The writer of the ring -/

theorem wrapC_lt (C x : Nat) (h : x < 2 * C) (hC : 0 < C) : wrapC C x < C := by
  unfold wrapC
  split_ifs <;> omega

theorem wrapC_add (C a b c : Nat) (ha : a < C) (hbc : b + c ≤ C) :
    wrapC C (wrapC C (a + b) + c) = wrapC C (a + b + c) := by
  unfold wrapC
  split_ifs <;> omega

theorem physAddr_inj (A q q' : Nat) (h : physAddr A q = physAddr A q') : q = q' := by
  unfold physAddr at h
  omega

theorem physAddr_line (A q : Nat) :
    A + 64 * (q / 62) + 2 ≤ physAddr A q ∧ physAddr A q < A + 64 * (q / 62) + 64 := by
  unfold physAddr
  omega

/-- What `completeLine2Log` does when the current line is line `i` of the ring. -/
theorem completeLine2Log_spec (lg : NvmLog_Log) (A L i v : Nat)
    (hA : A % 64 = 0) (hi : i < L)
    (ha : lg.nl_log_area_ = A) (he : lg.nl_log_area_end_ = A + 64 * L)
    (hn : lg.nl_log_wr_.nextline_ptr_ = A + 64 * (i + 1))
    (hv : lg.nl_log_wr_.version_ = v)
    (hd : ∀ a, A ≤ a → a < A + 64 * L → (a < A + 64 * i ∨ A + 64 * (i + 1) ≤ a) →
      lg.durable a = lg.mem a) :
    (completeLine2Log lg).nl_log_area_ = A ∧
    (completeLine2Log lg).nl_log_area_end_ = A + 64 * L ∧
    (completeLine2Log lg).nl_log_wr_.nextline_ptr_ = A + 64 * ((if i + 1 < L then i + 1 else 0) + 1) ∧
    (completeLine2Log lg).nl_log_wr_.next_ptr_ = A + 64 * (if i + 1 < L then i + 1 else 0) + 2 ∧
    (completeLine2Log lg).nl_log_wr_.version_ = (if i + 1 < L then v else v ^^^ 0x80) ∧
    (completeLine2Log lg).nl_log_wr_.offset_ = 0 ∧
    (∀ a, a ≠ A + 64 * i → a ≠ A + 64 * i + 1 → (completeLine2Log lg).mem a = lg.mem a) ∧
    checkByteOne (completeLine2Log lg).mem (A + 64 * i) v = true ∧
    (∀ a, A ≤ a → a < A + 64 * L → (completeLine2Log lg).durable a = (completeLine2Log lg).mem a) := by
  have hline : lg.nl_log_wr_.nextline_ptr_ - CACHE_LINE_SIZE = A + 64 * i := by
    rw [hn]; simp only [CACHE_LINE_SIZE]; omega
  have hmem : ∀ x : NvmLog_Log, (completeLine2Log x).mem =
      setByteOne (memcpyTo x.mem (x.nl_log_wr_.nextline_ptr_ - CACHE_LINE_SIZE + 1) [x.nl_log_wr_.offset_])
        (x.nl_log_wr_.nextline_ptr_ - CACHE_LINE_SIZE) x.nl_log_wr_.version_ := by
    intro x
    unfold completeLine2Log
    simp only [clwb]
    split <;> rfl
  have hdur : ∀ x : NvmLog_Log, (completeLine2Log x).durable =
      fun a => if getline a = getline (x.nl_log_wr_.nextline_ptr_ - CACHE_LINE_SIZE) then
        (completeLine2Log x).mem a else x.durable a := by
    intro x
    rw [hmem]
    unfold completeLine2Log
    simp only [clwb]
    split <;> rfl
  have hmem' : ∀ a, a ≠ A + 64 * i → a ≠ A + 64 * i + 1 → (completeLine2Log lg).mem a = lg.mem a := by
    intro a h1 h2
    rw [hmem, hline]
    unfold setByteOne
    rw [memcpyTo_one_other _ _ _ _ h1, memcpyTo_one_other _ _ _ _ h2]
  refine ⟨?_, ?_, ?_, ?_, ?_, ?_, hmem', ?_, ?_⟩
  · unfold completeLine2Log
    simp only [clwb]
    split
    · exact ha
    · exact ha
  · unfold completeLine2Log
    simp only [clwb]
    split
    · exact he
    · exact he
  · unfold completeLine2Log
    simp only [clwb, hn, he]
    by_cases hc : i + 1 < L
    · rw [if_pos (by omega), if_pos hc]
      simp only [CACHE_LINE_SIZE]
      omega
    · rw [if_neg (by omega), if_neg hc]
      simp only [prepareLogforWriting, CACHE_LINE_SIZE, ha]
  · unfold completeLine2Log
    simp only [clwb, hn, he]
    by_cases hc : i + 1 < L
    · rw [if_pos (by omega), if_pos hc]
    · rw [if_neg (by omega), if_neg hc]
      simp only [prepareLogforWriting, ha]
  · unfold completeLine2Log
    simp only [clwb, hn, he]
    by_cases hc : i + 1 < L
    · rw [if_pos (by omega), if_pos hc]
      exact hv
    · rw [if_neg (by omega), if_neg hc]
      simp only [prepareLogforWriting, hv]
  · unfold completeLine2Log
    simp only [clwb]
    split <;> rfl
  · rw [hmem, hline, hv]
    exact checkByteOne_setByteOne _ _ _
  · intro a ha1 ha2
    rw [hdur, hline]
    simp only [getline, CACHE_LINE_SIZE]
    by_cases hc : a / 64 * 64 = (A + 64 * i) / 64 * 64
    · rw [if_pos hc]
    · rw [if_neg hc, hd a ha1 ha2 (by omega), hmem' a (by omega) (by omega)]

/-- What `flushLog` does when the writer stands at payload position `P`. -/
theorem flushLog_spec (lg : NvmLog_Log) (A L P v : Nat) (h : LogAt lg A L P v) :
    LogAt (flushLog lg) A L P v ∧
    (flushLog lg).nl_log_wr_ = lg.nl_log_wr_ ∧
    (∀ a, A ≤ a → a < A + 64 * L → (flushLog lg).durable a = (flushLog lg).mem a) ∧
    (∀ a, a ≠ physAddr A P → a ≠ A + 64 * (P / 62) → a ≠ A + 64 * (P / 62) + 1 →
      (flushLog lg).mem a = lg.mem a) ∧
    (P % 62 = 0 → (flushLog lg).mem = lg.mem) ∧
    (0 < P % 62 → checkByteOne (flushLog lg).mem (A + 64 * (P / 62)) v = true) := by
  obtain ⟨hA, hL, hP, hv, ha, he, hn, hx, hve, hd⟩ := h
  have hline : lg.nl_log_wr_.nextline_ptr_ - CACHE_LINE_SIZE = A + 64 * (P / 62) := by
    rw [hn]; simp only [CACHE_LINE_SIZE]; omega
  have hw : (flushLog lg).nl_log_wr_ = lg.nl_log_wr_ ∧ (flushLog lg).nl_log_area_ = lg.nl_log_area_ ∧
      (flushLog lg).nl_log_area_end_ = lg.nl_log_area_end_ := by
    unfold flushLog
    simp only [clwb]
    split
    · exact ⟨rfl, rfl, rfl⟩
    · exact ⟨rfl, rfl, rfl⟩
  by_cases hc : physAddr A P - (A + 64 * (P / 62)) > 2
  · have hpos : 0 < P % 62 := by unfold physAddr at hc; omega
    have hfm : (flushLog lg).mem = setByteOne (memcpyTo (memcpyTo lg.mem (physAddr A P) [NL_INVALID])
        (A + 64 * (P / 62) + 1) [lg.nl_log_wr_.offset_]) (A + 64 * (P / 62)) v := by
      unfold flushLog
      simp only [hline, hx, hve]
      rw [if_pos hc]
      rfl
    have hfd : (flushLog lg).durable = fun a =>
        if getline a = getline (A + 64 * (P / 62)) then (flushLog lg).mem a else lg.durable a := by
      rw [hfm]
      unfold flushLog
      simp only [hline, hx, hve]
      rw [if_pos hc]
      rfl
    have hmem : ∀ a, a ≠ physAddr A P → a ≠ A + 64 * (P / 62) → a ≠ A + 64 * (P / 62) + 1 →
        (flushLog lg).mem a = lg.mem a := by
      intro a h1 h2 h3
      rw [hfm]
      unfold setByteOne
      rw [memcpyTo_one_other _ _ _ _ h2, memcpyTo_one_other _ _ _ _ h3,
        memcpyTo_one_other _ _ _ _ h1]
    have hdur : ∀ a, A ≤ a → a < A + 64 * L → (flushLog lg).durable a = (flushLog lg).mem a := by
      intro a ha1 ha2
      rw [hfd]
      simp only [getline, CACHE_LINE_SIZE]
      by_cases hg : a / 64 * 64 = (A + 64 * (P / 62)) / 64 * 64
      · rw [if_pos hg]
      · rw [if_neg hg]
        have := physAddr_line A P
        rw [hd a ha1 ha2 (by omega), hmem a (by omega) (by omega) (by omega)]
    refine ⟨⟨hA, hL, hP, hv, hw.2.1.trans ha, hw.2.2.trans he, by rw [hw.1]; exact hn,
      by rw [hw.1]; exact hx, by rw [hw.1]; exact hve, fun a ha1 ha2 _ => hdur a ha1 ha2⟩, hw.1,
      hdur, hmem, fun h0 => by omega, fun _ => ?_⟩
    rw [hfm]
    exact checkByteOne_setByteOne _ _ _
  · have hpos : P % 62 = 0 := by unfold physAddr at hc; omega
    have hfe : flushLog lg = lg := by
      unfold flushLog
      simp only [hline, hx]
      rw [if_neg hc]
    rw [hfe]
    refine ⟨⟨hA, hL, hP, hv, ha, he, hn, hx, hve, hd⟩, rfl, fun a ha1 ha2 => ?_,
      fun _ _ _ _ => rfl, fun _ => rfl, fun h0 => by omega⟩
    apply hd a ha1 ha2
    unfold physAddr
    omega

end LBTree


namespace LBTree

theorem writeLoop_succ (fuel : Nat) (lg : NvmLog_Log) (rec : List Nat) (l : Nat) :
    writeLoop (fuel + 1) lg rec l =
      if rec.length ≥ l then
        writeLoop fuel
          (completeLine2Log { lg with mem := memcpyTo lg.mem lg.nl_log_wr_.next_ptr_ (rec.take l) })
          (rec.drop l) 62
      else (lg, rec) := rfl

theorem xor80 (v : Nat) (hv : v = 0 ∨ v = 0x80) : (v ^^^ 0x80 = 0 ∨ v ^^^ 0x80 = 0x80) := by
  rcases hv with rfl | rfl
  · right; rfl
  · left; rfl

/-- One iteration of the loop of `writeLog`: the rest of the current line is
filled with the first `l` bytes of `rec` and the line is sealed. -/
theorem fillLine_spec (A L : Nat) (lg : NvmLog_Log) (rec : List Nat) (P v l : Nat)
    (hat : LogAt lg A L P v) (hl : l = 62 - P % 62) (hc : rec.length ≥ l) :
    LogAt (completeLine2Log { lg with mem := memcpyTo lg.mem lg.nl_log_wr_.next_ptr_ (rec.take l) })
      A L (wrapC (62 * L) (P + l)) (if P + l < 62 * L then v else v ^^^ 0x80) ∧
    (∀ j, j < l →
      (completeLine2Log { lg with mem := memcpyTo lg.mem lg.nl_log_wr_.next_ptr_ (rec.take l) }).mem
        (physAddr A (P + j)) = rec.getD j 0) ∧
    (∀ a, (a < physAddr A P ∨ A + 64 * (P / 62) + 64 ≤ a) → a ≠ A + 64 * (P / 62) →
      a ≠ A + 64 * (P / 62) + 1 →
      (completeLine2Log { lg with mem := memcpyTo lg.mem lg.nl_log_wr_.next_ptr_ (rec.take l) }).mem a
        = lg.mem a) ∧
    checkByteOne
      (completeLine2Log { lg with mem := memcpyTo lg.mem lg.nl_log_wr_.next_ptr_ (rec.take l) }).mem
      (A + 64 * (P / 62)) v = true := by
  obtain ⟨hA, hL, hP, hv, ha, he, hnl, hx, hve, hd⟩ := hat
  have htl : (rec.take l).length = l := by rw [List.length_take]; omega
  have hma : ∀ a, (a < physAddr A P ∨ A + 64 * (P / 62) + 64 ≤ a) →
      memcpyTo lg.mem lg.nl_log_wr_.next_ptr_ (rec.take l) a = lg.mem a := by
    intro a h
    apply memcpyTo_out
    rw [hx, htl]
    unfold physAddr at h ⊢
    omega
  have hmb : ∀ j, j < l →
      memcpyTo lg.mem lg.nl_log_wr_.next_ptr_ (rec.take l) (physAddr A (P + j)) = rec.getD j 0 := by
    intro j hj
    have e : physAddr A (P + j) = physAddr A P + j := by unfold physAddr; omega
    rw [memcpyTo_in _ _ _ _ (by rw [hx, e]; omega) (by rw [hx, htl, e]; omega), hx, e,
      show physAddr A P + j - physAddr A P = j by omega]
    rw [List.getD_eq_getElem _ _ (by omega), List.getD_eq_getElem _ _ (by omega)]
    simp
  have hxl := physAddr_line A P
  obtain ⟨c1, c2, c3, c4, c5, _, c7, c8, c9⟩ := completeLine2Log_spec
    { lg with mem := memcpyTo lg.mem lg.nl_log_wr_.next_ptr_ (rec.take l) }
    A L (P / 62) v hA (by omega) ha he hnl hve
    (fun a h1 h2 h3 => by
      show lg.durable a = memcpyTo lg.mem lg.nl_log_wr_.next_ptr_ _ a
      rw [hma a (by omega), hd a h1 h2 (by omega)])
  generalize completeLine2Log
    { lg with mem := memcpyTo lg.mem lg.nl_log_wr_.next_ptr_ (rec.take l) } = lgb
    at c1 c2 c3 c4 c5 c7 c8 c9 ⊢
  have hP1 : wrapC (62 * L) (P + l) = (if P / 62 + 1 < L then P / 62 + 1 else 0) * 62 := by
    unfold wrapC
    split_ifs <;> omega
  have hv1 : (if P + l < 62 * L then v else v ^^^ 0x80)
      = (if P / 62 + 1 < L then v else v ^^^ 0x80) := by
    split_ifs <;> first | rfl | omega
  refine ⟨⟨hA, hL, wrapC_lt _ _ (by omega) (by omega), ?_, c1, c2, ?_, ?_, ?_,
    fun a h1 h2 _ => c9 a h1 h2⟩, ?_, ?_, c8⟩
  · split_ifs
    · exact hv
    · exact xor80 v hv
  · rw [c3, hP1]
    congr 2
    omega
  · rw [c4, hP1]; unfold physAddr; omega
  · rw [c5, hv1]
  · intro j hj
    rw [c7 _ (by unfold physAddr; omega) (by unfold physAddr; omega)]
    exact hmb j hj
  · intro a h1 h2 h3
    rw [c7 a h2 h3]
    exact hma a h1

theorem wrapC_step (L P l P1 j : Nat) (hP : P < 62 * L)
    (hP1 : P1 = wrapC (62 * L) (P + l)) (hj : l + j ≤ 62 * L) :
    wrapC (62 * L) (P1 + j) = wrapC (62 * L) (P + (l + j)) := by
  rw [hP1, wrapC_add _ _ _ _ hP hj, Nat.add_assoc]

/-- The bytes of a record in the ring after one line was filled and the rest
was written from the start of the next line. -/
theorem comb_content (A L P l k P1 : Nat) (mb m1 : Nat → Nat) (rec : List Nat)
    (hP : P < 62 * L) (hl : l = 62 - P % 62) (hP1 : P1 = wrapC (62 * L) (P + l))
    (hk : l + k ≤ 62 * L)
    (hb : ∀ j, j < l → mb (physAddr A (P + j)) = rec.getD j 0)
    (ic : ∀ j, j < k → m1 (physAddr A (wrapC (62 * L) (P1 + j))) = (rec.drop l).getD j 0)
    (ifr : ∀ a, (∀ j, j < k → a ≠ physAddr A (wrapC (62 * L) (P1 + j)) ∧
          a ≠ A + 64 * (wrapC (62 * L) (P1 + j) / 62) ∧
          a ≠ A + 64 * (wrapC (62 * L) (P1 + j) / 62) + 1) → m1 a = mb a) :
    ∀ j, j < l + k → m1 (physAddr A (wrapC (62 * L) (P + j))) = rec.getD j 0 := by
  intro j hj
  by_cases hjl : j < l
  · have hw : wrapC (62 * L) (P + j) = P + j := by unfold wrapC; rw [if_pos (by omega)]
    rw [hw, ifr]
    · exact hb j hjl
    · intro j' hj'
      have hne : wrapC (62 * L) (P1 + j') ≠ P + j := by
        rw [wrapC_step L P l P1 j' hP hP1 (by omega)]
        unfold wrapC
        split_ifs <;> omega
      refine ⟨fun h => hne (physAddr_inj _ _ _ h).symm, ?_, ?_⟩
      · unfold physAddr; omega
      · unfold physAddr; omega
  · have := ic (j - l) (by omega)
    rw [wrapC_step L P l P1 _ hP hP1 (by omega), show l + (j - l) = j by omega] at this
    rw [this, List.getD_eq_getElem?_getD, List.getD_eq_getElem?_getD, List.getElem?_drop]
    rw [show l + (j - l) = j by omega]

/-- The bytes that the loop of `writeLog` leaves alone. -/
theorem comb_frame (A L P l k P1 : Nat) (m0 mb m1 : Nat → Nat)
    (hP : P < 62 * L) (hl : l = 62 - P % 62) (hP1 : P1 = wrapC (62 * L) (P + l))
    (hk : l + k ≤ 62 * L)
    (hb : ∀ a, (a < physAddr A P ∨ A + 64 * (P / 62) + 64 ≤ a) → a ≠ A + 64 * (P / 62) →
      a ≠ A + 64 * (P / 62) + 1 → mb a = m0 a)
    (ifr : ∀ a, (∀ j, j < k → a ≠ physAddr A (wrapC (62 * L) (P1 + j)) ∧
          a ≠ A + 64 * (wrapC (62 * L) (P1 + j) / 62) ∧
          a ≠ A + 64 * (wrapC (62 * L) (P1 + j) / 62) + 1) → m1 a = mb a) :
    ∀ a, (∀ j, j < l + k → a ≠ physAddr A (wrapC (62 * L) (P + j)) ∧
          a ≠ A + 64 * (wrapC (62 * L) (P + j) / 62) ∧
          a ≠ A + 64 * (wrapC (62 * L) (P + j) / 62) + 1) → m1 a = m0 a := by
  intro a hfr
  rw [ifr a (fun j' hj' => by
    have := hfr (l + j') (by omega)
    rwa [← wrapC_step L P l P1 j' hP hP1 (by omega)] at this)]
  have h0 := hfr 0 (by omega)
  have hw0 : wrapC (62 * L) (P + 0) = P := by unfold wrapC; rw [if_pos (by omega)]; rfl
  rw [hw0] at h0
  apply hb a _ h0.2.1 h0.2.2
  by_contra hin
  have hin' : physAddr A P ≤ a ∧ a < A + 64 * (P / 62) + 64 := by omega
  have := hfr (a - physAddr A P) (by unfold physAddr at hin' ⊢; omega)
  have hw : wrapC (62 * L) (P + (a - physAddr A P)) = P + (a - physAddr A P) := by
    unfold wrapC; rw [if_pos (by unfold physAddr at hin' ⊢; omega)]
  rw [hw] at this
  apply this.1
  unfold physAddr at hin' ⊢
  omega

/-- The lines that the loop of `writeLog` leaves sealed. -/
theorem comb_seal (A L P l k P1 v : Nat) (mb m1 : Nat → Nat)
    (hP : P < 62 * L) (hl : l = 62 - P % 62) (hP1 : P1 = wrapC (62 * L) (P + l))
    (hk : l + k ≤ 62 * L)
    (hb : checkByteOne mb (A + 64 * (P / 62)) v = true)
    (ifr : ∀ a, (∀ j, j < k → a ≠ physAddr A (wrapC (62 * L) (P1 + j)) ∧
          a ≠ A + 64 * (wrapC (62 * L) (P1 + j) / 62) ∧
          a ≠ A + 64 * (wrapC (62 * L) (P1 + j) / 62) + 1) → m1 a = mb a)
    (isl : ∀ t, t < L → P1 < 62 * (t + 1) → 62 * (t + 1) ≤ P1 + k → P1 + k ≤ 62 * L + 62 * t →
        checkByteOne m1 (A + 64 * t) (if P + l < 62 * L then v else v ^^^ 0x80) = true) :
    ∀ t, t < L → P < 62 * (t + 1) → 62 * (t + 1) ≤ P + (l + k) → P + (l + k) ≤ 62 * L + 62 * t →
        checkByteOne m1 (A + 64 * t) v = true := by
  intro t ht h1 h2 h3
  by_cases hti : t = P / 62
  · subst hti
    rw [checkByteOne_congr _ mb]
    · exact hb
    · intro b hb
      apply ifr
      intro j' hj'
      have hq : wrapC (62 * L) (P1 + j') / 62 ≠ P / 62 := by
        rw [wrapC_step L P l P1 j' hP hP1 (by omega)]
        unfold wrapC
        split_ifs <;> omega
      have := physAddr_line A (wrapC (62 * L) (P1 + j'))
      refine ⟨?_, ?_, ?_⟩ <;> omega
  · have hw : P + l < 62 * L := by omega
    have hP1e : P1 = P + l := by rw [hP1]; unfold wrapC; rw [if_pos hw]
    have := isl t ht (by omega) (by omega) (by omega)
    rwa [if_pos hw] at this

theorem comb_version (L P l k P1 v : Nat)
    (hP : P < 62 * L) (hl : l = 62 - P % 62) (hP1 : P1 = wrapC (62 * L) (P + l))
    (hk : l + k ≤ 62 * L) :
    (if P1 + k < 62 * L then (if P + l < 62 * L then v else v ^^^ 0x80)
      else (if P + l < 62 * L then v else v ^^^ 0x80) ^^^ 0x80)
    = (if P + (l + k) < 62 * L then v else v ^^^ 0x80) := by
  by_cases hw : P + l < 62 * L
  · have hP1e : P1 = P + l := by rw [hP1]; unfold wrapC; rw [if_pos hw]
    rw [if_pos hw, hP1e, Nat.add_assoc]
  · have hP1e : P1 = 0 := by rw [hP1]; unfold wrapC; rw [if_neg hw]; omega
    have h1 : ¬ P + (l + k) < 62 * L := by omega
    have h3 : P1 + k < 62 * L := by omega
    rw [if_neg h1, if_neg hw, if_pos h3]

theorem comb_arith (L P l k P1 n : Nat)
    (hP : P < 62 * L) (hl : l = 62 - P % 62) (hP1 : P1 = wrapC (62 * L) (P + l))
    (hk4 : k ≠ 0 → (P1 + k) % 62 = 0)
    (hk5 : n - l - k < 62 - (P1 + k) % 62) :
    (P + (l + k)) % 62 = 0 ∧ n - (l + k) < 62 - (P + (l + k)) % 62 := by
  have e0 : P1 % 62 = 0 := by
    rw [hP1]; unfold wrapC; split_ifs <;> omega
  by_cases hk0 : k = 0
  · subst hk0
    omega
  · have := hk4 hk0
    omega

end LBTree


namespace LBTree

/-- The loop of `writeLog` from payload position `P`: it stops after `k`
bytes, at the start of a line unless `k = 0`, with less than a line's room of
bytes left. -/
theorem writeLoop_spec (A L : Nat) (fuel : Nat) :
    ∀ (lg : NvmLog_Log) (rec : List Nat) (P v : Nat) (lg1 : NvmLog_Log) (rest : List Nat),
    LogAt lg A L P v → rec.length + 1 ≤ fuel → rec.length ≤ 62 * L →
    writeLoop fuel lg rec (62 - P % 62) = (lg1, rest) →
    ∃ k, k ≤ rec.length ∧ rest = rec.drop k ∧
      (k = 0 → lg1 = lg) ∧
      (k ≠ 0 → (P + k) % 62 = 0) ∧
      rec.length - k < 62 - (P + k) % 62 ∧
      LogAt lg1 A L (wrapC (62 * L) (P + k)) (if P + k < 62 * L then v else v ^^^ 0x80) ∧
      (∀ j, j < k → lg1.mem (physAddr A (wrapC (62 * L) (P + j))) = rec.getD j 0) ∧
      (∀ a, (∀ j, j < k → a ≠ physAddr A (wrapC (62 * L) (P + j)) ∧
          a ≠ A + 64 * (wrapC (62 * L) (P + j) / 62) ∧
          a ≠ A + 64 * (wrapC (62 * L) (P + j) / 62) + 1) →
        lg1.mem a = lg.mem a) ∧
      (∀ t, t < L → P < 62 * (t + 1) → 62 * (t + 1) ≤ P + k → P + k ≤ 62 * L + 62 * t →
        checkByteOne lg1.mem (A + 64 * t) v = true) := by
  induction fuel with
  | zero => intro lg rec P v _ _ _ hf; omega
  | succ fuel ih =>
    intro lg rec P v lg1 rest hat hf hn hw
    rw [writeLoop_succ] at hw
    by_cases hc : rec.length ≥ 62 - P % 62
    · rw [if_pos hc] at hw
      obtain ⟨f1, f2, f3, f4⟩ := fillLine_spec A L lg rec P v (62 - P % 62) hat rfl hc
      have hP : P < 62 * L := hat.2.2.1
      generalize completeLine2Log
        { lg with mem := memcpyTo lg.mem lg.nl_log_wr_.next_ptr_ (rec.take (62 - P % 62)) } = lgb
        at f1 f2 f3 f4 hw
      generalize hP1 : wrapC (62 * L) (P + (62 - P % 62)) = P1 at f1
      have hP1m : 62 - P1 % 62 = 62 := by
        rw [← hP1]; unfold wrapC; split_ifs <;> omega
      obtain ⟨k', k1, k2, k3, k4, k5, k6, k7, k8, k9⟩ := ih lgb (rec.drop (62 - P % 62)) P1 _
        lg1 rest f1 (by rw [List.length_drop]; omega) (by rw [List.length_drop]; omega)
        (by rw [hP1m]; exact hw)
      rw [List.length_drop] at k1 k5
      have hk : 62 - P % 62 + k' ≤ 62 * L := by omega
      have har := comb_arith L P (62 - P % 62) k' P1 rec.length hP rfl hP1.symm k4 k5
      refine ⟨62 - P % 62 + k', by omega, ?_, fun h => by omega, fun _ => har.1, har.2, ?_,
        comb_content A L P _ k' P1 lgb.mem lg1.mem rec hP rfl hP1.symm hk f2 k7 k8,
        comb_frame A L P _ k' P1 lg.mem lgb.mem lg1.mem hP rfl hP1.symm hk f3 k8,
        comb_seal A L P _ k' P1 v lgb.mem lg1.mem hP rfl hP1.symm hk f4 k8 k9⟩
      · rw [k2, List.drop_drop, Nat.add_comm]
      · rw [← wrapC_step L P _ P1 k' hP hP1.symm hk,
          ← comb_version L P _ k' P1 v hP rfl hP1.symm hk]
        exact k6
    · rw [if_neg hc] at hw
      obtain ⟨rfl, rfl⟩ : lg = lg1 ∧ rec = rest := by simpa using hw
      have hP : P < 62 * L := hat.2.2.1
      refine ⟨0, by omega, rfl, fun _ => rfl, fun h => absurd rfl h, by omega, ?_,
        fun j hj => by omega, fun _ _ => rfl, fun t _ h1 h2 _ => by omega⟩
      have : wrapC (62 * L) (P + 0) = P := by unfold wrapC; rw [if_pos (by omega)]; rfl
      rw [this, if_pos (by omega)]
      exact hat

end LBTree


namespace LBTree

/-- The last step of `writeLog`: the bytes left over go to the current line. -/
theorem writeTail_spec (A L : Nat) (lg1 : NvmLog_Log) (rest : List Nat) (P v : Nat)
    (hat : LogAt lg1 A L P v) (hr : rest.length < 62 - P % 62) :
    LogAt (if rest.length > 0 then
        { lg1 with mem := memcpyTo lg1.mem lg1.nl_log_wr_.next_ptr_ rest,
                   nl_log_wr_ := { lg1.nl_log_wr_ with
                     next_ptr_ := lg1.nl_log_wr_.next_ptr_ + rest.length } }
      else lg1) A L (P + rest.length) v ∧
    (∀ j, j < rest.length →
      (if rest.length > 0 then
        { lg1 with mem := memcpyTo lg1.mem lg1.nl_log_wr_.next_ptr_ rest,
                   nl_log_wr_ := { lg1.nl_log_wr_ with
                     next_ptr_ := lg1.nl_log_wr_.next_ptr_ + rest.length } }
      else lg1).mem (physAddr A (P + j)) = rest.getD j 0) ∧
    (∀ a, (a < physAddr A P ∨ physAddr A P + rest.length ≤ a) →
      (if rest.length > 0 then
        { lg1 with mem := memcpyTo lg1.mem lg1.nl_log_wr_.next_ptr_ rest,
                   nl_log_wr_ := { lg1.nl_log_wr_ with
                     next_ptr_ := lg1.nl_log_wr_.next_ptr_ + rest.length } }
      else lg1).mem a = lg1.mem a) := by
  obtain ⟨hA, hL, hP, hv, ha, he, hnl, hx, hve, hd⟩ := hat
  by_cases h0 : rest.length > 0
  · rw [if_pos h0]
    have hph : ∀ j, j ≤ rest.length → physAddr A (P + j) = physAddr A P + j := by
      intro j hj; unfold physAddr; omega
    have hdv : (P + rest.length) / 62 = P / 62 := by omega
    have hout : ∀ a, (a < physAddr A P ∨ physAddr A P + rest.length ≤ a) →
        memcpyTo lg1.mem lg1.nl_log_wr_.next_ptr_ rest a = lg1.mem a := by
      intro a h
      apply memcpyTo_out
      rw [hx]
      exact h
    refine ⟨⟨hA, hL, by omega, hv, ha, he, ?_, ?_, hve, ?_⟩, ?_, hout⟩
    · show lg1.nl_log_wr_.nextline_ptr_ = _
      rw [hnl, hdv]
    · show lg1.nl_log_wr_.next_ptr_ + rest.length = _
      rw [hx, hph _ (le_refl _)]
    · intro a h1 h2 h3
      show lg1.durable a = memcpyTo lg1.mem lg1.nl_log_wr_.next_ptr_ rest a
      rw [hph _ (le_refl _), hdv] at h3
      have := physAddr_line A P
      rw [hout a (by omega)]
      exact hd a h1 h2 (by omega)
    · intro j hj
      show memcpyTo lg1.mem lg1.nl_log_wr_.next_ptr_ rest _ = _
      rw [hph j (by omega), memcpyTo_in _ _ _ _ (by rw [hx]; omega) (by rw [hx]; omega), hx]
      rw [show physAddr A P + j - physAddr A P = j by omega]
  · rw [if_neg h0]
    have hz : rest.length = 0 := by omega
    rw [hz]
    exact ⟨⟨hA, hL, hP, hv, ha, he, hnl, hx, hve, hd⟩, fun j hj => by omega, fun _ _ => rfl⟩

theorem tail_content (A L P n k : Nat) (m1 m2 : Nat → Nat) (rec : List Nat)
    (hP : P < 62 * L) (hn : n ≤ 62 * L) (hkn : k ≤ n) (hrec : rec.length = n)
    (hr : n - k < 62 - (P + k) % 62)
    (lc : ∀ j, j < k → m1 (physAddr A (wrapC (62 * L) (P + j))) = rec.getD j 0)
    (tc : ∀ j, j < n - k → m2 (physAddr A (wrapC (62 * L) (P + k) + j)) = (rec.drop k).getD j 0)
    (tf : ∀ a, (a < physAddr A (wrapC (62 * L) (P + k)) ∨
      physAddr A (wrapC (62 * L) (P + k)) + (n - k) ≤ a) → m2 a = m1 a) :
    ∀ j, j < n → m2 (physAddr A (wrapC (62 * L) (P + j))) = rec.getD j 0 := by
  intro j hj
  have hwk : (wrapC (62 * L) (P + k)) % 62 = (P + k) % 62 := by
    unfold wrapC; split_ifs <;> omega
  by_cases hjk : j < k
  · rw [tf, lc j hjk]
    have hne : wrapC (62 * L) (P + j) < wrapC (62 * L) (P + k) ∨
        wrapC (62 * L) (P + k) + (n - k) ≤ wrapC (62 * L) (P + j) := by
      unfold wrapC
      split_ifs <;> omega
    unfold physAddr
    omega
  · have := tc (j - k) (by omega)
    have e : wrapC (62 * L) (P + k) + (j - k) = wrapC (62 * L) (P + j) := by
      unfold wrapC
      split_ifs <;> omega
    rw [e] at this
    rw [this, List.getD_eq_getElem?_getD, List.getD_eq_getElem?_getD, List.getElem?_drop]
    rw [show k + (j - k) = j by omega]

theorem tail_frame (A L P n k : Nat) (m0 m1 m2 : Nat → Nat)
    (hP : P < 62 * L) (hn : n ≤ 62 * L) (hkn : k ≤ n)
    (hr : n - k < 62 - (P + k) % 62)
    (lf : ∀ a, (∀ j, j < k → a ≠ physAddr A (wrapC (62 * L) (P + j)) ∧
          a ≠ A + 64 * (wrapC (62 * L) (P + j) / 62) ∧
          a ≠ A + 64 * (wrapC (62 * L) (P + j) / 62) + 1) → m1 a = m0 a)
    (tf : ∀ a, (a < physAddr A (wrapC (62 * L) (P + k)) ∨
      physAddr A (wrapC (62 * L) (P + k)) + (n - k) ≤ a) → m2 a = m1 a) :
    ∀ a, (∀ j, j < n → a ≠ physAddr A (wrapC (62 * L) (P + j)) ∧
          a ≠ A + 64 * (wrapC (62 * L) (P + j) / 62) ∧
          a ≠ A + 64 * (wrapC (62 * L) (P + j) / 62) + 1) → m2 a = m0 a := by
  intro a hfr
  have hwk : (wrapC (62 * L) (P + k)) % 62 = (P + k) % 62 := by
    unfold wrapC; split_ifs <;> omega
  rw [tf, lf a (fun j hj => hfr j (by omega))]
  by_contra hin
  have hin' : physAddr A (wrapC (62 * L) (P + k)) ≤ a ∧
      a < physAddr A (wrapC (62 * L) (P + k)) + (n - k) := by omega
  have := (hfr (k + (a - physAddr A (wrapC (62 * L) (P + k)))) (by omega)).1
  apply this
  have e : wrapC (62 * L) (P + (k + (a - physAddr A (wrapC (62 * L) (P + k)))))
      = wrapC (62 * L) (P + k) + (a - physAddr A (wrapC (62 * L) (P + k))) := by
    have hd : a - physAddr A (wrapC (62 * L) (P + k)) < n - k := by omega
    generalize a - physAddr A (wrapC (62 * L) (P + k)) = d at hd ⊢
    clear hin' this hin tf lf hfr
    unfold wrapC
    split_ifs <;> omega
  rw [e]
  unfold physAddr at hin' ⊢
  omega

theorem tail_seal (A L P n k v : Nat) (m1 m2 : Nat → Nat)
    (hP : P < 62 * L) (hn : n ≤ 62 * L) (hkn : k ≤ n)
    (hk0 : k ≠ 0 → (P + k) % 62 = 0)
    (hr : n - k < 62 - (P + k) % 62)
    (ls : ∀ t, t < L → P < 62 * (t + 1) → 62 * (t + 1) ≤ P + k → P + k ≤ 62 * L + 62 * t →
        checkByteOne m1 (A + 64 * t) v = true)
    (tf : ∀ a, (a < physAddr A (wrapC (62 * L) (P + k)) ∨
      physAddr A (wrapC (62 * L) (P + k)) + (n - k) ≤ a) → m2 a = m1 a) :
    ∀ t, t < L → P < 62 * (t + 1) → 62 * (t + 1) ≤ P + n → P + n ≤ 62 * L + 62 * t →
        checkByteOne m2 (A + 64 * t) v = true := by
  intro t ht h1 h2 h3
  have hk1 : k ≠ 0 := by
    intro h; subst h; omega
  have hm := hk0 hk1
  have hwk : (wrapC (62 * L) (P + k)) % 62 = 0 := by
    unfold wrapC; split_ifs <;> omega
  rw [checkByteOne_congr _ m1]
  · exact ls t ht h1 (by omega) (by omega)
  · intro b hb
    apply tf
    by_cases hw : P + k < 62 * L
    · have e : wrapC (62 * L) (P + k) = P + k := by unfold wrapC; rw [if_pos hw]
      rw [e]
      unfold physAddr
      omega
    · have e : wrapC (62 * L) (P + k) = P + k - 62 * L := by unfold wrapC; rw [if_neg hw]
      rw [e]
      unfold physAddr
      omega

/-- What `writeLog` does when the writer stands at payload position `P`: the
record lies in the payload from `P` on (around the end of the ring, with a
flip of the version), the writer stands behind it, the lines filled on the
way are sealed, and nothing else changes but bytes 0 and 1 of those lines. -/
theorem writeLog_spec (A L : Nat) (lg : NvmLog_Log) (rec : List Nat) (P v : Nat)
    (hat : LogAt lg A L P v) (hn : rec.length ≤ 62 * L) :
    LogAt (writeLog lg rec) A L (wrapC (62 * L) (P + rec.length))
      (if P + rec.length < 62 * L then v else v ^^^ 0x80) ∧
    (∀ j, j < rec.length →
      (writeLog lg rec).mem (physAddr A (wrapC (62 * L) (P + j))) = rec.getD j 0) ∧
    (∀ a, (∀ j, j < rec.length → a ≠ physAddr A (wrapC (62 * L) (P + j)) ∧
          a ≠ A + 64 * (wrapC (62 * L) (P + j) / 62) ∧
          a ≠ A + 64 * (wrapC (62 * L) (P + j) / 62) + 1) →
      (writeLog lg rec).mem a = lg.mem a) ∧
    (∀ t, t < L → P < 62 * (t + 1) → 62 * (t + 1) ≤ P + rec.length →
      P + rec.length ≤ 62 * L + 62 * t → checkByteOne (writeLog lg rec).mem (A + 64 * t) v = true) := by
  have hP : P < 62 * L := hat.2.2.1
  have hl : lg.nl_log_wr_.nextline_ptr_ - lg.nl_log_wr_.next_ptr_ = 62 - P % 62 := by
    obtain ⟨_, _, _, _, _, _, hnl, hx, _, _⟩ := hat
    rw [hnl, hx]
    unfold physAddr
    omega
  have hat0 : LogAt (if lg.nl_log_wr_.offset_ = 0 then
      { lg with nl_log_wr_ := { lg.nl_log_wr_ with offset_ := (CACHE_LINE_SIZE - (62 - P % 62)) % 256 } }
    else lg) A L P v := by
    split
    · exact hat
    · exact hat
  have hm0 : (if lg.nl_log_wr_.offset_ = 0 then
      { lg with nl_log_wr_ := { lg.nl_log_wr_ with offset_ := (CACHE_LINE_SIZE - (62 - P % 62)) % 256 } }
    else lg).mem = lg.mem := by
    split <;> rfl
  unfold writeLog
  simp only [hl]
  generalize (if lg.nl_log_wr_.offset_ = 0 then
      { lg with nl_log_wr_ := { lg.nl_log_wr_ with offset_ := (CACHE_LINE_SIZE - (62 - P % 62)) % 256 } }
    else lg) = lg0 at hat0 hm0 ⊢
  rcases hwl : writeLoop (rec.length + 1) lg0 rec (62 - P % 62) with ⟨lg1, rest⟩
  obtain ⟨k, k1, k2, k3, k4, k5, k6, k7, k8, k9⟩ :=
    writeLoop_spec A L (rec.length + 1) lg0 rec P v lg1 rest hat0 (le_refl _) hn hwl
  simp only
  have hwk : (wrapC (62 * L) (P + k)) % 62 = (P + k) % 62 := by
    unfold wrapC; split_ifs <;> omega
  have hrl : rest.length = rec.length - k := by rw [k2, List.length_drop]
  obtain ⟨t1, t2, t3⟩ := writeTail_spec A L lg1 rest (wrapC (62 * L) (P + k)) _ k6
    (by rw [hwk, hrl]; exact k5)
  generalize (if rest.length > 0 then
      { lg1 with mem := memcpyTo lg1.mem lg1.nl_log_wr_.next_ptr_ rest,
                 nl_log_wr_ := { lg1.nl_log_wr_ with
                   next_ptr_ := lg1.nl_log_wr_.next_ptr_ + rest.length } }
    else lg1) = lg2 at t1 t2 t3 ⊢
  rw [hrl] at t1 t2 t3
  rw [k2] at t2
  have e1 : wrapC (62 * L) (P + k) + (rec.length - k) = wrapC (62 * L) (P + rec.length) := by
    clear t1 t2 t3 k6 k7 k8 k9 k3 hwl
    unfold wrapC
    split_ifs <;> omega
  have e2 : (if P + k < 62 * L then v else v ^^^ 0x80)
      = (if P + rec.length < 62 * L then v else v ^^^ 0x80) := by
    clear t1 t2 t3 k6 k7 k8 k9 k3 hwl
    by_cases h : P + k < 62 * L
    · rw [if_pos h, if_pos (by omega)]
    · rw [if_neg h, if_neg (by omega)]
  rw [e1, e2] at t1
  refine ⟨t1, tail_content A L P rec.length k lg1.mem lg2.mem rec hP hn k1 rfl k5 k7 t2 t3, ?_,
    tail_seal A L P rec.length k v lg1.mem lg2.mem hP hn k1 k4 k5 k9 t3⟩
  have := tail_frame A L P rec.length k lg0.mem lg1.mem lg2.mem hP hn k1 k5 k8 t3
  rw [hm0] at this
  exact this

end LBTree


namespace LBTree

/-! ## What the ring holds -/

theorem payload_length (m : Nat → Nat) (A C P n : Nat) : (payload m A C P n).length = n := by
  simp [payload]

theorem payload_eq_iff (m : Nat → Nat) (A C P : Nat) (bytes : List Nat) :
    payload m A C P bytes.length = bytes ↔
      ∀ j, j < bytes.length → m (physAddr A (wrapC C (P + j))) = bytes.getD j 0 := by
  constructor
  · intro h j hj
    have : (payload m A C P bytes.length).getD j 0 = bytes.getD j 0 := by rw [h]
    rw [← this, List.getD_eq_getElem _ _ (by rw [payload_length]; exact hj)]
    simp [payload]
  · intro h
    apply List.ext_getElem (payload_length _ _ _ _ _)
    intro j h1 h2
    have := h j h2
    rw [List.getD_eq_getElem _ _ h2] at this
    rw [← this]
    simp [payload]

theorem getD_append_ge (l1 l2 : List Nat) (j : Nat) (h : l1.length ≤ j) :
    (l1 ++ l2).getD j 0 = l2.getD (j - l1.length) 0 := by
  rw [List.getD_eq_getElem?_getD, List.getD_eq_getElem?_getD, List.getElem?_append_right h]

theorem getD_append_lt (l1 l2 : List Nat) (j : Nat) (h : j < l1.length) :
    (l1 ++ l2).getD j 0 = l1.getD j 0 := by
  rw [List.getD_eq_getElem?_getD, List.getD_eq_getElem?_getD, List.getElem?_append_left h]

theorem holds_nil (lg : NvmLog_Log) (A L P v : Nat) (h : LogAt lg A L P v) :
    Holds lg A L P v [] := by
  have hP : P < 62 * L := h.2.2.1
  refine ⟨hP, Nat.zero_le _, ?_, rfl, fun t _ h1 h2 => ?_⟩
  · have : wrapC (62 * L) (P + ([] : List Nat).length) = P := by
      unfold wrapC; simp [hP]
    rw [this, if_pos (by simpa using hP)]
    exact h
  · simp at h2
    omega

theorem hw_content (A L P0 b n : Nat) (m0 m1 : Nat → Nat) (bytes rec : List Nat)
    (hP0 : P0 < 62 * L) (hb : bytes.length = b) (hn : rec.length = n) (hbn : b + n ≤ 62 * L)
    (hc : ∀ j, j < b → m0 (physAddr A (wrapC (62 * L) (P0 + j))) = bytes.getD j 0)
    (w2 : ∀ j, j < n →
      m1 (physAddr A (wrapC (62 * L) (wrapC (62 * L) (P0 + b) + j))) = rec.getD j 0)
    (w3 : ∀ a, (∀ j, j < n → a ≠ physAddr A (wrapC (62 * L) (wrapC (62 * L) (P0 + b) + j)) ∧
          a ≠ A + 64 * (wrapC (62 * L) (wrapC (62 * L) (P0 + b) + j) / 62) ∧
          a ≠ A + 64 * (wrapC (62 * L) (wrapC (62 * L) (P0 + b) + j) / 62) + 1) → m1 a = m0 a) :
    ∀ j, j < b + n → m1 (physAddr A (wrapC (62 * L) (P0 + j))) = (bytes ++ rec).getD j 0 := by
  intro j hj
  by_cases hjb : j < b
  · rw [getD_append_lt _ _ _ (by omega), ← hc j hjb]
    apply w3
    intro j' hj'
    rw [wrapC_add _ _ _ _ hP0 (by omega)]
    have hne : wrapC (62 * L) (P0 + b + j') ≠ wrapC (62 * L) (P0 + j) := by
      unfold wrapC
      split_ifs <;> omega
    refine ⟨fun h => hne (physAddr_inj _ _ _ h).symm, ?_, ?_⟩
    · unfold physAddr; omega
    · unfold physAddr; omega
  · rw [getD_append_ge _ _ _ (by omega), hb, ← w2 (j - b) (by omega),
      wrapC_add _ _ _ _ hP0 (by omega), show P0 + b + (j - b) = P0 + j by omega]

theorem hw_seal (A L P0 b n v0 : Nat) (m0 m1 : Nat → Nat)
    (hP0 : P0 < 62 * L) (hbn : b + n ≤ 62 * L)
    (hs : ∀ t, t < L → P0 ≤ 62 * t → 62 * (t + 1) ≤ P0 + b →
      checkByteOne m0 (A + 64 * t) v0 = true)
    (w3 : ∀ a, (∀ j, j < n → a ≠ physAddr A (wrapC (62 * L) (wrapC (62 * L) (P0 + b) + j)) ∧
          a ≠ A + 64 * (wrapC (62 * L) (wrapC (62 * L) (P0 + b) + j) / 62) ∧
          a ≠ A + 64 * (wrapC (62 * L) (wrapC (62 * L) (P0 + b) + j) / 62) + 1) → m1 a = m0 a)
    (w4 : ∀ t, t < L → wrapC (62 * L) (P0 + b) < 62 * (t + 1) →
      62 * (t + 1) ≤ wrapC (62 * L) (P0 + b) + n →
      wrapC (62 * L) (P0 + b) + n ≤ 62 * L + 62 * t →
      checkByteOne m1 (A + 64 * t) (if P0 + b < 62 * L then v0 else v0 ^^^ 0x80) = true) :
    ∀ t, t < L → P0 ≤ 62 * t → 62 * (t + 1) ≤ P0 + (b + n) →
      checkByteOne m1 (A + 64 * t) v0 = true := by
  intro t ht h1 h2
  by_cases hold : 62 * (t + 1) ≤ P0 + b
  · rw [checkByteOne_congr _ m0]
    · exact hs t ht h1 hold
    · intro i hi
      apply w3
      intro j' hj'
      rw [wrapC_add _ _ _ _ hP0 (by omega)]
      have hq : wrapC (62 * L) (P0 + b + j') / 62 ≠ t := by
        unfold wrapC
        split_ifs <;> omega
      have := physAddr_line A (wrapC (62 * L) (P0 + b + j'))
      refine ⟨?_, ?_, ?_⟩ <;> omega
  · have hw : P0 + b < 62 * L := by omega
    have e : wrapC (62 * L) (P0 + b) = P0 + b := by unfold wrapC; rw [if_pos hw]
    rw [e, if_pos hw] at w4
    exact w4 t ht (by omega) (by omega) (by omega)

theorem hw_version (L P0 b n v0 : Nat) (hP0 : P0 < 62 * L) (hbn : b + n ≤ 62 * L) :
    (if wrapC (62 * L) (P0 + b) + n < 62 * L then (if P0 + b < 62 * L then v0 else v0 ^^^ 0x80)
      else (if P0 + b < 62 * L then v0 else v0 ^^^ 0x80) ^^^ 0x80)
    = (if P0 + (b + n) < 62 * L then v0 else v0 ^^^ 0x80) := by
  by_cases hw : P0 + b < 62 * L
  · have e : wrapC (62 * L) (P0 + b) = P0 + b := by unfold wrapC; rw [if_pos hw]
    rw [e, if_pos hw, Nat.add_assoc]
  · have e : wrapC (62 * L) (P0 + b) = P0 + b - 62 * L := by unfold wrapC; rw [if_neg hw]
    have h1 : ¬ P0 + (b + n) < 62 * L := by omega
    have h3 : P0 + b - 62 * L + n < 62 * L := by omega
    rw [e, if_neg h1, if_neg hw, if_pos h3]

theorem ring_frame (A L n P : Nat) (a : Nat) (hA : A % 64 = 0) (hP : P < 62 * L)
    (hn : n ≤ 62 * L) (ha : a < A ∨ A + 64 * L ≤ a) :
    ∀ j, j < n → a ≠ physAddr A (wrapC (62 * L) (P + j)) ∧
      a ≠ A + 64 * (wrapC (62 * L) (P + j) / 62) ∧
      a ≠ A + 64 * (wrapC (62 * L) (P + j) / 62) + 1 := by
  intro j hj
  have hq := wrapC_lt (62 * L) (P + j) (by omega) (by omega)
  have := physAddr_line A (wrapC (62 * L) (P + j))
  refine ⟨?_, ?_, ?_⟩ <;> omega

/-- A `writeLog` appends the record to what the ring holds. -/
theorem holds_writeLog (lg : NvmLog_Log) (A L P0 v0 : Nat) (bytes rec : List Nat)
    (h : Holds lg A L P0 v0 bytes) (hbn : bytes.length + rec.length ≤ 62 * L) :
    Holds (writeLog lg rec) A L P0 v0 (bytes ++ rec) ∧
    (∀ a, (a < A ∨ A + 64 * L ≤ a) → (writeLog lg rec).mem a = lg.mem a) := by
  obtain ⟨hP0, hb, hat, hpay, hs⟩ := h
  have hA : A % 64 = 0 := hat.1
  obtain ⟨w1, w2, w3, w4⟩ := writeLog_spec A L lg rec _ _ hat (by omega)
  have hPlt := wrapC_lt (62 * L) (P0 + bytes.length) (by omega) (by omega)
  refine ⟨⟨hP0, by rw [List.length_append]; exact hbn, ?_, ?_, ?_⟩, fun a ha => ?_⟩
  · rw [List.length_append, ← hw_version L P0 bytes.length rec.length v0 hP0 hbn,
      ← Nat.add_assoc, ← wrapC_add _ _ _ _ hP0 hbn]
    exact w1
  · rw [payload_eq_iff]
    rw [List.length_append]
    exact hw_content A L P0 _ _ lg.mem _ bytes rec hP0 rfl rfl hbn
      ((payload_eq_iff _ _ _ _ _).1 hpay) w2 w3
  · rw [List.length_append]
    exact hw_seal A L P0 _ _ v0 lg.mem _ hP0 hbn hs w3 w4
  · exact w3 a (ring_frame A L rec.length _ a hA hPlt (by omega) ha)

theorem hf_content (A L P0 b : Nat) (m0 m1 : Nat → Nat) (bytes : List Nat)
    (hP0 : P0 < 62 * L) (hb : b < 62 * L)
    (hc : ∀ j, j < b → m0 (physAddr A (wrapC (62 * L) (P0 + j))) = bytes.getD j 0)
    (f4 : ∀ a, a ≠ physAddr A (wrapC (62 * L) (P0 + b)) →
      a ≠ A + 64 * (wrapC (62 * L) (P0 + b) / 62) →
      a ≠ A + 64 * (wrapC (62 * L) (P0 + b) / 62) + 1 → m1 a = m0 a) :
    ∀ j, j < b → m1 (physAddr A (wrapC (62 * L) (P0 + j))) = bytes.getD j 0 := by
  intro j hj
  rw [← hc j hj]
  have hne : wrapC (62 * L) (P0 + b) ≠ wrapC (62 * L) (P0 + j) := by
    unfold wrapC
    split_ifs <;> omega
  apply f4
  · exact fun h => hne (physAddr_inj _ _ _ h).symm
  · unfold physAddr; omega
  · unfold physAddr; omega

theorem hf_seal (A L P0 b v0 : Nat) (m0 m1 : Nat → Nat)
    (hP0 : P0 < 62 * L) (hb : b < 62 * L)
    (hs : ∀ t, t < L → P0 ≤ 62 * t → 62 * (t + 1) ≤ P0 + b →
      checkByteOne m0 (A + 64 * t) v0 = true)
    (f4 : ∀ a, a ≠ physAddr A (wrapC (62 * L) (P0 + b)) →
      a ≠ A + 64 * (wrapC (62 * L) (P0 + b) / 62) →
      a ≠ A + 64 * (wrapC (62 * L) (P0 + b) / 62) + 1 → m1 a = m0 a) :
    ∀ t, t < L → P0 ≤ 62 * t → 62 * (t + 1) ≤ P0 + b →
      checkByteOne m1 (A + 64 * t) v0 = true := by
  intro t ht h1 h2
  rw [checkByteOne_congr _ m0]
  · exact hs t ht h1 h2
  · intro i hi
    have hq : wrapC (62 * L) (P0 + b) / 62 ≠ t := by
      unfold wrapC
      split_ifs <;> omega
    have := physAddr_line A (wrapC (62 * L) (P0 + b))
    apply f4 <;> omega

/-- A `flushLog` keeps what the ring holds (as long as the ring is not full),
seals the line the writer stands in, and leaves the whole ring written back. -/
theorem holds_flushLog (lg : NvmLog_Log) (A L P0 v0 : Nat) (bytes : List Nat)
    (h : Holds lg A L P0 v0 bytes) (hb : bytes.length < 62 * L) :
    Holds (flushLog lg) A L P0 v0 bytes ∧
    (∀ a, (a < A ∨ A + 64 * L ≤ a) → (flushLog lg).mem a = lg.mem a) ∧
    (∀ a, A ≤ a → a < A + 64 * L → (flushLog lg).durable a = (flushLog lg).mem a) ∧
    (P0 + bytes.length < 62 * L → 0 < (P0 + bytes.length) % 62 →
      checkByteOne (flushLog lg).mem (A + 64 * ((P0 + bytes.length) / 62)) v0 = true) := by
  obtain ⟨hP0, _, hat, hpay, hs⟩ := h
  have hA : A % 64 = 0 := hat.1
  obtain ⟨f1, _, f3, f4, _, f6⟩ := flushLog_spec lg A L _ _ hat
  have hPlt := wrapC_lt (62 * L) (P0 + bytes.length) (by omega) (by omega)
  refine ⟨⟨hP0, by omega, f1, ?_, hf_seal A L P0 _ v0 lg.mem _ hP0 hb hs f4⟩, fun a ha => ?_, f3,
    fun h1 h2 => ?_⟩
  · rw [payload_eq_iff]
    exact hf_content A L P0 _ lg.mem _ bytes hP0 hb ((payload_eq_iff _ _ _ _ _).1 hpay) f4
  · have := physAddr_line A (wrapC (62 * L) (P0 + bytes.length))
    apply f4 <;> omega
  · have e : wrapC (62 * L) (P0 + bytes.length) = P0 + bytes.length := by
      unfold wrapC; rw [if_pos h1]
    rw [e, if_pos h1] at f6
    exact f6 h2

end LBTree


namespace LBTree

/-- A sequence of `writeLog` calls appends the records, one after the other,
to what the ring holds. -/
theorem holds_foldl (A L P0 v0 : Nat) (recs : List (List Nat)) :
    ∀ (lg : NvmLog_Log) (bytes : List Nat), Holds lg A L P0 v0 bytes →
    bytes.length + recs.flatten.length ≤ 62 * L →
    Holds (recs.foldl writeLog lg) A L P0 v0 (bytes ++ recs.flatten) ∧
    (∀ a, (a < A ∨ A + 64 * L ≤ a) → (recs.foldl writeLog lg).mem a = lg.mem a) := by
  induction recs with
  | nil =>
    intro lg bytes h _
    rw [List.flatten_nil, List.append_nil, List.foldl_nil]
    exact ⟨h, fun _ _ => rfl⟩
  | cons r rs ih =>
    intro lg bytes h hl
    rw [List.flatten_cons, List.length_append] at hl
    obtain ⟨h1, h2⟩ := holds_writeLog lg A L P0 v0 bytes r h (by omega)
    obtain ⟨h3, h4⟩ := ih (writeLog lg r) (bytes ++ r) h1 (by rw [List.length_append]; omega)
    rw [List.foldl_cons, List.flatten_cons, ← List.append_assoc]
    exact ⟨h3, fun a ha => by rw [h4 a ha, h2 a ha]⟩

theorem completeLine2Log_mem (x : NvmLog_Log) :
    (completeLine2Log x).mem =
      setByteOne (memcpyTo x.mem (x.nl_log_wr_.nextline_ptr_ - CACHE_LINE_SIZE + 1) [x.nl_log_wr_.offset_])
        (x.nl_log_wr_.nextline_ptr_ - CACHE_LINE_SIZE) x.nl_log_wr_.version_ := by
  unfold completeLine2Log
  simp only [clwb]
  split <;> rfl

/-- C30: the version bit of the writer.  Every line sealed by
`completeLine2Log` carries in bit 7 of byte 0 the version in force at that
moment.  For a ring of `L` lines and a writer at byte 2 of line 0 with version
`v`, after `writeLog` calls of `T <= 62 * L` bytes in all: the version is
`v xor 0x80` if `T = 62 * L` and `v` for every smaller total; if `T = 62 * L`
the cursor is again at byte 2 of line 0; and every line filled so far carries
`v` in bit 7 of byte 0. -/
theorem C30_version_flips_at_wrap (lg : NvmLog_Log) (A L v : Nat) (recs : List (List Nat))
    (h : LogAt lg A L 0 v) (hT : recs.flatten.length ≤ 62 * L) :
    (∀ x : NvmLog_Log, x.nl_log_wr_.version_ = 0 ∨ x.nl_log_wr_.version_ = 0x80 →
      (completeLine2Log x).mem (x.nl_log_wr_.nextline_ptr_ - CACHE_LINE_SIZE) &&& 0x80
        = x.nl_log_wr_.version_) ∧
    (recs.foldl writeLog lg).nl_log_wr_.version_
      = (if recs.flatten.length = 62 * L then v ^^^ 0x80 else v) ∧
    (recs.flatten.length = 62 * L →
      (recs.foldl writeLog lg).nl_log_wr_.next_ptr_ = A + 2 ∧
      (recs.foldl writeLog lg).nl_log_wr_.nextline_ptr_ = A + 64) ∧
    (∀ t, 62 * (t + 1) ≤ recs.flatten.length →
      (recs.foldl writeLog lg).mem (A + 64 * t) &&& 0x80 = v) := by
  have hv : v = 0 ∨ v = 0x80 := h.2.2.2.1
  obtain ⟨⟨_, _, hat, _, hs⟩, _⟩ := holds_foldl A L 0 v recs lg [] (holds_nil lg A L 0 v h)
    (by simpa using hT)
  simp only [List.nil_append, Nat.zero_add] at hat hs
  obtain ⟨_, _, _, _, _, _, hnl, hx, hve, _⟩ := hat
  refine ⟨fun x hx => ?_, ?_, fun hfull => ?_, fun t ht => ?_⟩
  · rw [completeLine2Log_mem]
    exact checkByteOne_bit _ _ _ hx (checkByteOne_setByteOne _ _ _)
  · rw [hve]
    by_cases hfull : recs.flatten.length = 62 * L
    · rw [if_pos hfull, if_neg (by omega)]
    · rw [if_neg hfull, if_pos (by omega)]
  · have e : wrapC (62 * L) recs.flatten.length = 0 := by
      unfold wrapC; rw [if_neg (by omega)]; omega
    rw [hx, hnl, e]
    simp [physAddr]
  · exact checkByteOne_bit _ _ _ hv (hs t (by omega) (by omega) ht)

end LBTree


namespace LBTree

/-! ## Reading the ring forward -/

theorem readLoop_succ (lg : NvmLog_Log) (fuel : Nat) (pos : nl_log_pointer_t) (len l : Nat)
    (buf : List Nat) :
    readLoop lg (fuel + 1) pos len l buf =
      if len > 0 ∧ checkByteOne lg.mem (pos.nextline_ptr_ - CACHE_LINE_SIZE) pos.version_ = true then
        if ({ pos with next_ptr_ := pos.next_ptr_ + (if len < l then len else l) } :
            nl_log_pointer_t).next_ptr_
            = ({ pos with next_ptr_ := pos.next_ptr_ + (if len < l then len else l) } :
            nl_log_pointer_t).nextline_ptr_ then
          readLoop lg fuel
            (readNextLine lg { pos with next_ptr_ := pos.next_ptr_ + (if len < l then len else l) })
            (len - (if len < l then len else l)) (CACHE_LINE_SIZE - 2)
            (buf ++ memcpyFrom lg.mem pos.next_ptr_ (if len < l then len else l))
        else
          readLoop lg fuel { pos with next_ptr_ := pos.next_ptr_ + (if len < l then len else l) }
            (len - (if len < l then len else l)) (if len < l then len else l)
            (buf ++ memcpyFrom lg.mem pos.next_ptr_ (if len < l then len else l))
      else (pos, buf) := rfl

theorem readLoop_zero_len (lg : NvmLog_Log) (fuel : Nat) (pos : nl_log_pointer_t) (l : Nat)
    (buf : List Nat) : readLoop lg fuel pos 0 l buf = (pos, buf) := by
  cases fuel with
  | zero => rfl
  | succ n => rw [readLoop_succ]; simp

theorem range_map_split (f : Nat → Nat) (a b : Nat) :
    (List.range (a + b)).map f = (List.range a).map f ++ (List.range b).map (fun j => f (a + j)) := by
  rw [List.range_add, List.map_append, List.map_map]
  rfl

theorem memcpyFrom_line (m : Nat → Nat) (A Q l : Nat) (h : l ≤ 62 - Q % 62) :
    memcpyFrom m (physAddr A Q) l = (List.range l).map (fun j => m (physAddr A (Q + j))) := by
  rw [memcpyFrom_eq_map]
  apply List.map_congr_left
  intro j hj
  have hj' : j < l := List.mem_range.1 hj
  congr 1
  unfold physAddr
  omega

/-- The loop of `readLog` from payload position `Q`, where the `len` bytes
wanted lie before the end of the ring in lines sealed under the version of
the reader: it returns exactly these bytes. -/
theorem readLoop_spec (lg : NvmLog_Log) (A L v : Nat) (hA : lg.nl_log_area_ = A)
    (hE : lg.nl_log_area_end_ = A + 64 * L) (fuel : Nat) :
    ∀ (pos : nl_log_pointer_t) (Q len : Nat) (buf : List Nat),
    pos.version_ = v → pos.nextline_ptr_ = A + 64 * (Q / 62 + 1) → pos.next_ptr_ = physAddr A Q →
    Q + len ≤ 62 * L → len + 1 ≤ fuel + (if len = 0 then 1 else 0) →
    (∀ t, Q / 62 ≤ t → 62 * t < Q + len → checkByteOne lg.mem (A + 64 * t) v = true) →
    (readLoop lg fuel pos len (62 - Q % 62) buf).2
      = buf ++ (List.range len).map (fun j => lg.mem (physAddr A (Q + j))) := by
  induction fuel with
  | zero =>
    intro pos Q len buf _ _ _ _ hf _
    have : len = 0 := by
      by_contra h
      rw [if_neg h] at hf
      omega
    subst this
    simp [readLoop]
  | succ fuel ih =>
    intro pos Q len buf hv hnl hx hQ hf hs
    by_cases h0 : len = 0
    · subst h0
      rw [readLoop_zero_len]
      simp
    · rw [if_neg h0] at hf
      rw [readLoop_succ]
      have hchk : checkByteOne lg.mem (pos.nextline_ptr_ - CACHE_LINE_SIZE) pos.version_ = true := by
        rw [hnl, hv]
        have := hs (Q / 62) (le_refl _) (by omega)
        simp only [CACHE_LINE_SIZE]
        rw [show A + 64 * (Q / 62 + 1) - 64 = A + 64 * (Q / 62) by omega]
        exact this
      rw [if_pos ⟨by omega, hchk⟩]
      by_cases hlt : len < 62 - Q % 62
      · -- the bytes wanted end inside the line
        simp only [if_pos hlt]
        have hne : ¬ (pos.next_ptr_ + len = pos.nextline_ptr_) := by
          rw [hx, hnl]; unfold physAddr; omega
        rw [if_neg hne, Nat.sub_self, readLoop_zero_len]
        simp only
        rw [hx, memcpyFrom_line _ _ _ _ (by omega)]
      · -- the rest of the line is read, then the next lines
        simp only [if_neg hlt]
        have he : pos.next_ptr_ + (62 - Q % 62) = pos.nextline_ptr_ := by
          rw [hx, hnl]; unfold physAddr; omega
        rw [if_pos he]
        by_cases hlast : len = 62 - Q % 62
        · rw [hlast, Nat.sub_self, readLoop_zero_len]
          simp only
          rw [hx, memcpyFrom_line _ _ _ _ (le_refl _)]
        · have hline : pos.nextline_ptr_ < lg.nl_log_area_end_ := by
            rw [hnl, hE]; omega
          have hnext : readNextLine lg { pos with next_ptr_ := pos.next_ptr_ + (62 - Q % 62) }
              = ⟨pos.version_, lg.mem (pos.nextline_ptr_ + 1), pos.nextline_ptr_ + 64,
                  pos.nextline_ptr_ + 2⟩ := by
            unfold readNextLine
            simp only [if_pos hline, he, CACHE_LINE_SIZE]
            rfl
          rw [hnext]
          have hQ' : (Q + (62 - Q % 62)) % 62 = 0 := by omega
          have := ih ⟨pos.version_, lg.mem (pos.nextline_ptr_ + 1), pos.nextline_ptr_ + 64,
                  pos.nextline_ptr_ + 2⟩ (Q + (62 - Q % 62)) (len - (62 - Q % 62))
            (buf ++ memcpyFrom lg.mem pos.next_ptr_ (62 - Q % 62)) hv
            (by show pos.nextline_ptr_ + 64 = _; rw [hnl]; omega)
            (by show pos.nextline_ptr_ + 2 = _; rw [hnl]; unfold physAddr; omega)
            (by omega) (by split_ifs <;> omega)
            (fun t h1 h2 => hs t (by omega) (by omega))
          rw [hQ'] at this
          simp only [CACHE_LINE_SIZE]
          rw [this, hx, memcpyFrom_line _ _ _ _ (le_refl _), List.append_assoc]
          congr 1
          have e := range_map_split (fun j => lg.mem (physAddr A (Q + j))) (62 - Q % 62)
            (len - (62 - Q % 62))
          rw [show 62 - Q % 62 + (len - (62 - Q % 62)) = len by omega] at e
          rw [e]
          congr 1
          apply List.map_congr_left
          intro j _
          rw [Nat.add_assoc]

end LBTree


namespace LBTree

/-! ## Writing and reading back -/

set_option maxRecDepth 100000

theorem exRing_logAt : LogAt exRing 4096 4 0 0x80 := by
  obtain ⟨lg, h1, _⟩ := initLog_spec 4 (fun _ => 0xff) (fun _ => 0xff) ⟨4096, 2 ^ 20, 0⟩
    (by decide) (by decide) (by decide)
  have := (logAt_init 4 (fun _ => 0xff) (fun _ => 0xff) ⟨4096, 2 ^ 20, 0⟩ lg _ (by decide)
    (by decide) h1).1
  unfold exRing
  rw [h1]
  exact this

/-- C30 on the ring of four lines: two records of 100 and 148 bytes fill it. -/
theorem C30_version_flips_at_wrap_witness :
    LogAt exRing 4096 4 0 0x80 ∧
    ([List.replicate 100 7, List.replicate 148 9] : List (List Nat)).flatten.length ≤ 62 * 4 ∧
    ((∀ x : NvmLog_Log, x.nl_log_wr_.version_ = 0 ∨ x.nl_log_wr_.version_ = 0x80 →
      (completeLine2Log x).mem (x.nl_log_wr_.nextline_ptr_ - CACHE_LINE_SIZE) &&& 0x80
        = x.nl_log_wr_.version_) ∧
    ([List.replicate 100 7, List.replicate 148 9].foldl writeLog exRing).nl_log_wr_.version_
      = (if ([List.replicate 100 7, List.replicate 148 9] : List (List Nat)).flatten.length = 62 * 4
          then 0x80 ^^^ 0x80 else 0x80) ∧
    (([List.replicate 100 7, List.replicate 148 9] : List (List Nat)).flatten.length = 62 * 4 →
      ([List.replicate 100 7, List.replicate 148 9].foldl writeLog exRing).nl_log_wr_.next_ptr_
        = 4096 + 2 ∧
      ([List.replicate 100 7, List.replicate 148 9].foldl writeLog exRing).nl_log_wr_.nextline_ptr_
        = 4096 + 64) ∧
    (∀ t, 62 * (t + 1) ≤ ([List.replicate 100 7, List.replicate 148 9] : List (List Nat)).flatten.length →
      ([List.replicate 100 7, List.replicate 148 9].foldl writeLog exRing).mem (4096 + 64 * t) &&& 0x80
        = 0x80)) :=
  ⟨exRing_logAt, by decide,
    C30_version_flips_at_wrap exRing 4096 4 0x80 [List.replicate 100 7, List.replicate 148 9]
      exRing_logAt (by decide)⟩

/-- C28: on a ring of `L` lines made by `initLog` and `prepareLogforWriting`,
for every sequence of `writeLog` calls of `n < 62 * L` bytes in all, with
`pos` taken by `getLogCurPos` before the writes and `flushLog` after them,
`readLog(pos, buf, n)` returns `n` and `buf` is the concatenation of the
records; byte `j` of it lies at byte `2 + j mod 62` of line `j / 62`, so
bytes 0 and 1 of a line never hold a byte of a record. -/
theorem C28_write_read_round_trip (L : Nat) (mem durable : Nat → Nat) (pool pool1 : mempool)
    (lg0 : NvmLog_Log) (recs : List (List Nat))
    (hL : 1 ≤ L) (hal : pool.cur % 64 = 0)
    (hinit : initLog (64 * L) mem durable pool = some (lg0, pool1))
    (hn : recs.flatten.length < 62 * L) :
    (readLog (flushLog (recs.foldl writeLog (prepareLogforWriting lg0)))
      (getLogCurPos (prepareLogforWriting lg0)) recs.flatten.length).2 = recs.flatten ∧
    (readLog (flushLog (recs.foldl writeLog (prepareLogforWriting lg0)))
      (getLogCurPos (prepareLogforWriting lg0)) recs.flatten.length).2.length = recs.flatten.length ∧
    (∀ j, j < recs.flatten.length →
      (flushLog (recs.foldl writeLog (prepareLogforWriting lg0))).mem
        (pool.cur + 64 * (j / 62) + 2 + j % 62) = recs.flatten.getD j 0) := by
  obtain ⟨hat, _, _, _⟩ := logAt_init L mem durable pool lg0 pool1 hL hal hinit
  obtain ⟨h1, _⟩ := holds_foldl pool.cur L 0 0x80 recs _ [] (holds_nil _ _ _ _ _ hat)
    (by simp only [List.length_nil, Nat.zero_add]; omega)
  rw [List.nil_append] at h1
  obtain ⟨⟨_, _, hat2, hpay, hs⟩, _, _, hl⟩ := holds_flushLog _ _ _ _ _ _ h1 hn
  have hcont : ∀ j, j < recs.flatten.length →
      (flushLog (recs.foldl writeLog (prepareLogforWriting lg0))).mem (physAddr pool.cur j)
        = recs.flatten.getD j 0 := by
    intro j hj
    have := (payload_eq_iff _ _ _ _ _).1 hpay j hj
    rwa [Nat.zero_add, show wrapC (62 * L) j = j by unfold wrapC; rw [if_pos (by omega)]] at this
  have hread : (readLog (flushLog (recs.foldl writeLog (prepareLogforWriting lg0)))
      (getLogCurPos (prepareLogforWriting lg0)) recs.flatten.length).2 = recs.flatten := by
    unfold readLog
    have hp1 : (getLogCurPos (prepareLogforWriting lg0)).nextline_ptr_ = pool.cur + 64 * (0 / 62 + 1) := by
      show (prepareLogforWriting lg0).nl_log_wr_.nextline_ptr_ = _
      rw [hat.2.2.2.2.2.2.1]
    have hp2 : (getLogCurPos (prepareLogforWriting lg0)).next_ptr_ = physAddr pool.cur 0 := by
      show (prepareLogforWriting lg0).nl_log_wr_.next_ptr_ = _
      rw [hat.2.2.2.2.2.2.2.1]
    have hp3 : (getLogCurPos (prepareLogforWriting lg0)).version_ = 0x80 := by
      show (prepareLogforWriting lg0).nl_log_wr_.version_ = _
      rw [hat.2.2.2.2.2.2.2.2.1]
    have hl0 : (getLogCurPos (prepareLogforWriting lg0)).nextline_ptr_
        - (getLogCurPos (prepareLogforWriting lg0)).next_ptr_ = 62 - 0 % 62 := by
      rw [hp1, hp2]; unfold physAddr; omega
    rw [hl0, readLoop_spec _ pool.cur L 0x80 hat2.2.2.2.2.1 hat2.2.2.2.2.2.1 _ _ 0 _ [] hp3 hp1 hp2
      (by omega) (by split_ifs <;> omega)]
    · rw [List.nil_append]
      apply List.ext_getElem (by simp)
      intro j hj1 hj2
      have := hcont j hj2
      rw [List.getD_eq_getElem _ _ hj2] at this
      simp only [List.getElem_map, List.getElem_range, Nat.zero_add]
      exact this
    · intro t _ ht
      by_cases hfull : 62 * (t + 1) ≤ recs.flatten.length
      · exact hs t (by omega) (by omega) (by omega)
      · have := hl (by omega) (by omega)
        rw [Nat.zero_add] at this
        rwa [show recs.flatten.length / 62 = t by omega] at this
  refine ⟨hread, by rw [hread], fun j hj => ?_⟩
  have := hcont j hj
  unfold physAddr at this
  exact this

/-- C28 on a ring of four lines: records of 100 and 50 bytes. -/
theorem C28_write_read_round_trip_witness :
    1 ≤ 4 ∧ (⟨4096, 2 ^ 20, 0⟩ : mempool).cur % 64 = 0 ∧
    ([List.replicate 100 7, List.replicate 50 9] : List (List Nat)).flatten.length < 62 * 4 ∧
    ∃ lg0 pool1, initLog (64 * 4) (fun _ => 0xff) (fun _ => 0xff) ⟨4096, 2 ^ 20, 0⟩ = some (lg0, pool1) ∧
      (readLog (flushLog ([List.replicate 100 7, List.replicate 50 9].foldl writeLog
          (prepareLogforWriting lg0)))
        (getLogCurPos (prepareLogforWriting lg0))
        ([List.replicate 100 7, List.replicate 50 9] : List (List Nat)).flatten.length).2
        = ([List.replicate 100 7, List.replicate 50 9] : List (List Nat)).flatten := by
  refine ⟨by decide, by decide, by decide, ?_⟩
  obtain ⟨lg0, h1, _⟩ := initLog_spec 4 (fun _ => 0xff) (fun _ => 0xff) ⟨4096, 2 ^ 20, 0⟩
    (by decide) (by decide) (by decide)
  exact ⟨lg0, _, h1, (C28_write_read_round_trip 4 (fun _ => 0xff) (fun _ => 0xff) ⟨4096, 2 ^ 20, 0⟩ _
    lg0 [List.replicate 100 7, List.replicate 50 9] (by decide) (by decide) h1 (by decide)).1⟩

end LBTree


namespace LBTree

/-! ## `abortMiniTransaction` at the start of a line -/

set_option maxRecDepth 100000

/-- When the first record met by the undo loop is not undone, the outcome of
that step is the outcome of `abortMiniTransaction`. -/
theorem abort_stops (fuel : Nat) (s : NvmLog)
    (h1 : (prepareForReverseRead s.nl_logbuf_ (getLogCurPos s.nl_logbuf_)).2.next_ptr_ ≠
      reverseAdjustPtr (prepareForReverseRead s.nl_logbuf_ (getLogCurPos s.nl_logbuf_)).1
        s.nl_log_tx_pos_.next_ptr_)
    (h2 : (abortStep { s with nl_logbuf_ := (prepareForReverseRead s.nl_logbuf_
        (getLogCurPos s.nl_logbuf_)).1 }
      (prepareForReverseRead s.nl_logbuf_ (getLogCurPos s.nl_logbuf_)).2).isOk = false) :
    abortMiniTransaction (fuel + 1) s =
      (abortStep { s with nl_logbuf_ := (prepareForReverseRead s.nl_logbuf_
          (getLogCurPos s.nl_logbuf_)).1 }
        (prepareForReverseRead s.nl_logbuf_ (getLogCurPos s.nl_logbuf_)).2).dropPos := by
  unfold abortMiniTransaction
  simp only [abortLoop]
  rw [if_pos h1]
  rcases h : abortStep { s with nl_logbuf_ := (prepareForReverseRead s.nl_logbuf_
          (getLogCurPos s.nl_logbuf_)).1 }
        (prepareForReverseRead s.nl_logbuf_ (getLogCurPos s.nl_logbuf_)).2 with r | r | _ | _
  · rw [h] at h2; simp [LogRes.isOk] at h2
  · rfl
  · rfl
  · rfl

/-- C22, failing input: on the log made by `NvmLog::init` with a ring of
sixteen lines, a transaction of the 31 calls `write8B(16384 + 8 * i, 5 + i)`
writes 31 * 26 = 13 * 62 bytes, so the write cursor ends at byte 2 of line 13.
`abortMiniTransaction` then takes byte 1 of that line, which is 0, for the tag
of the last record and calls `exit(1)`: no write is undone (every location
holds the new value `5 + i`, not the 0 it held at the start), however many
records the model lets the loop undo. -/
theorem C22_abort_exits_after_31_writes (fuel : Nat) :
    (write8Bs 31 (startMiniTransaction exLog)).nl_logbuf_.nl_log_wr_.next_ptr_ = 4096 + 64 * 13 + 2 ∧
    (abortMiniTransaction (fuel + 1) (write8Bs 31 (startMiniTransaction exLog))).isExited = true ∧
    (∀ i, i < 31 →
      loadLE (startMiniTransaction exLog).nl_logbuf_.mem (16384 + 8 * i) 8 = 0 ∧
      loadLE ((abortMiniTransaction (fuel + 1) (write8Bs 31 (startMiniTransaction exLog))).memOf)
        (16384 + 8 * i) 8 = 5 + i) := by
  rw [abort_stops fuel _ (by decide) (by decide)]
  decide

/-- C26, failing input: on the same log, a transaction of 31 calls
`allocNode(256)` (which hand out the nodes at 5120, 5376, ..) writes
31 * 10 = 5 * 62 bytes, so the write cursor ends at byte 2 of line 5.
`abortMiniTransaction` exits on the zero byte it takes for a tag, and no node
is pushed back: the list of free nodes is still empty. -/
theorem C26_abort_frees_no_node_after_31_allocs (fuel : Nat) :
    (allocNodes 31 (startMiniTransaction exLog)).map (fun r => r.2)
      = some ((List.range 31).reverse.map (fun i => 5120 + 256 * i)) ∧
    (allocNodesSt 31 (startMiniTransaction exLog)).nl_logbuf_.nl_log_wr_.next_ptr_
      = 4096 + 64 * 5 + 2 ∧
    (abortMiniTransaction (fuel + 1) (allocNodesSt 31 (startMiniTransaction exLog))).isExited = true ∧
    (abortMiniTransaction (fuel + 1) (allocNodesSt 31 (startMiniTransaction exLog))).freeOf = 0 := by
  rw [abort_stops fuel _ (by decide) (by decide)]
  decide

/-- C24, failing input: on a ring of four lines, two committed transactions
(`newVchar` of 56 and of 216 bytes) write 75 + 235 = 248 + 62 bytes: the
writer goes once around the ring and stops at byte 2 of line 1, whose byte 1
still holds the offset 9 of the round before.  In the next transaction
`redoWrite8B` changes nothing, but `abortMiniTransaction` takes that 9 for the
tag `NL_WRITE8B`; its reverse read stops at line 0, sealed under the other
version, without a byte read, and the undo uses the address and the old value
of a buffer that was never filled.  On the log fresh from `NvmLog::init` the
same abort exits on the zero byte 1 of line 0. -/
theorem C24_abort_of_redo_only_transaction (fuel : Nat) :
    (exTwoTx exLog4).nl_logbuf_.nl_log_wr_.next_ptr_ = 4096 + 64 + 2 ∧
    (exTwoTx exLog4).nl_logbuf_.mem (4096 + 64 + 1) = NL_WRITE8B ∧
    (redoWrite8B (startMiniTransaction (exTwoTx exLog4)) 16384 7).nl_logbuf_.nl_log_wr_
      = (exTwoTx exLog4).nl_logbuf_.nl_log_wr_ ∧
    (abortMiniTransaction (fuel + 1)
      (redoWrite8B (startMiniTransaction (exTwoTx exLog4)) 16384 7)).isUnrecorded = true ∧
    (abortMiniTransaction (fuel + 1)
      (redoWrite8B (startMiniTransaction exLog4) 16384 7)).isExited = true := by
  rw [abort_stops fuel _ (by decide) (by decide), abort_stops fuel _ (by decide) (by decide)]
  decide

end LBTree


namespace LBTree

/-! ## Logged writes and commit -/

theorem bytesLE_length (w v : Nat) : (bytesLE w v).length = w := by
  induction w generalizing v with
  | zero => rfl
  | succ n ih => simp [bytesLE, ih]

theorem leValue_bytesLE (w v : Nat) : leValue (bytesLE w v) = v % 2 ^ (8 * w) := by
  induction w generalizing v with
  | zero => simp [bytesLE, leValue, Nat.mod_one]
  | succ n ih =>
    simp only [bytesLE, leValue, ih]
    rw [Nat.mod_mod, show 8 * (n + 1) = 8 + 8 * n by ring, pow_add,
      show (2:Nat) ^ 8 = 256 by norm_num, Nat.mod_mul]

/-- A store outside the ring does not change what the ring holds. -/
theorem holds_store (lg : NvmLog_Log) (A L P0 v0 : Nat) (bytes : List Nat) (x : Nat)
    (bs : List Nat) (h : Holds lg A L P0 v0 bytes)
    (hx : x + bs.length ≤ A ∨ A + 64 * L ≤ x) :
    Holds { lg with mem := memcpyTo lg.mem x bs } A L P0 v0 bytes := by
  have hin : ∀ a, A ≤ a → a < A + 64 * L → memcpyTo lg.mem x bs a = lg.mem a := by
    intro a h1 h2
    apply memcpyTo_out
    omega
  obtain ⟨hP0, hb, ⟨hA, hL, hP, hv, ha, he, hnl, hxx, hve, hd⟩, hpay, hs⟩ := h
  refine ⟨hP0, hb, ⟨hA, hL, hP, hv, ha, he, hnl, hxx, hve, fun a h1 h2 h3 => ?_⟩, ?_,
    fun t ht h1 h2 => ?_⟩
  · show lg.durable a = memcpyTo lg.mem x bs a
    rw [hin a h1 h2]
    exact hd a h1 h2 h3
  · rw [payload_eq_iff] at hpay ⊢
    intro j hj
    show memcpyTo lg.mem x bs _ = _
    have hq := wrapC_lt (62 * L) (P0 + j) (by omega) (by omega)
    have := physAddr_line A (wrapC (62 * L) (P0 + j))
    rw [hin _ (by omega) (by omega)]
    exact hpay j hj
  · show checkByteOne (memcpyTo lg.mem x bs) _ _ = true
    rw [checkByteOne_congr _ lg.mem]
    · exact hs t ht h1 h2
    · intro i hi
      exact hin _ (by omega) (by omega)

theorem cursor_moved (A L P n : Nat) (hP : P < 62 * L) (h0 : 0 < n) (hn : n < 62 * L) :
    physAddr A (wrapC (62 * L) (P + n)) ≠ physAddr A P := by
  intro h
  have := physAddr_inj _ _ _ h
  unfold wrapC at this
  split_ifs at this <;> omega

/-- A transaction that has written the record `p` (flushed) and made a store
outside the ring, and has no redo write and no node to delete: what
`commitMiniTransaction` leaves. -/
theorem commit_after_record (s : NvmLog) (A L P v : Nat) (p : List Nat)
    (h : Holds s.nl_logbuf_ A L P v p) (hp0 : 0 < p.length) (hp : p.length + 1 < 62 * L)
    (htx : s.nl_log_tx_pos_.next_ptr_ = physAddr A P)
    (hr : s.nl_redo_rec_ = []) (hd : s.nl_node_to_del_ = []) :
    Holds (commitMiniTransaction s).nl_logbuf_ A L P v (p ++ [NL_COMMIT]) ∧
    (∀ a, (a < A ∨ A + 64 * L ≤ a) →
      (commitMiniTransaction s).nl_logbuf_.mem a = s.nl_logbuf_.mem a) ∧
    (∀ a, A ≤ a → a < A + 64 * L →
      (commitMiniTransaction s).nl_logbuf_.durable a = (commitMiniTransaction s).nl_logbuf_.mem a) ∧
    (commitMiniTransaction s).pool = s.pool := by
  have hcur : s.nl_logbuf_.nl_log_wr_.next_ptr_ = physAddr A (wrapC (62 * L) (P + p.length)) :=
    h.2.2.1.2.2.2.2.2.2.2.1
  have hne : isSameAsCurPos s.nl_logbuf_ s.nl_log_tx_pos_ = false := by
    unfold isSameAsCurPos
    rw [htx, hcur]
    exact beq_false_of_ne (cursor_moved A L P p.length h.1 hp0 (by omega)).symm
  have he : (commitMiniTransaction s).nl_logbuf_ = flushLog (writeLog s.nl_logbuf_ [NL_COMMIT]) ∧
      (commitMiniTransaction s).pool = s.pool := by
    unfold commitMiniTransaction commitApply commitLog
    simp only [hr, hd, List.foldl_nil, List.length_nil, gt_iff_lt, lt_self_iff_false, if_false,
      hne, if_true]
    trivial
  rw [he.1, he.2]
  obtain ⟨h1, h2⟩ := holds_writeLog _ A L P v p [NL_COMMIT] h (by simp only [List.length_singleton]; omega)
  obtain ⟨h3, h4, h5, _⟩ := holds_flushLog _ A L P v _ h1
    (by rw [List.length_append, List.length_singleton]; omega)
  exact ⟨h3, fun a ha => by rw [h4 a ha, h2 a ha], h5, rfl⟩

/-- The body of `write8B` .. `write1B` followed by `commitMiniTransaction`. -/
theorem writeNB_commit (tag w : Nat) (s : NvmLog) (A L P v x value : Nat)
    (hat : LogAt s.nl_logbuf_ A L P v) (hw : w ≤ 8)
    (hx : x + w ≤ A ∨ A + 64 * L ≤ x) :
    memcpyFrom (commitMiniTransaction (writeNB tag w (startMiniTransaction s) x value)).nl_logbuf_.mem
      x w = bytesLE w value ∧
    loadLE (commitMiniTransaction (writeNB tag w (startMiniTransaction s) x value)).nl_logbuf_.mem
      x w = value % 2 ^ (8 * w) ∧
    payload (commitMiniTransaction (writeNB tag w (startMiniTransaction s) x value)).nl_logbuf_.mem
      A (62 * L) P (1 + 8 + w + w + 1 + 1)
      = [tag] ++ bytesLE 8 x ++ memcpyFrom s.nl_logbuf_.mem x w ++ bytesLE w value ++ [tag]
        ++ [NL_COMMIT] ∧
    (∀ a, A ≤ a → a < A + 64 * L →
      (commitMiniTransaction (writeNB tag w (startMiniTransaction s) x value)).nl_logbuf_.durable a
      = (commitMiniTransaction (writeNB tag w (startMiniTransaction s) x value)).nl_logbuf_.mem a) := by
  have hL : 1 ≤ L := hat.2.1
  have hlen : ([tag] ++ bytesLE 8 x ++ memcpyFrom s.nl_logbuf_.mem x w ++ bytesLE w value
      ++ [tag]).length = 1 + 8 + w + w + 1 := by
    simp only [List.length_append, List.length_singleton, bytesLE_length, memcpyFrom_length]
  obtain ⟨h1, h2⟩ := holds_writeLog _ A L P v [] _ (holds_nil _ A L P v hat)
    (by rw [hlen, List.length_nil]; omega)
  rw [List.nil_append] at h1
  obtain ⟨h3, h4, _, _⟩ := holds_flushLog _ A L P v _ h1 (by rw [hlen]; omega)
  have h5 := holds_store _ A L P v _ x (bytesLE w value) h3 (by rw [bytesLE_length]; exact hx)
  have hst : (writeNB tag w (startMiniTransaction s) x value).nl_logbuf_ =
      { flushLog (writeLog s.nl_logbuf_ ([tag] ++ bytesLE 8 x ++ memcpyFrom s.nl_logbuf_.mem x w
          ++ bytesLE w value ++ [tag])) with
        mem := memcpyTo (flushLog (writeLog s.nl_logbuf_ ([tag] ++ bytesLE 8 x
          ++ memcpyFrom s.nl_logbuf_.mem x w ++ bytesLE w value ++ [tag]))).mem x (bytesLE w value) } :=
    rfl
  rw [← hst] at h5
  obtain ⟨c1, c2, c3, _⟩ := commit_after_record (writeNB tag w (startMiniTransaction s) x value)
    A L P v _ h5 (by rw [hlen]; omega) (by rw [hlen]; omega)
    (by show s.nl_logbuf_.nl_log_wr_.next_ptr_ = _; exact hat.2.2.2.2.2.2.2.1) rfl rfl
  have hm : memcpyFrom (commitMiniTransaction (writeNB tag w (startMiniTransaction s) x value)).nl_logbuf_.mem
      x w = bytesLE w value := by
    rw [memcpyFrom_congr _ (writeNB tag w (startMiniTransaction s) x value).nl_logbuf_.mem x w
      (fun i hi => c2 _ (by omega)), hst]
    have := memcpyFrom_memcpyTo (flushLog (writeLog s.nl_logbuf_ ([tag] ++ bytesLE 8 x
          ++ memcpyFrom s.nl_logbuf_.mem x w ++ bytesLE w value ++ [tag]))).mem x (bytesLE w value)
    rw [bytesLE_length] at this
    exact this
  refine ⟨hm, ?_, ?_, c3⟩
  · unfold loadLE
    rw [hm, leValue_bytesLE]
  · have := c1.2.2.2.1
    rw [List.length_append, hlen, List.length_singleton] at this
    exact this

end LBTree


namespace LBTree

/-- `writeVchar` followed by `commitMiniTransaction`. -/
theorem writeVchar_commit (s : NvmLog) (A L P v x : Nat) (value : List Nat)
    (hat : LogAt s.nl_logbuf_ A L P v) (hfit : 2 * value.length + 19 < 62 * L)
    (hx : x + value.length ≤ A ∨ A + 64 * L ≤ x) :
    memcpyFrom (commitMiniTransaction (writeVchar (startMiniTransaction s) x value)).nl_logbuf_.mem
      x value.length = value ∧
    payload (commitMiniTransaction (writeVchar (startMiniTransaction s) x value)).nl_logbuf_.mem
      A (62 * L) P (1 + 8 + 4 + value.length + value.length + 4 + 1 + 1)
      = [NL_WRITEVCHAR] ++ bytesLE 8 x ++ bytesLE 4 value.length
        ++ memcpyFrom s.nl_logbuf_.mem x value.length ++ value
        ++ bytesLE 4 value.length ++ [NL_WRITEVCHAR] ++ [NL_COMMIT] ∧
    (∀ a, A ≤ a → a < A + 64 * L →
      (commitMiniTransaction (writeVchar (startMiniTransaction s) x value)).nl_logbuf_.durable a
      = (commitMiniTransaction (writeVchar (startMiniTransaction s) x value)).nl_logbuf_.mem a) := by
  have hL : 1 ≤ L := hat.2.1
  obtain ⟨h1, f1⟩ := holds_writeLog _ A L P v [] ([NL_WRITEVCHAR] ++ bytesLE 8 x ++ bytesLE 4 value.length)
    (holds_nil _ A L P v hat)
    (by simp only [List.length_append, List.length_singleton, bytesLE_length, List.length_nil]; omega)
  rw [List.nil_append] at h1
  have hold : memcpyFrom (writeLog s.nl_logbuf_
      ([NL_WRITEVCHAR] ++ bytesLE 8 x ++ bytesLE 4 value.length)).mem x value.length
      = memcpyFrom s.nl_logbuf_.mem x value.length :=
    memcpyFrom_congr _ _ _ _ (fun i hi => f1 _ (by omega))
  obtain ⟨h2, _⟩ := holds_writeLog _ A L P v _ (memcpyFrom (writeLog s.nl_logbuf_
      ([NL_WRITEVCHAR] ++ bytesLE 8 x ++ bytesLE 4 value.length)).mem x value.length) h1
    (by simp only [List.length_append, List.length_singleton, bytesLE_length, memcpyFrom_length]; omega)
  obtain ⟨h3, _⟩ := holds_writeLog _ A L P v _ value h2
    (by simp only [List.length_append, List.length_singleton, bytesLE_length, memcpyFrom_length]; omega)
  obtain ⟨h4, _⟩ := holds_writeLog _ A L P v _ (bytesLE 4 value.length ++ [NL_WRITEVCHAR]) h3
    (by simp only [List.length_append, List.length_singleton, bytesLE_length, memcpyFrom_length]; omega)
  obtain ⟨h5, _, _, _⟩ := holds_flushLog _ A L P v _ h4
    (by simp only [List.length_append, List.length_singleton, bytesLE_length, memcpyFrom_length]; omega)
  have h6 := holds_store _ A L P v _ x value h5 hx
  have hst : (writeVchar (startMiniTransaction s) x value).nl_logbuf_ =
      { flushLog (writeLog (writeLog (writeLog (writeLog s.nl_logbuf_
          ([NL_WRITEVCHAR] ++ bytesLE 8 x ++ bytesLE 4 value.length))
          (memcpyFrom (writeLog s.nl_logbuf_
            ([NL_WRITEVCHAR] ++ bytesLE 8 x ++ bytesLE 4 value.length)).mem x value.length))
          value) (bytesLE 4 value.length ++ [NL_WRITEVCHAR])) with
        mem := memcpyTo (flushLog (writeLog (writeLog (writeLog (writeLog s.nl_logbuf_
          ([NL_WRITEVCHAR] ++ bytesLE 8 x ++ bytesLE 4 value.length))
          (memcpyFrom (writeLog s.nl_logbuf_
            ([NL_WRITEVCHAR] ++ bytesLE 8 x ++ bytesLE 4 value.length)).mem x value.length))
          value) (bytesLE 4 value.length ++ [NL_WRITEVCHAR]))).mem x value } := rfl
  rw [← hst, hold] at h6
  obtain ⟨c1, c2, c3, _⟩ := commit_after_record (writeVchar (startMiniTransaction s) x value)
    A L P v _ h6
    (by simp only [List.length_append, List.length_singleton, bytesLE_length, memcpyFrom_length]; omega)
    (by simp only [List.length_append, List.length_singleton, bytesLE_length, memcpyFrom_length]; omega)
    (by show s.nl_logbuf_.nl_log_wr_.next_ptr_ = _; exact hat.2.2.2.2.2.2.2.1) rfl rfl
  refine ⟨?_, ?_, c3⟩
  · rw [memcpyFrom_congr _ (writeVchar (startMiniTransaction s) x value).nl_logbuf_.mem x
      value.length (fun i hi => c2 _ (by omega)), hst]
    exact memcpyFrom_memcpyTo _ x value
  · have := c1.2.2.2.1
    simp only [List.length_append, List.length_singleton, bytesLE_length, memcpyFrom_length] at this
    simp only [List.append_assoc] at this ⊢
    exact this

/-- C23: for a log whose writer stands at payload position `P` of a ring of
`L` lines, and a location `x` outside the ring: after
`startMiniTransaction; write8B(x, value); commitMiniTransaction` (and in the
same way for `write4B`, `write2B`, `write1B` and `writeVchar`, as long as its
record fits in the ring) the location holds the new value, and the payload of
the ring from `P` on is one WRITE record (the tag, the address, the bytes that
were at `x` before the store, the new value, the tag) followed by the
`NL_COMMIT` byte; the ring is written back. -/
theorem C23_write_then_commit (s : NvmLog) (A L P v x value : Nat) (vchar : List Nat)
    (hat : LogAt s.nl_logbuf_ A L P v)
    (hx : x + 8 ≤ A ∨ A + 64 * L ≤ x)
    (hfit : 2 * vchar.length + 19 < 62 * L)
    (hxv : x + vchar.length ≤ A ∨ A + 64 * L ≤ x) :
    (loadLE (commitMiniTransaction (write8B (startMiniTransaction s) x value)).nl_logbuf_.mem x 8
        = value % 2 ^ 64 ∧
      payload (commitMiniTransaction (write8B (startMiniTransaction s) x value)).nl_logbuf_.mem
        A (62 * L) P 27
        = [NL_WRITE8B] ++ bytesLE 8 x ++ memcpyFrom s.nl_logbuf_.mem x 8 ++ bytesLE 8 value
          ++ [NL_WRITE8B] ++ [NL_COMMIT]) ∧
    (loadLE (commitMiniTransaction (write4B (startMiniTransaction s) x value)).nl_logbuf_.mem x 4
        = value % 2 ^ 32 ∧
      payload (commitMiniTransaction (write4B (startMiniTransaction s) x value)).nl_logbuf_.mem
        A (62 * L) P 19
        = [NL_WRITE4B] ++ bytesLE 8 x ++ memcpyFrom s.nl_logbuf_.mem x 4 ++ bytesLE 4 value
          ++ [NL_WRITE4B] ++ [NL_COMMIT]) ∧
    (loadLE (commitMiniTransaction (write2B (startMiniTransaction s) x value)).nl_logbuf_.mem x 2
        = value % 2 ^ 16 ∧
      payload (commitMiniTransaction (write2B (startMiniTransaction s) x value)).nl_logbuf_.mem
        A (62 * L) P 15
        = [NL_WRITE2B] ++ bytesLE 8 x ++ memcpyFrom s.nl_logbuf_.mem x 2 ++ bytesLE 2 value
          ++ [NL_WRITE2B] ++ [NL_COMMIT]) ∧
    (loadLE (commitMiniTransaction (write1B (startMiniTransaction s) x value)).nl_logbuf_.mem x 1
        = value % 2 ^ 8 ∧
      payload (commitMiniTransaction (write1B (startMiniTransaction s) x value)).nl_logbuf_.mem
        A (62 * L) P 13
        = [NL_WRITE1B] ++ bytesLE 8 x ++ memcpyFrom s.nl_logbuf_.mem x 1 ++ bytesLE 1 value
          ++ [NL_WRITE1B] ++ [NL_COMMIT]) ∧
    (memcpyFrom (commitMiniTransaction (writeVchar (startMiniTransaction s) x vchar)).nl_logbuf_.mem
        x vchar.length = vchar ∧
      payload (commitMiniTransaction (writeVchar (startMiniTransaction s) x vchar)).nl_logbuf_.mem
        A (62 * L) P (1 + 8 + 4 + vchar.length + vchar.length + 4 + 1 + 1)
        = [NL_WRITEVCHAR] ++ bytesLE 8 x ++ bytesLE 4 vchar.length
          ++ memcpyFrom s.nl_logbuf_.mem x vchar.length ++ vchar
          ++ bytesLE 4 vchar.length ++ [NL_WRITEVCHAR] ++ [NL_COMMIT]) := by
  obtain ⟨_, a1, a2, _⟩ := writeNB_commit NL_WRITE8B 8 s A L P v x value hat (by omega) hx
  obtain ⟨_, b1, b2, _⟩ := writeNB_commit NL_WRITE4B 4 s A L P v x value hat (by omega) (by omega)
  obtain ⟨_, c1, c2, _⟩ := writeNB_commit NL_WRITE2B 2 s A L P v x value hat (by omega) (by omega)
  obtain ⟨_, d1, d2, _⟩ := writeNB_commit NL_WRITE1B 1 s A L P v x value hat (by omega) (by omega)
  obtain ⟨e1, e2, _⟩ := writeVchar_commit s A L P v x vchar hat hfit hxv
  exact ⟨⟨a1, a2⟩, ⟨b1, b2⟩, ⟨c1, c2⟩, ⟨d1, d2⟩, ⟨e1, e2⟩⟩

end LBTree


namespace LBTree

theorem exLog_logAt : LogAt exLog.nl_logbuf_ 4096 16 0 0x80 := by
  obtain ⟨lg, h1, _⟩ := initLog_spec 16 (fun _ => 0) (fun _ => 0) ⟨4096, 2 ^ 20, 0⟩
    (by decide) (by decide) (by decide)
  have := (logAt_init 16 (fun _ => 0) (fun _ => 0) ⟨4096, 2 ^ 20, 0⟩ lg _ (by decide)
    (by decide) h1).1
  unfold exLog NvmLog.init
  rw [h1]
  exact this

/-- C23 on the log made by `NvmLog::init` with a ring of sixteen lines:
`write8B(16384, 0x28)` and the others, `writeVchar` with the four bytes
`GOOD`. -/
theorem C23_write_then_commit_witness :
    LogAt exLog.nl_logbuf_ 4096 16 0 0x80 ∧
    (16384 + 8 ≤ 4096 ∨ 4096 + 64 * 16 ≤ 16384) ∧
    2 * ([71, 79, 79, 68] : List Nat).length + 19 < 62 * 16 ∧
    (16384 + ([71, 79, 79, 68] : List Nat).length ≤ 4096 ∨ 4096 + 64 * 16 ≤ 16384) ∧
    loadLE (commitMiniTransaction (write8B (startMiniTransaction exLog) 16384 0x28)).nl_logbuf_.mem
      16384 8 = 0x28 % 2 ^ 64 ∧
    payload (commitMiniTransaction (write8B (startMiniTransaction exLog) 16384 0x28)).nl_logbuf_.mem
        4096 (62 * 16) 0 27
        = [NL_WRITE8B] ++ bytesLE 8 16384 ++ memcpyFrom exLog.nl_logbuf_.mem 16384 8
          ++ bytesLE 8 0x28 ++ [NL_WRITE8B] ++ [NL_COMMIT] :=
  ⟨exLog_logAt, Or.inr (by decide), by decide, Or.inr (by decide),
    (C23_write_then_commit exLog 4096 16 0 0x80 16384 0x28 [71, 79, 79, 68] exLog_logAt
      (Or.inr (by decide)) (by decide) (Or.inr (by decide))).1⟩

end LBTree


namespace LBTree

/-! ## C38: skipping is reading without the copy -/

/-- The loops of `readLogSkip` and `readLog` run in lockstep. -/
theorem skipLoop_eq_readLoop (lg : NvmLog_Log) :
    ∀ (fuel : Nat) (pos : nl_log_pointer_t) (len l num : Nat) (buf : List Nat),
    num = buf.length →
    skipLoop lg fuel pos len l num =
      ((readLoop lg fuel pos len l buf).1, (readLoop lg fuel pos len l buf).2.length) := by
  intro fuel
  induction fuel with
  | zero => intro pos len l num buf h; simp only [skipLoop, readLoop, h]
  | succ n ih =>
    intro pos len l num buf h
    unfold skipLoop readLoop
    by_cases hc : len > 0 ∧
        checkByteOne lg.mem (pos.nextline_ptr_ - CACHE_LINE_SIZE) pos.version_ = true
    · rw [if_pos hc, if_pos hc]
      have hlen : num + (if len < l then len else l)
          = (buf ++ memcpyFrom lg.mem pos.next_ptr_ (if len < l then len else l)).length := by
        rw [List.length_append, memcpyFrom_length, h]
      by_cases hn : pos.next_ptr_ + (if len < l then len else l) = pos.nextline_ptr_
      · simp only [hn, if_true]
        exact ih _ _ _ _ _ hlen
      · simp only [hn, if_false]
        exact ih _ _ _ _ _ hlen
    · rw [if_neg hc, if_neg hc, h]

/-- The loops of `readLogReverseSkip` and `readLogReverse` run in lockstep. -/
theorem skipRevLoop_eq_readRevLoop (lg : NvmLog_Log) :
    ∀ (fuel : Nat) (pos : nl_log_pointer_t) (len l num : Nat) (buf : List Nat),
    num = buf.length →
    skipRevLoop lg fuel pos len l num =
      ((readRevLoop lg fuel pos len l buf).1, (readRevLoop lg fuel pos len l buf).2.length) := by
  intro fuel
  induction fuel with
  | zero => intro pos len l num buf h; simp only [skipRevLoop, readRevLoop, h]
  | succ n ih =>
    intro pos len l num buf h
    unfold skipRevLoop readRevLoop
    by_cases hc : len > 0 ∧ checkByteOne lg.mem pos.nextline_ptr_ pos.version_ = true
    · rw [if_pos hc, if_pos hc]
      have hlen : num + (if len < l then len else l)
          = (memcpyFrom lg.mem (pos.next_ptr_ - (if len < l then len else l))
              (if len < l then len else l) ++ buf).length := by
        rw [List.length_append, memcpyFrom_length, h, Nat.add_comm]
      by_cases hn : pos.next_ptr_ - (if len < l then len else l) - 2 = pos.nextline_ptr_
      · simp only [hn, if_true]
        exact ih _ _ _ _ _ hlen
      · simp only [hn, if_false]
        exact ih _ _ _ _ _ hlen
    · rw [if_neg hc, if_neg hc, h]

/-- The number of bytes read never exceeds the request. -/
theorem readLoop_le (lg : NvmLog_Log) :
    ∀ (fuel : Nat) (pos : nl_log_pointer_t) (len l : Nat) (buf : List Nat),
    (readLoop lg fuel pos len l buf).2.length ≤ buf.length + len := by
  intro fuel
  induction fuel with
  | zero => intro pos len l buf; simp only [readLoop]; omega
  | succ n ih =>
    intro pos len l buf
    unfold readLoop
    by_cases hc : len > 0 ∧
        checkByteOne lg.mem (pos.nextline_ptr_ - CACHE_LINE_SIZE) pos.version_ = true
    · rw [if_pos hc]
      have hl1 : (if len < l then len else l) ≤ len := by split <;> omega
      by_cases hn : pos.next_ptr_ + (if len < l then len else l) = pos.nextline_ptr_
      · simp only [hn, if_true]
        refine le_trans (ih _ _ _ _) ?_
        rw [List.length_append, memcpyFrom_length]
        omega
      · simp only [hn, if_false]
        refine le_trans (ih _ _ _ _) ?_
        rw [List.length_append, memcpyFrom_length]
        omega
    · rw [if_neg hc]; show buf.length ≤ _; omega

/-- The number of bytes read backward never exceeds the request. -/
theorem readRevLoop_le (lg : NvmLog_Log) :
    ∀ (fuel : Nat) (pos : nl_log_pointer_t) (len l : Nat) (buf : List Nat),
    (readRevLoop lg fuel pos len l buf).2.length ≤ buf.length + len := by
  intro fuel
  induction fuel with
  | zero => intro pos len l buf; simp only [readRevLoop]; omega
  | succ n ih =>
    intro pos len l buf
    unfold readRevLoop
    by_cases hc : len > 0 ∧ checkByteOne lg.mem pos.nextline_ptr_ pos.version_ = true
    · rw [if_pos hc]
      have hl1 : (if len < l then len else l) ≤ len := by split <;> omega
      by_cases hn : pos.next_ptr_ - (if len < l then len else l) - 2 = pos.nextline_ptr_
      · simp only [hn, if_true]
        refine le_trans (ih _ _ _ _) ?_
        rw [List.length_append, memcpyFrom_length]
        omega
      · simp only [hn, if_false]
        refine le_trans (ih _ _ _ _) ?_
        rw [List.length_append, memcpyFrom_length]
        omega
    · rw [if_neg hc]; show buf.length ≤ _; omega

/-- The loop of `readLog` ends by its own test: from a position inside its
line, `len + 1` rounds are enough, and more rounds change nothing. -/
theorem readLoop_fuel (lg : NvmLog_Log) :
    ∀ (fuel k : Nat) (pos : nl_log_pointer_t) (len l : Nat) (buf : List Nat),
    (len = 0 ∨ pos.next_ptr_ + l = pos.nextline_ptr_) →
    len + (if l = 0 ∧ len > 0 then 1 else 0) ≤ fuel →
    readLoop lg (fuel + k) pos len l buf = readLoop lg fuel pos len l buf := by
  intro fuel
  induction fuel with
  | zero =>
    intro k pos len l buf _ hf
    have hl : len = 0 := by omega
    subst hl
    cases k with
    | zero => rfl
    | succ k =>
      rw [Nat.zero_add]
      simp only [readLoop]
      rw [if_neg (by omega)]
  | succ n ih =>
    intro k pos len l buf hinv hf
    have hk : n + 1 + k = (n + k) + 1 := by omega
    rw [hk]
    unfold readLoop
    by_cases hc : len > 0 ∧
        checkByteOne lg.mem (pos.nextline_ptr_ - CACHE_LINE_SIZE) pos.version_ = true
    · rw [if_pos hc, if_pos hc]
      have hinv' : pos.next_ptr_ + l = pos.nextline_ptr_ := by
        rcases hinv with h0 | h0
        · omega
        · exact h0
      by_cases hlt : len < l
      · have hn : ¬ pos.next_ptr_ + len = pos.nextline_ptr_ := by omega
        simp only [hlt, if_true, hn, if_false]
        rw [Nat.sub_self]
        exact ih k _ 0 _ _ (Or.inl rfl) (by simp)
      · simp only [hlt, if_false, hinv', if_true]
        apply ih k
        · right
          unfold readNextLine
          simp only [CACHE_LINE_SIZE]
          split <;> simp only
        · have : ¬ ((CACHE_LINE_SIZE - 2 = 0) ∧ len - l > 0) := by
            simp only [CACHE_LINE_SIZE]; omega
          rw [if_neg this]
          by_cases hl0 : l = 0
          · rw [if_pos ⟨hl0, hc.1⟩] at hf; omega
          · omega
    · rw [if_neg hc, if_neg hc]

/-- The loop of `readLogReverse` ends by its own test: in a ring of whole
lines, from a position inside its line, `len + 1` rounds are enough, and more
rounds change nothing. -/
theorem readRevLoop_fuel (lg : NvmLog_Log) (hA : lg.nl_log_area_ % 64 = 0)
    (hE : lg.nl_log_area_end_ % 64 = 0) (hAE : lg.nl_log_area_ < lg.nl_log_area_end_) :
    ∀ (fuel k : Nat) (pos : nl_log_pointer_t) (len l : Nat) (buf : List Nat),
    (len = 0 ∨ (pos.nextline_ptr_ + 2 + l = pos.next_ptr_ ∧ pos.nextline_ptr_ % 64 = 0)) →
    len + (if l = 0 ∧ len > 0 then 1 else 0) ≤ fuel →
    readRevLoop lg (fuel + k) pos len l buf = readRevLoop lg fuel pos len l buf := by
  intro fuel
  induction fuel with
  | zero =>
    intro k pos len l buf _ hf
    have hl : len = 0 := by omega
    subst hl
    cases k with
    | zero => rfl
    | succ k =>
      rw [Nat.zero_add]
      simp only [readRevLoop]
      rw [if_neg (by omega)]
  | succ n ih =>
    intro k pos len l buf hinv hf
    have hk : n + 1 + k = (n + k) + 1 := by omega
    rw [hk]
    unfold readRevLoop
    by_cases hc : len > 0 ∧ checkByteOne lg.mem pos.nextline_ptr_ pos.version_ = true
    · rw [if_pos hc, if_pos hc]
      obtain ⟨hinv1, hinv2⟩ : pos.nextline_ptr_ + 2 + l = pos.next_ptr_ ∧
          pos.nextline_ptr_ % 64 = 0 := by
        rcases hinv with h0 | h0
        · omega
        · exact h0
      by_cases hlt : len < l
      · have hn : ¬ pos.next_ptr_ - len - 2 = pos.nextline_ptr_ := by omega
        simp only [hlt, if_true, hn, if_false]
        rw [Nat.sub_self]
        exact ih k _ 0 _ _ (Or.inl rfl) (by simp)
      · have hn : pos.next_ptr_ - l - 2 = pos.nextline_ptr_ := by omega
        simp only [hlt, if_false, hn, if_true]
        apply ih k
        · right
          unfold readPrevLine
          simp only [CACHE_LINE_SIZE]
          split
          · simp only
            omega
          · simp only
            omega
        · have : ¬ ((CACHE_LINE_SIZE - 2 = 0) ∧ len - l > 0) := by
            simp only [CACHE_LINE_SIZE]; omega
          rw [if_neg this]
          by_cases hl0 : l = 0
          · rw [if_pos ⟨hl0, hc.1⟩] at hf; omega
          · omega
    · rw [if_neg hc, if_neg hc]

/-- A forward reader inside its line stays inside its line. -/
theorem readLoop_inline (lg : NvmLog_Log) :
    ∀ (fuel : Nat) (pos : nl_log_pointer_t) (len l : Nat) (buf : List Nat),
    (len = 0 ∨ pos.next_ptr_ + l = pos.nextline_ptr_) →
    pos.next_ptr_ ≤ pos.nextline_ptr_ ∧ pos.nextline_ptr_ ≤ pos.next_ptr_ + CACHE_LINE_SIZE →
    (readLoop lg fuel pos len l buf).1.next_ptr_ ≤ (readLoop lg fuel pos len l buf).1.nextline_ptr_ ∧
    (readLoop lg fuel pos len l buf).1.nextline_ptr_
      ≤ (readLoop lg fuel pos len l buf).1.next_ptr_ + CACHE_LINE_SIZE := by
  intro fuel
  induction fuel with
  | zero => intro pos len l buf _ hin; exact hin
  | succ n ih =>
    intro pos len l buf hinv hin
    unfold readLoop
    by_cases hc : len > 0 ∧
        checkByteOne lg.mem (pos.nextline_ptr_ - CACHE_LINE_SIZE) pos.version_ = true
    · rw [if_pos hc]
      have hinv' : pos.next_ptr_ + l = pos.nextline_ptr_ := by
        rcases hinv with h0 | h0
        · omega
        · exact h0
      by_cases hlt : len < l
      · have hn : ¬ pos.next_ptr_ + len = pos.nextline_ptr_ := by omega
        simp only [hlt, if_true, hn, if_false]
        rw [Nat.sub_self]
        apply ih _ 0 _ _ (Or.inl rfl)
        simp only [CACHE_LINE_SIZE] at hin ⊢
        omega
      · simp only [hlt, if_false, hinv', if_true]
        have hnl : (readNextLine lg { pos with next_ptr_ := pos.nextline_ptr_ }).next_ptr_ + 62
            = (readNextLine lg { pos with next_ptr_ := pos.nextline_ptr_ }).nextline_ptr_ := by
          unfold readNextLine
          simp only [CACHE_LINE_SIZE]
          split <;> simp only
        apply ih
        · right
          simp only [CACHE_LINE_SIZE]
          exact hnl
        · simp only [CACHE_LINE_SIZE]
          omega
    · rw [if_neg hc]; exact hin

/-- A backward reader inside its line, in a ring of whole lines, stays inside
its line. -/
theorem readRevLoop_inline (lg : NvmLog_Log) (hA : lg.nl_log_area_ % 64 = 0)
    (hE : lg.nl_log_area_end_ % 64 = 0) (hAE : lg.nl_log_area_ < lg.nl_log_area_end_) :
    ∀ (fuel : Nat) (pos : nl_log_pointer_t) (len l : Nat) (buf : List Nat),
    (len = 0 ∨ pos.nextline_ptr_ + 2 + l = pos.next_ptr_) →
    pos.nextline_ptr_ + 2 ≤ pos.next_ptr_ ∧ pos.next_ptr_ ≤ pos.nextline_ptr_ + CACHE_LINE_SIZE ∧
      pos.nextline_ptr_ % CACHE_LINE_SIZE = 0 →
    (readRevLoop lg fuel pos len l buf).1.nextline_ptr_ + 2
      ≤ (readRevLoop lg fuel pos len l buf).1.next_ptr_ ∧
    (readRevLoop lg fuel pos len l buf).1.next_ptr_
      ≤ (readRevLoop lg fuel pos len l buf).1.nextline_ptr_ + CACHE_LINE_SIZE ∧
    (readRevLoop lg fuel pos len l buf).1.nextline_ptr_ % CACHE_LINE_SIZE = 0 := by
  intro fuel
  induction fuel with
  | zero => intro pos len l buf _ hin; exact hin
  | succ n ih =>
    intro pos len l buf hinv hin
    unfold readRevLoop
    by_cases hc : len > 0 ∧ checkByteOne lg.mem pos.nextline_ptr_ pos.version_ = true
    · rw [if_pos hc]
      have hinv' : pos.nextline_ptr_ + 2 + l = pos.next_ptr_ := by
        rcases hinv with h0 | h0
        · omega
        · exact h0
      simp only [CACHE_LINE_SIZE] at hin
      by_cases hlt : len < l
      · have hn : ¬ pos.next_ptr_ - len - 2 = pos.nextline_ptr_ := by omega
        simp only [hlt, if_true, hn, if_false]
        rw [Nat.sub_self]
        apply ih _ 0 _ _ (Or.inl rfl)
        simp only [CACHE_LINE_SIZE]
        omega
      · have hn : pos.next_ptr_ - l - 2 = pos.nextline_ptr_ := by omega
        simp only [hlt, if_false, hn, if_true]
        have hpl : (readPrevLine lg { pos with next_ptr_ := pos.next_ptr_ - l }).nextline_ptr_ + 64
              = (readPrevLine lg { pos with next_ptr_ := pos.next_ptr_ - l }).next_ptr_ ∧
            (readPrevLine lg { pos with next_ptr_ := pos.next_ptr_ - l }).nextline_ptr_ % 64
              = 0 := by
          unfold readPrevLine
          simp only [CACHE_LINE_SIZE]
          split
          · simp only
            omega
          · simp only
            omega
        apply ih
        · right
          simp only [CACHE_LINE_SIZE]
          omega
        · simp only [CACHE_LINE_SIZE]
          omega
    · rw [if_neg hc]; exact hin

/-- C38. Skipping is reading without the copy.  In a ring of whole lines, for
a forward reader `pos` inside its line (`nextline_ptr_ - 64 <= next_ptr_ <=
nextline_ptr_`), a backward reader `rpos` inside its line (`nextline_ptr_ + 2
<= next_ptr_ <= nextline_ptr_ + 64`, `nextline_ptr_` a line start) and every
`int` length: `readLogSkip` returns the count and the position (version,
offset, both pointers) of `readLog`, and `readLogReverseSkip` those of
`readLogReverse`; each of the four returns at most `len`; when the current
line fails `checkByteOne` for the version of the reader, each returns 0 and
leaves the position as it was; each of the four loops ends by its own test
(more rounds change nothing); and the readers are inside their lines again
afterwards. -/
theorem C38_skip_is_read_without_copy (lg : NvmLog_Log) (pos rpos : nl_log_pointer_t)
    (len : Nat)
    (hA : lg.nl_log_area_ % CACHE_LINE_SIZE = 0) (hE : lg.nl_log_area_end_ % CACHE_LINE_SIZE = 0)
    (hAE : lg.nl_log_area_ < lg.nl_log_area_end_) (hlen : len < 2 ^ 31)
    (hin : pos.next_ptr_ ≤ pos.nextline_ptr_ ∧
      pos.nextline_ptr_ ≤ pos.next_ptr_ + CACHE_LINE_SIZE)
    (hrin : rpos.nextline_ptr_ + 2 ≤ rpos.next_ptr_ ∧
      rpos.next_ptr_ ≤ rpos.nextline_ptr_ + CACHE_LINE_SIZE ∧
      rpos.nextline_ptr_ % CACHE_LINE_SIZE = 0) :
    readLogSkip lg pos len = ((readLog lg pos len).1, (readLog lg pos len).2.length) ∧
    readLogReverseSkip lg rpos len
      = ((readLogReverse lg rpos len).1, (readLogReverse lg rpos len).2.length) ∧
    (readLog lg pos len).2.length ≤ len ∧ (readLogSkip lg pos len).2 ≤ len ∧
    (readLogReverse lg rpos len).2.length ≤ len ∧ (readLogReverseSkip lg rpos len).2 ≤ len ∧
    (checkByteOne lg.mem (pos.nextline_ptr_ - CACHE_LINE_SIZE) pos.version_ = false →
      readLog lg pos len = (pos, []) ∧ readLogSkip lg pos len = (pos, 0)) ∧
    (checkByteOne lg.mem rpos.nextline_ptr_ rpos.version_ = false →
      readLogReverse lg rpos len = (rpos, []) ∧ readLogReverseSkip lg rpos len = (rpos, 0)) ∧
    (∀ k, readLoop lg (len + 1 + k) pos len (pos.nextline_ptr_ - pos.next_ptr_) []
        = readLog lg pos len ∧
      skipLoop lg (len + 1 + k) pos len (pos.nextline_ptr_ - pos.next_ptr_) 0
        = readLogSkip lg pos len ∧
      readRevLoop lg (len + 1 + k) rpos len (rpos.next_ptr_ - rpos.nextline_ptr_ - 2) []
        = readLogReverse lg rpos len ∧
      skipRevLoop lg (len + 1 + k) rpos len (rpos.next_ptr_ - rpos.nextline_ptr_ - 2) 0
        = readLogReverseSkip lg rpos len) ∧
    ((readLog lg pos len).1.next_ptr_ ≤ (readLog lg pos len).1.nextline_ptr_ ∧
      (readLog lg pos len).1.nextline_ptr_
        ≤ (readLog lg pos len).1.next_ptr_ + CACHE_LINE_SIZE) ∧
    ((readLogReverse lg rpos len).1.nextline_ptr_ + 2 ≤ (readLogReverse lg rpos len).1.next_ptr_ ∧
      (readLogReverse lg rpos len).1.next_ptr_
        ≤ (readLogReverse lg rpos len).1.nextline_ptr_ + CACHE_LINE_SIZE ∧
      (readLogReverse lg rpos len).1.nextline_ptr_ % CACHE_LINE_SIZE = 0) := by
  have hA' : lg.nl_log_area_ % 64 = 0 := hA
  have hE' : lg.nl_log_area_end_ % 64 = 0 := hE
  have hr3 : rpos.nextline_ptr_ % 64 = 0 := hrin.2.2
  have h1 : readLogSkip lg pos len = ((readLog lg pos len).1, (readLog lg pos len).2.length) :=
    skipLoop_eq_readLoop lg _ _ _ _ _ [] rfl
  have h2 : readLogReverseSkip lg rpos len
      = ((readLogReverse lg rpos len).1, (readLogReverse lg rpos len).2.length) :=
    skipRevLoop_eq_readRevLoop lg _ _ _ _ _ [] rfl
  have h3 : (readLog lg pos len).2.length ≤ len := by
    have := readLoop_le lg (len + 1) pos len (pos.nextline_ptr_ - pos.next_ptr_) []
    simpa [readLog] using this
  have h4 : (readLogReverse lg rpos len).2.length ≤ len := by
    have := readRevLoop_le lg (len + 1) rpos len (rpos.next_ptr_ - rpos.nextline_ptr_ - 2) []
    simpa [readLogReverse] using this
  have hf : ∀ k, readLoop lg (len + 1 + k) pos len (pos.nextline_ptr_ - pos.next_ptr_) []
      = readLog lg pos len := by
    intro k
    refine readLoop_fuel lg (len + 1) k pos len _ [] (Or.inr (by omega)) ?_
    split <;> omega
  have hfr : ∀ k, readRevLoop lg (len + 1 + k) rpos len
      (rpos.next_ptr_ - rpos.nextline_ptr_ - 2) [] = readLogReverse lg rpos len := by
    intro k
    refine readRevLoop_fuel lg hA' hE' hAE (len + 1) k rpos len _ []
      (Or.inr ⟨by omega, hr3⟩) ?_
    split <;> omega
  refine ⟨h1, h2, h3, by rw [h1]; exact h3, h4, by rw [h2]; exact h4, ?_, ?_, ?_, ?_, ?_⟩
  · intro hc
    have hr : readLog lg pos len = (pos, []) := by
      unfold readLog readLoop
      rw [if_neg]
      rw [hc]
      simp
    refine ⟨hr, ?_⟩
    rw [h1, hr]
    rfl
  · intro hc
    have hr : readLogReverse lg rpos len = (rpos, []) := by
      unfold readLogReverse readRevLoop
      rw [if_neg]
      rw [hc]
      simp
    refine ⟨hr, ?_⟩
    rw [h2, hr]
    rfl
  · intro k
    refine ⟨hf k, ?_, hfr k, ?_⟩
    · have e := skipLoop_eq_readLoop lg (len + 1 + k) pos len
        (pos.nextline_ptr_ - pos.next_ptr_) 0 [] rfl
      rw [e, hf k, h1]
    · have e := skipRevLoop_eq_readRevLoop lg (len + 1 + k) rpos len
        (rpos.next_ptr_ - rpos.nextline_ptr_ - 2) 0 [] rfl
      rw [e, hfr k, h2]
  · exact readLoop_inline lg (len + 1) pos len _ [] (Or.inr (by omega)) hin
  · exact readRevLoop_inline lg hA' hE' hAE (len + 1) rpos len _ [] (Or.inr (by omega)) hrin

/-- C38 on a ring of four lines at 4096 in a memory of zeros (every line
passes `checkByteOne` for version 0): a forward reader at byte 2 of the first
line and a backward reader at byte 14 of the first line, 100 bytes. -/
theorem C38_skip_is_read_without_copy_witness :
    (4096 % CACHE_LINE_SIZE = 0 ∧ 4352 % CACHE_LINE_SIZE = 0 ∧ 4096 < 4352 ∧ 100 < 2 ^ 31 ∧
      (4098 ≤ 4160 ∧ 4160 ≤ 4098 + CACHE_LINE_SIZE) ∧
      (4096 + 2 ≤ 4110 ∧ 4110 ≤ 4096 + CACHE_LINE_SIZE ∧ 4096 % CACHE_LINE_SIZE = 0)) ∧
    readLogSkip ⟨fun _ => 0, fun _ => 0, 4096, 4352, ⟨0, 0, 4160, 4098⟩⟩ ⟨0, 0, 4160, 4098⟩ 100
      = ((readLog ⟨fun _ => 0, fun _ => 0, 4096, 4352, ⟨0, 0, 4160, 4098⟩⟩
            ⟨0, 0, 4160, 4098⟩ 100).1,
         (readLog ⟨fun _ => 0, fun _ => 0, 4096, 4352, ⟨0, 0, 4160, 4098⟩⟩
            ⟨0, 0, 4160, 4098⟩ 100).2.length) ∧
    readLogReverseSkip ⟨fun _ => 0, fun _ => 0, 4096, 4352, ⟨0, 0, 4160, 4098⟩⟩
        ⟨0, 0, 4096, 4110⟩ 100
      = ((readLogReverse ⟨fun _ => 0, fun _ => 0, 4096, 4352, ⟨0, 0, 4160, 4098⟩⟩
            ⟨0, 0, 4096, 4110⟩ 100).1,
         (readLogReverse ⟨fun _ => 0, fun _ => 0, 4096, 4352, ⟨0, 0, 4160, 4098⟩⟩
            ⟨0, 0, 4096, 4110⟩ 100).2.length) :=
  ⟨by decide,
   (C38_skip_is_read_without_copy ⟨fun _ => 0, fun _ => 0, 4096, 4352, ⟨0, 0, 4160, 4098⟩⟩
      ⟨0, 0, 4160, 4098⟩ ⟨0, 0, 4096, 4110⟩ 100 (by decide) (by decide) (by decide) (by decide)
      (by decide) (by decide)).1,
   (C38_skip_is_read_without_copy ⟨fun _ => 0, fun _ => 0, 4096, 4352, ⟨0, 0, 4160, 4098⟩⟩
      ⟨0, 0, 4160, 4098⟩ ⟨0, 0, 4096, 4110⟩ 100 (by decide) (by decide) (by decide) (by decide)
      (by decide) (by decide)).2.1⟩

/-- C38, the witness evaluated: on the ring of zeros the forward reader and
the forward skip both take all 100 bytes and end at byte 40 of the second
line; the backward reader and the backward skip take the 12 bytes of the
first line, go around the ring (the version flips to `0x80`) and stop at the
last line, which fails `checkByteOne` for that version. -/
theorem C38_witness_values :
    (readLog ⟨fun _ => 0, fun _ => 0, 4096, 4352, ⟨0, 0, 4160, 4098⟩⟩ ⟨0, 0, 4160, 4098⟩ 100).1
      = ⟨0, 0, 4224, 4200⟩ ∧
    readLogSkip ⟨fun _ => 0, fun _ => 0, 4096, 4352, ⟨0, 0, 4160, 4098⟩⟩ ⟨0, 0, 4160, 4098⟩ 100
      = (⟨0, 0, 4224, 4200⟩, 100) ∧
    (readLogReverse ⟨fun _ => 0, fun _ => 0, 4096, 4352, ⟨0, 0, 4160, 4098⟩⟩
      ⟨0, 0, 4096, 4110⟩ 100).1 = ⟨128, 0, 4288, 4352⟩ ∧
    readLogReverseSkip ⟨fun _ => 0, fun _ => 0, 4096, 4352, ⟨0, 0, 4160, 4098⟩⟩
      ⟨0, 0, 4096, 4110⟩ 100 = (⟨128, 0, 4288, 4352⟩, 12) := by
  decide

end LBTree


namespace LBTree

/-! ## `abortMiniTransaction` with the write cursor at byte 2 of a line, again -/

set_option maxRecDepth 100000

/-- C39, failing input: right after `NvmLog::init` (ring of sixteen lines at
4096) the write cursor stands at byte 2 of line 0.  `startMiniTransaction`
followed at once by `abortMiniTransaction` does not return: the end of the
scan is moved to the end of the ring by `reverseAdjustPtr`, the scan itself
starts at byte 2 of line 0, so the loop is entered and takes byte 1 of line 0,
which is 0, for a tag; the method calls `exit(1)`.  No ABORT byte is written:
byte 2 of line 0 is still 0 and the write cursor has not moved. -/
theorem C39_abort_of_empty_transaction_exits (fuel : Nat) :
    (startMiniTransaction exLog).nl_logbuf_.nl_log_wr_.next_ptr_ = 4096 + 2 ∧
    reverseAdjustPtr (startMiniTransaction exLog).nl_logbuf_
      (startMiniTransaction exLog).nl_log_tx_pos_.next_ptr_ = 4096 + 64 * 16 ∧
    (startMiniTransaction exLog).nl_logbuf_.mem (4096 + 1) = 0 ∧
    (abortMiniTransaction (fuel + 1) (startMiniTransaction exLog)).isExited = true ∧
    (abortMiniTransaction (fuel + 1) (startMiniTransaction exLog)).memOf (4096 + 2) = 0 := by
  rw [abort_stops fuel _ (by decide) (by decide)]
  decide

/-- C37, failing input: on the log made by `NvmLog::init`, the transaction
`write8B(16384, 5); new8B(16392, 7); new8B(16400, 9)` writes 26 + 18 + 18 = 62
bytes, so the write cursor ends at byte 2 of line 1.  `abortMiniTransaction`
takes byte 1 of line 1, which is 0, for the tag of the last record and calls
`exit(1)`: the NEW records are not skipped and the WRITE record before them
is not undone (location 16384 holds 5, not the 0 it held at the start). -/
theorem C37_abort_exits_after_write_and_two_new (fuel : Nat) :
    (new8B (new8B (write8B (startMiniTransaction exLog) 16384 5) 16392 7) 16400 9
      ).nl_logbuf_.nl_log_wr_.next_ptr_ = 4096 + 64 + 2 ∧
    loadLE (startMiniTransaction exLog).nl_logbuf_.mem 16384 8 = 0 ∧
    (abortMiniTransaction (fuel + 1)
      (new8B (new8B (write8B (startMiniTransaction exLog) 16384 5) 16392 7) 16400 9)
      ).isExited = true ∧
    loadLE ((abortMiniTransaction (fuel + 1)
      (new8B (new8B (write8B (startMiniTransaction exLog) 16384 5) 16392 7) 16400 9)).memOf)
      16384 8 = 5 := by
  rw [abort_stops fuel _ (by decide) (by decide)]
  decide

/-- Away from the start of a line the scan works: on the same log,
`new8B(16392, 7)` alone is skipped by `abortMiniTransaction`, which returns
with location 16392 still 7, and `write8B(16384, 5); new8B(16392, 7)` is
undone up to the NEW record: 16384 is 0 again and 16392 is still 7. -/
theorem abort_skips_new_inside_line :
    (abortMiniTransaction 3 (new8B (startMiniTransaction exLog) 16392 7)).isOk = true ∧
    loadLE ((abortMiniTransaction 3 (new8B (startMiniTransaction exLog) 16392 7)).memOf)
      16392 8 = 7 ∧
    (abortMiniTransaction 3
      (new8B (write8B (startMiniTransaction exLog) 16384 5) 16392 7)).isOk = true ∧
    loadLE ((abortMiniTransaction 3
      (new8B (write8B (startMiniTransaction exLog) 16384 5) 16392 7)).memOf) 16384 8 = 0 ∧
    loadLE ((abortMiniTransaction 3
      (new8B (write8B (startMiniTransaction exLog) 16384 5) 16392 7)).memOf) 16392 8 = 7 := by
  decide

end LBTree


namespace LBTree

/-! ## C33, C32: the memory pool -/

/-- Successive allocations return adjacent ranges that end inside the segment. -/
theorem allocSeq_spec : ∀ (sizes : List Nat) (m : mempool) (addrs : List Nat) (m1 : mempool),
    m.cur ≤ m.limit → mempool.allocSeq m sizes = some (addrs, m1) →
    addrs.length = sizes.length ∧ m1.cur = m.cur + sizes.sum ∧ m1.cur ≤ m.limit ∧
    m1.limit = m.limit ∧ m1.free_node = m.free_node ∧
    ∀ i, i < sizes.length → addrs.getD i 0 = m.cur + (sizes.take i).sum ∧
      addrs.getD i 0 + sizes.getD i 0 ≤ m.limit := by
  intro sizes
  induction sizes with
  | nil =>
    intro m addrs m1 hle h
    simp only [mempool.allocSeq, Option.some.injEq, Prod.mk.injEq] at h
    obtain ⟨e1, e2⟩ := h
    subst e1; subst e2
    exact ⟨rfl, by simp, hle, rfl, rfl, fun i hi => absurd hi (by simp)⟩
  | cons sz rest ih =>
    intro m addrs m1 _ h
    simp only [mempool.allocSeq] at h
    by_cases hfit : m.cur + sz ≤ m.limit
    · have ha : m.alloc sz = some (m.cur, { m with cur := m.cur + sz }) := by
        unfold mempool.alloc
        rw [if_pos hfit]
      rw [ha] at h
      simp only at h
      rcases hr : mempool.allocSeq { m with cur := m.cur + sz } rest with _ | ⟨l, m2⟩
      · rw [hr] at h; exact absurd h (by simp)
      · rw [hr] at h
        simp only [Option.some.injEq, Prod.mk.injEq] at h
        obtain ⟨e1, e2⟩ := h
        subst e1; subst e2
        obtain ⟨a1, a2, a3, a4, a5, a6⟩ := ih _ _ _ hfit hr
        refine ⟨by simp [a1], by rw [a2, List.sum_cons]; simp only; omega, a3, a4, a5, ?_⟩
        intro i hi
        cases i with
        | zero => simp; exact hfit
        | succ j =>
          have hj : j < rest.length := by simpa using hi
          obtain ⟨b1, b2⟩ := a6 j hj
          simp only [List.getD_cons_succ, List.take_succ_cons, List.sum_cons]
          exact ⟨by rw [b1]; simp only; omega, b2⟩
    · have ha : m.alloc sz = none := by
        unfold mempool.alloc
        rw [if_neg hfit]
      rw [ha] at h
      exact absurd h (by simp)

/-- The bump allocator without wrap-around (`mempool.alloc`, the code for a
request whose pointer sum stays inside the address space,
`alloc64_eq_alloc`): it succeeds exactly if `cursor + size <= end`; on success it returns
the old cursor and moves the cursor by `size`, leaving the end and the list of
freed nodes as they were; otherwise it is the fail-stop `exit(1)` (no pool
state follows).  Successive successful allocations from a pool just
initialised on `[start, start + sz)` return adjacent ranges inside
`[start, start + sz)`: allocation `i` returns `start + s_0 + .. + s_(i-1)`,
the next one starts where it ends, and the cursor ends at `start` plus the sum
of the sizes.  `free(p)` changes nothing. -/
theorem mempool_alloc_spec (m : mempool) (size p : Nat) (start sz : Nat) (sizes : List Nat) :
    ((m.alloc size).isSome = true ↔ m.cur + size ≤ m.limit) ∧
    (m.cur + size ≤ m.limit →
      m.alloc size = some (m.cur, ⟨m.cur + size, m.limit, m.free_node⟩)) ∧
    (¬ m.cur + size ≤ m.limit → m.alloc size = none) ∧
    (∀ addrs m1, mempool.allocSeq (mempool.init start sz) sizes = some (addrs, m1) →
      addrs.length = sizes.length ∧ m1.cur = start + sizes.sum ∧ m1.cur ≤ start + sz ∧
      ∀ i, i < sizes.length → start ≤ addrs.getD i 0 ∧
        addrs.getD i 0 = start + (sizes.take i).sum ∧
        addrs.getD i 0 + sizes.getD i 0 ≤ start + sz ∧
        (i + 1 < sizes.length → addrs.getD (i + 1) 0 = addrs.getD i 0 + sizes.getD i 0)) ∧
    m.free p = m := by
  refine ⟨?_, ?_, ?_, ?_, rfl⟩
  · unfold mempool.alloc
    by_cases h : m.cur + size ≤ m.limit
    · simp [h]
    · simp [h]
  · intro h
    unfold mempool.alloc
    rw [if_pos h]
  · intro h
    unfold mempool.alloc
    rw [if_neg h]
  · intro addrs m1 h
    obtain ⟨a1, a2, a3, _, _, a6⟩ := allocSeq_spec sizes (mempool.init start sz) addrs m1
      (by simp [mempool.init]) h
    refine ⟨a1, a2, a3, fun i hi => ?_⟩
    obtain ⟨b1, b2⟩ := a6 i hi
    have b1' : addrs.getD i 0 = start + (sizes.take i).sum := b1
    refine ⟨by omega, b1', b2, fun hi1 => ?_⟩
    obtain ⟨c1, _⟩ := a6 (i + 1) hi1
    have c1' : addrs.getD (i + 1) 0 = start + (sizes.take (i + 1)).sum := c1
    rw [c1', b1', List.sum_take_succ sizes i hi]
    rw [List.getD_eq_getElem sizes 0 hi]
    omega

/-- The bump allocator at a concrete input: three allocations of 256, 64 and
8 bytes from a pool of 1024 bytes at 4096 return 4096, 4352 and 4416, and a
request for 4096 bytes is refused. -/
theorem mempool_alloc_spec_instance :
    (mempool.alloc (mempool.init 4096 1024) 4096 = none) ∧
    (mempool.allocSeq (mempool.init 4096 1024) [256, 64, 8]).map (fun r => r.1)
      = some [4096, 4352, 4416] :=
  ⟨(mempool_alloc_spec (mempool.init 4096 1024) 4096 0 4096 1024 [256, 64, 8]).2.2.1
      (by decide),
   by decide⟩

/-- `mempool::alloc` on a request whose pointer sum does not wrap is the bump
allocator on unbounded addresses. -/
theorem alloc64_eq_alloc (m : mempool) (size : Nat) (h : m.cur + size < 2 ^ 64) :
    m.alloc64 size = m.alloc size := by
  unfold mempool.alloc64 mempool.alloc
  rw [Nat.mod_eq_of_lt h]

/-- `mempool::alloc` with the 64-bit pointer sum succeeds exactly if the
wrapped sum is at most the end, whatever the true sum is. -/
theorem alloc64_isSome (m : mempool) (size : Nat) :
    (m.alloc64 size).isSome = true ↔ (m.cur + size) % 2 ^ 64 ≤ m.limit := by
  unfold mempool.alloc64
  by_cases h : (m.cur + size) % 2 ^ 64 ≤ m.limit
  · simp [h]
  · simp [h]

/-- C33 (evaluation at the failing input).  On the pool made by
`init(8192, 1024)` (cursor 8192, end 9216) the request `alloc(2^64 - 256)`
does not fit, `cursor + size > end`, but the 64-bit pointer sum wraps to
`7936 <= end`: the call does not fail-stop, it returns 8192 and moves the
cursor back to 7936, below the start of the pool; the next `alloc(64)`
returns 7936, an address outside `[start, end)`. -/
theorem C33_alloc_accepts_wrapped_request :
    ¬ ((mempool.init 8192 1024).cur + (2 ^ 64 - 256) ≤ (mempool.init 8192 1024).limit) ∧
    (8192 + (2 ^ 64 - 256)) % 2 ^ 64 = 7936 ∧
    (mempool.init 8192 1024).alloc64 (2 ^ 64 - 256) = some (8192, ⟨7936, 9216, 0⟩) ∧
    (⟨7936, 9216, 0⟩ : mempool).alloc64 64 = some (7936, ⟨8000, 9216, 0⟩) ∧
    7936 < 8192 := by
  decide

/-- The link stored by `free_node(p)` is read back by the next `alloc_node`,
in every memory that still holds the 8 bytes at `p`. -/
theorem freeNode_alloc_node (m : mempool) (mem mem1 : Nat → Nat) (p size : Nat) (hp : p ≠ 0)
    (hm : m.free_node < 2 ^ 64)
    (hmem : ∀ i, i < 8 → mem1 (p + i) = (m.freeNode mem p).2 (p + i)) :
    (m.freeNode mem p).1.alloc_node mem1 size = some (p, m) := by
  unfold mempool.alloc_node
  have h1 : (m.freeNode mem p).1.free_node = p := rfl
  rw [h1, if_pos hp]
  have h2 : loadLE mem1 p 8 = m.free_node := by
    unfold loadLE
    rw [memcpyFrom_congr mem1 (m.freeNode mem p).2 p 8 hmem]
    have h3 : (m.freeNode mem p).2 = memcpyTo mem p (bytesLE 8 m.free_node) := rfl
    have h4 := memcpyFrom_memcpyTo mem p (bytesLE 8 m.free_node)
    rw [bytesLE_length] at h4
    rw [h3, h4, leValue_bytesLE]
    exact Nat.mod_eq_of_lt hm
  rw [h2]
  rfl

theorem freeAll_frame : ∀ (ps : List Nat) (r : mempool × (Nat → Nat)) (a : Nat),
    (∀ p ∈ ps, a < p ∨ p + 8 ≤ a) → (mempool.freeAll r ps).2 a = r.2 a := by
  intro ps
  induction ps with
  | nil => intro r a _; rfl
  | cons p ps ih =>
    intro r a h
    simp only [mempool.freeAll]
    rw [ih _ a (fun q hq => h q (List.mem_cons_of_mem _ hq))]
    have : (r.1.freeNode r.2 p).2 = memcpyTo r.2 p (bytesLE 8 r.1.free_node) := rfl
    rw [this, memcpyTo_out _ _ _ _ (by rw [bytesLE_length]; exact h p (List.mem_cons_self _ _))]

theorem allocMany_snoc (mem : Nat → Nat) (size : Nat) :
    ∀ (n : Nat) (m m1 m2 : mempool) (l : List Nat) (p : Nat),
    mempool.allocMany mem size n m = some (l, m1) → m1.alloc_node mem size = some (p, m2) →
    mempool.allocMany mem size (n + 1) m = some (l ++ [p], m2) := by
  intro n
  induction n with
  | zero =>
    intro m m1 m2 l p h1 h2
    simp only [mempool.allocMany, Option.some.injEq, Prod.mk.injEq] at h1
    obtain ⟨e1, e2⟩ := h1
    subst e1; subst e2
    simp only [mempool.allocMany, h2, List.nil_append]
  | succ n ih =>
    intro m m1 m2 l p h1 h2
    rw [mempool.allocMany] at h1
    rcases ha : m.alloc_node mem size with _ | ⟨q, m3⟩
    · rw [ha] at h1; exact absurd h1 (by simp)
    · rw [ha] at h1
      simp only at h1
      rcases hr : mempool.allocMany mem size n m3 with _ | ⟨l3, m4⟩
      · rw [hr] at h1; exact absurd h1 (by simp)
      · rw [hr] at h1
        simp only [Option.some.injEq, Prod.mk.injEq] at h1
        obtain ⟨e1, e2⟩ := h1
        subst e1; subst e2
        have := ih m3 m4 m2 l3 p hr h2
        rw [mempool.allocMany, ha]
        simp only [this, List.cons_append]

/-- Nodes freed one after the other come back last first. -/
theorem freeAll_allocMany (size : Nat) : ∀ (ps : List Nat) (m : mempool) (mem : Nat → Nat),
    (∀ p ∈ ps, p ≠ 0 ∧ p < 2 ^ 64) → m.free_node < 2 ^ 64 →
    ps.Pairwise (fun a b => a + 8 ≤ b ∨ b + 8 ≤ a) →
    mempool.allocMany (mempool.freeAll (m, mem) ps).2 size ps.length
      (mempool.freeAll (m, mem) ps).1 = some (ps.reverse, m) := by
  intro ps
  induction ps with
  | nil => intro m mem _ _ _; rfl
  | cons p ps ih =>
    intro m mem hps hm hdis
    obtain ⟨hd1, hd2⟩ := List.pairwise_cons.1 hdis
    have h1 := ih (m.freeNode mem p).1 (m.freeNode mem p).2
      (fun q hq => hps q (List.mem_cons_of_mem _ hq)) (hps p (List.mem_cons_self _ _)).2 hd2
    have h2 : (m.freeNode mem p).1.alloc_node
        (mempool.freeAll ((m.freeNode mem p).1, (m.freeNode mem p).2) ps).2 size = some (p, m) := by
      apply freeNode_alloc_node m mem _ p size (hps p (List.mem_cons_self _ _)).1 hm
      intro i hi
      apply freeAll_frame
      intro q hq
      have := hd1 q hq
      omega
    have h3 := allocMany_snoc _ size _ _ _ _ _ _ h1 h2
    simp only [mempool.freeAll, List.length_cons, List.reverse_cons]
    exact h3

/-- C32. The list of freed nodes of a pool is LIFO.  For a pool whose head of
the list is a pointer value and a non-null node address `p`: `free_node(p)`
changes only the 8 bytes at `p`, and the `alloc_node(size)` that follows
returns `p` and leaves the pool (cursor, end and head of the list) as it was
before.  After `free_node` of the non-null nodes `p1, .., pn` (pointer values,
the first 8 bytes of no two of them overlapping), `n` calls of `alloc_node`
return `pn, .., p1` and leave the pool as it was.  With an empty list
`alloc_node(size)` is `alloc(size)`. -/
theorem C32_free_list_is_lifo (m : mempool) (mem : Nat → Nat) (p size : Nat) (ps : List Nat)
    (hp : p ≠ 0) (hm : m.free_node < 2 ^ 64) (hps : ∀ q ∈ ps, q ≠ 0 ∧ q < 2 ^ 64)
    (hdis : ps.Pairwise (fun a b => a + 8 ≤ b ∨ b + 8 ≤ a)) :
    (m.freeNode mem p).1.alloc_node (m.freeNode mem p).2 size = some (p, m) ∧
    (∀ a, a < p ∨ p + 8 ≤ a → (m.freeNode mem p).2 a = mem a) ∧
    mempool.allocMany (mempool.freeAll (m, mem) ps).2 size ps.length
      (mempool.freeAll (m, mem) ps).1 = some (ps.reverse, m) ∧
    (m.free_node = 0 → m.alloc_node mem size = m.alloc size) := by
  refine ⟨freeNode_alloc_node m mem _ p size hp hm (fun _ _ => rfl), ?_,
    freeAll_allocMany size ps m mem hps hm hdis, ?_⟩
  · intro a ha
    have : (m.freeNode mem p).2 = memcpyTo mem p (bytesLE 8 m.free_node) := rfl
    rw [this, memcpyTo_out _ _ _ _ (by rw [bytesLE_length]; exact ha)]
  · intro h0
    unfold mempool.alloc_node
    rw [if_neg (by rw [h0]; simp)]

/-- C32 at a concrete input: in a pool at 4096 with an empty list, the nodes
4096, 4352 and 4608 are freed in this order and come back as 4608, 4352, 4096. -/
theorem C32_free_list_is_lifo_witness :
    (mempool.allocMany (mempool.freeAll (⟨5120, 8192, 0⟩, fun _ => 0) [4096, 4352, 4608]).2 256 3
      (mempool.freeAll (⟨5120, 8192, 0⟩, fun _ => 0) [4096, 4352, 4608]).1)
      = some ([4608, 4352, 4096], ⟨5120, 8192, 0⟩) :=
  (C32_free_list_is_lifo ⟨5120, 8192, 0⟩ (fun _ => 0) 4096 256 [4096, 4352, 4608]
    (by decide) (by decide) (by decide) (by decide)).2.2.1

end LBTree


namespace LBTree

/-! ## C36: `qsortBleaf` ends and sorts -/

/-- The loop `while ((l<r) && (p->k(pos[r])>key)) r--` ends by its own test
within `r - l` rounds. -/
theorem scanDown_fuel (p : bleaf) (pos : List Nat) (key : Int) (l : Int) :
    ∀ (fuel k : Nat) (r : Int), (r - l).toNat ≤ fuel →
    scanDown p pos key l (fuel + k) r = scanDown p pos key l fuel r := by
  intro fuel
  induction fuel with
  | zero =>
    intro k r h
    cases k with
    | zero => rfl
    | succ k =>
      rw [Nat.zero_add]
      simp only [scanDown]
      rw [if_neg (by omega)]
  | succ n ih =>
    intro k r h
    have hk : n + 1 + k = (n + k) + 1 := by omega
    rw [hk]
    simp only [scanDown]
    by_cases hc : l < r ∧ p.k (posAt pos r) > key
    · rw [if_pos hc, if_pos hc]
      exact ih k (r - 1) (by omega)
    · rw [if_neg hc, if_neg hc]

/-- The loop `while ((l<r) && (p->k(pos[l])<=key)) l++` ends by its own test
within `r - l` rounds. -/
theorem scanUp_fuel (p : bleaf) (pos : List Nat) (key : Int) (r : Int) :
    ∀ (fuel k : Nat) (l : Int), (r - l).toNat ≤ fuel →
    scanUp p pos key r (fuel + k) l = scanUp p pos key r fuel l := by
  intro fuel
  induction fuel with
  | zero =>
    intro k l h
    cases k with
    | zero => rfl
    | succ k =>
      rw [Nat.zero_add]
      simp only [scanUp]
      rw [if_neg (by omega)]
  | succ n ih =>
    intro k l h
    have hk : n + 1 + k = (n + k) + 1 := by omega
    rw [hk]
    simp only [scanUp]
    by_cases hc : l < r ∧ p.k (posAt pos l) ≤ key
    · rw [if_pos hc, if_pos hc]
      exact ih k (l + 1) (by omega)
    · rw [if_neg hc, if_neg hc]

/-- The partition loop ends by its own test within `r - l` rounds. -/
theorem partitionLoop_fuel (p : bleaf) (key : Int) (v : Nat) (a b : Int) (pos0 : List Nat)
    (ha : 0 ≤ a) (hb : b.toNat < pos0.length) :
    ∀ (fuel k : Nat) (l r : Int) (pos : List Nat), (r - l).toNat ≤ fuel →
    PartInv p key v a b pos0 pos l r →
    partitionLoop p key (fuel + k) l r pos = partitionLoop p key fuel l r pos := by
  intro fuel
  induction fuel with
  | zero =>
    intro k l r pos hf inv
    have hlr : ¬ l < r := by omega
    cases k with
    | zero => rfl
    | succ k =>
      rw [Nat.zero_add]
      simp only [partitionLoop]
      rw [if_neg hlr]
  | succ n ih =>
    intro k l r pos hf inv
    have hk : n + 1 + k = (n + k) + 1 := by omega
    rw [hk]
    by_cases hlr : l < r
    · obtain ⟨l2, r2, pos2, heq, inv2, hlt⟩ :=
        partition_round p key v a b pos0 pos l r ha hb hlr inv
      rw [partitionLoop_succ p key n l r pos hlr, partitionLoop_succ p key (n + k) l r pos hlr]
      simp only [Prod.mk.injEq] at heq
      obtain ⟨e1, e2, e3⟩ := heq
      subst e1 e2 e3
      exact ih k _ _ _ (by omega) inv2
    · simp only [partitionLoop]
      rw [if_neg hlr, if_neg hlr]

/-- The recursion of `qsortBleaf` on `pos[a..b]` is at most `b - a + 1` deep:
more depth changes nothing. -/
theorem qsortBleaf_fuel (p : bleaf) : ∀ (fuel k : Nat) (a b : Int) (pos0 : List Nat),
    0 ≤ a → b.toNat < pos0.length → (b - a + 1).toNat ≤ fuel →
    qsortBleaf p (fuel + k) a b pos0 = qsortBleaf p fuel a b pos0 := by
  intro fuel
  induction fuel with
  | zero =>
    intro k a b pos0 _ _ hf
    have hab : a ≥ b := by omega
    cases k with
    | zero => rfl
    | succ k =>
      rw [Nat.zero_add]
      simp only [qsortBleaf]
      rw [if_pos hab]
  | succ n ih =>
    intro k a b pos0 ha hb hf
    have hk : n + 1 + k = (n + k) + 1 := by omega
    rw [hk]
    by_cases hab : a ≥ b
    · simp only [qsortBleaf]
      rw [if_pos hab, if_pos hab]
    · rw [qsortBleaf_succ p n a b pos0 hab, qsortBleaf_succ p (n + k) a b pos0 hab]
      have inv := partitionLoop_spec p (p.k (posAt pos0 a)) (posAt pos0 a) a b pos0 ha hb
        (b - a).toNat a b pos0 (le_refl _) (partInv_init p _ a b pos0 (by omega))
      generalize partitionLoop p (p.k (posAt pos0 a)) (b - a).toNat a b pos0 = res at inv
      obtain ⟨l, pos1⟩ := res
      simp only at inv ⊢
      obtain ⟨i1, _, i3, ilen, _⟩ := inv
      have hlen2 : (pos1.set l.toNat (posAt pos0 a)).length = pos0.length := by simp [ilen]
      rw [ih k a (l - 1) _ ha (by rw [hlen2]; omega) (by omega)]
      have L := qsortBleaf_spec p n a (l - 1) (pos1.set l.toNat (posAt pos0 a)) ha
        (by rw [hlen2]; omega) (by omega)
      exact ih k (l + 1) b _ (by omega) (by rw [L.1, hlen2]; exact hb) (by omega)

/-- C36. `qsortBleaf(p, 0, 13, pos)` with `pos` the identity on `0..13`, for
every leaf image (whatever keys the fourteen slots hold, equal keys included):
the recursion is at most fourteen deep and every loop ends by its own test
(more rounds change nothing), and the resulting `pos` is a permutation of
`0..13` along which the keys ascend, `k(pos[0]) <= k(pos[1]) <= .. <= k(pos[13])`. -/
theorem C36_qsortBleaf_sorts (lp : bleaf) (k : Nat) :
    qsortBleaf lp (14 + k) 0 13 (List.range 14) = qsortBleaf lp 14 0 13 (List.range 14) ∧
    (qsortBleaf lp 14 0 13 (List.range 14)).Perm (List.range 14) ∧
    ∀ i j : Nat, i ≤ j → j ≤ 13 →
      lp.k ((qsortBleaf lp 14 0 13 (List.range 14)).getD i 0)
        ≤ lp.k ((qsortBleaf lp 14 0 13 (List.range 14)).getD j 0) := by
  have hfuel := qsortBleaf_fuel lp 14 k 0 13 (List.range 14) (le_refl _) (by simp) (by decide)
  obtain ⟨hlen, _, _, _, _⟩ :=
    qsortBleaf_spec lp 14 0 13 (List.range 14) (le_refl _) (by simp) (by decide)
  obtain ⟨h1, h2, h3, h4⟩ := sorted_pos_spec lp
  generalize qsortBleaf lp 14 0 13 (List.range 14) = sp at hlen h1 h2 h3 h4 hfuel
  have hl14 : sp.length = 14 := by rw [hlen]; simp
  have hget : ∀ i : Nat, i < 14 → posAt sp (i : Int) = sp.getD i 0 := by
    intro i _
    simp [posAt]
  refine ⟨hfuel, ?_, ?_⟩
  · have hnd : sp.Nodup := by
      rw [List.nodup_iff_injective_get]
      intro x y hxy
      have hx : (x : Nat) < 14 := by have := x.isLt; omega
      have hy : (y : Nat) < 14 := by have := y.isLt; omega
      have e : posAt sp ((x : Nat) : Int) = posAt sp ((y : Nat) : Int) := by
        rw [hget _ hx, hget _ hy, List.getD_eq_getElem sp 0 x.isLt, List.getD_eq_getElem sp 0 y.isLt]
        exact hxy
      have := h4 _ _ (by omega) (by omega) (by omega) (by omega) e
      exact Fin.ext (by omega)
    rw [List.perm_ext_iff_of_nodup hnd (List.nodup_range 14)]
    intro a
    rw [List.mem_range]
    constructor
    · intro ha
      obtain ⟨i, hi, e⟩ := List.getElem_of_mem ha
      have hi14 : i < 14 := by omega
      have := h1 (i : Int) (by omega) (by omega)
      rw [hget i hi14, List.getD_eq_getElem sp 0 hi, e] at this
      exact this
    · intro ha
      obtain ⟨i, g1, g2, g3⟩ := h2 a ha
      have hi : i.toNat < sp.length := by omega
      have : sp.getD i.toNat 0 = a := g3
      rw [List.getD_eq_getElem sp 0 hi] at this
      rw [← this]
      exact List.getElem_mem _
  · intro i j hij hj
    have := h3 (i : Int) (j : Int) (by omega) (by omega) (by omega)
    rw [hget i (by omega), hget j (by omega)] at this
    exact this

end LBTree


namespace LBTree

/-! ## C35: the level at which the subtrees of the workers are stitched -/

theorem ceiling_mono (x y d : Nat) (h : x ≤ y) : ceiling x d ≤ ceiling y d := by
  unfold ceiling
  exact Nat.div_le_div_right (by omega)

/-- The loop that counts the levels returns the level it was entered with or a higher one. -/
theorem countLevels_ge (nf tl : Nat) : ∀ (fuel i : Nat) (n : Nat → Nat) (top : Nat), top ≤ i →
    top ≤ (countLevels nf tl fuel i n top).2 := by
  intro fuel
  induction fuel with
  | zero => intro i n top _; exact le_refl _
  | succ m ih =>
    intro i n top h
    unfold countLevels
    split
    · exact le_trans h (ih (i + 1) _ i (by omega))
    · exact le_refl _

/-- More nodes at a level give at least as many levels above it. -/
theorem countLevels_mono (nf tl : Nat) : ∀ (fuel i : Nat) (nA nB : Nat → Nat) (top : Nat),
    top ≤ i → nA (i - 1) ≤ nB (i - 1) →
    (countLevels nf tl fuel i nA top).2 ≤ (countLevels nf tl fuel i nB top).2 := by
  intro fuel
  induction fuel with
  | zero => intro i nA nB top _ _; exact le_refl _
  | succ m ih =>
    intro i nA nB top htop h
    unfold countLevels
    by_cases hA : nA (i - 1) > 1 ∧ i ≤ tl
    · have hB : nB (i - 1) > 1 ∧ i ≤ tl := ⟨by omega, hA.2⟩
      rw [if_pos hA, if_pos hB]
      apply ih (i + 1) _ _ i (by omega)
      simp only [Nat.add_sub_cancel, if_true]
      exact ceiling_mono _ _ _ h
    · rw [if_neg hA]
      by_cases hB : nB (i - 1) > 1 ∧ i ≤ tl
      · rw [if_pos hB]
        exact le_trans htop (countLevels_ge nf tl m (i + 1) _ i (by omega))
      · rw [if_neg hB]

/-- The top level returned by `bulkloadSubtree` is the one counted in step 2. -/
theorem bulkloadSubtree_top (s : State) (input : Nat → Int) (start_key num_key f nf tl : Nat)
    (garbage : bleafMeta) (out : BldOut)
    (h : bulkloadSubtree s input start_key num_key f nf tl garbage = some out) :
    out.top_level =
      (countLevels nf tl tl 1 (fun x => if x = 0 then ceiling num_key f else 0) 0).2 := by
  have hfit := bulkloadSubtree_fits s input start_key num_key f nf tl garbage out h
  unfold bulkloadSubtree at h
  rw [if_neg hfit] at h
  simp only at h
  split at h
  · exact absurd h (by simp)
  · split at h
    · exact absurd h (by simp)
    · simp only [Option.some.injEq] at h
      subst h
      rfl

/-- Every worker that ran has the top level counted from its number of keys. -/
theorem runWorkers_top (input : Nat → Int) (keynum nt f nf : Nat) (garbage : bleafMeta) :
    ∀ (fuel i : Nat) (ps ps' : ParState), i + fuel = nt →
    (∀ w, w < i → (ps.bta w).top_level =
      (countLevels nf 31 31 1 (fun x => if x = 0 then ceiling (workerKeys keynum nt w) f else 0)
        0).2) →
    runWorkers input keynum nt f nf garbage fuel i ps = some ps' →
    ∀ w, w < nt → (ps'.bta w).top_level =
      (countLevels nf 31 31 1 (fun x => if x = 0 then ceiling (workerKeys keynum nt w) f else 0)
        0).2 := by
  intro fuel
  induction fuel with
  | zero =>
    intro i ps ps' hi hdone hr
    simp only [runWorkers, Option.some.injEq] at hr
    subst hr
    intro w hw
    exact hdone w (by omega)
  | succ n ih =>
    intro i ps ps' hi hdone hr
    have hint : i < nt := by omega
    unfold runWorkers at hr
    simp only [hint, if_true] at hr
    split at hr
    · exact absurd hr (by simp)
    · rename_i out hout
      have htop := bulkloadSubtree_top _ _ _ _ _ _ _ _ _ hout
      apply ih (i + 1) _ ps' (by omega) _ hr
      intro w hw
      by_cases hwi : w = i
      · subst hwi
        simp only [if_true]
        exact htop
      · simp only [hwi, if_false]
        exact hdone w (by omega)

theorem workerKeys_first_le (keynum nt w : Nat) (hnt : 1 ≤ nt) :
    workerKeys keynum nt 0 ≤ workerKeys keynum nt w := by
  have h2 : nt * (keynum / nt) ≤ keynum := Nat.mul_div_le keynum nt
  have h3 : (nt - 1) * (keynum / nt) + keynum / nt = nt * (keynum / nt) := by
    have : (nt - 1 + 1) * (keynum / nt) = nt * (keynum / nt) := by
      congr 1; omega
    rw [← this, Nat.add_mul, Nat.one_mul]
  unfold workerKeys
  split <;> split <;> omega

/-- C35. In a bulk load with several workers, once every worker has built its
subtree, the level used to stitch the subtrees, `bta[0].top_level`, is at
most the top level of every worker, so it is the minimum of them: the top
level counted by `bulkloadSubtree` does not decrease when `num_key` grows, and
worker 0 has the fewest keys (only the last worker gets more). -/
theorem C35_stitch_level_is_min (input : Nat → Int) (keynum nt f nf : Nat) (garbage : bleafMeta)
    (ps ps' : ParState) (hnt : 1 ≤ nt) (hf : 1 ≤ f) (hnf : 1 ≤ nf)
    (hr : runWorkers input keynum nt f nf garbage nt 0 ps = some ps') (i : Nat) (hi : i < nt) :
    (ps'.bta 0).top_level ≤ (ps'.bta i).top_level ∧
    (∀ n1 n2, n1 ≤ n2 →
      (countLevels nf 31 31 1 (fun x => if x = 0 then ceiling n1 f else 0) 0).2 ≤
      (countLevels nf 31 31 1 (fun x => if x = 0 then ceiling n2 f else 0) 0).2) ∧
    workerKeys keynum nt 0 ≤ workerKeys keynum nt i := by
  have hmono : ∀ n1 n2, n1 ≤ n2 →
      (countLevels nf 31 31 1 (fun x => if x = 0 then ceiling n1 f else 0) 0).2 ≤
      (countLevels nf 31 31 1 (fun x => if x = 0 then ceiling n2 f else 0) 0).2 := by
    intro n1 n2 h
    apply countLevels_mono nf 31 31 1 _ _ 0 (by omega)
    simp only [Nat.sub_self, if_true]
    exact ceiling_mono _ _ _ h
  have htop := runWorkers_top input keynum nt f nf garbage nt 0 ps ps' (by omega)
    (fun w hw => absurd hw (by omega)) hr
  refine ⟨?_, hmono, workerKeys_first_le keynum nt i hnt⟩
  rw [htop 0 (by omega), htop i hi]
  exact hmono _ _ (workerKeys_first_le keynum nt i hnt)

set_option maxRecDepth 100000 in
/-- C35 at a concrete input: two workers on the 22 keys `1 .. 22` at fill 1.0. -/
theorem C35_stitch_level_is_min_witness :
    ∃ ps', runWorkers (fun i => 1 + (i : Int)) 22 2 14 15 exGarbage 2 0 exPar = some ps' ∧
      (ps'.bta 0).top_level ≤ (ps'.bta 1).top_level := by
  have hsome : (runWorkers (fun i => 1 + (i : Int)) 22 2 14 15 exGarbage 2 0 exPar).isSome
      = true := by decide
  rcases hr : runWorkers (fun i => 1 + (i : Int)) 22 2 14 15 exGarbage 2 0 exPar with _ | ps'
  · rw [hr] at hsome; exact absurd hsome (by simp)
  · exact ⟨ps', rfl, (C35_stitch_level_is_min (fun i => 1 + (i : Int)) 22 2 14 15 exGarbage
      exPar ps' (by decide) (by decide) (by decide) hr 1 (by decide)).1⟩

end LBTree


namespace LBTree

/-! ## C31: the offset byte of a sealed line -/

/-- `completeLine2Log` stores the writer's `offset_` into byte 1 of the line it seals. -/
theorem completeLine2Log_off (lg : NvmLog_Log) :
    (completeLine2Log lg).mem (lg.nl_log_wr_.nextline_ptr_ - CACHE_LINE_SIZE + 1)
      = lg.nl_log_wr_.offset_ := by
  have hmem : (completeLine2Log lg).mem =
      setByteOne (memcpyTo lg.mem (lg.nl_log_wr_.nextline_ptr_ - CACHE_LINE_SIZE + 1)
        [lg.nl_log_wr_.offset_])
        (lg.nl_log_wr_.nextline_ptr_ - CACHE_LINE_SIZE) lg.nl_log_wr_.version_ := by
    unfold completeLine2Log
    simp only [clwb]
    split <;> rfl
  rw [hmem]
  unfold setByteOne
  rw [memcpyTo_one_other _ _ _ _ (by omega), memcpyTo_one_same]

theorem completeLine2Log_offset_zero (lg : NvmLog_Log) :
    (completeLine2Log lg).nl_log_wr_.offset_ = 0 := by
  unfold completeLine2Log
  simp only [clwb]
  split <;> rfl

/-- One iteration of the loop of `writeLog`, seen from the offset bytes: byte 1
of the line filled gets the writer's `offset_`, which is reset, and byte 1 of
every other line is left alone. -/
theorem fillLine_off (A L : Nat) (lg : NvmLog_Log) (rec : List Nat) (P v l : Nat)
    (hat : LogAt lg A L P v) (hl : l = 62 - P % 62) (hc : rec.length ≥ l) :
    (completeLine2Log { lg with mem := memcpyTo lg.mem lg.nl_log_wr_.next_ptr_ (rec.take l) }
      ).nl_log_wr_.offset_ = 0 ∧
    (completeLine2Log { lg with mem := memcpyTo lg.mem lg.nl_log_wr_.next_ptr_ (rec.take l) }
      ).mem (A + 64 * (P / 62) + 1) = lg.nl_log_wr_.offset_ ∧
    (∀ t, t ≠ P / 62 →
      (completeLine2Log { lg with mem := memcpyTo lg.mem lg.nl_log_wr_.next_ptr_ (rec.take l) }
        ).mem (A + 64 * t + 1) = lg.mem (A + 64 * t + 1)) := by
  obtain ⟨_, _, f3, _⟩ := fillLine_spec A L lg rec P v l hat hl hc
  obtain ⟨hA, hL, hP, hv, ha, he, hnl, hx, hve, hd⟩ := hat
  have hline : lg.nl_log_wr_.nextline_ptr_ - CACHE_LINE_SIZE = A + 64 * (P / 62) := by
    rw [hnl]; simp only [CACHE_LINE_SIZE]; omega
  refine ⟨completeLine2Log_offset_zero _, ?_, ?_⟩
  · have := completeLine2Log_off
      { lg with mem := memcpyTo lg.mem lg.nl_log_wr_.next_ptr_ (rec.take l) }
    simp only [hline] at this
    exact this
  · intro t ht
    apply f3
    · unfold physAddr
      rcases Nat.lt_or_gt_of_ne ht with h | h
      · left
        have : 64 * t + 64 ≤ 64 * (P / 62) := by omega
        omega
      · right
        have : 64 * (P / 62) + 64 ≤ 64 * t := by omega
        omega
    · omega
    · omega

theorem modM_add (M Q x : Nat) (h : Q % M + x < M) : (Q + x) % M = Q % M + x := by
  have e : (Q + x) % M = (Q % M + x) % M := by
    conv_lhs => rw [← Nat.div_add_mod Q M, Nat.add_assoc, Nat.mul_add_mod]
  rw [e, Nat.mod_eq_of_lt h]

theorem modM_add_eq (M Q x : Nat) (h : Q % M + x = M) : (Q + x) % M = 0 := by
  have e : (Q + x) % M = (Q % M + x) % M := by
    conv_lhs => rw [← Nat.div_add_mod Q M, Nat.add_assoc, Nat.mul_add_mod]
  rw [e, h, Nat.mod_self]

theorem ring_mod (L Q : Nat) : Q % (62 * L) % 62 = Q % 62 := Nat.mod_mul_right_mod Q 62 L

theorem ring_div (L Q : Nat) : Q % (62 * L) / 62 = Q / 62 % L := Nat.mod_mul_right_div_self Q 62 L

/-- Two lines of the stream that fall on the same line of the ring are at least
`L` lines apart. -/
theorem same_cell_far (L a b : Nat) (h : a % L = b % L) (hab : a < b) : a + L ≤ b := by
  have hd : L ∣ b - a := (Nat.modEq_iff_dvd' (le_of_lt hab)).mp h
  have hpos : 0 < b - a := by omega
  have := Nat.le_of_dvd hpos hd
  omega

/-- The position after a line was filled: the stream position moved by the
room that was left. -/
theorem wrapC_stream (L Q : Nat) (hL : 1 ≤ L) :
    wrapC (62 * L) (Q % (62 * L) + (62 - Q % (62 * L) % 62)) = (Q + (62 - Q % 62)) % (62 * L) := by
  have hlt : Q % (62 * L) < 62 * L := Nat.mod_lt _ (by omega)
  have h1 := ring_mod L Q
  rw [h1]
  unfold wrapC
  by_cases h : Q % (62 * L) + (62 - Q % 62) < 62 * L
  · rw [if_pos h, modM_add _ _ _ h]
  · rw [if_neg h]
    have : Q % (62 * L) + (62 - Q % 62) = 62 * L := by omega
    rw [modM_add_eq _ _ _ this]
    omega

/-- The loop of `writeLog` seen from the offset bytes.  `Q` is the position in
the stream of all bytes ever written, so that line `T` of the stream lies in
line `T % L` of the ring. -/
theorem writeLoop_off (A L : Nat) (fuel : Nat) :
    ∀ (lg : NvmLog_Log) (rec : List Nat) (Q v : Nat) (lg1 : NvmLog_Log) (rest : List Nat),
    LogAt lg A L (Q % (62 * L)) v → rec.length + 1 ≤ fuel →
    writeLoop fuel lg rec (62 - Q % 62) = (lg1, rest) →
    rest.length ≤ rec.length ∧
    (∃ v1, LogAt lg1 A L ((Q + rec.length - rest.length) % (62 * L)) v1) ∧
    rest.length < 62 - (Q + rec.length - rest.length) % 62 ∧
    lg1.nl_log_wr_.offset_ = (if rec.length < 62 - Q % 62 then lg.nl_log_wr_.offset_ else 0) ∧
    (∀ T, Q / 62 ≤ T → 62 * (T + 1) ≤ Q + rec.length → Q + rec.length < 62 * (T + L + 1) →
      lg1.mem (A + 64 * (T % L) + 1) = if T = Q / 62 then lg.nl_log_wr_.offset_ else 0) ∧
    (∀ c, (∀ T, Q / 62 ≤ T → 62 * (T + 1) ≤ Q + rec.length → T % L ≠ c) →
      lg1.mem (A + 64 * c + 1) = lg.mem (A + 64 * c + 1)) := by
  induction fuel with
  | zero => intro lg rec Q v _ _ _ hf; omega
  | succ fuel ih =>
    intro lg rec Q v lg1 rest hat hf hw
    rw [writeLoop_succ] at hw
    have hL : 1 ≤ L := hat.2.1
    by_cases hc : rec.length ≥ 62 - Q % 62
    · rw [if_pos hc] at hw
      have hc2 : rec.length ≥ 62 - Q % (62 * L) % 62 := by rw [ring_mod]; exact hc
      obtain ⟨f1, _, _, _⟩ := fillLine_spec A L lg rec (Q % (62 * L)) v
        (62 - Q % (62 * L) % 62) hat rfl hc2
      obtain ⟨g1, g2, g3⟩ := fillLine_off A L lg rec (Q % (62 * L)) v
        (62 - Q % (62 * L) % 62) hat rfl hc2
      rw [wrapC_stream L Q hL] at f1
      rw [ring_div] at g2 g3
      rw [ring_mod] at f1 g1 g2 g3
      generalize completeLine2Log
        { lg with mem := memcpyTo lg.mem lg.nl_log_wr_.next_ptr_ (rec.take (62 - Q % 62)) } = lgb
        at f1 g1 g2 g3 hw
      have hq : 62 - (Q + (62 - Q % 62)) % 62 = 62 := by omega
      have hdl : (rec.drop (62 - Q % 62)).length = rec.length - (62 - Q % 62) :=
        List.length_drop _ _
      have hw2 : writeLoop fuel lgb (rec.drop (62 - Q % 62)) (62 - (Q + (62 - Q % 62)) % 62)
          = (lg1, rest) := by rw [hq]; exact hw
      obtain ⟨i1, ⟨v1, i2⟩, i3, i4, i5, i6⟩ :=
        ih lgb (rec.drop (62 - Q % 62)) (Q + (62 - Q % 62)) _ lg1 rest f1 (by rw [hdl]; omega) hw2
      rw [hdl] at i1 i2 i3 i5 i6
      have e1 : Q + (62 - Q % 62) + (rec.length - (62 - Q % 62)) - rest.length
          = Q + rec.length - rest.length := by omega
      have e2 : Q + (62 - Q % 62) + (rec.length - (62 - Q % 62)) = Q + rec.length := by omega
      have e3 : (Q + (62 - Q % 62)) / 62 = Q / 62 + 1 := by omega
      rw [e1] at i2 i3
      rw [e2, e3] at i5 i6
      refine ⟨by omega, ⟨v1, i2⟩, i3, ?_, ?_, ?_⟩
      · rw [if_neg (by omega), i4, g1]
        split <;> rfl
      · intro T hT hs hn
        by_cases hTq : T = Q / 62
        · rw [if_pos hTq]
          rw [i6 (T % L), hTq, g2]
          intro T1 hT1 hs1 hm
          have := same_cell_far L T T1 hm.symm (by omega)
          omega
        · rw [if_neg hTq, i5 T (by omega) hs hn, g1]
          split <;> rfl
      · intro c hcc
        rw [i6 c (fun T hT hs => hcc T (by omega) hs)]
        apply g3
        intro hcq
        exact hcc (Q / 62) (le_refl _) (by omega) hcq.symm
    · rw [if_neg hc] at hw
      simp only [Prod.mk.injEq] at hw
      obtain ⟨h1, h2⟩ := hw
      subst h1 h2
      refine ⟨le_refl _, ⟨v, ?_⟩, ?_, ?_, ?_, ?_⟩
      · rw [show Q + rec.length - rec.length = Q by omega]; exact hat
      · rw [show Q + rec.length - rec.length = Q by omega]; omega
      · rw [if_pos (by omega)]
      · intro T hT hs _
        omega
      · intro c _
        rfl

/-- The offset bytes after one `writeLog(rec, len)`. -/
theorem writeLog_off (A L : Nat) (lg : NvmLog_Log) (rec : List Nat) (Q v : Nat)
    (hat : LogAt lg A L (Q % (62 * L)) v) :
    (∃ v1, LogAt (writeLog lg rec) A L ((Q + rec.length) % (62 * L)) v1) ∧
    (writeLog lg rec).nl_log_wr_.offset_ =
      (if rec.length < 62 - Q % 62 then
        (if lg.nl_log_wr_.offset_ = 0 then 2 + Q % 62 else lg.nl_log_wr_.offset_) else 0) ∧
    (∀ T, Q / 62 ≤ T → 62 * (T + 1) ≤ Q + rec.length → Q + rec.length < 62 * (T + L + 1) →
      (writeLog lg rec).mem (A + 64 * (T % L) + 1) =
        if T = Q / 62 then
          (if lg.nl_log_wr_.offset_ = 0 then 2 + Q % 62 else lg.nl_log_wr_.offset_) else 0) ∧
    (∀ c, (∀ T, Q / 62 ≤ T → 62 * (T + 1) ≤ Q + rec.length → T % L ≠ c) →
      (writeLog lg rec).mem (A + 64 * c + 1) = lg.mem (A + 64 * c + 1)) := by
  have hL : 1 ≤ L := hat.2.1
  have hl : lg.nl_log_wr_.nextline_ptr_ - lg.nl_log_wr_.next_ptr_ = 62 - Q % 62 := by
    obtain ⟨_, _, _, _, _, _, hnl, hx, _, _⟩ := hat
    rw [hnl, hx]
    unfold physAddr
    rw [ring_mod]
    omega
  unfold writeLog
  simp only [hl]
  generalize hlg0 : (if lg.nl_log_wr_.offset_ = 0 then
      { lg with nl_log_wr_ := { lg.nl_log_wr_ with offset_ := (CACHE_LINE_SIZE - (62 - Q % 62)) % 256 } }
    else lg) = lg0
  have hat0 : LogAt lg0 A L (Q % (62 * L)) v := by
    rw [← hlg0]; split
    · exact hat
    · exact hat
  have hm0 : lg0.mem = lg.mem := by
    rw [← hlg0]; split <;> rfl
  have ho0 : lg0.nl_log_wr_.offset_ =
      (if lg.nl_log_wr_.offset_ = 0 then 2 + Q % 62 else lg.nl_log_wr_.offset_) := by
    rw [← hlg0]
    split
    · simp only [CACHE_LINE_SIZE]; omega
    · rfl
  rcases hw : writeLoop (rec.length + 1) lg0 rec (62 - Q % 62) with ⟨lg1, rest⟩
  obtain ⟨i1, ⟨v1, i2⟩, i3, i4, i5, i6⟩ :=
    writeLoop_off A L (rec.length + 1) lg0 rec Q v lg1 rest hat0 (le_refl _) hw
  simp only []
  have hr : rest.length < 62 - (Q + rec.length - rest.length) % (62 * L) % 62 := by
    rw [ring_mod]; exact i3
  obtain ⟨t1, _, t3⟩ := writeTail_spec A L lg1 rest _ v1 i2 hr
  have hlt : (Q + rec.length - rest.length) % (62 * L) + rest.length < 62 * L := by
    have := t1.2.2.1
    exact this
  have hpos : (Q + rec.length - rest.length) % (62 * L) + rest.length
      = (Q + rec.length) % (62 * L) := by
    rw [← modM_add _ _ _ hlt]
    congr 1
    omega
  rw [hpos] at t1
  have hoff : (if rest.length > 0 then
        { lg1 with mem := memcpyTo lg1.mem lg1.nl_log_wr_.next_ptr_ rest,
                   nl_log_wr_ := { lg1.nl_log_wr_ with
                     next_ptr_ := lg1.nl_log_wr_.next_ptr_ + rest.length } }
      else lg1).nl_log_wr_.offset_ = lg1.nl_log_wr_.offset_ := by
    split <;> rfl
  have hcell : ∀ c, (if rest.length > 0 then
        { lg1 with mem := memcpyTo lg1.mem lg1.nl_log_wr_.next_ptr_ rest,
                   nl_log_wr_ := { lg1.nl_log_wr_ with
                     next_ptr_ := lg1.nl_log_wr_.next_ptr_ + rest.length } }
      else lg1).mem (A + 64 * c + 1) = lg1.mem (A + 64 * c + 1) := by
    intro c
    apply t3
    unfold physAddr
    generalize (Q + rec.length - rest.length) % (62 * L) = P1 at hr
    by_cases h : c ≤ P1 / 62
    · left
      have : 64 * c ≤ 64 * (P1 / 62) := by omega
      omega
    · right
      have : 64 * (P1 / 62) + 64 ≤ 64 * c := by omega
      omega
  refine ⟨⟨v1, t1⟩, ?_, ?_, ?_⟩
  · rw [hoff, i4, ho0]
  · intro T hT hs hn
    rw [hcell, i5 T hT hs hn, ho0]
  · intro c hc
    rw [hcell, i6 c hc, hm0]

theorem recStarts_ge : ∀ (recs : List (List Nat)) (Q s : Nat), s ∈ recStarts Q recs → Q ≤ s := by
  intro recs
  induction recs with
  | nil => intro Q s h; simp [recStarts] at h
  | cons r rs ih =>
    intro Q s h
    simp only [recStarts, List.mem_cons] at h
    rcases h with h | h
    · omega
    · have := ih _ _ h
      omega

theorem offsetByteSpec_cons_eq (Q T : Nat) (l : List Nat) (h : Q / 62 = T) :
    offsetByteSpec (Q :: l) T = 2 + Q % 62 := by
  unfold offsetByteSpec
  rw [List.find?_cons_of_pos _ (by simpa using h)]

theorem offsetByteSpec_cons_ne (Q T : Nat) (l : List Nat) (h : Q / 62 ≠ T) :
    offsetByteSpec (Q :: l) T = offsetByteSpec l T := by
  unfold offsetByteSpec
  rw [List.find?_cons_of_neg _ (by simpa using h)]

theorem offsetByteSpec_none (T : Nat) (l : List Nat) (h : ∀ s ∈ l, s / 62 ≠ T) :
    offsetByteSpec l T = 0 := by
  unfold offsetByteSpec
  have : l.find? (fun s => decide (s / 62 = T)) = none := by
    rw [List.find?_eq_none]
    intro s hs
    simpa using h s hs
  rw [this]

/-- The offset bytes after a sequence of `writeLog` calls that starts at stream
position `Q`: a line sealed by the sequence and not written again holds the
writer's `offset_` of before when it was set and is the line of `Q`, and what
the documentation asks for otherwise; the other offset bytes are as before. -/
theorem foldl_off (A L : Nat) :
    ∀ (recs : List (List Nat)) (lg : NvmLog_Log) (Q v : Nat),
    LogAt lg A L (Q % (62 * L)) v →
    (∀ T, Q / 62 ≤ T → 62 * (T + 1) ≤ Q + (recs.map List.length).sum →
      Q + (recs.map List.length).sum < 62 * (T + L + 1) →
      (recs.foldl writeLog lg).mem (A + 64 * (T % L) + 1) =
        if T = Q / 62 ∧ lg.nl_log_wr_.offset_ ≠ 0 then lg.nl_log_wr_.offset_
        else offsetByteSpec (recStarts Q recs) T) ∧
    (∀ c, (∀ T, Q / 62 ≤ T → 62 * (T + 1) ≤ Q + (recs.map List.length).sum → T % L ≠ c) →
      (recs.foldl writeLog lg).mem (A + 64 * c + 1) = lg.mem (A + 64 * c + 1)) := by
  intro recs
  induction recs with
  | nil =>
    intro lg Q v _
    simp only [List.map_nil, List.sum_nil, List.foldl_nil]
    refine ⟨fun T hT hs _ => by omega, ?_⟩
    intro c _; trivial
  | cons r rs ih =>
    intro lg Q v hat
    obtain ⟨⟨v1, w1⟩, w2, w3, w4⟩ := writeLog_off A L lg r Q v hat
    obtain ⟨j1, j2⟩ := ih (writeLog lg r) (Q + r.length) v1 w1
    simp only [List.map_cons, List.sum_cons, List.foldl_cons]
    rw [← Nat.add_assoc]
    generalize hE : Q + r.length + (rs.map List.length).sum = E at j1 j2
    have hQ2 : Q / 62 ≤ (Q + r.length) / 62 := Nat.div_le_div_right (by omega)
    have hE2 : Q + r.length ≤ E := by omega
    refine ⟨?_, ?_⟩
    · intro T hT hs hn
      by_cases hlow : T < (Q + r.length) / 62
      · rw [j2 (T % L), w3 T hT (by omega) (by omega)]
        · by_cases hTq : T = Q / 62
          · rw [if_pos hTq]
            by_cases ho : lg.nl_log_wr_.offset_ = 0
            · rw [if_pos ho, if_neg (by simp [ho]), recStarts,
                offsetByteSpec_cons_eq _ _ _ hTq.symm]
            · rw [if_neg ho, if_pos ⟨hTq, ho⟩]
          · rw [if_neg hTq, if_neg (by simp [hTq]), recStarts,
              offsetByteSpec_cons_ne _ _ _ (fun h => hTq h.symm), offsetByteSpec_none]
            intro s hsm
            have := recStarts_ge _ _ _ hsm
            omega
        · intro T1 hT1 hs1 hm
          have := same_cell_far L T T1 hm.symm (by omega)
          omega
      · rw [j1 T (by omega) hs hn, w2, recStarts]
        by_cases hfit : r.length < 62 - Q % 62
        · have hsame : (Q + r.length) / 62 = Q / 62 := by omega
          rw [if_pos hfit, hsame]
          by_cases hTq : T = Q / 62
          · by_cases ho : lg.nl_log_wr_.offset_ = 0
            · rw [if_pos ho, if_pos ⟨hTq, by omega⟩, if_neg (by simp [ho]),
                offsetByteSpec_cons_eq _ _ _ hTq.symm]
            · rw [if_neg ho, if_pos ⟨hTq, ho⟩, if_pos ⟨hTq, ho⟩]
          · rw [if_neg (by simp [hTq]), if_neg (by simp [hTq]),
              offsetByteSpec_cons_ne _ _ _ (fun h => hTq h.symm)]
        · have hnext : Q / 62 < (Q + r.length) / 62 := by omega
          rw [if_neg hfit, if_neg (by simp), if_neg (by intro h; omega),
            offsetByteSpec_cons_ne _ _ _ (by omega)]
    · intro c hc
      rw [j2 c (fun T hT hs => hc T (by omega) hs),
        w4 c (fun T hT hs => hc T hT (by omega))]

/-- C31: after any sequence of records, each written by one `writeLog` call,
starting at a position whose line has no record begun yet (`offset_ = 0`, as
after `init` and after every sealed line), byte 1 of every line sealed by the
sequence and not written again since equals the byte index in the line (2..63)
of the first record that begins in that line, and 0 if no record begins in it.
`T` counts the lines of the stream, line `T` lying in line `T % L` of the ring. -/
theorem C31_offset_byte_of_sealed_line (A L : Nat) (lg : NvmLog_Log) (P v : Nat)
    (recs : List (List Nat)) (T : Nat)
    (hat : LogAt lg A L P v) (ho : lg.nl_log_wr_.offset_ = 0)
    (hT : P / 62 ≤ T) (hsealed : 62 * (T + 1) ≤ P + (recs.map List.length).sum)
    (hlast : P + (recs.map List.length).sum < 62 * (T + L + 1)) :
    (recs.foldl writeLog lg).mem (A + 64 * (T % L) + 1)
      = offsetByteSpec (recStarts P recs) T := by
  have hP : P % (62 * L) = P := Nat.mod_eq_of_lt hat.2.2.1
  have hat2 : LogAt lg A L (P % (62 * L)) v := by rw [hP]; exact hat
  rw [(foldl_off A L recs lg P v hat2).1 T hT hsealed hlast, if_neg (by simp [ho])]

set_option maxRecDepth 100000 in
theorem C31_offset_byte_of_sealed_line_witness :
    LogAt exRing 4096 4 0 0x80 ∧ exRing.nl_log_wr_.offset_ = 0 ∧
    ([List.replicate 100 1, List.replicate 160 2, List.replicate 58 3].foldl writeLog exRing).mem
        (4096 + 64 * (4 % 4) + 1)
      = offsetByteSpec
          (recStarts 0 [List.replicate 100 1, List.replicate 160 2, List.replicate 58 3]) 4 ∧
    offsetByteSpec
      (recStarts 0 [List.replicate 100 1, List.replicate 160 2, List.replicate 58 3]) 4 = 14 :=
  ⟨exRing_logAt, by decide,
   C31_offset_byte_of_sealed_line 4096 4 exRing 0 0x80
     [List.replicate 100 1, List.replicate 160 2, List.replicate 58 3] 4
     exRing_logAt (by decide) (by decide) (by decide) (by decide),
   by decide⟩

end LBTree


namespace LBTree

/-! ## C34: the stores of a non-full leaf insert, prefix by prefix -/

theorem moveStores_succ (last fuel to_ from_ bm : Nat) (m : bleafMeta) :
    moveStores last (fuel + 1) to_ from_ bm m =
      if to_ ≤ last then
        if bm &&& (1 <<< to_) = 0 then
          (LeafStore.copyEnt to_ from_ ::
            (moveStores last fuel (to_ + 1) (from_ + 1)
              ((((bm ||| (1 <<< to_)) % 2 ^ 16) &&& bnot32 (1 <<< from_)) % 2 ^ 16)
              { m with fgpt := m.fgpt.set to_ (m.fgpt.getD from_ 0) }).1,
           (moveStores last fuel (to_ + 1) (from_ + 1)
              ((((bm ||| (1 <<< to_)) % 2 ^ 16) &&& bnot32 (1 <<< from_)) % 2 ^ 16)
              { m with fgpt := m.fgpt.set to_ (m.fgpt.getD from_ 0) }).2.1,
           (moveStores last fuel (to_ + 1) (from_ + 1)
              ((((bm ||| (1 <<< to_)) % 2 ^ 16) &&& bnot32 (1 <<< from_)) % 2 ^ 16)
              { m with fgpt := m.fgpt.set to_ (m.fgpt.getD from_ 0) }).2.2)
        else moveStores last fuel (to_ + 1) from_ bm m
      else ([], m, bm) := rfl

theorem moveLoop_succ (last fuel to_ from_ bm : Nat) (lp : bleaf) (m : bleafMeta) :
    moveLoop last (fuel + 1) to_ from_ bm lp m =
      if to_ ≤ last then
        if bm &&& (1 <<< to_) = 0 then
          moveLoop last fuel (to_ + 1) (from_ + 1)
            ((((bm ||| (1 <<< to_)) % 2 ^ 16) &&& bnot32 (1 <<< from_)) % 2 ^ 16)
            (lp.setEnt to_ (lp.entAt from_))
            { m with fgpt := m.fgpt.set to_ (m.fgpt.getD from_ 0) }
        else moveLoop last fuel (to_ + 1) from_ bm lp m
      else (lp, m, bm, from_) := rfl

/-- The copy loop of the source and its list of stores agree: running the
stores gives the leaf of the loop, with the same temporary meta and bitmap. -/
theorem moveStores_eq (last : Nat) :
    ∀ (fuel to_ from_ bm : Nat) (lp : bleaf) (m : bleafMeta),
    (moveLoop last fuel to_ from_ bm lp m).1
        = (moveStores last fuel to_ from_ bm m).1.foldl LeafStore.apply lp ∧
    (moveLoop last fuel to_ from_ bm lp m).2.1 = (moveStores last fuel to_ from_ bm m).2.1 ∧
    (moveLoop last fuel to_ from_ bm lp m).2.2.1 = (moveStores last fuel to_ from_ bm m).2.2 := by
  intro fuel
  induction fuel with
  | zero => intro to_ from_ bm lp m; exact ⟨rfl, rfl, rfl⟩
  | succ n ih =>
    intro to_ from_ bm lp m
    rw [moveLoop_succ, moveStores_succ]
    by_cases h1 : to_ ≤ last
    · rw [if_pos h1, if_pos h1]
      by_cases h2 : bm &&& (1 <<< to_) = 0
      · rw [if_pos h2, if_pos h2]
        obtain ⟨a, b, c⟩ := ih (to_ + 1) (from_ + 1)
          ((((bm ||| (1 <<< to_)) % 2 ^ 16) &&& bnot32 (1 <<< from_)) % 2 ^ 16)
          (lp.setEnt to_ (lp.entAt from_))
          { m with fgpt := m.fgpt.set to_ (m.fgpt.getD from_ 0) }
        exact ⟨a, b, c⟩
      · rw [if_neg h2, if_neg h2]
        exact ih (to_ + 1) from_ bm lp m
    · rw [if_neg h1, if_neg h1]
      exact ⟨rfl, rfl, rfl⟩

/-- The copies of the loop go to slots of the line that are empty, and the
temporary meta keeps the fingerprints of the slots below `to` and of the
occupied slots. -/
theorem moveStores_spec (last : Nat) (hlast : last ≤ 13) :
    ∀ (fuel to_ from_ bm : Nat) (m : bleafMeta),
    bm < 2 ^ 14 → m.fgpt.length = 14 → 3 ≤ to_ → to_ + fuel = last + 1 → from_ + fuel ≤ 3 →
    (∀ st ∈ (moveStores last fuel to_ from_ bm m).1,
      ∃ t f, st = LeafStore.copyEnt t f ∧ to_ ≤ t ∧ t < 14 ∧ bm.testBit t = false) ∧
    (moveStores last fuel to_ from_ bm m).2.1.fgpt.length = 14 ∧
    (∀ i, (i < to_ ∨ bm.testBit i = true) →
      (moveStores last fuel to_ from_ bm m).2.1.fgpt.getD i 0 = m.fgpt.getD i 0) := by
  intro fuel
  induction fuel with
  | zero =>
    intro to_ from_ bm m _ hfl _ _ _
    refine ⟨?_, hfl, fun _ _ => rfl⟩
    intro st hst
    simp [moveStores] at hst
  | succ n ih =>
    intro to_ from_ bm m hbm hfl hto hfuel hfrom
    rw [moveStores_succ]
    have hto_le : to_ ≤ last := by omega
    have hto14 : to_ < 14 := by omega
    rw [if_pos hto_le]
    by_cases hbit : bm &&& (1 <<< to_) = 0
    · rw [if_pos hbit]
      have hclr : bm.testBit to_ = false := (and_shift_eq_zero bm to_).1 hbit
      have hz : (bm ||| (1 <<< to_)) % 2 ^ 16 < 2 ^ 14 := setBit_lt bm to_ hbm hto14
      have hb1 : ∀ i, ((((bm ||| (1 <<< to_)) % 2 ^ 16) &&& bnot32 (1 <<< from_)) % 2 ^ 16).testBit i
          = ((bm.testBit i || decide (i = to_)) && decide (i ≠ from_)) := by
        intro i
        rw [testBit_clrBit _ from_ i hz (by omega), testBit_setBit bm to_ i hbm hto14]
      have hb1lt := clrBit_lt ((bm ||| (1 <<< to_)) % 2 ^ 16) from_ hz (by omega)
      obtain ⟨c1, c2, c3⟩ := ih (to_ + 1) (from_ + 1) _
        { m with fgpt := m.fgpt.set to_ (m.fgpt.getD from_ 0) } hb1lt (by simp [hfl])
        (by omega) (by omega) (by omega)
      refine ⟨?_, c2, ?_⟩
      · intro st hst
        simp only [List.mem_cons] at hst
        rcases hst with h | h
        · exact ⟨to_, from_, h, le_refl _, hto14, hclr⟩
        · obtain ⟨t, f, e1, e2, e3, e4⟩ := c1 st h
          refine ⟨t, f, e1, by omega, e3, ?_⟩
          rw [hb1] at e4
          have hne : ¬ t = to_ := by omega
          have hnf : t ≠ from_ := by omega
          simp [hne, hnf] at e4
          exact e4
      · intro i hi
        have hne : ¬ i = to_ := by
          intro h; subst h
          rcases hi with h | h
          · omega
          · rw [hclr] at h; exact Bool.noConfusion h
        rw [c3 i (by
          rcases hi with h | h
          · left; omega
          · by_cases hif : i = from_
            · left; omega
            · right; rw [hb1, h]; simp [hif])]
        show (m.fgpt.set to_ (m.fgpt.getD from_ 0)).getD i 0 = _
        rw [natList_getD_set _ _ _ _ (by omega), if_neg hne]
    · rw [if_neg hbit]
      have hset : bm.testBit to_ = true := by
        by_contra h
        exact hbit ((and_shift_eq_zero bm to_).2 (by simpa using h))
      obtain ⟨c1, c2, c3⟩ := ih (to_ + 1) from_ bm m hbm hfl (by omega) (by omega) (by omega)
      refine ⟨?_, c2, ?_⟩
      · intro st hst
        obtain ⟨t, f, e1, e2, e3, e4⟩ := c1 st hst
        exact ⟨t, f, e1, by omega, e3, e4⟩
      · intro i hi
        apply c3
        rcases hi with h | h
        · left; omega
        · right; exact h

/-- Stores into slots that are empty according to `bm` leave the header, and
the entries of the slots that `bm` selects, as they are. -/
theorem fold_entryTo (bm : Nat) :
    ∀ (l : List LeafStore) (lp : bleaf), (∀ st ∈ l, st.entryTo bm) → lp.ent.length = 14 →
    (l.foldl LeafStore.apply lp).bitmap = lp.bitmap ∧
    (l.foldl LeafStore.apply lp).fgpt = lp.fgpt ∧
    (l.foldl LeafStore.apply lp).ent.length = 14 ∧
    (∀ i, bm.testBit i = true → (l.foldl LeafStore.apply lp).entAt i = lp.entAt i) := by
  intro l
  induction l with
  | nil => intro lp _ h; exact ⟨rfl, rfl, h, fun _ _ => rfl⟩
  | cons st rest ih =>
    intro lp hall hlen
    have hst := hall st (List.mem_cons_self _ _)
    have hrest : ∀ x ∈ rest, x.entryTo bm := fun x hx => hall x (List.mem_cons_of_mem _ hx)
    rw [List.foldl_cons]
    have key : (LeafStore.apply lp st).bitmap = lp.bitmap ∧ (LeafStore.apply lp st).fgpt = lp.fgpt ∧
        (LeafStore.apply lp st).ent.length = 14 ∧
        (∀ i, bm.testBit i = true → (LeafStore.apply lp st).entAt i = lp.entAt i) := by
      cases st with
      | storeK s k =>
        obtain ⟨h1, h2⟩ := hst
        refine ⟨rfl, rfl, by simp [LeafStore.apply, bleaf.setEnt, hlen], ?_⟩
        intro i hi
        show (lp.setEnt s _).entAt i = _
        rw [bleaf.entAt_setEnt _ _ _ _ (by omega), if_neg]
        intro h; subst h; rw [h2] at hi; exact Bool.noConfusion hi
      | storeCh s c =>
        obtain ⟨h1, h2⟩ := hst
        refine ⟨rfl, rfl, by simp [LeafStore.apply, bleaf.setEnt, hlen], ?_⟩
        intro i hi
        show (lp.setEnt s _).entAt i = _
        rw [bleaf.entAt_setEnt _ _ _ _ (by omega), if_neg]
        intro h; subst h; rw [h2] at hi; exact Bool.noConfusion hi
      | copyEnt t f =>
        obtain ⟨h1, h2⟩ := hst
        refine ⟨rfl, rfl, by simp [LeafStore.apply, bleaf.setEnt, hlen], ?_⟩
        intro i hi
        show (lp.setEnt t _).entAt i = _
        rw [bleaf.entAt_setEnt _ _ _ _ (by omega), if_neg]
        intro h; subst h; rw [h2] at hi; exact Bool.noConfusion hi
      | word1 m => exact absurd hst (by simp [LeafStore.entryTo])
      | word0 m => exact absurd hst (by simp [LeafStore.entryTo])
    obtain ⟨k1, k2, k3, k4⟩ := key
    obtain ⟨r1, r2, r3, r4⟩ := ih (LeafStore.apply lp st) hrest k3
    exact ⟨r1.trans k1, r2.trans k2, r3, fun i hi => (r4 i hi).trans (k4 i hi)⟩

/-- The stores `k(slot)= key; ch(slot)= ptr` together write the entry. -/
theorem storeK_storeCh (lp : bleaf) (slot : Nat) (key : Int) (ptr : Nat)
    (h : slot < lp.ent.length) :
    LeafStore.apply (LeafStore.apply lp (LeafStore.storeK slot key)) (LeafStore.storeCh slot ptr)
      = lp.setEnt slot ⟨key, ptr⟩ := by
  show (lp.setEnt slot ⟨key, lp.ch slot⟩).setEnt slot ⟨(lp.setEnt slot ⟨key, lp.ch slot⟩).k slot, ptr⟩ = _
  rw [bleaf.k_setEnt _ _ _ _ h, if_pos rfl]
  simp [bleaf.setEnt]

/-- Word 1, then word 0: the two stores of `setBothWords`. -/
theorem word1_word0 (lp : bleaf) (m : bleafMeta) (h : 6 ≤ lp.fgpt.length) :
    LeafStore.apply (LeafStore.apply lp (LeafStore.word1 m)) (LeafStore.word0 m)
      = lp.setBothWords m := by
  show ({ lp with fgpt := lp.fgpt.take 6 ++ m.fgpt.drop 6 } : bleaf).setWord0 m = _
  unfold bleaf.setWord0 bleaf.setBothWords
  have : (lp.fgpt.take 6 ++ m.fgpt.drop 6).drop 6 = m.fgpt.drop 6 := by
    rw [List.drop_append_of_le_length (by simp; omega)]
    have : (List.take 6 lp.fgpt).drop 6 = [] := by
      apply List.drop_eq_nil_of_le
      simp
    rw [this, List.nil_append]
  simp only [this, List.take_append_drop]

/-- A leaf image that agrees with `lp` on the bitmap and on the fingerprints
and entries of the slots the bitmap selects has the same live pairs and is
fingerprint-consistent when `lp` is. -/
theorem sameLive_ok (lp r : bleaf) (hb : r.bitmap = lp.bitmap)
    (hf : ∀ i, i < 14 → lp.bitmap.testBit i = true → r.fg i = lp.fg i)
    (he : ∀ i, lp.bitmap.testBit i = true → r.entAt i = lp.entAt i) (hfg : lp.fgptOK) :
    (∀ e, r.live e ↔ lp.live e) ∧ r.fgptOK := by
  constructor
  · intro e
    unfold bleaf.live bleaf.liveWith
    rw [hb]
    constructor
    · rintro ⟨i, hi, hbit, h⟩
      exact ⟨i, hi, hbit, by rw [← he i hbit]; exact h⟩
    · rintro ⟨i, hi, hbit, h⟩
      exact ⟨i, hi, hbit, by rw [he i hbit]; exact h⟩
  · intro i hi hbit
    rw [hb] at hbit
    rw [hf i hi hbit]
    unfold bleaf.k
    rw [he i hbit]
    exact hfg i hi hbit

/-- The leaf after a prefix of stores that go to empty slots. -/
theorem prefix_entry_ok (lp : bleaf) (pre : List LeafStore) (k : Nat)
    (hpre : ∀ st ∈ pre, st.entryTo lp.bitmap) (hlen : lp.ent.length = 14) (hfg : lp.fgptOK) :
    (∀ e, ((pre.take k).foldl LeafStore.apply lp).live e ↔ lp.live e) ∧
    ((pre.take k).foldl LeafStore.apply lp).fgptOK := by
  obtain ⟨a, b, _, d⟩ := fold_entryTo lp.bitmap (pre.take k) lp
    (fun st hst => hpre st (List.mem_of_mem_take hst)) hlen
  exact sameLive_ok lp _ a (fun i _ _ => by unfold bleaf.fg; rw [b]) d hfg

/-- The leaf after the entry stores and the store of word 1. -/
theorem prefix_word1_ok (lp : bleaf) (pre : List LeafStore) (mF : bleafMeta)
    (hpre : ∀ st ∈ pre, st.entryTo lp.bitmap) (hlen : lp.ent.length = 14)
    (hfl : lp.fgpt.length = 14) (hfg : lp.fgptOK)
    (hmF : ∀ i, lp.bitmap.testBit i = true → mF.fgpt.getD i 0 = lp.fgpt.getD i 0) :
    (∀ e, ((pre ++ [LeafStore.word1 mF]).foldl LeafStore.apply lp).live e ↔ lp.live e) ∧
    ((pre ++ [LeafStore.word1 mF]).foldl LeafStore.apply lp).fgptOK := by
  obtain ⟨a, b, _, d⟩ := fold_entryTo lp.bitmap pre lp hpre hlen
  rw [List.foldl_append, List.foldl_cons, List.foldl_nil]
  generalize pre.foldl LeafStore.apply lp = r at a b d
  refine sameLive_ok lp (LeafStore.apply r (LeafStore.word1 mF)) a ?_ d hfg
  intro i hi hbit
  show (r.fgpt.take 6 ++ mF.fgpt.drop 6).getD i 0 = _
  rw [getD_take_append_drop _ _ (by rw [b]; omega)]
  split
  · rw [b]; rfl
  · rw [hmF i hbit]; rfl

/-- The leaf after `n` stores of a list made of entry stores `pre` followed by
the header stores `tl`, when `n` reaches into `tl`. -/
theorem take_split (pre tl : List LeafStore) (n : Nat) :
    (n ≤ pre.length ∧ (pre ++ tl).take n = pre.take n) ∨
    (pre.length < n ∧ (pre ++ tl).take n = pre ++ tl.take (n - pre.length)) := by
  by_cases h : n ≤ pre.length
  · left; exact ⟨h, List.take_append_of_le_length h⟩
  · right
    refine ⟨by omega, ?_⟩
    rw [List.take_append_eq_append_take, List.take_of_length_le (by omega)]

theorem leafStores_low (m : bleafMeta) (key : Int) (ptr : Nat) (key_hash : Nat)
    (h : bitScan (bnot32 m.bitmap) - 1 < 3) :
    leafStores m key ptr key_hash =
      [LeafStore.storeK (bitScan (bnot32 m.bitmap) - 1) key,
       LeafStore.storeCh (bitScan (bnot32 m.bitmap) - 1) ptr] ++
      [LeafStore.word0
        { m with fgpt := m.fgpt.set (bitScan (bnot32 m.bitmap) - 1) key_hash,
                 bitmap := ((m.bitmap ||| (1 <<< (bitScan (bnot32 m.bitmap) - 1))) % 2 ^ 16) % 2 ^ 14 }] := by
  unfold leafStores
  simp only [h, if_true]
  rfl

theorem leafStores_high (m : bleafMeta) (key : Int) (ptr : Nat) (key_hash : Nat)
    (h : ¬ bitScan (bnot32 m.bitmap) - 1 < 3) :
    leafStores m key ptr key_hash =
      ([LeafStore.storeK (bitScan (bnot32 m.bitmap) - 1) key,
        LeafStore.storeCh (bitScan (bnot32 m.bitmap) - 1) ptr] ++
       (moveStores (last_slot_in_line (bitScan (bnot32 m.bitmap) - 1))
          (last_slot_in_line (bitScan (bnot32 m.bitmap) - 1) - (bitScan (bnot32 m.bitmap) - 1))
          (bitScan (bnot32 m.bitmap) - 1 + 1) 0
          ((m.bitmap ||| (1 <<< (bitScan (bnot32 m.bitmap) - 1))) % 2 ^ 16)
          { m with fgpt := m.fgpt.set (bitScan (bnot32 m.bitmap) - 1) key_hash }).1) ++
      [LeafStore.word1
        { (moveStores (last_slot_in_line (bitScan (bnot32 m.bitmap) - 1))
          (last_slot_in_line (bitScan (bnot32 m.bitmap) - 1) - (bitScan (bnot32 m.bitmap) - 1))
          (bitScan (bnot32 m.bitmap) - 1 + 1) 0
          ((m.bitmap ||| (1 <<< (bitScan (bnot32 m.bitmap) - 1))) % 2 ^ 16)
          { m with fgpt := m.fgpt.set (bitScan (bnot32 m.bitmap) - 1) key_hash }).2.1 with
          bitmap := (moveStores (last_slot_in_line (bitScan (bnot32 m.bitmap) - 1))
          (last_slot_in_line (bitScan (bnot32 m.bitmap) - 1) - (bitScan (bnot32 m.bitmap) - 1))
          (bitScan (bnot32 m.bitmap) - 1 + 1) 0
          ((m.bitmap ||| (1 <<< (bitScan (bnot32 m.bitmap) - 1))) % 2 ^ 16)
          { m with fgpt := m.fgpt.set (bitScan (bnot32 m.bitmap) - 1) key_hash }).2.2 % 2 ^ 14 },
       LeafStore.word0
        { (moveStores (last_slot_in_line (bitScan (bnot32 m.bitmap) - 1))
          (last_slot_in_line (bitScan (bnot32 m.bitmap) - 1) - (bitScan (bnot32 m.bitmap) - 1))
          (bitScan (bnot32 m.bitmap) - 1 + 1) 0
          ((m.bitmap ||| (1 <<< (bitScan (bnot32 m.bitmap) - 1))) % 2 ^ 16)
          { m with fgpt := m.fgpt.set (bitScan (bnot32 m.bitmap) - 1) key_hash }).2.1 with
          bitmap := (moveStores (last_slot_in_line (bitScan (bnot32 m.bitmap) - 1))
          (last_slot_in_line (bitScan (bnot32 m.bitmap) - 1) - (bitScan (bnot32 m.bitmap) - 1))
          (bitScan (bnot32 m.bitmap) - 1 + 1) 0
          ((m.bitmap ||| (1 <<< (bitScan (bnot32 m.bitmap) - 1))) % 2 ^ 16)
          { m with fgpt := m.fgpt.set (bitScan (bnot32 m.bitmap) - 1) key_hash }).2.2 % 2 ^ 14 }] := by
  unfold leafStores
  simp only [h, if_false]

/-- Running all stores of the block gives the leaf that the block writes. -/
theorem leafStores_run (lp : bleaf) (m : bleafMeta) (key : Int) (ptr : Nat) (key_hash : Nat)
    (hbm : m.bitmap < 2 ^ 14) (hfl : lp.fgpt.length = 14) (hmf : m.fgpt.length = 14)
    (hlen : lp.ent.length = 14) (hfull : m.bitmap ≠ 0x3fff) :
    (leafStores m key ptr key_hash).foldl LeafStore.apply lp = leafPut lp m key ptr key_hash := by
  obtain ⟨hs14, hsclr, hsall⟩ := lowest_clear m.bitmap hbm hfull
  by_cases h3 : bitScan (bnot32 m.bitmap) - 1 < 3
  · rw [leafStores_low m key ptr key_hash h3, leafPut_low lp m key ptr key_hash h3]
    simp only [List.foldl_append, List.foldl_cons, List.foldl_nil]
    rw [storeK_storeCh lp _ key ptr (by omega)]
    rfl
  · rw [leafStores_high m key ptr key_hash h3, leafPut_high lp m key ptr key_hash h3]
    generalize hslot : bitScan (bnot32 m.bitmap) - 1 = slot at hs14 hsclr hsall h3
    simp only [List.foldl_append, List.foldl_cons, List.foldl_nil]
    rw [storeK_storeCh lp _ key ptr (by omega)]
    obtain ⟨hl1, hl2, hl3⟩ := last_slot_in_line_bounds slot (by omega) hs14
    have hb1lt := setBit_lt m.bitmap slot hbm hs14
    obtain ⟨e1, e2, e3⟩ := moveStores_eq (last_slot_in_line slot)
      (last_slot_in_line slot - slot) (slot + 1) 0
      ((m.bitmap ||| (1 <<< slot)) % 2 ^ 16) (lp.setEnt slot ⟨key, ptr⟩)
      { m with fgpt := m.fgpt.set slot key_hash }
    have hall : ∀ st ∈ (moveStores (last_slot_in_line slot) (last_slot_in_line slot - slot)
        (slot + 1) 0 ((m.bitmap ||| (1 <<< slot)) % 2 ^ 16)
        { m with fgpt := m.fgpt.set slot key_hash }).1,
        st.entryTo ((m.bitmap ||| (1 <<< slot)) % 2 ^ 16) := by
      intro st hst
      obtain ⟨t, f, q1, _, q3, q4⟩ := (moveStores_spec (last_slot_in_line slot) hl2
        (last_slot_in_line slot - slot) (slot + 1) 0 ((m.bitmap ||| (1 <<< slot)) % 2 ^ 16)
        { m with fgpt := m.fgpt.set slot key_hash } hb1lt (by simpa using hmf)
        (by omega) (by omega) (by omega)).1 st hst
      rw [q1]; exact ⟨q3, q4⟩
    have hf := (fold_entryTo ((m.bitmap ||| (1 <<< slot)) % 2 ^ 16) _
      (lp.setEnt slot ⟨key, ptr⟩) hall (by simp [bleaf.setEnt, hlen])).2.1
    rw [← e1] at hf
    rw [← e2, ← e3, ← e1]
    exact word1_word0 _ _ (by rw [hf]; show 6 ≤ lp.fgpt.length; omega)

/-- The stores of the block are entry stores into empty slots followed by the
header stores; between the header stores the leaf still shows the old pairs. -/
theorem leafStores_shape (lp : bleaf) (m : bleafMeta) (key : Int) (ptr : Nat) (key_hash : Nat)
    (hmb : m.bitmap = lp.bitmap) (hmg : m.fgpt = lp.fgpt)
    (hbm : lp.bitmap < 2 ^ 14) (hfl : lp.fgpt.length = 14)
    (hlen : lp.ent.length = 14) (hfull : lp.bitmap ≠ 0x3fff) (hfg : lp.fgptOK) :
    ∃ pre tl, leafStores m key ptr key_hash = pre ++ tl ∧
      (∀ st ∈ pre, st.entryTo lp.bitmap) ∧ 0 < tl.length ∧
      (∀ k, 0 < k → k < tl.length →
        (∀ e, ((pre ++ tl.take k).foldl LeafStore.apply lp).live e ↔ lp.live e) ∧
        ((pre ++ tl.take k).foldl LeafStore.apply lp).fgptOK) := by
  obtain ⟨hs14, hsclr, hsall⟩ := lowest_clear lp.bitmap hbm hfull
  rw [← hmb] at hs14 hsclr hsall
  have hk : (∀ st ∈ [LeafStore.storeK (bitScan (bnot32 m.bitmap) - 1) key,
      LeafStore.storeCh (bitScan (bnot32 m.bitmap) - 1) ptr], st.entryTo lp.bitmap) := by
    intro st hst
    simp only [List.mem_cons, List.mem_singleton, List.not_mem_nil, or_false] at hst
    rcases hst with h | h <;> subst h <;> exact ⟨hs14, hmb ▸ hsclr⟩
  by_cases h3 : bitScan (bnot32 m.bitmap) - 1 < 3
  · refine ⟨_, _, leafStores_low m key ptr key_hash h3, hk, by simp, ?_⟩
    intro k h0 hk1
    simp only [List.length_cons, List.length_nil] at hk1
    omega
  · have hhigh := leafStores_high m key ptr key_hash h3
    generalize hslot : bitScan (bnot32 m.bitmap) - 1 = slot at hs14 hsclr hsall h3 hk hhigh
    obtain ⟨hl1, hl2, hl3⟩ := last_slot_in_line_bounds slot (by omega) hs14
    have hb1lt := setBit_lt m.bitmap slot (hmb ▸ hbm) hs14
    obtain ⟨c1, c2, c3⟩ := moveStores_spec (last_slot_in_line slot) hl2
      (last_slot_in_line slot - slot) (slot + 1) 0 ((m.bitmap ||| (1 <<< slot)) % 2 ^ 16)
      { m with fgpt := m.fgpt.set slot key_hash } hb1lt (by simp [hmg, hfl])
      (by omega) (by omega) (by omega)
    have hpre : ∀ st ∈ [LeafStore.storeK slot key, LeafStore.storeCh slot ptr] ++
        (moveStores (last_slot_in_line slot) (last_slot_in_line slot - slot) (slot + 1) 0
          ((m.bitmap ||| (1 <<< slot)) % 2 ^ 16)
          { m with fgpt := m.fgpt.set slot key_hash }).1, st.entryTo lp.bitmap := by
      intro st hst
      rcases List.mem_append.1 hst with h | h
      · exact hk st h
      · obtain ⟨t, f, q1, q2, q3, q4⟩ := c1 st h
        rw [q1]
        refine ⟨q3, ?_⟩
        rw [testBit_setBit _ _ _ (hmb ▸ hbm) hs14] at q4
        rw [← hmb]
        simp at q4
        exact q4.1
    refine ⟨_, _, hhigh, hpre, by simp, ?_⟩
    intro k h0 hk1
    simp only [List.length_cons, List.length_nil] at hk1
    have hk1' : k = 1 := by omega
    subst hk1'
    simp only [List.take_succ_cons, List.take_zero]
    apply prefix_word1_ok lp _ _ hpre hlen hfl hfg
    intro i hbit
    show (moveStores (last_slot_in_line slot) (last_slot_in_line slot - slot) (slot + 1) 0
        ((m.bitmap ||| (1 <<< slot)) % 2 ^ 16)
        { m with fgpt := m.fgpt.set slot key_hash }).2.1.fgpt.getD i 0 = _
    rw [c3 i (by right; rw [testBit_setBit _ _ _ (hmb ▸ hbm) hs14, hmb, hbit]; rfl)]
    show (m.fgpt.set slot key_hash).getD i 0 = _
    rw [natList_getD_set _ _ _ _ (by rw [hmg]; omega), if_neg, hmg]
    intro h; subst h
    rw [hmb, hbit] at hsclr
    exact Bool.noConfusion hsclr

/-- C34: the block "leaf is not full" of `insert(key, ptr)` as its sequence of
stores into the leaf (`k(slot)`, `ch(slot)`, the entry copies from line 0,
word 1, word 0; word 0 alone when the slot is in line 0).  On a leaf with a
14-bit bitmap that is not full and is fingerprint-consistent: running all
stores gives the leaf the insert writes; after every prefix of the sequence
the pairs selected by the bitmap then in the leaf are the old ones as long as
the last store (word 0) is missing, and the old ones plus `(key, ptr)` after
it; and after every prefix each slot the bitmap selects has
`fgpt = hashcode1B(key of the slot)`. -/
theorem C34_nonfull_insert_prefixes (lp : bleaf) (key : Int) (ptr : Nat) (n : Nat)
    (hbm : lp.bitmap < 2 ^ 14) (hfl : lp.fgpt.length = 14) (hlen : lp.ent.length = 14)
    (hfull : lp.bitmap ≠ 0x3fff) (hfg : lp.fgptOK) :
    (leafStores { lp.getMeta with lock := 0 } key ptr (hashcode1B key)).foldl LeafStore.apply lp
      = leafPut lp { lp.getMeta with lock := 0 } key ptr (hashcode1B key) ∧
    (n < (leafStores { lp.getMeta with lock := 0 } key ptr (hashcode1B key)).length →
      ∀ e, (leafAfter lp key ptr n).live e ↔ lp.live e) ∧
    ((leafStores { lp.getMeta with lock := 0 } key ptr (hashcode1B key)).length ≤ n →
      ∀ e, (leafAfter lp key ptr n).live e ↔ (lp.live e ∨ e = ⟨key, ptr⟩)) ∧
    (leafAfter lp key ptr n).fgptOK := by
  have hput := leafPut_spec lp { lp.getMeta with lock := 0 } key ptr (hashcode1B key) rfl hbm hlen hfull
  have hputfg : (leafPut lp { lp.getMeta with lock := 0 } key ptr (hashcode1B key)).fgptOK :=
    leafPut_fg lp { lp.getMeta with lock := 0 } key ptr hbm hlen hfl hfull
      (fun i hi hb => hfg i hi hb) (fun i _ hi hb => hfg i hi hb)
  have hrun := leafStores_run lp { lp.getMeta with lock := 0 } key ptr (hashcode1B key)
    hbm hfl hfl hlen hfull
  obtain ⟨pre, tl, heq, hpre, htl0, hmid⟩ :=
    leafStores_shape lp { lp.getMeta with lock := 0 } key ptr (hashcode1B key) rfl rfl
      hbm hfl hlen hfull hfg
  refine ⟨hrun, ?_⟩
  unfold leafAfter
  rw [← hrun] at hput hputfg
  generalize leafStores { lp.getMeta with lock := 0 } key ptr (hashcode1B key) = stores
    at heq hput hputfg
  subst heq
  rcases take_split pre tl n with ⟨hn, ht⟩ | ⟨hn, ht⟩
  · rw [ht]
    obtain ⟨p1, p2⟩ := prefix_entry_ok lp pre n hpre hlen hfg
    refine ⟨fun _ => p1, fun hge => ?_, p2⟩
    rw [List.length_append] at hge
    omega
  · rw [ht]
    by_cases hk : n - pre.length < tl.length
    · obtain ⟨p1, p2⟩ := hmid (n - pre.length) (by omega) hk
      refine ⟨fun _ => p1, fun hge => ?_, p2⟩
      rw [List.length_append] at hge
      omega
    · rw [List.take_of_length_le (by omega)]
      refine ⟨fun hlt => ?_, fun _ => hput.2.2.1, hputfg⟩
      rw [List.length_append] at hlt
      omega

set_option maxRecDepth 100000 in
theorem C34_nonfull_insert_prefixes_witness :
    (exLeaf4.bitmap < 2 ^ 14 ∧ exLeaf4.fgpt.length = 14 ∧ exLeaf4.ent.length = 14 ∧
      exLeaf4.bitmap ≠ 0x3fff ∧ exLeaf4.fgptOK) ∧
    (leafStores { exLeaf4.getMeta with lock := 0 } 5 50 (hashcode1B 5)).length = 6 ∧
    (leafAfter exLeaf4 5 50 5).bitmap = 0xf ∧
    (leafAfter exLeaf4 5 50 6).bitmap = 0x7c ∧
    ((leafStores { exLeaf4.getMeta with lock := 0 } 5 50 (hashcode1B 5)).foldl LeafStore.apply exLeaf4
        = leafPut exLeaf4 { exLeaf4.getMeta with lock := 0 } 5 50 (hashcode1B 5) ∧
      (5 < (leafStores { exLeaf4.getMeta with lock := 0 } 5 50 (hashcode1B 5)).length →
        ∀ e, (leafAfter exLeaf4 5 50 5).live e ↔ exLeaf4.live e) ∧
      ((leafStores { exLeaf4.getMeta with lock := 0 } 5 50 (hashcode1B 5)).length ≤ 5 →
        ∀ e, (leafAfter exLeaf4 5 50 5).live e ↔ (exLeaf4.live e ∨ e = ⟨5, 50⟩)) ∧
      (leafAfter exLeaf4 5 50 5).fgptOK) :=
  ⟨⟨by decide, by decide, by decide, by decide, by unfold bleaf.fgptOK; decide⟩,
   by decide, by decide, by decide,
   C34_nonfull_insert_prefixes exLeaf4 5 50 5 (by decide) (by decide) (by decide) (by decide)
     (by unfold bleaf.fgptOK; decide)⟩

end LBTree


namespace LBTree

/-! ## C13: lock bits across `insert` -/

theorem moveLoop_lock (last : Nat) :
    ∀ (fuel to_ from_ bm : Nat) (lp : bleaf) (m : bleafMeta),
    (moveLoop last fuel to_ from_ bm lp m).2.1.lock = m.lock := by
  intro fuel
  induction fuel with
  | zero => intro to_ from_ bm lp m; rfl
  | succ n ih =>
    intro to_ from_ bm lp m
    rw [moveLoop_succ]
    split
    · split
      · rw [ih]
      · rw [ih]
    · rfl

/-- The publishing block stores the lock bit of the temporary meta. -/
theorem leafPut_lock (lp : bleaf) (m : bleafMeta) (key : Int) (ptr : Nat) (key_hash : Nat) :
    (leafPut lp m key ptr key_hash).lock = m.lock := by
  by_cases h3 : bitScan (bnot32 m.bitmap) - 1 < 3
  · rw [leafPut_low lp m key ptr key_hash h3]
    rfl
  · rw [leafPut_high lp m key ptr key_hash h3]
    show (moveLoop _ _ _ _ _ _ _).2.1.lock = _
    rw [moveLoop_lock]

/-- The lock bits after the leaf part of a split: the new leaf is unlocked, the
old leaf is unlocked unless it is the root. -/
theorem leafSplit_lock (lp new0 : bleaf) (newa : Nat) (root_level key : Int) (ptr hash : Nat) :
    (leafSplit lp new0 newa root_level key ptr hash).lp.lock
      = (if root_level > 0 then 0 else lp.lock) ∧
    (leafSplit lp new0 newa root_level key ptr hash).newp.lock = 0 := by
  by_cases hgt : key > splitKey lp
  · obtain ⟨a, b⟩ := leafSplit_gt lp new0 newa root_level key ptr hash hgt
    rw [a, b]
    exact ⟨rfl, rfl⟩
  · obtain ⟨a, b⟩ := leafSplit_le lp new0 newa root_level key ptr hash (by omega)
    rw [a, b, leafPut_lock]
    exact ⟨rfl, rfl⟩

theorem locksClear_of_treeOK (s : State) (h : TreeOK s) : LocksClear s :=
  ⟨fun l hl => (subtreeOK_leaf s _ _ l h.2 hl).1,
   fun j q hq => (subtreeOK_node s _ _ j q h.2 hq).1⟩

/-- A family of frames by level that holds the children of its inner nodes
holds every frame reachable from one of its frames. -/
theorem reachN_closed (s : State) (M : Nat → Nat → Prop)
    (hcl : ∀ j q, M (j + 1) q → ∀ c : Int, 0 ≤ c → c ≤ (s.node q).num → M j ((s.node q).ch c)) :
    ∀ (i p : Nat), M i p → ∀ j q, reachN s i p j q → M j q := by
  intro i
  induction i with
  | zero => intro p _ j q h; exact absurd h (by simp [reachN])
  | succ i ih =>
    intro p hp j q h
    simp only [reachN] at h
    rcases h with ⟨h1, h2⟩ | ⟨c, c1, c2, c3⟩
    · subst h1 h2; exact hp
    · exact ih _ (hcl i p hp c c1 c2) j q c3

theorem reach_closed (s : State) (M : Nat → Nat → Prop)
    (hcl : ∀ j q, M (j + 1) q → ∀ c : Int, 0 ≤ c → c ≤ (s.node q).num → M j ((s.node q).ch c)) :
    ∀ (i p : Nat), M i p → ∀ l, reach s i p l → M 0 l := by
  intro i
  induction i with
  | zero => intro p hp l h; simp only [reach] at h; subst h; exact hp
  | succ i ih =>
    intro p hp l h
    simp only [reach] at h
    obtain ⟨c, c1, c2, c3⟩ := h
    exact ih _ (hcl i p hp c c1 c2) l c3

/-- Part 1, step 4 of `insert` on a recorded path: the ancestors `1..m` are
locked, where `m` is the first level whose node is not full (the root level
when all are full); nothing else changes. -/
theorem lockFullAncestors_spec (s0 : State) (pt : Path) (pa : Nat → Nat) (pp : Nat → Int)
    (hsh : TreeShape s0) (hpath : PathRec s0 pt pa pp) :
    ∀ (fuel i : Nat) (s s3 : State), i + fuel = s0.root_level.toNat + 1 → 1 ≤ i →
    lockFullAncestors pt s0.root_level fuel i s = Res.ok s3 →
    ∃ m, i ≤ m + 1 ∧ m ≤ s0.root_level.toNat ∧
      (∀ k, i ≤ k → k < m → (s0.node (pa k)).num = NON_LEAF_KEY_NUM) ∧
      (m < s0.root_level.toNat → i ≤ m ∧ (s0.node (pa m)).num ≠ NON_LEAF_KEY_NUM) ∧
      (i ≤ s0.root_level.toNat → i ≤ m) ∧
      (∀ q, (∀ k, i ≤ k → k ≤ m → q ≠ pa k) → s3.node q = s.node q) ∧
      (∀ k, i ≤ k → k ≤ m → s3.node (pa k) = (s.node (pa k)).setLock 1) ∧
      s3.leaf = s.leaf ∧ s3.root_level = s.root_level ∧ s3.tree_root = s.tree_root ∧
      s3.first_leaf = s.first_leaf ∧ s3.nvmpool = s.nvmpool ∧ s3.dpool = s.dpool := by
  intro fuel
  induction fuel with
  | zero =>
    intro i s s3 hi h1 h
    simp only [lockFullAncestors, Res.ok.injEq] at h
    subst h
    exact ⟨s0.root_level.toNat, by omega, le_refl _, fun k h1 h2 => by omega,
      fun h => by omega, fun h => by omega, fun q _ => rfl, fun k h1 h2 => by omega,
      rfl, rfl, rfl, rfl, rfl, rfl⟩
  | succ n ih =>
    intro i s s3 hi h1 h
    have hiL : i ≤ s0.root_level.toNat := by omega
    have hiL' : (i : Int) ≤ s0.root_level := by omega
    obtain ⟨q1, _, q3, _, _, q6, _⟩ := hpath.2 i h1 hiL
    unfold lockFullAncestors at h
    simp only [hiL', if_true, q1, q3] at h
    by_cases hnum : (s0.node (pa i)).num = NON_LEAF_KEY_NUM
    · have hb : ((s0.node (pa i)).num == NON_LEAF_KEY_NUM) = true := by simp [hnum]
      simp only [hb, Bool.not_true, Bool.false_eq_true, if_false] at h
      obtain ⟨m, m1, m2, m3, m4, m5, m6, m7, m8, m9, m10, m11, m12, m13⟩ :=
        ih (i + 1) (s.setNode (pa i) ((s.node (pa i)).setLock 1)) s3 (by omega) (by omega) h
      have hne : ∀ k, i + 1 ≤ k → k ≤ s0.root_level.toNat → pa k ≠ pa i := by
        intro k hk1 hk2 he
        have := pathRec_inj s0 pt pa pp hsh hpath k i (by omega) hk2 h1 hiL he
        omega
      refine ⟨m, by omega, m2, ?_, ?_, fun _ => by omega, ?_, ?_, m8, m9, m10, m11, m12, m13⟩
      · intro k hk1 hk2
        by_cases hki : k = i
        · subst hki; exact hnum
        · exact m3 k (by omega) hk2
      · intro hm
        obtain ⟨a, b⟩ := m4 hm
        exact ⟨by omega, b⟩
      · intro q hq
        rw [m6 q (fun k hk1 hk2 => hq k (by omega) hk2)]
        have := hq i (le_refl _) (by omega)
        simp [State.setNode, this]
      · intro k hk1 hk2
        by_cases hki : k = i
        · subst hki
          rw [m6 (pa k) (fun k' hk1' hk2' => (hne k' hk1' (by omega)).symm)]
          simp [State.setNode]
        · rw [m7 k (by omega) hk2]
          have := hne k (by omega) (by omega)
          simp [State.setNode, this]
    · have hb : ((s0.node (pa i)).num == NON_LEAF_KEY_NUM) = false := by simp [hnum]
      simp only [hb, Bool.not_false, if_true, Res.ok.injEq] at h
      subst h
      refine ⟨i, by omega, hiL, fun k h1 h2 => by omega, fun _ => ⟨le_refl _, hnum⟩,
        fun _ => le_refl _, ?_, ?_, rfl, rfl, rfl, rfl, rfl, rfl⟩
      · intro q hq
        have := hq i (le_refl _) (le_refl _)
        simp [State.setNode, this]
      · intro k hk1 hk2
        have : k = i := by omega
        subst this
        simp [State.setNode]

end LBTree


namespace LBTree

/-! ## Part 3 of `insert`: frames by level -/

theorem InsM_mono (s0 : State) (nl R R2 j x : Nat) (h : InsM s0 nl R j x) (hR : R ≤ R2) :
    InsM s0 nl R2 j x := by
  rcases h with h | ⟨a, b, c⟩ | h
  · exact Or.inl h
  · exact Or.inr (Or.inl ⟨a, by omega, c⟩)
  · exact Or.inr (Or.inr h)

/-- The children of a node of the tree are frames of the level below. -/
theorem old_child (s0 : State) (nl R j q : Nat) (c : Int) (hj : 1 ≤ j)
    (hq : reachN s0 s0.root_level.toNat s0.tree_root j q) (h0 : 0 ≤ c)
    (h1 : c ≤ (s0.node q).num) : InsM s0 nl R (j - 1) ((s0.node q).ch c) := by
  left
  by_cases h : j = 1
  · subst h
    right
    exact ⟨rfl, reach_step s0 _ _ q c hq h0 h1⟩
  · left
    obtain ⟨k, rfl⟩ : ∃ k, j = k + 2 := ⟨j - 2, by omega⟩
    exact ⟨by omega, reachN_step s0 _ _ k q c hq h0 h1⟩

theorem drop_head (l : List Nat) (k a : Nat) (r : List Nat) (h : l.drop k = a :: r) :
    l[k]? = some a ∧ l.drop (k + 1) = r := by
  constructor
  · have := List.getElem?_drop l k 0
    rw [h] at this
    simpa using this.symm
  · rw [← List.tail_drop, h]; rfl

theorem nodup_index (l : List Nat) (hn : l.Nodup) (i j a : Nat) (h1 : l[i]? = some a)
    (h2 : l[j]? = some a) : i = j := by
  obtain ⟨hi, e1⟩ := List.getElem?_eq_some.1 h1
  obtain ⟨hj, e2⟩ := List.getElem?_eq_some.1 h2
  exact (List.Nodup.getElem_inj_iff hn).1 (e1.trans e2.symm)

/-- What the setting says about the node of the path at level `k`. -/
theorem insCtx_path (s0 : State) (pt : Path) (pa : Nat → Nat) (pp : Nat → Int) (sL : State)
    (m : Nat) (h : InsCtx s0 pt pa pp sL m) (k : Nat) (hk1 : 1 ≤ k)
    (hk2 : k ≤ s0.root_level.toNat) :
    pt.parray k = some (pa k) ∧ pt.ppos k = some (pp k) ∧
    reachN s0 s0.root_level.toNat s0.tree_root k (pa k) ∧
    (s0.node (pa k)).ent.length = 16 ∧ 0 ≤ (s0.node (pa k)).num ∧
    (s0.node (pa k)).num ≤ NON_LEAF_KEY_NUM ∧ 0 ≤ pp k ∧ pp k ≤ (s0.node (pa k)).num ∧
    (sL.node (pa k)).ent.length = 16 ∧ (sL.node (pa k)).num = (s0.node (pa k)).num ∧
    (∀ c : Int, 0 ≤ c → (sL.node (pa k)).ch c = (s0.node (pa k)).ch c) ∧
    (∀ a ∈ dpoolSeq (s0.root_level.toNat + 1) s0, a ≠ pa k) := by
  obtain ⟨hok, hsh, hpool, hpath, _, _, _, hL1, hL2⟩ := h
  obtain ⟨q1, q2, _, q4, q5, q6, _⟩ := hpath.2 k hk1 hk2
  obtain ⟨l16, n15⟩ := hsh.1 k _ q6
  obtain ⟨_, n0, _⟩ := subtreeOK_node s0 _ _ k _ hok.2 q6
  have hsl : sL.node (pa k) = s0.node (pa k) ∨ sL.node (pa k) = (s0.node (pa k)).setLock 1 := by
    by_cases hm : k ≤ m
    · right; exact hL2 k hk1 hm
    · left
      apply hL1
      intro k2 h1 h2 he
      have := pathRec_inj s0 pt pa pp hsh hpath k k2 hk1 hk2 h1 (by omega) he
      omega
  refine ⟨q1, q2, q6, l16, n0, n15, q4, q5, ?_, ?_, ?_, ?_⟩
  · rcases hsl with e | e
    · rw [e]; exact l16
    · rw [e, bnode.length_setLock]; exact l16
  · rcases hsl with e | e
    · rw [e]
    · rw [e, bnode.num_setLock _ _ (by omega)]
  · intro c hc
    rcases hsl with e | e
    · rw [e]
    · rw [e, bnode.ch_setLock _ _ _ hc]
  · intro a ha he
    exact (hpool.2 a ha).2 k (he ▸ q6)

/-- A node of the tree that is not on the locked part of the path is as in `s0`. -/
theorem insCtx_off (s0 : State) (pt : Path) (pa : Nat → Nat) (pp : Nat → Int) (sL : State)
    (m : Nat) (h : InsCtx s0 pt pa pp sL m) (j q : Nat)
    (hq : reachN s0 s0.root_level.toNat s0.tree_root j q) (hne : j ≤ m → q ≠ pa j) :
    sL.node q = s0.node q := by
  obtain ⟨hok, hsh, hpool, hpath, _, hm, _, hL1, hL2⟩ := h
  apply hL1
  intro k hk1 hk2 he
  obtain ⟨_, _, _, _, _, q6, _⟩ := hpath.2 k hk1 (by omega)
  have : j = k := hsh.2.1 j k q hq (he ▸ q6)
  subst this
  exact hne hk2 he

end LBTree


namespace LBTree

/-! ## Part 3 of `insert`: the exits and the round of the loop -/

theorem State.node_setNode_same (s : State) (a : Nat) (n : bnode) : (s.setNode a n).node a = n := by
  simp [State.setNode]

theorem State.node_setNode_other (s : State) (a b : Nat) (n : bnode) (h : b ≠ a) :
    (s.setNode a n).node b = s.node b := by
  simp [State.setNode, h]

/-- The root of `s0` is a frame of its root level. -/
theorem root_atLevel (s0 : State) (nl R : Nat) :
    InsM s0 nl R s0.root_level.toNat s0.tree_root := by
  left
  by_cases h : s0.root_level.toNat = 0
  · right
    rw [h]
    exact ⟨rfl, rfl⟩
  · left
    obtain ⟨i, hi⟩ : ∃ i, s0.root_level.toNat = i + 1 := ⟨s0.root_level.toNat - 1, by omega⟩
    rw [hi]
    exact ⟨by omega, reachN_top s0 i _⟩

/-- The node of the path at the level being worked on is still as Part 1 left it. -/
theorem insInv_cur (s0 : State) (pt : Path) (pa : Nat → Nat) (pp : Nat → Int) (sL : State)
    (m nl u ptr : Nat) (s : State) (hc : InsCtx s0 pt pa pp sL m)
    (hinv : InsInv s0 pa sL nl u ptr s) (hu : u + 1 ≤ s0.root_level.toNat) :
    s.node (pa (u + 1)) = sL.node (pa (u + 1)) := by
  obtain ⟨_, _, _, ib, _⟩ := hinv
  apply ib
  intro j hj1 hj2
  obtain ⟨_, _, _, _, _, _, _, _, _, _, _, hfresh⟩ :=
    insCtx_path s0 pt pa pp sL m hc (u + 1) (by omega) hu
  refine ⟨?_, ?_⟩
  · intro he
    have := pathRec_inj s0 pt pa pp hc.2.1 hc.2.2.2.1 (u + 1) j (by omega) hu hj1 (by omega) he
    omega
  · intro he
    exact hfresh _ (List.getElem?_mem he) rfl

/-- A frame of the tree or a new frame of a level `1..u`, other than the node
of the path at level `u + 1`, once the levels `1..u` are done: it is unlocked
and its children are frames of the level below. -/
theorem insInv_done (s0 : State) (pt : Path) (pa : Nat → Nat) (pp : Nat → Int) (sL : State)
    (m nl u ptr : Nat) (s : State) (hc : InsCtx s0 pt pa pp sL m)
    (hinv : InsInv s0 pa sL nl u ptr s) (hmu : m ≤ u + 1) (j q : Nat) (hj : 1 ≤ j)
    (hq : InsM s0 nl u j q) (hne : ¬ (j = u + 1 ∧ q = pa (u + 1)))
    (hroot : ¬ (j = s0.root_level.toNat ∧ q = pa j ∧ j ≤ u)) :
    (s.node q).lock = 0 ∧
    ∀ c : Int, 0 ≤ c → c ≤ (s.node q).num → InsM s0 nl u (j - 1) ((s.node q).ch c) := by
  have hc2 : InsCtx s0 pt pa pp sL m := hc
  obtain ⟨hok, hsh, hpool, hpath, _, hmL, _, _, _⟩ := hc
  obtain ⟨iu, _, _, ib, ic, _, _⟩ := hinv
  rcases hq with hq | ⟨_, hj2, hd⟩ | ⟨h0, _⟩
  · rcases hq with ⟨_, hr⟩ | ⟨h0, _⟩
    · by_cases hon : j ≤ u ∧ q = pa j
      · obtain ⟨c1, c2⟩ := ic j hj hon.1 q (Or.inl hon.2)
        refine ⟨c1 ?_, c2⟩
        left
        by_contra hlt
        exact hroot ⟨by omega, hon.2, hon.1⟩
      · have hoff : ∀ k, 1 ≤ k → k ≤ u + 1 → k ≤ s0.root_level.toNat → q ≠ pa k := by
          intro k hk1 hk2 hk3 he
          obtain ⟨_, _, r3, _⟩ := insCtx_path s0 pt pa pp sL m hc2 k hk1 hk3
          have : j = k := hsh.2.1 j k q hr (he ▸ r3)
          subst this
          by_cases hju : j = u + 1
          · exact hne ⟨hju, hju ▸ he⟩
          · exact hon ⟨by omega, he⟩
        have e1 : s.node q = sL.node q := by
          apply ib
          intro k hk1 hk2
          refine ⟨hoff k hk1 (by omega) (by omega), ?_⟩
          intro he
          exact (hpool.2 q (List.getElem?_mem he)).2 j hr
        have e2 : sL.node q = s0.node q :=
          insCtx_off s0 pt pa pp sL m hc2 j q hr (fun hjm => hoff j hj (by omega) (by omega))
        rw [e1, e2]
        obtain ⟨l0, _, _⟩ := subtreeOK_node s0 _ _ j q hok.2 hr
        exact ⟨l0, fun c h0 h1 => old_child s0 nl u j q c hj hr h0 h1⟩
    · omega
  · have hfresh : q ≠ pa j := by
      intro he
      obtain ⟨_, _, r3, _⟩ := insCtx_path s0 pt pa pp sL m hc2 j hj (by omega)
      exact (hpool.2 q (List.getElem?_mem hd)).2 j (he ▸ r3)
    obtain ⟨c1, c2⟩ := ic j hj hj2 q (Or.inr hd)
    exact ⟨c1 (Or.inr hfresh), c2⟩
  · omega

end LBTree


namespace LBTree

/-- The new entry handed to level `u + 1` is a frame of level `u`. -/
theorem insInv_ptr (s0 : State) (pa : Nat → Nat) (sL : State) (nl u ptr : Nat) (s : State)
    (hinv : InsInv s0 pa sL nl u ptr s) (R : Nat) (hR : u ≤ R) : InsM s0 nl R u ptr := by
  obtain ⟨_, _, _, _, _, _, ie⟩ := hinv
  rcases ie with ⟨h0, hp⟩ | ⟨h1, hp⟩
  · exact Or.inr (Or.inr ⟨h0, hp⟩)
  · exact Or.inr (Or.inl ⟨h1, hR, hp⟩)

/-- The children of the node of the path at level `u + 1`, as it stands at the
head of the loop, are frames of level `u`. -/
theorem insInv_cur_child (s0 : State) (pt : Path) (pa : Nat → Nat) (pp : Nat → Int) (sL : State)
    (m nl u ptr : Nat) (s : State) (hc : InsCtx s0 pt pa pp sL m)
    (hinv : InsInv s0 pa sL nl u ptr s) (hu : u + 1 ≤ s0.root_level.toNat) (R : Nat)
    (c : Int) (h0 : 0 ≤ c) (h1 : c ≤ (s.node (pa (u + 1))).num) :
    InsM s0 nl R u ((s.node (pa (u + 1))).ch c) := by
  have e := insInv_cur s0 pt pa pp sL m nl u ptr s hc hinv hu
  obtain ⟨_, _, r3, _, _, _, _, _, _, r10, r11, _⟩ :=
    insCtx_path s0 pt pa pp sL m hc (u + 1) (by omega) hu
  rw [e, r10] at h1
  rw [e, r11 c h0]
  exact old_child s0 nl R (u + 1) _ c (by omega) r3 h0 h1

/-- Exit of Part 3 through a node that is not full. -/
theorem ins_nonfull (s0 : State) (pt : Path) (pa : Nat → Nat) (pp : Nat → Int) (sL : State)
    (m nl u ptr : Nat) (s : State) (key : Int) (hc : InsCtx s0 pt pa pp sL m)
    (hinv : InsInv s0 pa sL nl u ptr s) (hu : u + 1 ≤ s0.root_level.toNat)
    (hn : (s.node (pa (u + 1))).num < NON_LEAF_KEY_NUM) :
    InsPost s0 nl (s.setNode (pa (u + 1))
      (nodeInsert (s.node (pa (u + 1))) (pp (u + 1) + 1) key ptr)) := by
  have e := insInv_cur s0 pt pa pp sL m nl u ptr s hc hinv hu
  obtain ⟨_, _, r3, r4, r5, r6, r7, r8, r9, r10, r11, rfresh⟩ :=
    insCtx_path s0 pt pa pp sL m hc (u + 1) (by omega) hu
  have hnum : (s.node (pa (u + 1))).num = (s0.node (pa (u + 1))).num := by rw [e, r10]
  have hlen : (s.node (pa (u + 1))).ent.length = 16 := by rw [e]; exact r9
  have hmu : m ≤ u + 1 := by
    by_contra hlt
    have := hc.2.2.2.2.2.2.1 (u + 1) (by omega) (by omega)
    rw [hnum, this] at hn
    exact absurd hn (by decide)
  have h15 : NON_LEAF_KEY_NUM = 15 := rfl
  obtain ⟨n1, n2, n3, n4⟩ := nodeInsert_spec (s.node (pa (u + 1))) (pp (u + 1) + 1) key ptr hlen
    (by rw [hnum]; exact r5) (by rw [h15] at hn; omega) (by omega) (by rw [hnum]; omega)
  refine ⟨u, hc.1.1.trans_eq hinv.2.1.symm, ?_, ?_⟩
  · show InsM s0 nl u s.root_level.toNat s.tree_root
    rw [hinv.2.1, hinv.2.2.1]
    exact root_atLevel s0 nl u
  · intro j hj q hq
    by_cases hcur : j = u + 1 ∧ q = pa (u + 1)
    · obtain ⟨hj1, hq1⟩ := hcur
      subst hj1 hq1
      rw [State.node_setNode_same]
      refine ⟨n2, ?_⟩
      intro c h0 h1
      rw [n1] at h1
      rcases n4 c h0 h1 with hp | ⟨c0, a, b, hp⟩
      · rw [hp]
        exact insInv_ptr s0 pa sL nl u ptr s hinv u (le_refl _)
      · rw [hp]
        exact insInv_cur_child s0 pt pa pp sL m nl u ptr s hc hinv hu u c0 a b
    · have hqn : q ≠ pa (u + 1) := by
        intro he
        rcases hq with hq | ⟨_, hj2, hd⟩ | ⟨h0, _⟩
        · rcases hq with ⟨_, hr⟩ | ⟨h0, _⟩
          · have : j = u + 1 := hc.2.1.2.1 j (u + 1) q hr (he ▸ r3)
            exact hcur ⟨this, he⟩
          · omega
        · exact rfresh q (List.getElem?_mem hd) he
        · omega
      rw [State.node_setNode_other _ _ _ _ hqn]
      exact insInv_done s0 pt pa pp sL m nl u ptr s hc hinv hmu j q hj hq hcur
        (fun h => by omega)

end LBTree


namespace LBTree

theorem bnode.k_setK_ne (p : bnode) (i j : Int) (v : Int) (hi : 0 ≤ i) (hj : 0 ≤ j) (hne : j ≠ i) :
    (p.setK i v).k j = p.k j := by
  unfold bnode.setK bnode.k
  by_cases hlen : i.toNat < p.ent.length
  · rw [bnode.nodeEntAt_setEnt p i j _ hi hj hlen, if_neg hne]
  · have : p.setEnt i ⟨v, p.ch i⟩ = p := by
      unfold bnode.setEnt
      rw [List.set_eq_of_length_le (by omega)]
    rw [this]

/-- The image of the new root written by the end of Part 3. -/
theorem newRoot_node (n : bnode) (root ptr : Nat) (key : Int) (hl : n.ent.length = 16) :
    ((((((n.setNum 1).setLock 1).setCh 0 root).setCh 1 ptr).setK 1 key).setLock 0).lock = 0 ∧
    ((((((n.setNum 1).setLock 1).setCh 0 root).setCh 1 ptr).setK 1 key).setLock 0).num = 1 ∧
    ((((((n.setNum 1).setLock 1).setCh 0 root).setCh 1 ptr).setK 1 key).setLock 0).ch 0 = root ∧
    ((((((n.setNum 1).setLock 1).setCh 0 root).setCh 1 ptr).setK 1 key).setLock 0).ch 1 = ptr := by
  have l1 : ((n.setNum 1).setLock 1).ent.length = 16 := by
    rw [bnode.length_setLock, bnode.length_setNum]; exact hl
  have l2 : (((n.setNum 1).setLock 1).setCh 0 root).ent.length = 16 := by
    rw [bnode.length_setCh]; exact l1
  have l3 : ((((n.setNum 1).setLock 1).setCh 0 root).setCh 1 ptr).ent.length = 16 := by
    rw [bnode.length_setCh]; exact l2
  have l4 : (((((n.setNum 1).setLock 1).setCh 0 root).setCh 1 ptr).setK 1 key).ent.length = 16 := by
    rw [bnode.length_setK]; exact l3
  refine ⟨?_, ?_, ?_, ?_⟩
  · exact bnode.lock_setLock _ 0 (by omega) (by decide)
  · rw [bnode.num_setLock _ _ (by omega)]
    unfold bnode.num
    rw [bnode.k_setK_ne _ 1 0 _ (by decide) (by decide) (by decide),
      bnode.k_setCh _ 1 0 _ (by decide) (by decide), bnode.k_setCh _ 0 0 _ (by decide) (by decide)]
    have := bnode.num_setLock (n.setNum 1) 1 (by rw [bnode.length_setNum]; omega)
    unfold bnode.num at this
    rw [this]
    have := bnode.num_setNum n 1 (by omega)
    unfold bnode.num at this
    exact this
  · rw [bnode.ch_setLock _ _ _ (by decide), bnode.ch_setK _ 1 0 _ (by decide) (by decide),
      bnode.ch_setCh _ 1 0 _ (by decide) (by decide) (by rw [l2]; decide),
      if_neg (by decide),
      bnode.ch_setCh _ 0 0 _ (by decide) (by decide) (by rw [l1]; decide), if_pos rfl]
  · rw [bnode.ch_setLock _ _ _ (by decide), bnode.ch_setK _ 1 1 _ (by decide) (by decide),
      bnode.ch_setCh _ 1 1 _ (by decide) (by decide) (by rw [l2]; decide), if_pos rfl]

theorem bnode.setLock_short (p : bnode) (l : Int) (h : ¬ 0 < p.ent.length) : p.setLock l = p := by
  unfold bnode.setLock bnode.setK bnode.setEnt
  congr 1
  apply List.set_eq_of_length_le
  show p.ent.length ≤ 0
  omega

theorem bnode.lock_short (p : bnode) (h : ¬ 0 < p.ent.length) : p.lock = 0 := by
  have : p.ent = [] := List.eq_nil_of_length_eq_zero (by omega)
  unfold bnode.lock bnode.k bnode.entAt
  rw [this]
  rfl

/-- After `p->lock()= 0` the lock bit is 0, whatever the frame. -/
theorem bnode.lock_setLock_zero (p : bnode) : (p.setLock 0).lock = 0 := by
  by_cases h : 0 < p.ent.length
  · exact bnode.lock_setLock p 0 h (by decide)
  · rw [bnode.setLock_short p 0 h]
    exact bnode.lock_short p h

theorem bnode.num_setLock_any (p : bnode) (l : Int) : (p.setLock l).num = p.num := by
  by_cases h : 0 < p.ent.length
  · exact bnode.num_setLock p l h
  · rw [bnode.setLock_short p l h]

/-- Exit of Part 3 through the replacement of the root. -/
theorem ins_newroot (s0 : State) (pt : Path) (pa : Nat → Nat) (pp : Nat → Int) (sL : State)
    (m nl u ptr : Nat) (s s' : State) (key lev : Int) (hc : InsCtx s0 pt pa pp sL m)
    (hinv : InsInv s0 pa sL nl u ptr s) (hu : u = s0.root_level.toNat)
    (hlev : lev = (s0.root_level.toNat : Int) + 1)
    (h : newRoot s s0.root_level lev key ptr = Res.ok s') : InsPost s0 nl s' := by
  have hc2 : InsCtx s0 pt pa pp sL m := hc
  obtain ⟨hok, hsh, hpool, hpath, hroot, hmL, _, hL1, hL2⟩ := hc
  have hinv2 : InsInv s0 pa sL nl u ptr s := hinv
  obtain ⟨_, irl, itr, ib, ic, id, ie⟩ := hinv
  unfold newRoot at h
  rcases hal : mempool_alloc_node s with _ | ⟨newa, s1⟩
  · simp [hal] at h
  · simp only [hal, Res.ok.injEq] at h
    obtain ⟨_, f2, _, f4, f5, _⟩ := mempool_alloc_node_frame s s1 newa hal
    have hd0 : (dpoolSeq (s0.root_level.toNat + 1) s0)[u]? = some newa := by
      have h1 : dpoolSeq 1 s = [newa] := by
        rw [dpoolSeq_succ 0 s s1 newa hal]; rfl
      have h2 : s0.root_level.toNat + 1 - u = 1 := by omega
      rw [h2, h1] at id
      exact (drop_head _ u newa [] id.symm).1
    have hmem := List.getElem?_mem hd0
    obtain ⟨hl16, hfresh⟩ := hpool.2 newa hmem
    have hnp : ∀ k, 1 ≤ k → k ≤ s0.root_level.toNat → newa ≠ pa k := by
      intro k hk1 hk2 he
      obtain ⟨_, _, r3, _⟩ := insCtx_path s0 pt pa pp sL m hc2 k hk1 hk2
      exact hfresh k (he ▸ r3)
    have hnew0 : s.node newa = s0.node newa := by
      rw [ib newa (by
        intro j hj1 hj2
        refine ⟨hnp j hj1 (by omega), ?_⟩
        intro he
        have := nodup_index _ hpool.1 _ _ _ he hd0
        omega)]
      exact hL1 newa (fun k hk1 hk2 => hnp k hk1 (by omega))
    have hnodeNew : s'.node newa =
        ((((((s0.node newa).setNum 1).setLock 1).setCh 0 s0.tree_root).setCh 1 ptr).setK 1
          key).setLock 0 := by
      subst h
      by_cases hL0 : s0.root_level > 0
      · have hrn : s0.tree_root ≠ newa := by
          intro he
          exact hnp _ (by omega) (le_refl _) (by rw [hroot (by omega)]; exact he.symm)
        have hrn2 : newa ≠ s0.tree_root := fun e => hrn e.symm
        simp only [hL0, if_true, State.setNode, f5, itr, f2, hnew0, hrn2, if_false]
      · simp only [hL0, if_false, State.setNode, State.setLeaf, f5, itr, f2, hnew0, if_true]
    have hnodeOld : ∀ q, q ≠ newa →
        ((1 ≤ s0.root_level.toNat ∧ q = s0.tree_root) → s'.node q = (s.node q).setLock 0) ∧
        (¬ (1 ≤ s0.root_level.toNat ∧ q = s0.tree_root) → s'.node q = s.node q) := by
      intro q hq
      subst h
      by_cases hL0 : s0.root_level > 0
      · by_cases hqr : q = s0.tree_root
        · refine ⟨fun _ => ?_, fun hn => absurd ⟨by omega, hqr⟩ hn⟩
          have hrn : s0.tree_root ≠ newa := hqr ▸ hq
          simp only [hL0, if_true, State.setNode, f5, itr, f2, hq, if_false, hqr, hrn]
        · refine ⟨fun hh => absurd hh.2 hqr, fun _ => ?_⟩
          simp only [hL0, if_true, State.setNode, f5, itr, f2, hq, if_false, hqr]
      · refine ⟨fun hh => by omega, fun _ => ?_⟩
        simp only [hL0, if_false, State.setNode, State.setLeaf, f5, itr, f2, hq]
    have hrl : s'.root_level = lev ∧ s'.tree_root = newa := by
      subst h
      by_cases hL0 : s0.root_level > 0
      · simp only [hL0, if_true, State.setNode]
        exact ⟨trivial, trivial⟩
      · simp only [hL0, if_false, State.setNode, State.setLeaf]
        exact ⟨trivial, trivial⟩
    obtain ⟨w1, w2, w3, w4⟩ := newRoot_node (s0.node newa) s0.tree_root ptr key hl16
    rw [← hnodeNew] at w1 w2 w3 w4
    have hlevel : ∀ j q, 1 ≤ j → InsM s0 nl (u + 1) j q → q ≠ newa → InsM s0 nl u j q := by
      intro j q hj hq hqn
      rcases hq with hq | ⟨a, b, c⟩ | hq
      · exact Or.inl hq
      · refine Or.inr (Or.inl ⟨a, ?_, c⟩)
        by_contra hgt
        have : j - 1 = u := by omega
        rw [this, hd0] at c
        exact hqn (Option.some.inj c).symm
      · exact Or.inr (Or.inr hq)
    have hjle : ∀ j q, 1 ≤ j → InsM s0 nl u j q → j ≤ u := by
      intro j q hj hq
      rcases hq with hq | ⟨a, b, c⟩ | hq
      · rcases hq with ⟨_, hr⟩ | ⟨h0, _⟩
        · have := (reachN_level s0 _ _ _ _ hr).2
          omega
        · omega
      · exact b
      · omega
    refine ⟨u + 1, by rw [hrl.1, hlev]; omega, ?_, ?_⟩
    · rw [hrl.1, hrl.2, hlev]
      have : ((s0.root_level.toNat : Int) + 1).toNat = u + 1 := by omega
      rw [this]
      exact Or.inr (Or.inl ⟨by omega, le_refl _, by simpa using hd0⟩)
    · intro j hj q hq
      by_cases hqn : q = newa
      · subst hqn
        have hj1 : j = u + 1 := by
          rcases hq with hq | ⟨a, b, c⟩ | hq
          · rcases hq with ⟨_, hr⟩ | ⟨h0, _⟩
            · exact absurd hr (hfresh j)
            · omega
          · have := nodup_index _ hpool.1 _ _ _ c hd0
            omega
          · omega
        subst hj1
        refine ⟨w1, ?_⟩
        intro c h0 h1
        rw [w2] at h1
        have hcc : c = 0 ∨ c = 1 := by omega
        rcases hcc with e | e
        · subst e
          rw [w3]
          show InsM s0 nl (u + 1) u s0.tree_root
          rw [hu]
          exact root_atLevel s0 nl _
        · subst e
          rw [w4]
          exact insInv_ptr s0 pa sL nl u ptr s hinv2 (u + 1) (by omega)
      · have hq2 := hlevel j q hj hq hqn
        have hju := hjle j q hj hq2
        by_cases hold : j = s0.root_level.toNat ∧ q = pa j
        · obtain ⟨c1, c2⟩ := ic j hj hju q (Or.inl hold.2)
          have hqr : q = s0.tree_root := by
            rw [hold.2, hold.1]
            exact hroot (by omega)
          have hnd : s'.node q = (s.node q).setLock 0 :=
            (hnodeOld q hqn).1 ⟨by omega, hqr⟩
          rw [hnd]
          refine ⟨bnode.lock_setLock_zero _, ?_⟩
          intro c h0 h1
          rw [bnode.num_setLock_any] at h1
          rw [bnode.ch_setLock _ _ _ h0]
          exact InsM_mono s0 nl u (u + 1) _ _ (c2 c h0 h1) (by omega)
        · have hnd : s'.node q = s.node q := by
            apply (hnodeOld q hqn).2
            rintro ⟨hL1', e1⟩
            apply hold
            obtain ⟨_, _, r3, _, _, _, _, _, _, _, _, rfr⟩ :=
              insCtx_path s0 pt pa pp sL m hc2 s0.root_level.toNat hL1' (le_refl _)
            have hqp : q = pa s0.root_level.toNat := by rw [e1, hroot hL1']
            rcases hq2 with hq3 | ⟨_, _, c⟩ | hq3
            · rcases hq3 with ⟨_, hr⟩ | ⟨h0, _⟩
              · have : j = s0.root_level.toNat := hsh.2.1 j _ q hr (hqp ▸ r3)
                exact ⟨this, this ▸ hqp⟩
              · omega
            · exact absurd hqp (rfr q (List.getElem?_mem c))
            · omega
          rw [hnd]
          obtain ⟨d1, d2⟩ := insInv_done s0 pt pa pp sL m nl u ptr s hc2 hinv2 (by omega) j q hj hq2
            (by omega) (fun hh => hold ⟨hh.1, hh.2.1⟩)
          exact ⟨d1, fun c h0 h1 => InsM_mono s0 nl u (u + 1) _ _ (d2 c h0 h1) (by omega)⟩

end LBTree


namespace LBTree

/-- A round of the loop of Part 3 on a full node keeps the invariant. -/
theorem ins_split (s0 : State) (pt : Path) (pa : Nat → Nat) (pp : Nat → Int) (sL : State)
    (m nl u ptr : Nat) (s s1 : State) (key : Int) (newa : Nat) (unlock : Bool)
    (hc : InsCtx s0 pt pa pp sL m)
    (hinv : InsInv s0 pa sL nl u ptr s) (hu : u + 1 ≤ s0.root_level.toNat)
    (hfull : ¬ (s.node (pa (u + 1))).num < NON_LEAF_KEY_NUM)
    (hun : u + 1 < s0.root_level.toNat → unlock = true)
    (hal : mempool_alloc_node s = some (newa, s1)) :
    InsInv s0 pa sL nl (u + 1) newa
      ((s1.setNode (pa (u + 1))
          (nodeSplit (s1.node (pa (u + 1))) (s1.node newa) (pp (u + 1) + 1) key ptr unlock).1).setNode
        newa (nodeSplit (s1.node (pa (u + 1))) (s1.node newa) (pp (u + 1) + 1) key ptr unlock).2.1) := by
  have hc2 : InsCtx s0 pt pa pp sL m := hc
  obtain ⟨hok, hsh, hpool, hpath, hroot, hmL, _, hL1, hL2⟩ := hc
  have hinv2 : InsInv s0 pa sL nl u ptr s := hinv
  obtain ⟨_, irl, itr, ib, ic, id, ie⟩ := hinv
  have e := insInv_cur s0 pt pa pp sL m nl u ptr s hc2 hinv2 hu
  obtain ⟨_, _, r3, r4, r5, r6, r7, r8, r9, r10, r11, rfresh⟩ :=
    insCtx_path s0 pt pa pp sL m hc2 (u + 1) (by omega) hu
  have h15 : NON_LEAF_KEY_NUM = 15 := rfl
  have hnum : (s.node (pa (u + 1))).num = 15 := by
    rw [e, r10] at hfull ⊢
    rw [h15] at hfull r6
    omega
  have hlen : (s.node (pa (u + 1))).ent.length = 16 := by rw [e]; exact r9
  obtain ⟨_, f2, _, f4, f5, _⟩ := mempool_alloc_node_frame s s1 newa hal
  have hdp : s0.root_level.toNat + 1 - u = (s0.root_level.toNat - u) + 1 := by omega
  rw [hdp, dpoolSeq_succ _ s s1 newa hal] at id
  obtain ⟨hd0, hdrest⟩ := drop_head _ u newa _ id.symm
  have hmem := List.getElem?_mem hd0
  obtain ⟨hl16, hfresh⟩ := hpool.2 newa hmem
  have hnp : ∀ k, 1 ≤ k → k ≤ s0.root_level.toNat → newa ≠ pa k := by
    intro k hk1 hk2 he
    obtain ⟨_, _, r3', _⟩ := insCtx_path s0 pt pa pp sL m hc2 k hk1 hk2
    exact hfresh k (he ▸ r3')
  have hnew0 : s.node newa = s0.node newa := by
    rw [ib newa (by
      intro j hj1 hj2
      refine ⟨hnp j hj1 (by omega), ?_⟩
      intro he
      have := nodup_index _ hpool.1 _ _ _ he hd0
      omega)]
    exact hL1 newa (fun k hk1 hk2 => hnp k hk1 (by omega))
  rw [f2]
  obtain ⟨s1', s2', s3', s4', s5', s6'⟩ := nodeSplit_children (s.node (pa (u + 1))) (s.node newa)
    (pp (u + 1) + 1) key ptr unlock hlen (by rw [hnew0]; exact hl16) hnum (by omega)
    (by rw [e, r10] at hnum; omega)
  generalize nodeSplit (s.node (pa (u + 1))) (s.node newa) (pp (u + 1) + 1) key ptr unlock = r
    at s1' s2' s3' s4' s5' s6'
  have hpn : pa (u + 1) ≠ newa := fun h => hnp (u + 1) (by omega) hu h.symm
  have hnodeA : ((s1.setNode (pa (u + 1)) r.1).setNode newa r.2.1).node newa = r.2.1 := by
    simp [State.setNode]
  have hnodeB : ((s1.setNode (pa (u + 1)) r.1).setNode newa r.2.1).node (pa (u + 1)) = r.1 := by
    simp [State.setNode, hpn]
  have hnodeC : ∀ q, q ≠ newa → q ≠ pa (u + 1) →
      ((s1.setNode (pa (u + 1)) r.1).setNode newa r.2.1).node q = s.node q := by
    intro q h1 h2
    simp [State.setNode, h1, h2, f2]
  have hchild : ∀ x : Nat, (x = ptr ∨ ∃ c0 : Int, 0 ≤ c0 ∧ c0 ≤ (s.node (pa (u + 1))).num ∧
      x = (s.node (pa (u + 1))).ch c0) → InsM s0 nl (u + 1) u x := by
    intro x hx
    rcases hx with hx | ⟨c0, a, b, hx⟩
    · rw [hx]
      exact insInv_ptr s0 pa sL nl u ptr s hinv2 (u + 1) (by omega)
    · rw [hx]
      exact insInv_cur_child s0 pt pa pp sL m nl u ptr s hc2 hinv2 hu (u + 1) c0 a b
  refine ⟨hu, ?_, ?_, ?_, ?_, ?_, Or.inr ⟨by omega, by simpa using hd0⟩⟩
  · show s1.root_level = _
    rw [f4, irl]
  · show s1.tree_root = _
    rw [f5, itr]
  · intro q hq
    have hq1 : q ≠ newa := by
      intro he
      have := (hq (u + 1) (by omega) (le_refl _)).2
      apply this
      rw [he]
      simpa using hd0
    have hq2 : q ≠ pa (u + 1) := (hq (u + 1) (by omega) (le_refl _)).1
    rw [hnodeC q hq1 hq2]
    exact ib q (fun j hj1 hj2 => hq j hj1 (by omega))
  · intro j hj1 hj2 q hq
    by_cases hju : j = u + 1
    · subst hju
      rcases hq with hq | hq
      · subst hq
        rw [hnodeB]
        refine ⟨?_, ?_⟩
        · intro hh
          rcases hh with hh | hh
          · exact s4' (hun hh)
          · exact absurd rfl hh
        · intro c h0 h1
          apply hchild
          rcases s5' c h0 h1 with hp | ⟨c0, a, b, hp⟩
          · exact Or.inl hp
          · exact Or.inr ⟨c0, a, b, hp⟩
      · have hqa : q = newa := by
          have h1 : (dpoolSeq (s0.root_level.toNat + 1) s0)[u]? = some q := by simpa using hq
          rw [hd0] at h1
          exact (Option.some.inj h1).symm
        subst hqa
        rw [hnodeA]
        refine ⟨fun _ => s3', ?_⟩
        intro c h0 h1
        apply hchild
        rcases s6' c h0 h1 with hp | ⟨c0, a, b, hp⟩
        · exact Or.inl hp
        · exact Or.inr ⟨c0, a, b, hp⟩
    · have hjle : j ≤ u := by omega
      have hq1 : q ≠ newa := by
        intro he
        rcases hq with hq | hq
        · exact hnp j hj1 (by omega) (he ▸ hq)
        · have := nodup_index _ hpool.1 _ _ _ (he ▸ hq) hd0
          omega
      have hq2 : q ≠ pa (u + 1) := by
        intro he
        rcases hq with hq | hq
        · have := pathRec_inj s0 pt pa pp hsh hpath (u + 1) j (by omega) hu hj1 (by omega)
            (he ▸ hq)
          omega
        · exact rfresh q (List.getElem?_mem hq) he
      rw [hnodeC q hq1 hq2]
      obtain ⟨c1, c2⟩ := ic j hj1 hjle q hq
      exact ⟨c1, fun c h0 h1 => InsM_mono s0 nl u (u + 1) _ _ (c2 c h0 h1) (by omega)⟩
  · have hn : s0.root_level.toNat + 1 - (u + 1) = s0.root_level.toNat - u := by omega
    rw [hn, hdrest]
    apply dpoolSeq_congr
    · rfl
    · intro a ha
      have ha2 : a ∈ (dpoolSeq (s0.root_level.toNat + 1) s0).drop (u + 1) := by
        rw [hdrest]; exact ha
      have hq2 : a ≠ pa (u + 1) := rfresh a (List.mem_of_mem_drop ha2)
      have hq1 : a ≠ newa := by
        intro he
        obtain ⟨i, hi⟩ := List.getElem?_of_mem ha2
        rw [List.getElem?_drop] at hi
        have := nodup_index _ hpool.1 _ _ _ (he ▸ hi) hd0
        omega
      simp [State.setNode, hq1, hq2]

end LBTree


namespace LBTree

/-- Part 3 of `insert`, started on a memory that satisfies the invariant of
its loop: when it returns, the inner nodes are as `InsPost` says. -/
theorem insertNonleaf_spec (s0 : State) (pt : Path) (pa : Nat → Nat) (pp : Nat → Int) (sL : State)
    (m nl : Nat) (hc : InsCtx s0 pt pa pp sL m) :
    ∀ (fuel u : Nat) (key : Int) (ptr : Nat) (s s' : State),
    InsInv s0 pa sL nl u ptr s →
    insertNonleaf pt s0.root_level fuel ((u : Int) + 1) key ptr s = Res.ok s' →
    InsPost s0 nl s' := by
  intro fuel
  induction fuel with
  | zero =>
    intro u key ptr s s' _ h
    exact absurd h (by simp [insertNonleaf])
  | succ n ih =>
    intro u key ptr s s' hinv h
    have h0 : 0 ≤ s0.root_level := hc.1.1
    unfold insertNonleaf at h
    by_cases hle : (u : Int) + 1 ≤ s0.root_level
    · have hu : u + 1 ≤ s0.root_level.toNat := by omega
      obtain ⟨q1, q2, _⟩ := insCtx_path s0 pt pa pp sL m hc (u + 1) (by omega) hu
      have hcast : ((u : Int) + 1).toNat = u + 1 := by omega
      simp only [hle, if_true, hcast, q1, q2] at h
      by_cases hn : (s.node (pa (u + 1))).num < NON_LEAF_KEY_NUM
      · simp only [hn, if_true, Res.ok.injEq] at h
        subst h
        exact ins_nonfull s0 pt pa pp sL m nl u ptr s key hc hinv hu hn
      · simp only [hn, if_false] at h
        rcases hal : mempool_alloc_node s with _ | ⟨newa, s1⟩
        · simp [hal] at h
        · simp only [hal] at h
          have hinv2 := ins_split s0 pt pa pp sL m nl u ptr s s1 key newa
            (decide ((u : Int) + 1 < s0.root_level)) hc hinv hu hn
            (by intro hh; simp; omega) hal
          have hcast2 : (u : Int) + 1 + 1 = ((u + 1 : Nat) : Int) + 1 := by push_cast; ring
          rw [hcast2] at h
          exact ih (u + 1) _ newa _ s' hinv2 h
    · simp only [hle, if_false] at h
      have hu : u = s0.root_level.toNat := by
        have := hinv.1
        omega
      exact ins_newroot s0 pt pa pp sL m nl u ptr s s' key _ hc hinv hu (by omega) h

end LBTree


namespace LBTree

/-! ## C13: the leaves after Part 3 of `insert`, and the whole insert -/

/-- Part 3 of `insert` writes one leaf only: the root leaf, whose lock bit it
clears when the root was a leaf. -/
theorem insertNonleaf_leafs (pt : Path) (tl : Int) :
    ∀ (fuel : Nat) (lev key : Int) (ptr : Nat) (s s' : State), 1 ≤ lev →
    insertNonleaf pt tl fuel lev key ptr s = Res.ok s' →
    ∀ a, s'.leaf a =
      if tl ≤ 0 ∧ a = s.tree_root then { s.leaf a with lock := 0 } else s.leaf a := by
  intro fuel
  induction fuel with
  | zero =>
    intro lev key ptr s s' _ h
    exact absurd h (by simp [insertNonleaf])
  | succ n ih =>
    intro lev key ptr s s' hlev h a
    unfold insertNonleaf at h
    by_cases hle : lev ≤ tl
    · have htl : ¬ (tl ≤ 0 ∧ a = s.tree_root) := fun hh => by omega
      rw [if_neg htl]
      simp only [hle, if_true] at h
      rcases hpa : pt.parray lev.toNat with _ | pa
      · simp [hpa] at h
      · rcases hpp : pt.ppos lev.toNat with _ | pp
        · simp [hpa, hpp] at h
        · simp only [hpa, hpp] at h
          by_cases hn : (s.node pa).num < NON_LEAF_KEY_NUM
          · simp only [hn, if_true, Res.ok.injEq] at h
            subst h
            rfl
          · simp only [hn, if_false] at h
            rcases hal : mempool_alloc_node s with _ | ⟨newa, s1⟩
            · simp [hal] at h
            · simp only [hal] at h
              obtain ⟨f1, _, _, _, f5, _⟩ := mempool_alloc_node_frame s s1 newa hal
              have := ih _ _ _ _ _ (by omega) h a
              rw [this]
              have htl2 : ¬ (tl ≤ 0 ∧ a = s1.tree_root) := fun hh => by omega
              simp only [State.setNode]
              rw [if_neg (by simpa using htl2), f1]
    · simp only [hle, if_false] at h
      unfold newRoot at h
      rcases hal : mempool_alloc_node s with _ | ⟨newa, s1⟩
      · simp [hal] at h
      · simp only [hal, Res.ok.injEq] at h
        obtain ⟨f1, _, _, _, f5, _⟩ := mempool_alloc_node_frame s s1 newa hal
        subst h
        by_cases h0 : tl > 0
        · have htl : ¬ (tl ≤ 0 ∧ a = s.tree_root) := fun hh => by omega
          simp only [h0, if_true, State.setNode, f1, htl, if_false]
        · have h0' : tl ≤ 0 := by omega
          simp only [h0, if_false, State.setNode, State.setLeaf, f1, f5, h0', true_and]
          by_cases har : a = s.tree_root
          · subst har; simp
          · simp [har]

theorem popLow_pos (x : Nat) (j : Nat) (hb : x.testBit j = true) :
    ∀ n, j < n → 1 ≤ popLow x n := by
  intro n
  induction n with
  | zero => intro h; omega
  | succ n ih =>
    intro h
    simp only [popLow]
    by_cases hjn : j = n
    · subst hjn
      rw [hb]
      simp
    · have := ih (by omega)
      omega

/-- The lock bits after a completed `insert`. -/
theorem insert_locks (s : State) (key : Int) (ptr : Nat) (s' : State)
    (hok : TreeOK s) (hsh : TreeShape s) (hpool : NodePoolFresh s)
    (h : insert s key ptr = Res.ok s') : LocksClear s' := by
  obtain ⟨lpa, pt0, hd, hdesc⟩ := descendPath_reach s key _ _ Path.empty hok.2
  obtain ⟨hlock, hreach, _⟩ := del_leaf_lock s key lpa pt0 hok hd
  unfold insert at h
  simp only [hd, hlock, ne_eq, not_true_eq_false, if_false] at h
  by_cases hfound : searchLeaf (s.leaf lpa) key ≥ 0
  · simp only [hfound, if_true, Res.ok.injEq] at h
    subst h
    exact locksClear_of_treeOK s hok
  · simp only [hfound, if_false, State.leaf_setLeaf_same] at h
    by_cases hfull : (s.leaf lpa).bitmap = 0x3fff
    · have hf : ({ s.leaf lpa with lock := 1 } : bleaf).isFull = true := by
        simp [bleaf.isFull, hfull]
      simp only [hf, if_true, Bool.not_true, Bool.false_eq_true, if_false] at h
      obtain ⟨pa, pp, hpa0, hpath0, hL0, hLroot⟩ := pathRec_of_descendPath s key lpa pt0 hok.2 hd
      have hpath : PathRec s ((pt0.setParray 0 lpa).setIsfull 0 true) pa pp :=
        (pathRec_set0 s _ pa pp lpa 0 true (pathRec_set0 s pt0 pa pp lpa 0 true hpath0).1).2.2
      rcases hlk : lockFullAncestors ((pt0.setParray 0 lpa).setIsfull 0 true) s.root_level
          s.root_level.toNat 1 (s.setLeaf lpa { s.leaf lpa with lock := 1 }) with s2 | _ | _ | _
      · have hlk2 : lockFullAncestors ((pt0.setParray 0 lpa).setIsfull 0 true)
            (s.setLeaf lpa { s.leaf lpa with lock := 1 }).root_level
            (s.setLeaf lpa { s.leaf lpa with lock := 1 }).root_level.toNat 1
            (s.setLeaf lpa { s.leaf lpa with lock := 1 }) = Res.ok s2 := hlk
        simp only [hlk2] at h
        obtain ⟨m, _, m2, m3, _, _, m6, m7, m8, m9, m10, _, _, m13⟩ :=
          lockFullAncestors_spec s _ pa pp hsh hpath s.root_level.toNat 1 _ s2 (by omega)
            (le_refl _) hlk
        rcases hal : nvmpool_alloc_node s2 with _ | ⟨newa, s3⟩
        · simp [hal] at h
        · simp only [hal] at h
          obtain ⟨g1, g2, g3, g4, g5, _⟩ := nvmpool_alloc_node_frame s2 s3 newa hal
          have hrl3 : s3.root_level = s.root_level := by rw [g4, m9]; rfl
          have htr3 : s3.tree_root = s.tree_root := by rw [g5, m10]; rfl
          generalize hout : leafSplit (s3.leaf lpa) (s3.leaf newa) newa s3.root_level key ptr
            (hashcode1B key) = out at h
          have hnodes : ∀ q, ((s3.setLeaf newa out.newp).setLeaf lpa out.lp).node q = s2.node q := by
            intro q
            show s3.node q = _
            rw [g2]
          have hctx : InsCtx s ((pt0.setParray 0 lpa).setIsfull 0 true) pa pp
              ((s3.setLeaf newa out.newp).setLeaf lpa out.lp) m := by
            refine ⟨hok, hsh, hpool, hpath, hLroot, m2, fun k h1 h2 => m3 k h1 h2, ?_, ?_⟩
            · intro q hq
              rw [hnodes, m6 q hq]
              rfl
            · intro k h1 h2
              rw [hnodes, m7 k h1 h2]
              rfl
          have hinv : InsInv s pa ((s3.setLeaf newa out.newp).setLeaf lpa out.lp) newa 0 newa
              ((s3.setLeaf newa out.newp).setLeaf lpa out.lp) := by
            refine ⟨Nat.zero_le _, hrl3, htr3, fun q _ => rfl, fun j h1 h2 => by omega, ?_,
              Or.inl ⟨rfl, rfl⟩⟩
            rw [Nat.sub_zero, List.drop_zero]
            apply dpoolSeq_congr
            · show s3.dpool = _
              rw [g3, m13]
              rfl
            · intro a ha
              rw [hnodes, m6 a]
              · rfl
              · intro k h1 h2 he
                obtain ⟨_, _, _, _, _, q6, _⟩ := hpath.2 k h1 (by omega)
                exact (hpool.2 a ha).2 k (he ▸ q6)
          have h2 : insertNonleaf ((pt0.setParray 0 lpa).setIsfull 0 true) s.root_level
              (s.root_level.toNat + 1) (((0 : Nat) : Int) + 1) out.split_key newa
              ((s3.setLeaf newa out.newp).setLeaf lpa out.lp) = Res.ok s' := by
            have e1 : ((s3.setLeaf newa out.newp).setLeaf lpa out.lp).root_level = s.root_level := hrl3
            rw [e1] at h
            exact h
          obtain ⟨R, p1, p2, p3⟩ := insertNonleaf_spec s _ pa pp _ m newa hctx _ 0 _ newa _ s' hinv h2
          have hcl : ∀ j q, InsM s newa R (j + 1) q → ∀ c : Int, 0 ≤ c → c ≤ (s'.node q).num →
              InsM s newa R j ((s'.node q).ch c) := by
            intro j q hq c h0 h1
            have := (p3 (j + 1) (by omega) q hq).2 c h0 h1
            rwa [Nat.add_sub_cancel] at this
          have hleafs := insertNonleaf_leafs _ _ _ _ _ _ _ s' (by norm_num) h2
          refine ⟨?_, ?_⟩
          · intro l hl
            have hM := reach_closed s' (InsM s newa R) hcl _ _ p2 l hl
            rw [hleafs l]
            split
            · rfl
            · rename_i hcond
              by_cases hla : l = lpa
              · subst hla
                rw [State.leaf_setLeaf_same, ← hout, (leafSplit_lock _ _ _ _ _ _ _).1, hrl3]
                split
                · rfl
                · exfalso
                  apply hcond
                  have hz : s.root_level.toNat = 0 := by omega
                  exact ⟨by omega, (hL0 hz).trans htr3.symm⟩
              · rw [State.leaf_setLeaf_other _ _ _ _ hla]
                by_cases hln : l = newa
                · subst hln
                  rw [State.leaf_setLeaf_same, ← hout, (leafSplit_lock _ _ _ _ _ _ _).2]
                · rw [State.leaf_setLeaf_other _ _ _ _ hln, g1, m8,
                    State.leaf_setLeaf_other _ _ _ _ hla]
                  rcases hM with hM | ⟨hM, _⟩ | ⟨_, hM⟩
                  · rcases hM with ⟨hM, _⟩ | ⟨_, hM⟩
                    · omega
                    · exact (subtreeOK_leaf s _ _ l hok.2 hM).1
                  · omega
                  · exact absurd hM hln
          · intro j q hr
            have hj := (reachN_level s' _ _ _ _ hr).1
            have hM := reachN_closed s' (InsM s newa R) hcl _ _ p2 j q hr
            exact (p3 j hj q hM).1
      · simp [show lockFullAncestors ((pt0.setParray 0 lpa).setIsfull 0 true)
            (s.setLeaf lpa { s.leaf lpa with lock := 1 }).root_level
            (s.setLeaf lpa { s.leaf lpa with lock := 1 }).root_level.toNat 1
            (s.setLeaf lpa { s.leaf lpa with lock := 1 }) = Res.retry from hlk] at h
      · simp [show lockFullAncestors ((pt0.setParray 0 lpa).setIsfull 0 true)
            (s.setLeaf lpa { s.leaf lpa with lock := 1 }).root_level
            (s.setLeaf lpa { s.leaf lpa with lock := 1 }).root_level.toNat 1
            (s.setLeaf lpa { s.leaf lpa with lock := 1 }) = Res.nomem from hlk] at h
      · simp [show lockFullAncestors ((pt0.setParray 0 lpa).setIsfull 0 true)
            (s.setLeaf lpa { s.leaf lpa with lock := 1 }).root_level
            (s.setLeaf lpa { s.leaf lpa with lock := 1 }).root_level.toNat 1
            (s.setLeaf lpa { s.leaf lpa with lock := 1 }) = Res.unrecorded from hlk] at h
    · have hf : ({ s.leaf lpa with lock := 1 } : bleaf).isFull = false := by
        simp [bleaf.isFull, hfull]
      simp only [hf, Bool.false_eq_true, if_false, Bool.not_false, if_true, Res.ok.injEq] at h
      have hnode : s'.node = s.node := by rw [← h]; rfl
      have hrl : s'.root_level = s.root_level := by rw [← h]; rfl
      have htr : s'.tree_root = s.tree_root := by rw [← h]; rfl
      refine ⟨?_, ?_⟩
      · intro l hl
        rw [hrl, htr] at hl
        have hl2 : reach s s.root_level.toNat s.tree_root l := (reach_congr s s' hnode _ _ _).1 hl
        by_cases hla : l = lpa
        · subst hla
          rw [← h, State.leaf_setLeaf_same, leafPut_lock]
        · rw [← h, State.leaf_setLeaf_other _ _ _ _ hla, State.leaf_setLeaf_other _ _ _ _ hla]
          exact (subtreeOK_leaf s _ _ l hok.2 hl2).1
      · intro j q hr
        rw [hrl, htr] at hr
        have hr2 : reachN s s.root_level.toNat s.tree_root j q :=
          (reachN_congr s s' hnode _ _ _ _).1 hr
        rw [hnode]
        exact (subtreeOK_node s _ _ j q hok.2 hr2).1

end LBTree


namespace LBTree

set_option maxRecDepth 100000

/-! ## C13: lock bits after `insert` and `del` -/

/-- The lock bits after a completed `del`. -/
theorem del_locks (s : State) (key : Int) (s' : State) (hok : TreeOK s) (hsh : TreeShape s)
    (h : del s key = Res.ok s') : LocksClear s' := by
  obtain ⟨lpa, pt0, hd, hdesc⟩ := descendPath_reach s key _ _ Path.empty hok.2
  obtain ⟨hlock, hreach, _⟩ := del_leaf_lock s key lpa pt0 hok hd
  have hkeep : ∀ j : Nat, del s key = Res.ok (s.setLeaf lpa
      { s.leaf lpa with bitmap := (s.leaf lpa).bitmap &&& bnot32 (1 <<< j), lock := 0 }) →
      LocksClear s' := by
    intro j hk
    rw [hk] at h
    simp only [Res.ok.injEq] at h
    have hnode : s'.node = s.node := by rw [← h]; rfl
    have hrl : s'.root_level = s.root_level := by rw [← h]; rfl
    have htr : s'.tree_root = s.tree_root := by rw [← h]; rfl
    refine ⟨?_, ?_⟩
    · intro l hl
      rw [hrl, htr] at hl
      have hl2 : reach s s.root_level.toNat s.tree_root l := (reach_congr s s' hnode _ _ _).1 hl
      by_cases hla : l = lpa
      · subst hla
        rw [← h, State.leaf_setLeaf_same]
      · rw [← h, State.leaf_setLeaf_other _ _ _ _ hla]
        exact (subtreeOK_leaf s _ _ l hok.2 hl2).1
    · intro j q hr
      rw [hrl, htr] at hr
      have hr2 : reachN s s.root_level.toNat s.tree_root j q :=
        (reachN_congr s s' hnode _ _ _ _).1 hr
      rw [hnode]
      exact (subtreeOK_node s _ _ j q hok.2 hr2).1
  rcases searchLeaf_sound (s.leaf lpa) key with hr | ⟨j, hj, hh⟩
  · have hs : del s key = Res.ok s := by
      unfold del
      simp only [hd, hlock, ne_eq, not_true_eq_false, if_false, hr]
      rfl
    rw [hs] at h
    cases h
    exact locksClear_of_treeOK s hok
  · have hlook : lookup s key = some (lpa, (j : Int)) := by
      simp only [lookup, hdesc, hlock, ne_eq, not_true_eq_false, if_false, hj]
    have hpos : 1 ≤ (s.leaf lpa).num := popLow_pos _ j hh.2.1 32 (by have := hh.1; omega)
    by_cases hrl : s.root_level = 0
    · exact hkeep j (del_keep s key lpa j hok hlook (Or.inr hrl))
    · by_cases hnum : (s.leaf lpa).num = 1
      · have hfound : ¬ searchLeaf (s.leaf lpa) key < 0 := by rw [hj]; omega
        obtain ⟨a1, a2⟩ := del_removal_after s key s' lpa pt0 hok hsh hd hfound hnum hrl h
        refine ⟨?_, a2⟩
        intro l hl
        obtain ⟨b1, _, b3⟩ := a1 l hl
        rw [b3]
        exact (subtreeOK_leaf s _ _ l hok.2 b1).1
      · exact hkeep j (del_keep s key lpa j hok hlook (Or.inl (by omega)))

/-- C13. After every completed `insert` or `del` on a quiescent tree (every
lock bit 0, node frames forming a tree, the frames the DRAM pool hands out
next not being nodes of the tree), the lock bit of every leaf and of every
inner node reachable from the root is 0: after the insert into a leaf with an
empty slot, after a leaf split with the key going left or right, after the
split of a root leaf, after chained inner splits up to the replacement of the
root, after the delete that only clears a bitmap bit, after the removal of a
leaf, and after the collapse of the root. -/
theorem C13_locks_clear_after_insert_and_del (s : State) (key : Int) (ptr : Nat) (s' : State)
    (hok : TreeOK s) (hsh : TreeShape s) (hpool : NodePoolFresh s)
    (h : insert s key ptr = Res.ok s' ∨ del s key = Res.ok s') : LocksClear s' := by
  rcases h with h | h
  · exact insert_locks s key ptr s' hok hsh hpool h
  · exact del_locks s key s' hok hsh h

theorem exState15_nodes : ∀ j q,
    reachN exState15 exState15.root_level.toNat exState15.tree_root j q → j = 1 ∧ q = 65536 := by
  have hL : exState15.root_level.toNat = 1 := by decide
  have hroot : exState15.tree_root = 65536 := by decide
  intro j q h
  rw [hL, hroot] at h
  rcases h with ⟨e1, e2⟩ | ⟨c, _, _, h3⟩
  · exact ⟨e1, e2⟩
  · exact absurd h3 (by simp [reachN])

theorem exState15_shape : TreeShape exState15 := by
  have hL : exState15.root_level.toNat = 1 := by decide
  have hroot : exState15.tree_root = 65536 := by decide
  have hnum : (exState15.node 65536).num = 1 := by decide
  have hN := exState15_nodes
  have hLf : ∀ l, reach exState15 exState15.root_level.toNat exState15.tree_root l →
      l = 4096 ∨ l = 4352 := by
    intro l h
    rw [hL, hroot] at h
    obtain ⟨c, hc0, hc1, h3⟩ := h
    rw [hnum] at hc1
    have h3' : l = (exState15.node 65536).ch c := h3
    have hc : c = 0 ∨ c = 1 := by omega
    rcases hc with hc | hc
    · subst hc; left; rw [h3']; decide
    · subst hc; right; rw [h3']; decide
  refine ⟨?_, ?_, ?_, ?_⟩
  · intro j q h
    obtain ⟨_, e⟩ := hN j q h
    subst e
    decide
  · intro j j' q h h'
    rw [(hN j q h).1, (hN j' q h').1]
  · intro j p p' c c' h h' hc0 hc1 hc0' hc1' he
    obtain ⟨_, e⟩ := hN _ p h
    obtain ⟨_, e'⟩ := hN _ p' h'
    subst e; subst e'
    rw [hnum] at hc1 hc1'
    refine ⟨rfl, ?_⟩
    have hc : c = 0 ∨ c = 1 := by omega
    have hc' : c' = 0 ∨ c' = 1 := by omega
    rcases hc with hc | hc <;> rcases hc' with hc' | hc' <;> subst hc <;> subst hc'
    · rfl
    · exact absurd he (by decide)
    · exact absurd he (by decide)
    · rfl
  · intro l h
    rcases hLf l h with e | e <;> omega

theorem exState15_pool : NodePoolFresh exState15 := by
  have hL : exState15.root_level.toNat = 1 := by decide
  have hseq : dpoolSeq (exState15.root_level.toNat + 1) exState15 = [65792, 66048] := by decide
  refine ⟨by rw [hseq]; decide, ?_⟩
  intro a ha
  rw [hseq] at ha
  simp only [List.mem_cons, List.mem_singleton, List.not_mem_nil, or_false] at ha
  refine ⟨?_, ?_⟩
  · rcases ha with e | e <;> subst e <;> decide
  · intro j hr
    have := (exState15_nodes j a hr).2
    rcases ha with e | e <;> omega

/-- C13 at a concrete input: `insert(0, 7)` into the tree bulk-loaded from
`1 .. 15` splits the full first leaf and adds a child to the root. -/
theorem C13_locks_clear_after_insert_and_del_witness :
    TreeOK exState15 ∧ TreeShape exState15 ∧ NodePoolFresh exState15 ∧
    ∃ s', insert exState15 0 7 = Res.ok s' ∧ (s'.node s'.tree_root).num = 2 ∧ LocksClear s' := by
  have hsome : (insert exState15 0 7).toOption.map (fun s => (s.node s.tree_root).num) = some 2 := by
    decide
  refine ⟨by decide, exState15_shape, exState15_pool, ?_⟩
  rcases hd : insert exState15 0 7 with s' | _ | _ | _
  · refine ⟨s', rfl, ?_, C13_locks_clear_after_insert_and_del exState15 0 7 s' (by decide)
      exState15_shape exState15_pool (Or.inl hd)⟩
    rw [hd] at hsome
    simpa [Res.toOption] using hsome
  · rw [hd] at hsome; simp [Res.toOption] at hsome
  · rw [hd] at hsome; simp [Res.toOption] at hsome
  · rw [hd] at hsome; simp [Res.toOption] at hsome

end LBTree


namespace LBTree

/-! ## The level counts and the layout of `bulkloadSubtree` -/

theorem ceiling_full (q G r : Nat) (hr1 : 1 ≤ r) (hr : r ≤ G) : ceiling (q * G + r) G = q + 1 := by
  unfold ceiling
  have hG : 0 < G := by omega
  have e : q * G + r + G - 1 = (r - 1) + G * (q + 1) := by
    rw [Nat.mul_add, Nat.mul_comm G q]; omega
  rw [e, Nat.add_mul_div_left _ _ hG, Nat.div_eq_of_lt (by omega)]
  omega

theorem ceiling_exact (q G : Nat) (hG : 1 ≤ G) : ceiling (q * G) G = q := by
  unfold ceiling
  have e : q * G + G - 1 = (G - 1) + G * q := by
    rw [Nat.mul_comm G q]; omega
  rw [e, Nat.add_mul_div_left _ _ (by omega), Nat.div_eq_of_lt (by omega)]
  omega

theorem ceiling_lt (x G j : Nat) (hG : 1 ≤ G) (hj : j < ceiling x G) : j * G < x := by
  by_contra hcon
  have h1 : x ≤ j * G := by omega
  have := ceiling_mono x (j * G) G h1
  rw [ceiling_exact j G hG] at this
  omega

theorem ceiling_le (x G j : Nat) (hG : 1 ≤ G) (hj : x ≤ j * G) : ceiling x G ≤ j := by
  have := ceiling_mono x (j * G) G hj
  rw [ceiling_exact j G hG] at this
  exact this

theorem ceiling_pos (x G : Nat) (hG : 1 ≤ G) (hx : 1 ≤ x) : 1 ≤ ceiling x G := by
  by_contra hcon
  have h0 : ceiling x G ≤ 0 := by omega
  have h1 : ceiling 1 G ≤ ceiling x G := ceiling_mono 1 x G hx
  have h2 : ceiling 1 G = 1 := by
    have := ceiling_full 0 G 1 (le_refl _) hG
    simpa using this
  omega

/-- The loop of step 2: every level counted is the ceiling of the level below
divided by `g + 1`, the level below has more than one node, and the loop ends
at a level with at most one node or at the target level. -/
theorem countLevels_spec (g tl : Nat) : ∀ (fuel i : Nat) (n : Nat → Nat) (top : Nat),
    1 ≤ i → top = i - 1 → i + fuel = tl + 1 →
    i - 1 ≤ (countLevels g tl fuel i n top).2 ∧ (countLevels g tl fuel i n top).2 ≤ tl ∧
    (∀ x, x < i → (countLevels g tl fuel i n top).1 x = n x) ∧
    (∀ ll, i ≤ ll → ll ≤ (countLevels g tl fuel i n top).2 →
      (countLevels g tl fuel i n top).1 ll
        = ceiling ((countLevels g tl fuel i n top).1 (ll - 1)) (g + 1) ∧
      1 < (countLevels g tl fuel i n top).1 (ll - 1)) ∧
    ((countLevels g tl fuel i n top).1 (countLevels g tl fuel i n top).2 ≤ 1 ∨
      (countLevels g tl fuel i n top).2 = tl) := by
  intro fuel
  induction fuel with
  | zero =>
    intro i n top hi htop hf
    have e : countLevels g tl 0 i n top = (n, top) := rfl
    rw [e]
    exact ⟨by omega, by omega, fun x _ => rfl, fun ll h1 h2 => by omega, Or.inr (by omega)⟩
  | succ m ih =>
    intro i n top hi htop hf
    unfold countLevels
    by_cases hc : n (i - 1) > 1 ∧ i ≤ tl
    · rw [if_pos hc]
      obtain ⟨c1, c2, c3, c4, c5⟩ := ih (i + 1)
        (fun x => if x = i then ceiling (n (i - 1)) (g + 1) else n x) i (by omega) (by omega)
        (by omega)
      refine ⟨by omega, c2, ?_, ?_, c5⟩
      · intro x hx
        rw [c3 x (by omega)]
        exact if_neg (by omega)
      · intro ll h1 h2
        by_cases hl : ll = i
        · subst hl
          have hne : ¬ ll - 1 = ll := by omega
          rw [c3 ll (by omega), c3 (ll - 1) (by omega)]
          simp only [hne, if_true, if_false]
          exact ⟨trivial, hc.1⟩
        · exact c4 ll (by omega) h2
    · rw [if_neg hc]
      refine ⟨by show i - 1 ≤ top; omega, by show top ≤ tl; omega, fun x _ => rfl,
        fun ll h1 h2 => by
          have h3 : ll ≤ top := h2
          omega, Or.inl ?_⟩
      show n top ≤ 1
      rw [htop]
      by_contra hcon
      exact hc ⟨by omega, by omega⟩

/-- The allocations of step 3: the ranges of the levels `i..top` follow one
another from the pool's `cur`. -/
theorem allocLevels_spec (N : Nat → Nat) (top : Nat) : ∀ (fuel i : Nat) (pf : Nat → Nat) (m : mempool)
    (pf2 : Nat → Nat) (m2 : mempool),
    i + fuel = top + 1 → allocLevels N top fuel i pf m = some (pf2, m2) →
    (∀ x, x < i → pf2 x = pf x) ∧
    (i ≤ top → pf2 i = m.cur) ∧
    (∀ ll, i ≤ ll → ll < top → pf2 (ll + 1) = pf2 ll + 256 * N ll) := by
  intro fuel
  induction fuel with
  | zero =>
    intro i pf m pf2 m2 hf h
    simp only [allocLevels, Option.some.injEq, Prod.mk.injEq] at h
    obtain ⟨h1, _⟩ := h
    subst h1
    exact ⟨fun x _ => rfl, fun hh => by omega, fun ll h1 h2 => by omega⟩
  | succ k ih =>
    intro i pf m pf2 m2 hf h
    unfold allocLevels at h
    have hi : i ≤ top := by omega
    rw [if_pos hi] at h
    rcases ha : m.alloc (256 * N i) with _ | ⟨a, m1⟩
    · rw [ha] at h; simp at h
    · rw [ha] at h
      simp only at h
      have hcur : a = m.cur ∧ m1.cur = m.cur + 256 * N i := by
        unfold mempool.alloc at ha
        split at ha
        · simp only [Option.some.injEq, Prod.mk.injEq] at ha
          obtain ⟨e1, e2⟩ := ha
          subst e2
          exact ⟨e1.symm, rfl⟩
        · simp at ha
      obtain ⟨c1, c2, c3⟩ := ih (i + 1) _ m1 pf2 m2 (by omega) h
      have hpi : pf2 i = a := by
        rw [c1 i (by omega)]
        simp
      refine ⟨?_, fun _ => by rw [hpi]; exact hcur.1, ?_⟩
      · intro x hx
        rw [c1 x (by omega)]
        exact if_neg (by omega)
      · intro ll h1 h2
        by_cases hl : ll = i
        · subst hl
          rw [c2 (by omega), hpi, hcur.2, hcur.1]
        · exact c3 ll (by omega) h2

/-- The ranges of two different levels do not overlap. -/
theorem pfirst_chain (pf N : Nat → Nat) (top : Nat)
    (h : ∀ ll, 1 ≤ ll → ll < top → pf (ll + 1) = pf ll + 256 * N ll) :
    ∀ d l, 1 ≤ l → l + d + 1 ≤ top → pf l + 256 * N l ≤ pf (l + d + 1) := by
  intro d
  induction d with
  | zero =>
    intro l h1 h2
    rw [h l h1 (by omega)]
  | succ k ih =>
    intro l h1 h2
    have := ih l h1 (by omega)
    rw [show l + (k + 1) + 1 = (l + k + 1) + 1 by omega, h (l + k + 1) (by omega) (by omega)]
    omega

theorem pfirst_disj (pf N : Nat → Nat) (top : Nat)
    (h : ∀ ll, 1 ≤ ll → ll < top → pf (ll + 1) = pf ll + 256 * N ll)
    (l j l2 j2 : Nat) (h1 : 1 ≤ l) (h2 : l ≤ top) (h3 : 1 ≤ l2) (h4 : l2 ≤ top)
    (hj : j < N l) (hj2 : j2 < N l2) (hne : l ≠ l2 ∨ j ≠ j2) :
    pf l + 256 * j ≠ pf l2 + 256 * j2 := by
  rcases Nat.lt_trichotomy l l2 with hl | hl | hl
  · have := pfirst_chain pf N top h (l2 - l - 1) l h1 (by omega)
    rw [show l + (l2 - l - 1) + 1 = l2 by omega] at this
    omega
  · subst hl
    rcases hne with hne | hne
    · exact absurd rfl hne
    · omega
  · have := pfirst_chain pf N top h (l - l2 - 1) l2 h3 (by omega)
    rw [show l2 + (l - l2 - 1) + 1 = l by omega] at this
    omega

/-- The first loop of step 4 initialises the first node of every level `ll..top`
and writes nothing else. -/
theorem initLevels_spec (pf N : Nat → Nat) (top : Nat)
    (h : ∀ ll, 1 ≤ ll → ll < top → pf (ll + 1) = pf ll + 256 * N ll)
    (hN : ∀ ll, 1 ≤ ll → ll ≤ top → 1 ≤ N ll) :
    ∀ (fuel ll : Nat) (s : State), 1 ≤ ll → ll + fuel = top + 1 →
    (∀ a, (s.node a).ent.length = 16) →
    (∀ a, ((initLevels pf top fuel ll s).node a).ent.length = 16) ∧
    (∀ l, ll ≤ l → l ≤ top →
      ((initLevels pf top fuel ll s).node (pf l)).num = -1 ∧
      ((initLevels pf top fuel ll s).node (pf l)).lock = 0) ∧
    (∀ a, (∀ l, ll ≤ l → l ≤ top → a ≠ pf l) → (initLevels pf top fuel ll s).node a = s.node a) := by
  intro fuel
  induction fuel with
  | zero =>
    intro ll s h1 hf hlen
    have e : initLevels pf top 0 ll s = s := rfl
    rw [e]
    exact ⟨hlen, fun l h2 h3 => by omega, fun a _ => rfl⟩
  | succ k ih =>
    intro ll s h1 hf hlen
    unfold initLevels
    have hl : ll ≤ top := by omega
    rw [if_pos hl]
    have hlen1 : ∀ a, ((s.setNode (pf ll) (((s.node (pf ll)).setLock 0).setNum (-1))).node a).ent.length
        = 16 := by
      intro a
      by_cases ha : a = pf ll
      · subst ha
        rw [State.node_setNode_same, bnode.length_setNum, bnode.length_setLock]
        exact hlen _
      · rw [State.node_setNode_other _ _ _ _ ha]
        exact hlen a
    obtain ⟨c1, c2, c3⟩ := ih (ll + 1) _ (by omega) (by omega) hlen1
    refine ⟨c1, ?_, ?_⟩
    · intro l h2 h3
      by_cases hll : l = ll
      · subst hll
        rw [c3 (pf l) (fun l2 h4 h5 => by
          have := pfirst_disj pf N top h l 0 l2 0 h1 hl (by omega) h5 (hN l h1 hl)
            (hN l2 (by omega) h5) (Or.inl (by omega))
          simpa using this)]
        rw [State.node_setNode_same]
        have h16 := hlen (pf l)
        rw [bnode.num_setNum _ _ (by rw [bnode.length_setLock]; omega),
          bnode.lock_setNum _ _ (by rw [bnode.length_setLock]; omega)]
        exact ⟨rfl, bnode.lock_setLock_zero _⟩
      · exact c2 l (by omega) h3
    · intro a ha
      rw [c3 a (fun l h2 h3 => ha l (by omega) h3)]
      exact State.node_setNode_other _ _ _ _ (ha ll (le_refl _) hl)

end LBTree


namespace LBTree

/-! ## Appending a child to the inner levels (`appendUp`) -/

theorem ceiling_ge (x G : Nat) (hG : 1 ≤ G) : x ≤ ceiling x G * G := by
  by_contra hcon
  have h1 : ceiling x G * G < x := by omega
  have h2 : ceiling x G + 1 ≤ ceiling x G := by
    have h3 := ceiling_full (ceiling x G) G 1 (le_refl _) hG
    have h4 := ceiling_mono (ceiling x G * G + 1) x G (by omega)
    omega
  omega

theorem bnode.lock_congr (p q : bnode) (h : p.k 0 = q.k 0) : p.lock = q.lock := by
  unfold bnode.lock
  rw [h]

theorem bnode.num_congr (p q : bnode) (h : p.k 0 = q.k 0) : p.num = q.num := by
  unfold bnode.num
  rw [h]

theorem bnode.k_setK_same (p : bnode) (i : Int) (v : Int) (hi : 0 ≤ i) (hlen : i.toNat < p.ent.length) :
    (p.setK i v).k i = v := by
  unfold bnode.setK bnode.k
  rw [bnode.nodeEntAt_setEnt p i i _ hi hi hlen, if_pos rfl]

/-- The store sequence `ch(kk) = child; k(kk) = left_key; num() = kk` on a node with `r = kk` children. -/
theorem NodeHas_append (s s2 : State) (g : Nat) (pf : Nat → Nat) (lk : Nat → Int) (ll j r : Nat)
    (h : NodeHas s g pf lk ll j r) (hr1 : 1 ≤ r) (hr : r ≤ 15)
    (child : Nat) (left_key : Int)
    (hchild : child = pf (ll - 1) + 256 * (j * (g + 1) + r))
    (hkey : left_key = leftKey lk (g + 1) (ll - 1) (j * (g + 1) + r))
    (hs2 : s2.node (pf ll + 256 * j)
      = (((s.node (pf ll + 256 * j)).setCh (r : Int) child).setK (r : Int) left_key).setNum (r : Int)) :
    NodeHas s2 g pf lk ll j (r + 1) := by
  obtain ⟨h1, h2, h3, h4⟩ := h
  unfold NodeHas
  rw [hs2]
  have hr0 : (0 : Int) ≤ (r : Int) := Int.ofNat_nonneg r
  have hrne : (0 : Int) ≠ (r : Int) := by omega
  have hl1 : ((s.node (pf ll + 256 * j)).setCh (r : Int) child).ent.length = 16 := by
    rw [bnode.length_setCh]; exact h1
  have hl2 : (((s.node (pf ll + 256 * j)).setCh (r : Int) child).setK (r : Int) left_key).ent.length
      = 16 := by
    rw [bnode.length_setK]; exact hl1
  refine ⟨by rw [bnode.length_setNum]; exact hl2, ?_, ?_, ?_⟩
  · rw [bnode.num_setNum _ _ (by omega)]
    push_cast
    omega
  · rw [bnode.lock_setNum _ _ (by omega)]
    refine Eq.trans (bnode.lock_congr _ _ ?_) h3
    rw [bnode.k_setK_ne _ _ _ _ hr0 (le_refl _) hrne, bnode.k_setCh _ _ _ _ hr0 (le_refl _)]
  · intro c hc
    have hc0 : (0 : Int) ≤ (c : Int) := Int.ofNat_nonneg c
    refine ⟨?_, ?_⟩
    · rw [bnode.ch_setNum _ _ _ hc0, bnode.ch_setK _ _ _ _ hr0 hc0,
        bnode.ch_setCh _ _ _ _ hr0 hc0 (by rw [h1]; simp; omega)]
      by_cases hcr : c = r
      · subst hcr
        rw [if_pos rfl, hchild]
      · rw [if_neg (by omega)]
        exact (h4 c (by omega)).1
    · intro hc1
      have hcne : (c : Int) ≠ 0 := by omega
      show (((_ : bnode).setK 0 _).k (c : Int)) = _
      rw [bnode.k_setK_ne _ _ _ _ (le_refl _) hc0 hcne]
      by_cases hcr : c = r
      · subst hcr
        rw [bnode.k_setK_same _ _ _ hr0 (by rw [hl1]; simp; omega), hkey]
      · rw [bnode.k_setK_ne _ _ _ _ hr0 hc0 (by omega), bnode.k_setCh _ _ _ _ hr0 hc0]
        exact (h4 c (by omega)).2 hc1

/-- The store sequence `ch(0) = child; num() = 0` on a node that was only initialised. -/
theorem NodeHas_first (s s2 : State) (g : Nat) (pf : Nat → Nat) (lk : Nat → Int) (ll j : Nat)
    (h : NodeHas s g pf lk ll j 0) (child : Nat)
    (hchild : child = pf (ll - 1) + 256 * (j * (g + 1)))
    (hs2 : s2.node (pf ll + 256 * j) = ((s.node (pf ll + 256 * j)).setCh 0 child).setNum 0) :
    NodeHas s2 g pf lk ll j 1 := by
  obtain ⟨h1, h2, h3, h4⟩ := h
  unfold NodeHas
  rw [hs2]
  have hl1 : ((s.node (pf ll + 256 * j)).setCh 0 child).ent.length = 16 := by
    rw [bnode.length_setCh]; exact h1
  refine ⟨by rw [bnode.length_setNum]; exact hl1, ?_, ?_, ?_⟩
  · rw [bnode.num_setNum _ _ (by omega)]
    simp
  · rw [bnode.lock_setNum _ _ (by omega)]
    refine Eq.trans (bnode.lock_congr _ _ ?_) h3
    rw [bnode.k_setCh _ _ _ _ (le_refl _) (le_refl _)]
  · intro c hc
    have hc0 : c = 0 := by omega
    subst hc0
    refine ⟨?_, fun hc1 => by omega⟩
    show (((s.node (pf ll + 256 * j)).setCh 0 child).setNum 0).ch 0 = _
    rw [bnode.ch_setNum _ _ _ (le_refl _),
      bnode.ch_setCh _ _ _ _ (le_refl _) (le_refl _) (by rw [h1]; simp), if_pos rfl, hchild]
    simp

/-- The stores `lock() = 0; num() = -1` give a node without children. -/
theorem NodeHas_init (s2 : State) (g : Nat) (pf : Nat → Nat) (lk : Nat → Int) (ll j : Nat) (p : bnode)
    (hp : p.ent.length = 16)
    (hs2 : s2.node (pf ll + 256 * j) = (p.setLock 0).setNum (-1)) :
    NodeHas s2 g pf lk ll j 0 := by
  unfold NodeHas
  rw [hs2]
  have hl1 : (p.setLock 0).ent.length = 16 := by rw [bnode.length_setLock]; exact hp
  refine ⟨by rw [bnode.length_setNum]; exact hl1, ?_, ?_, fun c hc => by omega⟩
  · rw [bnode.num_setNum _ _ (by omega)]
    simp
  · rw [bnode.lock_setNum _ _ (by omega)]
    exact bnode.lock_setLock_zero p

theorem NodeHas_congr (s s2 : State) (g : Nat) (pf : Nat → Nat) (lk : Nat → Int) (ll j r : Nat)
    (h : NodeHas s g pf lk ll j r) (he : s2.node (pf ll + 256 * j) = s.node (pf ll + 256 * j)) :
    NodeHas s2 g pf lk ll j r := by
  unfold NodeHas at h ⊢
  rw [he]
  exact h

theorem LvlInv_congr (s s2 : State) (g top : Nat) (pf N : Nat → Nat) (lk : Nat → Int)
    (a a2 ncur ncur2 : Nat → Nat) (l : Nat)
    (h : LvlInv s g top pf N lk a ncur l)
    (ha : a2 l = a l) (ha1 : l < top → a2 (l + 1) = a (l + 1)) (hn : ncur2 l = ncur l)
    (hnode : ∀ j, j ≤ ncur l → s2.node (pf l + 256 * j) = s.node (pf l + 256 * j)) :
    LvlInv s2 g top pf N lk a2 ncur2 l := by
  obtain ⟨h1, h2, h3, h4, h5, h6, h7⟩ := h
  unfold LvlInv
  rw [ha, hn]
  refine ⟨h1, h2, h3, h4, h5, ?_, ?_⟩
  · intro hl
    rw [ha1 hl]
    exact h6 hl
  · intro j hj
    exact NodeHas_congr s s2 g pf lk l j _ (h7 j hj) (hnode j hj)

end LBTree


namespace LBTree

/-- One call of the loop that appends `(left_key, child)` at level `ll`: the
level invariants of the levels `ll..top` are kept with one more child at
level `ll`, and only nodes of these levels are written. -/
theorem appendUp_spec (g top : Nat) (pf N : Nat → Nat) (lk : Nat → Int)
    (hg1 : 1 ≤ g) (hg : g ≤ 15)
    (hch : ∀ ll, 1 ≤ ll → ll < top → pf (ll + 1) = pf ll + 256 * N ll)
    (hN : ∀ ll, 1 ≤ ll → ll ≤ top → N ll = ceiling (N (ll - 1)) (g + 1)) :
    ∀ (fuel ll child : Nat) (left_key : Int) (ncur a : Nat → Nat) (s : State),
    1 ≤ ll → ll + fuel = top + 1 →
    (∀ x, (s.node x).ent.length = 16) →
    (∀ l, ll ≤ l → l ≤ top → LvlInv s g top pf N lk a ncur l) →
    (ll ≤ top → a ll < N (ll - 1) ∧ child = pf (ll - 1) + 256 * a ll ∧
      left_key = leftKey lk (g + 1) (ll - 1) (a ll)) →
    ∃ a2 : Nat → Nat, a2 ll = a ll + 1 ∧ (∀ l, l < ll → a2 l = a l) ∧
      (∀ l, ll ≤ l → l ≤ top →
        LvlInv (appendUp g top pf N fuel ll child left_key ncur s).2 g top pf N lk a2
          (appendUp g top pf N fuel ll child left_key ncur s).1 l) ∧
      (∀ x, ((appendUp g top pf N fuel ll child left_key ncur s).2.node x).ent.length = 16) ∧
      (∀ l, l < ll → (appendUp g top pf N fuel ll child left_key ncur s).1 l = ncur l) ∧
      (∀ x, (∀ l j, ll ≤ l → l ≤ top → j < N l → x ≠ pf l + 256 * j) →
        (appendUp g top pf N fuel ll child left_key ncur s).2.node x = s.node x) := by
  intro fuel
  induction fuel with
  | zero =>
    intro ll child left_key ncur a s h1 hf hlen hinv hpre
    have e : appendUp g top pf N 0 ll child left_key ncur s = (ncur, s) := rfl
    rw [e]
    refine ⟨fun x => if x = ll then a ll + 1 else a x, if_pos rfl, fun l hl => if_neg (by omega),
      fun l h2 h3 => by omega, hlen, fun l _ => rfl, fun x _ => rfl⟩
  | succ k ih =>
    intro ll child left_key ncur a s h1 hf hlen hinv hpre
    have hl : ll ≤ top := by omega
    obtain ⟨hpa, hpc, hpk⟩ := hpre hl
    obtain ⟨i1, i2, i3, i4, i5, i6, i7⟩ := hinv ll (le_refl _) hl
    have hnode := i7 (ncur ll) (le_refl _)
    rw [if_neg (lt_irrefl _)] at hnode
    have hNll := hN ll h1 hl
    have e2 : (ncur ll + 1) * (g + 1) = ncur ll * (g + 1) + (g + 1) := by ring
    have hlt : a ll < ncur ll * (g + 1) + (g + 1) := by
      by_contra hcon
      have heq : a ll = ncur ll * (g + 1) + (g + 1) := by omega
      have h5 := i5 heq
      have := ceiling_ge (N (ll - 1)) (g + 1) (by omega)
      rw [← hNll, ← h5] at this
      omega
    have hnum := hnode.2.1
    -- addresses of other nodes
    have hdisj : ∀ l j, ll ≤ l → l ≤ top → j < N l → ∀ j2, j2 < N ll → (l ≠ ll ∨ j ≠ j2) →
        pf l + 256 * j ≠ pf ll + 256 * j2 := by
      intro l j h2 h3 h4 j2 h5 h6
      exact pfirst_disj pf N top hch l j ll j2 (by omega) h3 h1 hl h4 h5 h6
    by_cases hr : a ll = ncur ll * (g + 1)
    · -- the current node is new: store the child and go one level up
      have hneg : ¬ (s.node (pf ll + 256 * ncur ll)).num ≥ 0 := by
        rw [hnum, hr]
        simp
      have e : appendUp g top pf N (k + 1) ll child left_key ncur s =
          appendUp g top pf N k (ll + 1) (pf ll + 256 * ncur ll) left_key ncur
            (s.setNode (pf ll + 256 * ncur ll)
              (((s.node (pf ll + 256 * ncur ll)).setCh 0 child).setNum 0)) := by
        rw [appendUp]
        simp only [hl, if_true, hneg, if_false]
      rw [e]
      have hlen1 : ∀ x, ((s.setNode (pf ll + 256 * ncur ll)
          (((s.node (pf ll + 256 * ncur ll)).setCh 0 child).setNum 0)).node x).ent.length = 16 := by
        intro x
        by_cases hx : x = pf ll + 256 * ncur ll
        · subst hx
          rw [State.node_setNode_same, bnode.length_setNum, bnode.length_setCh]
          exact hlen _
        · rw [State.node_setNode_other _ _ _ _ hx]
          exact hlen x
      obtain ⟨a2, b1, b2, b3, b4, b5, b6⟩ := ih (ll + 1) (pf ll + 256 * ncur ll) left_key ncur
        (fun x => if x = ll then a ll + 1 else a x)
        (s.setNode (pf ll + 256 * ncur ll) (((s.node (pf ll + 256 * ncur ll)).setCh 0 child).setNum 0))
        (by omega) (by omega) hlen1
        (by
          intro l h2 h3
          refine LvlInv_congr s _ g top pf N lk a _ ncur ncur l (hinv l (by omega) h3)
            (if_neg (by omega)) (fun _ => if_neg (by omega)) rfl ?_
          intro j hj
          have hj2 : j < N l := by
            have := (hinv l (by omega) h3).2.2.2.1
            omega
          exact State.node_setNode_other _ _ _ _
            (hdisj l j (by omega) h3 hj2 (ncur ll) (by omega) (Or.inl (by omega))))
        (by
          intro hl2
          have hlink := i6 (by omega)
          rw [if_pos hr] at hlink
          have ea : (if ll + 1 = ll then a ll + 1 else a (ll + 1)) = ncur ll := by
            rw [if_neg (by omega), hlink]
            omega
          show (if ll + 1 = ll then a ll + 1 else a (ll + 1)) < N ll ∧
            pf ll + 256 * ncur ll = pf ll + 256 * (if ll + 1 = ll then a ll + 1 else a (ll + 1)) ∧
            left_key = leftKey lk (g + 1) ll (if ll + 1 = ll then a ll + 1 else a (ll + 1))
          rw [ea]
          refine ⟨by omega, rfl, ?_⟩
          rw [hpk, hr]
          obtain ⟨m, rfl⟩ : ∃ m, ll = m + 1 := ⟨ll - 1, by omega⟩
          rfl)
      have ea2 : a2 ll = a ll + 1 := by
        rw [b2 ll (by omega)]
        exact if_pos rfl
      refine ⟨a2, ea2, ?_, ?_, b4, fun l hl2 => b5 l (by omega), ?_⟩
      · intro l hl2
        rw [b2 l (by omega)]
        exact if_neg (by omega)
      · intro l h2 h3
        by_cases hll : l = ll
        · subst hll
          have hnc : (appendUp g top pf N k (l + 1) (pf l + 256 * ncur l) left_key ncur
              (s.setNode (pf l + 256 * ncur l)
                (((s.node (pf l + 256 * ncur l)).setCh 0 child).setNum 0))).1 l = ncur l :=
            b5 l (by omega)
          have hnd : ∀ j, j ≤ ncur l →
              (appendUp g top pf N k (l + 1) (pf l + 256 * ncur l) left_key ncur
                (s.setNode (pf l + 256 * ncur l)
                  (((s.node (pf l + 256 * ncur l)).setCh 0 child).setNum 0))).2.node (pf l + 256 * j)
              = (s.setNode (pf l + 256 * ncur l)
                  (((s.node (pf l + 256 * ncur l)).setCh 0 child).setNum 0)).node (pf l + 256 * j) := by
            intro j hj
            apply b6
            intro l2 j2 h4 h5 h6
            exact (hdisj l2 j2 (by omega) h5 h6 j (by omega) (Or.inl (by omega))).symm
          unfold LvlInv
          rw [hnc, ea2]
          refine ⟨by omega, by omega, by omega, i4, fun hh => by omega, ?_, ?_⟩
          · intro hl2
            rw [b1]
            have hlink := i6 hl2
            rw [if_pos hr] at hlink
            show (if l + 1 = l then a l + 1 else a (l + 1)) + 1 = _
            rw [if_neg (by omega), hlink, if_neg (by omega)]
          · intro j hj
            by_cases hjq : j < ncur l
            · rw [if_pos hjq]
              have := i7 j hj
              rw [if_pos hjq] at this
              refine NodeHas_congr s _ g pf lk l j _ this ?_
              rw [hnd j hj]
              exact State.node_setNode_other _ _ _ _ (by omega)
            · have hje : j = ncur l := by omega
              subst hje
              rw [if_neg hjq, show a l + 1 - ncur l * (g + 1) = 1 by omega]
              have h0 : NodeHas s g pf lk l (ncur l) 0 := by
                rw [show a l - ncur l * (g + 1) = 0 by omega] at hnode
                exact hnode
              refine NodeHas_first s _ g pf lk l (ncur l) h0 child (by rw [hpc, hr]) ?_
              rw [hnd _ (le_refl _)]
              exact State.node_setNode_same _ _ _
        · exact b3 l (by omega) h3
      · intro x hx
        rw [b6 x (fun l j h2 h3 h4 => hx l j (by omega) h3 h4)]
        exact State.node_setNode_other _ _ _ _ (hx ll (ncur ll) (le_refl _) hl (by omega))
    · -- the current node has children: append
      have hr1 : 1 ≤ a ll - ncur ll * (g + 1) := by omega
      have hpos : (s.node (pf ll + 256 * ncur ll)).num ≥ 0 := by
        rw [hnum]
        omega
      have hkk : (s.node (pf ll + 256 * ncur ll)).num + 1 = ((a ll - ncur ll * (g + 1) : Nat) : Int) := by
        rw [hnum]
        ring
      have hnew : ∀ s2 : State, s2.node (pf ll + 256 * ncur ll) =
          (((s.node (pf ll + 256 * ncur ll)).setCh ((a ll - ncur ll * (g + 1) : Nat) : Int) child).setK
            ((a ll - ncur ll * (g + 1) : Nat) : Int) left_key).setNum
            ((a ll - ncur ll * (g + 1) : Nat) : Int) →
          NodeHas s2 g pf lk ll (ncur ll) (a ll + 1 - ncur ll * (g + 1)) := by
        intro s2 hs2
        rw [show a ll + 1 - ncur ll * (g + 1) = (a ll - ncur ll * (g + 1)) + 1 by omega]
        refine NodeHas_append s s2 g pf lk ll (ncur ll) _ hnode hr1 (by omega) child left_key ?_ ?_ hs2
        · rw [hpc]
          congr 2
          omega
        · rw [hpk]
          congr 1
          omega
      have hlen1 : ((((s.node (pf ll + 256 * ncur ll)).setCh
            ((a ll - ncur ll * (g + 1) : Nat) : Int) child).setK
            ((a ll - ncur ll * (g + 1) : Nat) : Int) left_key).setNum
            ((a ll - ncur ll * (g + 1) : Nat) : Int)).ent.length = 16 := by
        rw [bnode.length_setNum, bnode.length_setK, bnode.length_setCh]
        exact hlen _
      have hlink : ll < top → a (ll + 1) = ncur ll + 1 := by
        intro hl2
        have := i6 hl2
        rw [if_neg hr] at this
        exact this
      by_cases hcond : (s.node (pf ll + 256 * ncur ll)).num + 1 = (g : Int) ∧ ncur ll < N ll - 1
      · -- the node is full and not the last of its level: start the next one
        have hrg : a ll - ncur ll * (g + 1) = g := by
          have := hcond.1
          rw [hkk] at this
          exact_mod_cast this
        have e : appendUp g top pf N (k + 1) ll child left_key ncur s =
            ((fun x => if x = ll then ncur ll + 1 else ncur x),
             (s.setNode (pf ll + 256 * ncur ll)
                ((((s.node (pf ll + 256 * ncur ll)).setCh
                  ((a ll - ncur ll * (g + 1) : Nat) : Int) child).setK
                  ((a ll - ncur ll * (g + 1) : Nat) : Int) left_key).setNum
                  ((a ll - ncur ll * (g + 1) : Nat) : Int))).setNode (pf ll + 256 * ncur ll + 256)
              ((((s.setNode (pf ll + 256 * ncur ll)
                ((((s.node (pf ll + 256 * ncur ll)).setCh
                  ((a ll - ncur ll * (g + 1) : Nat) : Int) child).setK
                  ((a ll - ncur ll * (g + 1) : Nat) : Int) left_key).setNum
                  ((a ll - ncur ll * (g + 1) : Nat) : Int))).node (pf ll + 256 * ncur ll + 256)).setLock
                    0).setNum (-1))) := by
          rw [appendUp]
          simp only [hl, if_true, hpos, hcond, and_self]
          rw [hrg]
        rw [e]
        have hq2 : ncur ll + 1 < N ll := by omega
        have hadr : pf ll + 256 * ncur ll + 256 = pf ll + 256 * (ncur ll + 1) := by ring
        refine ⟨fun x => if x = ll then a ll + 1 else a x, if_pos rfl, fun l hl2 => if_neg (by omega),
          ?_, ?_, fun l hl2 => if_neg (by omega), ?_⟩
        · intro l h2 h3
          by_cases hll : l = ll
          · subst hll
            unfold LvlInv
            simp only [if_true]
            refine ⟨by omega, by omega, by omega, by omega, fun hh => by omega, ?_, ?_⟩
            · intro hl2
              rw [if_neg (by omega), hlink hl2, if_pos (by omega)]
            · intro j hj
              by_cases hjq : j < ncur l
              · rw [if_pos (by omega)]
                have := i7 j (by omega)
                rw [if_pos hjq] at this
                refine NodeHas_congr s _ g pf lk l j _ this ?_
                rw [State.node_setNode_other _ _ _ _ (by omega),
                  State.node_setNode_other _ _ _ _ (by omega)]
              · by_cases hje : j = ncur l
                · subst hje
                  rw [if_pos (by omega)]
                  have := hnew ((s.setNode (pf l + 256 * ncur l)
                    ((((s.node (pf l + 256 * ncur l)).setCh
                      ((a l - ncur l * (g + 1) : Nat) : Int) child).setK
                      ((a l - ncur l * (g + 1) : Nat) : Int) left_key).setNum
                      ((a l - ncur l * (g + 1) : Nat) : Int))).setNode (pf l + 256 * ncur l + 256)
                    ((((s.setNode (pf l + 256 * ncur l)
                      ((((s.node (pf l + 256 * ncur l)).setCh
                        ((a l - ncur l * (g + 1) : Nat) : Int) child).setK
                        ((a l - ncur l * (g + 1) : Nat) : Int) left_key).setNum
                        ((a l - ncur l * (g + 1) : Nat) : Int))).node (pf l + 256 * ncur l + 256)).setLock
                          0).setNum (-1)))
                    (by rw [State.node_setNode_other _ _ _ _ (by omega), State.node_setNode_same])
                  rw [show a l + 1 - ncur l * (g + 1) = g + 1 by omega] at this
                  exact this
                · have hje2 : j = ncur l + 1 := by omega
                  subst hje2
                  rw [if_neg (by omega), show a l + 1 - (ncur l + 1) * (g + 1) = 0 by omega]
                  refine NodeHas_init _ g pf lk l (ncur l + 1)
                    ((s.setNode (pf l + 256 * ncur l)
                      ((((s.node (pf l + 256 * ncur l)).setCh
                        ((a l - ncur l * (g + 1) : Nat) : Int) child).setK
                        ((a l - ncur l * (g + 1) : Nat) : Int) left_key).setNum
                        ((a l - ncur l * (g + 1) : Nat) : Int))).node (pf l + 256 * ncur l + 256)) ?_ ?_
                  · rw [State.node_setNode_other _ _ _ _ (by omega)]
                    exact hlen _
                  · rw [← hadr, State.node_setNode_same]
          · refine LvlInv_congr s _ g top pf N lk a _ ncur _ l (hinv l h2 h3)
              (if_neg hll) (fun _ => if_neg (by omega)) (if_neg hll) ?_
            intro j hj
            have hj2 : j < N l := by
              have := (hinv l h2 h3).2.2.2.1
              omega
            rw [State.node_setNode_other _ _ _ _ (by
                rw [hadr]
                exact hdisj l j h2 h3 hj2 (ncur ll + 1) hq2 (Or.inl hll)),
              State.node_setNode_other _ _ _ _
                (hdisj l j h2 h3 hj2 (ncur ll) (by omega) (Or.inl hll))]
        · intro x
          by_cases hx : x = pf ll + 256 * ncur ll + 256
          · subst hx
            rw [State.node_setNode_same, bnode.length_setNum, bnode.length_setLock,
              State.node_setNode_other _ _ _ _ (by omega)]
            exact hlen _
          · rw [State.node_setNode_other _ _ _ _ hx]
            by_cases hx2 : x = pf ll + 256 * ncur ll
            · subst hx2
              rw [State.node_setNode_same]
              exact hlen1
            · rw [State.node_setNode_other _ _ _ _ hx2]
              exact hlen x
        · intro x hx
          rw [State.node_setNode_other _ _ _ _ (by
              rw [hadr]
              exact hx ll (ncur ll + 1) (le_refl _) hl hq2),
            State.node_setNode_other _ _ _ _ (hx ll (ncur ll) (le_refl _) hl (by omega))]
      · have e : appendUp g top pf N (k + 1) ll child left_key ncur s =
            (ncur,
             s.setNode (pf ll + 256 * ncur ll)
                ((((s.node (pf ll + 256 * ncur ll)).setCh
                  ((a ll - ncur ll * (g + 1) : Nat) : Int) child).setK
                  ((a ll - ncur ll * (g + 1) : Nat) : Int) left_key).setNum
                  ((a ll - ncur ll * (g + 1) : Nat) : Int))) := by
          rw [appendUp]
          simp only [hl, if_true, hpos, hcond, if_false]
          rw [hkk]
        rw [e]
        have hfull : a ll + 1 = ncur ll * (g + 1) + (g + 1) → ncur ll + 1 = N ll := by
          intro hh
          by_contra hcon
          apply hcond
          refine ⟨?_, by omega⟩
          rw [hkk]
          have : a ll - ncur ll * (g + 1) = g := by omega
          rw [this]
        refine ⟨fun x => if x = ll then a ll + 1 else a x, if_pos rfl, fun l hl2 => if_neg (by omega),
          ?_, ?_, fun l hl2 => rfl, ?_⟩
        · intro l h2 h3
          by_cases hll : l = ll
          · subst hll
            unfold LvlInv
            simp only [if_true]
            refine ⟨by omega, by omega, by omega, i4, hfull, ?_, ?_⟩
            · intro hl2
              rw [if_neg (by omega), hlink hl2, if_neg (by omega)]
            · intro j hj
              by_cases hjq : j < ncur l
              · rw [if_pos hjq]
                have := i7 j hj
                rw [if_pos hjq] at this
                refine NodeHas_congr s _ g pf lk l j _ this ?_
                rw [State.node_setNode_other _ _ _ _ (by omega)]
              · have hje : j = ncur l := by omega
                subst hje
                rw [if_neg hjq]
                exact hnew _ (State.node_setNode_same _ _ _)
          · refine LvlInv_congr s _ g top pf N lk a _ ncur _ l (hinv l h2 h3)
              (if_neg hll) (fun _ => if_neg (by omega)) rfl ?_
            intro j hj
            have hj2 : j < N l := by
              have := (hinv l h2 h3).2.2.2.1
              omega
            exact State.node_setNode_other _ _ _ _
                (hdisj l j h2 h3 hj2 (ncur ll) (by omega) (Or.inl hll))
        · intro x
          by_cases hx2 : x = pf ll + 256 * ncur ll
          · subst hx2
            rw [State.node_setNode_same]
            exact hlen1
          · rw [State.node_setNode_other _ _ _ _ hx2]
            exact hlen x
        · intro x hx
          exact State.node_setNode_other _ _ _ _ (hx ll (ncur ll) (le_refl _) hl (by omega))

end LBTree


namespace LBTree

/-! ## The inner nodes after the loop over the leaves -/

/-- The main loop of step 4 keeps the level invariants: after leaf `i` the
inner levels hold the first `i` leaves. -/
theorem buildLeaves_nodes (input : Nat → Int) (start_key num_key f g top : Nat)
    (pf N : Nat → Nat) (hf1 : 1 ≤ f) (hf14 : f ≤ 14) (hn : 1 ≤ num_key)
    (hg1 : 1 ≤ g) (hg : g ≤ 15)
    (hL : N 0 = ceiling num_key f)
    (hch : ∀ ll, 1 ≤ ll → ll < top → pf (ll + 1) = pf ll + 256 * N ll)
    (hN : ∀ ll, 1 ≤ ll → ll ≤ top → N ll = ceiling (N (ll - 1)) (g + 1)) :
    ∀ (fuel i key_id : Nat) (leaf_meta : bleafMeta) (ncur a : Nat → Nat) (s : State),
    i + fuel = N 0 →
    (i < N 0 → key_id = start_key + i * f) →
    leaf_meta.fgpt.length = 14 →
    (∀ t, i ≤ t → t < N 0 → (s.leaf (pf 0 + 256 * t)).ent.length = 14) →
    (∀ x, (s.node x).ent.length = 16) →
    a 1 = i →
    (∀ l, 1 ≤ l → l ≤ top →
      LvlInv s g top pf N (fun t => input (start_key + t * f)) a ncur l) →
    ∃ a2 ncur2 : Nat → Nat, a2 1 = N 0 ∧
      (∀ l, 1 ≤ l → l ≤ top →
        LvlInv (buildLeaves input num_key f g top pf N fuel i key_id leaf_meta ncur s) g top pf N
          (fun t => input (start_key + t * f)) a2 ncur2 l) ∧
      (∀ x, ((buildLeaves input num_key f g top pf N fuel i key_id leaf_meta ncur s).node x).ent.length
        = 16) ∧
      (∀ x, (∀ l j, 1 ≤ l → l ≤ top → j < N l → x ≠ pf l + 256 * j) →
        (buildLeaves input num_key f g top pf N fuel i key_id leaf_meta ncur s).node x = s.node x) := by
  obtain ⟨hc1, hc2, hc3, hc4⟩ := ceiling_bounds num_key f hf1 hn
  intro fuel
  induction fuel with
  | zero =>
    intro i key_id leaf_meta ncur a s hi _ _ _ hlen ha hinv
    have e : buildLeaves input num_key f g top pf N 0 i key_id leaf_meta ncur s = s := rfl
    rw [e]
    exact ⟨a, ncur, by omega, hinv, hlen, fun x _ => rfl⟩
  | succ n ih =>
    intro i key_id leaf_meta ncur a s hi hkey hfl hshape hlen ha hinv
    have hil : i < N 0 := by omega
    have hkid := hkey hil
    have hent := hshape i (le_refl _) hil
    unfold buildLeaves
    simp only [hil, if_true]
    generalize hfn : (if i = N 0 - 1 then num_key - (N 0 - 1) * f else f) = fillnum
    have hfn14 : 1 ≤ fillnum ∧ fillnum ≤ f := by
      rw [← hfn]
      split
      · rw [hL]; omega
      · omega
    generalize hm1 : (if i = N 0 - 1 then
          ({ leaf_meta with bitmap := fillBitmap fillnum } : bleafMeta) else leaf_meta) = m1
    have hm1l : m1.fgpt.length = 14 := by
      rw [← hm1]
      split
      · exact hfl
      · exact hfl
    obtain ⟨c1, c2, c3, c4, c5, c6, c7, c8, c9⟩ :=
      fillLeaf_spec input fillnum (LEAF_KEY_NUM - fillnum) key_id (s.leaf (pf 0 + 256 * i))
        m1 (by unfold LEAF_KEY_NUM; omega) hent hm1l
    rcases hfl2 : fillLeaf input fillnum (LEAF_KEY_NUM - fillnum) key_id (s.leaf (pf 0 + 256 * i))
        m1 with ⟨lp1, m2, k1⟩
    rw [hfl2] at c1 c2 c3 c4 c5 c6 c7 c8 c9
    simp only at c1 c2 c3 c4 c5 c6 c7 c8 c9 ⊢
    have hk : (({ lp1 with next := (lp1.next.set 0
            (if i < N 0 - 1 then pf 0 + 256 * i + 256 else 0)).set 1 0 } : bleaf).setBothWords
            m2).k (LEAF_KEY_NUM - fillnum) = input (start_key + i * f) := by
      show (lp1.entAt (LEAF_KEY_NUM - fillnum)).k = _
      rw [c8 (LEAF_KEY_NUM - fillnum), if_pos ⟨le_refl _, by unfold LEAF_KEY_NUM; omega⟩, hkid]
      simp
    rw [hk]
    generalize hs1 : s.setLeaf (pf 0 + 256 * i)
          (({ lp1 with next := (lp1.next.set 0
            (if i < N 0 - 1 then pf 0 + 256 * i + 256 else 0)).set 1 0 } : bleaf).setBothWords
            m2) = s1
    have hs1n : s1.node = s.node := by rw [← hs1]; rfl
    have hs1l : ∀ x, x ≠ pf 0 + 256 * i → s1.leaf x = s.leaf x := by
      intro x hx
      rw [← hs1]
      exact State.leaf_setLeaf_other _ _ _ _ hx
    obtain ⟨a2, b1, b2, b3, b4, b5, b6⟩ :=
      appendUp_spec g top pf N (fun t => input (start_key + t * f)) hg1 hg hch hN top 1
        (pf 0 + 256 * i) (input (start_key + i * f)) ncur a s1 (le_refl _) (by omega)
        (by intro x; rw [hs1n]; exact hlen x)
        (by
          intro l h1 h2
          exact LvlInv_congr s s1 g top pf N _ a a ncur ncur l (hinv l h1 h2) rfl (fun _ => rfl) rfl
            (fun j _ => by rw [hs1n]))
        (by
          intro _
          rw [ha]
          exact ⟨hil, rfl, rfl⟩)
    have hleaf := appendUp_leaf g top pf N top 1 (pf 0 + 256 * i) (input (start_key + i * f)) ncur s1
    rcases hau : appendUp g top pf N top 1 (pf 0 + 256 * i) (input (start_key + i * f)) ncur s1
      with ⟨ncur1, s2⟩
    rw [hau] at b3 b4 b5 b6 hleaf
    simp only at b3 b4 b5 b6 hleaf ⊢
    obtain ⟨a3, ncur3, d1, d2, d3, d4⟩ := ih (i + 1) k1 m2 ncur1 a2 s2 (by omega)
      (by
        intro hlt
        have hne : ¬ i = N 0 - 1 := by omega
        rw [if_neg hne] at hfn
        subst hfn
        rw [c7, hkid, Nat.add_mul]
        omega) c2
      (by
        intro t h1 h2
        rw [hleaf, hs1l _ (by omega)]
        exact hshape t (by omega) h2)
      b4 (by rw [b1, ha]) b3
    refine ⟨a3, ncur3, d1, d2, d3, ?_⟩
    intro x hx
    rw [d4 x hx, b6 x hx, hs1n]

end LBTree


namespace LBTree

/-- When the last leaf has been appended every level is complete: level `l`
received all nodes of the level below and its current node is its last one. -/
theorem lvlInv_final (s : State) (g top : Nat) (pf N : Nat → Nat) (lk : Nat → Int)
    (a ncur : Nat → Nat) (hg1 : 1 ≤ g)
    (hN : ∀ ll, 1 ≤ ll → ll ≤ top → N ll = ceiling (N (ll - 1)) (g + 1))
    (hN0 : 1 ≤ N 0) (ha : a 1 = N 0)
    (hinv : ∀ l, 1 ≤ l → l ≤ top → LvlInv s g top pf N lk a ncur l) :
    ∀ l, 1 ≤ l → l ≤ top → a l = N (l - 1) ∧ ncur l + 1 = N l ∧ 1 ≤ N (l - 1) := by
  intro l
  induction l with
  | zero => intro h; omega
  | succ m ih =>
    intro h1 h2
    have hal : a (m + 1) = N m ∧ 1 ≤ N m := by
      by_cases hm : m = 0
      · subst hm
        exact ⟨ha, hN0⟩
      · obtain ⟨e1, e2, e3⟩ := ih (by omega) (by omega)
        obtain ⟨i1, i2, i3, i4, i5, i6, i7⟩ := hinv m (by omega) (by omega)
        have hlink := i6 (by omega)
        have hne : ¬ a m = ncur m * (g + 1) := by
          intro hh
          have hNm := hN m (by omega) (by omega)
          rw [← e1, hh, ceiling_exact _ _ (by omega)] at hNm
          omega
        rw [if_neg hne] at hlink
        exact ⟨by omega, by omega⟩
    obtain ⟨i1, i2, i3, i4, i5, i6, i7⟩ := hinv (m + 1) h1 h2
    have hNm := hN (m + 1) h1 h2
    rw [Nat.add_sub_cancel] at hNm ⊢
    refine ⟨hal.1, ?_, hal.2⟩
    have hne : ¬ a (m + 1) = ncur (m + 1) * (g + 1) := by
      intro hh
      rw [← hal.1, hh, ceiling_exact _ _ (by omega)] at hNm
      omega
    have := ceiling_full (ncur (m + 1)) (g + 1) (a (m + 1) - ncur (m + 1) * (g + 1)) (by omega)
      (by omega)
    rw [show ncur (m + 1) * (g + 1) + (a (m + 1) - ncur (m + 1) * (g + 1)) = a (m + 1) by omega,
      hal.1] at this
    omega

/-- The inner nodes written by `bulkloadSubtree`: the level counts, the layout
of the levels in DRAM and the content of every node. -/
theorem bulkloadSubtree_nodes (s : State) (input : Nat → Int) (start_key n f g tl : Nat)
    (garbage : bleafMeta) (out : BldOut)
    (hf1 : 1 ≤ f) (hf14 : f ≤ 14) (hn : 1 ≤ n) (hg1 : 1 ≤ g) (hg15 : g ≤ 15)
    (hgarb : garbage.fgpt.length = 14)
    (hshape : ∀ a, (s.leaf a).ent.length = 14)
    (hlen : ∀ a, (s.node a).ent.length = 16)
    (hb : bulkloadSubtree s input start_key n f g tl garbage = some out) :
    out.n_nodes 0 = ceiling n f ∧
    (∀ ll, 1 ≤ ll → ll ≤ out.top_level →
      out.n_nodes ll = ceiling (out.n_nodes (ll - 1)) (g + 1) ∧ 1 < out.n_nodes (ll - 1)) ∧
    out.top_level ≤ tl ∧ (out.n_nodes out.top_level ≤ 1 ∨ out.top_level = tl) ∧
    (1 ≤ out.top_level → out.pfirst 1 = s.dpool.cur) ∧
    (∀ ll, 1 ≤ ll → ll < out.top_level →
      out.pfirst (ll + 1) = out.pfirst ll + 256 * out.n_nodes ll) ∧
    (∀ ll j, 1 ≤ ll → ll ≤ out.top_level → j < out.n_nodes ll →
      NodeHas out.s g out.pfirst (fun t => input (start_key + t * f)) ll j
        (chCount g out.n_nodes ll j)) ∧
    (∀ x, (out.s.node x).ent.length = 16) ∧
    (∀ x, (∀ l j, 1 ≤ l → l ≤ out.top_level → j < out.n_nodes l → x ≠ out.pfirst l + 256 * j) →
      out.s.node x = s.node x) := by
  obtain ⟨hc1, hc2, hc3, hc4⟩ := ceiling_bounds n f hf1 hn
  have hfit := bulkloadSubtree_fits s input start_key n f g tl garbage out hb
  unfold bulkloadSubtree at hb
  rw [if_neg hfit] at hb
  simp only at hb
  obtain ⟨k1, k2, k3, k4, k5⟩ := countLevels_spec g tl tl 1
    (fun x => if x = 0 then ceiling n f else 0) 0 (le_refl _) rfl (by omega)
  rcases hcl : countLevels g tl tl 1 (fun x => if x = 0 then ceiling n f else 0) 0
    with ⟨N, top⟩
  rw [hcl] at hb k1 k2 k3 k4 k5
  simp only at hb k1 k2 k3 k4 k5
  have hn0 : N 0 = ceiling n f := by
    rw [k3 0 (by omega)]
    simp
  rcases hal : s.nvmpool.alloc (256 * N 0) with _ | ⟨a0, nv⟩
  · simp [hal] at hb
  · simp only [hal] at hb
    rcases hall : allocLevels N top top 1 (fun x => if x = 0 then a0 else 0) s.dpool
      with _ | ⟨pf, dp⟩
    · simp [hall] at hb
    · simp only [hall, Option.some.injEq] at hb
      obtain ⟨l1, l2, l3⟩ := allocLevels_spec N top top 1 _ s.dpool pf dp (by omega) hall
      have hNeq : ∀ ll, 1 ≤ ll → ll ≤ top → N ll = ceiling (N (ll - 1)) (g + 1) :=
        fun ll h1 h2 => (k4 ll h1 h2).1
      have hNpos : ∀ ll, 1 ≤ ll → ll ≤ top → 1 ≤ N ll := by
        intro ll h1 h2
        rw [hNeq ll h1 h2]
        exact ceiling_pos _ _ (by omega) (by have := (k4 ll h1 h2).2; omega)
      obtain ⟨m1, m2, m3⟩ := initLevels_spec pf N top l3 hNpos top 1
        { s with nvmpool := nv, dpool := dp } (le_refl _) (by omega) hlen
      obtain ⟨a2, ncur2, d1, d2, d3, d4⟩ := buildLeaves_nodes input start_key n f g top pf N
        hf1 hf14 hn hg1 hg15 hn0 l3 hNeq (N 0) 0 start_key
        { garbage with bitmap := fillBitmap f, lock := 0, alt := 0 } (fun _ => 0) (fun _ => 0)
        (initLevels pf top top 1 { s with nvmpool := nv, dpool := dp })
        (by omega) (fun _ => by omega) hgarb
        (by
          intro t _ _
          rw [initLevels_leaf]
          exact hshape _)
        m1 rfl
        (by
          intro l h1 h2
          unfold LvlInv
          simp only [Nat.zero_mul, if_true, Nat.sub_zero, Nat.zero_add]
          refine ⟨le_refl _, by omega, by omega, hNpos l h1 h2, fun hh => by omega, fun _ => trivial, ?_⟩
          intro j hj
          have hj0 : j = 0 := by omega
          subst hj0
          simp only [lt_irrefl, if_false]
          obtain ⟨e1, e2⟩ := m2 l h1 h2
          refine ⟨?_, ?_, ?_, fun c hc => by omega⟩
          · exact m1 _
          · rw [Nat.mul_zero, Nat.add_zero, e1]
            simp
          · rw [Nat.mul_zero, Nat.add_zero, e2])
      have hfin := lvlInv_final _ g top pf N _ a2 ncur2 hg1 hNeq (by rw [hn0]; omega) d1 d2
      subst hb
      simp only
      refine ⟨hn0, k4, k2, k5, fun h1 => l2 h1, l3, ?_, d3, ?_⟩
      · intro ll j h1 h2 h3
        obtain ⟨f1, f2, f3⟩ := hfin ll h1 h2
        obtain ⟨i1, i2, i3, i4, i5, i6, i7⟩ := d2 ll h1 h2
        have := i7 j (by omega)
        unfold chCount
        by_cases hj : j < ncur2 ll
        · rw [if_pos hj] at this
          rw [if_pos (by omega)]
          exact this
        · rw [if_neg hj] at this
          have hje : j = ncur2 ll := by omega
          rw [if_neg (by omega), ← f1]
          rw [hje] at this ⊢
          exact this
      · intro x hx
        rw [d4 x hx]
        exact m3 x (fun l h1 h2 => by
          have := hx l 0 (by omega) h2 (hNpos l (by omega) h2)
          simpa using this)

end LBTree


namespace LBTree

/-! ## The traversal `getKeyPtrLevel` over a bulk-loaded subtree -/

theorem chCount_bounds (g : Nat) (N : Nat → Nat) (ll j : Nat)
    (hN : N (ll + 1) = ceiling (N ll) (g + 1)) (hj : j < N (ll + 1)) :
    1 ≤ chCount g N (ll + 1) j ∧ chCount g N (ll + 1) j ≤ g + 1 ∧
    j * (g + 1) + chCount g N (ll + 1) j ≤ N ll ∧
    (j + 1 < N (ll + 1) → chCount g N (ll + 1) j = g + 1 ∧ (j + 1) * (g + 1) < N ll) ∧
    (¬ j + 1 < N (ll + 1) → j * (g + 1) + chCount g N (ll + 1) j = N ll) := by
  unfold chCount
  rw [Nat.add_sub_cancel]
  have e2 : (j + 1) * (g + 1) = j * (g + 1) + (g + 1) := by ring
  by_cases h : j + 1 < N (ll + 1)
  · rw [if_pos h]
    have h1 : (j + 1) * (g + 1) < N ll := ceiling_lt (N ll) (g + 1) (j + 1) (by omega) (by rw [← hN]; exact h)
    refine ⟨by omega, le_refl _, by omega, fun _ => ⟨rfl, h1⟩, fun hh => absurd h hh⟩
  · rw [if_neg h]
    have h1 : j * (g + 1) < N ll := ceiling_lt (N ll) (g + 1) j (by omega) (by rw [← hN]; exact hj)
    have h2 := ceiling_ge (N ll) (g + 1) (by omega)
    rw [← hN, show N (ll + 1) = j + 1 by omega, e2] at h2
    refine ⟨by omega, by omega, by omega, fun hh => absurd hh h, fun _ => by omega⟩

theorem spanLo_child_first (g : Nat) (N : Nat → Nat) (level d j : Nat)
    (hN : N (level + d + 1) = ceiling (N (level + d)) (g + 1)) (hj : j < N (level + d + 1)) :
    spanLo (g + 1) N level d (j * (g + 1)) = spanLo (g + 1) N level (d + 1) j := by
  have h1 : j * (g + 1) < N (level + d) :=
    ceiling_lt (N (level + d)) (g + 1) j (by omega) (by rw [← hN]; exact hj)
  unfold spanLo
  rw [if_pos h1, if_pos (show j < N (level + (d + 1)) from hj), pow_succ]
  ring

theorem spanLo_child_last (g : Nat) (N : Nat → Nat) (level d j : Nat)
    (hN : N (level + d + 1) = ceiling (N (level + d)) (g + 1)) (hj : j < N (level + d + 1)) :
    spanLo (g + 1) N level d (j * (g + 1) + chCount g N (level + d + 1) j)
      = spanLo (g + 1) N level (d + 1) (j + 1) := by
  obtain ⟨c1, c2, c3, c4, c5⟩ := chCount_bounds g N (level + d) j hN hj
  unfold spanLo
  by_cases h : j + 1 < N (level + d + 1)
  · obtain ⟨e1, e2⟩ := c4 h
    rw [e1, if_pos (show j + 1 < N (level + (d + 1)) from h),
      show j * (g + 1) + (g + 1) = (j + 1) * (g + 1) by ring, if_pos e2, pow_succ]
    ring
  · rw [c5 h, if_neg (lt_irrefl _), if_neg (show ¬ j + 1 < N (level + (d + 1)) from h)]

theorem mempool_free_node_other (s : State) (p x : Nat) (h : x ≠ p) :
    (mempool_free_node s p).node x = s.node x := by
  unfold mempool_free_node
  exact State.node_setNode_other _ _ _ _ h

/-- The loop over the children `1 .. num` of node `j` of level `level + d + 1`,
given the behaviour of the calls one level down. -/
theorem gkLoop_count (g top level : Nat) (pf N : Nat → Nat) (lk : Nat → Int)
    (hch : ∀ ll, 1 ≤ ll → ll < top → pf (ll + 1) = pf ll + 256 * N ll)
    (hN : ∀ ll, 1 ≤ ll → ll ≤ top → N ll = ceiling (N (ll - 1)) (g + 1))
    (rec : State → Nat → Int → List (Nat × Int) → State × List (Nat × Int))
    (d j : Nat) (hd : level + d + 1 ≤ top) (hj : j < N (level + d + 1))
    (hrec : ∀ (j2 : Nat) (s : State) (key : Int) (acc : List (Nat × Int)),
      j2 < N (level + d) → Intact s g pf N lk level d j2 →
      (rec s (pf (level + d) + 256 * j2) key acc).2.length + spanLo (g + 1) N level d j2
        = acc.length + spanLo (g + 1) N level d (j2 + 1) ∧
      (∀ x, ¬ LeftOf g pf N level d (j2 + 1) x →
        (rec s (pf (level + d) + 256 * j2) key acc).1.node x = s.node x)) :
    ∀ (fuel i : Nat) (s : State) (acc : List (Nat × Int)),
    1 ≤ i → i ≤ chCount g N (level + d + 1) j → chCount g N (level + d + 1) j ≤ fuel + i →
    NodeHas s g pf lk (level + d + 1) j (chCount g N (level + d + 1) j) →
    (i < chCount g N (level + d + 1) j → Intact s g pf N lk level d (j * (g + 1) + i)) →
    (gkLoop rec (pf (level + d + 1) + 256 * j) fuel (i : Int) s acc).2.length
        + spanLo (g + 1) N level d (j * (g + 1) + i)
      = acc.length + spanLo (g + 1) N level d (j * (g + 1) + chCount g N (level + d + 1) j) ∧
    (∀ x, ¬ LeftOf g pf N level d (j * (g + 1) + chCount g N (level + d + 1) j) x →
      (gkLoop rec (pf (level + d + 1) + 256 * j) fuel (i : Int) s acc).1.node x = s.node x) := by
  have hNd := hN (level + d + 1) (by omega) hd
  rw [Nat.add_sub_cancel] at hNd
  obtain ⟨c1, c2, c3, c4, c5⟩ := chCount_bounds g N (level + d) j hNd hj
  intro fuel
  induction fuel with
  | zero =>
    intro i s acc h1 h2 h3 hnode hint
    have hi : i = chCount g N (level + d + 1) j := by omega
    have e : gkLoop rec (pf (level + d + 1) + 256 * j) 0 (i : Int) s acc = (s, acc) := rfl
    rw [e, hi]
    exact ⟨rfl, fun x _ => rfl⟩
  | succ n ih =>
    intro i s acc h1 h2 h3 hnode hint
    have hnum := hnode.2.1
    by_cases hi : i = chCount g N (level + d + 1) j
    · have e : gkLoop rec (pf (level + d + 1) + 256 * j) (n + 1) (i : Int) s acc = (s, acc) := by
        rw [gkLoop, if_neg]
        rw [hnum, hi]
        omega
      rw [e, hi]
      exact ⟨rfl, fun x _ => rfl⟩
    · have hlt : i < chCount g N (level + d + 1) j := by omega
      have hcond : (i : Int) ≤ (s.node (pf (level + d + 1) + 256 * j)).num := by
        rw [hnum]
        omega
      obtain ⟨hch1, hk1⟩ := hnode.2.2.2 i hlt
      rw [Nat.add_sub_cancel] at hch1
      have hin : j * (g + 1) + i < N (level + d) := by omega
      obtain ⟨r1, r2⟩ := hrec (j * (g + 1) + i) s
        ((s.node (pf (level + d + 1) + 256 * j)).k (i : Int)) acc hin (hint hlt)
      have e : gkLoop rec (pf (level + d + 1) + 256 * j) (n + 1) (i : Int) s acc =
          gkLoop rec (pf (level + d + 1) + 256 * j) n ((i + 1 : Nat) : Int)
            (rec s (pf (level + d) + 256 * (j * (g + 1) + i))
              ((s.node (pf (level + d + 1) + 256 * j)).k (i : Int)) acc).1
            (rec s (pf (level + d) + 256 * (j * (g + 1) + i))
              ((s.node (pf (level + d + 1) + 256 * j)).k (i : Int)) acc).2 := by
        rw [gkLoop, if_pos hcond, hch1]
        push_cast
        rfl
      rw [e]
      rcases hr : rec s (pf (level + d) + 256 * (j * (g + 1) + i))
              ((s.node (pf (level + d + 1) + 256 * j)).k (i : Int)) acc with ⟨s1, acc1⟩
      rw [hr] at r1 r2
      simp only at r1 r2 ⊢
      -- the node itself is not written by the call
      have hself : ¬ LeftOf g pf N level d (j * (g + 1) + i + 1) (pf (level + d + 1) + 256 * j) := by
        rintro ⟨d2, j2, q1, q2, q3, q4, q5⟩
        exact pfirst_disj pf N top hch (level + d + 1) j (level + d2) j2 (by omega) hd (by omega)
          (by omega) hj q3 (Or.inl (by omega)) q5
      have hnode1 : NodeHas s1 g pf lk (level + d + 1) j (chCount g N (level + d + 1) j) :=
        NodeHas_congr s s1 g pf lk _ j _ hnode (r2 _ hself)
      have hint1 : i + 1 < chCount g N (level + d + 1) j →
          Intact s1 g pf N lk level d (j * (g + 1) + (i + 1)) := by
        intro hlt2 d2 j2 q1 q2 q3 q4
        refine NodeHas_congr s s1 g pf lk _ j2 _ (hint hlt d2 j2 q1 q2 ?_ q4) (r2 _ ?_)
        · refine le_trans (Nat.mul_le_mul_right _ ?_) q3
          omega
        · rintro ⟨d3, j3, p1, p2, p3, p4, p5⟩
          by_cases hdd : d3 = d2
          · subst hdd
            have : j3 = j2 := by omega
            subst this
            rw [show j * (g + 1) + (i + 1) = j * (g + 1) + i + 1 by omega] at q3
            omega
          · exact pfirst_disj pf N top hch (level + d2) j2 (level + d3) j3 (by omega) (by omega)
              (by omega) (by omega) q4 p3 (Or.inl (by omega)) p5
      obtain ⟨t1, t2⟩ := ih (i + 1) s1 acc1 (by omega) (by omega) (by omega) hnode1 hint1
      refine ⟨?_, ?_⟩
      · rw [show j * (g + 1) + (i + 1) = j * (g + 1) + i + 1 by omega] at t1
        omega
      · intro x hx
        rw [t2 x hx]
        apply r2
        rintro ⟨d3, j3, p1, p2, p3, p4, p5⟩
        apply hx
        refine ⟨d3, j3, p1, p2, p3, lt_of_lt_of_le p4 (Nat.mul_le_mul_right _ ?_), p5⟩
        omega

end LBTree


namespace LBTree

theorem getKeyPtrLevel_here (level mi : Nat) (fr : Bool) (s : State) (p : Nat) (key : Int)
    (acc : List (Nat × Int)) :
    getKeyPtrLevel level fr mi level s p key acc = (s, acc ++ [(p, key)]) := by
  cases level with
  | zero => simp [getKeyPtrLevel]
  | succ l => simp [getKeyPtrLevel]

/-- The traversal from node `j` of level `level + d` collects the nodes of
level `level` below it, one pair each, and writes only nodes to the left of
the leftmost path below node `j + 1`. -/
theorem getKeyPtrLevel_count (g top level mi : Nat) (pf N : Nat → Nat) (lk : Nat → Int)
    (hmi : g ≤ mi)
    (hch : ∀ ll, 1 ≤ ll → ll < top → pf (ll + 1) = pf ll + 256 * N ll)
    (hN : ∀ ll, 1 ≤ ll → ll ≤ top → N ll = ceiling (N (ll - 1)) (g + 1)) :
    ∀ (d j : Nat) (s : State) (key : Int) (acc : List (Nat × Int)),
    level + d ≤ top → j < N (level + d) → Intact s g pf N lk level d j →
    (getKeyPtrLevel level true mi (level + d) s (pf (level + d) + 256 * j) key acc).2.length
        + spanLo (g + 1) N level d j
      = acc.length + spanLo (g + 1) N level d (j + 1) ∧
    (∀ x, ¬ LeftOf g pf N level d (j + 1) x →
      (getKeyPtrLevel level true mi (level + d) s (pf (level + d) + 256 * j) key acc).1.node x
        = s.node x) := by
  intro d
  induction d with
  | zero =>
    intro j s key acc hd hj hint
    rw [show level + 0 = level from rfl, getKeyPtrLevel_here]
    refine ⟨?_, fun x _ => rfl⟩
    unfold spanLo
    have hj0 : j < N level := hj
    rw [if_pos hj]
    simp only [List.length_append, List.length_singleton, pow_zero, Nat.mul_one, Nat.add_zero]
    split <;> omega
  | succ d ih =>
    intro j s key acc hd hj hint
    have hd1 : level + d + 1 ≤ top := hd
    have hj1 : j < N (level + d + 1) := hj
    have hNd := hN (level + d + 1) (by omega) hd1
    rw [Nat.add_sub_cancel] at hNd
    obtain ⟨c1, c2, c3, c4, c5⟩ := chCount_bounds g N (level + d) j hNd hj1
    have hnode : NodeHas s g pf lk (level + d + 1) j (chCount g N (level + d + 1) j) := by
      have := hint (d + 1) j (by omega) (le_refl _) (by simp) hj
      exact this
    obtain ⟨hch0, _⟩ := hnode.2.2.2 0 (by omega)
    rw [Nat.add_sub_cancel, Nat.add_zero] at hch0
    -- the nodes below are intact for every child
    have hintc : ∀ c, Intact s g pf N lk level d (j * (g + 1) + c) := by
      intro c d2 j2 q1 q2 q3 q4
      refine hint d2 j2 q1 (by omega) ?_ q4
      refine le_trans ?_ q3
      rw [show d + 1 - d2 = (d - d2) + 1 by omega, pow_succ, ← Nat.mul_assoc,
        Nat.mul_right_comm]
      exact Nat.mul_le_mul_right _ (Nat.le_add_right _ _)
    have e : getKeyPtrLevel level true mi (level + (d + 1)) s (pf (level + (d + 1)) + 256 * j) key acc
        = (mempool_free_node
            (gkLoop (getKeyPtrLevel level true mi (level + d)) (pf (level + d + 1) + 256 * j) mi 1
              (getKeyPtrLevel level true mi (level + d) s (pf (level + d) + 256 * (j * (g + 1))) key
                acc).1
              (getKeyPtrLevel level true mi (level + d) s (pf (level + d) + 256 * (j * (g + 1))) key
                acc).2).1 (pf (level + d + 1) + 256 * j),
           (gkLoop (getKeyPtrLevel level true mi (level + d)) (pf (level + d + 1) + 256 * j) mi 1
              (getKeyPtrLevel level true mi (level + d) s (pf (level + d) + 256 * (j * (g + 1))) key
                acc).1
              (getKeyPtrLevel level true mi (level + d) s (pf (level + d) + 256 * (j * (g + 1))) key
                acc).2).2) := by
      show getKeyPtrLevel level true mi (level + d + 1) s (pf (level + d + 1) + 256 * j) key acc = _
      rw [getKeyPtrLevel, if_neg (by omega), if_pos (by omega)]
      simp only [if_true]
      rw [show (s.node (pf (level + d + 1) + 256 * j)).ch 0
        = pf (level + d) + 256 * (j * (g + 1)) from hch0]
    rw [e]
    obtain ⟨r1, r2⟩ := ih (j * (g + 1)) s key acc (by omega) (by omega) (hintc 0)
    rcases hr : getKeyPtrLevel level true mi (level + d) s (pf (level + d) + 256 * (j * (g + 1))) key
        acc with ⟨s1, acc1⟩
    rw [hr] at r1 r2
    simp only at r1 r2 ⊢
    have hself : ∀ c, ¬ LeftOf g pf N level d c (pf (level + d + 1) + 256 * j) := by
      rintro c ⟨d2, j2, q1, q2, q3, q4, q5⟩
      exact pfirst_disj pf N top hch (level + d + 1) j (level + d2) j2 (by omega) hd1 (by omega)
        (by omega) hj1 q3 (Or.inl (by omega)) q5
    have hnode1 : NodeHas s1 g pf lk (level + d + 1) j (chCount g N (level + d + 1) j) :=
      NodeHas_congr s s1 g pf lk _ j _ hnode (r2 _ (hself _))
    have hint1 : 1 < chCount g N (level + d + 1) j →
        Intact s1 g pf N lk level d (j * (g + 1) + 1) := by
      intro _ d2 j2 q1 q2 q3 q4
      refine NodeHas_congr s s1 g pf lk _ j2 _ (hintc 1 d2 j2 q1 q2 q3 q4) (r2 _ ?_)
      rintro ⟨d3, j3, p1, p2, p3, p4, p5⟩
      by_cases hdd : d3 = d2
      · subst hdd
        have : j3 = j2 := by omega
        subst this
        omega
      · exact pfirst_disj pf N top hch (level + d2) j2 (level + d3) j3 (by omega) (by omega)
          (by omega) (by omega) q4 p3 (Or.inl (by omega)) p5
    obtain ⟨t1, t2⟩ := gkLoop_count g top level pf N lk hch hN
      (getKeyPtrLevel level true mi (level + d)) d j hd1 hj1
      (fun j2 s2 key2 acc2 h1 h2 => ih j2 s2 key2 acc2 (by omega) h1 h2)
      mi 1 s1 acc1 (le_refl _) c1 (by omega) hnode1 hint1
    rw [spanLo_child_last g N level d j hNd hj1] at t1
    rw [spanLo_child_first g N level d j hNd hj1] at r1
    refine ⟨?_, ?_⟩
    · have t1b : (gkLoop (getKeyPtrLevel level true mi (level + d)) (pf (level + d + 1) + 256 * j) mi 1
          s1 acc1).2.length + spanLo (g + 1) N level d (j * (g + 1) + 1)
          = acc1.length + spanLo (g + 1) N level (d + 1) (j + 1) := t1
      omega
    · intro x hx
      have hxp : x ≠ pf (level + d + 1) + 256 * j := by
        intro hh
        apply hx
        exact ⟨d + 1, j, by omega, le_refl _, hj, by simp, hh⟩
      have hxl : ∀ c, c ≤ j * (g + 1) + (g + 1) → ¬ LeftOf g pf N level d c x := by
        rintro c hc ⟨d3, j3, p1, p2, p3, p4, p5⟩
        apply hx
        refine ⟨d3, j3, p1, by omega, p3, lt_of_lt_of_le p4 ?_, p5⟩
        rw [show d + 1 - d3 = (d - d3) + 1 by omega, pow_succ, ← Nat.mul_assoc,
          Nat.mul_right_comm]
        refine Nat.mul_le_mul_right _ ?_
        rw [Nat.add_mul, Nat.one_mul]
        exact hc
      rw [mempool_free_node_other _ _ _ hxp]
      have t2b := t2 x (hxl _ (by omega))
      rw [show ((1 : Nat) : Int) = 1 from rfl] at t2b
      rw [t2b]
      exact r2 x (hxl _ (by omega))

end LBTree


namespace LBTree

/-! ## The workers of a bulk load and the pairs collected at the common level -/

theorem fillLeaf_entlen (input : Nat → Int) :
    ∀ (fuel j key_id : Nat) (lp : bleaf) (m : bleafMeta),
    (fillLeaf input fuel j key_id lp m).1.ent.length = lp.ent.length := by
  intro fuel
  induction fuel with
  | zero => intro j key_id lp m; rfl
  | succ n ih =>
    intro j key_id lp m
    unfold fillLeaf
    split
    · simp only
      rw [ih]
      simp [bleaf.setEnt]
    · rfl

theorem buildLeaves_entlen (input : Nat → Int) (num_key f g top : Nat) (pf N : Nat → Nat) :
    ∀ (fuel i key_id : Nat) (leaf_meta : bleafMeta) (ncur : Nat → Nat) (s : State),
    (∀ a, (s.leaf a).ent.length = 14) →
    ∀ a, ((buildLeaves input num_key f g top pf N fuel i key_id leaf_meta ncur s).leaf a).ent.length
      = 14 := by
  intro fuel
  induction fuel with
  | zero => intro i key_id leaf_meta ncur s h a; exact h a
  | succ n ih =>
    intro i key_id leaf_meta ncur s h
    unfold buildLeaves
    simp only
    split
    · apply ih
      intro a
      rw [appendUp_leaf]
      by_cases ha : a = pf 0 + 256 * i
      · subst ha
        rw [State.leaf_setLeaf_same]
        show (fillLeaf input _ _ key_id (s.leaf (pf 0 + 256 * i)) _).1.ent.length = 14
        rw [fillLeaf_entlen]
        exact h _
      · rw [State.leaf_setLeaf_other _ _ _ _ ha]
        exact h a
    · exact h

theorem bulkloadSubtree_entlen (s : State) (input : Nat → Int) (start_key n f g tl : Nat)
    (garbage : bleafMeta) (out : BldOut)
    (hshape : ∀ a, (s.leaf a).ent.length = 14)
    (hb : bulkloadSubtree s input start_key n f g tl garbage = some out) :
    ∀ a, (out.s.leaf a).ent.length = 14 := by
  have hfit := bulkloadSubtree_fits s input start_key n f g tl garbage out hb
  unfold bulkloadSubtree at hb
  rw [if_neg hfit] at hb
  simp only at hb
  split at hb
  · exact absurd hb (by simp)
  · split at hb
    · exact absurd hb (by simp)
    · simp only [Option.some.injEq] at hb
      subst hb
      simp only
      apply buildLeaves_entlen
      intro a
      rw [initLevels_leaf]
      exact hshape a

/-- The level counts returned by `bulkloadSubtree` are those of step 2. -/
theorem bulkloadSubtree_counts (s : State) (input : Nat → Int) (start_key num_key f nf tl : Nat)
    (garbage : bleafMeta) (out : BldOut)
    (h : bulkloadSubtree s input start_key num_key f nf tl garbage = some out) :
    out.n_nodes =
      (countLevels nf tl tl 1 (fun x => if x = 0 then ceiling num_key f else 0) 0).1 := by
  have hfit := bulkloadSubtree_fits s input start_key num_key f nf tl garbage out h
  unfold bulkloadSubtree at h
  rw [if_neg hfit] at h
  simp only at h
  split at h
  · exact absurd h (by simp)
  · split at h
    · exact absurd h (by simp)
    · simp only [Option.some.injEq] at h
      subst h
      rfl

theorem connectSiblings_node (bta : Nat → BldOut) (nt : Nat) :
    ∀ (fuel i : Nat) (s : State), (connectSiblings bta nt fuel i s).node = s.node := by
  intro fuel
  induction fuel with
  | zero => intro i s; rfl
  | succ n ih =>
    intro i s
    unfold connectSiblings
    split
    · rw [ih]; rfl
    · rfl

/-- The last worker: its subtree is built by `bulkloadSubtree` on a memory whose
frames are well formed, and no inner node is written after it. -/
theorem runWorkers_last (input : Nat → Int) (keynum nt f g : Nat) (garbage : bleafMeta)
    (hf1 : 1 ≤ f) (hf14 : f ≤ 14) (hg1 : 1 ≤ g) (hg15 : g ≤ 15)
    (hgarb : garbage.fgpt.length = 14)
    (hnk : ∀ w, w < nt → 1 ≤ workerKeys keynum nt w) :
    ∀ (fuel i : Nat) (ps ps2 : ParState), i + fuel = nt → 1 ≤ fuel →
    (∀ a, (ps.s.leaf a).ent.length = 14) → (∀ a, (ps.s.node a).ent.length = 16) →
    runWorkers input keynum nt f g garbage fuel i ps = some ps2 →
    ∃ (sm : State) (out : BldOut),
      (∀ a, (sm.leaf a).ent.length = 14) ∧ (∀ a, (sm.node a).ent.length = 16) ∧
      bulkloadSubtree sm input ((nt - 1) * (keynum / nt)) (workerKeys keynum nt (nt - 1)) f g 31
        garbage = some out ∧
      ps2.bta (nt - 1) = out ∧ ps2.s.node = out.s.node := by
  intro fuel
  induction fuel with
  | zero => intro i ps ps2 _ h; omega
  | succ n ih =>
    intro i ps ps2 hi _ hleaf hnode hr
    have hint : i < nt := by omega
    unfold runWorkers at hr
    simp only [hint, if_true] at hr
    have hnum : (if i < nt - 1 then keynum / nt else keynum - (nt - 1) * (keynum / nt))
        = workerKeys keynum nt i := rfl
    rw [hnum] at hr
    rcases hb : bulkloadSubtree
        (ps.s.withPools (if i = 0 then (ps.s.nvmpool, ps.s.dpool) else ps.pools i)) input
        (i * (keynum / nt)) (workerKeys keynum nt i) f g 31 garbage with _ | out
    · simp [hb] at hr
    · simp only [hb] at hr
      have hl2 := bulkloadSubtree_entlen _ input _ _ f g 31 garbage out
        (show ∀ a, ((ps.s.withPools (if i = 0 then (ps.s.nvmpool, ps.s.dpool)
          else ps.pools i)).leaf a).ent.length = 14 from hleaf) hb
      have hn2 := (bulkloadSubtree_nodes _ input _ _ f g 31 garbage out hf1 hf14 (hnk i hint) hg1 hg15
        hgarb (show ∀ a, ((ps.s.withPools (if i = 0 then (ps.s.nvmpool, ps.s.dpool)
          else ps.pools i)).leaf a).ent.length = 14 from hleaf)
        (show ∀ a, ((ps.s.withPools (if i = 0 then (ps.s.nvmpool, ps.s.dpool)
          else ps.pools i)).node a).ent.length = 16 from hnode) hb).2.2.2.2.2.2.2.1
      have hsn : (if i = 0 then out.s else out.s.withPools (ps.s.nvmpool, ps.s.dpool)).node
          = out.s.node := by
        split <;> rfl
      have hsl : (if i = 0 then out.s else out.s.withPools (ps.s.nvmpool, ps.s.dpool)).leaf
          = out.s.leaf := by
        split <;> rfl
      by_cases hlast : n = 0
      · subst hlast
        have hi2 : i = nt - 1 := by omega
        subst hi2
        simp only [runWorkers, Option.some.injEq] at hr
        subst hr
        exact ⟨ps.s.withPools (if nt - 1 = 0 then (ps.s.nvmpool, ps.s.dpool) else ps.pools (nt - 1)),
          out, hleaf, hnode, hb, if_pos rfl, hsn⟩
      · exact ih (i + 1) _ ps2 (by omega) (by omega)
          (by intro a; show ((if i = 0 then out.s else _).leaf a).ent.length = 14
              rw [hsl]; exact hl2 a)
          (by intro a; show ((if i = 0 then out.s else _).node a).ent.length = 16
              rw [hsn]; exact hn2 a) hr

end LBTree


namespace LBTree

theorem spanLo_lt (g : Nat) (N : Nat → Nat) (level : Nat) :
    ∀ (d j : Nat), (∀ e, e < d → N (level + e + 1) = ceiling (N (level + e)) (g + 1)) →
    j < N (level + d) → j * (g + 1) ^ d < N level := by
  intro d
  induction d with
  | zero =>
    intro j _ hj
    simpa using hj
  | succ d ih =>
    intro j hN hj
    have h1 : j * (g + 1) < N (level + d) :=
      ceiling_lt (N (level + d)) (g + 1) j (by omega) (by rw [← hN d (by omega)]; exact hj)
    have := ih (j * (g + 1)) (fun e he => hN e (by omega)) h1
    rw [pow_succ, show j * ((g + 1) ^ d * (g + 1)) = j * (g + 1) * (g + 1) ^ d by ring]
    exact this

theorem spanLo_one (g : Nat) (N : Nat → Nat) (level d : Nat)
    (hN : ∀ e, e < d → N (level + e + 1) = ceiling (N (level + e)) (g + 1))
    (hpos : 0 < N (level + d)) :
    spanLo (g + 1) N level d 0 = 0 ∧ 1 ≤ spanLo (g + 1) N level d 1 ∧
    spanLo (g + 1) N level d 1 ≤ N level ∧ (d = 0 → spanLo (g + 1) N level d 1 = 1) := by
  have h0 := spanLo_lt g N level d 0 hN hpos
  unfold spanLo
  rw [if_pos hpos]
  refine ⟨by simp, ?_, ?_, ?_⟩
  · split
    · rw [Nat.one_mul]
      exact Nat.one_le_pow _ _ (by omega)
    · omega
  · split
    · rename_i h1
      exact le_of_lt (spanLo_lt g N level d 1 hN h1)
    · exact le_refl _
  · intro hd
    subst hd
    split
    · simp
    · rename_i h1
      have : 0 < N level := hpos
      have h2 : ¬ 1 < N level := h1
      omega

theorem ceiling_add_le (x r G : Nat) (hG : 1 ≤ G) : ceiling (x + r) G ≤ ceiling x G + r := by
  unfold ceiling
  have h1 : (x + r + G - 1) / G ≤ (x + G - 1 + r * G) / G := by
    apply Nat.div_le_div_right
    have : r ≤ r * G := Nat.le_mul_of_pos_right r (by omega)
    omega
  rw [Nat.add_mul_div_right _ _ (by omega : 0 < G)] at h1
  exact h1

/-- Two level counts whose leaf counts differ by at most `r` differ by at most `r` at every level. -/
theorem levels_close (g r level : Nat) (NA NB : Nat → Nat)
    (hA : ∀ ll, 1 ≤ ll → ll ≤ level → NA ll = ceiling (NA (ll - 1)) (g + 1))
    (hB : ∀ ll, 1 ≤ ll → ll ≤ level → NB ll = ceiling (NB (ll - 1)) (g + 1))
    (h0 : NB 0 ≤ NA 0 + r) : ∀ ll, ll ≤ level → NB ll ≤ NA ll + r := by
  intro ll
  induction ll with
  | zero => intro _; exact h0
  | succ m ih =>
    intro hm
    have e1 := hA (m + 1) (by omega) hm
    have e2 := hB (m + 1) (by omega) hm
    rw [Nat.add_sub_cancel] at e1 e2
    rw [e1, e2]
    exact le_trans (ceiling_mono _ _ _ (ih (by omega))) (ceiling_add_le _ _ _ (by omega))

/-- Step 5: the workers before the last one give one pair each without
touching the memory; the pairs of the last worker are then collected by one
traversal. -/
theorem collectTop_count (bta : Nat → BldOut) (nt level : Nat)
    (htops : ∀ w, w < nt - 1 → (bta w).top_level = level) :
    ∀ (fuel i : Nat) (s : State) (acc : List (Nat × Int)), i + fuel = nt → 1 ≤ fuel →
    ∃ (acc2 : List (Nat × Int)) (key : Int), acc2.length = acc.length + (nt - 1 - i) ∧
      collectTop bta nt level fuel i s acc =
        getKeyPtrLevel level true (2 ^ 31) (bta (nt - 1)).top_level s
          ((bta (nt - 1)).pfirst (bta (nt - 1)).top_level) key acc2 := by
  intro fuel
  induction fuel with
  | zero => intro i s acc _ h; omega
  | succ n ih =>
    intro i s acc hi _
    have hint : i < nt := by omega
    unfold collectTop
    simp only [hint, if_true]
    by_cases hlast : n = 0
    · subst hlast
      have hi2 : i = nt - 1 := by omega
      subst hi2
      refine ⟨acc, (s.leaf ((bta (nt - 1)).pfirst 0)).k
        (LEAF_KEY_NUM - (s.leaf ((bta (nt - 1)).pfirst 0)).num), by omega, ?_⟩
      simp only [collectTop]
    · rw [htops i (by omega), getKeyPtrLevel_here]
      simp only
      obtain ⟨acc2, key, h1, h2⟩ := ih (i + 1) s (acc ++ [((bta i).pfirst level,
        (s.leaf ((bta i).pfirst 0)).k (LEAF_KEY_NUM - (s.leaf ((bta i).pfirst 0)).num))])
        (by omega) (by omega)
      refine ⟨acc2, key, ?_, h2⟩
      rw [h1, List.length_append, List.length_singleton]
      omega

end LBTree


namespace LBTree

/-- C40. In a bulk load with `nt >= 2` workers and `keynum > 10 * nt` keys
(`leaf_fill` in 1..14, `inner_fill` in 1..15), once the workers have built
their subtrees, the number of `(ptr, key)` pairs that step 5 collects at the
common level `bta[0].top_level` is at least 2 and at most `3 * nt`: the
workers before the last one give one pair each, and the last worker, which
has fewer than `nt` keys more than the others, gives between 1 and `nt`
pairs.  So `top_ptrs`/`top_keys` (of `3 * nt` entries) are not overrun and
`bulkloadToptree` gets `num_key >= 2`. -/
theorem C40_top_pairs_bounds (input : Nat → Int) (keynum nt f g : Nat) (garbage : bleafMeta)
    (ps ps1 : ParState) (hnt : 2 ≤ nt) (hk : keynum > nt * 10)
    (hf1 : 1 ≤ f) (hf14 : f ≤ 14) (hg1 : 1 ≤ g) (hg15 : g ≤ 15)
    (hgarb : garbage.fgpt.length = 14)
    (hleaf : ∀ a, (ps.s.leaf a).ent.length = 14) (hnode : ∀ a, (ps.s.node a).ent.length = 16)
    (hr : runWorkers input keynum nt f g garbage nt 0 ps = some ps1) :
    2 ≤ (collectTop ps1.bta nt (ps1.bta 0).top_level nt 0
          (connectSiblings ps1.bta nt nt 1 ps1.s) []).2.length ∧
    (collectTop ps1.bta nt (ps1.bta 0).top_level nt 0
          (connectSiblings ps1.bta nt nt 1 ps1.s) []).2.length ≤ 3 * nt := by
  have hnk : ∀ w, w < nt → 1 ≤ workerKeys keynum nt w :=
    fun w _ => workerKeys_pos keynum nt w (by omega) hk
  obtain ⟨sm, out, hl, hn, hb, hbta, hsn⟩ := runWorkers_last input keynum nt f g garbage hf1 hf14
    hg1 hg15 hgarb hnk nt 0 ps ps1 (by omega) (by omega) hleaf hnode hr
  obtain ⟨n1, n2, n3, n4, n5, n6, n7, n8, n9⟩ := bulkloadSubtree_nodes sm input _ _ f g 31 garbage out
    hf1 hf14 (hnk (nt - 1) (by omega)) hg1 hg15 hgarb hl hn hb
  have htop := runWorkers_top input keynum nt f g garbage nt 0 ps ps1 (by omega)
    (fun w hw => absurd hw (by omega)) hr
  have hw0 : ∀ w, w < nt - 1 → workerKeys keynum nt w = workerKeys keynum nt 0 := by
    intro w hw
    unfold workerKeys
    rw [if_pos hw, if_pos (by omega)]
  have htops : ∀ w, w < nt - 1 → (ps1.bta w).top_level = (ps1.bta 0).top_level := by
    intro w hw
    rw [htop w (by omega), htop 0 (by omega), hw0 w hw]
  -- the level counts of worker 0
  obtain ⟨k1, k2, k3, k4, k5⟩ := countLevels_spec g 31 31 1
    (fun x => if x = 0 then ceiling (workerKeys keynum nt 0) f else 0) 0 (le_refl _) rfl (by omega)
  rw [← htop 0 (by omega)] at k1 k2 k4 k5
  have hlevel : (ps1.bta 0).top_level ≤ out.top_level := by
    rw [htop 0 (by omega), ← hbta, htop (nt - 1) (by omega)]
    apply countLevels_mono g 31 31 1 _ _ 0 (by omega)
    simp only [Nat.sub_self, if_true]
    exact ceiling_mono _ _ _ (workerKeys_first_le keynum nt (nt - 1) (by omega))
  -- the pairs of the workers before the last one
  obtain ⟨acc2, key, ha, hct⟩ := collectTop_count ps1.bta nt (ps1.bta 0).top_level htops nt 0
    (connectSiblings ps1.bta nt nt 1 ps1.s) [] (by omega) (by omega)
  rw [hct, hbta]
  -- the traversal of the subtree of the last worker
  have hnodes : (connectSiblings ps1.bta nt nt 1 ps1.s).node = out.s.node := by
    rw [connectSiblings_node, hsn]
  have hNeq : ∀ ll, 1 ≤ ll → ll ≤ out.top_level →
      out.n_nodes ll = ceiling (out.n_nodes (ll - 1)) (g + 1) := fun ll h1 h2 => (n2 ll h1 h2).1
  have hpos : 0 < out.n_nodes out.top_level := by
    by_cases ht : out.top_level = 0
    · rw [ht, n1]
      exact ceiling_pos _ _ hf1 (hnk (nt - 1) (by omega))
    · obtain ⟨e1, e2⟩ := n2 out.top_level (by omega) (le_refl _)
      rw [e1]
      exact ceiling_pos _ _ (by omega) (by omega)
  have hd : (ps1.bta 0).top_level + (out.top_level - (ps1.bta 0).top_level) = out.top_level := by
    omega
  obtain ⟨t1, _⟩ := getKeyPtrLevel_count g out.top_level (ps1.bta 0).top_level (2 ^ 31) out.pfirst
    out.n_nodes (fun t => input ((nt - 1) * (keynum / nt) + t * f))
    (le_trans hg15 (by norm_num)) n6 hNeq
    (out.top_level - (ps1.bta 0).top_level) 0 (connectSiblings ps1.bta nt nt 1 ps1.s) key acc2
    (by omega) (by rw [hd]; exact hpos)
    (by
      intro d2 j2 q1 q2 _ q4
      refine NodeHas_congr out.s _ g out.pfirst _ _ j2 _ (n7 _ j2 (by omega) (by omega) q4) ?_
      rw [hnodes])
  rw [hd, Nat.mul_zero, Nat.add_zero, Nat.zero_add] at t1
  obtain ⟨s1, s2, s3, s4⟩ := spanLo_one g out.n_nodes (ps1.bta 0).top_level
    (out.top_level - (ps1.bta 0).top_level)
    (by
      intro e he
      have := hNeq ((ps1.bta 0).top_level + e + 1) (by omega) (by omega)
      rw [Nat.add_sub_cancel] at this
      exact this)
    (by rw [hd]; exact hpos)
  rw [s1] at t1
  simp only [List.length_nil, Nat.zero_add, Nat.sub_zero] at ha
  by_cases hd0 : out.top_level - (ps1.bta 0).top_level = 0
  · have := s4 hd0
    omega
  · -- the last worker has more levels: worker 0 ends with a single node
    have hA1 : (countLevels g 31 31 1
        (fun x => if x = 0 then ceiling (workerKeys keynum nt 0) f else 0) 0).1
        (ps1.bta 0).top_level ≤ 1 := by
      rcases k5 with h | h
      · exact h
      · omega
    have hclose := levels_close g (keynum % nt) (ps1.bta 0).top_level
      (countLevels g 31 31 1 (fun x => if x = 0 then ceiling (workerKeys keynum nt 0) f else 0) 0).1
      out.n_nodes (fun ll h1 h2 => (k4 ll h1 h2).1) (fun ll h1 h2 => hNeq ll h1 (by omega))
      (by
        rw [n1, k3 0 (by omega)]
        simp only [if_true]
        refine le_trans (ceiling_mono _ (workerKeys keynum nt 0 + keynum % nt) _ ?_)
          (ceiling_add_le _ _ _ hf1)
        unfold workerKeys
        rw [if_neg (by omega), if_pos (by omega)]
        have h2 : nt * (keynum / nt) + keynum % nt = keynum := Nat.div_add_mod keynum nt
        have h3 : (nt - 1) * (keynum / nt) + keynum / nt = nt * (keynum / nt) := by
          have : (nt - 1 + 1) * (keynum / nt) = nt * (keynum / nt) := by
            congr 1; omega
          rw [← this, Nat.add_mul, Nat.one_mul]
        generalize keynum / nt = p at h2 h3 ⊢
        generalize keynum % nt = m at h2 ⊢
        omega)
      (ps1.bta 0).top_level (le_refl _)
    have hmod : keynum % nt < nt := Nat.mod_lt _ (by omega)
    omega

set_option maxRecDepth 100000 in
/-- C40 at a concrete input: two workers on the 29 keys `1 .. 29` at fill 1.0
(worker 0 builds one leaf, worker 1 two leaves under a root). -/
theorem C40_top_pairs_bounds_witness :
    ∃ ps1, runWorkers (fun i => 1 + (i : Int)) 29 2 14 15 exGarbage 2 0 exPar = some ps1 ∧
      2 ≤ (collectTop ps1.bta 2 (ps1.bta 0).top_level 2 0
            (connectSiblings ps1.bta 2 2 1 ps1.s) []).2.length ∧
      (collectTop ps1.bta 2 (ps1.bta 0).top_level 2 0
            (connectSiblings ps1.bta 2 2 1 ps1.s) []).2.length ≤ 3 * 2 := by
  have hsome : (runWorkers (fun i => 1 + (i : Int)) 29 2 14 15 exGarbage 2 0 exPar).isSome
      = true := by decide
  rcases hb : runWorkers (fun i => 1 + (i : Int)) 29 2 14 15 exGarbage 2 0 exPar with _ | ps1
  · rw [hb] at hsome
    exact absurd hsome (by decide)
  · exact ⟨ps1, rfl, C40_top_pairs_bounds (fun i => 1 + (i : Int)) 29 2 14 15 exGarbage exPar ps1
      (by decide) (by decide) (by decide) (by decide) (by decide) (by decide) rfl
      (fun _ => rfl) (fun _ => rfl) hb⟩

end LBTree


namespace LBTree

/-! ## `check` on a bulk-loaded leaf -/

theorem getMinMaxKey_run (lp : bleaf) (r : Nat) (hr1 : 1 ≤ r) (hr14 : r ≤ 14)
    (hbm : ∀ j, j < 14 → lp.bitmap.testBit j = decide (14 - r ≤ j))
    (hasc : ∀ j, 14 - r ≤ j → j + 1 < 14 → lp.k j ≤ lp.k (j + 1))
    (hrange : ∀ j, 14 - r ≤ j → j < 14 → isKey (lp.k j)) :
    ∀ (fuel i : Nat) (mn mx : Int), i + fuel = 14 →
    (i ≤ 14 - r → mn = MAX_KEY ∧ mx = MIN_KEY) →
    (14 - r < i → mn = lp.k (14 - r) ∧ mx = lp.k (i - 1)) →
    getMinMaxKey lp fuel i mn mx = (lp.k (14 - r), lp.k 13) := by
  intro fuel
  induction fuel with
  | zero =>
    intro i mn mx hi _ h2
    have hi14 : i = 14 := by omega
    subst hi14
    obtain ⟨e1, e2⟩ := h2 (by omega)
    simp only [getMinMaxKey]
    rw [e1, e2]
  | succ n ih =>
    intro i mn mx hi h1 h2
    unfold getMinMaxKey
    by_cases hlive : 14 - r ≤ i
    · have hbit : lp.bitmap &&& (1 <<< i) ≠ 0 := by
        intro hh
        have := (and_shift_eq_zero _ _).1 hh
        rw [hbm i (by omega)] at this
        simp [hlive] at this
      rw [if_pos hbit]
      obtain ⟨k1, k2⟩ := hrange i hlive (by omega)
      apply ih (i + 1) _ _ (by omega) (fun hh => by omega)
      intro _
      rw [Nat.add_sub_cancel]
      by_cases hfirst : i = 14 - r
      · obtain ⟨e1, e2⟩ := h1 (by omega)
        subst e1 e2
        rw [← hfirst]
        refine ⟨?_, ?_⟩
        · split
          · rfl
          · omega
        · split
          · rfl
          · omega
      · obtain ⟨e1, e2⟩ := h2 (by omega)
        have hle := hasc (i - 1) (by omega) (by omega)
        rw [show i - 1 + 1 = i by omega] at hle
        have hle2 : ∀ d m, m + d = i → 14 - r ≤ m → lp.k m ≤ lp.k i := by
          intro d
          induction d with
          | zero => intro m hm _; rw [show m = i by omega]
          | succ d ihd =>
            intro m hm hm2
            exact le_trans (hasc m hm2 (by omega)) (ihd (m + 1) (by omega) (by omega))
        have hfl := hle2 (i - (14 - r)) (14 - r) (by omega) (le_refl _)
        subst e1 e2
        refine ⟨?_, ?_⟩
        · split
          · omega
          · rfl
        · split
          · rfl
          · omega
    · have hbit : ¬ lp.bitmap &&& (1 <<< i) ≠ 0 := by
        intro hh
        apply hh
        apply (and_shift_eq_zero _ _).2
        rw [hbm i (by omega)]
        simp [hlive]
      rw [if_neg hbit]
      exact ih (i + 1) mn mx (by omega) (fun _ => h1 (by omega)) (fun hh => by omega)

theorem checkFgpt_run (lp : bleaf)
    (h : ∀ j, j < 14 → lp.bitmap.testBit j = true → hashcode1B (lp.k j) = lp.fg j) :
    ∀ (fuel i : Nat), i + fuel = 14 → checkFgpt lp fuel i = true := by
  intro fuel
  induction fuel with
  | zero => intro i _; rfl
  | succ n ih =>
    intro i hi
    unfold checkFgpt
    rw [if_neg]
    · exact ih (i + 1) (by omega)
    · rintro ⟨h1, h2⟩
      apply h2
      apply h i (by omega)
      by_contra hb
      exact h1 ((and_shift_eq_zero _ _).2 (by simpa using hb))

/-- The leaf case of `check` on leaf `t` of a bulk load: it returns the first
and the last key of the leaf and the leaf itself, provided the leaf before it
(if any) points to it. -/
theorem checkLeaf_bulk (s : State) (input : Nat → Int) (start_key num_key f a0 t ptr : Nat)
    (hB : BulkLeaf input start_key num_key f a0 (s.leaf (a0 + 256 * t)) t)
    (hfill : 1 ≤ fillOf num_key f t ∧ fillOf num_key f t ≤ 14)
    (hal : (a0 + 256 * t) % 256 = 0)
    (hasc : ∀ m, m + 1 < fillOf num_key f t →
      input (start_key + t * f + m) ≤ input (start_key + t * f + (m + 1)))
    (hrange : ∀ m, m < fillOf num_key f t → isKey (input (start_key + t * f + m)))
    (hptr : ptr = 0 ∨ (s.leaf ptr).nextSibling = a0 + 256 * t) :
    checkLeaf s (a0 + 256 * t) ptr =
      some (firstKeyOf input start_key f t, lastKeyOf input start_key num_key f t, a0 + 256 * t) := by
  obtain ⟨b1, b2, b3, b4, b5, b6, b7⟩ := hB
  have hfo : (if t = ceiling num_key f - 1 then num_key - (ceiling num_key f - 1) * f else f)
      = fillOf num_key f t := rfl
  rw [hfo] at b1 b4
  unfold lastKeyOf firstKeyOf
  generalize fillOf num_key f t = r at b1 b4 hfill hasc hrange ⊢
  have hk : ∀ j, 14 - r ≤ j → j < 14 →
      (s.leaf (a0 + 256 * t)).k j = input (start_key + t * f + (j - (14 - r))) := by
    intro j h1 h2
    show ((s.leaf (a0 + 256 * t)).entAt j).k = _
    rw [(b4 j h1 h2).1]
  have hbm : ∀ j, j < 14 → (s.leaf (a0 + 256 * t)).bitmap.testBit j = decide (14 - r ≤ j) := by
    intro j hj
    rw [b1, testBit_fillBitmap r j hfill.2]
    simp [hj]
  have hmm := getMinMaxKey_run (s.leaf (a0 + 256 * t)) r hfill.1 hfill.2 hbm
    (by
      intro j h1 h2
      rw [hk j h1 (by omega), hk (j + 1) (by omega) h2,
        show j + 1 - (14 - r) = (j - (14 - r)) + 1 by omega]
      exact hasc _ (by omega))
    (by
      intro j h1 h2
      rw [hk j h1 h2]
      exact hrange _ (by omega))
    14 0 MAX_KEY MIN_KEY (by omega) (fun _ => ⟨rfl, rfl⟩) (fun hh => by omega)
  have hfg := checkFgpt_run (s.leaf (a0 + 256 * t))
    (by
      intro j hj hb
      rw [hbm j hj] at hb
      have h1 : 14 - r ≤ j := by simpa using hb
      rw [hk j h1 hj, (b4 j h1 hj).2])
    14 0 (by omega)
  have hnum : ¬ (s.leaf (a0 + 256 * t)).num < 1 := by
    unfold bleaf.num
    rw [b1, countBit_fillBitmap r hfill.2]
    omega
  unfold checkLeaf
  simp only [LEAF_KEY_NUM]
  rw [if_neg (by omega), if_neg hnum, hmm]
  simp only [hfg, Bool.not_true, Bool.false_eq_true, if_false]
  rw [if_neg (by omega), if_neg]
  · rw [hk (14 - r) (le_refl _) (by omega), hk 13 (by omega) (by omega)]
    simp only [Nat.sub_self, Nat.add_zero]
    rw [show 13 - (14 - r) = r - 1 by omega]
  · rintro ⟨h1, h2⟩
    rcases hptr with h | h
    · exact h1 h
    · exact h2 h

end LBTree


namespace LBTree

/-! ## The leaves below a node of a bulk-loaded tree -/

theorem leafLo_aux (g top : Nat) (N : Nat → Nat)
    (hN : ∀ ll, 1 ≤ ll → ll ≤ top → N ll = ceiling (N (ll - 1)) (g + 1)) :
    ∀ ll j, ll ≤ top → j < N ll → j * (g + 1) ^ ll < N 0 := by
  intro ll
  induction ll with
  | zero =>
    intro j _ hj
    simpa using hj
  | succ d ih =>
    intro j hd hj
    have hNd := hN (d + 1) (by omega) hd
    rw [Nat.add_sub_cancel] at hNd
    have h1 : j * (g + 1) < N d :=
      ceiling_lt (N d) (g + 1) j (by omega) (by rw [← hNd]; exact hj)
    have := ih (j * (g + 1)) (by omega) h1
    rw [pow_succ, show j * ((g + 1) ^ d * (g + 1)) = j * (g + 1) * (g + 1) ^ d by ring]
    exact this

theorem leafLo_lt (g top : Nat) (N : Nat → Nat)
    (hN : ∀ ll, 1 ≤ ll → ll ≤ top → N ll = ceiling (N (ll - 1)) (g + 1))
    (ll j : Nat) (hl : ll ≤ top) (hj : j < N ll) : leafLo (g + 1) N ll j < N 0 := by
  unfold leafLo
  rw [if_pos hj]
  exact leafLo_aux g top N hN ll j hl hj

theorem leafLo_strict (g top : Nat) (N : Nat → Nat)
    (hN : ∀ ll, 1 ≤ ll → ll ≤ top → N ll = ceiling (N (ll - 1)) (g + 1))
    (ll j : Nat) (hl : ll ≤ top) (hj : j < N ll) :
    leafLo (g + 1) N ll j < leafLo (g + 1) N ll (j + 1) ∧ leafLo (g + 1) N ll (j + 1) ≤ N 0 := by
  have h1 := leafLo_aux g top N hN ll j hl hj
  unfold leafLo
  rw [if_pos hj]
  by_cases h : j + 1 < N ll
  · rw [if_pos h]
    have h2 := leafLo_aux g top N hN ll (j + 1) hl h
    refine ⟨?_, le_of_lt h2⟩
    have hp : 0 < (g + 1) ^ ll := Nat.one_le_pow _ _ (by omega)
    rw [Nat.add_mul, Nat.one_mul]
    omega
  · rw [if_neg h]
    exact ⟨h1, le_refl _⟩

theorem leafLo_zero (G : Nat) (N : Nat → Nat) (j : Nat) (hj : j ≤ N 0) : leafLo G N 0 j = j := by
  unfold leafLo
  split
  · simp
  · omega

theorem leafLo_child_first (g : Nat) (N : Nat → Nat) (ll j : Nat)
    (hN : N (ll + 1) = ceiling (N ll) (g + 1)) (hj : j < N (ll + 1)) :
    leafLo (g + 1) N ll (j * (g + 1)) = leafLo (g + 1) N (ll + 1) j := by
  have h1 : j * (g + 1) < N ll :=
    ceiling_lt (N ll) (g + 1) j (by omega) (by rw [← hN]; exact hj)
  unfold leafLo
  rw [if_pos h1, if_pos hj, pow_succ]
  ring

theorem leafLo_child_last (g : Nat) (N : Nat → Nat) (ll j : Nat)
    (hN : N (ll + 1) = ceiling (N ll) (g + 1)) (hj : j < N (ll + 1)) :
    leafLo (g + 1) N ll (j * (g + 1) + chCount g N (ll + 1) j) = leafLo (g + 1) N (ll + 1) (j + 1) := by
  obtain ⟨c1, c2, c3, c4, c5⟩ := chCount_bounds g N ll j hN hj
  unfold leafLo
  by_cases h : j + 1 < N (ll + 1)
  · obtain ⟨e1, e2⟩ := c4 h
    rw [e1, if_pos h, show j * (g + 1) + (g + 1) = (j + 1) * (g + 1) by ring, if_pos e2, pow_succ]
    ring
  · rw [c5 h, if_neg (lt_irrefl _), if_neg h]

theorem leftKey_eq (lk : Nat → Int) (G : Nat) : ∀ ll j, leftKey lk G ll j = lk (j * G ^ ll) := by
  intro ll
  induction ll with
  | zero => intro j; simp [leftKey]
  | succ d ih =>
    intro j
    rw [leftKey, ih, pow_succ]
    congr 1
    ring

theorem leftKey_first (input : Nat → Int) (start_key f G : Nat) (N : Nat → Nat) (ll j : Nat)
    (hj : j < N ll) :
    leftKey (fun t => input (start_key + t * f)) G ll j = firstKeyOf input start_key f (leafLo G N ll j) := by
  rw [leftKey_eq]
  unfold firstKeyOf leafLo
  rw [if_pos hj]

/-! ## Facts about the leaves -/

theorem bulkTree_fill (s : State) (input : Nat → Int) (start_key num_key f g top : Nat)
    (pf N : Nat → Nat) (h : BulkTree s input start_key num_key f g top pf N) (t : Nat)
    (ht : t < N 0) :
    1 ≤ fillOf num_key f t ∧ fillOf num_key f t ≤ 14 ∧ t * f + fillOf num_key f t ≤ num_key ∧
    (t + 1 < N 0 → fillOf num_key f t = f ∧ (t + 1) * f < num_key) := by
  obtain ⟨h1, h2, h3, h4, _⟩ := h
  obtain ⟨c1, c2, c3, c4⟩ := ceiling_bounds num_key f h1 h3
  rw [← h4] at c1 c2 c3 c4
  unfold fillOf
  rw [← h4]
  by_cases hl : t = N 0 - 1
  · rw [if_pos hl, hl]
    exact ⟨by omega, by omega, by omega, fun hh => by omega⟩
  · rw [if_neg hl]
    have h5 : (t + 1) * f ≤ (N 0 - 1) * f := Nat.mul_le_mul_right f (by omega)
    rw [Nat.add_mul, Nat.one_mul] at h5
    refine ⟨h1, h2, by omega, fun _ => ⟨rfl, ?_⟩⟩
    rw [Nat.add_mul, Nat.one_mul]
    omega

theorem bulkTree_key_step (s : State) (input : Nat → Int) (start_key num_key f g top : Nat)
    (pf N : Nat → Nat) (h : BulkTree s input start_key num_key f g top pf N) (t : Nat)
    (ht : t + 1 < N 0) :
    lastKeyOf input start_key num_key f t < firstKeyOf input start_key f (t + 1) := by
  obtain ⟨f1, f2, f3, f4⟩ := bulkTree_fill s input start_key num_key f g top pf N h t (by omega)
  obtain ⟨e1, e2⟩ := f4 ht
  obtain ⟨h1, h2, h3, h4, h5, h6, h7, h8, h9, h10, h11, h12⟩ := h
  unfold lastKeyOf firstKeyOf
  rw [e1, Nat.add_assoc]
  rw [Nat.add_mul, Nat.one_mul] at e2 ⊢
  exact h11 _ _ (by omega) (by omega)

theorem bulkTree_next (s : State) (input : Nat → Int) (start_key num_key f g top : Nat)
    (pf N : Nat → Nat) (h : BulkTree s input start_key num_key f g top pf N) (t : Nat)
    (ht : t + 1 < N 0) :
    (s.leaf (pf 0 + 256 * t)).nextSibling = pf 0 + 256 * (t + 1) := by
  obtain ⟨h1, h2, h3, h4, h5, h6, _⟩ := h
  obtain ⟨b1, b2, b3, b4, b5, b6, b7⟩ := h6 t (by omega)
  unfold bleaf.nextSibling
  rw [b3, b5, if_pos (by rw [← h4]; omega)]

/-- The leaf case of `check` on leaf `t` of the tree. -/
theorem bulkTree_check_leaf (s : State) (input : Nat → Int) (start_key num_key f g top : Nat)
    (pf N : Nat → Nat) (h : BulkTree s input start_key num_key f g top pf N) (t ptr : Nat)
    (ht : t < N 0) (hptr : ptr = 0 ∨ (s.leaf ptr).nextSibling = pf 0 + 256 * t) :
    check s 0 (pf 0 + 256 * t) ptr =
      some (firstKeyOf input start_key f t, lastKeyOf input start_key num_key f t,
        pf 0 + 256 * t) := by
  obtain ⟨f1, f2, f3, f4⟩ := bulkTree_fill s input start_key num_key f g top pf N h t ht
  obtain ⟨h1, h2, h3, h4, h5, h6, h7, h8, h9, h10, h11, h12⟩ := h
  unfold check
  rw [if_neg (by omega)]
  refine checkLeaf_bulk s input start_key num_key f (pf 0) t ptr (h6 t ht) ⟨f1, f2⟩ (by omega) ?_ ?_
    hptr
  · intro m hm
    rw [Nat.add_assoc, Nat.add_assoc]
    exact le_of_lt (h11 _ _ (by omega) (by omega))
  · intro m hm
    rw [Nat.add_assoc]
    exact h12 _ (by omega)

end LBTree


namespace LBTree

/-! ## `check` on the inner nodes of a bulk-loaded tree -/

/-- The leaf before the leftmost leaf below node `c >= 1` of level `ll` points to it. -/
theorem bulkTree_pre (s : State) (input : Nat → Int) (start_key num_key f g top : Nat)
    (pf N : Nat → Nat) (h : BulkTree s input start_key num_key f g top pf N) (ll c : Nat)
    (hl : ll ≤ top) (hc1 : 1 ≤ c) (hc : c < N ll) :
    1 ≤ leafLo (g + 1) N ll c ∧ leafLo (g + 1) N ll c < N 0 ∧
    (s.leaf (pf 0 + 256 * (leafLo (g + 1) N ll c - 1))).nextSibling
      = pf 0 + 256 * leafLo (g + 1) N ll c ∧
    lastKeyOf input start_key num_key f (leafLo (g + 1) N ll c - 1)
      < firstKeyOf input start_key f (leafLo (g + 1) N ll c) := by
  have hN := h.2.2.2.2.1
  have h1 := leafLo_strict g top N hN ll (c - 1) hl (by omega)
  rw [show c - 1 + 1 = c by omega] at h1
  have h2 := leafLo_lt g top N hN ll c hl hc
  have h3 := bulkTree_next s input start_key num_key f g top pf N h (leafLo (g + 1) N ll c - 1)
    (by omega)
  have h4 := bulkTree_key_step s input start_key num_key f g top pf N h (leafLo (g + 1) N ll c - 1)
    (by omega)
  rw [show leafLo (g + 1) N ll c - 1 + 1 = leafLo (g + 1) N ll c by omega] at h3 h4
  exact ⟨by omega, h2, h3, h4⟩

/-- The loop of `check` over the middle children of node `j` of level `ll + 1`,
given the result of `check` on the nodes of level `ll`. -/
theorem checkMiddle_bulk (s : State) (input : Nat → Int) (start_key num_key f g top : Nat)
    (pf N : Nat → Nat) (h : BulkTree s input start_key num_key f g top pf N) (ll j : Nat)
    (hl : ll + 1 ≤ top) (hj : j < N (ll + 1))
    (hrec : ∀ c ptr, c < N ll →
      (ptr = 0 ∨ (s.leaf ptr).nextSibling = pf 0 + 256 * leafLo (g + 1) N ll c) →
      check s ll (pf ll + 256 * c) ptr =
        some (firstKeyOf input start_key f (leafLo (g + 1) N ll c),
          lastKeyOf input start_key num_key f (leafLo (g + 1) N ll (c + 1) - 1),
          pf 0 + 256 * (leafLo (g + 1) N ll (c + 1) - 1))) :
    ∀ (fuel i : Nat), 1 ≤ i → (fuel = 0 ∨ i + fuel + 1 ≤ chCount g N (ll + 1) j) →
    checkMiddle (check s ll) (s.node (pf (ll + 1) + 256 * j)) fuel (i : Int)
        (lastKeyOf input start_key num_key f (leafLo (g + 1) N ll (j * (g + 1) + i) - 1))
        (pf 0 + 256 * (leafLo (g + 1) N ll (j * (g + 1) + i) - 1)) =
      some (lastKeyOf input start_key num_key f (leafLo (g + 1) N ll (j * (g + 1) + (i + fuel)) - 1),
        pf 0 + 256 * (leafLo (g + 1) N ll (j * (g + 1) + (i + fuel)) - 1)) := by
  have hN := h.2.2.2.2.1
  have hNd := hN (ll + 1) (by omega) hl
  rw [Nat.add_sub_cancel] at hNd
  obtain ⟨c1, c2, c3, c4, c5⟩ := chCount_bounds g N ll j hNd hj
  have hnode := h.2.2.2.2.2.2.1 (ll + 1) j (by omega) hl hj
  have hnum := hnode.2.1
  intro fuel
  induction fuel with
  | zero =>
    intro i _ _
    rfl
  | succ n ih =>
    intro i hi hf
    have hf2 : i + (n + 1) + 1 ≤ chCount g N (ll + 1) j := by omega
    have hcond : (i : Int) < (s.node (pf (ll + 1) + 256 * j)).num := by
      rw [hnum]
      omega
    obtain ⟨hch, hk⟩ := hnode.2.2.2 i (by omega)
    obtain ⟨_, hk2⟩ := hnode.2.2.2 (i + 1) (by omega)
    rw [Nat.add_sub_cancel] at hch hk hk2
    have hin : j * (g + 1) + i < N ll := by omega
    have hin2 : j * (g + 1) + (i + 1) < N ll := by omega
    obtain ⟨p1, p2, p3, p4⟩ := bulkTree_pre s input start_key num_key f g top pf N h ll
      (j * (g + 1) + i) (by omega) (by omega) hin
    obtain ⟨q1, q2, q3, q4⟩ := bulkTree_pre s input start_key num_key f g top pf N h ll
      (j * (g + 1) + (i + 1)) (by omega) (by omega) hin2
    have hr := hrec (j * (g + 1) + i) (pf 0 + 256 * (leafLo (g + 1) N ll (j * (g + 1) + i) - 1)) hin
      (Or.inr p3)
    rw [checkMiddle, if_pos hcond, hch, hr]
    simp only
    have hk1 := hk (by omega)
    rw [leftKey_first input start_key f (g + 1) N ll _ hin] at hk1
    have hk3 := hk2 (by omega)
    rw [leftKey_first input start_key f (g + 1) N ll _ hin2] at hk3
    have hk3b : (s.node (pf (ll + 1) + 256 * j)).k ((i : Int) + 1)
        = firstKeyOf input start_key f (leafLo (g + 1) N ll (j * (g + 1) + (i + 1))) := by
      rw [← hk3]
      push_cast
      rfl
    rw [hk1, hk3b]
    have hq4 : lastKeyOf input start_key num_key f (leafLo (g + 1) N ll (j * (g + 1) + i + 1) - 1)
        < firstKeyOf input start_key f (leafLo (g + 1) N ll (j * (g + 1) + (i + 1))) := q4
    simp only [le_refl, hq4, decide_True, Bool.and_self, Bool.not_true, Bool.false_eq_true, if_false]
    have := ih (i + 1) (by omega) (Or.inr (by omega))
    rw [show j * (g + 1) + (i + 1 + n) = j * (g + 1) + (i + (n + 1)) by omega] at this
    rw [← this]
    push_cast
    rfl

end LBTree


namespace LBTree

/-- The inner-node case of `check` on node `j` of level `ll + 1`, given the
result of `check` on the nodes of level `ll`. -/
theorem check_bulk_step (s : State) (input : Nat → Int) (start_key num_key f g top : Nat)
    (pf N : Nat → Nat) (h : BulkTree s input start_key num_key f g top pf N) (ll j ptr : Nat)
    (hl : ll + 1 ≤ top) (hj : j < N (ll + 1))
    (hrec : ∀ c ptr, c < N ll →
      (ptr = 0 ∨ (s.leaf ptr).nextSibling = pf 0 + 256 * leafLo (g + 1) N ll c) →
      check s ll (pf ll + 256 * c) ptr =
        some (firstKeyOf input start_key f (leafLo (g + 1) N ll c),
          lastKeyOf input start_key num_key f (leafLo (g + 1) N ll (c + 1) - 1),
          pf 0 + 256 * (leafLo (g + 1) N ll (c + 1) - 1)))
    (hptr : ptr = 0 ∨ (s.leaf ptr).nextSibling = pf 0 + 256 * leafLo (g + 1) N (ll + 1) j) :
    check s (ll + 1) (pf (ll + 1) + 256 * j) ptr =
      some (firstKeyOf input start_key f (leafLo (g + 1) N (ll + 1) j),
        lastKeyOf input start_key num_key f (leafLo (g + 1) N (ll + 1) (j + 1) - 1),
        pf 0 + 256 * (leafLo (g + 1) N (ll + 1) (j + 1) - 1)) := by
  have hN := h.2.2.2.2.1
  have hNd := hN (ll + 1) (by omega) hl
  rw [Nat.add_sub_cancel] at hNd
  obtain ⟨c1, c2, c3, c4, c5⟩ := chCount_bounds g N ll j hNd hj
  have hnode := h.2.2.2.2.2.2.1 (ll + 1) j (by omega) hl hj
  have hal := h.2.2.2.2.2.2.2.2.2.1 (ll + 1) (by omega) hl
  have hnum := hnode.2.1
  have hlock := hnode.2.2.1
  have hfirst := leafLo_child_first g N ll j hNd hj
  have hlast := leafLo_child_last g N ll j hNd hj
  generalize hcnt : chCount g N (ll + 1) j = cnt at c1 c2 c3 hnode hnum hlast
  -- the first child
  obtain ⟨hch0, _⟩ := hnode.2.2.2 0 (by omega)
  simp only [Nat.add_sub_cancel, Nat.add_zero, Nat.cast_zero] at hch0
  have hr0 := hrec (j * (g + 1)) ptr (by omega) (by rw [hfirst]; exact hptr)
  rw [hfirst] at hr0
  have hmid := checkMiddle_bulk s input start_key num_key f g top pf N h ll j hl hj hrec
    (cnt - 2) 1 (le_refl _) (by rw [hcnt]; omega)
  have hfuel : ((s.node (pf (ll + 1) + 256 * j)).num - 1).toNat = cnt - 2 := by
    rw [hnum]
    omega
  have e : check s (ll + 1) (pf (ll + 1) + 256 * j) ptr =
      (if (s.node (pf (ll + 1) + 256 * j)).num ≥ 1 ∧
          lastKeyOf input start_key num_key f (leafLo (g + 1) N ll (j * (g + 1) + 1) - 1)
            ≥ (s.node (pf (ll + 1) + 256 * j)).k 1 then none
       else
        match (if (s.node (pf (ll + 1) + 256 * j)).num ≥ 1 then
            match check s ll ((s.node (pf (ll + 1) + 256 * j)).ch
                (s.node (pf (ll + 1) + 256 * j)).num)
                (pf 0 + 256 * (leafLo (g + 1) N ll (j * (g + 1) + (1 + (cnt - 2))) - 1)) with
            | none => none
            | some (curstart, curend2, curptr2) =>
              if curstart < (s.node (pf (ll + 1) + 256 * j)).k
                  (s.node (pf (ll + 1) + 256 * j)).num then none
              else some (curend2, curptr2)
          else some (lastKeyOf input start_key num_key f
                (leafLo (g + 1) N ll (j * (g + 1) + (1 + (cnt - 2))) - 1),
              pf 0 + 256 * (leafLo (g + 1) N ll (j * (g + 1) + (1 + (cnt - 2))) - 1)) :
            Option (Int × Nat)) with
        | none => none
        | some (end_, curptr) =>
          if (s.node (pf (ll + 1) + 256 * j)).lock ≠ 0 then none
          else some (firstKeyOf input start_key f (leafLo (g + 1) N (ll + 1) j), end_, curptr)) := by
    rw [check, if_neg (by omega)]
    simp only
    rw [if_neg (by omega), if_neg (by rw [hnum]; omega), hch0, hr0]
    simp only
    rw [hfuel]
    have hmid2 := hmid
    rw [show ((1 : Nat) : Int) = 1 from rfl] at hmid2
    rw [hmid2]
  rw [e]
  by_cases hone : cnt = 1
  · subst hone
    have hn0 : (s.node (pf (ll + 1) + 256 * j)).num = 0 := by rw [hnum]; simp
    rw [hn0]
    simp only [show ¬ ((0 : Int) ≥ 1) by omega, false_and, if_false]
    rw [if_neg (by rw [hlock]; simp)]
    rw [show j * (g + 1) + (1 + (1 - 2)) = j * (g + 1) + 1 by omega, hlast]
  · have hnc : (s.node (pf (ll + 1) + 256 * j)).num = ((cnt - 1 : Nat) : Int) := by
      rw [hnum]
      omega
    have hge : (s.node (pf (ll + 1) + 256 * j)).num ≥ 1 := by rw [hnum]; omega
    obtain ⟨_, hk1⟩ := hnode.2.2.2 1 (by omega)
    rw [Nat.add_sub_cancel] at hk1
    have hk1b := hk1 (le_refl _)
    rw [leftKey_first input start_key f (g + 1) N ll _ (by omega : j * (g + 1) + 1 < N ll)] at hk1b
    obtain ⟨p1, p2, p3, p4⟩ := bulkTree_pre s input start_key num_key f g top pf N h ll
      (j * (g + 1) + 1) (by omega) (by omega) (by omega)
    have hk1c : (s.node (pf (ll + 1) + 256 * j)).k 1
        = firstKeyOf input start_key f (leafLo (g + 1) N ll (j * (g + 1) + 1)) := hk1b
    rw [if_neg (by rw [hk1c]; intro hh; exact absurd hh.2 (not_le.2 p4)), if_pos hge]
    -- the last child
    obtain ⟨hchl, hkl⟩ := hnode.2.2.2 (cnt - 1) (by omega)
    rw [Nat.add_sub_cancel] at hchl hkl
    have hkl2 := hkl (by omega)
    have hinl : j * (g + 1) + (cnt - 1) < N ll := by omega
    rw [leftKey_first input start_key f (g + 1) N ll _ hinl] at hkl2
    obtain ⟨q1, q2, q3, q4⟩ := bulkTree_pre s input start_key num_key f g top pf N h ll
      (j * (g + 1) + (cnt - 1)) (by omega) (by omega) hinl
    have hrl := hrec (j * (g + 1) + (cnt - 1))
      (pf 0 + 256 * (leafLo (g + 1) N ll (j * (g + 1) + (cnt - 1)) - 1)) hinl (Or.inr q3)
    rw [hnc, hchl, show j * (g + 1) + (1 + (cnt - 2)) = j * (g + 1) + (cnt - 1) by omega, hrl]
    simp only
    rw [hkl2, if_neg (lt_irrefl _)]
    simp only
    rw [if_neg (by rw [hlock]; simp),
      show j * (g + 1) + (cnt - 1) + 1 = j * (g + 1) + cnt by omega, hlast]

/-- The recursive `check` on node `j` of level `ll` of a bulk-loaded tree returns
the first key of the leftmost leaf below it, the last key of the rightmost
leaf below it, and that leaf. -/
theorem check_bulk (s : State) (input : Nat → Int) (start_key num_key f g top : Nat)
    (pf N : Nat → Nat) (h : BulkTree s input start_key num_key f g top pf N) :
    ∀ ll, ll ≤ top → ∀ j ptr, j < N ll →
      (ptr = 0 ∨ (s.leaf ptr).nextSibling = pf 0 + 256 * leafLo (g + 1) N ll j) →
      check s ll (pf ll + 256 * j) ptr =
        some (firstKeyOf input start_key f (leafLo (g + 1) N ll j),
          lastKeyOf input start_key num_key f (leafLo (g + 1) N ll (j + 1) - 1),
          pf 0 + 256 * (leafLo (g + 1) N ll (j + 1) - 1)) := by
  intro ll
  induction ll with
  | zero =>
    intro _ j ptr hj hptr
    rw [leafLo_zero _ _ j (by omega)] at hptr ⊢
    rw [leafLo_zero _ _ (j + 1) (by omega), Nat.add_sub_cancel]
    exact bulkTree_check_leaf s input start_key num_key f g top pf N h j ptr hj hptr
  | succ d ih =>
    intro hd j ptr hj hptr
    exact check_bulk_step s input start_key num_key f g top pf N h d j ptr hd hj
      (ih (by omega)) hptr

end LBTree


namespace LBTree

/-! ## `check` after a bulk load -/

theorem levels_pos (g top : Nat) (N : Nat → Nat) (hN0 : 1 ≤ N 0)
    (hN : ∀ ll, 1 ≤ ll → ll ≤ top → N ll = ceiling (N (ll - 1)) (g + 1)) :
    ∀ ll, ll ≤ top → 1 ≤ N ll := by
  intro ll
  induction ll with
  | zero => intro _; exact hN0
  | succ d ih =>
    intro hd
    have := hN (d + 1) (by omega) hd
    rw [Nat.add_sub_cancel] at this
    rw [this]
    exact ceiling_pos _ _ (by omega) (ih (by omega))

theorem pfirst_aligned (pf N : Nat → Nat) (top : Nat)
    (hch : ∀ ll, 1 ≤ ll → ll < top → pf (ll + 1) = pf ll + 256 * N ll)
    (h1 : pf 1 % 64 = 0 ∧ 0 < pf 1) :
    ∀ ll, 1 ≤ ll → ll ≤ top → pf ll % 64 = 0 ∧ 0 < pf ll := by
  intro ll
  induction ll with
  | zero => intro h; omega
  | succ d ih =>
    intro _ hd
    by_cases hd0 : d = 0
    · subst hd0
      exact h1
    · obtain ⟨e1, e2⟩ := ih (by omega) (by omega)
      rw [hch d (by omega) (by omega)]
      omega

/-- The descent `p = p->ch(0)` from the first node of level `ll` ends at the first leaf. -/
theorem leftmost_bulk (s : State) (input : Nat → Int) (start_key num_key f g top : Nat)
    (pf N : Nat → Nat) (h : BulkTree s input start_key num_key f g top pf N) :
    ∀ ll, ll ≤ top → leftmost s ll (pf ll) = pf 0 := by
  obtain ⟨h1, h2, h3, h4, h5, h6, h7, _⟩ := h
  have hpos := levels_pos g top N (by rw [h4]; exact (ceiling_bounds num_key f h1 h3).1) h5
  intro ll
  induction ll with
  | zero => intro _; rfl
  | succ d ih =>
    intro hd
    have hnode := h7 (d + 1) 0 (by omega) hd (hpos (d + 1) hd)
    have hNd := h5 (d + 1) (by omega) hd
    rw [Nat.add_sub_cancel] at hNd
    obtain ⟨c1, _⟩ := chCount_bounds g N d 0 hNd (hpos (d + 1) hd)
    obtain ⟨hch0, _⟩ := hnode.2.2.2 0 (by omega)
    simp only [Nat.add_sub_cancel, Nat.mul_zero, Nat.add_zero, Nat.zero_mul, Nat.cast_zero] at hch0
    rw [leftmost, hch0]
    exact ih (by omega)

/-- The tree produced by a successful one-worker `bulkload` is a `BulkTree`. -/
theorem bulkload_tree (s : State) (keynum : Nat) (input : Nat → Int) (f g : Nat)
    (garbage : bleafMeta) (s2 : State)
    (hn : 1 ≤ keynum) (hf1 : 1 ≤ f) (hf14 : f ≤ 14) (hg1 : 1 ≤ g) (hg15 : g ≤ 15)
    (hasc : ∀ i j, i < j → j < keynum → input i < input j)
    (hkey : ∀ i, i < keynum → isKey (input i))
    (hgarb : garbage.fgpt.length = 14)
    (hleaf : ∀ a, (s.leaf a).ent.length = 14 ∧ (s.leaf a).next.length = 2)
    (hnode : ∀ a, (s.node a).ent.length = 16)
    (hnv : s.nvmpool.cur % 256 = 0 ∧ 0 < s.nvmpool.cur)
    (hdp : s.dpool.cur % 64 = 0 ∧ 0 < s.dpool.cur)
    (hb : bulkload s keynum input f g garbage = some s2) :
    ∃ (top : Nat) (pf N : Nat → Nat), BulkTree s2 input 0 keynum f g top pf N ∧
      N top = 1 ∧ pf 0 = s.nvmpool.cur ∧
      s2.root_level = (top : Int) ∧ s2.tree_root = pf top ∧ s2.first_leaf = pf 0 := by
  unfold bulkload at hb
  rcases hsub : bulkloadSubtree s input 0 keynum f g 31 garbage with _ | out
  · rw [hsub] at hb; simp at hb
  · rw [hsub] at hb
    simp only at hb
    by_cases h1 : out.n_nodes out.top_level = 1
    · rw [if_pos h1] at hb
      simp only [Option.some.injEq] at hb
      obtain ⟨l1, l2, l3, l4⟩ := bulkloadSubtree_leaves s input 0 keynum f g 31 garbage out hf1 hf14
        hn hgarb hleaf hsub
      obtain ⟨n1, n2, n3, n4, n5, n6, n7, n8, n9⟩ := bulkloadSubtree_nodes s input 0 keynum f g 31
        garbage out hf1 hf14 hn hg1 hg15 hgarb (fun a => (hleaf a).1) hnode hsub
      have hal := pfirst_aligned out.pfirst out.n_nodes out.top_level n6
      refine ⟨out.top_level, out.pfirst, out.n_nodes, ?_, h1, l2, ?_, ?_, ?_⟩
      · subst hb
        refine ⟨hf1, hf14, hn, n1, fun ll h2 h3 => (n2 ll h2 h3).1, ?_, n7, ?_, ?_, ?_, ?_, ?_⟩
        · intro t ht
          exact l4 t (by rw [← n1]; exact ht)
        · rw [l2]; exact hnv.1
        · rw [l2]; exact hnv.2
        · intro ll h2 h3
          exact hal (by rw [n5 (by omega)]; exact hdp) ll h2 h3
        · intro i j hij hj
          rw [Nat.zero_add, Nat.zero_add]
          exact hasc i j hij hj
        · intro i hi
          rw [Nat.zero_add]
          exact hkey i hi
      · subst hb; rfl
      · subst hb; rfl
      · subst hb; rfl
    · rw [if_neg h1] at hb
      simp at hb

end LBTree


namespace LBTree

/-- The tree returned by a one-worker `bulkload` of strictly ascending keys
passes `check` and `checkFirstLeaf`, `check` reports the first and the last
key, the leaves form the sibling chain from `*first_leaf` to NULL, and the
live slots of the leaves hold exactly the input keys, each with the key's
64-bit pattern as payload. -/
theorem bulkload_checked (s : State) (keynum : Nat) (input : Nat → Int) (f g : Nat)
    (garbage : bleafMeta) (s2 : State)
    (hn : 1 ≤ keynum) (hf1 : 1 ≤ f) (hf14 : f ≤ 14) (hg1 : 1 ≤ g) (hg15 : g ≤ 15)
    (hasc : ∀ i j, i < j → j < keynum → input i < input j)
    (hkey : ∀ i, i < keynum → isKey (input i))
    (hgarb : garbage.fgpt.length = 14)
    (hleaf : ∀ a, (s.leaf a).ent.length = 14 ∧ (s.leaf a).next.length = 2)
    (hnode : ∀ a, (s.node a).ent.length = 16)
    (hnv : s.nvmpool.cur % 256 = 0 ∧ 0 < s.nvmpool.cur)
    (hdp : s.dpool.cur % 64 = 0 ∧ 0 < s.dpool.cur)
    (hb : bulkload s keynum input f g garbage = some s2) :
    checkTree s2 = some (input 0, input (keynum - 1)) ∧
    s2.first_leaf = s.nvmpool.cur ∧
    (∀ t, t < ceiling keynum f →
      (s2.leaf (s.nvmpool.cur + 256 * t)).nextSibling
        = (if t + 1 < ceiling keynum f then s.nvmpool.cur + 256 * (t + 1) else 0)) ∧
    (∀ i, i < keynum → ∃ t j, t < ceiling keynum f ∧ j < 14 ∧
      (s2.leaf (s.nvmpool.cur + 256 * t)).bitmap.testBit j = true ∧
      (s2.leaf (s.nvmpool.cur + 256 * t)).entAt j = ⟨input i, (input i % 2 ^ 64).toNat⟩) ∧
    (∀ t j, t < ceiling keynum f → j < 14 →
      (s2.leaf (s.nvmpool.cur + 256 * t)).bitmap.testBit j = true →
      ∃ i, i < keynum ∧
        (s2.leaf (s.nvmpool.cur + 256 * t)).entAt j = ⟨input i, (input i % 2 ^ 64).toNat⟩) := by
  obtain ⟨top, pf, N, hT, hN1, hp0, hrl, htr, hfl⟩ := bulkload_tree s keynum input f g garbage s2
    hn hf1 hf14 hg1 hg15 hasc hkey hgarb hleaf hnode hnv hdp hb
  have hN0 : N 0 = ceiling keynum f := hT.2.2.2.1
  have hleaves := hT.2.2.2.2.2.1
  obtain ⟨c1, c2, c3, c4⟩ := ceiling_bounds keynum f hf1 hn
  have hfillT := bulkTree_fill s2 input 0 keynum f g top pf N hT
  refine ⟨?_, by rw [hfl, hp0], ?_, ?_, ?_⟩
  · have hchk := check_bulk s2 input 0 keynum f g top pf N hT top (le_refl _) 0 0
      (by rw [hN1]; omega) (Or.inl rfl)
    have e0 : leafLo (g + 1) N top 0 = 0 := by
      unfold leafLo
      rw [if_pos (by rw [hN1]; omega)]
      simp
    have e1 : leafLo (g + 1) N top (0 + 1) = N 0 := by
      unfold leafLo
      rw [if_neg (by rw [hN1]; omega)]
    have hfk : firstKeyOf input 0 f 0 = input 0 := by
      unfold firstKeyOf
      simp
    have hlk : lastKeyOf input 0 keynum f (N 0 - 1) = input (keynum - 1) := by
      unfold lastKeyOf fillOf
      rw [hN0, if_pos rfl]
      congr 1
      omega
    rw [e0, e1, Nat.mul_zero, Nat.add_zero, hfk, hlk] at hchk
    unfold checkTree
    rw [hrl, htr, Int.toNat_ofNat, hchk]
    simp only
    rw [leftmost_bulk s2 input 0 keynum f g top pf N hT top (le_refl _), hfl]
    simp
  · intro t ht
    obtain ⟨b1, b2, b3, b4, b5, b6, b7⟩ := hleaves t (by rw [hN0]; exact ht)
    rw [← hp0]
    unfold bleaf.nextSibling
    rw [b3, b5]
    by_cases h1 : t + 1 < ceiling keynum f
    · rw [if_pos (by omega), if_pos h1]
    · rw [if_neg (by omega), if_neg h1]
  · intro i hi
    have hdm : f * (i / f) + i % f = i := Nat.div_add_mod i f
    have hml : i % f < f := Nat.mod_lt _ (by omega)
    have ht : i / f < ceiling keynum f := by
      apply Nat.div_lt_of_lt_mul
      rw [Nat.mul_comm]
      omega
    obtain ⟨f1, f2, f3, f4⟩ := hfillT (i / f) (by rw [hN0]; exact ht)
    obtain ⟨b1, b2, b3, b4, b5, b6, b7⟩ := hleaves (i / f) (by rw [hN0]; exact ht)
    have hfo : (if i / f = ceiling keynum f - 1 then keynum - (ceiling keynum f - 1) * f else f)
        = fillOf keynum f (i / f) := rfl
    rw [hfo] at b1 b4
    have hmf : i % f < fillOf keynum f (i / f) := by
      by_cases hl : i / f + 1 < N 0
      · rw [(f4 hl).1]
        exact hml
      · have : i / f = ceiling keynum f - 1 := by omega
        unfold fillOf
        rw [if_pos this, ← this, Nat.mul_comm]
        omega
    generalize fillOf keynum f (i / f) = r at f1 f2 f3 b1 b4 hmf
    refine ⟨i / f, 14 - r + i % f, ht, by omega, ?_, ?_⟩
    · rw [← hp0, b1, testBit_fillBitmap r _ f2]
      simp
      omega
    · rw [← hp0, (b4 (14 - r + i % f) (by omega) (by omega)).1]
      have : 0 + i / f * f + (14 - r + i % f - (14 - r)) = i := by
        rw [Nat.mul_comm]
        omega
      rw [this]
  · intro t j ht hj hbit
    obtain ⟨f1, f2, f3, f4⟩ := hfillT t (by rw [hN0]; exact ht)
    obtain ⟨b1, b2, b3, b4, b5, b6, b7⟩ := hleaves t (by rw [hN0]; exact ht)
    have hfo : (if t = ceiling keynum f - 1 then keynum - (ceiling keynum f - 1) * f else f)
        = fillOf keynum f t := rfl
    rw [hfo] at b1 b4
    generalize fillOf keynum f t = r at f1 f2 f3 b1 b4
    rw [← hp0, b1, testBit_fillBitmap r j f2] at hbit
    have hlive : 14 - r ≤ j := by
      have := of_decide_eq_true hbit
      exact this.1
    refine ⟨0 + t * f + (j - (14 - r)), by omega, ?_⟩
    rw [← hp0]
    exact (b4 j hlive hj).1

end LBTree


namespace LBTree

/-! ## A bulk load with enough room returns -/

theorem ceiling_half (x g : Nat) (hg1 : 1 ≤ g) : 2 * ceiling x (g + 1) ≤ x + 1 := by
  by_cases hc : ceiling x (g + 1) = 0
  · omega
  · have h1 := ceiling_lt x (g + 1) (ceiling x (g + 1) - 1) (by omega) (by omega)
    have h2 : (ceiling x (g + 1) - 1) * 2 ≤ (ceiling x (g + 1) - 1) * (g + 1) :=
      Nat.mul_le_mul_left _ (by omega)
    omega

theorem ceiling_le_self (n f : Nat) (hf : 1 ≤ f) : ceiling n f ≤ n := by
  apply ceiling_le n f n hf
  exact Nat.le_mul_of_pos_right n (by omega)

/-- Step 3 succeeds when the pool has room for the leaf count plus one frame a level. -/
theorem allocLevels_some (g top : Nat) (N : Nat → Nat) (hg1 : 1 ≤ g)
    (hN : ∀ ll, 1 ≤ ll → ll ≤ top → N ll = ceiling (N (ll - 1)) (g + 1)) :
    ∀ (fuel i : Nat) (pf : Nat → Nat) (m : mempool), 1 ≤ i → i + fuel = top + 1 →
    (i ≤ top → m.cur + 256 * (N (i - 1) + (top + 1 - i)) ≤ m.limit) →
    ∃ r, allocLevels N top fuel i pf m = some r := by
  intro fuel
  induction fuel with
  | zero =>
    intro i pf m _ _ _
    exact ⟨(pf, m), rfl⟩
  | succ n ih =>
    intro i pf m hi hf hroom
    have hit : i ≤ top := by omega
    have hr := hroom hit
    have hNi := hN i hi hit
    have hhalf := ceiling_half (N (i - 1)) g hg1
    rw [← hNi] at hhalf
    unfold allocLevels
    rw [if_pos hit]
    have hal : m.alloc (256 * N i) = some (m.cur, { m with cur := m.cur + 256 * N i }) := by
      unfold mempool.alloc
      rw [if_pos (by omega)]
    rw [hal]
    simp only
    apply ih (i + 1) _ _ (by omega) (by omega)
    intro _
    show m.cur + 256 * N i + 256 * (N (i + 1 - 1) + (top + 1 - (i + 1))) ≤ m.limit
    rw [Nat.add_sub_cancel]
    omega

/-- With at most `2^31` leaves the thirty-one levels end in a single node. -/
theorem levels_small (g top : Nat) (N : Nat → Nat) (hg1 : 1 ≤ g) (htop : top ≤ 31)
    (hN : ∀ ll, 1 ≤ ll → ll ≤ top → N ll = ceiling (N (ll - 1)) (g + 1))
    (hN0 : N 0 ≤ 2 ^ 31) : ∀ ll, ll ≤ top → N ll ≤ 2 ^ (31 - ll) := by
  intro ll
  induction ll with
  | zero => intro _; exact hN0
  | succ d ih =>
    intro hd
    have h1 := ih (by omega)
    have hNd := hN (d + 1) (by omega) hd
    rw [Nat.add_sub_cancel] at hNd
    have hhalf := ceiling_half (N d) g hg1
    rw [← hNd] at hhalf
    have hp : 2 ^ (31 - d) = 2 * 2 ^ (31 - (d + 1)) := by
      rw [show 31 - d = (31 - (d + 1)) + 1 by omega, pow_succ]
      ring
    omega

/-- A one-worker bulk load returns when the two `ceiling` sums of step 2 are
inside `int` and the two pools have room for the frames. -/
theorem bulkload_some (s : State) (keynum : Nat) (input : Nat → Int) (f g : Nat)
    (garbage : bleafMeta) (hn : 1 ≤ keynum) (hf1 : 1 ≤ f) (hg1 : 1 ≤ g)
    (hfit : keynum + f - 1 < 2 ^ 31 ∧ ceiling keynum f + (g + 1) - 1 < 2 ^ 31)
    (hnvroom : s.nvmpool.cur + 256 * ceiling keynum f ≤ s.nvmpool.limit)
    (hdproom : s.dpool.cur + 256 * (ceiling keynum f + 31) ≤ s.dpool.limit) :
    ∃ s2, bulkload s keynum input f g garbage = some s2 := by
  obtain ⟨k1, k2, k3, k4, k5⟩ := countLevels_spec g 31 31 1
    (fun x => if x = 0 then ceiling keynum f else 0) 0 (le_refl _) rfl (by omega)
  have hk : keynum ≤ 2 ^ 31 := by omega
  unfold bulkload bulkloadSubtree
  rw [if_neg (by omega)]
  simp only
  rcases hcl : countLevels g 31 31 1 (fun x => if x = 0 then ceiling keynum f else 0) 0
    with ⟨N, top⟩
  rw [hcl] at k1 k2 k3 k4 k5
  simp only at k1 k2 k3 k4 k5 ⊢
  have hn0 : N 0 = ceiling keynum f := by
    rw [k3 0 (by omega)]
    simp
  have hNeq : ∀ ll, 1 ≤ ll → ll ≤ top → N ll = ceiling (N (ll - 1)) (g + 1) :=
    fun ll h1 h2 => (k4 ll h1 h2).1
  have hal : s.nvmpool.alloc (256 * N 0)
      = some (s.nvmpool.cur, { s.nvmpool with cur := s.nvmpool.cur + 256 * N 0 }) := by
    unfold mempool.alloc
    rw [if_pos (by rw [hn0]; exact hnvroom)]
  rw [hal]
  simp only
  obtain ⟨⟨pf, dp⟩, hall⟩ := allocLevels_some g top N hg1 hNeq top 1
    (fun x => if x = 0 then s.nvmpool.cur else 0) s.dpool (le_refl _) (by omega)
    (by
      intro _
      rw [Nat.sub_self, hn0]
      omega)
  rw [hall]
  simp only
  have hpos := levels_pos g top N (by rw [hn0]; exact ceiling_pos _ _ hf1 hn) hNeq top (le_refl _)
  have hsmall := levels_small g top N hg1 k2 hNeq
    (by rw [hn0]; exact le_trans (ceiling_le_self keynum f hf1) hk) top (le_refl _)
  have htop1 : N top = 1 := by
    rcases k5 with h | h
    · omega
    · rw [h] at hsmall ⊢
      simp at hsmall
      rw [h] at hpos
      omega
  rw [if_pos htop1]
  exact ⟨_, rfl⟩

end LBTree


namespace LBTree

/-- The one-worker bulk load passes `check`.  A one-worker `bulkload` of
`keynum >= 1` strictly ascending keys (`leaf_fill` in 1..14, `inner_fill` in
1..15) for which the two `ceiling` sums of step 2 are inside `int`
(`keynum + leaf_fill - 1` and `ceil(keynum/leaf_fill) + (inner_fill+1) - 1`
at most `2^31 - 1`), on a memory with well-formed frames whose two pools are
aligned, not NULL and have room for the frames, returns a tree that passes
`check` together with
`checkFirstLeaf` (ordering, fingerprints, lock bits 0, sibling chain, first
leaf); `check` reports `start` = the first key and `end` = the last key; the
leaves form the sibling chain from `*first_leaf` to NULL; every input key is
in a live slot of a leaf with the key's 64-bit pattern as payload, and every
live slot of a leaf holds an input key. -/
theorem bulkload_passes_check (s : State) (keynum : Nat) (input : Nat → Int) (f g : Nat)
    (garbage : bleafMeta)
    (hn : 1 ≤ keynum)
    (hfit : keynum + f - 1 < 2 ^ 31 ∧ ceiling keynum f + (g + 1) - 1 < 2 ^ 31)
    (hf1 : 1 ≤ f) (hf14 : f ≤ 14) (hg1 : 1 ≤ g) (hg15 : g ≤ 15)
    (hasc : ∀ i j, i < j → j < keynum → input i < input j)
    (hkey : ∀ i, i < keynum → isKey (input i))
    (hgarb : garbage.fgpt.length = 14)
    (hleaf : ∀ a, (s.leaf a).ent.length = 14 ∧ (s.leaf a).next.length = 2)
    (hnode : ∀ a, (s.node a).ent.length = 16)
    (hnv : s.nvmpool.cur % 256 = 0 ∧ 0 < s.nvmpool.cur)
    (hdp : s.dpool.cur % 64 = 0 ∧ 0 < s.dpool.cur)
    (hnvroom : s.nvmpool.cur + 256 * ceiling keynum f ≤ s.nvmpool.limit)
    (hdproom : s.dpool.cur + 256 * (ceiling keynum f + 31) ≤ s.dpool.limit) :
    ∃ s2, bulkload s keynum input f g garbage = some s2 ∧
      checkTree s2 = some (input 0, input (keynum - 1)) ∧
      s2.first_leaf = s.nvmpool.cur ∧
      (∀ t, t < ceiling keynum f →
        (s2.leaf (s.nvmpool.cur + 256 * t)).nextSibling
          = (if t + 1 < ceiling keynum f then s.nvmpool.cur + 256 * (t + 1) else 0)) ∧
      (∀ i, i < keynum → ∃ t j, t < ceiling keynum f ∧ j < 14 ∧
        (s2.leaf (s.nvmpool.cur + 256 * t)).bitmap.testBit j = true ∧
        (s2.leaf (s.nvmpool.cur + 256 * t)).entAt j = ⟨input i, (input i % 2 ^ 64).toNat⟩) ∧
      (∀ t j, t < ceiling keynum f → j < 14 →
        (s2.leaf (s.nvmpool.cur + 256 * t)).bitmap.testBit j = true →
        ∃ i, i < keynum ∧
          (s2.leaf (s.nvmpool.cur + 256 * t)).entAt j = ⟨input i, (input i % 2 ^ 64).toNat⟩) := by
  obtain ⟨s2, hb⟩ := bulkload_some s keynum input f g garbage hn hf1 hg1 hfit hnvroom hdproom
  exact ⟨s2, hb, bulkload_checked s keynum input f g garbage s2 hn hf1 hf14 hg1 hg15 hasc hkey
    hgarb hleaf hnode hnv hdp hb⟩

/-- The checked bulk load at a concrete input: the 126 keys `1000 .. 1125` at
fill 1.0 on the blank memory. -/
theorem bulkload_passes_check_instance :
    ∃ s2, bulkload exMem 126 (fun i => 1000 + (i : Int)) 14 15 exGarbage = some s2 ∧
      checkTree s2 = some (1000, 1125) ∧ s2.first_leaf = 4096 := by
  obtain ⟨s2, h1, h2, h3, _⟩ := bulkload_passes_check exMem 126 (fun i => 1000 + (i : Int)) 14 15
    exGarbage (by decide) (by decide) (by decide) (by decide) (by decide) (by decide)
    (by intro i j hij _; show 1000 + (i : Int) < 1000 + (j : Int); omega)
    (by
      intro i hi
      show MIN_KEY ≤ 1000 + (i : Int) ∧ 1000 + (i : Int) ≤ MAX_KEY
      unfold MIN_KEY MAX_KEY
      constructor <;> omega)
    rfl (fun _ => ⟨rfl, rfl⟩) (fun _ => rfl) (by decide) (by decide) (by decide) (by decide)
  refine ⟨s2, h1, ?_, h3⟩
  rw [h2]
  norm_num

end LBTree
